import Mathlib

/-!
# A block store and a small hierarchical file system, verified

Shallow embedding of

* `a2_c_refresher/bits/src/bitmap.c`      (bit array over a byte buffer),
* `a4_block_store/src/block_store.c`      (block store with an embedded free-block map),
* `a5_file_system/include/consts.h` and `a5_file_system/src/FS.c` (the file system).

Conventions of the embedding.

* Memory is byte addressed: a block is a function from byte offsets to bytes
  (`Nat`, meant to be below 256), the block store is a function from block ids
  to blocks.  A buffer handed to or returned from an operation is a function
  from offsets to bytes as well.
* A C string is the list of its bytes, without the terminating NUL.
* `size_t` is 64 bits wide, `uint32_t`, `uint16_t`, `uint8_t` are reduced
  modulo their width where a value is narrowed.
* A bitmap overlay shares its bytes with the memory it was laid over: the
  free-block map is a view of the last 8 blocks of the store, the inode
  occupancy bitmap a view of block 0, the directory-entry map a view of the
  first bytes of `dir_entry_map`.  Every mutation through the view is written
  back to the memory it overlays.
* The inode table and the descriptor table are typed record arrays.
-/

/-! ## Constants (`consts.h`, `FS.c`) -/

abbrev SIZE_MAX : Nat := 2 ^ 64 - 1
abbrev UINT8_MAX : Nat := 255

abbrev BLOCK_STORE_NUM_BLOCKS : Nat := 65536
abbrev BLOCK_STORE_AVAIL_BLOCKS : Nat := 65528
abbrev BLOCK_SIZE_BYTES : Nat := 1024
abbrev NUM_INODES : Nat := 256
abbrev NUM_FDS : Nat := 256
abbrev DIR_ENTRIES_PER_BLOCK : Nat := 31
abbrev BLOCK_PTRS_PER_BLOCK : Nat := 512

abbrev FD_DIRECT_N_PTRS : Nat := 6
abbrev FD_INDIRECT_N_PTRS : Nat := BLOCK_PTRS_PER_BLOCK
abbrev FD_DOUBLE_INDIRECT_N_PTRS : Nat := BLOCK_PTRS_PER_BLOCK * BLOCK_PTRS_PER_BLOCK
abbrev FD_DIRECT_SIZE : Nat := FD_DIRECT_N_PTRS * BLOCK_SIZE_BYTES
abbrev FD_INDIRECT_SIZE : Nat := FD_INDIRECT_N_PTRS * BLOCK_SIZE_BYTES
abbrev FD_DOUBLE_INDIRECT_SIZE : Nat := FD_DOUBLE_INDIRECT_N_PTRS * BLOCK_SIZE_BYTES
abbrev FD_DIRECT_MAX_PTRS : Nat := FD_DIRECT_N_PTRS
abbrev FD_INDIRECT_MAX_PTRS : Nat := FD_DIRECT_MAX_PTRS + FD_INDIRECT_N_PTRS
abbrev FD_DOUBLE_INDIRECT_MAX_PTRS : Nat := FD_INDIRECT_MAX_PTRS + FD_DOUBLE_INDIRECT_N_PTRS
abbrev FD_DIRECT_MAX_OFF : Nat := FD_DIRECT_SIZE
abbrev FD_INDIRECT_MAX_OFF : Nat := FD_DIRECT_MAX_OFF + FD_INDIRECT_SIZE
abbrev FD_DOUBLE_INDIRECT_MAX_OFF : Nat := FD_INDIRECT_MAX_OFF + FD_DOUBLE_INDIRECT_SIZE

/-- Modelled from the spec: `FS_FNAME_MAX` of the absent `FS.h`, the size of
the name buffer of a directory entry, terminating NUL included. -/
abbrev FS_FNAME_MAX : Nat := 32

/-- Modelled from the spec: the first of the blocks that hold the free-block
map (`BITMAP_START_BLOCK` of the absent `block_store.h`): the map takes the
last 8 blocks of the store. -/
abbrev BITMAP_START_BLOCK : Nat := 65528
/-- Modelled from the spec: the number of blocks that hold the free-block map
(`BITMAP_NUM_BLOCKS` of the absent `block_store.h`). -/
abbrev BITMAP_NUM_BLOCKS : Nat := 8
/-- Modelled from the spec: the free-block map has one bit per block
(`BITMAP_SIZE_BITS` of the absent `block_store.h`). -/
abbrev BITMAP_SIZE_BITS : Nat := BLOCK_STORE_NUM_BLOCKS

/-- The byte `'/'`. -/
abbrev SLASH : Nat := 47
/-- The byte `'.'`. -/
abbrev DOT : Nat := 46
/-- The byte `'r'`, the type tag of a regular file. -/
abbrev CHAR_r : Nat := 114
/-- The byte `'d'`, the type tag of a directory. -/
abbrev CHAR_d : Nat := 100

/-! ## Bitmap (`bitmap.c`) -/

/-- The record `bitmap_t`: `data` is the byte buffer the bits live in. -/
structure bitmap_t where
  data : Nat → Nat
  bit_count : Nat
  byte_count : Nat

/-- Modelled from the spec: `bitmap_overlay`, absent from `bitmap.c`: a bitmap
of `n_bits` bits laid over caller-provided memory, which it shares. -/
def bitmap_overlay (n_bits : Nat) (data : Nat → Nat) : bitmap_t :=
  { data := data, bit_count := n_bits,
    byte_count := n_bits / 8 + (if n_bits % 8 = 0 then 0 else 1) }

/-- The function `bitmap_set`: the success flag and the bitmap after the call. -/
def bitmap_set (bitmap : bitmap_t) (bit : Nat) : Bool × bitmap_t :=
  if bit ≥ bitmap.bit_count then (false, bitmap)
  else
    let mask := 1 <<< (bit % 8)
    (true, { bitmap with
      data := fun i => if i = bit / 8 then bitmap.data i ||| mask else bitmap.data i })

/-- The function `bitmap_reset`: the mask is the 8-bit complement of the bit. -/
def bitmap_reset (bitmap : bitmap_t) (bit : Nat) : Bool × bitmap_t :=
  if bit ≥ bitmap.bit_count then (false, bitmap)
  else
    let mask := 255 ^^^ (1 <<< (bit % 8))
    (true, { bitmap with
      data := fun i => if i = bit / 8 then bitmap.data i &&& mask else bitmap.data i })

/-- The function `bitmap_test`: no bound is checked. -/
def bitmap_test (bitmap : bitmap_t) (bit : Nat) : Bool :=
  let mask := 1 <<< (bit % 8)
  bitmap.data (bit / 8) &&& mask ≠ 0

/-- The loop of `_uint8_ffs_n`, from index `i`, with `fuel` iterations left of
the eight. -/
def _uint8_ffs_n_loop (max_index : Nat) : Nat → Nat → Nat → Nat
  | 0, _, _ => UINT8_MAX
  | fuel + 1, byte, i =>
    if i < max_index then
      if byte &&& 1 ≠ 0 then i else _uint8_ffs_n_loop max_index fuel (byte >>> 1) (i + 1)
    else UINT8_MAX

/-- The function `_uint8_ffs_n`: index of the first set bit among the low
`max_index` bits of `byte`, else `UINT8_MAX`. -/
def _uint8_ffs_n (byte max_index : Nat) : Nat :=
  _uint8_ffs_n_loop max_index 8 byte 0

/-- The byte loop of `bitmap_ffz`, from byte `i`, with `fuel = byte_count - i`
iterations left. -/
def bitmap_ffz_loop (bitmap : bitmap_t) (last_byte_count last_byte_i : Nat) :
    Nat → Nat → Nat
  | 0, _ => SIZE_MAX
  | fuel + 1, i =>
    let byte := 255 ^^^ (bitmap.data i % 256)
    let j := _uint8_ffs_n byte (if i = last_byte_i then last_byte_count else 8)
    if j ≠ UINT8_MAX then i * 8 + j
    else bitmap_ffz_loop bitmap last_byte_count last_byte_i fuel (i + 1)

/-- The function `bitmap_ffz`: first clear bit, `SIZE_MAX` when there is none. -/
def bitmap_ffz (bitmap : bitmap_t) : Nat :=
  let last_byte_count := if bitmap.bit_count % 8 = 0 then 8 else bitmap.bit_count % 8
  let last_byte_i := (bitmap.byte_count + SIZE_MAX) % 2 ^ 64
  bitmap_ffz_loop bitmap last_byte_count last_byte_i bitmap.byte_count 0

/-- Modelled from the spec: `bitmap_total_set` (the spec's popcount), absent
from `bitmap.c`: the number of set bits among the `bit_count` bits. -/
def bitmap_total_set (bitmap : bitmap_t) : Nat :=
  ((List.range bitmap.bit_count).filter (fun i => bitmap_test bitmap i)).length

/-- Modelled from the spec: `bitmap_get_bits`, absent from `bitmap.c`. -/
def bitmap_get_bits (bitmap : bitmap_t) : Nat := bitmap.bit_count

/-! ## Block store (`block_store.c`) -/

/-- A block (or any byte buffer): byte offset to byte. -/
abbrev block_t : Type := Nat → Nat

/-- The record `block_store`: the array of blocks.  The field `fbm` of the C
record is an overlay of the blocks from `BITMAP_START_BLOCK` on, hence a view
of `blocks`. -/
structure block_store_t where
  blocks : Nat → block_t

/-- The free-block map of a store: the overlay made in `block_store_create`. -/
def block_store_t.fbm (bs : block_store_t) : bitmap_t :=
  bitmap_overlay BITMAP_SIZE_BITS
    (fun j => bs.blocks (BITMAP_START_BLOCK + j / BLOCK_SIZE_BYTES) (j % BLOCK_SIZE_BYTES))

/-- Write the bytes of the free-block map back to the blocks it overlays. -/
def block_store_t.set_fbm (bs : block_store_t) (m : bitmap_t) : block_store_t :=
  { blocks := fun b o =>
      if BITMAP_START_BLOCK ≤ b ∧ b < BITMAP_START_BLOCK + BITMAP_NUM_BLOCKS ∧
          o < BLOCK_SIZE_BYTES
      then m.data ((b - BITMAP_START_BLOCK) * BLOCK_SIZE_BYTES + o)
      else bs.blocks b o }

/-- The function `block_store_create`: zeroed blocks, the map's own blocks
marked in use. -/
def block_store_create : block_store_t :=
  let bs : block_store_t := { blocks := fun _ _ => 0 }
  (List.range BITMAP_NUM_BLOCKS).foldl
    (fun bs k => bs.set_fbm (bitmap_set bs.fbm (BITMAP_START_BLOCK + k)).2) bs

/-- The function `block_store_request`. -/
def block_store_request (bs : block_store_t) (block_id : Nat) : Bool × block_store_t :=
  if block_id ≥ BLOCK_STORE_NUM_BLOCKS then (false, bs)
  else if bitmap_test bs.fbm block_id then (false, bs)
  else (true, bs.set_fbm (bitmap_set bs.fbm block_id).2)

/-- The function `block_store_allocate`: the id (or `SIZE_MAX`) and the store. -/
def block_store_allocate (bs : block_store_t) : Nat × block_store_t :=
  let block_id := bitmap_ffz bs.fbm
  let r := block_store_request bs block_id
  if r.1 then (block_id, r.2) else (SIZE_MAX, r.2)

/-- The function `block_store_release`. -/
def block_store_release (bs : block_store_t) (block_id : Nat) : block_store_t :=
  if block_id ≥ BLOCK_STORE_NUM_BLOCKS then bs
  else bs.set_fbm (bitmap_reset bs.fbm block_id).2

/-- The function `block_store_get_used_blocks`. -/
def block_store_get_used_blocks (bs : block_store_t) : Nat :=
  bitmap_total_set bs.fbm

/-- The function `block_store_get_free_blocks`. -/
def block_store_get_free_blocks (bs : block_store_t) : Nat :=
  bitmap_get_bits bs.fbm - bitmap_total_set bs.fbm

/-- The function `block_store_read`: `none` stands for the return value 0,
`some` of the copied block for the return value `BLOCK_SIZE_BYTES`. -/
def block_store_read (bs : block_store_t) (block_id : Nat) : Option block_t :=
  if block_id ≥ BLOCK_STORE_NUM_BLOCKS then none
  else some (bs.blocks block_id)

/-- The function `block_store_write`: `none` stands for the return value 0. -/
def block_store_write (bs : block_store_t) (block_id : Nat) (buffer : block_t) :
    Option block_store_t :=
  if block_id ≥ BLOCK_STORE_NUM_BLOCKS then none
  else some { blocks := fun b => if b = block_id then buffer else bs.blocks b }

/-! ## C strings and the libc path helpers -/

/-- The bytes of a string literal, as a C string. -/
def bytes (s : String) : List Nat := s.toList.map Char.toNat

/-- The libc function `strnlen` on a C string. -/
def strnlen (s : List Nat) (n : Nat) : Nat := min s.length n

/-- The C string found in the first `n` bytes of a buffer: the bytes before
the first NUL. -/
def cstrn (n : Nat) (buf : List Nat) : List Nat := (buf.take n).takeWhile (fun c => c ≠ 0)

/-- The test `strncmp(a, b, n) == 0`. -/
def strncmp_eq (a b : List Nat) (n : Nat) : Bool := cstrn n a == cstrn n b

/-- The libc function `strncpy(dst, src, n)`: the `n` bytes stored in `dst`. -/
def strncpy (src : List Nat) (n : Nat) : List Nat :=
  src.take n ++ List.replicate (n - src.length) 0

/-- The tokens that the repeated `strtok_r(str, "/", &saveptr)` of
`_split_path` yields; `cur` is the token being read, reversed. -/
def strtok_loop : List Nat → List Nat → List (List Nat)
  | cur, [] => if cur.isEmpty then [] else [cur.reverse]
  | cur, c :: rest =>
    if c = SLASH then
      (if cur.isEmpty then strtok_loop [] rest else cur.reverse :: strtok_loop [] rest)
    else strtok_loop (c :: cur) rest

/-- A string without its trailing slashes. -/
def strip_trailing_slashes (s : List Nat) : List Nat :=
  (s.reverse.dropWhile (fun c => c = SLASH)).reverse

/-- The libc function `dirname` (glibc). -/
def dirname (path : List Nat) : List Nat :=
  let t := strip_trailing_slashes path
  let body :=
    if 2 ≤ path.length ∧ path.getLast? = some SLASH ∧ ¬ t.isEmpty then t else path
  if SLASH ∈ body then
    let pre := ((body.reverse.dropWhile (fun c => c ≠ SLASH)).drop 1).reverse
    let r := strip_trailing_slashes pre
    if r.isEmpty then (if pre.length = 1 then [SLASH, SLASH] else [SLASH]) else r
  else [DOT]

/-- The libc function `basename` of `libgen.h` (glibc `__xpg_basename`). -/
def basename (path : List Nat) : List Nat :=
  if path.isEmpty then [DOT]
  else
    let t := strip_trailing_slashes path
    if t.isEmpty then [SLASH]
    else (t.reverse.takeWhile (fun c => c ≠ SLASH)).reverse

/-- The macro `PATH_OK`. -/
def PATH_OK (path : List Nat) : Bool := path.head? = some SLASH

/-- The macro `INUM_OK`. -/
def INUM_OK (inum : Nat) : Bool := inum < NUM_INODES

/-- The macro `FD_OK`. -/
def FD_OK (fd : Int) : Bool := 0 ≤ fd ∧ fd < NUM_FDS

/-- The function `_dirname`: `none` stands for `NULL`. -/
def _dirname (path : List Nat) : Option (List Nat) :=
  if ¬ PATH_OK path ∨ path = [SLASH] then none
  else
    let dir := dirname path
    if dir = [DOT] then none else some dir

/-- The function `_basename`: `none` stands for `NULL`. -/
def _basename (path : List Nat) : Option (List Nat) :=
  if ¬ PATH_OK path ∨ path = [SLASH] then none
  else
    let base := basename path
    if base = [DOT] ∨ base = [DOT, DOT] then none else some base

/-- The function `_split_path`: the components of a path.  An element of the
dynamic array holds the first `FS_FNAME_MAX` bytes of its token. -/
def _split_path (path : List Nat) : Option (List (List Nat)) :=
  if ¬ PATH_OK path then none
  else some ((strtok_loop [] path).map (fun tok => tok.take FS_FNAME_MAX))

/-! ## Records of the file system (`FS.c`) -/

/-- The record `inode` (the padding `_alignment1` left out); `data_direct` has
`FD_DIRECT_N_PTRS` cells. -/
structure inode_t where
  dir_entry_map : Nat
  file_type : Nat
  inum : Nat
  file_size : Nat
  link_count : Nat
  data_direct : Nat → Nat
  data_indirect : Nat
  data_double_indirect : Nat

/-- The record `fileDescriptor`. -/
structure fileDescriptor_t where
  inum : Nat
  usage : Nat
  locate_order : Nat
  locate_offset : Nat
deriving DecidableEq

abbrev FD_DIRECT : Nat := 1
abbrev FD_INDIRECT : Nat := 2
abbrev FD_DOUBLE_INDIRECT : Nat := 4

/-- The record `directoryFile`: the 32 bytes of the name and the inode number. -/
structure directoryFile_t where
  filename : List Nat
  inum : Nat
deriving DecidableEq

/-- Modelled from the spec: the enumerators of `file_t` of the absent `FS.h`. -/
abbrev FS_REGULAR : Nat := 0
/-- Modelled from the spec: the enumerators of `file_t` of the absent `FS.h`. -/
abbrev FS_DIRECTORY : Nat := 1
/-- Modelled from the spec: the enumerators of `seek_t` of the absent `FS.h`. -/
abbrev FS_SEEK_SET : Nat := 0
/-- Modelled from the spec: the enumerators of `seek_t` of the absent `FS.h`. -/
abbrev FS_SEEK_CUR : Nat := 1
/-- Modelled from the spec: the enumerators of `seek_t` of the absent `FS.h`. -/
abbrev FS_SEEK_END : Nat := 2

/-- Modelled from the spec: a sub-store of the absent a5 block-store library:
an occupancy bitmap and an array of fixed-size records. -/
structure sub_store_t (α : Type) where
  fbm : bitmap_t
  records : Nat → α

/-- Modelled from the spec: `block_store_sub_allocate`, absent from the
sources: first free record, marked used; `SIZE_MAX` and no change when full. -/
def block_store_sub_allocate {α : Type} (s : sub_store_t α) : Nat × sub_store_t α :=
  let id := bitmap_ffz s.fbm
  if id = SIZE_MAX then (SIZE_MAX, s)
  else (id, { s with fbm := (bitmap_set s.fbm id).2 })

/-- Modelled from the spec: `block_store_sub_release`, absent from the
sources: marks the record free. -/
def block_store_sub_release {α : Type} (s : sub_store_t α) (id : Nat) : sub_store_t α :=
  { s with fbm := (bitmap_reset s.fbm id).2 }

/-- Modelled from the spec: `block_store_sub_test`, absent from the sources:
whether the record is in use; an id out of range is not. -/
def block_store_sub_test {α : Type} (s : sub_store_t α) (id : Nat) : Bool :=
  if id ≥ s.fbm.bit_count then false else bitmap_test s.fbm id

/-- Modelled from the spec: `block_store_inode_read` and `block_store_fd_read`,
absent from the sources: the record, `none` (return value 0) out of range. -/
def block_store_sub_read {α : Type} (s : sub_store_t α) (id : Nat) : Option α :=
  if id ≥ s.fbm.bit_count then none else some (s.records id)

/-- Modelled from the spec: `block_store_inode_write` and
`block_store_fd_write`, absent from the sources: `none` (return value 0) out
of range. -/
def block_store_sub_write {α : Type} (s : sub_store_t α) (id : Nat) (r : α) :
    Option (sub_store_t α) :=
  if id ≥ s.fbm.bit_count then none
  else some { s with records := fun i => if i = id then r else s.records i }

/-- The record `FS`.  `BlockStore_inode` is attached to the whole store (its
bitmap is block 0, see `fs_format`): the field kept here is its record array. -/
structure FS_t where
  BlockStore_whole : block_store_t
  inode_table : Nat → inode_t
  BlockStore_fd : sub_store_t fileDescriptor_t

/-- The inode sub-store, as `fs_format` and `fs_mount` attach it: the bitmap
overlays the start of block 0 of the whole store. -/
def FS_t.BlockStore_inode (fs : FS_t) : sub_store_t inode_t :=
  { fbm := bitmap_overlay NUM_INODES (fs.BlockStore_whole.blocks 0),
    records := fs.inode_table }

/-- Write the inode sub-store back: its bitmap bytes are bytes of block 0. -/
def FS_t.set_BlockStore_inode (fs : FS_t) (s : sub_store_t inode_t) : FS_t :=
  { fs with
    BlockStore_whole :=
      { blocks := fun b => if b = 0 then s.fbm.data else fs.BlockStore_whole.blocks b },
    inode_table := s.records }

/-- The macro `_BS_INODE_WRITE_OK`, with the state after the write. -/
def _BS_INODE_WRITE (fs : FS_t) (inum : Nat) (src : inode_t) : Option FS_t :=
  (block_store_sub_write fs.BlockStore_inode inum src).map fs.set_BlockStore_inode

/-- The macro `_BS_WRITE_OK`, with the state after the write. -/
def _BS_WRITE (fs : FS_t) (block_num : Nat) (src : block_t) : Option FS_t :=
  (block_store_write fs.BlockStore_whole block_num src).map
    (fun bs => { fs with BlockStore_whole := bs })

/-- The macro `_BS_FD_WRITE_OK`, with the state after the write. -/
def _BS_FD_WRITE (fs : FS_t) (fd_index : Nat) (src : fileDescriptor_t) : Option FS_t :=
  (block_store_sub_write fs.BlockStore_fd fd_index src).map
    (fun s => { fs with BlockStore_fd := s })

/-- The bytes of a `uint32_t` in memory (little endian). -/
def uint32_bytes (m : Nat) : Nat → Nat := fun i => (m >>> (8 * i)) % 256

/-- The `uint32_t` held in four bytes of memory (little endian). -/
def uint32_of_bytes (d : Nat → Nat) : Nat :=
  d 0 % 256 + 256 * (d 1 % 256) + 65536 * (d 2 % 256) + 16777216 * (d 3 % 256)

/-- The `uint16_t` cell `k` of a block read as `ind_block_t` (little endian). -/
def ind_get (b : block_t) (k : Nat) : Nat := b (2 * k) % 256 + 256 * (b (2 * k + 1) % 256)

/-- The block after the store `ind_block[k] = v` of a `uint16_t`. -/
def ind_set (b : block_t) (k v : Nat) : block_t :=
  fun o => if o = 2 * k then v % 256 else if o = 2 * k + 1 then (v / 256) % 256 else b o

/-- The name bytes of entry `i` of a directory block read as `directoryFile_t[]`. -/
def dentry_filename (entries : block_t) (i : Nat) : List Nat :=
  (List.range 32).map (fun j => entries (33 * i + j))

/-- The inode number of entry `i` of a directory block. -/
def dentry_inum (entries : block_t) (i : Nat) : Nat := entries (33 * i + 32) % 256

/-- The directory block after entry `i` is given a name (`strncpy`) and an
inode number. -/
def dentry_store (entries : block_t) (i : Nat) (filename : List Nat) (inum : Nat) : block_t :=
  fun o =>
    if 33 * i ≤ o ∧ o < 33 * i + 32 then (strncpy filename 32).getD (o - 33 * i) 0
    else if o = 33 * i + 32 then inum % 256
    else entries o

/-! ## Inodes, directories and path resolution (`FS.c`) -/

/-- The function `_inode_read`: `none` stands for `false`. -/
def _inode_read (fs : FS_t) (inum : Nat) : Option inode_t :=
  if ¬ INUM_OK inum then none
  else if ¬ block_store_sub_test fs.BlockStore_inode inum then none
  else block_store_sub_read fs.BlockStore_inode inum

/-- The function `_inode_dir_load`: the directory block (block
`data_direct[0]`, whatever the size of the directory) and the 16-bit overlay
of `dir_entry_map`; `none` stands for `-1`. -/
def _inode_dir_load (fs : FS_t) (inode : inode_t) : Option (block_t × bitmap_t) :=
  let block_num := inode.data_direct 0
  if inode.file_type ≠ CHAR_d then none
  else
    let map := bitmap_overlay 16 (uint32_bytes inode.dir_entry_map)
    match block_store_read fs.BlockStore_whole block_num with
    | none => none
    | some block => some (block, map)

/-- The loop of `_inode_find_child`, from entry `i`, with `fuel` entries left. -/
def _inode_find_child_loop (entries : block_t) (child : List Nat) : Nat → Nat → Int
  | 0, _ => -1
  | fuel + 1, i =>
    if strncmp_eq (dentry_filename entries i) child FS_FNAME_MAX then (dentry_inum entries i : Int)
    else _inode_find_child_loop entries child fuel (i + 1)

/-- The function `_inode_find_child`: the map is taken and not consulted. -/
def _inode_find_child (entries : block_t) (_map : bitmap_t) (child : List Nat) : Int :=
  _inode_find_child_loop entries child DIR_ENTRIES_PER_BLOCK 0

/-- The function `_inum_find_child`. -/
def _inum_find_child (fs : FS_t) (parent_inum : Nat) (child : List Nat) : Int :=
  if ¬ INUM_OK parent_inum then -1
  else
    match _inode_read fs parent_inum with
    | none => -1
    | some parent_inode =>
      match _inode_dir_load fs parent_inode with
      | none => -1
      | some (block, map) => _inode_find_child block map child

/-- The loop of `_get_inum` over the components still to resolve. -/
def _get_inum_loop (fs : FS_t) : Int → List (List Nat) → Int
  | component_inum, [] => component_inum
  | component_inum, component_name :: rest =>
    let next := _inum_find_child fs component_inum.toNat component_name
    if next < 0 then -1 else _get_inum_loop fs next rest

/-- The function `_get_inum`. -/
def _get_inum (fs : FS_t) (path : List Nat) : Int :=
  match _split_path path with
  | none => -1
  | some path_components => _get_inum_loop fs 0 path_components

/-! ## The facade: format, create, open, close, get_dir (`FS.c`) -/

/-- The second half of `fs_format`, from "install inode block store inside the
whole block store" on: the inode sub-store is attached to the whole store,
inode 0 is allocated and written as the root directory, and an empty
descriptor table is made. -/
def fs_format_install (whole : block_store_t) : FS_t :=
  let fs : FS_t :=
    { BlockStore_whole := whole,
      inode_table := fun _ =>
        { dir_entry_map := 0, file_type := 0, inum := 0, file_size := 0, link_count := 0,
          data_direct := fun _ => 0, data_indirect := 0, data_double_indirect := 0 },
      BlockStore_fd :=
        { fbm := bitmap_overlay NUM_FDS (fun _ => 0),
          records := fun _ => { inum := 0, usage := 0, locate_order := 0, locate_offset := 0 } } }
  let fs := fs.set_BlockStore_inode (block_store_sub_allocate fs.BlockStore_inode).2
  let root_inum := 0
  let root_inode : inode_t :=
    { dir_entry_map := 0, file_type := CHAR_d, inum := root_inum, file_size := 0,
      link_count := 0, data_direct := fun _ => 0, data_indirect := 0,
      data_double_indirect := 0 }
  match _BS_INODE_WRITE fs root_inum root_inode with
  | none => fs
  | some fs => fs

/-- The body of `fs_format`: a fresh block store, block 0 (inode bitmap) and 16
blocks (inode table) allocated, then `fs_format_install`. -/
def fs_format_state : FS_t :=
  fs_format_install
    ((List.range 17).foldl (fun bs _ => (block_store_allocate bs).2) block_store_create)

/-- The function `fs_format`: `none` stands for `NULL`. -/
def fs_format (path : List Nat) : Option FS_t :=
  if path.length ≠ 0 then some fs_format_state else none

/-- The exit of `fs_create` through the label `err3`: the directory block is
released when this call allocated it. -/
def fs_create_err3 (fs : FS_t) (dentry_block_num_is_new : Bool) (dentry_block_num : Nat) :
    Int × FS_t :=
  (-1, if dentry_block_num_is_new then
      { fs with BlockStore_whole := block_store_release fs.BlockStore_whole dentry_block_num }
    else fs)

/-- The exit of `fs_create` through the label `err5`: the new inode number is
released, then `err3`. -/
def fs_create_err5 (fs : FS_t) (new_inum : Nat) (dentry_block_num_is_new : Bool)
    (dentry_block_num : Nat) : Int × FS_t :=
  fs_create_err3 (fs.set_BlockStore_inode (block_store_sub_release fs.BlockStore_inode new_inum))
    dentry_block_num_is_new dentry_block_num

/-- The last part of `fs_create` ("Create the new inode", "Write the new inode
to the store", "Update the parent directory's inode"), entered with the
checks passed.  The exit through `err6` is taken only when the write of the
parent inode fails, which it never does for the inode number `_inode_read`
accepted; the write of the local inode over a whole block that this exit makes
is not modelled. -/
def fs_create_commit (fs1 : FS_t) (new_file_type : Nat) (parent_inum : Nat)
    (parent_inode1 : inode_t) (parent_dentry_block : block_t) (parent_dentry_map : bitmap_t)
    (dentry_block_num_is_new : Bool) (filename : List Nat) : Int × FS_t :=
  let dentry_block_num := parent_inode1.data_direct 0
  let r := block_store_sub_allocate fs1.BlockStore_inode
  let new_inum := r.1
  let fs2 := fs1.set_BlockStore_inode r.2
  if new_inum = SIZE_MAX then fs_create_err3 fs2 dentry_block_num_is_new dentry_block_num
  else
  let node : inode_t :=
    { dir_entry_map := 0, file_type := new_file_type, inum := new_inum, file_size := 0,
      link_count := 1, data_direct := fun _ => 0, data_indirect := 0,
      data_double_indirect := 0 }
  match _BS_INODE_WRITE fs2 new_inum node with
  | none => fs_create_err5 fs2 new_inum dentry_block_num_is_new dentry_block_num
  | some fs3 =>
  let index := bitmap_ffz parent_dentry_map
  if index = SIZE_MAX ∨ index ≥ DIR_ENTRIES_PER_BLOCK then
    fs_create_err5 fs3 new_inum dentry_block_num_is_new dentry_block_num
  else
  let parent_dentry_map1 := (bitmap_set parent_dentry_map index).2
  let parent_inode2 : inode_t :=
    { parent_inode1 with
      dir_entry_map := uint32_of_bytes parent_dentry_map1.data,
      file_size := (parent_inode1.file_size + 1) % 2 ^ 64 }
  let parent_dentry_block1 := dentry_store parent_dentry_block index filename new_inum
  match _BS_WRITE fs3 dentry_block_num parent_dentry_block1 with
  | none => fs_create_err5 fs3 new_inum dentry_block_num_is_new dentry_block_num
  | some fs4 =>
  match _BS_INODE_WRITE fs4 parent_inum parent_inode2 with
  | none => fs_create_err5 fs4 new_inum dentry_block_num_is_new dentry_block_num
  | some fs5 => (0, fs5)

/-- The middle part of `fs_create` ("Verify that the file can/should be
created"), entered with the parent directory loaded and its entry block
allocated. -/
def fs_create_verify (fs1 : FS_t) (path : List Nat) (new_file_type : Nat) (parent_inum : Nat)
    (parent_inode1 : inode_t) (parent_dentry_block : block_t) (parent_dentry_map : bitmap_t)
    (dentry_block_num_is_new : Bool) : Int × FS_t :=
  let dentry_block_num := parent_inode1.data_direct 0
  if bitmap_total_set parent_dentry_map ≥ DIR_ENTRIES_PER_BLOCK then
    fs_create_err3 fs1 dentry_block_num_is_new dentry_block_num
  else
  match _basename path with
  | none => fs_create_err3 fs1 dentry_block_num_is_new dentry_block_num
  | some filename =>
  if strnlen path FS_FNAME_MAX = FS_FNAME_MAX then
    fs_create_err3 fs1 dentry_block_num_is_new dentry_block_num
  else if _inode_find_child parent_dentry_block parent_dentry_map filename ≥ 0 then
    fs_create_err3 fs1 dentry_block_num_is_new dentry_block_num
  else
    fs_create_commit fs1 new_file_type parent_inum parent_inode1 parent_dentry_block
      parent_dentry_map dentry_block_num_is_new filename

/-- The part of `fs_create` that takes the entry block of the parent: a block
is allocated when the directory has none (`file_size == 0`). -/
def fs_create_dentry_block (fs : FS_t) (path : List Nat) (new_file_type : Nat) (parent_inum : Nat)
    (parent_inode : inode_t) (parent_dentry_block : block_t) (parent_dentry_map : bitmap_t) :
    Int × FS_t :=
  if parent_inode.file_size = 0 then
    let alloc := block_store_allocate fs.BlockStore_whole
    let fs1 : FS_t := { fs with BlockStore_whole := alloc.2 }
    if alloc.1 = SIZE_MAX then (-1, fs1)
    else
      let parent_inode1 : inode_t :=
        { parent_inode with
          data_direct := fun k => if k = 0 then alloc.1 % 65536 else parent_inode.data_direct k }
      fs_create_verify fs1 path new_file_type parent_inum parent_inode1 parent_dentry_block
        parent_dentry_map true
  else
    fs_create_verify fs path new_file_type parent_inum parent_inode parent_dentry_block
      parent_dentry_map false

/-- The function `fs_create`: the return value and the state after the call. -/
def fs_create (fs : FS_t) (path : List Nat) (type : Nat) : Int × FS_t :=
  if ¬ PATH_OK path then (-1, fs)
  else if path.getLast? = some SLASH then (-1, fs)
  else
  match (if type = FS_REGULAR then some CHAR_r
         else if type = FS_DIRECTORY then some CHAR_d else none) with
  | none => (-1, fs)
  | some new_file_type =>
  match _dirname path with
  | none => (-1, fs)
  | some parent_path =>
  let parent_inum := _get_inum fs parent_path
  if parent_inum < 0 then (-1, fs)
  else
  match _inode_read fs parent_inum.toNat with
  | none => (-1, fs)
  | some parent_inode =>
  match _inode_dir_load fs parent_inode with
  | none => (-1, fs)
  | some (parent_dentry_block, parent_dentry_map) =>
    fs_create_dentry_block fs path new_file_type parent_inum.toNat parent_inode
      parent_dentry_block parent_dentry_map

/-- The function `fs_open`: the return value and the state after the call. -/
def fs_open (fs : FS_t) (path : List Nat) : Int × FS_t :=
  let inum := _get_inum fs path
  if inum < 0 then (-1, fs)
  else
  match _inode_read fs inum.toNat with
  | none => (-1, fs)
  | some inode =>
  if inode.file_type = CHAR_d then (-1, fs)
  else
  let r := block_store_sub_allocate fs.BlockStore_fd
  let fd_index := r.1
  let fs1 : FS_t := { fs with BlockStore_fd := r.2 }
  if fd_index = SIZE_MAX then (-1, fs1)
  else
  let fd : fileDescriptor_t :=
    { inum := inum.toNat % 256, usage := FD_DIRECT, locate_order := 0, locate_offset := 0 }
  match _BS_FD_WRITE fs1 fd_index fd with
  | none => (-1, { fs1 with BlockStore_fd := block_store_sub_release fs1.BlockStore_fd fd_index })
  | some fs2 => (fd_index, fs2)

/-- The function `fs_close`. -/
def fs_close (fs : FS_t) (fd : Int) : Int × FS_t :=
  if fd < 0 ∨ fd > 255 then (-1, fs)
  else if ¬ block_store_sub_test fs.BlockStore_fd fd.toNat then (-1, fs)
  else (0, { fs with BlockStore_fd := block_store_sub_release fs.BlockStore_fd fd.toNat })

/-- The function `fs_get_dir`: the entries pushed on the dynamic array, in
order; `none` stands for `NULL`. -/
def fs_get_dir (fs : FS_t) (path : List Nat) : Option (List directoryFile_t) :=
  if ¬ PATH_OK path then none
  else
  let inum := _get_inum fs path
  if inum < 0 then none
  else
  match _inode_read fs inum.toNat with
  | none => none
  | some inode =>
  match _inode_dir_load fs inode with
  | none => none
  | some (block, map) =>
    some (((List.range DIR_ENTRIES_PER_BLOCK).filter (fun i => bitmap_test map i)).map
      (fun i => { filename := dentry_filename block i, inum := dentry_inum block i }))

/-! ## Descriptors and cursors (`FS.c`) -/

/-- The macro `WHENCE_OK`. -/
def WHENCE_OK (whence : Nat) : Bool :=
  whence = FS_SEEK_SET ∨ whence = FS_SEEK_CUR ∨ whence = FS_SEEK_END

/-- The conversion `(double)x` of a `size_t`: exact below `2 ^ 53`, else
rounded to 53 significant bits, ties to even. -/
def double_of_size_t (x : Nat) : Nat :=
  if x < 2 ^ 53 then x
  else
    let e := ((List.range 12).find? (fun e => x < 2 ^ (53 + e))).getD 11
    let q := x / 2 ^ e
    let r := x % 2 ^ e
    let half := 2 ^ (e - 1)
    (if r > half ∨ (r = half ∧ q % 2 = 1) then q + 1 else q) * 2 ^ e

/-- The expression `ceil((double)x / BLOCK_SIZE_BYTES)`, converted to `size_t`:
the division by a power of two and the rounding up are exact. -/
def ceil_blocks (x : Nat) : Nat :=
  (double_of_size_t x + (BLOCK_SIZE_BYTES - 1)) / BLOCK_SIZE_BYTES

/-- The conversion of a `size_t` to `ssize_t`. -/
def to_ssize_t (x : Nat) : Int := if x < 2 ^ 63 then (x : Int) else (x : Int) - 2 ^ 64

/-- The value an `ssize_t` holds after an addition whose exact result is `x`:
`x` itself when it fits in 64 bits, else `x` wrapped around (two's complement).
C leaves the overflow undefined; the machine addition wraps. -/
def wrap_ssize_t (x : Int) : Int := (x + 2 ^ 63) % 2 ^ 64 - 2 ^ 63

/-- The function `_clamped_add`: the sum `a + b` is an `ssize_t` addition. -/
def _clamped_add (a b min max : Int) : Int :=
  let res := wrap_ssize_t (a + b)
  if res < min then min else if res > max then max else res

/-- The function `_fd_read`: `none` stands for `false`. -/
def _fd_read (fs : FS_t) (fd_index : Int) : Option fileDescriptor_t :=
  if ¬ FD_OK fd_index then none
  else if ¬ block_store_sub_test fs.BlockStore_fd fd_index.toNat then none
  else block_store_sub_read fs.BlockStore_fd fd_index.toNat

/-- The function `_fd_cursor_get_block_index`. -/
def _fd_cursor_get_block_index (fd : fileDescriptor_t) : Nat :=
  if fd.usage = FD_DOUBLE_INDIRECT then
    (FD_INDIRECT_N_PTRS + FD_DIRECT_N_PTRS + fd.locate_order) % 2 ^ 64
  else if fd.usage = FD_INDIRECT then (FD_DIRECT_N_PTRS + fd.locate_order) % 2 ^ 64
  else if fd.usage = FD_DIRECT then fd.locate_order
  else SIZE_MAX

/-- The function `_fd_cursor_get`. -/
def _fd_cursor_get (fd : fileDescriptor_t) : Nat :=
  (_fd_cursor_get_block_index fd * BLOCK_SIZE_BYTES + fd.locate_offset) % 2 ^ 64

/-- The function `_fd_cursor_set`: `none` stands for `false`. -/
def _fd_cursor_set (fd : fileDescriptor_t) (offset : Nat) : Option fileDescriptor_t :=
  if offset < FD_DIRECT_MAX_OFF then
    some { fd with usage := FD_DIRECT, locate_order := (offset / BLOCK_SIZE_BYTES) % 2 ^ 32,
                   locate_offset := offset % BLOCK_SIZE_BYTES }
  else if offset < FD_INDIRECT_MAX_OFF then
    some { fd with usage := FD_INDIRECT,
                   locate_order :=
                     ((offset / BLOCK_SIZE_BYTES) % 2 ^ 32 + 2 ^ 32 - FD_DIRECT_N_PTRS) % 2 ^ 32,
                   locate_offset := offset % BLOCK_SIZE_BYTES }
  else if offset < FD_DOUBLE_INDIRECT_MAX_OFF then
    some { fd with usage := FD_DOUBLE_INDIRECT,
                   locate_order :=
                     (((offset / BLOCK_SIZE_BYTES) % 2 ^ 32 + 2 ^ 32 - FD_INDIRECT_N_PTRS) % 2 ^ 32
                        + 2 ^ 32 - FD_DIRECT_N_PTRS) % 2 ^ 32,
                   locate_offset := offset % BLOCK_SIZE_BYTES }
  else none

/-- The function `_cursor_in_owned_block`. -/
def _cursor_in_owned_block (inode : inode_t) (fd : fileDescriptor_t) : Bool :=
  _fd_cursor_get_block_index fd < ceil_blocks inode.file_size

/-- The exit of `_inode_add_owned_block` through `err2`: the blocks this call
allocated are released (`SIZE_MAX` marks one that was not allocated). -/
def _inode_add_owned_block_err2 (err_ret : Int) (fs : FS_t) (inode : inode_t)
    (new_db_ind_ptr new_ind_ptr new_ptr : Nat) : Int × FS_t × inode_t :=
  let bs := fs.BlockStore_whole
  let bs := if new_db_ind_ptr ≠ SIZE_MAX then block_store_release bs new_db_ind_ptr else bs
  let bs := if new_ind_ptr ≠ SIZE_MAX then block_store_release bs new_ind_ptr else bs
  let bs := if new_ptr ≠ SIZE_MAX then block_store_release bs new_ptr else bs
  (err_ret, { fs with BlockStore_whole := bs }, inode)

/-- The end of the indirect branch of `_inode_add_owned_block`: the pointer is
stored in cell `index` of the indirect block. -/
def _inode_add_owned_block_ind (fs : FS_t) (inode : inode_t) (index new_ind_ptr new_ptr : Nat) :
    Int × FS_t × inode_t :=
  match block_store_read fs.BlockStore_whole inode.data_indirect with
  | none => _inode_add_owned_block_err2 (-1) fs inode SIZE_MAX new_ind_ptr new_ptr
  | some ind_block1 =>
    match _BS_WRITE fs inode.data_indirect (ind_set ind_block1 index new_ptr) with
    | none => _inode_add_owned_block_err2 (-1) fs inode SIZE_MAX new_ind_ptr new_ptr
    | some fs1 => ((new_ptr : Int), fs1, inode)

/-- The end of the double-indirect branch of `_inode_add_owned_block`: the
pointer is stored in cell `ind_index2` of the indirect block that cell
`ind_index1` of `ind_block1` names. -/
def _inode_add_owned_block_dbl2 (fs : FS_t) (inode : inode_t) (ind_block1 : block_t)
    (ind_index1 ind_index2 new_db_ind_ptr new_ind_ptr new_ptr : Nat) : Int × FS_t × inode_t :=
  match block_store_read fs.BlockStore_whole (ind_get ind_block1 ind_index1) with
  | none => _inode_add_owned_block_err2 (-1) fs inode new_db_ind_ptr new_ind_ptr new_ptr
  | some ind_block2 =>
    match _BS_WRITE fs (ind_get ind_block1 ind_index1) (ind_set ind_block2 ind_index2 new_ptr) with
    | none => _inode_add_owned_block_err2 (-1) fs inode new_db_ind_ptr new_ind_ptr new_ptr
    | some fs1 => ((new_ptr : Int), fs1, inode)

/-- The middle of the double-indirect branch of `_inode_add_owned_block`: the
double-indirect block is read and, at the start of a new indirect block, that
block is allocated and linked. -/
def _inode_add_owned_block_dbl1 (fs : FS_t) (inode : inode_t) (index new_db_ind_ptr new_ptr : Nat) :
    Int × FS_t × inode_t :=
  match block_store_read fs.BlockStore_whole inode.data_double_indirect with
  | none => _inode_add_owned_block_err2 (-1) fs inode new_db_ind_ptr SIZE_MAX new_ptr
  | some ind_block1 =>
    let ind_index1 := index / BLOCK_PTRS_PER_BLOCK
    let ind_index2 := index % BLOCK_PTRS_PER_BLOCK
    if ind_index2 = 0 then
      let a := block_store_allocate fs.BlockStore_whole
      let new_ind_ptr := a.1
      let fs1 : FS_t := { fs with BlockStore_whole := a.2 }
      if new_ind_ptr = SIZE_MAX then
        _inode_add_owned_block_err2 (-2) fs1 inode new_db_ind_ptr SIZE_MAX new_ptr
      else
        let ind_block1 := ind_set ind_block1 ind_index1 new_ind_ptr
        match _BS_WRITE fs1 inode.data_double_indirect ind_block1 with
        | none => _inode_add_owned_block_err2 (-1) fs1 inode new_db_ind_ptr new_ind_ptr new_ptr
        | some fs2 =>
          _inode_add_owned_block_dbl2 fs2 inode ind_block1 ind_index1 ind_index2
            new_db_ind_ptr new_ind_ptr new_ptr
    else
      _inode_add_owned_block_dbl2 fs inode ind_block1 ind_index1 ind_index2
        new_db_ind_ptr SIZE_MAX new_ptr

/-- The function `_inode_add_owned_block`: the return value (a block number,
`-1` or `-2`), the state and the inode of the caller after the call. -/
def _inode_add_owned_block (fs : FS_t) (inode : inode_t) : Int × FS_t × inode_t :=
  let a := block_store_allocate fs.BlockStore_whole
  let new_ptr := a.1
  let fs0 : FS_t := { fs with BlockStore_whole := a.2 }
  if new_ptr = SIZE_MAX then
    _inode_add_owned_block_err2 (-2) fs0 inode SIZE_MAX SIZE_MAX new_ptr
  else
  let index := ceil_blocks inode.file_size
  if index < FD_DIRECT_MAX_PTRS then
    let inode1 : inode_t :=
      { inode with
        data_direct := fun k => if k = index then new_ptr % 65536 else inode.data_direct k }
    match _BS_INODE_WRITE fs0 inode1.inum inode1 with
    | none => _inode_add_owned_block_err2 (-1) fs0 inode1 SIZE_MAX SIZE_MAX new_ptr
    | some fs1 => ((new_ptr : Int), fs1, inode1)
  else if index < FD_INDIRECT_MAX_PTRS then
    let index := index - FD_DIRECT_MAX_PTRS
    if index = 0 then
      let b := block_store_allocate fs0.BlockStore_whole
      let new_ind_ptr := b.1
      let fs1 : FS_t := { fs0 with BlockStore_whole := b.2 }
      if new_ind_ptr = SIZE_MAX then
        _inode_add_owned_block_err2 (-2) fs1 inode SIZE_MAX SIZE_MAX new_ptr
      else
        let inode1 : inode_t := { inode with data_indirect := new_ind_ptr % 65536 }
        match _BS_INODE_WRITE fs1 inode1.inum inode1 with
        | none => _inode_add_owned_block_err2 (-1) fs1 inode1 SIZE_MAX new_ind_ptr new_ptr
        | some fs2 => _inode_add_owned_block_ind fs2 inode1 index new_ind_ptr new_ptr
    else _inode_add_owned_block_ind fs0 inode index SIZE_MAX new_ptr
  else if index < FD_DOUBLE_INDIRECT_MAX_PTRS then
    let index := index - FD_INDIRECT_MAX_PTRS
    if index = 0 then
      let b := block_store_allocate fs0.BlockStore_whole
      let new_db_ind_ptr := b.1
      let fs1 : FS_t := { fs0 with BlockStore_whole := b.2 }
      if new_db_ind_ptr = SIZE_MAX then
        _inode_add_owned_block_err2 (-2) fs1 inode SIZE_MAX SIZE_MAX new_ptr
      else
        let inode1 : inode_t := { inode with data_double_indirect := new_db_ind_ptr % 65536 }
        match _BS_INODE_WRITE fs1 inode1.inum inode1 with
        | none => _inode_add_owned_block_err2 (-1) fs1 inode1 new_db_ind_ptr SIZE_MAX new_ptr
        | some fs2 => _inode_add_owned_block_dbl1 fs2 inode1 index new_db_ind_ptr new_ptr
    else _inode_add_owned_block_dbl1 fs0 inode index SIZE_MAX new_ptr
  else _inode_add_owned_block_err2 (-1) fs0 inode SIZE_MAX SIZE_MAX new_ptr

/-- The function `_fd_data_block_read`: the block the cursor points in;
`none` stands for `false`. -/
def _fd_data_block_read (fs : FS_t) (inode : inode_t) (fd : fileDescriptor_t) : Option block_t :=
  if fd.usage = FD_DIRECT then
    block_store_read fs.BlockStore_whole (inode.data_direct fd.locate_order)
  else if fd.usage = FD_INDIRECT then
    match block_store_read fs.BlockStore_whole inode.data_indirect with
    | none => none
    | some ind_block => block_store_read fs.BlockStore_whole (ind_get ind_block fd.locate_order)
  else if fd.usage = FD_DOUBLE_INDIRECT then
    match block_store_read fs.BlockStore_whole inode.data_double_indirect with
    | none => none
    | some ind_block =>
      let ind_index := fd.locate_order / BLOCK_PTRS_PER_BLOCK
      match block_store_read fs.BlockStore_whole (ind_get ind_block ind_index) with
      | none => none
      | some ind_block =>
        let db_ind_index := (fd.locate_order % BLOCK_PTRS_PER_BLOCK) % 65536
        block_store_read fs.BlockStore_whole (ind_get ind_block db_ind_index)
  else none

/-- The function `_fd_data_block_write`: the success flag and the state.  A
failed read of an indirect block returns `-1` from this `bool` function, which
is `true`. -/
def _fd_data_block_write (fs : FS_t) (inode : inode_t) (fd : fileDescriptor_t) (src : block_t) :
    Bool × FS_t :=
  if fd.usage = FD_DIRECT then
    match _BS_WRITE fs (inode.data_direct fd.locate_order) src with
    | none => (false, fs)
    | some fs1 => (true, fs1)
  else if fd.usage = FD_INDIRECT then
    match block_store_read fs.BlockStore_whole inode.data_indirect with
    | none => (true, fs)
    | some ind_block =>
      match _BS_WRITE fs (ind_get ind_block fd.locate_order) src with
      | none => (false, fs)
      | some fs1 => (true, fs1)
  else if fd.usage = FD_DOUBLE_INDIRECT then
    match block_store_read fs.BlockStore_whole inode.data_double_indirect with
    | none => (true, fs)
    | some ind_block =>
      let ind_index := fd.locate_order / BLOCK_PTRS_PER_BLOCK
      match block_store_read fs.BlockStore_whole (ind_get ind_block ind_index) with
      | none => (true, fs)
      | some ind_block =>
        let db_ind_index := (fd.locate_order % BLOCK_PTRS_PER_BLOCK) % 65536
        match _BS_WRITE fs (ind_get ind_block db_ind_index) src with
        | none => (false, fs)
        | some fs1 => (true, fs1)
  else (false, fs)

/-! ## The facade: seek, read, write (`FS.c`) -/

/-- The function `fs_seek`: the return value and the state after the call. -/
def fs_seek (fs : FS_t) (fd_index : Int) (offset : Int) (whence : Nat) : Int × FS_t :=
  if ¬ FD_OK fd_index ∨ ¬ WHENCE_OK whence then (-1, fs)
  else
  match _fd_read fs fd_index with
  | none => (-1, fs)
  | some fd =>
  match _inode_read fs fd.inum with
  | none => (-1, fs)
  | some inode =>
  let new_cursor : Nat :=
    if whence = FS_SEEK_CUR then _fd_cursor_get fd
    else if whence = FS_SEEK_END then inode.file_size
    else 0
  let new_cursor : Nat :=
    (_clamped_add (to_ssize_t new_cursor) offset 0 (to_ssize_t inode.file_size) % 2 ^ 64).toNat
  match _fd_cursor_set fd new_cursor with
  | none => (-1, fs)
  | some fd1 =>
  match _BS_FD_WRITE fs fd_index.toNat fd1 with
  | none => (-1, fs)
  | some fs1 => (to_ssize_t new_cursor, fs1)

/-- The loop of `fs_read`; `pos` is the offset reached in `dest`.  The outer
`none` is a loop that does not end within `fuel` iterations, the inner `none`
the exit `return -1`. -/
def fs_read_loop (fs : FS_t) (inode : inode_t) :
    Nat → fileDescriptor_t → Nat → block_t → Nat → Nat →
      Option (Option (fileDescriptor_t × block_t × Nat))
  | 0, fd, _, dest, _, n_to_read_remaining =>
    if n_to_read_remaining > 0 then none else some (some (fd, dest, n_to_read_remaining))
  | fuel + 1, fd, cursor, dest, pos, n_to_read_remaining =>
    if n_to_read_remaining > 0 then
      let n_read := min n_to_read_remaining ((BLOCK_SIZE_BYTES + 2 ^ 32 - fd.locate_offset) % 2 ^ 32)
      match _fd_data_block_read fs inode fd with
      | none => some none
      | some data_block =>
        let dest1 : block_t :=
          if n_read = BLOCK_SIZE_BYTES then
            fun j => if pos ≤ j ∧ j < pos + BLOCK_SIZE_BYTES then data_block (j - pos) else dest j
          else
            fun j => if pos ≤ j ∧ j < pos + n_read then data_block (fd.locate_offset + (j - pos))
                     else dest j
        let cursor1 := cursor + n_read
        match _fd_cursor_set fd cursor1 with
        | none => some none
        | some fd1 =>
          fs_read_loop fs inode fuel fd1 cursor1 dest1 (pos + n_read) (n_to_read_remaining - n_read)
    else some (some (fd, dest, n_to_read_remaining))

/-- The function `fs_read`: the return value, the destination buffer and the
state after the call; `none` when the loop does not end. -/
def fs_read (fs : FS_t) (fd_index : Int) (dest : block_t) (nbyte : Nat) :
    Option (Int × block_t × FS_t) :=
  if ¬ FD_OK fd_index then some (-1, dest, fs)
  else
  match _fd_read fs fd_index with
  | none => some (-1, dest, fs)
  | some fd =>
  match _inode_read fs fd.inum with
  | none => some (-1, dest, fs)
  | some inode =>
  let cursor := _fd_cursor_get fd
  if cursor = SIZE_MAX then some (-1, dest, fs)
  else if cursor ≥ inode.file_size then some (0, dest, fs)
  else
  let n_to_read := min nbyte (inode.file_size - cursor)
  match fs_read_loop fs inode n_to_read fd cursor dest 0 n_to_read with
  | none => none
  | some none => some (-1, dest, fs)
  | some (some (fd1, dest1, n_to_read_remaining)) =>
    match _BS_FD_WRITE fs fd_index.toNat fd1 with
    | none => some (-1, dest1, fs)
    | some fs1 => some (((n_to_read - n_to_read_remaining : Nat) : Int), dest1, fs1)

/-- The state of the loop of `fs_write`. -/
structure fs_write_state where
  fs : FS_t
  inode : inode_t
  fd : fileDescriptor_t
  cursor : Nat
  src_pos : Nat
  nbyte : Nat
  new_ptrs : List Nat

/-- The part of an iteration of the loop of `fs_write` after the block of the
cursor is owned: the chunk is written and the cursor advanced.  `Sum.inl` is
`goto err2` with the state reached, `Sum.inr` the state for the next
iteration. -/
def fs_write_chunk (src : block_t) (st : fs_write_state) : fs_write_state ⊕ fs_write_state :=
  let n_write := min st.nbyte ((BLOCK_SIZE_BYTES + 2 ^ 32 - st.fd.locate_offset) % 2 ^ 32)
  let chunk : Option block_t :=
    if n_write < BLOCK_SIZE_BYTES then
      match _fd_data_block_read st.fs st.inode st.fd with
      | none => none
      | some data_block =>
        some (fun o =>
          if st.fd.locate_offset ≤ o ∧ o < st.fd.locate_offset + n_write
          then src (st.src_pos + (o - st.fd.locate_offset)) else data_block o)
    else some (fun o => src (st.src_pos + o))
  match chunk with
  | none => Sum.inl st
  | some chunk_src =>
    let w := _fd_data_block_write st.fs st.inode st.fd chunk_src
    if w.1 = false then Sum.inl { st with fs := w.2 }
    else
      let cursor1 := st.cursor + n_write
      let inode1 : inode_t :=
        if cursor1 > st.inode.file_size then { st.inode with file_size := cursor1 }
        else st.inode
      let st1 : fs_write_state :=
        { st with fs := w.2, inode := inode1, cursor := cursor1,
                  src_pos := st.src_pos + n_write, nbyte := st.nbyte - n_write }
      match _fd_cursor_set st.fd cursor1 with
      | none => Sum.inl st1
      | some fd1 => Sum.inr { st1 with fd := fd1 }

/-- The start of an iteration of the loop of `fs_write`: a block is appended
when the cursor is not in an owned block.  The outer `none` is a store past
the end of the array `new_ptrs` of `max_new_ptrs` cells; `Sum.inl` leaves the
loop, with the flag "normally" (`true` is `break`, `false` is `goto err2`);
`Sum.inr` goes on to the chunk. -/
def fs_write_append (max_new_ptrs : Nat) (st : fs_write_state) :
    Option ((Bool × fs_write_state) ⊕ fs_write_state) :=
  if _cursor_in_owned_block st.inode st.fd = false then
    if st.new_ptrs.length ≥ max_new_ptrs then none
    else
      let r := _inode_add_owned_block st.fs st.inode
      let st1 : fs_write_state := { st with fs := r.2.1, inode := r.2.2 }
      if r.1 = -1 then some (Sum.inl (false, st1))
      else if r.1 = -2 then some (Sum.inl (true, st1))
      else some (Sum.inr { st1 with new_ptrs := st1.new_ptrs ++ [r.1.toNat] })
  else some (Sum.inr st)

/-- The loop of `fs_write`.  The result is the flag "left the loop normally"
(`false` is `goto err2`) and the loop state.  `none` is a loop that does not
end within `fuel` iterations, or a store past the end of `new_ptrs`. -/
def fs_write_loop (src : block_t) (max_new_ptrs : Nat) :
    Nat → fs_write_state → Option (Bool × fs_write_state)
  | 0, st => if st.nbyte > 0 then none else some (true, st)
  | fuel + 1, st =>
    if st.nbyte > 0 then
      match fs_write_append max_new_ptrs st with
      | none => none
      | some (Sum.inl r) => some r
      | some (Sum.inr st1) =>
        match fs_write_chunk src st1 with
        | Sum.inl st2 => some (false, st2)
        | Sum.inr st2 => fs_write_loop src max_new_ptrs fuel st2
    else some (true, st)

/-- The function `fs_write`: the return value and the state after the call;
`none` when the loop does not end or stores past the end of `new_ptrs`. -/
def fs_write (fs : FS_t) (fd_index : Int) (src : block_t) (nbyte : Nat) : Option (Int × FS_t) :=
  if ¬ FD_OK fd_index then some (-1, fs)
  else
  match _fd_read fs fd_index with
  | none => some (-1, fs)
  | some fd =>
  match _inode_read fs fd.inum with
  | none => some (-1, fs)
  | some inode =>
  let cursor := _fd_cursor_get fd
  if cursor = SIZE_MAX then some (-1, fs)
  else
  let max_new_ptrs := ceil_blocks nbyte
  match fs_write_loop src max_new_ptrs nbyte
      { fs := fs, inode := inode, fd := fd, cursor := cursor, src_pos := 0, nbyte := nbyte,
        new_ptrs := [] } with
  | none => none
  | some (false, st) =>
    some (-1, { st.fs with
      BlockStore_whole := st.new_ptrs.foldl block_store_release st.fs.BlockStore_whole })
  | some (true, st) =>
    match _BS_FD_WRITE st.fs fd_index.toNat st.fd with
    | none =>
      some (-1, { st.fs with
        BlockStore_whole := st.new_ptrs.foldl block_store_release st.fs.BlockStore_whole })
    | some fs1 =>
      match _BS_INODE_WRITE fs1 st.inode.inum st.inode with
      | none =>
        some (-1, { fs1 with
          BlockStore_whole := st.new_ptrs.foldl block_store_release fs1.BlockStore_whole })
      | some fs2 => some (((nbyte - st.nbyte : Nat) : Int), fs2)

/-! ## Scenarios -/

/-- Successive calls of `fs_create` for regular files: the return values in
order and the state after the last call. -/
def fs_create_all (fs : FS_t) : List (List Nat) → List Int × FS_t
  | [] => ([], fs)
  | path :: rest =>
    let r := fs_create fs path FS_REGULAR
    let q := fs_create_all r.2 rest
    (r.1 :: q.1, q.2)

/-- The paths `/a`, `/b`, ..., one letter each, `n` of them. -/
def letter_paths (n : Nat) : List (List Nat) := (List.range n).map (fun k => [SLASH, 97 + k])

/-- A buffer that holds the bytes of a string literal (and zeros after them). -/
def buffer_of (s : String) : block_t := fun i => (bytes s).getD i 0

/-- The freshly formatted file system with the regular file `/f` created. -/
def fs_with_file_f : FS_t := (fs_create fs_format_state (bytes "/f") FS_REGULAR).2

/-- Every byte of the whole block store is a byte. -/
def FS_t.bytes_ok (fs : FS_t) : Prop := ∀ b o, fs.BlockStore_whole.blocks b o < 256

/-- The inode tables of two states agree on the inodes allocated in the first. -/
def inode_tables_agree (fs : FS_t) (tbl : Nat → inode_t) : Prop :=
  ∀ i, block_store_sub_test fs.BlockStore_inode i = true → tbl i = fs.inode_table i

/-- Every byte of a block store is a byte. -/
def block_store_t.bytes_ok (bs : block_store_t) : Prop := ∀ b o, bs.blocks b o < 256

/-- The freshly formatted file system with the regular file `/a` created. -/
def fs_with_file_a : FS_t := (fs_create fs_format_state (bytes "/a") FS_REGULAR).2

/-! ## The pointer tree of a file, as the walker sees it -/

/-- Block `i` is marked in use in the free-block map. -/
def block_used (bs : block_store_t) (i : Nat) : Prop := bitmap_test bs.fbm i = true

/-- The block that `_fd_data_block_read` and `_fd_data_block_write` reach for
logical block `k` of a file: a direct pointer, a cell of the indirect block,
or a cell of an indirect block named by the double-indirect block. -/
def file_block (bs : block_store_t) (inode : inode_t) (k : Nat) : Nat :=
  if k < FD_DIRECT_MAX_PTRS then inode.data_direct k
  else if k < FD_INDIRECT_MAX_PTRS then
    ind_get (bs.blocks inode.data_indirect) (k - FD_DIRECT_MAX_PTRS)
  else
    ind_get
      (bs.blocks (ind_get (bs.blocks inode.data_double_indirect)
        ((k - FD_INDIRECT_MAX_PTRS) / BLOCK_PTRS_PER_BLOCK)))
      ((k - FD_INDIRECT_MAX_PTRS) % BLOCK_PTRS_PER_BLOCK)

/-- Byte `p` of a file, read through its pointer tree. -/
def file_byte (bs : block_store_t) (inode : inode_t) (p : Nat) : Nat :=
  bs.blocks (file_block bs inode (p / BLOCK_SIZE_BYTES)) (p % BLOCK_SIZE_BYTES)

/-- A place of the pointer tree that holds a block number: the pointer to data
block `k`, the indirect pointer, the double-indirect pointer, cell `j` of the
double-indirect block. -/
inductive tree_slot where
  | data (k : Nat)
  | ind
  | dbl
  | ind2 (j : Nat)
deriving DecidableEq

/-- The places in use in a file of `nb` blocks. -/
def slot_live (nb : Nat) : tree_slot → Prop
  | tree_slot.data k => k < nb
  | tree_slot.ind => 6 < nb
  | tree_slot.dbl => 518 < nb
  | tree_slot.ind2 j => 518 + 512 * j < nb

/-- The block number held in a place of the pointer tree. -/
def slot_block (bs : block_store_t) (inode : inode_t) : tree_slot → Nat
  | tree_slot.data k => file_block bs inode k
  | tree_slot.ind => inode.data_indirect
  | tree_slot.dbl => inode.data_double_indirect
  | tree_slot.ind2 j => ind_get (bs.blocks inode.data_double_indirect) j

/-- The pointer tree of a file of `nb` blocks is sound: every block it names
is a data block of the store (not block 0, not a block of the free-block map),
is marked in use, and is named once. -/
structure tree_ok (bs : block_store_t) (inode : inode_t) (nb : Nat) : Prop where
  range : ∀ s, slot_live nb s →
    0 < slot_block bs inode s ∧ slot_block bs inode s < 65528 ∧
      block_used bs (slot_block bs inode s)
  inj : ∀ s s', slot_live nb s → slot_live nb s' →
    slot_block bs inode s = slot_block bs inode s' → s = s'

/-- The blocks that are never handed out are marked in use: block 0 (the
inode bitmap) and the blocks of the free-block map itself. -/
def reserved_used (bs : block_store_t) : Prop :=
  block_used bs 0 ∧ ∀ k, k < 8 → block_used bs (65528 + k)

/-- What holds of an open descriptor `fd` on the inode `inode` in the states
the facade reaches: the descriptor is the decomposition of its own cursor, the
inode carries its own number, the cursor is not past the end of the file, the
file is below the maximal size, and the pointer tree of the file is sound. -/
structure write_ready (fs : FS_t) (fd : fileDescriptor_t) (inode : inode_t) : Prop where
  fd_canonical : _fd_cursor_set fd (_fd_cursor_get fd) = some fd
  inum_eq : inode.inum = fd.inum
  cursor_le : _fd_cursor_get fd ≤ inode.file_size
  size_lt : inode.file_size < FD_DOUBLE_INDIRECT_MAX_OFF
  reserved : reserved_used fs.BlockStore_whole
  tree : tree_ok fs.BlockStore_whole inode (ceil_blocks inode.file_size)

/-- The block store of `fs_format` after the first `k` of its calls of
`block_store_allocate`. -/
@[irreducible]
def fs_format_blocks (k : Nat) : block_store_t :=
  (List.range k).foldl (fun bs _ => (block_store_allocate bs).2) block_store_create

/-- The path resolves to the inode `inode`: `_get_inum` finds an inode number
and `_inode_read` loads the inode of that number. -/
def path_resolves_to (fs : FS_t) (path : List Nat) (inode : inode_t) : Prop :=
  0 ≤ _get_inum fs path ∧ _inode_read fs (_get_inum fs path).toNat = some inode

/-- The state with the record of descriptor slot `idx` replaced. -/
def FS_t.set_fd (fs : FS_t) (idx : Nat) (fd : fileDescriptor_t) : FS_t :=
  { fs with BlockStore_fd :=
    { fs.BlockStore_fd with
      records := fun i => if i = idx then fd else fs.BlockStore_fd.records i } }

/-- The position that `fs_seek` starts from: 0, the cursor, or the file size. -/
def seek_base (whence c s : Nat) : Nat :=
  if whence = FS_SEEK_CUR then c else if whence = FS_SEEK_END then s else 0

/-- The sum `b + o` over the integers, clamped to `[0, s]`. -/
def clamp_to_file (b : Nat) (o : Int) (s : Nat) : Int := min (max ((b : Int) + o) 0) (s : Int)

/-- The file system with the file `/a` created and opened: descriptor 0. -/
def fs_open_a : FS_t := (fs_open fs_with_file_a (bytes "/a")).2

/-- The state after `"hello"` is written through descriptor 0 of `fs_open_a`. -/
def fs_hello : FS_t :=
  match fs_write fs_open_a 0 (buffer_of "hello") 5 with
  | some r => r.2
  | none => fs_open_a

/-- The state with block `id` of the whole store replaced. -/
def FS_t.set_block (fs : FS_t) (id : Nat) (buf : block_t) : FS_t :=
  { fs with BlockStore_whole :=
      { blocks := fun b => if b = id then buf else fs.BlockStore_whole.blocks b } }

/-- The state with the record of inode `inum` replaced. -/
def FS_t.set_inode (fs : FS_t) (inum : Nat) (ino : inode_t) : FS_t :=
  { fs with inode_table := fun i => if i = inum then ino else fs.inode_table i }

/-- The entry in slot `i` of a directory block. -/
def dentry_at (blk : block_t) (i : Nat) : directoryFile_t :=
  { filename := dentry_filename blk i, inum := dentry_inum blk i }

/-- The listing of the directory with inode number `inum`: what `fs_get_dir`
returns once its path has resolved to `inum`. -/
def dir_listing (fs : FS_t) (inum : Nat) : Option (List directoryFile_t) :=
  match _inode_read fs inum with
  | none => none
  | some inode =>
    match _inode_dir_load fs inode with
    | none => none
    | some (block, map) =>
      some (((List.range DIR_ENTRIES_PER_BLOCK).filter (fun i => bitmap_test map i)).map
        (fun i => { filename := dentry_filename block i, inum := dentry_inum block i }))

/-- The block numbers held in an inode fit their `uint16_t` fields. -/
def inode_ptrs_ok (inode : inode_t) : Prop :=
  (∀ k, k < 6 → inode.data_direct k < 65536) ∧ inode.data_indirect < 65536 ∧
    inode.data_double_indirect < 65536

/-- The state `fs_hello` with descriptor 0 moved back to the start of the file. -/
def fs_hello_rewound : FS_t := (fs_seek fs_hello 0 0 FS_SEEK_SET).2

/-- The store with block `id` replaced. -/
def block_store_t.put (bs : block_store_t) (id : Nat) (buf : block_t) : block_store_t :=
  { blocks := fun b => if b = id then buf else bs.blocks b }

/-- What every outcome of `_inode_add_owned_block` on a file of `nb` blocks
keeps: the size and number of the inode, the range of its block numbers, the
blocks in use, block 0, the descriptors, the other inodes, the blocks that the
slots in use hold, and the contents of the data blocks. -/
structure append_frame (fs : FS_t) (inode : inode_t) (nb : Nat) (fs1 : FS_t)
    (inode1 : inode_t) : Prop where
  size_eq : inode1.file_size = inode.file_size
  inum_eq : inode1.inum = inode.inum
  ptrs : inode_ptrs_ok inode1
  mono : ∀ b, b < 65536 → block_used fs.BlockStore_whole b → block_used fs1.BlockStore_whole b
  block0 : fs1.BlockStore_whole.blocks 0 = fs.BlockStore_whole.blocks 0
  fd_same : fs1.BlockStore_fd = fs.BlockStore_fd
  inodes_other : ∀ i, i ≠ inode.inum → fs1.inode_table i = fs.inode_table i
  hold : ∀ s, slot_live nb s →
    slot_block fs1.BlockStore_whole inode1 s = slot_block fs.BlockStore_whole inode s
  data_same : ∀ k, k < nb →
    fs1.BlockStore_whole.blocks (file_block fs.BlockStore_whole inode k) =
      fs.BlockStore_whole.blocks (file_block fs.BlockStore_whole inode k)
  others : ∀ b, 0 < b → b < 65528 → block_used fs.BlockStore_whole b →
    (∀ s, slot_live nb s → slot_block fs.BlockStore_whole inode s ≠ b) →
    fs1.BlockStore_whole.blocks b = fs.BlockStore_whole.blocks b
  meta : inode1.file_type = inode.file_type ∧ inode1.dir_entry_map = inode.dir_entry_map ∧
    inode1.link_count = inode.link_count

/-- The tree of a file that grew from `nb` to `nb + 1` blocks in the store
`bs1` is sound, the slots that came into use hold blocks that were free in the
store `bs0`, and these are the only blocks that came into use. -/
def grown_ok (bs0 : block_store_t) (nb : Nat) (bs1 : block_store_t) (inode1 : inode_t) : Prop :=
  tree_ok bs1 inode1 (nb + 1) ∧
    (∀ s, slot_live (nb + 1) s → ¬ slot_live nb s → ¬ block_used bs0 (slot_block bs1 inode1 s)) ∧
    ∀ b, b < 65536 → (block_used bs1 b ↔ block_used bs0 b ∨
      ∃ s, slot_live (nb + 1) s ∧ ¬ slot_live nb s ∧ slot_block bs1 inode1 s = b)

/-- A bitmap of 10 bits in two bytes: the 10 bits are set and the 6 padding
bits of the last byte are clear. -/
def bitmap_ten_full : bitmap_t :=
  { data := fun i => if i = 0 then 255 else if i = 1 then 3 else 0, bit_count := 10,
    byte_count := 2 }

/-- The first block index of a tier of the pointer tree (the `tier_base` of the
cursor decomposition): 0 for the direct pointers, 6 for the indirect block,
`6 + 512` for the double-indirect block. -/
def tier_base (usage : Nat) : Nat :=
  if usage = FD_DOUBLE_INDIRECT then 518 else if usage = FD_INDIRECT then 6 else 0

/-- A well-formed descriptor: the usage is one of the three tiers, the block
order lies in the range of its tier, and the byte offset lies in a block. -/
def fd_well_formed (fd : fileDescriptor_t) : Prop :=
  ((fd.usage = FD_DIRECT ∧ fd.locate_order < 6) ∨
    (fd.usage = FD_INDIRECT ∧ fd.locate_order < 512) ∨
    (fd.usage = FD_DOUBLE_INDIRECT ∧ fd.locate_order < 512 * 512)) ∧
  fd.locate_offset < 1024

instance (fd : fileDescriptor_t) : Decidable (fd_well_formed fd) := by
  unfold fd_well_formed
  exact inferInstance

/-- At most two blocks of the store are free: an allocation of up to three
blocks in a row fails. -/
def few_free (bs : block_store_t) : Prop :=
  ∃ a c : Nat, ∀ b, b < 65536 → block_used bs b ∨ b = a ∨ b = c

/-- What the loop of `fs_write` keeps.  The call started in the state `fs0` on
the inode `inode0`, with the cursor at `c0` and `n0` bytes to write from `src`;
`NB` is the number of blocks that the pointer tree of the file holds now. -/
structure write_inv (src : block_t) (fs0 : FS_t) (inode0 : inode_t) (c0 n0 NB : Nat)
    (st : fs_write_state) : Prop where
  can : _fd_cursor_set st.fd st.cursor = some st.fd
  inum : st.inode.inum = inode0.inum
  meta : st.inode.file_type = inode0.file_type ∧
    st.inode.dir_entry_map = inode0.dir_entry_map ∧ st.inode.link_count = inode0.link_count
  size : st.inode.file_size = max inode0.file_size st.cursor
  pos : st.src_pos + c0 = st.cursor
  rem : st.cursor + st.nbyte = c0 + n0
  ptrs : inode_ptrs_ok st.inode
  res : reserved_used st.fs.BlockStore_whole
  tree : tree_ok st.fs.BlockStore_whole st.inode NB
  low : (st.inode.file_size + 1023) / 1024 ≤ NB
  count : st.new_ptrs.length + (inode0.file_size + 1023) / 1024 = NB
  content : ∀ p, p < st.inode.file_size →
    file_byte st.fs.BlockStore_whole st.inode p =
      if c0 ≤ p ∧ p < st.cursor then src (p - c0)
      else file_byte fs0.BlockStore_whole inode0 p
  block0 : st.fs.BlockStore_whole.blocks 0 = fs0.BlockStore_whole.blocks 0
  fds : st.fs.BlockStore_fd = fs0.BlockStore_fd
  inodes : ∀ i, i ≠ inode0.inum → st.fs.inode_table i = fs0.inode_table i
  hold0 : ∀ s, slot_live ((inode0.file_size + 1023) / 1024) s →
    slot_block st.fs.BlockStore_whole st.inode s = slot_block fs0.BlockStore_whole inode0 s
  fresh0 : ∀ s, slot_live NB s → ¬ slot_live ((inode0.file_size + 1023) / 1024) s →
    ¬ block_used fs0.BlockStore_whole (slot_block st.fs.BlockStore_whole st.inode s)
  used : ∀ b, b < 65536 → (block_used st.fs.BlockStore_whole b ↔
    block_used fs0.BlockStore_whole b ∨
      ∃ s, slot_live NB s ∧ ¬ slot_live ((inode0.file_size + 1023) / 1024) s ∧
        slot_block st.fs.BlockStore_whole st.inode s = b)
  others : ∀ b, 0 < b → b < 65528 → block_used fs0.BlockStore_whole b →
    (∀ s, slot_live ((inode0.file_size + 1023) / 1024) s →
      slot_block fs0.BlockStore_whole inode0 s ≠ b) →
    st.fs.BlockStore_whole.blocks b = fs0.BlockStore_whole.blocks b
  fdnum : st.fd.inum = inode0.inum

/-- The state `fs_open_a` with every bit of the free-block map set: no block
is free. -/
def fs_open_a_full : FS_t :=
  { fs_open_a with
    BlockStore_whole :=
      { blocks := fun b o =>
          if 65528 ≤ b ∧ b < 65536 ∧ o < 1024 then 255
          else fs_open_a.BlockStore_whole.blocks b o } }

/-- A state with a file 10 bytes short of the maximal size, made directly (a
store of 65536 blocks cannot hold such a file): inode 1 of `fs_open_a` with
the size `268965878`, its last block 22 reached through cell 511 of the
double-indirect block 20 and cell 511 of the indirect block 21, and
descriptor 0 with the cursor at the end of the file. -/
def fs_near_limit : FS_t :=
  ((((fs_open_a.set_block 20 (ind_set (fun _ => 0) 511 21)).set_block 21
      (ind_set (fun _ => 0) 511 22)).set_inode 1
      { fs_open_a.inode_table 1 with file_size := 268965878, data_double_indirect := 20 }).set_fd 0
      { inum := 1, usage := FD_DOUBLE_INDIRECT, locate_order := 262143, locate_offset := 1014 })

/-! ## Sequences of block-store calls -/

/-- The stores that calls of `block_store_allocate`, `block_store_request`,
`block_store_release` and `block_store_write` make of a fresh store, when no
call releases a block of the free-block map or writes to one.  (A call of
`block_store_write` that fails leaves the store as it is.) -/
inductive bs_reached : block_store_t → Prop
  | create : bs_reached block_store_create
  | allocate (bs : block_store_t) : bs_reached bs → bs_reached (block_store_allocate bs).2
  | request (bs : block_store_t) (id : Nat) :
      bs_reached bs → bs_reached (block_store_request bs id).2
  | release (bs : block_store_t) (id : Nat) :
      ¬ (BITMAP_START_BLOCK ≤ id ∧ id < BLOCK_STORE_NUM_BLOCKS) →
      bs_reached bs → bs_reached (block_store_release bs id)
  | write (bs bs1 : block_store_t) (id : Nat) (buf : block_t) :
      ¬ (BITMAP_START_BLOCK ≤ id ∧ id < BLOCK_STORE_NUM_BLOCKS) →
      bs_reached bs → block_store_write bs id buf = some bs1 → bs_reached bs1

/-! ## Serialisation (`block_store.c`) -/

/-- A regular file on disk: its length and its bytes. -/
structure disk_file_t where
  length : Nat
  data : Nat → Nat

/-- The function `block_store_serialize`: the return value and the file left
on disk (`none`: no file was made).  `open_ok` says whether `open(2)`
succeeds and `bytes_written` is the return value of `write(2)`, which leaves
that many bytes of the blocks in the truncated file. -/
def block_store_serialize (bs : block_store_t) (open_ok : Bool) (bytes_written : Int) :
    Nat × Option disk_file_t :=
  if ¬ open_ok then (0, none)
  else
    let size : Int := BLOCK_SIZE_BYTES * BLOCK_STORE_NUM_BLOCKS
    let file : disk_file_t :=
      { length := bytes_written.toNat,
        data := fun j => bs.blocks (j / BLOCK_SIZE_BYTES) (j % BLOCK_SIZE_BYTES) }
    if bytes_written ≠ size then (0, some file)
    else (bytes_written.toNat, some file)

/-- The function `block_store_deserialize`: `none` stands for `NULL`.  The
file `none` is one that `open(2)` cannot open; `read(2)` transfers the bytes
of the file up to the count asked for. -/
def block_store_deserialize (file : Option disk_file_t) : Option block_store_t :=
  let bs := block_store_create
  match file with
  | none => none
  | some f =>
    let size := BLOCK_SIZE_BYTES * BLOCK_STORE_NUM_BLOCKS
    let bytes_read := min size f.length
    if bytes_read ≠ size then none
    else
      some { blocks := fun b o =>
        if b < BLOCK_STORE_NUM_BLOCKS ∧ o < BLOCK_SIZE_BYTES
        then f.data (b * BLOCK_SIZE_BYTES + o) else bs.blocks b o }

/-! ## Process scheduling (`process_scheduling.c`) -/

/-- Modelled from the spec: the record `ProcessControlBlock_t` of the absent
`processing_scheduling.h`, with the fields the schedulers use. -/
structure ProcessControlBlock_t where
  remaining_burst_time : Nat
  priority : Nat
  arrival : Nat
  started : Bool
deriving DecidableEq

/-- The function `any_burst_remaining`, over the elements of the array from
front to back. -/
def any_burst_remaining : List ProcessControlBlock_t → Bool
  | [] => false
  | pcb :: rest => if pcb.remaining_burst_time > 0 then true else any_burst_remaining rest

/-- The loop of `find_shortest_burst` from element `i` on: `shortest` is the
index and the record of the element the pointer `shortest` points to, `none`
for `NULL`. -/
def find_shortest_burst_loop (t : Nat) :
    List ProcessControlBlock_t → Nat → Option (Nat × ProcessControlBlock_t) →
      Option (Nat × ProcessControlBlock_t)
  | [], _, shortest => shortest
  | pcb :: rest, i, shortest =>
    if t < pcb.arrival then find_shortest_burst_loop t rest (i + 1) shortest
    else
      let burst := pcb.remaining_burst_time
      if burst > 0 then
        match shortest with
        | none => find_shortest_burst_loop t rest (i + 1) (some (i, pcb))
        | some s =>
          if burst < s.2.remaining_burst_time then
            find_shortest_burst_loop t rest (i + 1) (some (i, pcb))
          else find_shortest_burst_loop t rest (i + 1) shortest
      else find_shortest_burst_loop t rest (i + 1) shortest

/-- The function `find_shortest_burst`: the index of the element returned,
`none` for `NULL`. -/
def find_shortest_burst (arr : List ProcessControlBlock_t) (t : Nat) : Option Nat :=
  (find_shortest_burst_loop t arr 0 none).map (fun s => s.1)

/-- One iteration of the loop of `shortest_job_first`, entered with
`any_burst_remaining` true: the queue and the time `t` after it.  `none` is
the store `pcb->started = true` through a null pointer.  The argument `t` of
`find_shortest_burst` is the `long` converted to `unsigned`. -/
def shortest_job_first_iteration (q : List ProcessControlBlock_t) (t : Int) :
    Option (List ProcessControlBlock_t × Int) :=
  match find_shortest_burst q (t % 2 ^ 32).toNat with
  | none => none
  | some i =>
    match q.get? i with
    | none => none
    | some pcb =>
      some (q.set i { pcb with started := true, remaining_burst_time := 0 },
        t + pcb.remaining_burst_time)

/-- One iteration of the loop of `shortest_remaining_time_first`, entered with
`any_burst_remaining` true.  `none` is the read `pcb->started` through a null
pointer. -/
def shortest_remaining_time_first_iteration (q : List ProcessControlBlock_t) (t : Int) :
    Option (List ProcessControlBlock_t × Int) :=
  match find_shortest_burst q (t % 2 ^ 32).toNat with
  | none => none
  | some i =>
    match q.get? i with
    | none => none
    | some pcb =>
      some (q.set i
        { pcb with started := true,
                   remaining_burst_time := (pcb.remaining_burst_time + 2 ^ 32 - 1) % 2 ^ 32 },
        t + 1)

/-- A queue of one process that arrives at time 1 with 5 units of burst. -/
def queue_late_arrival : List ProcessControlBlock_t :=
  [{ remaining_burst_time := 5, priority := 0, arrival := 1, started := false }]

/-! ## The states the facade reaches, and what holds in them -/

/-- The number of blocks an inode owns: a directory owns its entry block once
it has an entry, a regular file the `ceil(file_size / BLOCK_SIZE_BYTES)` data
blocks that `_cursor_in_owned_block` and `_inode_add_owned_block` count. -/
def inode_nb (inode : inode_t) : Nat :=
  if inode.file_type = CHAR_d then (if inode.file_size = 0 then 0 else 1)
  else ceil_blocks inode.file_size

/-- Inode `i` is allocated: its bit is set in the inode bitmap. -/
def inode_allocated (fs : FS_t) (i : Nat) : Prop :=
  i < NUM_INODES ∧ block_store_sub_test fs.BlockStore_inode i = true

/-- Descriptor `k` is open: its bit is set in the bitmap of the descriptor
table. -/
def fd_allocated (fs : FS_t) (k : Nat) : Prop :=
  k < NUM_FDS ∧ block_store_sub_test fs.BlockStore_fd k = true

/-- The number of set bits of a `uint32_t`. -/
def popcount32 (m : Nat) : Nat := ((List.range 32).filter (fun i => m.testBit i)).length

/-- The places in use of the pointer tree of a file of `nb` blocks, as a list:
the pointers to the data blocks, the indirect pointer, the double-indirect
pointer, the cells in use of the double-indirect block. -/
def tree_slots (nb : Nat) : List tree_slot :=
  (List.range nb).map tree_slot.data ++ (if 6 < nb then [tree_slot.ind] else []) ++
    (if 518 < nb then [tree_slot.dbl] else []) ++
    (List.range ((nb - 518 + 511) / 512)).map tree_slot.ind2

/-- The block numbers reachable from the pointer tree of an inode: the data
blocks, the indirect and double-indirect container blocks, the entry block of
a non-empty directory. -/
def tree_blocks (bs : block_store_t) (inode : inode_t) : List Nat :=
  (tree_slots (inode_nb inode)).map (slot_block bs inode)

/-- The inode numbers in use, in increasing order. -/
def allocated_inums (fs : FS_t) : List Nat :=
  (List.range NUM_INODES).filter (fun i => block_store_sub_test fs.BlockStore_inode i)

/-- What holds of an allocated inode `i` in the states the facade reaches: the
record carries its number, its pointers fit their fields, the file is no
larger than the data blocks of the store, the pointer tree is sound and names
no block of the inode table, the entry map of a directory has as many bits
set as the directory has entries, all among its 16 low bits, and the pointer
to the entry block of an empty directory is still 0. -/
structure inode_good (bs : block_store_t) (i : Nat) (inode : inode_t) : Prop where
  inum_eq : inode.inum = i
  ptrs : inode_ptrs_ok inode
  size_le : inode.file_size ≤ 67100672
  tree : tree_ok bs inode (inode_nb inode)
  high : ∀ s, slot_live (inode_nb inode) s → 17 ≤ slot_block bs inode s
  dir : inode.file_type = CHAR_d →
    inode.dir_entry_map < 65536 ∧ popcount32 inode.dir_entry_map = inode.file_size
  empty_dir : inode.file_type = CHAR_d → inode.file_size = 0 → inode.data_direct 0 = 0

/-- What holds of an open descriptor: it is the decomposition of its cursor,
its file is an allocated inode that is not a directory, and the cursor is not
past the end of the file. -/
structure fd_good (fs : FS_t) (fd : fileDescriptor_t) : Prop where
  canonical : _fd_cursor_set fd (_fd_cursor_get fd) = some fd
  inode : inode_allocated fs fd.inum
  regular : (fs.inode_table fd.inum).file_type ≠ CHAR_d
  cursor_le : _fd_cursor_get fd ≤ (fs.inode_table fd.inum).file_size

/-- The invariant of the file system: the blocks hold bytes; the descriptor
table has its 256 slots; the blocks of the inode table and of the free-block
map are marked in use; every allocated inode is sound; no block is named by
two places of the pointer trees; every other block in use is named by a place
of a pointer tree; every open descriptor is sound. -/
structure fs_sound (fs : FS_t) : Prop where
  bytes : fs.bytes_ok
  fd_shape : fs.BlockStore_fd.fbm.bit_count = NUM_FDS ∧ fs.BlockStore_fd.fbm.byte_count = 32
  reserved : ∀ b, b < 65536 → (b < 17 ∨ 65528 ≤ b) → block_used fs.BlockStore_whole b
  inodes : ∀ i, inode_allocated fs i → inode_good fs.BlockStore_whole i (fs.inode_table i)
  disjoint : ∀ i j s t, inode_allocated fs i → inode_allocated fs j →
    slot_live (inode_nb (fs.inode_table i)) s → slot_live (inode_nb (fs.inode_table j)) t →
    slot_block fs.BlockStore_whole (fs.inode_table i) s =
      slot_block fs.BlockStore_whole (fs.inode_table j) t → i = j
  exact : ∀ b, 17 ≤ b → b < 65528 → block_used fs.BlockStore_whole b →
    ∃ i s, inode_allocated fs i ∧ slot_live (inode_nb (fs.inode_table i)) s ∧
      slot_block fs.BlockStore_whole (fs.inode_table i) s = b
  fds : ∀ k, fd_allocated fs k → fd_good fs (fs.BlockStore_fd.records k)

/-- The states that the facade reaches from `fs_format`: by `fs_create`,
`fs_open`, `fs_close`, `fs_seek`, `fs_read` and `fs_write`, with arbitrary
arguments (paths and source buffers hold bytes). -/
inductive fs_reachable : FS_t → Prop
  | format (path : List Nat) (fs : FS_t) : fs_format path = some fs → fs_reachable fs
  | create (fs : FS_t) (path : List Nat) (type : Nat) (r : Int) (fs1 : FS_t) :
      (∀ c, c ∈ path → c < 256) → fs_reachable fs → fs_create fs path type = (r, fs1) →
      fs_reachable fs1
  | open_file (fs : FS_t) (path : List Nat) (r : Int) (fs1 : FS_t) :
      fs_reachable fs → fs_open fs path = (r, fs1) → fs_reachable fs1
  | close (fs : FS_t) (fd : Int) (r : Int) (fs1 : FS_t) :
      fs_reachable fs → fs_close fs fd = (r, fs1) → fs_reachable fs1
  | seek (fs : FS_t) (fd : Int) (offset : Int) (whence : Nat) (r : Int) (fs1 : FS_t) :
      fs_reachable fs → fs_seek fs fd offset whence = (r, fs1) → fs_reachable fs1
  | read (fs : FS_t) (fd : Int) (dest : block_t) (nbyte : Nat) (r : Int) (out : block_t)
      (fs1 : FS_t) :
      fs_reachable fs → fs_read fs fd dest nbyte = some (r, out, fs1) → fs_reachable fs1
  | write (fs : FS_t) (fd : Int) (src : block_t) (nbyte : Nat) (r : Int) (fs1 : FS_t) :
      (∀ j, src j < 256) → fs_reachable fs → fs_write fs fd src nbyte = some (r, fs1) →
      fs_reachable fs1

/-- The entry block and the entry map that `_inode_dir_load` gives for the
inode of number `i`, when the inode is allocated and a directory. -/
def dir_load (fs : FS_t) (i : Nat) : Option (block_t × bitmap_t) :=
  match _inode_read fs i with
  | none => none
  | some inode => _inode_dir_load fs inode

/-- One of the allocations that `_inode_add_owned_block` makes in the store
`bs` for a file of `nb` blocks finds no free block: the allocation of the data
block; after it, that of the indirect block (`nb = 6`), of the double-indirect
block (`nb = 518`) or of an indirect block of the double-indirect range
(`nb = 518 + 512 * j`); after these, at `nb = 518`, that of the first indirect
block of the double-indirect range. -/
def append_allocation_fails (bs : block_store_t) (nb : Nat) : Prop :=
  (block_store_allocate bs).1 = SIZE_MAX ∨
  ((nb = 6 ∨ (518 ≤ nb ∧ nb < FD_DOUBLE_INDIRECT_MAX_PTRS ∧ (nb - 518) % 512 = 0)) ∧
    (block_store_allocate (block_store_allocate bs).2).1 = SIZE_MAX) ∨
  (nb = 518 ∧
    (block_store_allocate (block_store_allocate (block_store_allocate bs).2).2).1 = SIZE_MAX)

/-- The outcome of a call of `_inode_add_owned_block` on the state `fs` and an
inode of `nb` blocks that returned `r` and the state `fs1`: -2 exactly when an
allocation found no free block, -1 exactly when no allocation failed and the
file has its maximal number of blocks, the free-block map as it was on either
error, and else the number of a block that was free. -/
def append_outcome (fs : FS_t) (nb : Nat) (r : Int) (fs1 : FS_t) : Prop :=
  (r = -2 ↔ append_allocation_fails fs.BlockStore_whole nb) ∧
  (r = -1 ↔ ¬ append_allocation_fails fs.BlockStore_whole nb ∧
    FD_DOUBLE_INDIRECT_MAX_PTRS ≤ nb) ∧
  (r < 0 → ∀ i, i < 65536 →
    bitmap_test fs1.BlockStore_whole.fbm i = bitmap_test fs.BlockStore_whole.fbm i) ∧
  (0 ≤ r → ∃ new : Nat, r = (new : Int) ∧ new < 65536 ∧ ¬ block_used fs.BlockStore_whole new)

/-- The states that the loop of `fs_write` has at its head, from the state
`st0` it is entered with: one iteration goes through `fs_write_append` (a
block is appended when the cursor is in no owned block) and `fs_write_chunk`
(the chunk is written and the cursor moved). -/
inductive fs_write_reaches (src : block_t) (max_new_ptrs : Nat) (st0 : fs_write_state) :
    fs_write_state → Prop
  | start : fs_write_reaches src max_new_ptrs st0 st0
  | step (st st1 st2 : fs_write_state) : fs_write_reaches src max_new_ptrs st0 st →
      st.nbyte > 0 → fs_write_append max_new_ptrs st = some (Sum.inr st1) →
      fs_write_chunk src st1 = Sum.inr st2 → fs_write_reaches src max_new_ptrs st0 st2

/-- A file grown by successive calls of `_inode_add_owned_block`, with the
numbers of the blocks that the calls returned, in order.  The file starts
empty, in a store whose reserved blocks are marked in use; after a call that
returned a block, the size of the file is moved into the new block (as the
loop of `fs_write` does), so that the next call appends the next block; a data
block of the file may be written in between. -/
inductive grown_by_appends : FS_t → inode_t → List Nat → Prop
  | empty (fs : FS_t) (inode : inode_t) : inode.file_size = 0 → inode.inum < 256 →
      inode_ptrs_ok inode → reserved_used fs.BlockStore_whole → grown_by_appends fs inode []
  | append (fs : FS_t) (inode : inode_t) (ids : List Nat) (new : Nat) (fs1 : FS_t)
      (inode1 : inode_t) (size : Nat) : grown_by_appends fs inode ids →
      _inode_add_owned_block fs inode = ((new : Int), fs1, inode1) →
      1024 * ids.length < size → size ≤ 1024 * (ids.length + 1) →
      grown_by_appends fs1 { inode1 with file_size := size } (ids ++ [new])
  | write (fs : FS_t) (inode : inode_t) (ids : List Nat) (k b : Nat) (buf : block_t) :
      grown_by_appends fs inode ids → ids[k]? = some b →
      grown_by_appends (fs.set_block b buf) inode ids

/-! ## Two runs on stores that differ in their free blocks -/

/-- Two states with the same skeleton: the same inode table, the same
descriptor table, the same block 0 (the inode bitmap) and the same blocks of
the free-block map. -/
structure same_skeleton (fs fs1 : FS_t) : Prop where
  table : fs1.inode_table = fs.inode_table
  fds : fs1.BlockStore_fd = fs.BlockStore_fd
  block0 : fs1.BlockStore_whole.blocks 0 = fs.BlockStore_whole.blocks 0
  fbm : ∀ b, 65528 ≤ b → fs1.BlockStore_whole.blocks b = fs.BlockStore_whole.blocks b

/-- Two states that show the same files: the same skeleton, every directory
loads the same entry block and entry map, and every regular file has the same
bytes below its size. -/
structure same_files (fs fs1 : FS_t) : Prop where
  skeleton : same_skeleton fs fs1
  dirs : ∀ i, dir_load fs1 i = dir_load fs i
  bytes : ∀ i, inode_allocated fs i → (fs.inode_table i).file_type ≠ CHAR_d →
    ∀ p, p < (fs.inode_table i).file_size →
      file_byte fs1.BlockStore_whole (fs.inode_table i) p =
        file_byte fs.BlockStore_whole (fs.inode_table i) p

/-- A call of the facade, with its arguments. -/
inductive fs_call where
  | create (path : List Nat) (type : Nat)
  | open_file (path : List Nat)
  | seek (fd : Int) (offset : Int) (whence : Nat)
  | write (fd : Int) (src : block_t) (nbyte : Nat)
  | read (fd : Int) (dest : block_t) (nbyte : Nat)
  | get_dir (path : List Nat)

/-- What a call of the facade gives back: a return value; for `fs_read` the
return value and the buffer; for `fs_get_dir` the listing. -/
inductive fs_answer where
  | value (r : Int)
  | bytes (r : Int) (out : block_t)
  | listing (l : Option (List directoryFile_t))

/-- The state `s` has the blocks and the inode table of the state `fs`. -/
def keeps_files (fs s : FS_t) : Prop :=
  s.BlockStore_whole = fs.BlockStore_whole ∧ s.inode_table = fs.inode_table


/-- Two states of the loop of `fs_write` that differ only in the file system,
and there only beyond the skeleton. -/
structure same_write_state (st sty : fs_write_state) : Prop where
  fs : same_skeleton st.fs sty.fs
  inode : sty.inode = st.inode
  fd : sty.fd = st.fd
  cursor : sty.cursor = st.cursor
  src_pos : sty.src_pos = st.src_pos
  nbyte : sty.nbyte = st.nbyte
  new_ptrs : sty.new_ptrs = st.new_ptrs

/-- Two outcomes of `fs_write_append` of the same kind, with loop states that
differ only beyond the skeleton. -/
def append_rel : Option ((Bool × fs_write_state) ⊕ fs_write_state) →
    Option ((Bool × fs_write_state) ⊕ fs_write_state) → Prop
  | none, none => True
  | some (Sum.inl (b, s)), some (Sum.inl (c, t)) => b = c ∧ same_write_state s t
  | some (Sum.inr s), some (Sum.inr t) => same_write_state s t
  | _, _ => False

/-- The bytes that a call takes from its caller are bytes: the characters of
the path of `fs_create` and the source buffer of `fs_write`. -/
def fs_call_ok : fs_call → Prop
  | fs_call.create path _ => ∀ c, c ∈ path → c < 256
  | fs_call.write _ src _ => ∀ j, src j < 256
  | _ => True

/-- One call of the facade from the state `fs`: what the call gives back and
the state after the call; `none` when `fs_write` or `fs_read` gives `none`. -/
def fs_call_run (fs : FS_t) : fs_call → Option (fs_answer × FS_t)
  | fs_call.create path type =>
    match fs_create fs path type with
    | (r, fs1) => some (fs_answer.value r, fs1)
  | fs_call.open_file path =>
    match fs_open fs path with
    | (r, fs1) => some (fs_answer.value r, fs1)
  | fs_call.seek fd offset whence =>
    match fs_seek fs fd offset whence with
    | (r, fs1) => some (fs_answer.value r, fs1)
  | fs_call.write fd src nbyte =>
    match fs_write fs fd src nbyte with
    | none => none
    | some (r, fs1) => some (fs_answer.value r, fs1)
  | fs_call.read fd dest nbyte =>
    match fs_read fs fd dest nbyte with
    | none => none
    | some (r, out, fs1) => some (fs_answer.bytes r out, fs1)
  | fs_call.get_dir path => some (fs_answer.listing (fs_get_dir fs path), fs)

/-- A sequence of calls of the facade from the state `fs`: what the calls give
back, in order, and the state after the last call. -/
def fs_run : FS_t → List fs_call → Option (List fs_answer × FS_t)
  | fs, [] => some ([], fs)
  | fs, c :: cs =>
    match fs_call_run fs c with
    | none => none
    | some (a, fs1) =>
      match fs_run fs1 cs with
      | none => none
      | some (as, fs2) => some (a :: as, fs2)

/-- The state `fsy` differs from the state `fs` only in the contents of free
blocks: the inode table and the descriptor table are the same, the blocks of
the free-block map are the same (`map`, which also covers the block numbers
from 65536 on, which the store of the program does not have), every block
that is in use in `fs` is the same, and the blocks of `fsy` hold bytes. -/
structure differs_in_free_blocks (fs fsy : FS_t) : Prop where
  table : fsy.inode_table = fs.inode_table
  fds : fsy.BlockStore_fd = fs.BlockStore_fd
  map : ∀ b, 65528 ≤ b → fsy.BlockStore_whole.blocks b = fs.BlockStore_whole.blocks b
  used : ∀ b, b < 65528 → block_used fs.BlockStore_whole b →
    fsy.BlockStore_whole.blocks b = fs.BlockStore_whole.blocks b
  bytes : fsy.bytes_ok

/-- A sequence of calls that creates, opens, writes, rewinds and reads a file
and lists the root directory. -/
def fs_calls_sample : List fs_call :=
  [fs_call.create (bytes "/b") FS_REGULAR, fs_call.open_file (bytes "/b"),
   fs_call.write 1 (buffer_of "some bytes") 10, fs_call.seek 1 0 FS_SEEK_SET,
   fs_call.read 1 (fun _ => 0) 10, fs_call.get_dir (bytes "/")]

/-! # Theorems -/

/-- C3, evaluated: on a freshly formatted file system the creations of `/a` to
`/p` (16 files) return 0, the creation of the 17th file `/q` returns -1, and
`fs_get_dir("/")` then has 16 entries: the directory-entry map is overlaid with
16 bits, so `bitmap_ffz` finds no slot for a 17th child. -/
theorem fs_create_seventeenth_child_fails :
    (fs_create_all fs_format_state (letter_paths 17)).1 = List.replicate 16 0 ++ [-1] ∧
    (fs_get_dir (fs_create_all fs_format_state (letter_paths 17)).2 [SLASH]).map List.length
      = some 16 := by
  decide!

/-- C8, evaluated: in a freshly formatted file system with the directory
`/dddddddddddddddd` (16-byte name) created, the directory resolves and is
empty, inode 2 is free, a file with a one-byte name can be created in it, and
yet the creation of a file with a 16-byte name in it returns -1: the length
check is made on the whole path (34 bytes here), not on the file name. -/
theorem fs_create_long_path_fails :
    (fs_create fs_format_state (bytes "/dddddddddddddddd") FS_DIRECTORY).1 = 0 ∧
    fs_get_dir (fs_create fs_format_state (bytes "/dddddddddddddddd") FS_DIRECTORY).2
      (bytes "/dddddddddddddddd") = some [] ∧
    (_inode_read (fs_create fs_format_state (bytes "/dddddddddddddddd") FS_DIRECTORY).2 2).isNone
      = true ∧
    (fs_create (fs_create fs_format_state (bytes "/dddddddddddddddd") FS_DIRECTORY).2
      (bytes "/dddddddddddddddd/f") FS_REGULAR).1 = 0 ∧
    (fs_create (fs_create fs_format_state (bytes "/dddddddddddddddd") FS_DIRECTORY).2
      (bytes "/dddddddddddddddd/ffffffffffffffff") FS_REGULAR).1 = -1 := by
  decide!

/-- C10, evaluated: on a freshly formatted file system the root directory has
no live entry, and yet the path `/\x01` resolves (to inode 0) and
`fs_get_dir` succeeds on it: the lookup scans block 0, the inode bitmap, whose
first byte is 1, as the entry block of the empty root, and does not consult the
directory-entry map. -/
theorem get_inum_finds_name_in_empty_root :
    fs_get_dir fs_format_state [SLASH] = some [] ∧
    _get_inum fs_format_state [SLASH, 1] = 0 ∧
    fs_get_dir fs_format_state [SLASH, 1] = some [] := by
  decide!

/-- C4, evaluated: on a freshly formatted file system `fs_create("/\x01/a")`
returns 0 (the parent `/\x01` resolves to the root through the inode bitmap
read as an entry block), and afterwards `fs_get_dir` on the parent `/\x01`
returns `NULL`, while the root lists the new entry. -/
theorem fs_get_dir_of_parent_fails_after_create :
    (fs_create fs_format_state [SLASH, 1, SLASH, 97] FS_REGULAR).1 = 0 ∧
    fs_get_dir (fs_create fs_format_state [SLASH, 1, SLASH, 97] FS_REGULAR).2 [SLASH, 1] = none ∧
    fs_get_dir (fs_create fs_format_state [SLASH, 1, SLASH, 97] FS_REGULAR).2 [SLASH]
      = some [{ filename := strncpy [97] 32, inum := 1 }] := by
  decide!

/-- C5, evaluated: on a freshly formatted file system `fs_create("/\x01/a")`
returns 0 and afterwards the same path does not resolve: `_get_inum` and
`fs_open` return -1 on it. -/
theorem created_path_does_not_resolve :
    (fs_create fs_format_state [SLASH, 1, SLASH, 97] FS_REGULAR).1 = 0 ∧
    _get_inum (fs_create fs_format_state [SLASH, 1, SLASH, 97] FS_REGULAR).2
      [SLASH, 1, SLASH, 97] = -1 ∧
    (fs_open (fs_create fs_format_state [SLASH, 1, SLASH, 97] FS_REGULAR).2
      [SLASH, 1, SLASH, 97]).1 = -1 := by
  decide!

theorem fs_create_err3_eq (fs : FS_t) (b : Bool) (n : Nat) :
    ∃ s, fs_create_err3 fs b n = (-1, s) := ⟨_, rfl⟩

theorem fs_create_err5_eq (fs : FS_t) (i : Nat) (b : Bool) (n : Nat) :
    ∃ s, fs_create_err5 fs i b n = (-1, s) := ⟨_, rfl⟩

theorem fs_create_verify_of_strnlen (fs1 : FS_t) (path : List Nat) (t p : Nat) (ino : inode_t)
    (blk : block_t) (map : bitmap_t) (b : Bool)
    (h : strnlen path FS_FNAME_MAX = FS_FNAME_MAX) :
    ∃ s, fs_create_verify fs1 path t p ino blk map b = (-1, s) := by
  unfold fs_create_verify
  simp only []
  split
  · exact fs_create_err3_eq _ _ _
  · split
    · exact fs_create_err3_eq _ _ _
    · exact fs_create_err3_eq _ _ _

theorem fs_create_dentry_block_of_strnlen (fs : FS_t) (path : List Nat) (t p : Nat) (ino : inode_t)
    (blk : block_t) (map : bitmap_t)
    (h : strnlen path FS_FNAME_MAX = FS_FNAME_MAX) :
    ∃ s, fs_create_dentry_block fs path t p ino blk map = (-1, s) := by
  unfold fs_create_dentry_block
  split
  · simp only []
    split
    · exact ⟨_, rfl⟩
    · exact fs_create_verify_of_strnlen _ _ _ _ _ _ _ _ h
  · exact fs_create_verify_of_strnlen _ _ _ _ _ _ _ _ h

theorem fs_create_of_strnlen (fs : FS_t) (path : List Nat) (type : Nat)
    (h : strnlen path FS_FNAME_MAX = FS_FNAME_MAX) : ∃ s, fs_create fs path type = (-1, s) := by
  unfold fs_create
  split
  · exact ⟨_, rfl⟩
  split
  · exact ⟨_, rfl⟩
  split
  · exact ⟨_, rfl⟩
  split
  · exact ⟨_, rfl⟩
  simp only []
  split
  · exact ⟨_, rfl⟩
  split
  · exact ⟨_, rfl⟩
  split
  · exact ⟨_, rfl⟩
  exact fs_create_dentry_block_of_strnlen _ _ _ _ _ _ _ h

theorem strip_trailing_slashes_length_le (s : List Nat) :
    (strip_trailing_slashes s).length ≤ s.length := by
  unfold strip_trailing_slashes
  rw [List.length_reverse]
  calc (s.reverse.dropWhile _).length ≤ s.reverse.length := (List.dropWhile_sublist _).length_le
    _ = s.length := List.length_reverse s

theorem basename_length_le (path : List Nat) (h : path ≠ []) :
    (basename path).length ≤ path.length := by
  unfold basename
  have hp : 1 ≤ path.length := by
    cases path with
    | nil => exact absurd rfl h
    | cons a l => simp
  split
  · simpa using hp
  · simp only []
    split
    · simpa using hp
    · rw [List.length_reverse]
      calc _ ≤ (strip_trailing_slashes path).reverse.length := (List.takeWhile_sublist _).length_le
        _ = (strip_trailing_slashes path).length := List.length_reverse _
        _ ≤ path.length := strip_trailing_slashes_length_le path

theorem _basename_length_le {path name : List Nat} (h : _basename path = some name) :
    name.length ≤ path.length := by
  unfold _basename at h
  split at h
  · exact absurd h (by simp)
  · rename_i hp
    simp only [] at h
    split at h
    · exact absurd h (by simp)
    · have hne : path ≠ [] := by
        intro he
        apply hp
        left
        simp [he, PATH_OK]
      have := basename_length_le path hne
      simp only [Option.some.injEq] at h
      rw [← h]
      exact this

/-- C7: `fs_create` fails (returns -1) for every path whose final component,
the name of the new file that `_basename` yields, is `FS_FNAME_MAX` = 32 bytes
long or longer, in every state and for every type. -/
theorem fs_create_name_too_long_fails (fs : FS_t) (path name : List Nat) (type : Nat)
    (hname : _basename path = some name) (hlen : FS_FNAME_MAX ≤ name.length) :
    (fs_create fs path type).1 = -1 := by
  have hs : strnlen path FS_FNAME_MAX = FS_FNAME_MAX := by
    have := _basename_length_le hname
    unfold strnlen
    omega
  obtain ⟨s, h⟩ := fs_create_of_strnlen fs path type hs
  rw [h]

theorem fs_create_name_too_long_fails_witness :
    _basename (SLASH :: List.replicate 32 97) = some (List.replicate 32 97) ∧
    FS_FNAME_MAX ≤ (List.replicate 32 97).length ∧
    (fs_create fs_format_state (SLASH :: List.replicate 32 97) FS_REGULAR).1 = -1 :=
  ⟨by decide!, by decide!,
    fs_create_name_too_long_fails fs_format_state (SLASH :: List.replicate 32 97)
      (List.replicate 32 97) FS_REGULAR (by decide!) (by decide!)⟩

/-! ## Path helpers -/

theorem strtok_loop_append_slash (xs ys : List Nat) :
    ∀ cur, strtok_loop cur (xs ++ SLASH :: ys) = strtok_loop cur xs ++ strtok_loop [] ys := by
  induction xs with
  | nil =>
    intro cur
    simp only [List.nil_append, strtok_loop, if_true]
    split <;> simp
  | cons c xs ih =>
    intro cur
    simp only [List.cons_append, strtok_loop]
    split
    · split
      · exact ih []
      · have := ih []
        simp only [List.cons_append, List.cons.injEq, true_and]
        exact this
    · exact ih (c :: cur)

theorem strtok_loop_no_slash (name : List Nat) (h : ∀ c ∈ name, c ≠ SLASH) :
    ∀ cur, strtok_loop cur name =
      if (cur.reverse ++ name).isEmpty then [] else [cur.reverse ++ name] := by
  induction name with
  | nil =>
    intro cur
    simp [strtok_loop]
  | cons c name ih =>
    intro cur
    have hc : c ≠ SLASH := h c (List.mem_cons_self _ _)
    simp only [strtok_loop, if_neg hc]
    rw [ih (fun x hx => h x (List.mem_cons_of_mem _ hx))]
    simp

theorem strtok_loop_all_slash (s : List Nat) (h : ∀ c ∈ s, c = SLASH) :
    strtok_loop [] s = [] := by
  induction s with
  | nil => rfl
  | cons c s ih =>
    have hc : c = SLASH := h c (List.mem_cons_self _ _)
    simp only [strtok_loop, if_pos hc, List.isEmpty_nil, if_true]
    exact ih (fun x hx => h x (List.mem_cons_of_mem _ hx))

theorem split_at_last (p : Nat → Bool) (l : List Nat) :
    l = (l.reverse.dropWhile p).reverse ++ (l.reverse.takeWhile p).reverse := by
  have := List.takeWhile_append_dropWhile p l.reverse
  have h2 := congrArg List.reverse this
  rw [List.reverse_append, List.reverse_reverse] at h2
  exact h2.symm

theorem strtok_strip_trailing_slashes (s : List Nat) :
    strtok_loop [] (strip_trailing_slashes s) = strtok_loop [] s := by
  have hs := split_at_last (fun c => decide (c = SLASH)) s
  have hall : ∀ c ∈ (s.reverse.takeWhile (fun c => decide (c = SLASH))).reverse, c = SLASH := by
    intro c hc
    rw [List.mem_reverse] at hc
    have := List.mem_takeWhile_imp hc
    simpa using this
  unfold strip_trailing_slashes
  generalize (s.reverse.dropWhile (fun c => decide (c = SLASH))).reverse = B at hs ⊢
  generalize (s.reverse.takeWhile (fun c => decide (c = SLASH))).reverse = S at hs hall
  rw [hs]
  cases S with
  | nil => simp
  | cons a S' =>
    have ha : a = SLASH := hall a (List.mem_cons_self _ _)
    subst ha
    rw [strtok_loop_append_slash, strtok_loop_all_slash S' (fun x hx => hall x (List.mem_cons_of_mem _ hx))]
    simp

theorem PATH_OK_iff (path : List Nat) : PATH_OK path = true ↔ ∃ rest, path = SLASH :: rest := by
  unfold PATH_OK
  cases path with
  | nil => simp
  | cons a l => simp

/-- A path that starts with a slash and does not end with one splits into a
directory part, a slash and a last component without slash. -/
theorem path_split_last (path : List Nat) (h1 : PATH_OK path = true)
    (h2 : path.getLast? ≠ some SLASH) :
    ∃ pre name, path = pre ++ SLASH :: name ∧ name ≠ [] ∧ (∀ c ∈ name, c ≠ SLASH) ∧
      path.reverse.dropWhile (fun c => decide (c ≠ SLASH)) = SLASH :: pre.reverse ∧
      path.reverse.takeWhile (fun c => decide (c ≠ SLASH)) = name.reverse := by
  obtain ⟨rest, hp⟩ := (PATH_OK_iff path).1 h1
  have hs := List.takeWhile_append_dropWhile (fun c => decide (c ≠ SLASH)) path.reverse
  have hmem : SLASH ∈ path.reverse := by rw [List.mem_reverse, hp]; exact List.mem_cons_self _ _
  have hnall : ∀ c ∈ path.reverse.takeWhile (fun c => decide (c ≠ SLASH)), c ≠ SLASH := by
    intro c hc
    simpa using List.mem_takeWhile_imp hc
  cases hX : path.reverse.dropWhile (fun c => decide (c ≠ SLASH)) with
  | nil =>
    rw [hX, List.append_nil] at hs
    rw [← hs] at hmem
    exact absurd rfl (hnall _ hmem)
  | cons x X' =>
    have hx : x = SLASH := by
      have := List.head_dropWhile_not (fun c => decide (c ≠ SLASH)) path.reverse
        (by rw [hX]; exact List.cons_ne_nil _ _)
      simp only [hX, List.head_cons] at this
      simpa using this
    subst hx
    refine ⟨X'.reverse, (path.reverse.takeWhile (fun c => decide (c ≠ SLASH))).reverse, ?_, ?_, ?_,
      ?_, ?_⟩
    · have h3 := congrArg List.reverse hs
      rw [List.reverse_append, List.reverse_reverse, hX] at h3
      refine h3.symm.trans ?_
      simp only [List.reverse_cons, List.append_assoc, List.singleton_append]
    · intro hnil
      have hnil2 : path.reverse.takeWhile (fun c => decide (c ≠ SLASH)) = [] := by
        simpa using hnil
      rw [hnil2, hX, List.nil_append] at hs
      have : path = (SLASH :: X').reverse := by rw [hs, List.reverse_reverse]
      apply h2
      rw [this]
      simp
    · intro c hc
      exact hnall c (List.mem_reverse.1 hc)
    · simp
    · simp

theorem strtok_path_split (pre name : List Nat) (hne : name ≠ []) (hns : ∀ c ∈ name, c ≠ SLASH) :
    strtok_loop [] (pre ++ SLASH :: name) = strtok_loop [] pre ++ [name] := by
  rw [strtok_loop_append_slash, strtok_loop_no_slash name hns]
  simp [hne]

theorem dirname_of_path (path pre name : List Nat) (h2 : path.getLast? ≠ some SLASH)
    (hp : path = pre ++ SLASH :: name)
    (hd : path.reverse.dropWhile (fun c => decide (c ≠ SLASH)) = SLASH :: pre.reverse) :
    dirname path =
      if (strip_trailing_slashes pre).isEmpty then
        (if pre.length = 1 then [SLASH, SLASH] else [SLASH])
      else strip_trailing_slashes pre := by
  have hmem : SLASH ∈ path := by rw [hp]; simp
  unfold dirname
  simp only []
  have hc : ¬ (2 ≤ path.length ∧ path.getLast? = some SLASH ∧
      ¬ (strip_trailing_slashes path).isEmpty = true) := fun h => h2 h.2.1
  rw [if_neg hc, if_pos hmem, hd]
  simp

theorem basename_of_path (path pre name : List Nat) (hne : name ≠ [])
    (hns : ∀ c ∈ name, c ≠ SLASH) (hp : path = pre ++ SLASH :: name) :
    basename path = name := by
  have hlast : ∃ a l, name.reverse = a :: l := by
    cases hr : name.reverse with
    | nil => exact absurd (by simpa using hr) hne
    | cons a l => exact ⟨a, l, rfl⟩
  obtain ⟨a, l, hal⟩ := hlast
  have ha : a ≠ SLASH := hns a (by rw [← List.mem_reverse, hal]; exact List.mem_cons_self _ _)
  have hrev : path.reverse = a :: (l ++ SLASH :: pre.reverse) := by
    rw [hp, List.reverse_append, List.reverse_cons, hal]; simp
  have hstrip : strip_trailing_slashes path = path := by
    unfold strip_trailing_slashes
    rw [hrev, List.dropWhile_cons_of_neg (by simpa using ha), ← hrev, List.reverse_reverse]
  have hpne : path ≠ [] := by rw [hp]; simp
  unfold basename
  simp only [hstrip]
  have e1 : path.isEmpty = false := by
    cases path with
    | nil => exact absurd rfl hpne
    | cons _ _ => rfl
  simp only [e1, Bool.false_eq_true, if_false]
  have : path.reverse = name.reverse ++ SLASH :: pre.reverse := by
    rw [hp]; simp
  rw [this, List.takeWhile_append_of_pos (by
    intro c hc
    have := hns c (List.mem_reverse.1 hc)
    simpa using this)]
  simp

theorem _dirname_basename_of_path (path : List Nat) (h1 : PATH_OK path = true)
    (h2 : path.getLast? ≠ some SLASH) :
    ∃ pre name parent, path = pre ++ SLASH :: name ∧ name ≠ [] ∧ (∀ c ∈ name, c ≠ SLASH) ∧
      _dirname path = some parent ∧ PATH_OK parent = true ∧
      strtok_loop [] parent = strtok_loop [] pre ∧
      strtok_loop [] path = strtok_loop [] pre ++ [name] ∧
      _basename path = (if name = [DOT] ∨ name = [DOT, DOT] then none else some name) := by
  obtain ⟨pre, name, hp, hne, hns, hd, _⟩ := path_split_last path h1 h2
  have hdir := dirname_of_path path pre name h2 hp hd
  have hbase := basename_of_path path pre name hne hns hp
  have hne1 : path ≠ [SLASH] := by
    intro h
    apply h2
    rw [h]
    rfl
  have hcond : ¬ (¬ PATH_OK path = true ∨ path = [SLASH]) := by
    intro h
    cases h with
    | inl h => exact h h1
    | inr h => exact hne1 h
  have htok := strtok_path_split pre name hne hns
  rw [← hp] at htok
  have hpre_head : pre = [] ∨ ∃ rest, pre = SLASH :: rest := by
    obtain ⟨rest, hr⟩ := (PATH_OK_iff path).1 h1
    cases pre with
    | nil => exact Or.inl rfl
    | cons a l =>
      right
      rw [hp] at hr
      simp only [List.cons_append, List.cons.injEq] at hr
      exact ⟨l, by rw [hr.1]⟩
  by_cases hr : (strip_trailing_slashes pre).isEmpty = true
  · -- the directory part is empty or all slashes
    have hstrip : strip_trailing_slashes pre = [] := by simpa using hr
    have htokpre : strtok_loop [] pre = [] := by
      rw [← strtok_strip_trailing_slashes, hstrip]
      rfl
    rw [if_pos hr] at hdir
    refine ⟨pre, name, dirname path, hp, hne, hns, ?_, ?_, ?_, htok, ?_⟩
    · unfold _dirname
      rw [if_neg hcond]
      simp only []
      rw [hdir]
      split <;> simp
    · rw [hdir]
      split <;> rfl
    · rw [hdir, htokpre]
      split <;> rfl
    · unfold _basename
      rw [if_neg hcond]
      simp only [hbase]
  · rw [if_neg hr] at hdir
    have hhead : PATH_OK (strip_trailing_slashes pre) = true := by
      cases hpre_head with
      | inl h =>
        exfalso
        apply hr
        rw [h]
        rfl
      | inr h =>
        obtain ⟨rest, hrest⟩ := h
        have hsp := split_at_last (fun c => decide (c = SLASH)) pre
        have : strip_trailing_slashes pre =
            (pre.reverse.dropWhile (fun c => decide (c = SLASH))).reverse := rfl
        rw [← this] at hsp
        cases hq : strip_trailing_slashes pre with
        | nil => rw [hq] at hr; exact absurd rfl hr
        | cons a l =>
          rw [hq, hrest] at hsp
          simp only [List.cons_append, List.cons.injEq] at hsp
          rw [← hsp.1]
          rfl
    refine ⟨pre, name, dirname path, hp, hne, hns, ?_, ?_, ?_, htok, ?_⟩
    · unfold _dirname
      rw [if_neg hcond]
      simp only []
      rw [hdir]
      have : strip_trailing_slashes pre ≠ [DOT] := by
        intro h
        rw [h] at hhead
        exact absurd hhead (by decide)
      rw [if_neg this]
    · rw [hdir]; exact hhead
    · rw [hdir]; exact strtok_strip_trailing_slashes pre
    · unfold _basename
      rw [if_neg hcond]
      simp only [hbase]

/-! ## Path resolution -/

theorem _get_inum_loop_append (fs : FS_t) (xs ys : List (List Nat)) :
    ∀ i0 j, _get_inum_loop fs i0 xs = j → 0 ≤ j →
      _get_inum_loop fs i0 (xs ++ ys) = _get_inum_loop fs j ys := by
  induction xs with
  | nil =>
    intro i0 j h _
    simp only [_get_inum_loop] at h
    rw [← h]
    rfl
  | cons x xs ih =>
    intro i0 j h hj
    simp only [List.cons_append, _get_inum_loop] at h ⊢
    by_cases hn : _inum_find_child fs i0.toNat x < 0
    · rw [if_pos hn] at h
      omega
    · rw [if_neg hn] at h ⊢
      exact ih _ _ h hj

theorem _inum_find_child_not_dir (fs : FS_t) (i : Nat) (child : List Nat) (inode : inode_t)
    (hr : _inode_read fs i = some inode) (ht : inode.file_type ≠ CHAR_d) :
    _inum_find_child fs i child = -1 := by
  unfold _inum_find_child
  split
  · rfl
  · rw [hr]
    simp only []
    unfold _inode_dir_load
    simp only []
    rw [if_pos ht]

theorem _get_inum_loop_through_non_dir (fs : FS_t) (i : Int) (inode : inode_t)
    (d : List Nat) (rest : List (List Nat))
    (hr : _inode_read fs i.toNat = some inode) (ht : inode.file_type ≠ CHAR_d) :
    _get_inum_loop fs i (d :: rest) = -1 := by
  simp only [_get_inum_loop]
  rw [_inum_find_child_not_dir fs i.toNat d inode hr ht]
  rfl

theorem _get_inum_eq_loop (fs : FS_t) (path : List Nat) (comps : List (List Nat))
    (h : _split_path path = some comps) : _get_inum fs path = _get_inum_loop fs 0 comps := by
  unfold _get_inum
  rw [h]

theorem fs_create_parent_fail (fs : FS_t) (path parent_path : List Nat) (type : Nat)
    (hd : _dirname path = some parent_path)
    (h : _get_inum fs parent_path < 0 ∨
      (_inode_read fs (_get_inum fs parent_path).toNat).map inode_t.file_type ≠ some CHAR_d) :
    ∃ s, fs_create fs path type = (-1, s) := by
  unfold fs_create
  split
  · exact ⟨_, rfl⟩
  split
  · exact ⟨_, rfl⟩
  split
  · exact ⟨_, rfl⟩
  rw [hd]
  simp only []
  split
  · exact ⟨_, rfl⟩
  rename_i hge
  cases h with
  | inl h => exact absurd h hge
  | inr h =>
    split
    · exact ⟨_, rfl⟩
    · rename_i parent_inode hread
      have ht : parent_inode.file_type ≠ CHAR_d := by
        intro hc
        apply h
        rw [hread, Option.map_some', hc]
      have : _inode_dir_load fs parent_inode = none := by
        unfold _inode_dir_load
        simp only []
        rw [if_pos ht]
      rw [this]
      exact ⟨_, rfl⟩

/-- What the resolver guarantees: `fs_create` fails when `_get_inum` does not
resolve the parent path or resolves it to an inode that is not a readable
directory; and resolution never passes through a regular file: when a
non-terminal component of the path (`c`, after the components `pre`, before
the non-empty rest `post`) resolves to a regular file, `fs_create`, `fs_open`
and `fs_get_dir` all fail.  That `_get_inum` resolves a parent path does not
mean that the parent exists: in an empty directory the lookup scans block 0. -/
theorem resolution_never_crosses_regular_file (fs : FS_t) (path : List Nat) (type : Nat) :
    (∀ parent_path, _dirname path = some parent_path →
        (_get_inum fs parent_path < 0 ∨
          (_inode_read fs (_get_inum fs parent_path).toNat).map inode_t.file_type
            ≠ some CHAR_d) →
        (fs_create fs path type).1 = -1) ∧
    (∀ pre c post i, _split_path path = some (pre ++ c :: post) → post ≠ [] →
        _get_inum_loop fs 0 (pre ++ [c]) = i → 0 ≤ i →
        (_inode_read fs i.toNat).map inode_t.file_type = some CHAR_r →
        (fs_create fs path type).1 = -1 ∧ (fs_open fs path).1 = -1 ∧
          fs_get_dir fs path = none) := by
  constructor
  · intro parent_path hd h
    obtain ⟨s, hs⟩ := fs_create_parent_fail fs path parent_path type hd h
    rw [hs]
  · intro pre c post i hsplit hpost hres hi htype
    obtain ⟨inode, hread, hr⟩ : ∃ inode, _inode_read fs i.toNat = some inode ∧
        inode.file_type = CHAR_r := by
      cases hq : _inode_read fs i.toNat with
      | none => rw [hq] at htype; exact absurd htype (by simp)
      | some inode =>
        rw [hq, Option.map_some'] at htype
        exact ⟨inode, rfl, by simpa using htype⟩
    have hnd : inode.file_type ≠ CHAR_d := by rw [hr]; decide
    obtain ⟨d, rest, hpd⟩ : ∃ d rest, post = d :: rest := by
      cases post with
      | nil => exact absurd rfl hpost
      | cons d rest => exact ⟨d, rest, rfl⟩
    have hinum : _get_inum fs path = -1 := by
      rw [_get_inum_eq_loop fs path _ hsplit]
      have : pre ++ c :: post = (pre ++ [c]) ++ post := by simp
      rw [this, _get_inum_loop_append fs _ _ 0 i hres hi, hpd]
      exact _get_inum_loop_through_non_dir fs i inode d rest hread hnd
    have hok : PATH_OK path = true := by
      unfold _split_path at hsplit
      by_cases hp : PATH_OK path = true
      · exact hp
      · rw [if_pos hp] at hsplit
        exact absurd hsplit (by simp)
    refine ⟨?_, ?_, ?_⟩
    · by_cases hlast : path.getLast? = some SLASH
      · have : fs_create fs path type = (-1, fs) := by
          unfold fs_create
          rw [if_neg (by simpa using hok), if_pos hlast]
        rw [this]
      · obtain ⟨ppre, name, parent, _, _, _, hdir, hpok, htokp, htok, _⟩ :=
          _dirname_basename_of_path path hok hlast
        have hsp : _split_path parent =
            some (pre ++ c :: post.dropLast) := by
          unfold _split_path at hsplit ⊢
          rw [if_neg (by simpa using hok)] at hsplit
          rw [if_neg (by simpa using hpok), htokp]
          simp only [Option.some.injEq] at hsplit ⊢
          rw [htok, List.map_append, List.map_singleton] at hsplit
          have h1 := congrArg List.dropLast hsplit
          rw [List.dropLast_concat] at h1
          rw [h1, List.dropLast_append_of_ne_nil _ (List.cons_ne_nil _ _),
            List.dropLast_cons_of_ne_nil hpost]
        have hpar : _get_inum fs parent = _get_inum_loop fs i post.dropLast := by
          rw [_get_inum_eq_loop fs parent _ hsp]
          have : pre ++ c :: post.dropLast = (pre ++ [c]) ++ post.dropLast := by simp
          rw [this, _get_inum_loop_append fs _ _ 0 i hres hi]
        have hfail : _get_inum fs parent < 0 ∨
            (_inode_read fs (_get_inum fs parent).toNat).map inode_t.file_type ≠ some CHAR_d := by
          cases hq : post.dropLast with
          | nil =>
            right
            rw [hpar, hq]
            simp only [_get_inum_loop]
            rw [htype]
            decide
          | cons d2 rest2 =>
            left
            rw [hpar, hq, _get_inum_loop_through_non_dir fs i inode d2 rest2 hread hnd]
            decide
        obtain ⟨s, hs⟩ := fs_create_parent_fail fs path parent type hdir hfail
        rw [hs]
    · have : fs_open fs path = (-1, fs) := by
        unfold fs_open
        simp only [hinum]
        rfl
      rw [this]
    · unfold fs_get_dir
      simp only [hinum]
      split <;> rfl

theorem resolution_never_crosses_regular_file_witness :
    (fs_create fs_format_state (bytes "/missing/x") FS_REGULAR).1 = -1 ∧
    ((fs_create fs_with_file_f (bytes "/f/x") FS_REGULAR).1 = -1 ∧
      (fs_open fs_with_file_f (bytes "/f/x")).1 = -1 ∧
      fs_get_dir fs_with_file_f (bytes "/f/x") = none) :=
  ⟨(resolution_never_crosses_regular_file fs_format_state (bytes "/missing/x") FS_REGULAR).1
      (bytes "/missing") (by decide!) (Or.inl (by decide!)),
   (resolution_never_crosses_regular_file fs_with_file_f (bytes "/f/x") FS_REGULAR).2
      [] (bytes "f") [bytes "x"] 1 (by decide!) (by decide!) (by decide!) (by decide!)
      (by decide!)⟩

/-! ## Bits and bitmaps -/

theorem byte_set_reset :
    ∀ k, k < 8 → ∀ x, x < 256 → x &&& (1 <<< k) = 0 →
      (x ||| (1 <<< k)) &&& (255 ^^^ (1 <<< k)) = x := by
  decide!

theorem byte_set_lt :
    ∀ k, k < 8 → ∀ x, x < 256 → x ||| (1 <<< k) < 256 := by
  decide!

theorem byte_reset_lt (x m : Nat) (h : x < 256) : x &&& m < 256 :=
  Nat.lt_of_le_of_lt Nat.and_le_left h

theorem bitmap_t_ext {a b : bitmap_t} (hd : ∀ i, a.data i = b.data i)
    (h1 : a.bit_count = b.bit_count) (h2 : a.byte_count = b.byte_count) : a = b := by
  cases a
  cases b
  simp only [bitmap_t.mk.injEq]
  exact ⟨funext hd, h1, h2⟩

theorem bitmap_set_data (m : bitmap_t) (bit i : Nat) :
    (bitmap_set m bit).2.data i =
      if bit < m.bit_count ∧ i = bit / 8 then m.data i ||| (1 <<< (bit % 8)) else m.data i := by
  unfold bitmap_set
  by_cases h : bit ≥ m.bit_count
  · rw [if_pos h, if_neg (by omega)]
  · rw [if_neg h]
    by_cases hi : i = bit / 8
    · rw [if_pos ⟨by omega, hi⟩]
      simp only [hi, if_true]
    · rw [if_neg (fun hc => hi hc.2)]
      simp only [hi, if_false]

theorem bitmap_reset_data (m : bitmap_t) (bit i : Nat) :
    (bitmap_reset m bit).2.data i =
      if bit < m.bit_count ∧ i = bit / 8 then m.data i &&& (255 ^^^ (1 <<< (bit % 8)))
      else m.data i := by
  unfold bitmap_reset
  by_cases h : bit ≥ m.bit_count
  · rw [if_pos h, if_neg (by omega)]
  · rw [if_neg h]
    by_cases hi : i = bit / 8
    · rw [if_pos ⟨by omega, hi⟩]
      simp only [hi, if_true]
    · rw [if_neg (fun hc => hi hc.2)]
      simp only [hi, if_false]

theorem bitmap_set_counts (m : bitmap_t) (bit : Nat) :
    (bitmap_set m bit).2.bit_count = m.bit_count ∧
    (bitmap_set m bit).2.byte_count = m.byte_count := by
  unfold bitmap_set
  split <;> exact ⟨rfl, rfl⟩

theorem bitmap_reset_counts (m : bitmap_t) (bit : Nat) :
    (bitmap_reset m bit).2.bit_count = m.bit_count ∧
    (bitmap_reset m bit).2.byte_count = m.byte_count := by
  unfold bitmap_reset
  split <;> exact ⟨rfl, rfl⟩

theorem bitmap_test_false_iff (m : bitmap_t) (bit : Nat) :
    bitmap_test m bit = false ↔ m.data (bit / 8) &&& (1 <<< (bit % 8)) = 0 := by
  unfold bitmap_test
  simp

/-- Resetting a bit that was clear before it was set gives the bitmap back. -/
theorem bitmap_reset_set (m : bitmap_t) (bit : Nat) (hclear : bitmap_test m bit = false)
    (hbyte : m.data (bit / 8) < 256) :
    (bitmap_reset (bitmap_set m bit).2 bit).2 = m := by
  have hc := bitmap_set_counts m bit
  have hr := bitmap_reset_counts (bitmap_set m bit).2 bit
  apply bitmap_t_ext
  · intro i
    rw [bitmap_reset_data, bitmap_set_data, hc.1]
    by_cases h : bit < m.bit_count ∧ i = bit / 8
    · rw [if_pos h, if_pos h, h.2]
      exact byte_set_reset (bit % 8) (Nat.mod_lt _ (by decide)) _ hbyte
        ((bitmap_test_false_iff m bit).1 hclear)
    · rw [if_neg h, if_neg h]
  · rw [hr.1, hc.1]
  · rw [hr.2, hc.2]

theorem _uint8_ffs_n_loop_spec (lim : Nat) :
    ∀ fuel byte i r, _uint8_ffs_n_loop lim fuel byte i = r →
      r = UINT8_MAX ∨ (i ≤ r ∧ r < i + fuel ∧ r < lim ∧ (byte >>> (r - i)) &&& 1 ≠ 0) := by
  intro fuel
  induction fuel with
  | zero =>
    intro byte i r h
    left
    rw [← h]
    rfl
  | succ fuel ih =>
    intro byte i r h
    unfold _uint8_ffs_n_loop at h
    by_cases h1 : i < lim
    · rw [if_pos h1] at h
      by_cases h2 : byte &&& 1 ≠ 0
      · rw [if_pos h2] at h
        right
        subst h
        refine ⟨Nat.le_refl _, by omega, h1, ?_⟩
        rw [Nat.sub_self, Nat.shiftRight_zero]
        exact h2
      · rw [if_neg h2] at h
        cases ih _ _ _ h with
        | inl h3 => exact Or.inl h3
        | inr h3 =>
          right
          obtain ⟨a, b, c, d⟩ := h3
          refine ⟨by omega, by omega, c, ?_⟩
          have e : r - i = 1 + (r - (i + 1)) := by omega
          rw [e, Nat.shiftRight_add]
          exact d
    · rw [if_neg h1] at h
      left
      exact h.symm

theorem inverted_byte_bit :
    ∀ j, j < 8 → ∀ e, e < 256 → ((255 ^^^ e) >>> j) &&& 1 ≠ 0 → e &&& (1 <<< j) = 0 := by
  decide!

theorem and_bit_of_mod (d j : Nat) (hj : j < 8) (h : (d % 256) &&& (1 <<< j) = 0) :
    d &&& (1 <<< j) = 0 := by
  have e1 : d % 256 = d &&& 255 := (Nat.and_pow_two_sub_one_eq_mod d 8).symm
  have e2 : 255 &&& (1 <<< j) = 1 <<< j := by
    have : ∀ j, j < 8 → 255 &&& (1 <<< j) = 1 <<< j := by decide
    exact this j hj
  rw [e1, Nat.and_assoc, e2] at h
  exact h

theorem _uint8_ffs_n_inverted (d lim j : Nat)
    (h : _uint8_ffs_n (255 ^^^ (d % 256)) lim = j) (hj : j ≠ UINT8_MAX) :
    j < 8 ∧ j < lim ∧ d &&& (1 <<< j) = 0 := by
  unfold _uint8_ffs_n at h
  cases _uint8_ffs_n_loop_spec lim 8 _ 0 j h with
  | inl h1 => exact absurd h1 hj
  | inr h1 =>
    obtain ⟨_, b, c, e⟩ := h1
    have hj8 : j < 8 := by omega
    refine ⟨hj8, c, ?_⟩
    apply and_bit_of_mod d j hj8
    rw [Nat.sub_zero] at e
    exact inverted_byte_bit j hj8 _ (Nat.mod_lt _ (by decide)) e

theorem bitmap_ffz_loop_spec (m : bitmap_t) (lbc lbi : Nat) :
    ∀ fuel i r, bitmap_ffz_loop m lbc lbi fuel i = r →
      r = SIZE_MAX ∨ ∃ i' j, r = i' * 8 + j ∧ i ≤ i' ∧ i' < i + fuel ∧ j < 8 ∧
        j < (if i' = lbi then lbc else 8) ∧ m.data i' &&& (1 <<< j) = 0 := by
  intro fuel
  induction fuel with
  | zero =>
    intro i r h
    left
    rw [← h]
    rfl
  | succ fuel ih =>
    intro i r h
    unfold bitmap_ffz_loop at h
    simp only [] at h
    by_cases h1 : _uint8_ffs_n (255 ^^^ (m.data i % 256)) (if i = lbi then lbc else 8) ≠ UINT8_MAX
    · rw [if_pos h1] at h
      right
      obtain ⟨a, b, c⟩ := _uint8_ffs_n_inverted _ _ _ rfl h1
      exact ⟨i, _, h.symm, Nat.le_refl _, by omega, a, b, c⟩
    · rw [if_neg h1] at h
      cases ih _ _ h with
      | inl h2 => exact Or.inl h2
      | inr h2 =>
        right
        obtain ⟨i', j, e1, e2, e3, e4⟩ := h2
        exact ⟨i', j, e1, by omega, by omega, e4⟩

/-- The bit that `bitmap_ffz` returns is clear, and lies in the byte array. -/
theorem bitmap_ffz_clear (m : bitmap_t) (h : bitmap_ffz m ≠ SIZE_MAX) :
    bitmap_test m (bitmap_ffz m) = false ∧ bitmap_ffz m / 8 < m.byte_count := by
  unfold bitmap_ffz at h ⊢
  simp only [] at h ⊢
  cases bitmap_ffz_loop_spec m _ _ _ 0 _ rfl with
  | inl h1 => exact absurd h1 h
  | inr h1 =>
    obtain ⟨i', j, e1, _, e3, e4, _, e6⟩ := h1
    rw [e1]
    have d1 : (i' * 8 + j) / 8 = i' := by omega
    have d2 : (i' * 8 + j) % 8 = j := by omega
    constructor
    · rw [bitmap_test_false_iff, d1, d2]
      exact e6
    · rw [d1]
      omega

/-! ## Block store: the free-block map as a view of the blocks -/

theorem block_store_t_ext {a b : block_store_t} (h : ∀ i o, a.blocks i o = b.blocks i o) :
    a = b := by
  cases a
  cases b
  simp only [block_store_t.mk.injEq]
  exact funext (fun i => funext (h i))

theorem fbm_data (bs : block_store_t) (j : Nat) :
    bs.fbm.data j = bs.blocks (65528 + j / 1024) (j % 1024) :=
  rfl

theorem fbm_bit_count (bs : block_store_t) : bs.fbm.bit_count = 65536 := rfl

theorem set_fbm_blocks (bs : block_store_t) (m : bitmap_t) (b o : Nat) :
    (bs.set_fbm m).blocks b o =
      if 65528 ≤ b ∧ b < 65528 + 8 ∧
          o < 1024
      then m.data ((b - 65528) * 1024 + o)
      else bs.blocks b o := rfl

/-- The blocks after a bit of the free-block map is set through the overlay. -/
theorem set_fbm_bitmap_set_blocks (bs : block_store_t) (id b o : Nat) :
    (bs.set_fbm (bitmap_set bs.fbm id).2).blocks b o =
      if id < 65536 ∧ b = 65528 + id / 8 / 1024 ∧
          o = id / 8 % 1024
      then bs.blocks b o ||| (1 <<< (id % 8)) else bs.blocks b o := by
  rw [set_fbm_blocks, bitmap_set_data, fbm_bit_count, fbm_data]
  by_cases hr : 65528 ≤ b ∧ b < 65528 + 8 ∧
      o < 1024
  · rw [if_pos hr]
    have e1 : 65528 + ((b - 65528) * 1024 + o)
        / 1024 = b := by omega
    have e2 : ((b - 65528) * 1024 + o) % 1024 = o := by
      omega
    rw [e1, e2]
    by_cases hc : id < 65536 ∧
        (b - 65528) * 1024 + o = id / 8
    · rw [if_pos hc, if_pos ⟨hc.1, by omega, by omega⟩]
    · rw [if_neg hc, if_neg (fun h => hc ⟨h.1, by omega⟩)]
  · rw [if_neg hr, if_neg (fun h => hr (by omega))]

/-- The blocks after a bit of the free-block map is reset through the overlay. -/
theorem set_fbm_bitmap_reset_blocks (bs : block_store_t) (id b o : Nat) :
    (bs.set_fbm (bitmap_reset bs.fbm id).2).blocks b o =
      if id < 65536 ∧ b = 65528 + id / 8 / 1024 ∧
          o = id / 8 % 1024
      then bs.blocks b o &&& (255 ^^^ (1 <<< (id % 8))) else bs.blocks b o := by
  rw [set_fbm_blocks, bitmap_reset_data, fbm_bit_count, fbm_data]
  by_cases hr : 65528 ≤ b ∧ b < 65528 + 8 ∧
      o < 1024
  · rw [if_pos hr]
    have e1 : 65528 + ((b - 65528) * 1024 + o)
        / 1024 = b := by omega
    have e2 : ((b - 65528) * 1024 + o) % 1024 = o := by
      omega
    rw [e1, e2]
    by_cases hc : id < 65536 ∧
        (b - 65528) * 1024 + o = id / 8
    · rw [if_pos hc, if_pos ⟨hc.1, by omega, by omega⟩]
    · rw [if_neg hc, if_neg (fun h => hc ⟨h.1, by omega⟩)]
  · rw [if_neg hr, if_neg (fun h => hr (by omega))]

/-- Whether block `id` is marked in use in the free-block map. -/
theorem fbm_test_eq (bs : block_store_t) (id : Nat) :
    bitmap_test bs.fbm id =
      decide (bs.blocks (65528 + id / 8 / 1024)
        (id / 8 % 1024) &&& (1 <<< (id % 8)) ≠ 0) := rfl

/-- The two outcomes of `block_store_allocate`: no block and an unchanged
store, or a block that was free and whose bit alone is set. -/
theorem block_store_allocate_cases (bs : block_store_t) :
    block_store_allocate bs = (SIZE_MAX, bs) ∨
    ∃ id, id < 65536 ∧ bitmap_test bs.fbm id = false ∧
      id = bitmap_ffz bs.fbm ∧
      block_store_allocate bs = (id, bs.set_fbm (bitmap_set bs.fbm id).2) := by
  unfold block_store_allocate block_store_request
  simp only []
  by_cases h1 : bitmap_ffz bs.fbm ≥ 65536
  · left
    rw [if_pos h1]
    rfl
  · rw [if_neg h1]
    by_cases h2 : bitmap_test bs.fbm (bitmap_ffz bs.fbm) = true
    · left
      rw [if_pos h2]
      rfl
    · right
      rw [if_neg h2]
      exact ⟨_, by omega, by simpa using h2, rfl, rfl⟩

/-- Releasing the block that `block_store_allocate` just returned gives the
store back, byte for byte. -/
theorem block_store_release_allocate (bs : block_store_t) (id : Nat)
    (hbytes : ∀ b o, bs.blocks b o < 256) (hid : id < 65536)
    (hfree : bitmap_test bs.fbm id = false) :
    block_store_release (bs.set_fbm (bitmap_set bs.fbm id).2) id = bs := by
  unfold block_store_release
  rw [if_neg (Nat.not_le.2 hid)]
  apply block_store_t_ext
  intro b o
  rw [set_fbm_bitmap_reset_blocks, set_fbm_bitmap_set_blocks]
  by_cases hc : id < 65536 ∧ b = 65528 + id / 8 / 1024 ∧
      o = id / 8 % 1024
  · rw [if_pos hc, if_pos hc]
    rw [fbm_test_eq] at hfree
    obtain ⟨_, hb, ho⟩ := hc
    subst hb
    subst ho
    exact byte_set_reset (id % 8) (Nat.mod_lt _ (by decide)) _ (hbytes _ _) (by simpa using hfree)
  · rw [if_neg hc, if_neg hc]

/-! ## The inode sub-store as a view of block 0 -/

theorem FS_t_ext {a b : FS_t} (h1 : a.BlockStore_whole = b.BlockStore_whole)
    (h2 : a.inode_table = b.inode_table) (h3 : a.BlockStore_fd = b.BlockStore_fd) : a = b := by
  cases a
  cases b
  simp only [FS_t.mk.injEq]
  exact ⟨h1, h2, h3⟩

theorem inode_fbm_eq (fs : FS_t) :
    fs.BlockStore_inode.fbm = bitmap_overlay NUM_INODES (fs.BlockStore_whole.blocks 0) := rfl

theorem set_BlockStore_inode_fbm (fs : FS_t) (s : sub_store_t inode_t)
    (h1 : s.fbm.bit_count = NUM_INODES) (h2 : s.fbm.byte_count = 32) :
    (fs.set_BlockStore_inode s).BlockStore_inode.fbm = s.fbm := by
  apply bitmap_t_ext
  · intro i; rfl
  · exact h1.symm
  · exact h2.symm

theorem set_BlockStore_inode_records (fs : FS_t) (s : sub_store_t inode_t) :
    (fs.set_BlockStore_inode s).BlockStore_inode.records = s.records := rfl

theorem set_BlockStore_inode_twice (fs : FS_t) (s s' : sub_store_t inode_t) :
    (fs.set_BlockStore_inode s).set_BlockStore_inode s' = fs.set_BlockStore_inode s' := by
  apply FS_t_ext
  · apply block_store_t_ext
    intro b o
    show (if b = 0 then s'.fbm.data else
      (if b = 0 then s.fbm.data else fs.BlockStore_whole.blocks b)) o = _
    by_cases hb : b = 0
    · rw [if_pos hb]
      show _ = (if b = 0 then s'.fbm.data else fs.BlockStore_whole.blocks b) o
      rw [if_pos hb]
    · rw [if_neg hb, if_neg hb]
      show _ = (if b = 0 then s'.fbm.data else fs.BlockStore_whole.blocks b) o
      rw [if_neg hb]
  · rfl
  · rfl

theorem set_BlockStore_inode_same_fbm (fs : FS_t) (tbl : Nat → inode_t) :
    fs.set_BlockStore_inode { fbm := fs.BlockStore_inode.fbm, records := tbl } =
      { fs with inode_table := tbl } := by
  apply FS_t_ext
  · apply block_store_t_ext
    intro b o
    show (if b = 0 then fs.BlockStore_whole.blocks 0 else fs.BlockStore_whole.blocks b) o = _
    by_cases hb : b = 0
    · rw [if_pos hb, hb]
    · rw [if_neg hb]
  · rfl
  · rfl

theorem block_store_sub_allocate_cases {α : Type} (s : sub_store_t α) :
    block_store_sub_allocate s = (SIZE_MAX, s) ∨
    ∃ id, id ≠ SIZE_MAX ∧ id = bitmap_ffz s.fbm ∧
      block_store_sub_allocate s = (id, { s with fbm := (bitmap_set s.fbm id).2 }) := by
  unfold block_store_sub_allocate
  simp only []
  by_cases h : bitmap_ffz s.fbm = SIZE_MAX
  · left
    rw [if_pos h]
  · right
    rw [if_neg h]
    exact ⟨_, h, rfl, rfl⟩

theorem _BS_INODE_WRITE_cases (fs : FS_t) (inum : Nat) (src : inode_t) :
    (NUM_INODES ≤ inum ∧ _BS_INODE_WRITE fs inum src = none) ∨
    (inum < NUM_INODES ∧ _BS_INODE_WRITE fs inum src =
      some (fs.set_BlockStore_inode
        { fbm := fs.BlockStore_inode.fbm,
          records := fun i => if i = inum then src else fs.inode_table i })) := by
  unfold _BS_INODE_WRITE block_store_sub_write
  by_cases h : inum ≥ fs.BlockStore_inode.fbm.bit_count
  · left
    rw [if_pos h]
    exact ⟨h, rfl⟩
  · right
    rw [if_neg h]
    exact ⟨Nat.not_le.1 h, rfl⟩

/-- The state after the new inode number is allocated, possibly written, and
released again is the state before, up to the record of that free inode. -/
theorem inode_release_after_allocate (fs1 : FS_t) (id : Nat) (tbl : Nat → inode_t)
    (hb0 : ∀ o, fs1.BlockStore_whole.blocks 0 o < 256)
    (hclear : bitmap_test fs1.BlockStore_inode.fbm id = false) :
    (fs1.set_BlockStore_inode
        { fbm := (bitmap_set fs1.BlockStore_inode.fbm id).2, records := tbl }).set_BlockStore_inode
      (block_store_sub_release
        (fs1.set_BlockStore_inode
          { fbm := (bitmap_set fs1.BlockStore_inode.fbm id).2,
            records := tbl }).BlockStore_inode id) =
      { fs1 with inode_table := tbl } := by
  have hc := bitmap_set_counts fs1.BlockStore_inode.fbm id
  rw [set_BlockStore_inode_twice]
  unfold block_store_sub_release
  rw [set_BlockStore_inode_fbm _ _ (by rw [hc.1]; rfl) (by rw [hc.2]; rfl)]
  rw [bitmap_reset_set _ _ hclear (hb0 _)]
  exact set_BlockStore_inode_same_fbm fs1 tbl

/-! ## `fs_create` is all-or-nothing -/

theorem inode_tables_agree_refl (fs : FS_t) : inode_tables_agree fs fs.inode_table :=
  fun _ _ => rfl

theorem inode_tables_agree_update (fs : FS_t) (id : Nat) (node : inode_t)
    (hclear : bitmap_test fs.BlockStore_inode.fbm id = false) :
    inode_tables_agree fs (fun i => if i = id then node else fs.inode_table i) := by
  intro i hi
  by_cases h : i = id
  · exfalso
    subst h
    unfold block_store_sub_test at hi
    split at hi
    · exact absurd hi (by decide)
    · rw [hclear] at hi
      exact absurd hi (by decide)
  · simp only [h, if_false]

theorem set_BlockStore_inode_self (fs : FS_t) :
    fs.set_BlockStore_inode fs.BlockStore_inode = fs :=
  set_BlockStore_inode_same_fbm fs fs.inode_table

theorem _BS_INODE_WRITE_set (fs1 : FS_t) (F : bitmap_t) (tbl : Nat → inode_t)
    (hF1 : F.bit_count = NUM_INODES) (hF2 : F.byte_count = 32) (inum : Nat) (src : inode_t) :
    (NUM_INODES ≤ inum ∧
      _BS_INODE_WRITE (fs1.set_BlockStore_inode { fbm := F, records := tbl }) inum src = none) ∨
    (inum < NUM_INODES ∧
      _BS_INODE_WRITE (fs1.set_BlockStore_inode { fbm := F, records := tbl }) inum src =
        some (fs1.set_BlockStore_inode
          { fbm := F, records := fun i => if i = inum then src else tbl i })) := by
  cases _BS_INODE_WRITE_cases (fs1.set_BlockStore_inode { fbm := F, records := tbl }) inum src with
  | inl h => exact Or.inl h
  | inr h =>
    right
    refine ⟨h.1, ?_⟩
    rw [h.2, set_BlockStore_inode_twice, set_BlockStore_inode_fbm _ _ hF1 hF2]
    rfl

theorem fs_create_err5_set (fs1 : FS_t) (id : Nat) (tbl : Nat → inode_t) (b : Bool) (n : Nat)
    (hb0 : ∀ o, fs1.BlockStore_whole.blocks 0 o < 256)
    (hclear : bitmap_test fs1.BlockStore_inode.fbm id = false) :
    fs_create_err5
      (fs1.set_BlockStore_inode
        { fbm := (bitmap_set fs1.BlockStore_inode.fbm id).2, records := tbl }) id b n =
      fs_create_err3 { fs1 with inode_table := tbl } b n := by
  unfold fs_create_err5
  rw [inode_release_after_allocate fs1 id tbl hb0 hclear]

theorem fs_create_commit_fail (fs1 : FS_t) (t p : Nat) (ino : inode_t) (blk : block_t)
    (map : bitmap_t) (b : Bool) (filename : List Nat) (r : Int) (s : FS_t)
    (hb0 : ∀ o, fs1.BlockStore_whole.blocks 0 o < 256) (hp : p < NUM_INODES)
    (h : fs_create_commit fs1 t p ino blk map b filename = (r, s)) (hr : r ≠ 0) :
    ∃ tbl, inode_tables_agree fs1 tbl ∧
      (r, s) = fs_create_err3 { fs1 with inode_table := tbl } b (ino.data_direct 0) := by
  unfold fs_create_commit at h
  cases block_store_sub_allocate_cases fs1.BlockStore_inode with
  | inl ha =>
    rw [ha] at h
    dsimp only at h
    rw [if_pos rfl, set_BlockStore_inode_self fs1] at h
    exact ⟨fs1.inode_table, inode_tables_agree_refl fs1, h.symm⟩
  | inr ha =>
    obtain ⟨id, hid, hffz, ha⟩ := ha
    have hclear : bitmap_test fs1.BlockStore_inode.fbm id = false := by
      rw [hffz]
      rw [hffz] at hid
      exact (bitmap_ffz_clear _ hid).1
    have hc := bitmap_set_counts fs1.BlockStore_inode.fbm id
    rw [ha] at h
    dsimp only at h
    rw [if_neg hid] at h
    cases _BS_INODE_WRITE_set fs1 (bitmap_set fs1.BlockStore_inode.fbm id).2
        fs1.BlockStore_inode.records (by rw [hc.1]; rfl) (by rw [hc.2]; rfl) id
        { dir_entry_map := 0, file_type := t, inum := id, file_size := 0, link_count := 1,
          data_direct := fun _ => 0, data_indirect := 0, data_double_indirect := 0 } with
    | inl hw =>
      rw [hw.2] at h
      dsimp only at h
      rw [fs_create_err5_set fs1 id _ b _ hb0 hclear] at h
      exact ⟨_, inode_tables_agree_refl fs1, h.symm⟩
    | inr hw =>
      rw [hw.2] at h
      dsimp only at h
      have hagree := inode_tables_agree_update fs1 id
        { dir_entry_map := 0, file_type := t, inum := id, file_size := 0, link_count := 1,
          data_direct := fun _ => 0, data_indirect := 0, data_double_indirect := 0 } hclear
      by_cases hc1 : bitmap_ffz map = SIZE_MAX ∨ bitmap_ffz map ≥ DIR_ENTRIES_PER_BLOCK
      · rw [if_pos hc1, fs_create_err5_set fs1 id _ b _ hb0 hclear] at h
        exact ⟨_, hagree, h.symm⟩
      · rw [if_neg hc1] at h
        split at h
        · rw [fs_create_err5_set fs1 id _ b _ hb0 hclear] at h
          exact ⟨_, hagree, h.symm⟩
        · rename_i fs4 _
          cases _BS_INODE_WRITE_cases fs4 p
              { ino with
                dir_entry_map := uint32_of_bytes (bitmap_set map (bitmap_ffz map)).2.data,
                file_size := (ino.file_size + 1) % 2 ^ 64 } with
          | inl hw2 => exact absurd hp (Nat.not_lt.2 hw2.1)
          | inr hw2 =>
            rw [hw2.2] at h
            dsimp only at h
            have h1 := congrArg Prod.fst h
            exact absurd h1.symm hr

theorem fs_create_verify_fail (fs1 : FS_t) (path : List Nat) (t p : Nat) (ino : inode_t)
    (blk : block_t) (map : bitmap_t) (b : Bool) (r : Int) (s : FS_t)
    (hb0 : ∀ o, fs1.BlockStore_whole.blocks 0 o < 256) (hp : p < NUM_INODES)
    (h : fs_create_verify fs1 path t p ino blk map b = (r, s)) (hr : r ≠ 0) :
    ∃ tbl, inode_tables_agree fs1 tbl ∧
      (r, s) = fs_create_err3 { fs1 with inode_table := tbl } b (ino.data_direct 0) := by
  unfold fs_create_verify at h
  dsimp only at h
  split at h
  · exact ⟨_, inode_tables_agree_refl fs1, h.symm⟩
  · split at h
    · exact ⟨_, inode_tables_agree_refl fs1, h.symm⟩
    · split at h
      · exact ⟨_, inode_tables_agree_refl fs1, h.symm⟩
      · split at h
        · exact ⟨_, inode_tables_agree_refl fs1, h.symm⟩
        · exact fs_create_commit_fail fs1 t p ino blk map b _ r s hb0 hp h hr

theorem fs_create_dentry_block_fail (fs : FS_t) (path : List Nat) (t p : Nat) (ino : inode_t)
    (blk : block_t) (map : bitmap_t) (r : Int) (s : FS_t)
    (hbytes : fs.bytes_ok) (hp : p < NUM_INODES)
    (h : fs_create_dentry_block fs path t p ino blk map = (r, s)) (hr : r ≠ 0) :
    ∃ tbl, inode_tables_agree fs tbl ∧ s = { fs with inode_table := tbl } := by
  unfold fs_create_dentry_block at h
  by_cases h0 : ino.file_size = 0
  · rw [if_pos h0] at h
    cases block_store_allocate_cases fs.BlockStore_whole with
    | inl ha =>
      rw [ha] at h
      dsimp only at h
      rw [if_pos rfl] at h
      have h2 := congrArg Prod.snd h
      exact ⟨_, inode_tables_agree_refl fs, h2.symm⟩
    | inr ha =>
      obtain ⟨id, hid, hfree, _, ha⟩ := ha
      rw [ha] at h
      dsimp only at h
      have hne : id ≠ SIZE_MAX := by
        intro hc
        rw [hc] at hid
        exact absurd hid (by decide)
      rw [if_neg hne] at h
      have hmod : id % 65536 = id := Nat.mod_eq_of_lt hid
      have hb0 : ∀ o, (fs.BlockStore_whole.set_fbm
          (bitmap_set fs.BlockStore_whole.fbm id).2).blocks 0 o < 256 := by
        intro o
        rw [set_fbm_bitmap_set_blocks, if_neg (by omega)]
        exact hbytes 0 o
      have hinode : ({ fs with BlockStore_whole :=
          (fs.BlockStore_whole.set_fbm (bitmap_set fs.BlockStore_whole.fbm id).2) } :
          FS_t).BlockStore_inode = fs.BlockStore_inode := by
        unfold FS_t.BlockStore_inode
        have e : (fs.BlockStore_whole.set_fbm
            (bitmap_set fs.BlockStore_whole.fbm id).2).blocks 0 = fs.BlockStore_whole.blocks 0 := by
          funext o
          rw [set_fbm_bitmap_set_blocks, if_neg (by omega)]
        dsimp only
        rw [e]
      obtain ⟨tbl, hagree, hres⟩ := fs_create_verify_fail
        { fs with BlockStore_whole :=
            (fs.BlockStore_whole.set_fbm (bitmap_set fs.BlockStore_whole.fbm id).2) }
        path t p _ blk map true r s hb0 hp h hr
      refine ⟨tbl, ?_, ?_⟩
      · intro i hi
        rw [← hinode] at hi
        exact hagree i hi
      · have h2 := congrArg Prod.snd hres
        unfold fs_create_err3 at h2
        dsimp only at h2
        rw [if_pos rfl, hmod, if_pos rfl,
          block_store_release_allocate _ id hbytes hid hfree] at h2
        exact h2
  · rw [if_neg h0] at h
    obtain ⟨tbl, hagree, hres⟩ :=
      fs_create_verify_fail fs path t p ino blk map false r s (hbytes 0) hp h hr
    have h2 := congrArg Prod.snd hres
    exact ⟨tbl, hagree, h2⟩

theorem _inode_read_some (fs : FS_t) (inum : Nat) (inode : inode_t)
    (h : _inode_read fs inum = some inode) :
    inum < NUM_INODES ∧ block_store_sub_test fs.BlockStore_inode inum = true ∧
      inode = fs.inode_table inum := by
  unfold _inode_read at h
  by_cases h1 : ¬ INUM_OK inum = true
  · rw [if_pos h1] at h
    exact absurd h (by simp)
  · rw [if_neg h1] at h
    by_cases h2 : ¬ block_store_sub_test fs.BlockStore_inode inum = true
    · rw [if_pos h2] at h
      exact absurd h (by simp)
    · rw [if_neg h2] at h
      unfold block_store_sub_read at h
      split at h
      · exact absurd h (by simp)
      · simp only [Option.some.injEq] at h
        refine ⟨?_, by simpa using h2, h.symm⟩
        have : INUM_OK inum = true := by simpa using h1
        unfold INUM_OK at this
        simpa using this

/-- A failing `fs_create` leaves the state as it was, up to the records of
unallocated inodes. -/
theorem fs_create_fail (fs : FS_t) (path : List Nat) (type : Nat) (r : Int) (s : FS_t)
    (hbytes : fs.bytes_ok) (h : fs_create fs path type = (r, s)) (hr : r ≠ 0) :
    ∃ tbl, inode_tables_agree fs tbl ∧ s = { fs with inode_table := tbl } := by
  have triv : ∀ (q : Int × FS_t), q = (r, s) → q = (-1, fs) →
      ∃ tbl, inode_tables_agree fs tbl ∧ s = { fs with inode_table := tbl } := by
    intro q h1 h2
    rw [h2] at h1
    exact ⟨_, inode_tables_agree_refl fs, (congrArg Prod.snd h1).symm⟩
  unfold fs_create at h
  split at h
  · exact triv _ h rfl
  split at h
  · exact triv _ h rfl
  split at h
  · exact triv _ h rfl
  split at h
  · exact triv _ h rfl
  dsimp only at h
  split at h
  · exact triv _ h rfl
  split at h
  · exact triv _ h rfl
  rename_i parent_inode hread
  split at h
  · exact triv _ h rfl
  exact fs_create_dentry_block_fail fs path _ _ _ _ _ r s hbytes
    (_inode_read_some fs _ _ hread).1 h hr

/-! ## What a state with the same blocks and the same allocated inodes shows -/

theorem _inode_read_congr (fs : FS_t) (tbl : Nat → inode_t) (hagree : inode_tables_agree fs tbl)
    (i : Nat) : _inode_read { fs with inode_table := tbl } i = _inode_read fs i := by
  unfold _inode_read
  have e : ({ fs with inode_table := tbl } : FS_t).BlockStore_inode =
      { fs.BlockStore_inode with records := tbl } := rfl
  rw [e]
  by_cases h1 : ¬ INUM_OK i = true
  · rw [if_pos h1, if_pos h1]
  · rw [if_neg h1, if_neg h1]
    have e2 : block_store_sub_test ({ fs.BlockStore_inode with records := tbl } :
        sub_store_t inode_t) i = block_store_sub_test fs.BlockStore_inode i := rfl
    rw [e2]
    by_cases h2 : ¬ block_store_sub_test fs.BlockStore_inode i = true
    · rw [if_pos h2, if_pos h2]
    · rw [if_neg h2, if_neg h2]
      unfold block_store_sub_read
      have e3 : ({ fs.BlockStore_inode with records := tbl } : sub_store_t inode_t).fbm.bit_count
          = fs.BlockStore_inode.fbm.bit_count := rfl
      rw [e3]
      split
      · rfl
      · have := hagree i (by simpa using h2)
        show some (tbl i) = some (fs.inode_table i)
        rw [this]

theorem _inum_find_child_congr (fs : FS_t) (tbl : Nat → inode_t)
    (hagree : inode_tables_agree fs tbl) (p : Nat) (child : List Nat) :
    _inum_find_child { fs with inode_table := tbl } p child = _inum_find_child fs p child := by
  unfold _inum_find_child
  rw [_inode_read_congr fs tbl hagree]
  rfl

theorem _get_inum_loop_congr (fs : FS_t) (tbl : Nat → inode_t)
    (hagree : inode_tables_agree fs tbl) (comps : List (List Nat)) :
    ∀ i, _get_inum_loop { fs with inode_table := tbl } i comps = _get_inum_loop fs i comps := by
  induction comps with
  | nil => intro i; rfl
  | cons c rest ih =>
    intro i
    simp only [_get_inum_loop]
    rw [_inum_find_child_congr fs tbl hagree, ih]

theorem _get_inum_congr (fs : FS_t) (tbl : Nat → inode_t)
    (hagree : inode_tables_agree fs tbl) (path : List Nat) :
    _get_inum { fs with inode_table := tbl } path = _get_inum fs path := by
  unfold _get_inum
  split
  · rfl
  · exact _get_inum_loop_congr fs tbl hagree _ _

theorem fs_get_dir_congr (fs : FS_t) (tbl : Nat → inode_t)
    (hagree : inode_tables_agree fs tbl) (path : List Nat) :
    fs_get_dir { fs with inode_table := tbl } path = fs_get_dir fs path := by
  unfold fs_get_dir
  dsimp only
  rw [_get_inum_congr fs tbl hagree, _inode_read_congr fs tbl hagree]
  rfl

/-- C2: `fs_create` is all-or-nothing.  In every state whose blocks hold bytes
and for every call that returns -1, the state after the call has the same
blocks as before, byte for byte (hence the same free-block map, the same inode
occupancy bitmap and the same directory blocks), every inode reads the same
(`_inode_read`, which answers for the allocated inodes), the descriptor table
is the same, and `fs_get_dir` returns the same listing for every path. -/
theorem fs_create_all_or_nothing (fs : FS_t) (path : List Nat) (type : Nat)
    (hbytes : fs.bytes_ok) (hfail : (fs_create fs path type).1 = -1) :
    (fs_create fs path type).2.BlockStore_whole = fs.BlockStore_whole ∧
    (fs_create fs path type).2.BlockStore_whole.fbm = fs.BlockStore_whole.fbm ∧
    (fs_create fs path type).2.BlockStore_inode.fbm = fs.BlockStore_inode.fbm ∧
    (fs_create fs path type).2.BlockStore_fd = fs.BlockStore_fd ∧
    (∀ inum, _inode_read (fs_create fs path type).2 inum = _inode_read fs inum) ∧
    (∀ dir, fs_get_dir (fs_create fs path type).2 dir = fs_get_dir fs dir) := by
  cases hres : fs_create fs path type with
  | mk r s =>
    rw [hres] at hfail
    have hr : r ≠ 0 := by
      have : r = -1 := hfail
      rw [this]
      decide
    obtain ⟨tbl, hagree, hs⟩ := fs_create_fail fs path type r s hbytes hres hr
    show s.BlockStore_whole = _ ∧ s.BlockStore_whole.fbm = _ ∧ s.BlockStore_inode.fbm = _ ∧
      s.BlockStore_fd = _ ∧ (∀ inum, _inode_read s inum = _) ∧ (∀ dir, fs_get_dir s dir = _)
    rw [hs]
    exact ⟨rfl, rfl, rfl, rfl, _inode_read_congr fs tbl hagree, fs_get_dir_congr fs tbl hagree⟩

/-! ## Blocks hold bytes: preservation -/

theorem bytes_ok_set_fbm_set (bs : block_store_t) (id : Nat) (h : bs.bytes_ok) :
    (bs.set_fbm (bitmap_set bs.fbm id).2).bytes_ok := by
  intro b o
  rw [set_fbm_bitmap_set_blocks]
  split
  · exact byte_set_lt (id % 8) (Nat.mod_lt _ (by decide)) _ (h b o)
  · exact h b o

theorem bytes_ok_release (bs : block_store_t) (id : Nat) (h : bs.bytes_ok) :
    (block_store_release bs id).bytes_ok := by
  unfold block_store_release
  split
  · exact h
  · intro b o
    rw [set_fbm_bitmap_reset_blocks]
    split
    · exact byte_reset_lt _ _ (h b o)
    · exact h b o

theorem bytes_ok_allocate (bs : block_store_t) (h : bs.bytes_ok) :
    (block_store_allocate bs).2.bytes_ok := by
  cases block_store_allocate_cases bs with
  | inl ha => rw [ha]; exact h
  | inr ha =>
    obtain ⟨id, _, _, _, ha⟩ := ha
    rw [ha]
    exact bytes_ok_set_fbm_set bs id h

theorem bytes_ok_foldl_release (l : List Nat) :
    ∀ bs : block_store_t, bs.bytes_ok → (l.foldl block_store_release bs).bytes_ok := by
  induction l with
  | nil => intro bs h; exact h
  | cons a l ih =>
    intro bs h
    rw [List.foldl_cons]
    exact ih (block_store_release bs a) (bytes_ok_release bs a h)

theorem bytes_ok_block_store_create : block_store_create.bytes_ok := by
  have step : ∀ (l : List Nat) (bs : block_store_t), bs.bytes_ok →
      (l.foldl (fun bs k => bs.set_fbm (bitmap_set bs.fbm (BITMAP_START_BLOCK + k)).2) bs).bytes_ok := by
    intro l
    induction l with
    | nil => intro bs h; exact h
    | cons a l ih =>
      intro bs h
      rw [List.foldl_cons]
      exact ih (bs.set_fbm (bitmap_set bs.fbm (BITMAP_START_BLOCK + a)).2)
        (bytes_ok_set_fbm_set bs _ h)
  unfold block_store_create
  apply step
  intro b o
  exact Nat.zero_lt_succ _

theorem bytes_ok_set_BlockStore_inode (fs : FS_t) (s : sub_store_t inode_t) (h : fs.bytes_ok)
    (hs : ∀ o, s.fbm.data o < 256) : (fs.set_BlockStore_inode s).bytes_ok := by
  intro b o
  show (if b = 0 then s.fbm.data else fs.BlockStore_whole.blocks b) o < 256
  split
  · exact hs o
  · exact h b o

theorem bytes_ok_inode_fbm (fs : FS_t) (h : fs.bytes_ok) (o : Nat) :
    fs.BlockStore_inode.fbm.data o < 256 := h 0 o

theorem bytes_ok_bitmap_set (m : bitmap_t) (id : Nat) (h : ∀ o, m.data o < 256) (o : Nat) :
    (bitmap_set m id).2.data o < 256 := by
  rw [bitmap_set_data]
  split
  · exact byte_set_lt (id % 8) (Nat.mod_lt _ (by decide)) _ (h o)
  · exact h o

theorem bytes_ok_bitmap_reset (m : bitmap_t) (id : Nat) (h : ∀ o, m.data o < 256) (o : Nat) :
    (bitmap_reset m id).2.data o < 256 := by
  rw [bitmap_reset_data]
  split
  · exact byte_reset_lt _ _ (h o)
  · exact h o

theorem bytes_ok_inode_sub_allocate (fs : FS_t) (h : fs.bytes_ok) :
    (fs.set_BlockStore_inode (block_store_sub_allocate fs.BlockStore_inode).2).bytes_ok := by
  apply bytes_ok_set_BlockStore_inode fs _ h
  cases block_store_sub_allocate_cases fs.BlockStore_inode with
  | inl ha => rw [ha]; exact bytes_ok_inode_fbm fs h
  | inr ha =>
    obtain ⟨id, _, _, ha⟩ := ha
    rw [ha]
    exact bytes_ok_bitmap_set _ id (bytes_ok_inode_fbm fs h)

theorem bytes_ok_inode_sub_release (fs : FS_t) (id : Nat) (h : fs.bytes_ok) :
    (fs.set_BlockStore_inode (block_store_sub_release fs.BlockStore_inode id)).bytes_ok := by
  apply bytes_ok_set_BlockStore_inode fs _ h
  unfold block_store_sub_release
  exact bytes_ok_bitmap_reset _ id (bytes_ok_inode_fbm fs h)

theorem bytes_ok_BS_INODE_WRITE (fs fs1 : FS_t) (inum : Nat) (src : inode_t) (h : fs.bytes_ok)
    (hw : _BS_INODE_WRITE fs inum src = some fs1) : fs1.bytes_ok := by
  cases _BS_INODE_WRITE_cases fs inum src with
  | inl h1 => rw [h1.2] at hw; exact absurd hw (by simp)
  | inr h1 =>
    rw [h1.2] at hw
    simp only [Option.some.injEq] at hw
    rw [← hw]
    exact bytes_ok_set_BlockStore_inode fs _ h (bytes_ok_inode_fbm fs h)

theorem bytes_ok_BS_WRITE (fs fs1 : FS_t) (id : Nat) (buf : block_t) (h : fs.bytes_ok)
    (hbuf : ∀ o, buf o < 256) (hw : _BS_WRITE fs id buf = some fs1) : fs1.bytes_ok := by
  unfold _BS_WRITE block_store_write at hw
  split at hw
  · exact absurd hw (by simp)
  · simp only [Option.map_some', Option.some.injEq] at hw
    rw [← hw]
    intro b o
    show (if b = id then buf else fs.BlockStore_whole.blocks b) o < 256
    split
    · exact hbuf o
    · exact h b o

theorem bytes_ok_foldl_allocate (l : List Nat) :
    ∀ bs : block_store_t, bs.bytes_ok →
      (l.foldl (fun bs _ => (block_store_allocate bs).2) bs).bytes_ok := by
  induction l with
  | nil => intro bs h; exact h
  | cons a l ih =>
    intro bs h
    rw [List.foldl_cons]
    exact ih (block_store_allocate bs).2 (bytes_ok_allocate bs h)

theorem bytes_ok_fs_format_install (whole : block_store_t) (hw : whole.bytes_ok) :
    (fs_format_install whole).bytes_ok := by
  unfold fs_format_install
  dsimp only
  split
  · exact bytes_ok_inode_sub_allocate
      { BlockStore_whole := whole, inode_table := _, BlockStore_fd := _ } hw
  · rename_i fs1 hwr
    exact bytes_ok_BS_INODE_WRITE _ fs1 _ _
      (bytes_ok_inode_sub_allocate
        { BlockStore_whole := whole, inode_table := _, BlockStore_fd := _ } hw) hwr

theorem bytes_ok_fs_format_state : fs_format_state.bytes_ok :=
  bytes_ok_fs_format_install _
    (bytes_ok_foldl_allocate (List.range 17) block_store_create bytes_ok_block_store_create)

theorem fs_create_err3_ne_zero (fs : FS_t) (b : Bool) (n : Nat) (r : Int) (s : FS_t)
    (h : fs_create_err3 fs b n = (r, s)) : r = -1 := by
  obtain ⟨s', hs⟩ := fs_create_err3_eq fs b n
  rw [hs] at h
  exact (congrArg Prod.fst h).symm

theorem fs_create_err5_ne_zero (fs : FS_t) (i : Nat) (b : Bool) (n : Nat) (r : Int) (s : FS_t)
    (h : fs_create_err5 fs i b n = (r, s)) : r = -1 := by
  obtain ⟨s', hs⟩ := fs_create_err5_eq fs i b n
  rw [hs] at h
  exact (congrArg Prod.fst h).symm

/-- What a successful `fs_create_commit` did: it allocated the first free inode
number `id`, wrote the new inode there, took the first free slot `index` of
the directory-entry map, wrote the entry block with the new entry in that
slot, and wrote the parent inode with the slot marked and the size
incremented. -/
theorem fs_create_commit_success (fs1 : FS_t) (t p : Nat) (ino : inode_t) (blk : block_t)
    (map : bitmap_t) (b : Bool) (filename : List Nat) (r : Int) (s : FS_t)
    (h : fs_create_commit fs1 t p ino blk map b filename = (r, s)) (hr : r ≠ -1) :
    r = 0 ∧ ∃ id fs4,
      id = bitmap_ffz fs1.BlockStore_inode.fbm ∧ id < NUM_INODES ∧
      bitmap_test fs1.BlockStore_inode.fbm id = false ∧
      bitmap_ffz map < DIR_ENTRIES_PER_BLOCK ∧
      _BS_WRITE
        (fs1.set_BlockStore_inode
          { fbm := (bitmap_set fs1.BlockStore_inode.fbm id).2,
            records := fun i => if i = id then
              { dir_entry_map := 0, file_type := t, inum := id, file_size := 0, link_count := 1,
                data_direct := fun _ => 0, data_indirect := 0, data_double_indirect := 0 }
              else fs1.inode_table i })
        (ino.data_direct 0) (dentry_store blk (bitmap_ffz map) filename id) = some fs4 ∧
      _BS_INODE_WRITE fs4 p
        { ino with
          dir_entry_map := uint32_of_bytes (bitmap_set map (bitmap_ffz map)).2.data,
          file_size := (ino.file_size + 1) % 2 ^ 64 } = some s := by
  unfold fs_create_commit at h
  cases block_store_sub_allocate_cases fs1.BlockStore_inode with
  | inl ha =>
    rw [ha] at h
    dsimp only at h
    rw [if_pos rfl] at h
    exact absurd (fs_create_err3_ne_zero _ _ _ r s h) hr
  | inr ha =>
    obtain ⟨id, hid, hffz, ha⟩ := ha
    have hclear : bitmap_test fs1.BlockStore_inode.fbm id = false := by
      rw [hffz]
      rw [hffz] at hid
      exact (bitmap_ffz_clear _ hid).1
    have hc := bitmap_set_counts fs1.BlockStore_inode.fbm id
    rw [ha] at h
    dsimp only at h
    rw [if_neg hid] at h
    cases _BS_INODE_WRITE_set fs1 (bitmap_set fs1.BlockStore_inode.fbm id).2
        fs1.BlockStore_inode.records (by rw [hc.1]; rfl) (by rw [hc.2]; rfl) id
        { dir_entry_map := 0, file_type := t, inum := id, file_size := 0, link_count := 1,
          data_direct := fun _ => 0, data_indirect := 0, data_double_indirect := 0 } with
    | inl hw =>
      rw [hw.2] at h
      dsimp only at h
      exact absurd (fs_create_err5_ne_zero _ _ _ _ r s h) hr
    | inr hw =>
      rw [hw.2] at h
      dsimp only at h
      by_cases hc1 : bitmap_ffz map = SIZE_MAX ∨ bitmap_ffz map ≥ DIR_ENTRIES_PER_BLOCK
      · rw [if_pos hc1] at h
        exact absurd (fs_create_err5_ne_zero _ _ _ _ r s h) hr
      · rw [if_neg hc1] at h
        split at h
        · exact absurd (fs_create_err5_ne_zero _ _ _ _ r s h) hr
        · rename_i fs4 hw4
          split at h
          · exact absurd (fs_create_err5_ne_zero _ _ _ _ r s h) hr
          · rename_i fs5 hw5
            have e1 := congrArg Prod.fst h
            have e2 := congrArg Prod.snd h
            dsimp only at e1 e2
            refine ⟨e1.symm, id, fs4, hffz, hw.1, hclear, ?_, hw4, ?_⟩
            · exact Nat.lt_of_not_le (fun hge => hc1 (Or.inr hge))
            · rw [← e2]
              exact hw5

theorem bytes_ok_fs_create_err3 (fs : FS_t) (b : Bool) (n : Nat) (h : fs.bytes_ok)
    (r : Int) (s : FS_t) (hres : fs_create_err3 fs b n = (r, s)) : s.bytes_ok := by
  unfold fs_create_err3 at hres
  have h2 := congrArg Prod.snd hres
  dsimp only at h2
  rw [← h2]
  split
  · exact bytes_ok_release _ _ h
  · exact h

theorem getD_lt_of_all_lt (l : List Nat) (h : ∀ c ∈ l, c < 256) :
    ∀ k, l.getD k 0 < 256 := by
  induction l with
  | nil => intro k; simp
  | cons a l ih =>
    intro k
    cases k with
    | zero => simpa using h a (List.mem_cons_self _ _)
    | succ k =>
      simp only [List.getD_cons_succ]
      exact ih (fun c hc => h c (List.mem_cons_of_mem _ hc)) k

theorem strncpy_lt (src : List Nat) (n : Nat) (h : ∀ c ∈ src, c < 256) :
    ∀ c ∈ strncpy src n, c < 256 := by
  intro c hc
  unfold strncpy at hc
  rw [List.mem_append] at hc
  cases hc with
  | inl h1 => exact h c (List.mem_of_mem_take h1)
  | inr h1 =>
    have := List.eq_of_mem_replicate h1
    rw [this]
    decide

theorem dentry_store_lt (entries : block_t) (i : Nat) (filename : List Nat) (inum : Nat)
    (he : ∀ o, entries o < 256) (hf : ∀ c ∈ filename, c < 256) (o : Nat) :
    dentry_store entries i filename inum o < 256 := by
  unfold dentry_store
  split
  · exact getD_lt_of_all_lt _ (strncpy_lt filename 32 hf) _
  · split
    · exact Nat.mod_lt _ (by decide)
    · exact he o

theorem bytes_ok_fs_create_commit (fs1 : FS_t) (t p : Nat) (ino : inode_t) (blk : block_t)
    (map : bitmap_t) (b : Bool) (filename : List Nat) (r : Int) (s : FS_t)
    (h1 : fs1.bytes_ok) (hp : p < NUM_INODES) (hblk : ∀ o, blk o < 256)
    (hf : ∀ c ∈ filename, c < 256)
    (h : fs_create_commit fs1 t p ino blk map b filename = (r, s)) : s.bytes_ok := by
  by_cases hr : r = -1
  · obtain ⟨tbl, _, hres⟩ := fs_create_commit_fail fs1 t p ino blk map b filename r s (h1 0) hp h
      (by rw [hr]; decide)
    exact bytes_ok_fs_create_err3 { fs1 with inode_table := tbl } b _ h1 r s hres.symm
  · obtain ⟨_, id, fs4, _, _, _, _, hw4, hw5⟩ :=
      fs_create_commit_success fs1 t p ino blk map b filename r s h hr
    have h3 : (fs1.set_BlockStore_inode
          { fbm := (bitmap_set fs1.BlockStore_inode.fbm id).2,
            records := fun i => if i = id then
              { dir_entry_map := 0, file_type := t, inum := id, file_size := 0, link_count := 1,
                data_direct := fun _ => 0, data_indirect := 0, data_double_indirect := 0 }
              else fs1.inode_table i }).bytes_ok :=
      bytes_ok_set_BlockStore_inode fs1 _ h1
        (bytes_ok_bitmap_set _ id (bytes_ok_inode_fbm fs1 h1))
    have h4 := bytes_ok_BS_WRITE _ fs4 _ _ h3 (dentry_store_lt blk _ filename _ hblk hf) hw4
    exact bytes_ok_BS_INODE_WRITE _ s _ _ h4 hw5

theorem basename_bytes_lt (path : List Nat) (hp : ∀ c ∈ path, c < 256) :
    ∀ c ∈ basename path, c < 256 := by
  intro c hc
  unfold basename at hc
  split at hc
  · rw [List.mem_singleton] at hc; rw [hc]; decide
  · dsimp only at hc
    split at hc
    · rw [List.mem_singleton] at hc; rw [hc]; decide
    · rw [List.mem_reverse] at hc
      have h1 := (List.takeWhile_sublist _).subset hc
      rw [List.mem_reverse] at h1
      unfold strip_trailing_slashes at h1
      rw [List.mem_reverse] at h1
      have h2 := (List.dropWhile_sublist _).subset h1
      rw [List.mem_reverse] at h2
      exact hp c h2

theorem _basename_bytes_lt (path filename : List Nat) (hp : ∀ c ∈ path, c < 256)
    (hb : _basename path = some filename) : ∀ c ∈ filename, c < 256 := by
  unfold _basename at hb
  split at hb
  · exact absurd hb (by simp)
  · dsimp only at hb
    split at hb
    · exact absurd hb (by simp)
    · simp only [Option.some.injEq] at hb
      rw [← hb]
      exact basename_bytes_lt path hp

theorem bytes_ok_fs_create_verify (fs1 : FS_t) (path : List Nat) (t p : Nat) (ino : inode_t)
    (blk : block_t) (map : bitmap_t) (b : Bool) (r : Int) (s : FS_t)
    (h1 : fs1.bytes_ok) (hpn : p < NUM_INODES) (hblk : ∀ o, blk o < 256)
    (hp : ∀ c ∈ path, c < 256)
    (h : fs_create_verify fs1 path t p ino blk map b = (r, s)) : s.bytes_ok := by
  unfold fs_create_verify at h
  dsimp only at h
  split at h
  · exact bytes_ok_fs_create_err3 _ _ _ h1 r s h
  · split at h
    · exact bytes_ok_fs_create_err3 _ _ _ h1 r s h
    · rename_i filename hb
      have hf := _basename_bytes_lt path filename hp hb
      split at h
      · exact bytes_ok_fs_create_err3 _ _ _ h1 r s h
      · split at h
        · exact bytes_ok_fs_create_err3 _ _ _ h1 r s h
        · exact bytes_ok_fs_create_commit fs1 t p ino blk map b filename r s h1 hpn hblk hf h

theorem _inode_dir_load_some (fs : FS_t) (inode : inode_t) (blk : block_t) (map : bitmap_t)
    (h : _inode_dir_load fs inode = some (blk, map)) :
    inode.file_type = CHAR_d ∧ inode.data_direct 0 < BLOCK_STORE_NUM_BLOCKS ∧
      blk = fs.BlockStore_whole.blocks (inode.data_direct 0) ∧
      map = bitmap_overlay 16 (uint32_bytes inode.dir_entry_map) := by
  unfold _inode_dir_load at h
  dsimp only at h
  by_cases ht : inode.file_type ≠ CHAR_d
  · rw [if_pos ht] at h
    exact absurd h (by simp)
  · rw [if_neg ht] at h
    unfold block_store_read at h
    by_cases hb : inode.data_direct 0 ≥ BLOCK_STORE_NUM_BLOCKS
    · rw [if_pos hb] at h
      exact absurd h (by simp)
    · rw [if_neg hb] at h
      dsimp only at h
      simp only [Option.some.injEq, Prod.mk.injEq] at h
      exact ⟨by simpa using ht, Nat.lt_of_not_le hb, h.1.symm, h.2.symm⟩

theorem bytes_ok_fs_create_dentry_block (fs : FS_t) (path : List Nat) (t p : Nat)
    (ino : inode_t) (blk : block_t) (map : bitmap_t) (r : Int) (s : FS_t)
    (h0 : fs.bytes_ok) (hpn : p < NUM_INODES) (hblk : ∀ o, blk o < 256)
    (hp : ∀ c ∈ path, c < 256)
    (h : fs_create_dentry_block fs path t p ino blk map = (r, s)) : s.bytes_ok := by
  unfold fs_create_dentry_block at h
  by_cases hz : ino.file_size = 0
  · rw [if_pos hz] at h
    cases block_store_allocate_cases fs.BlockStore_whole with
    | inl ha =>
      rw [ha] at h
      dsimp only at h
      rw [if_pos rfl] at h
      have := congrArg Prod.snd h
      dsimp only at this
      rw [← this]
      exact h0
    | inr ha =>
      obtain ⟨id, hid, _, _, ha⟩ := ha
      rw [ha] at h
      dsimp only at h
      have hne : id ≠ SIZE_MAX := by
        intro hc
        rw [hc] at hid
        exact absurd hid (by decide)
      rw [if_neg hne] at h
      exact bytes_ok_fs_create_verify
        { fs with BlockStore_whole :=
            (fs.BlockStore_whole.set_fbm (bitmap_set fs.BlockStore_whole.fbm id).2) }
        path t p _ blk map true r s (bytes_ok_set_fbm_set _ id h0) hpn hblk hp h
  · rw [if_neg hz] at h
    exact bytes_ok_fs_create_verify fs path t p ino blk map false r s h0 hpn hblk hp h

/-- `fs_create` keeps the blocks byte-valued when the path is made of bytes. -/
theorem bytes_ok_fs_create (fs : FS_t) (path : List Nat) (type : Nat) (r : Int) (s : FS_t)
    (h0 : fs.bytes_ok) (hp : ∀ c ∈ path, c < 256) (h : fs_create fs path type = (r, s)) :
    s.bytes_ok := by
  have triv : ∀ (q : Int × FS_t), q = (r, s) → q = (-1, fs) → s.bytes_ok := by
    intro q h1 h2
    rw [h2] at h1
    have := congrArg Prod.snd h1
    dsimp only at this
    rw [← this]
    exact h0
  unfold fs_create at h
  split at h
  · exact triv _ h rfl
  split at h
  · exact triv _ h rfl
  split at h
  · exact triv _ h rfl
  split at h
  · exact triv _ h rfl
  dsimp only at h
  split at h
  · exact triv _ h rfl
  split at h
  · exact triv _ h rfl
  rename_i parent_inode hread
  split at h
  · exact triv _ h rfl
  rename_i blk map hload
  have hblk : ∀ o, blk o < 256 := by
    intro o
    rw [(_inode_dir_load_some fs parent_inode blk map hload).2.2.1]
    exact h0 _ o
  exact bytes_ok_fs_create_dentry_block fs path _ _ parent_inode blk map r s h0
    (_inode_read_some fs _ _ hread).1 hblk hp h

theorem bytes_ok_fs_with_file_a : fs_with_file_a.bytes_ok := by
  cases h : fs_create fs_format_state (bytes "/a") FS_REGULAR with
  | mk r s =>
    have := bytes_ok_fs_create fs_format_state (bytes "/a") FS_REGULAR r s
      bytes_ok_fs_format_state (by decide) h
    unfold fs_with_file_a
    rw [h]
    exact this

theorem fs_create_all_or_nothing_witness :
    fs_with_file_a.bytes_ok ∧ (fs_create fs_with_file_a (bytes "/a") FS_REGULAR).1 = -1 ∧
    (fs_create fs_with_file_a (bytes "/a") FS_REGULAR).2.BlockStore_whole
      = fs_with_file_a.BlockStore_whole :=
  ⟨bytes_ok_fs_with_file_a, by decide!,
    (fs_create_all_or_nothing fs_with_file_a (bytes "/a") FS_REGULAR bytes_ok_fs_with_file_a
      (by decide!)).1⟩

/-! ## An existing name makes `fs_create` fail -/

theorem _inode_find_child_loop_of_match (entries : block_t) (child : List Nat) (i : Nat)
    (hm : strncmp_eq (dentry_filename entries i) child FS_FNAME_MAX = true) :
    ∀ fuel start, start ≤ i → i < start + fuel →
      0 ≤ _inode_find_child_loop entries child fuel start := by
  intro fuel
  induction fuel with
  | zero => intro start h1 h2; omega
  | succ fuel ih =>
    intro start h1 h2
    unfold _inode_find_child_loop
    split
    · exact Int.ofNat_nonneg _
    · rename_i hne
      have : start ≠ i := by
        intro hc
        rw [hc] at hne
        exact hne hm
      exact ih (start + 1) (by omega) (by omega)

theorem fs_get_dir_some (fs : FS_t) (path : List Nat) (entries : List directoryFile_t)
    (h : fs_get_dir fs path = some entries) :
    ∃ inode blk map, ¬ _get_inum fs path < 0 ∧
      _inode_read fs (_get_inum fs path).toNat = some inode ∧
      _inode_dir_load fs inode = some (blk, map) ∧
      entries = ((List.range DIR_ENTRIES_PER_BLOCK).filter (fun i => bitmap_test map i)).map
        (fun i => { filename := dentry_filename blk i, inum := dentry_inum blk i }) := by
  unfold fs_get_dir at h
  dsimp only at h
  split at h
  · exact absurd h (by simp)
  split at h
  · exact absurd h (by simp)
  rename_i hge
  split at h
  · exact absurd h (by simp)
  rename_i inode hread
  split at h
  · exact absurd h (by simp)
  rename_i blk map hload
  simp only [Option.some.injEq] at h
  exact ⟨inode, blk, map, hge, hread, hload, h.symm⟩

theorem fs_create_verify_of_child (fs1 : FS_t) (path name : List Nat) (t p : Nat)
    (ino : inode_t) (blk : block_t) (map : bitmap_t) (b : Bool)
    (hb : _basename path = some name) (hc : 0 ≤ _inode_find_child blk map name) :
    ∃ s, fs_create_verify fs1 path t p ino blk map b = (-1, s) := by
  unfold fs_create_verify
  dsimp only
  split
  · exact fs_create_err3_eq _ _ _
  · rw [hb]
    dsimp only
    split
    · exact fs_create_err3_eq _ _ _
    · exact fs_create_err3_eq _ _ _

theorem fs_create_dentry_block_of_child (fs : FS_t) (path name : List Nat) (t p : Nat)
    (ino : inode_t) (blk : block_t) (map : bitmap_t)
    (hb : _basename path = some name) (hc : 0 ≤ _inode_find_child blk map name) :
    ∃ s, fs_create_dentry_block fs path t p ino blk map = (-1, s) := by
  unfold fs_create_dentry_block
  split
  · dsimp only
    split
    · exact ⟨_, rfl⟩
    · exact fs_create_verify_of_child _ path name t p _ blk map true hb hc
  · exact fs_create_verify_of_child _ path name t p _ blk map false hb hc

theorem fs_create_of_child (fs : FS_t) (path parent_path name : List Nat) (type : Nat)
    (entries : List directoryFile_t) (e : directoryFile_t)
    (hd : _dirname path = some parent_path) (hb : _basename path = some name)
    (hl : fs_get_dir fs parent_path = some entries) (he : e ∈ entries)
    (hn : strncmp_eq e.filename name FS_FNAME_MAX = true) :
    ∃ s, fs_create fs path type = (-1, s) := by
  obtain ⟨inode, blk, map, hge, hread, hload, hent⟩ := fs_get_dir_some fs parent_path entries hl
  have hfind : 0 ≤ _inode_find_child blk map name := by
    rw [hent, List.mem_map] at he
    obtain ⟨i, hi, hei⟩ := he
    rw [List.mem_filter, List.mem_range] at hi
    unfold _inode_find_child
    apply _inode_find_child_loop_of_match blk name i _ _ 0 (Nat.zero_le _) (by omega)
    rw [← hei] at hn
    exact hn
  unfold fs_create
  split
  · exact ⟨_, rfl⟩
  split
  · exact ⟨_, rfl⟩
  split
  · exact ⟨_, rfl⟩
  rw [hd]
  dsimp only
  rw [if_neg hge, hread]
  dsimp only
  rw [hload]
  exact fs_create_dentry_block_of_child fs path name _ _ inode blk map hb hfind

/-- C6: `fs_create` fails (returns -1) whenever the parent directory already
lists a child with the same name (an entry that `fs_get_dir` of the parent
returns has the name of the new file under `strncmp(.., FS_FNAME_MAX)`), and
the failed call leaves the number of used blocks of the free-block map
unchanged. -/
theorem fs_create_existing_name_fails (fs : FS_t) (path parent_path name : List Nat)
    (type : Nat) (entries : List directoryFile_t) (e : directoryFile_t)
    (hbytes : fs.bytes_ok)
    (hd : _dirname path = some parent_path) (hb : _basename path = some name)
    (hl : fs_get_dir fs parent_path = some entries) (he : e ∈ entries)
    (hn : strncmp_eq e.filename name FS_FNAME_MAX = true) :
    (fs_create fs path type).1 = -1 ∧
    block_store_get_used_blocks (fs_create fs path type).2.BlockStore_whole
      = block_store_get_used_blocks fs.BlockStore_whole := by
  obtain ⟨s, hs⟩ := fs_create_of_child fs path parent_path name type entries e hd hb hl he hn
  have h1 : (fs_create fs path type).1 = -1 := by rw [hs]
  refine ⟨h1, ?_⟩
  rw [(fs_create_all_or_nothing fs path type hbytes h1).1]

theorem fs_create_existing_name_fails_witness :
    fs_with_file_a.bytes_ok ∧
    _dirname (bytes "/a") = some (bytes "/") ∧ _basename (bytes "/a") = some (bytes "a") ∧
    fs_get_dir fs_with_file_a (bytes "/") = some [{ filename := strncpy (bytes "a") 32, inum := 1 }] ∧
    (fs_create fs_with_file_a (bytes "/a") FS_REGULAR).1 = -1 ∧
    block_store_get_used_blocks (fs_create fs_with_file_a (bytes "/a") FS_REGULAR).2.BlockStore_whole
      = block_store_get_used_blocks fs_with_file_a.BlockStore_whole :=
  ⟨bytes_ok_fs_with_file_a, by decide!, by decide!, by decide!,
    fs_create_existing_name_fails fs_with_file_a (bytes "/a") (bytes "/") (bytes "a") FS_REGULAR
      [{ filename := strncpy (bytes "a") 32, inum := 1 }]
      { filename := strncpy (bytes "a") 32, inum := 1 }
      bytes_ok_fs_with_file_a (by decide!) (by decide!) (by decide!)
      (List.mem_singleton.2 rfl) (by decide!)⟩

/-! ## Bits of a bitmap, one at a time -/

theorem and_shiftLeft_ne_zero_iff (x j : Nat) : x &&& (1 <<< j) ≠ 0 ↔ x.testBit j = true := by
  rw [Nat.one_shiftLeft]
  constructor
  · intro h
    by_contra hc
    apply h
    apply Nat.eq_of_testBit_eq
    intro i
    rw [Nat.testBit_and, Nat.testBit_two_pow, Nat.zero_testBit]
    by_cases hji : j = i
    · subst hji
      simp only [Bool.not_eq_true] at hc
      rw [hc, Bool.false_and]
    · simp only [hji, decide_False, Bool.and_false]
  · intro h hc
    have h2 : (x &&& 2 ^ j).testBit j = true := by
      rw [Nat.testBit_and, Nat.testBit_two_pow, h]
      simp only [decide_True, Bool.and_self]
    rw [hc, Nat.zero_testBit] at h2
    exact Bool.noConfusion h2

/-- The function `bitmap_test` reads bit `bit % 8` of byte `bit / 8`. -/
theorem bitmap_test_eq_testBit (m : bitmap_t) (bit : Nat) :
    bitmap_test m bit = (m.data (bit / 8)).testBit (bit % 8) := by
  unfold bitmap_test
  cases h : (m.data (bit / 8)).testBit (bit % 8)
  · simp only [decide_eq_false_iff_not]
    intro hc
    rw [(and_shiftLeft_ne_zero_iff _ _).1 hc] at h
    exact Bool.noConfusion h
  · simp only [decide_eq_true_eq]
    exact (and_shiftLeft_ne_zero_iff _ _).2 h

/-- After `bitmap_set` of a bit in range, that bit is set and no other changes. -/
theorem bitmap_test_set (m : bitmap_t) (bit i : Nat) (h : bit < m.bit_count) :
    bitmap_test (bitmap_set m bit).2 i = (bitmap_test m i || decide (i = bit)) := by
  rw [bitmap_test_eq_testBit, bitmap_test_eq_testBit, bitmap_set_data]
  by_cases hb : i / 8 = bit / 8
  · rw [if_pos ⟨h, hb⟩, Nat.testBit_or, Nat.one_shiftLeft, Nat.testBit_two_pow]
    congr 1
    by_cases hm : bit % 8 = i % 8
    · have : i = bit := by omega
      simp only [hm, this, decide_True]
    · have : i ≠ bit := fun hc => hm (by rw [hc])
      simp only [hm, this, decide_False]
  · rw [if_neg (fun hc => hb hc.2)]
    have : i ≠ bit := fun hc => hb (by rw [hc])
    simp only [this, decide_False, Bool.or_false]

/-- After `bitmap_reset` of a bit in range, that bit is clear and no other changes. -/
theorem bitmap_test_reset (m : bitmap_t) (bit i : Nat) (h : bit < m.bit_count) :
    bitmap_test (bitmap_reset m bit).2 i = (bitmap_test m i && !decide (i = bit)) := by
  rw [bitmap_test_eq_testBit, bitmap_test_eq_testBit, bitmap_reset_data]
  by_cases hb : i / 8 = bit / 8
  · rw [if_pos ⟨h, hb⟩, Nat.testBit_and, Nat.testBit_xor, Nat.one_shiftLeft, Nat.testBit_two_pow]
    have h255 : Nat.testBit 255 (i % 8) = true := by
      have := Nat.testBit_two_pow_sub_one 8 (i % 8)
      have h8 : i % 8 < 8 := Nat.mod_lt _ (by decide)
      simp only [h8, decide_True] at this
      exact this
    rw [h255]
    congr 1
    by_cases hm : bit % 8 = i % 8
    · have : i = bit := by omega
      simp only [hm, this, decide_True, Bool.xor_self, Bool.not_true]
    · have : i ≠ bit := fun hc => hm (by rw [hc])
      simp only [hm, this, decide_False, Bool.xor_false, Bool.not_false]
  · rw [if_neg (fun hc => hb hc.2)]
    have : i ≠ bit := fun hc => hb (by rw [hc])
    simp only [this, decide_False, Bool.not_false, Bool.and_true]

/-! ## The free-block map, block by block -/

theorem fbm_test_set_fbm (bs : block_store_t) (m : bitmap_t) (i : Nat) (hi : i < 65536) :
    bitmap_test (bs.set_fbm m).fbm i = bitmap_test m i := by
  rw [bitmap_test_eq_testBit, bitmap_test_eq_testBit, fbm_data, set_fbm_blocks]
  rw [if_pos ⟨by omega, by omega, Nat.mod_lt _ (by decide)⟩]
  have e : (65528 + i / 8 / 1024 - 65528) * 1024 + i / 8 % 1024 = i / 8 := by omega
  rw [e]

theorem fbm_test_after_set (bs : block_store_t) (id i : Nat) (hid : id < 65536)
    (hi : i < 65536) :
    bitmap_test (bs.set_fbm (bitmap_set bs.fbm id).2).fbm i =
      (bitmap_test bs.fbm i || decide (i = id)) := by
  rw [fbm_test_set_fbm _ _ _ hi, bitmap_test_set _ _ _ (by rw [fbm_bit_count]; exact hid)]

theorem fbm_test_after_reset (bs : block_store_t) (id i : Nat) (hid : id < 65536)
    (hi : i < 65536) :
    bitmap_test (bs.set_fbm (bitmap_reset bs.fbm id).2).fbm i =
      (bitmap_test bs.fbm i && !decide (i = id)) := by
  rw [fbm_test_set_fbm _ _ _ hi, bitmap_test_reset _ _ _ (by rw [fbm_bit_count]; exact hid)]

/-- What a successful `block_store_allocate` does to the free-block map: the
block it returns was free, and is the one block newly marked in use. -/
theorem block_store_allocate_some (bs bs1 : block_store_t) (id : Nat)
    (h : block_store_allocate bs = (id, bs1)) (hid : id ≠ SIZE_MAX) :
    id < 65536 ∧ bitmap_test bs.fbm id = false ∧
      bs1 = bs.set_fbm (bitmap_set bs.fbm id).2 ∧
      ∀ i, i < 65536 → bitmap_test bs1.fbm i = (bitmap_test bs.fbm i || decide (i = id)) := by
  cases block_store_allocate_cases bs with
  | inl h1 =>
    rw [h1] at h
    exact absurd (congrArg Prod.fst h).symm hid
  | inr h1 =>
    obtain ⟨id1, a, b, _, d⟩ := h1
    rw [d] at h
    have e1 : id1 = id := congrArg Prod.fst h
    have e2 : bs.set_fbm (bitmap_set bs.fbm id1).2 = bs1 := congrArg Prod.snd h
    subst e1
    subst e2
    exact ⟨a, b, rfl, fun i hi => fbm_test_after_set bs id1 i a hi⟩

/-- A failed `block_store_allocate` leaves the store as it was. -/
theorem block_store_allocate_none (bs bs1 : block_store_t)
    (h : block_store_allocate bs = (SIZE_MAX, bs1)) : bs1 = bs := by
  cases block_store_allocate_cases bs with
  | inl h1 =>
    rw [h1] at h
    exact (congrArg Prod.snd h).symm
  | inr h1 =>
    obtain ⟨id1, a, _, _, d⟩ := h1
    rw [d] at h
    have e1 : id1 = SIZE_MAX := congrArg Prod.fst h
    rw [e1] at a
    exact absurd a (by decide)

/-- In a block store just created, the blocks in use are those of the map. -/
theorem block_store_create_used (i : Nat) (hi : i < 65536) :
    bitmap_test block_store_create.fbm i = decide (65528 ≤ i) := by
  unfold block_store_create
  simp only [List.range, List.range.loop, List.foldl]
  rw [fbm_test_after_set _ _ _ (by decide) hi, fbm_test_after_set _ _ _ (by decide) hi,
    fbm_test_after_set _ _ _ (by decide) hi, fbm_test_after_set _ _ _ (by decide) hi,
    fbm_test_after_set _ _ _ (by decide) hi, fbm_test_after_set _ _ _ (by decide) hi,
    fbm_test_after_set _ _ _ (by decide) hi, fbm_test_after_set _ _ _ (by decide) hi]
  have h0 : bitmap_test (block_store_t.fbm { blocks := fun _ _ => 0 }) i = false := by
    rw [bitmap_test_eq_testBit, fbm_data]
    exact Nat.zero_testBit _
  rw [h0]
  by_cases h : 65528 ≤ i
  · have : i = 65528 ∨ i = 65529 ∨ i = 65530 ∨ i = 65531 ∨ i = 65532 ∨ i = 65533 ∨
        i = 65534 ∨ i = 65535 := by omega
    rcases this with h | h | h | h | h | h | h | h <;> subst h <;> decide
  · have e : ∀ k, k < 8 → i ≠ 65528 + k := by omega
    simp only [h, decide_False, Bool.false_or, Bool.or_eq_false_iff, decide_eq_false_iff_not]
    exact ⟨⟨⟨⟨⟨⟨⟨e 0 (by decide), e 1 (by decide)⟩, e 2 (by decide)⟩, e 3 (by decide)⟩,
      e 4 (by decide)⟩, e 5 (by decide)⟩, e 6 (by decide)⟩, e 7 (by decide)⟩

/-! ## The state after `fs_format` -/

theorem fs_format_blocks_succ (k : Nat) :
    fs_format_blocks (k + 1) = (block_store_allocate (fs_format_blocks k)).2 := by
  unfold fs_format_blocks
  rw [List.range_succ, List.foldl_append, List.foldl_cons, List.foldl_nil]

/-- The calls of `block_store_allocate` in `fs_format` return 0, 1, ..., 16. -/
theorem fs_format_blocks_ids :
    ∀ k, k < 17 → (block_store_allocate (fs_format_blocks k)).1 = k := by
  decide!

/-- After `k` allocations on a fresh store the blocks in use are the first `k`
and those of the free-block map. -/
theorem fs_format_blocks_used (k : Nat) (hk : k ≤ 17) (i : Nat) (hi : i < 65536) :
    bitmap_test (fs_format_blocks k).fbm i = decide (i < k ∨ 65528 ≤ i) := by
  induction k with
  | zero =>
    have e : fs_format_blocks 0 = block_store_create := by
      unfold fs_format_blocks
      rw [List.range_zero, List.foldl_nil]
    rw [e, block_store_create_used i hi]
    simp only [Nat.not_lt_zero, false_or]
  | succ k ih =>
    have h1 := fs_format_blocks_ids k (by omega)
    have hp : ∀ a : Nat × block_store_t, a.1 = k → a = (k, a.2) := by
      intro a ha
      cases a
      simp only at ha
      rw [ha]
    have h2 := hp _ h1
    obtain ⟨_, _, _, h3⟩ := block_store_allocate_some _ _ _ h2 (by unfold SIZE_MAX; omega)
    rw [fs_format_blocks_succ, h3 i hi, ih (by omega)]
    by_cases h4 : i = k
    · subst h4
      simp only [decide_True, Bool.or_true, Nat.lt_succ_self, true_or]
    · by_cases h5 : i < k ∨ 65528 ≤ i
      · have : i < k + 1 ∨ 65528 ≤ i := by omega
        simp only [h5, this, decide_True, Bool.true_or]
      · have : ¬ (i < k + 1 ∨ 65528 ≤ i) := by omega
        simp only [h4, h5, this, decide_False, Bool.or_false]

theorem fbm_test_congr (a b : block_store_t)
    (h : ∀ k, 65528 ≤ k → a.blocks k = b.blocks k) (i : Nat) :
    bitmap_test a.fbm i = bitmap_test b.fbm i := by
  rw [bitmap_test_eq_testBit, bitmap_test_eq_testBit, fbm_data, fbm_data, h _ (by omega)]

theorem set_BlockStore_inode_blocks (fs : FS_t) (s : sub_store_t inode_t) (b : Nat)
    (hb : b ≠ 0) :
    (fs.set_BlockStore_inode s).BlockStore_whole.blocks b = fs.BlockStore_whole.blocks b := by
  show (if b = 0 then s.fbm.data else fs.BlockStore_whole.blocks b) = _
  rw [if_neg hb]

/-- A successful write of an inode changes the record of that inode and
nothing else. -/
theorem _BS_INODE_WRITE_some (fs fs1 : FS_t) (inum : Nat) (src : inode_t)
    (h : _BS_INODE_WRITE fs inum src = some fs1) :
    inum < NUM_INODES ∧
      fs1 = { fs with inode_table := fun i => if i = inum then src else fs.inode_table i } := by
  cases _BS_INODE_WRITE_cases fs inum src with
  | inl h1 =>
    rw [h1.2] at h
    exact Option.noConfusion h
  | inr h1 =>
    rw [h1.2, set_BlockStore_inode_same_fbm] at h
    exact ⟨h1.1, (Option.some.inj h).symm⟩

theorem _BS_INODE_WRITE_whole (fs fs1 : FS_t) (inum : Nat) (src : inode_t)
    (h : _BS_INODE_WRITE fs inum src = some fs1) :
    fs1.BlockStore_whole = fs.BlockStore_whole ∧ fs1.BlockStore_fd = fs.BlockStore_fd := by
  obtain ⟨_, e⟩ := _BS_INODE_WRITE_some fs fs1 inum src h
  rw [e]
  exact ⟨rfl, rfl⟩

/-- The inode writes and the attachment of the inode bitmap in `fs_format`
leave the free-block map as the allocations made it. -/
theorem fs_format_install_fbm_test (whole : block_store_t) (i : Nat) :
    bitmap_test (fs_format_install whole).BlockStore_whole.fbm i = bitmap_test whole.fbm i := by
  unfold fs_format_install
  dsimp only
  split
  · apply fbm_test_congr
    intro k hk
    exact set_BlockStore_inode_blocks _ _ k (by omega)
  · rename_i fs1 hwr
    rw [(_BS_INODE_WRITE_whole _ _ _ _ hwr).1]
    apply fbm_test_congr
    intro k hk
    exact set_BlockStore_inode_blocks _ _ k (by omega)

theorem fs_format_state_eq : fs_format_state = fs_format_install (fs_format_blocks 17) := by
  unfold fs_format_state fs_format_blocks
  rfl

theorem fs_format_state_used (i : Nat) (hi : i < 65536) :
    bitmap_test fs_format_state.BlockStore_whole.fbm i = decide (i < 17 ∨ 65528 ≤ i) := by
  rw [fs_format_state_eq, fs_format_install_fbm_test, fs_format_blocks_used 17 (Nat.le_refl _) i hi]

set_option maxRecDepth 1000000 in
theorem range_filter_format_count :
    ((List.range 65536).filter (fun i => decide (i < 17 ∨ 65528 ≤ i))).length = 25 := by
  decide!

theorem fs_format_state_used_count :
    block_store_get_used_blocks fs_format_state.BlockStore_whole = 25 := by
  unfold block_store_get_used_blocks bitmap_total_set
  rw [fbm_bit_count]
  have e : (List.range 65536).filter (fun i => bitmap_test fs_format_state.BlockStore_whole.fbm i)
      = (List.range 65536).filter (fun i => decide (i < 17 ∨ 65528 ≤ i)) := by
    apply List.filter_congr
    intro x hx
    exact fs_format_state_used x (List.mem_range.1 hx)
  rw [e]
  exact range_filter_format_count

theorem fs_format_state_next_block :
    (block_store_allocate fs_format_state.BlockStore_whole).1 = 17 := by
  decide!

theorem fs_format_state_inodes :
    ∀ i, i < 256 → block_store_sub_test fs_format_state.BlockStore_inode i = decide (i = 0) := by
  decide!

theorem fs_format_state_root :
    (_inode_read fs_format_state 0).map (fun n => (n.file_type, n.file_size, n.dir_entry_map))
      = some (CHAR_d, 0, 0) := by
  decide!

theorem fs_format_state_fds (i : Nat) :
    block_store_sub_test fs_format_state.BlockStore_fd i = false := by
  unfold block_store_sub_test
  split
  · rfl
  · rw [bitmap_test_eq_testBit]
    exact Nat.zero_testBit _

theorem fs_format_state_get_dir : fs_get_dir fs_format_state [SLASH] = some [] := by
  decide!

/-- C20: after `fs_format`, exactly the blocks 0..16 (the inode bitmap and the
inode table) and the 8 blocks of the free-block map are marked in use, 25 in
all, so that the next block allocated is block 17; inode 0 is the only
allocated inode and is a directory of size 0 with an empty entry map; no file
descriptor is allocated; and `fs_get_dir` of `"/"` is the empty list. -/
theorem fs_format_initial_state (path : List Nat) (fs : FS_t) (h : fs_format path = some fs) :
    (∀ i, i < BLOCK_STORE_NUM_BLOCKS →
      (block_used fs.BlockStore_whole i ↔ i ≤ 16 ∨ BITMAP_START_BLOCK ≤ i)) ∧
    block_store_get_used_blocks fs.BlockStore_whole = 25 ∧
    (block_store_allocate fs.BlockStore_whole).1 = 17 ∧
    (∀ i, block_store_sub_test fs.BlockStore_inode i = true ↔ i = 0) ∧
    (∃ root, _inode_read fs 0 = some root ∧ root.file_type = CHAR_d ∧ root.file_size = 0 ∧
      root.dir_entry_map = 0) ∧
    (∀ i, block_store_sub_test fs.BlockStore_fd i = false) ∧
    fs_get_dir fs [SLASH] = some [] := by
  unfold fs_format at h
  split at h
  · have e : fs_format_state = fs := Option.some.inj h
    subst e
    refine ⟨?_, fs_format_state_used_count, fs_format_state_next_block, ?_, ?_,
      fs_format_state_fds, fs_format_state_get_dir⟩
    · intro i hi
      have hi1 : i < 65536 := hi
      unfold block_used
      rw [fs_format_state_used i hi1, decide_eq_true_iff]
      show i < 17 ∨ 65528 ≤ i ↔ i ≤ 16 ∨ 65528 ≤ i
      constructor <;> intro h1 <;> omega
    · intro i
      by_cases hi : i < 256
      · rw [fs_format_state_inodes i hi, decide_eq_true_iff]
      · constructor
        · intro h1
          unfold block_store_sub_test at h1
          have hc : i ≥ fs_format_state.BlockStore_inode.fbm.bit_count := Nat.not_lt.1 hi
          rw [if_pos hc] at h1
          exact Bool.noConfusion h1
        · intro h1
          omega
    · have hr := fs_format_state_root
      cases hroot : _inode_read fs_format_state 0 with
      | none =>
        rw [hroot] at hr
        exact Option.noConfusion hr
      | some root =>
        rw [hroot] at hr
        simp only [Option.map_some', Option.some.injEq, Prod.mk.injEq] at hr
        exact ⟨root, rfl, hr.1, hr.2.1, hr.2.2⟩
  · exact Option.noConfusion h

theorem fs_format_initial_state_witness :
    fs_format (bytes "disk.img") = some fs_format_state ∧
      (block_store_allocate fs_format_state.BlockStore_whole).1 = 17 :=
  ⟨by unfold fs_format; rfl,
    (fs_format_initial_state (bytes "disk.img") fs_format_state
      (by unfold fs_format; rfl)).2.2.1⟩

/-! ## `fs_close` -/

theorem block_store_sub_test_true {α : Type} (s : sub_store_t α) (id : Nat)
    (h : block_store_sub_test s id = true) : id < s.fbm.bit_count ∧ bitmap_test s.fbm id = true := by
  unfold block_store_sub_test at h
  split at h
  · exact Bool.noConfusion h
  · exact ⟨by omega, h⟩

/-- The occupancy of a sub-store after the release of a record in use. -/
theorem block_store_sub_test_release {α : Type} (s : sub_store_t α) (id j : Nat)
    (h : id < s.fbm.bit_count) :
    block_store_sub_test (block_store_sub_release s id) j =
      (block_store_sub_test s j && !decide (j = id)) := by
  unfold block_store_sub_test block_store_sub_release
  dsimp only
  rw [(bitmap_reset_counts s.fbm id).1]
  split
  · rfl
  · exact bitmap_test_reset s.fbm id j h

/-- The two outcomes of `fs_close`. -/
theorem fs_close_cases (fs : FS_t) (fd : Int) :
    (¬ (0 ≤ fd ∧ fd ≤ 255 ∧ block_store_sub_test fs.BlockStore_fd fd.toNat = true) ∧
      fs_close fs fd = (-1, fs)) ∨
    ((0 ≤ fd ∧ fd ≤ 255 ∧ block_store_sub_test fs.BlockStore_fd fd.toNat = true) ∧
      fs_close fs fd =
        (0, { fs with BlockStore_fd := block_store_sub_release fs.BlockStore_fd fd.toNat })) := by
  unfold fs_close
  by_cases h1 : fd < 0 ∨ fd > 255
  · left
    rw [if_pos h1]
    exact ⟨fun hc => by omega, rfl⟩
  · rw [if_neg h1]
    by_cases h2 : block_store_sub_test fs.BlockStore_fd fd.toNat = true
    · right
      rw [if_neg (by simpa using h2)]
      exact ⟨⟨by omega, by omega, h2⟩, rfl⟩
    · left
      rw [if_pos (by simpa using h2)]
      exact ⟨fun hc => h2 hc.2.2, rfl⟩

theorem _fd_read_of_not_test (fs : FS_t) (fd : Int)
    (h : block_store_sub_test fs.BlockStore_fd fd.toNat = false) : _fd_read fs fd = none := by
  unfold _fd_read
  split
  · rfl
  · rw [if_pos (by simpa using h)]

theorem fs_seek_of_fd_read_none (fs : FS_t) (fd : Int) (offset : Int) (whence : Nat)
    (h : _fd_read fs fd = none) : fs_seek fs fd offset whence = (-1, fs) := by
  unfold fs_seek
  split
  · rfl
  · rw [h]

theorem fs_read_of_fd_read_none (fs : FS_t) (fd : Int) (dest : block_t) (nbyte : Nat)
    (h : _fd_read fs fd = none) : fs_read fs fd dest nbyte = some (-1, dest, fs) := by
  unfold fs_read
  split
  · rfl
  · rw [h]

theorem fs_write_of_fd_read_none (fs : FS_t) (fd : Int) (src : block_t) (nbyte : Nat)
    (h : _fd_read fs fd = none) : fs_write fs fd src nbyte = some (-1, fs) := by
  unfold fs_write
  split
  · rfl
  · rw [h]

/-- C12: `fs_close` returns 0 exactly when `fd` is in [0, 255] and allocated,
and then frees that slot and changes nothing else; otherwise it returns -1 and
leaves the state as it was.  After a successful close a second close of the
same descriptor returns -1, and so do `fs_seek`, `fs_read` and `fs_write` on
it. -/
theorem fs_close_releases_descriptor (fs : FS_t) (fd : Int) :
    ((fs_close fs fd).1 = 0 ↔
      0 ≤ fd ∧ fd ≤ 255 ∧ block_store_sub_test fs.BlockStore_fd fd.toNat = true) ∧
    ((fs_close fs fd).1 ≠ 0 → fs_close fs fd = (-1, fs)) ∧
    ((fs_close fs fd).1 = 0 →
      (fs_close fs fd).2.BlockStore_whole = fs.BlockStore_whole ∧
      (fs_close fs fd).2.inode_table = fs.inode_table ∧
      (fs_close fs fd).2.BlockStore_fd.records = fs.BlockStore_fd.records ∧
      (∀ j, block_store_sub_test (fs_close fs fd).2.BlockStore_fd j =
        (block_store_sub_test fs.BlockStore_fd j && !decide (j = fd.toNat))) ∧
      (fs_close (fs_close fs fd).2 fd).1 = -1 ∧
      (∀ offset whence, (fs_seek (fs_close fs fd).2 fd offset whence).1 = -1) ∧
      (∀ dest nbyte,
        (fs_read (fs_close fs fd).2 fd dest nbyte).map (fun r => r.1) = some (-1)) ∧
      (∀ src nbyte,
        (fs_write (fs_close fs fd).2 fd src nbyte).map (fun r => r.1) = some (-1))) := by
  cases fs_close_cases fs fd with
  | inl h =>
    obtain ⟨hn, he⟩ := h
    rw [he]
    refine ⟨?_, fun _ => rfl, ?_⟩
    · constructor
      · intro hc
        exact absurd (show (-1 : Int) = 0 from hc) (by decide)
      · intro hc
        exact absurd hc hn
    · intro hc
      exact absurd (show (-1 : Int) = 0 from hc) (by decide)
  | inr h =>
    obtain ⟨hy, he⟩ := h
    rw [he]
    refine ⟨⟨fun _ => hy, fun _ => rfl⟩, fun hc => absurd rfl hc, fun _ => ?_⟩
    dsimp only
    have hlt := (block_store_sub_test_true _ _ hy.2.2).1
    have hfree : block_store_sub_test
        (block_store_sub_release fs.BlockStore_fd fd.toNat) fd.toNat = false := by
      rw [block_store_sub_test_release _ _ _ hlt]
      simp only [decide_True, Bool.not_true, Bool.and_false]
    have hnone := _fd_read_of_not_test
      { fs with BlockStore_fd := block_store_sub_release fs.BlockStore_fd fd.toNat } fd hfree
    refine ⟨rfl, rfl, rfl, fun j => block_store_sub_test_release _ _ _ hlt, ?_, ?_, ?_, ?_⟩
    · cases fs_close_cases
          { fs with BlockStore_fd := block_store_sub_release fs.BlockStore_fd fd.toNat } fd with
      | inl h2 => rw [h2.2]
      | inr h2 =>
        have := h2.1.2.2
        rw [hfree] at this
        exact Bool.noConfusion this
    · intro offset whence
      rw [fs_seek_of_fd_read_none _ _ _ _ hnone]
    · intro dest nbyte
      rw [fs_read_of_fd_read_none _ _ _ _ hnone]
      rfl
    · intro src nbyte
      rw [fs_write_of_fd_read_none _ _ _ _ hnone]
      rfl

/-! ## `bitmap_ffz` finds a clear bit whenever there is one -/

theorem _uint8_ffs_n_loop_none (lim : Nat) :
    ∀ fuel byte i, i + fuel ≤ 255 → _uint8_ffs_n_loop lim fuel byte i = UINT8_MAX →
      ∀ j, i ≤ j → j < i + fuel → j < lim → (byte >>> (j - i)) &&& 1 = 0 := by
  intro fuel
  induction fuel with
  | zero =>
    intro byte i _ _ j h1 h2 _
    omega
  | succ fuel ih =>
    intro byte i hb h j h1 h2 h3
    unfold _uint8_ffs_n_loop at h
    rw [if_pos (by omega)] at h
    by_cases hbit : byte &&& 1 ≠ 0
    · rw [if_pos hbit] at h
      unfold UINT8_MAX at h
      omega
    · rw [if_neg hbit] at h
      by_cases hj : j = i
      · subst hj
        rw [Nat.sub_self, Nat.shiftRight_zero]
        exact Decidable.of_not_not hbit
      · have := ih (byte >>> 1) (i + 1) (by omega) h j (by omega) (by omega) h3
        have e : j - i = 1 + (j - (i + 1)) := by omega
        rw [e, Nat.shiftRight_add]
        exact this

theorem inverted_byte_bit_set :
    ∀ j, j < 8 → ∀ e, e < 256 → ((255 ^^^ e) >>> j) &&& 1 = 0 → (e.testBit j) = true := by
  decide!

theorem _uint8_ffs_n_none (d lim : Nat) (h : _uint8_ffs_n (255 ^^^ (d % 256)) lim = UINT8_MAX)
    (j : Nat) (hj : j < 8) (hl : j < lim) : d.testBit j = true := by
  unfold _uint8_ffs_n at h
  have h1 := _uint8_ffs_n_loop_none lim 8 _ 0 (by decide) h j (Nat.zero_le _) (by omega) hl
  rw [Nat.sub_zero] at h1
  have h2 := inverted_byte_bit_set j hj _ (Nat.mod_lt _ (by decide)) h1
  have h3 := Nat.testBit_mod_two_pow d 8 j
  rw [show (2 : Nat) ^ 8 = 256 from rfl] at h3
  rw [h3] at h2
  simp only [hj, decide_True, Bool.true_and] at h2
  exact h2

theorem bitmap_ffz_loop_none (m : bitmap_t) (lbc lbi : Nat) :
    ∀ fuel i, (i + fuel) * 8 < SIZE_MAX →
      bitmap_ffz_loop m lbc lbi fuel i = SIZE_MAX →
      ∀ i' j, i ≤ i' → i' < i + fuel → j < 8 → j < (if i' = lbi then lbc else 8) →
        (m.data i').testBit j = true := by
  intro fuel
  induction fuel with
  | zero =>
    intro i _ _ i' j h1 h2 _ _
    omega
  | succ fuel ih =>
    intro i hb h i' j h1 h2 h3 h4
    unfold bitmap_ffz_loop at h
    dsimp only at h
    by_cases hf : _uint8_ffs_n (255 ^^^ (m.data i % 256)) (if i = lbi then lbc else 8) ≠ UINT8_MAX
    · rw [if_pos hf] at h
      obtain ⟨a, _, _⟩ := _uint8_ffs_n_inverted _ _ _ rfl hf
      unfold SIZE_MAX at h hb
      omega
    · rw [if_neg hf] at h
      by_cases hi : i' = i
      · subst hi
        exact _uint8_ffs_n_none _ _ (Decidable.of_not_not hf) j h3 h4
      · exact ih (i + 1) (by omega) h i' j (by omega) (by omega) h3 h4

/-- When `bitmap_ffz` finds no clear bit in a bitmap of 256 bits, all are set. -/
theorem bitmap_ffz_none_256 (m : bitmap_t) (h1 : m.bit_count = 256) (h2 : m.byte_count = 32)
    (h : bitmap_ffz m = SIZE_MAX) (i : Nat) (hi : i < 256) : bitmap_test m i = true := by
  unfold bitmap_ffz at h
  rw [h1, h2] at h
  dsimp only at h
  rw [bitmap_test_eq_testBit]
  refine bitmap_ffz_loop_none m _ _ 32 0 (by decide) h (i / 8) (i % 8) (Nat.zero_le _)
    (by omega) (Nat.mod_lt _ (by decide)) ?_
  have h8 : i % 8 < 8 := Nat.mod_lt _ (by decide)
  split
  · exact h8
  · exact h8

/-- The bit that `bitmap_ffz` finds in a bitmap of 256 bits is one of them. -/
theorem bitmap_ffz_some_256 (m : bitmap_t) (h2 : m.byte_count = 32)
    (h : bitmap_ffz m ≠ SIZE_MAX) :
    bitmap_ffz m < 256 ∧ bitmap_test m (bitmap_ffz m) = false := by
  obtain ⟨a, b⟩ := bitmap_ffz_clear m h
  rw [h2] at b
  exact ⟨by omega, a⟩

/-! ## `fs_open` -/

/-- The outcomes of `fs_open` once the path has resolved to a file that is not
a directory: no free descriptor, or the first free descriptor taken. -/
theorem fs_open_resolved (fs : FS_t) (path : List Nat) (inode : inode_t)
    (hfd : fs.BlockStore_fd.fbm.bit_count = NUM_FDS ∧ fs.BlockStore_fd.fbm.byte_count = 32)
    (h1 : ¬ _get_inum fs path < 0)
    (h2 : _inode_read fs (_get_inum fs path).toNat = some inode)
    (h3 : inode.file_type ≠ CHAR_d) :
    (bitmap_ffz fs.BlockStore_fd.fbm = SIZE_MAX ∧ fs_open fs path = (-1, fs)) ∨
    (∃ idx, idx = bitmap_ffz fs.BlockStore_fd.fbm ∧ idx < NUM_FDS ∧
      bitmap_test fs.BlockStore_fd.fbm idx = false ∧
      fs_open fs path = ((idx : Int),
        { fs with BlockStore_fd :=
          { fbm := (bitmap_set fs.BlockStore_fd.fbm idx).2,
            records := fun i =>
              if i = idx then
                { inum := (_get_inum fs path).toNat % 256, usage := FD_DIRECT,
                  locate_order := 0, locate_offset := 0 }
              else fs.BlockStore_fd.records i } })) := by
  unfold fs_open
  dsimp only
  rw [if_neg h1, h2]
  dsimp only
  rw [if_neg h3]
  cases block_store_sub_allocate_cases fs.BlockStore_fd with
  | inl ha =>
    left
    rw [ha]
    dsimp only
    rw [if_pos rfl]
    refine ⟨?_, rfl⟩
    unfold block_store_sub_allocate at ha
    dsimp only at ha
    by_contra hc
    rw [if_neg hc] at ha
    exact hc (congrArg Prod.fst ha)
  | inr ha =>
    right
    obtain ⟨idx, hne, hidx, ha⟩ := ha
    rw [ha]
    dsimp only
    rw [if_neg hne]
    have hs := bitmap_ffz_some_256 fs.BlockStore_fd.fbm hfd.2 (by rw [← hidx]; exact hne)
    rw [← hidx] at hs
    refine ⟨idx, hidx, hs.1, hs.2, ?_⟩
    unfold _BS_FD_WRITE block_store_sub_write
    dsimp only
    rw [(bitmap_set_counts _ _).1, hfd.1, if_neg (Nat.not_le.2 hs.1)]
    rfl

theorem fs_open_unresolved (fs : FS_t) (path : List Nat)
    (h : _get_inum fs path < 0 ∨ _inode_read fs (_get_inum fs path).toNat = none ∨
      ∃ inode, _inode_read fs (_get_inum fs path).toNat = some inode ∧
        inode.file_type = CHAR_d) :
    fs_open fs path = (-1, fs) := by
  unfold fs_open
  dsimp only
  by_cases h1 : _get_inum fs path < 0
  · rw [if_pos h1]
  · rw [if_neg h1]
    rcases h with h | h | ⟨inode, h, h3⟩
    · exact absurd h h1
    · rw [h]
    · rw [h]
      dsimp only
      rw [if_pos h3]

/-- The descriptor that `_fd_read` loads from a slot in use. -/
theorem _fd_read_of_test (fs : FS_t) (idx : Nat) (hidx : idx < NUM_FDS)
    (h : block_store_sub_test fs.BlockStore_fd idx = true) :
    _fd_read fs (idx : Int) = some (fs.BlockStore_fd.records idx) := by
  unfold _fd_read
  have hok : FD_OK (idx : Int) = true := by
    unfold FD_OK
    simp only [decide_eq_true_eq]
    exact ⟨Int.ofNat_nonneg _, by exact_mod_cast hidx⟩
  rw [if_neg (by simpa using hok), Int.toNat_ofNat, if_neg (by simpa using h)]
  unfold block_store_sub_read
  rw [if_neg (Nat.not_le.2 (block_store_sub_test_true _ _ h).1)]

/-- The occupancy of a sub-store after a bit in range is set. -/
theorem block_store_sub_test_set {α : Type} (s : sub_store_t α) (id j : Nat) (r : Nat → α)
    (h : id < s.fbm.bit_count) :
    block_store_sub_test { fbm := (bitmap_set s.fbm id).2, records := r } j =
      (block_store_sub_test s j || decide (j = id)) := by
  unfold block_store_sub_test
  dsimp only
  rw [(bitmap_set_counts s.fbm id).1]
  split
  · have : j ≠ id := by omega
    simp only [this, decide_False, Bool.or_false]
  · exact bitmap_test_set s.fbm id j h

theorem _fd_cursor_get_start (n : Nat) :
    _fd_cursor_get { inum := n, usage := FD_DIRECT, locate_order := 0, locate_offset := 0 } = 0 := by
  unfold _fd_cursor_get _fd_cursor_get_block_index
  simp

/-- C11: `fs_open` returns -1 exactly when the path does not resolve, resolves
to a directory, or no descriptor slot is free.  Otherwise it returns the index,
below 256, of a slot that was free, and the descriptor stored there names the
resolved inode with usage DIRECT, order 0 and offset 0 (cursor 0); the other
descriptors, the blocks and the inodes are as before. -/
theorem fs_open_allocates_descriptor (fs : FS_t) (path : List Nat)
    (hfd : fs.BlockStore_fd.fbm.bit_count = NUM_FDS ∧ fs.BlockStore_fd.fbm.byte_count = 32) :
    ((fs_open fs path).1 = -1 ↔
      ((¬ ∃ inode, path_resolves_to fs path inode) ∨
       (∃ inode, path_resolves_to fs path inode ∧ inode.file_type = CHAR_d) ∨
       (∀ i, i < NUM_FDS → block_store_sub_test fs.BlockStore_fd i = true))) ∧
    ((fs_open fs path).1 ≠ -1 →
      ∃ (idx : Nat) (inode : inode_t),
        (fs_open fs path).1 = (idx : Int) ∧ idx < NUM_FDS ∧ path_resolves_to fs path inode ∧
        block_store_sub_test fs.BlockStore_fd idx = false ∧
        _fd_read (fs_open fs path).2 (idx : Int) =
          some { inum := (_get_inum fs path).toNat, usage := FD_DIRECT, locate_order := 0,
                 locate_offset := 0 } ∧
        _fd_cursor_get { inum := (_get_inum fs path).toNat, usage := FD_DIRECT,
                         locate_order := 0, locate_offset := 0 } = 0 ∧
        (∀ j, j ≠ idx →
          block_store_sub_test (fs_open fs path).2.BlockStore_fd j =
            block_store_sub_test fs.BlockStore_fd j ∧
          (fs_open fs path).2.BlockStore_fd.records j = fs.BlockStore_fd.records j) ∧
        (fs_open fs path).2.BlockStore_whole = fs.BlockStore_whole ∧
        (fs_open fs path).2.inode_table = fs.inode_table) := by
  have hneg : ∀ s : FS_t, ((-1 : Int), s).1 ≠ -1 → False := fun _ hc => hc rfl
  by_cases h1 : _get_inum fs path < 0
  · rw [fs_open_unresolved fs path (Or.inl h1)]
    refine ⟨⟨fun _ => Or.inl ?_, fun _ => rfl⟩, fun hc => (hneg _ hc).elim⟩
    rintro ⟨inode, h0, _⟩
    omega
  cases h2 : _inode_read fs (_get_inum fs path).toNat with
  | none =>
    rw [fs_open_unresolved fs path (Or.inr (Or.inl h2))]
    refine ⟨⟨fun _ => Or.inl ?_, fun _ => rfl⟩, fun hc => (hneg _ hc).elim⟩
    rintro ⟨inode, _, h0⟩
    rw [h2] at h0
    exact Option.noConfusion h0
  | some inode =>
    have hres : path_resolves_to fs path inode := ⟨by omega, h2⟩
    by_cases h3 : inode.file_type = CHAR_d
    · rw [fs_open_unresolved fs path (Or.inr (Or.inr ⟨inode, h2, h3⟩))]
      exact ⟨⟨fun _ => Or.inr (Or.inl ⟨inode, hres, h3⟩), fun _ => rfl⟩,
        fun hc => (hneg _ hc).elim⟩
    · rcases fs_open_resolved fs path inode hfd h1 h2 h3 with ⟨hfull, he⟩ | ⟨idx, _, hlt, hfree, he⟩
      · rw [he]
        refine ⟨⟨fun _ => Or.inr (Or.inr ?_), fun _ => rfl⟩, fun hc => (hneg _ hc).elim⟩
        intro i hi
        unfold block_store_sub_test
        rw [hfd.1, if_neg (Nat.not_le.2 hi)]
        exact bitmap_ffz_none_256 _ hfd.1 hfd.2 hfull i hi
      · rw [he]
        have hlt2 : idx < fs.BlockStore_fd.fbm.bit_count := by rw [hfd.1]; exact hlt
        have hfree2 : block_store_sub_test fs.BlockStore_fd idx = false := by
          unfold block_store_sub_test
          rw [if_neg (Nat.not_le.2 hlt2)]
          exact hfree
        have hinum : (_get_inum fs path).toNat % 256 = (_get_inum fs path).toNat :=
          Nat.mod_eq_of_lt (_inode_read_some _ _ _ h2).1
        constructor
        · constructor
          · intro hc
            have hc2 : (idx : Int) = -1 := hc
            omega
          · rintro (hc | ⟨inode2, hc, hd⟩ | hc)
            · exact absurd ⟨inode, hres⟩ hc
            · have := hc.2
              rw [h2] at this
              rw [Option.some.inj this] at h3
              exact absurd hd h3
            · have := hc idx hlt
              rw [hfree2] at this
              exact Bool.noConfusion this
        · intro _
          refine ⟨idx, inode, rfl, hlt, hres, hfree2, ?_, _fd_cursor_get_start _, ?_, rfl, rfl⟩
          · dsimp only
            rw [_fd_read_of_test _ idx hlt]
            · dsimp only
              rw [if_pos rfl, hinum]
            · dsimp only
              rw [block_store_sub_test_set _ _ _ _ hlt2]
              simp only [decide_True, Bool.or_true]
          · intro j hj
            dsimp only
            constructor
            · rw [block_store_sub_test_set _ _ _ _ hlt2]
              simp only [hj, decide_False, Bool.or_false]
            · rw [if_neg hj]

theorem fs_open_allocates_descriptor_witness :
    (fs_with_file_a.BlockStore_fd.fbm.bit_count = NUM_FDS ∧
      fs_with_file_a.BlockStore_fd.fbm.byte_count = 32) ∧
    ((fs_open fs_with_file_a (bytes "/a")).1 ≠ -1 →
      ∃ (idx : Nat) (inode : inode_t),
        (fs_open fs_with_file_a (bytes "/a")).1 = (idx : Int) ∧ idx < NUM_FDS ∧
        path_resolves_to fs_with_file_a (bytes "/a") inode) :=
  ⟨by decide!, fun h =>
    match (fs_open_allocates_descriptor fs_with_file_a (bytes "/a") (by decide!)).2 h with
    | ⟨idx, inode, a, b, c, _⟩ => ⟨idx, inode, a, b, c⟩⟩

/-! ## Cursors -/

theorem _fd_cursor_set_direct (fd : fileDescriptor_t) (off : Nat) (h : off < 6144) :
    _fd_cursor_set fd off =
      some { fd with usage := 1, locate_order := off / 1024, locate_offset := off % 1024 } := by
  unfold _fd_cursor_set
  have h0 : off < FD_DIRECT_MAX_OFF := h
  rw [if_pos h0]
  have e : (off / BLOCK_SIZE_BYTES) % 2 ^ 32 = off / 1024 := by
    show (off / 1024) % 4294967296 = off / 1024
    omega
  rw [e]

theorem _fd_cursor_set_indirect (fd : fileDescriptor_t) (off : Nat) (h1 : 6144 ≤ off)
    (h2 : off < 530432) :
    _fd_cursor_set fd off =
      some { fd with usage := 2, locate_order := off / 1024 - 6, locate_offset := off % 1024 } := by
  unfold _fd_cursor_set
  have h0 : ¬ off < FD_DIRECT_MAX_OFF := Nat.not_lt.2 h1
  have h3 : off < FD_INDIRECT_MAX_OFF := h2
  rw [if_neg h0, if_pos h3]
  have e : ((off / BLOCK_SIZE_BYTES) % 2 ^ 32 + 2 ^ 32 - FD_DIRECT_N_PTRS) % 2 ^ 32
      = off / 1024 - 6 := by
    show ((off / 1024) % 4294967296 + 4294967296 - 6) % 4294967296 = off / 1024 - 6
    omega
  rw [e]

theorem _fd_cursor_set_double (fd : fileDescriptor_t) (off : Nat) (h1 : 530432 ≤ off)
    (h2 : off < 268965888) :
    _fd_cursor_set fd off =
      some { fd with usage := 4, locate_order := off / 1024 - 518,
                     locate_offset := off % 1024 } := by
  unfold _fd_cursor_set
  have h0 : ¬ off < FD_DIRECT_MAX_OFF := Nat.not_lt.2 (by show 6144 ≤ off; omega)
  have h3 : ¬ off < FD_INDIRECT_MAX_OFF := Nat.not_lt.2 h1
  have h4 : off < FD_DOUBLE_INDIRECT_MAX_OFF := h2
  rw [if_neg h0, if_neg h3, if_pos h4]
  have e : (((off / BLOCK_SIZE_BYTES) % 2 ^ 32 + 2 ^ 32 - FD_INDIRECT_N_PTRS) % 2 ^ 32
      + 2 ^ 32 - FD_DIRECT_N_PTRS) % 2 ^ 32 = off / 1024 - 518 := by
    show (((off / 1024) % 4294967296 + 4294967296 - 512) % 4294967296
      + 4294967296 - 6) % 4294967296 = off / 1024 - 518
    omega
  rw [e]

theorem _fd_cursor_set_none (fd : fileDescriptor_t) (off : Nat) (h : 268965888 ≤ off) :
    _fd_cursor_set fd off = none := by
  unfold _fd_cursor_set
  have h0 : ¬ off < FD_DIRECT_MAX_OFF := Nat.not_lt.2 (by show 6144 ≤ off; omega)
  have h3 : ¬ off < FD_INDIRECT_MAX_OFF := Nat.not_lt.2 (by show 530432 ≤ off; omega)
  have h4 : ¬ off < FD_DOUBLE_INDIRECT_MAX_OFF := Nat.not_lt.2 h
  rw [if_neg h0, if_neg h3, if_neg h4]

/-- The descriptor that `_fd_cursor_set` makes for an offset below the maximal
file size: its cursor is the offset, in block `off / 1024` at byte
`off % 1024`, and setting the same offset again changes nothing. -/
theorem _fd_cursor_set_spec (fd : fileDescriptor_t) (off : Nat) (h : off < 268965888) :
    ∃ fd1, _fd_cursor_set fd off = some fd1 ∧ fd1.inum = fd.inum ∧
      _fd_cursor_get_block_index fd1 = off / 1024 ∧ fd1.locate_offset = off % 1024 ∧
      _fd_cursor_get fd1 = off ∧ _fd_cursor_set fd1 off = some fd1 ∧
      (fd1.usage = 1 ∨ fd1.usage = 2 ∨ fd1.usage = 4) := by
  by_cases h1 : off < 6144
  · refine ⟨_, _fd_cursor_set_direct fd off h1, rfl, ?_, rfl, ?_, ?_, Or.inl rfl⟩
    · unfold _fd_cursor_get_block_index
      simp [BLOCK_SIZE_BYTES, FD_DIRECT_N_PTRS, FD_INDIRECT_N_PTRS, BLOCK_PTRS_PER_BLOCK]
    · unfold _fd_cursor_get _fd_cursor_get_block_index
      simp [BLOCK_SIZE_BYTES, FD_DIRECT_N_PTRS, FD_INDIRECT_N_PTRS, BLOCK_PTRS_PER_BLOCK]
      omega
    · rw [_fd_cursor_set_direct _ off h1]
  · by_cases h2 : off < 530432
    · refine ⟨_, _fd_cursor_set_indirect fd off (by omega) h2, rfl, ?_, rfl, ?_, ?_,
        Or.inr (Or.inl rfl)⟩
      · unfold _fd_cursor_get_block_index
        simp [BLOCK_SIZE_BYTES, FD_DIRECT_N_PTRS, FD_INDIRECT_N_PTRS, BLOCK_PTRS_PER_BLOCK]
        omega
      · unfold _fd_cursor_get _fd_cursor_get_block_index
        simp [BLOCK_SIZE_BYTES, FD_DIRECT_N_PTRS, FD_INDIRECT_N_PTRS, BLOCK_PTRS_PER_BLOCK]
        omega
      · rw [_fd_cursor_set_indirect _ off (by omega) h2]
    · refine ⟨_, _fd_cursor_set_double fd off (by omega) h, rfl, ?_, rfl, ?_, ?_,
        Or.inr (Or.inr rfl)⟩
      · unfold _fd_cursor_get_block_index
        simp [BLOCK_SIZE_BYTES, FD_DIRECT_N_PTRS, FD_INDIRECT_N_PTRS, BLOCK_PTRS_PER_BLOCK]
        omega
      · unfold _fd_cursor_get _fd_cursor_get_block_index
        simp [BLOCK_SIZE_BYTES, FD_DIRECT_N_PTRS, FD_INDIRECT_N_PTRS, BLOCK_PTRS_PER_BLOCK]
        omega
      · rw [_fd_cursor_set_double _ off (by omega) h]

/-- A descriptor that is the decomposition of its own cursor. -/
theorem fd_canonical_spec (fd : fileDescriptor_t)
    (h : _fd_cursor_set fd (_fd_cursor_get fd) = some fd) :
    _fd_cursor_get fd < 268965888 ∧
      _fd_cursor_get_block_index fd = _fd_cursor_get fd / 1024 ∧
      fd.locate_offset = _fd_cursor_get fd % 1024 ∧
      (fd.usage = 1 ∨ fd.usage = 2 ∨ fd.usage = 4) := by
  by_cases hc : _fd_cursor_get fd < 268965888
  · obtain ⟨fd1, h1, _, h3, h4, _, _, h7⟩ := _fd_cursor_set_spec fd _ hc
    rw [h1] at h
    have e : fd1 = fd := Option.some.inj h
    subst e
    exact ⟨hc, h3, h4, h7⟩
  · rw [_fd_cursor_set_none fd _ (by omega)] at h
    exact Option.noConfusion h

theorem _fd_read_some (fs : FS_t) (fdi : Int) (fd : fileDescriptor_t)
    (h : _fd_read fs fdi = some fd) :
    0 ≤ fdi ∧ fdi < 256 ∧ block_store_sub_test fs.BlockStore_fd fdi.toNat = true ∧
      fd = fs.BlockStore_fd.records fdi.toNat := by
  unfold _fd_read at h
  by_cases h1 : ¬ FD_OK fdi = true
  · rw [if_pos h1] at h
    exact Option.noConfusion h
  · rw [if_neg h1] at h
    by_cases h2 : ¬ block_store_sub_test fs.BlockStore_fd fdi.toNat = true
    · rw [if_pos h2] at h
      exact Option.noConfusion h
    · rw [if_neg h2] at h
      unfold block_store_sub_read at h
      split at h
      · exact Option.noConfusion h
      · have hok : FD_OK fdi = true := by simpa using h1
        unfold FD_OK at hok
        simp only [decide_eq_true_eq] at hok
        exact ⟨hok.1, hok.2, by simpa using h2, (Option.some.inj h).symm⟩

/-- The write of a descriptor into a slot in use succeeds and changes that
record only. -/
theorem _BS_FD_WRITE_of_test (fs : FS_t) (idx : Nat) (fd : fileDescriptor_t)
    (h : block_store_sub_test fs.BlockStore_fd idx = true) :
    _BS_FD_WRITE fs idx fd =
      some { fs with BlockStore_fd :=
        { fs.BlockStore_fd with
          records := fun i => if i = idx then fd else fs.BlockStore_fd.records i } } := by
  unfold _BS_FD_WRITE block_store_sub_write
  rw [if_neg (Nat.not_le.2 (block_store_sub_test_true _ _ h).1)]
  rfl

/-! ## `fs_seek` -/

theorem wrap_ssize_t_of_fits (x : Int) (h1 : -(2 ^ 63) ≤ x) (h2 : x < 2 ^ 63) :
    wrap_ssize_t x = x := by
  unfold wrap_ssize_t
  rw [Int.emod_eq_of_lt (by omega) (by omega)]
  omega

theorem _clamped_add_of_fits (b : Nat) (o : Int) (s : Nat) (hs : s < 2 ^ 63)
    (h1 : -(2 ^ 63) ≤ (b : Int) + o) (h2 : (b : Int) + o < 2 ^ 63) :
    _clamped_add (b : Int) o 0 (s : Int) = clamp_to_file b o s := by
  unfold _clamped_add clamp_to_file
  dsimp only
  rw [wrap_ssize_t_of_fits _ h1 h2]
  split
  · omega
  · split <;> omega

theorem clamp_to_file_range (b : Nat) (o : Int) (s : Nat) :
    0 ≤ clamp_to_file b o s ∧ clamp_to_file b o s ≤ (s : Int) := by
  unfold clamp_to_file
  omega

theorem _fd_read_set_fd (fs : FS_t) (fdi : Int) (fd0 fd : fileDescriptor_t)
    (h : _fd_read fs fdi = some fd0) : _fd_read (fs.set_fd fdi.toNat fd) fdi = some fd := by
  obtain ⟨h1, h2, h3, _⟩ := _fd_read_some fs fdi fd0 h
  have e := _fd_read_of_test (fs.set_fd fdi.toNat fd) fdi.toNat (by show fdi.toNat < 256; omega) h3
  rw [Int.toNat_of_nonneg h1] at e
  rw [e]
  show some (if fdi.toNat = fdi.toNat then fd else _) = _
  rw [if_pos rfl]

theorem _inode_read_set_fd (fs : FS_t) (idx : Nat) (fd : fileDescriptor_t) (inum : Nat) :
    _inode_read (fs.set_fd idx fd) inum = _inode_read fs inum := rfl

/-- What `fs_seek` does on an open descriptor when the sum of the base and the
offset fits in an `ssize_t`: it returns the sum clamped to `[0, file_size]`
and stores the descriptor that `_fd_cursor_set` makes for it. -/
theorem fs_seek_spec (fs : FS_t) (fdi : Int) (fd : fileDescriptor_t) (inode : inode_t)
    (offset : Int) (whence : Nat)
    (hfd : _fd_read fs fdi = some fd) (hino : _inode_read fs fd.inum = some inode)
    (hw : WHENCE_OK whence = true) (hs : inode.file_size < 268965888)
    (hb : seek_base whence (_fd_cursor_get fd) inode.file_size < 2 ^ 63)
    (h1 : -(2 ^ 63) ≤ (seek_base whence (_fd_cursor_get fd) inode.file_size : Int) + offset)
    (h2 : (seek_base whence (_fd_cursor_get fd) inode.file_size : Int) + offset < 2 ^ 63) :
    ∃ fd1,
      _fd_cursor_set fd
        (clamp_to_file (seek_base whence (_fd_cursor_get fd) inode.file_size) offset
          inode.file_size).toNat = some fd1 ∧
      fs_seek fs fdi offset whence =
        (clamp_to_file (seek_base whence (_fd_cursor_get fd) inode.file_size) offset
          inode.file_size, fs.set_fd fdi.toNat fd1) := by
  obtain ⟨hr1, hr2, hr3, _⟩ := _fd_read_some fs fdi fd hfd
  have hrange := clamp_to_file_range (seek_base whence (_fd_cursor_get fd) inode.file_size)
    offset inode.file_size
  generalize hc : clamp_to_file (seek_base whence (_fd_cursor_get fd) inode.file_size) offset
    inode.file_size = c at hrange
  obtain ⟨fd1, hset, _⟩ := _fd_cursor_set_spec fd c.toNat (by omega)
  refine ⟨fd1, hset, ?_⟩
  unfold fs_seek
  have hok : FD_OK fdi = true := by
    unfold FD_OK
    simp only [decide_eq_true_eq]
    exact ⟨hr1, hr2⟩
  rw [if_neg (by simp [hok, hw]), hfd]
  dsimp only
  rw [hino]
  dsimp only
  have e1 : to_ssize_t inode.file_size = (inode.file_size : Int) := by
    unfold to_ssize_t
    rw [if_pos (by omega)]
  have e2 : (if whence = FS_SEEK_CUR then _fd_cursor_get fd
      else if whence = FS_SEEK_END then inode.file_size else 0)
      = seek_base whence (_fd_cursor_get fd) inode.file_size := rfl
  have e3 : to_ssize_t (seek_base whence (_fd_cursor_get fd) inode.file_size)
      = (seek_base whence (_fd_cursor_get fd) inode.file_size : Int) := by
    unfold to_ssize_t
    rw [if_pos hb]
  rw [e2, e1, e3, _clamped_add_of_fits _ _ _ (by omega) h1 h2, hc]
  have e4 : (c % 2 ^ 64).toNat = c.toNat := by
    rw [Int.emod_eq_of_lt hrange.1 (by omega)]
  rw [e4, hset]
  dsimp only
  rw [_BS_FD_WRITE_of_test _ _ _ hr3]
  dsimp only
  have e5 : to_ssize_t c.toNat = c := by
    unfold to_ssize_t
    rw [if_pos (by omega)]
    omega
  rw [e5]
  rfl

theorem _inode_read_of_test (fs : FS_t) (inum : Nat) (h1 : inum < 256)
    (h2 : block_store_sub_test fs.BlockStore_inode inum = true) :
    _inode_read fs inum = some (fs.inode_table inum) := by
  unfold _inode_read
  have hok : INUM_OK inum = true := by
    unfold INUM_OK
    simp only [decide_eq_true_eq]
    exact h1
  rw [if_neg (by simpa using hok), if_neg (by simpa using h2)]
  unfold block_store_sub_read
  rw [if_neg (Nat.not_le.2 (block_store_sub_test_true _ _ h2).1)]
  rfl

theorem clamp_to_file_zero (s : Nat) : clamp_to_file s 0 s = (s : Int) := by
  unfold clamp_to_file
  omega

/-- C14 (the code at an offset whose sum with the base overflows): descriptor 0
of `fs_hello` is at the end of a file of 5 bytes; `fs_seek` by `2 ^ 63 - 1`
from the end of the file, and from the cursor, returns 0, where the clamped sum
over the integers is 5. -/
theorem fs_seek_large_offset_wraps :
    (_inode_read fs_hello 1).map (fun n => n.file_size) = some 5 ∧
    _fd_read fs_hello 0 = some { inum := 1, usage := 1, locate_order := 0, locate_offset := 5 } ∧
    (fs_seek fs_hello 0 (2 ^ 63 - 1) FS_SEEK_END).1 = 0 ∧
    (fs_seek fs_hello 0 (2 ^ 63 - 1) FS_SEEK_CUR).1 = 0 ∧
    clamp_to_file 5 (2 ^ 63 - 1) 5 = 5 := by
  decide!

/-- C15: on an open descriptor of a file of size `s` (below the maximal file
size), `fs_seek` by 0 from the end returns `s`, and a following `fs_seek` by 0
from the cursor returns `s` again and leaves the cursor at `s`. -/
theorem fs_seek_end_then_cur (fs : FS_t) (fdi : Int) (fd : fileDescriptor_t) (inode : inode_t)
    (hfd : _fd_read fs fdi = some fd) (hino : _inode_read fs fd.inum = some inode)
    (hs : inode.file_size < FD_DOUBLE_INDIRECT_MAX_OFF) :
    (fs_seek fs fdi 0 FS_SEEK_END).1 = (inode.file_size : Int) ∧
    (fs_seek (fs_seek fs fdi 0 FS_SEEK_END).2 fdi 0 FS_SEEK_CUR).1 = (inode.file_size : Int) ∧
    (_fd_read (fs_seek (fs_seek fs fdi 0 FS_SEEK_END).2 fdi 0 FS_SEEK_CUR).2 fdi).map
      _fd_cursor_get = some inode.file_size := by
  have hs1 : inode.file_size < 268965888 := hs
  have hb1 : seek_base FS_SEEK_END (_fd_cursor_get fd) inode.file_size = inode.file_size := rfl
  obtain ⟨fd1, hset1, he1⟩ := fs_seek_spec fs fdi fd inode 0 FS_SEEK_END hfd hino (by decide) hs1
    (by rw [hb1]; omega) (by rw [hb1]; omega) (by rw [hb1]; omega)
  rw [hb1, clamp_to_file_zero] at hset1 he1
  rw [Int.toNat_ofNat] at hset1
  obtain ⟨fd1', hset1', hinum1, _, _, hget1, _, _⟩ := _fd_cursor_set_spec fd inode.file_size hs1
  rw [hset1] at hset1'
  have e : fd1 = fd1' := Option.some.inj hset1'
  subst e
  have hfd1 : _fd_read (fs.set_fd fdi.toNat fd1) fdi = some fd1 := _fd_read_set_fd fs fdi fd fd1 hfd
  have hino1 : _inode_read (fs.set_fd fdi.toNat fd1) fd1.inum = some inode := by
    rw [_inode_read_set_fd, hinum1]
    exact hino
  have hb2 : seek_base FS_SEEK_CUR (_fd_cursor_get fd1) inode.file_size = inode.file_size := by
    rw [hget1]
    rfl
  obtain ⟨fd2, hset2, he2⟩ := fs_seek_spec (fs.set_fd fdi.toNat fd1) fdi fd1 inode 0 FS_SEEK_CUR
    hfd1 hino1 (by decide) hs1
    (by rw [hb2]; omega) (by rw [hb2]; omega) (by rw [hb2]; omega)
  rw [hb2, clamp_to_file_zero] at hset2 he2
  rw [Int.toNat_ofNat] at hset2
  obtain ⟨fd2', hset2', _, _, _, hget2, _, _⟩ := _fd_cursor_set_spec fd1 inode.file_size hs1
  rw [hset2] at hset2'
  have e : fd2 = fd2' := Option.some.inj hset2'
  subst e
  rw [he1]
  dsimp only
  rw [he2]
  dsimp only
  refine ⟨rfl, rfl, ?_⟩
  rw [_fd_read_set_fd _ fdi fd1 fd2 hfd1, Option.map_some', hget2]

theorem fs_seek_end_then_cur_witness :
    _fd_read fs_hello 0 = some (fs_hello.BlockStore_fd.records 0) ∧
    (fs_seek fs_hello 0 0 FS_SEEK_END).1 = ((fs_hello.inode_table 1).file_size : Int) ∧
    (fs_hello.inode_table 1).file_size = 5 :=
  ⟨by decide!,
    (fs_seek_end_then_cur fs_hello 0 (fs_hello.BlockStore_fd.records 0) (fs_hello.inode_table 1)
      (by decide!)
      (by
        have e : (fs_hello.BlockStore_fd.records 0).inum = 1 := by decide!
        rw [e]
        exact _inode_read_of_test fs_hello 1 (by decide) (by decide!))
      (by decide!)).1,
    by decide!⟩

/-! ## A successful `fs_create`, stage by stage -/

theorem _BS_WRITE_some (fs fs1 : FS_t) (id : Nat) (buf : block_t)
    (h : _BS_WRITE fs id buf = some fs1) : id < 65536 ∧ fs1 = fs.set_block id buf := by
  unfold _BS_WRITE block_store_write at h
  by_cases hc : id ≥ BLOCK_STORE_NUM_BLOCKS
  · rw [if_pos hc] at h
    exact Option.noConfusion h
  · rw [if_neg hc] at h
    exact ⟨Nat.lt_of_not_le hc, (Option.some.inj h).symm⟩

theorem _BS_WRITE_of_lt (fs : FS_t) (id : Nat) (buf : block_t) (h : id < 65536) :
    _BS_WRITE fs id buf = some (fs.set_block id buf) := by
  unfold _BS_WRITE block_store_write
  have hc : ¬ id ≥ BLOCK_STORE_NUM_BLOCKS := Nat.not_le.2 h
  rw [if_neg hc]
  rfl

theorem _BS_INODE_WRITE_some_set (fs fs1 : FS_t) (inum : Nat) (src : inode_t)
    (h : _BS_INODE_WRITE fs inum src = some fs1) :
    inum < 256 ∧ fs1 = fs.set_inode inum src :=
  _BS_INODE_WRITE_some fs fs1 inum src h

theorem _BS_INODE_WRITE_of_lt (fs : FS_t) (inum : Nat) (src : inode_t) (h : inum < 256) :
    _BS_INODE_WRITE fs inum src = some (fs.set_inode inum src) := by
  cases _BS_INODE_WRITE_cases fs inum src with
  | inl h1 =>
    have := h1.1
    unfold NUM_INODES at this
    omega
  | inr h1 =>
    rw [h1.2, set_BlockStore_inode_same_fbm]
    rfl

theorem fs_create_verify_success (fs1 : FS_t) (path : List Nat) (t p : Nat) (ino : inode_t)
    (blk : block_t) (map : bitmap_t) (b : Bool) (r : Int) (s : FS_t)
    (h : fs_create_verify fs1 path t p ino blk map b = (r, s)) (hr : r ≠ -1) :
    ∃ name, _basename path = some name ∧
      fs_create_commit fs1 t p ino blk map b name = (r, s) := by
  unfold fs_create_verify at h
  dsimp only at h
  split at h
  · exact absurd (fs_create_err3_ne_zero _ _ _ r s h) hr
  · split at h
    · exact absurd (fs_create_err3_ne_zero _ _ _ r s h) hr
    · rename_i name hname
      split at h
      · exact absurd (fs_create_err3_ne_zero _ _ _ r s h) hr
      · split at h
        · exact absurd (fs_create_err3_ne_zero _ _ _ r s h) hr
        · exact ⟨name, hname, h⟩

theorem fs_create_dentry_block_success (fs : FS_t) (path : List Nat) (t p : Nat)
    (ino : inode_t) (blk : block_t) (map : bitmap_t) (r : Int) (s : FS_t)
    (h : fs_create_dentry_block fs path t p ino blk map = (r, s)) (hr : r ≠ -1) :
    (ino.file_size = 0 ∧ ∃ D bs1, D < 65536 ∧ bitmap_test fs.BlockStore_whole.fbm D = false ∧
      bs1 = fs.BlockStore_whole.set_fbm (bitmap_set fs.BlockStore_whole.fbm D).2 ∧
      fs_create_verify { fs with BlockStore_whole := bs1 } path t p
        { ino with data_direct := fun k => if k = 0 then D else ino.data_direct k }
        blk map true = (r, s)) ∨
    (ino.file_size ≠ 0 ∧ fs_create_verify fs path t p ino blk map false = (r, s)) := by
  unfold fs_create_dentry_block at h
  by_cases h0 : ino.file_size = 0
  · left
    rw [if_pos h0] at h
    refine ⟨h0, ?_⟩
    cases block_store_allocate_cases fs.BlockStore_whole with
    | inl ha =>
      rw [ha] at h
      dsimp only at h
      rw [if_pos rfl] at h
      exact absurd (congrArg Prod.fst h).symm hr
    | inr ha =>
      obtain ⟨id, hid, hfree, _, ha⟩ := ha
      rw [ha] at h
      dsimp only at h
      have hne : id ≠ SIZE_MAX := by
        intro hc
        rw [hc] at hid
        exact absurd hid (by decide)
      rw [if_neg hne, Nat.mod_eq_of_lt hid] at h
      exact ⟨id, _, hid, hfree, rfl, h⟩
  · right
    rw [if_neg h0] at h
    exact ⟨h0, h⟩

theorem fs_create_stage_success (fs : FS_t) (path : List Nat) (type : Nat) (r : Int) (s : FS_t)
    (h : fs_create fs path type = (r, s)) (hr : r ≠ -1) :
    ∃ t dir P blk map,
      (type = FS_REGULAR ∧ t = CHAR_r ∨ type = FS_DIRECTORY ∧ t = CHAR_d) ∧
      _dirname path = some dir ∧ ¬ _get_inum fs dir < 0 ∧
      _inode_read fs (_get_inum fs dir).toNat = some P ∧
      _inode_dir_load fs P = some (blk, map) ∧
      fs_create_dentry_block fs path t (_get_inum fs dir).toNat P blk map = (r, s) := by
  have triv : ∀ (q : Int × FS_t) (x : FS_t), q = (r, s) → q = (-1, x) → False := by
    intro q x h1 h2
    rw [h2] at h1
    exact hr (congrArg Prod.fst h1).symm
  unfold fs_create at h
  split at h
  · exact (triv _ _ h rfl).elim
  split at h
  · exact (triv _ _ h rfl).elim
  split at h
  · exact (triv _ _ h rfl).elim
  rename_i t ht
  split at h
  · exact (triv _ _ h rfl).elim
  rename_i dir hdir
  dsimp only at h
  split at h
  · exact (triv _ _ h rfl).elim
  rename_i hge
  split at h
  · exact (triv _ _ h rfl).elim
  rename_i P hread
  split at h
  · exact (triv _ _ h rfl).elim
  rename_i blk map hload
  refine ⟨t, dir, P, blk, map, ?_, hdir, hge, hread, hload, h⟩
  by_cases h1 : type = FS_REGULAR
  · rw [if_pos h1] at ht
    exact Or.inl ⟨h1, (Option.some.inj ht).symm⟩
  · rw [if_neg h1] at ht
    by_cases h2 : type = FS_DIRECTORY
    · rw [if_pos h2] at ht
      exact Or.inr ⟨h2, (Option.some.inj ht).symm⟩
    · rw [if_neg h2] at ht
      exact Option.noConfusion ht

theorem inode_data_direct_self (P : inode_t) :
    ({ P with data_direct := fun k => if k = 0 then P.data_direct 0 else P.data_direct k }
      : inode_t) = P := by
  cases P
  simp only [inode_t.mk.injEq, true_and, and_true]
  funext k
  by_cases hk : k = 0
  · rw [if_pos hk, hk]
  · rw [if_neg hk]

theorem set_fbm_block_zero (bs : block_store_t) (m : bitmap_t) :
    (bs.set_fbm m).blocks 0 = bs.blocks 0 := by
  funext o
  rw [set_fbm_blocks, if_neg (by omega)]

/-- What a successful `fs_create` did.  `D` is the entry block of the parent
(newly allocated when the parent was empty), `id` the new inode number, and
the slot taken is the first clear bit of the parent's entry map. -/
theorem fs_create_success (fs : FS_t) (path : List Nat) (type : Nat) (r : Int) (s : FS_t)
    (h : fs_create fs path type = (r, s)) (hr : r ≠ -1) :
    r = 0 ∧ ∃ t dir name P D bs1 id,
      (type = FS_REGULAR ∧ t = CHAR_r ∨ type = FS_DIRECTORY ∧ t = CHAR_d) ∧
      _dirname path = some dir ∧ _basename path = some name ∧ ¬ _get_inum fs dir < 0 ∧
      _inode_read fs (_get_inum fs dir).toNat = some P ∧ P.file_type = CHAR_d ∧
      P.data_direct 0 < 65536 ∧
      ((P.file_size = 0 ∧ bitmap_test fs.BlockStore_whole.fbm D = false ∧
          bs1 = fs.BlockStore_whole.set_fbm (bitmap_set fs.BlockStore_whole.fbm D).2) ∨
        (P.file_size ≠ 0 ∧ D = P.data_direct 0 ∧ bs1 = fs.BlockStore_whole)) ∧
      D < 65536 ∧
      id = bitmap_ffz fs.BlockStore_inode.fbm ∧ id < 256 ∧
      bitmap_test fs.BlockStore_inode.fbm id = false ∧
      bitmap_ffz (bitmap_overlay 16 (uint32_bytes P.dir_entry_map)) < 31 ∧
      s = ((({ fs with BlockStore_whole := bs1 } : FS_t).set_BlockStore_inode
              { fbm := (bitmap_set fs.BlockStore_inode.fbm id).2,
                records := fun i => if i = id then
                  { dir_entry_map := 0, file_type := t, inum := id, file_size := 0,
                    link_count := 1, data_direct := fun _ => 0, data_indirect := 0,
                    data_double_indirect := 0 }
                  else fs.inode_table i }).set_block D
              (dentry_store (fs.BlockStore_whole.blocks (P.data_direct 0))
                (bitmap_ffz (bitmap_overlay 16 (uint32_bytes P.dir_entry_map))) name id)).set_inode
            (_get_inum fs dir).toNat
            { P with
              data_direct := fun k => if k = 0 then D else P.data_direct k,
              dir_entry_map := uint32_of_bytes
                (bitmap_set (bitmap_overlay 16 (uint32_bytes P.dir_entry_map))
                  (bitmap_ffz (bitmap_overlay 16 (uint32_bytes P.dir_entry_map)))).2.data,
              file_size := (P.file_size + 1) % 2 ^ 64 } := by
  obtain ⟨t, dir, P, blk, map, ht, hdir, hge, hread, hload, h1⟩ :=
    fs_create_stage_success fs path type r s h hr
  obtain ⟨hty, hD0, hblk, hmap⟩ := _inode_dir_load_some fs P blk map hload
  subst hblk
  subst hmap
  have finish : ∀ (bs1 : block_store_t) (D : Nat) (b : Bool),
      bs1.blocks 0 = fs.BlockStore_whole.blocks 0 →
      fs_create_verify { fs with BlockStore_whole := bs1 } path t (_get_inum fs dir).toNat
        { P with data_direct := fun k => if k = 0 then D else P.data_direct k }
        (fs.BlockStore_whole.blocks (P.data_direct 0))
        (bitmap_overlay 16 (uint32_bytes P.dir_entry_map)) b = (r, s) →
      r = 0 ∧ ∃ name id, _basename path = some name ∧
        id = bitmap_ffz fs.BlockStore_inode.fbm ∧ id < 256 ∧
        bitmap_test fs.BlockStore_inode.fbm id = false ∧
        bitmap_ffz (bitmap_overlay 16 (uint32_bytes P.dir_entry_map)) < 31 ∧ D < 65536 ∧
        s = ((({ fs with BlockStore_whole := bs1 } : FS_t).set_BlockStore_inode
              { fbm := (bitmap_set fs.BlockStore_inode.fbm id).2,
                records := fun i => if i = id then
                  { dir_entry_map := 0, file_type := t, inum := id, file_size := 0,
                    link_count := 1, data_direct := fun _ => 0, data_indirect := 0,
                    data_double_indirect := 0 }
                  else fs.inode_table i }).set_block D
              (dentry_store (fs.BlockStore_whole.blocks (P.data_direct 0))
                (bitmap_ffz (bitmap_overlay 16 (uint32_bytes P.dir_entry_map))) name id)).set_inode
            (_get_inum fs dir).toNat
            { P with
              data_direct := fun k => if k = 0 then D else P.data_direct k,
              dir_entry_map := uint32_of_bytes
                (bitmap_set (bitmap_overlay 16 (uint32_bytes P.dir_entry_map))
                  (bitmap_ffz (bitmap_overlay 16 (uint32_bytes P.dir_entry_map)))).2.data,
              file_size := (P.file_size + 1) % 2 ^ 64 } := by
    intro bs1 D b hb0 hv
    obtain ⟨name, hname, hc⟩ := fs_create_verify_success _ _ _ _ _ _ _ _ _ _ hv hr
    obtain ⟨hr0, id, fs4, hid, hidlt, hidfree, hidx, hw4, hw5⟩ :=
      fs_create_commit_success _ _ _ _ _ _ _ _ _ _ hc hr
    have hfbm : ({ fs with BlockStore_whole := bs1 } : FS_t).BlockStore_inode.fbm
        = fs.BlockStore_inode.fbm := by
      unfold FS_t.BlockStore_inode
      dsimp only
      rw [hb0]
    rw [hfbm] at hid hidfree hw4
    obtain ⟨hDlt, e4⟩ := _BS_WRITE_some _ _ _ _ hw4
    obtain ⟨_, e5⟩ := _BS_INODE_WRITE_some_set _ _ _ _ hw5
    refine ⟨hr0, name, id, hname, hid, hidlt, hidfree, hidx, ?_, ?_⟩
    · have : (if (0 : Nat) = 0 then D else P.data_direct 0) < 65536 := hDlt
      rw [if_pos rfl] at this
      exact this
    · rw [e5, e4]
      rfl
  rcases fs_create_dentry_block_success fs path t _ P _ _ r s h1 hr with
    ⟨h0, D, bs1, hDlt, hfree, hbs1, hv⟩ | ⟨h0, hv⟩
  · obtain ⟨hr0, name, id, a1, a2, a3, a4, a5, a6, a7⟩ :=
      finish bs1 D true (by rw [hbs1]; exact set_fbm_block_zero _ _) hv
    exact ⟨hr0, t, dir, name, P, D, bs1, id, ht, hdir, a1, hge, hread, hty, hD0,
      Or.inl ⟨h0, hfree, hbs1⟩, a6, a2, a3, a4, a5, a7⟩
  · rw [← inode_data_direct_self P] at hv
    have hv2 : fs_create_verify { fs with BlockStore_whole := fs.BlockStore_whole } path t
        (_get_inum fs dir).toNat
        { P with data_direct := fun k => if k = 0 then P.data_direct 0 else P.data_direct k }
        (fs.BlockStore_whole.blocks (P.data_direct 0))
        (bitmap_overlay 16 (uint32_bytes P.dir_entry_map)) false = (r, s) := by
      rw [inode_data_direct_self P] at hv ⊢
      exact hv
    obtain ⟨hr0, name, id, a1, a2, a3, a4, a5, a6, a7⟩ :=
      finish fs.BlockStore_whole (P.data_direct 0) false rfl hv2
    exact ⟨hr0, t, dir, name, P, P.data_direct 0, fs.BlockStore_whole, id, ht, hdir, a1, hge,
      hread, hty, hD0, Or.inr ⟨h0, rfl, rfl⟩, a6, a2, a3, a4, a5, a7⟩

/-! ## The entry map and the entry block of a directory -/

theorem testBit_mod_256 (x j : Nat) (hj : j < 8) : (x % 256).testBit j = x.testBit j := by
  have h := Nat.testBit_mod_two_pow x 8 j
  rw [show (2 : Nat) ^ 8 = 256 from rfl] at h
  rw [h]
  simp only [hj, decide_True, Bool.true_and]

/-- Slot `i` is marked in the 16-bit overlay of `dir_entry_map` exactly when
bit `i` of `dir_entry_map` is set (`bitmap_test` checks no bound). -/
theorem dir_entry_map_test (m i : Nat) :
    bitmap_test (bitmap_overlay 16 (uint32_bytes m)) i = m.testBit i := by
  rw [bitmap_test_eq_testBit]
  show ((m >>> (8 * (i / 8))) % 256).testBit (i % 8) = _
  rw [testBit_mod_256 _ _ (Nat.mod_lt _ (by decide)), Nat.testBit_shiftRight]
  congr 1
  omega

theorem uint32_bytes_of_bytes (d : Nat → Nat) (k : Nat) (hk : k < 4) :
    uint32_bytes (uint32_of_bytes d) k = d k % 256 := by
  unfold uint32_bytes uint32_of_bytes
  rw [Nat.shiftRight_eq_div_pow]
  have h0 := Nat.mod_lt (d 0) (show 256 > 0 by decide)
  have h1 := Nat.mod_lt (d 1) (show 256 > 0 by decide)
  have h2 := Nat.mod_lt (d 2) (show 256 > 0 by decide)
  have h3 := Nat.mod_lt (d 3) (show 256 > 0 by decide)
  have hk4 : k = 0 ∨ k = 1 ∨ k = 2 ∨ k = 3 := by omega
  rcases hk4 with h | h | h | h <;> subst h <;> simp only [Nat.mul_zero, Nat.mul_one, Nat.pow_zero,
    Nat.div_one, Nat.reducePow, Nat.reduceMul] <;> omega

/-- The entry map after `fs_create` marks slot `idx`: that bit is added. -/
theorem dir_entry_map_test_set (m idx i : Nat) (hidx : idx < 16) (hi : i < 32) :
    (uint32_of_bytes (bitmap_set (bitmap_overlay 16 (uint32_bytes m)) idx).2.data).testBit i =
      (m.testBit i || decide (i = idx)) := by
  rw [← dir_entry_map_test (uint32_of_bytes _) i, bitmap_test_eq_testBit]
  show (uint32_bytes (uint32_of_bytes _) (i / 8)).testBit (i % 8) = _
  rw [uint32_bytes_of_bytes _ _ (by omega), testBit_mod_256 _ _ (Nat.mod_lt _ (by decide)),
    ← bitmap_test_eq_testBit, bitmap_test_set _ _ _ hidx, dir_entry_map_test]

theorem bitmap_ffz_overlay16_lt (m : Nat)
    (h : bitmap_ffz (bitmap_overlay 16 (uint32_bytes m)) < 31) :
    bitmap_ffz (bitmap_overlay 16 (uint32_bytes m)) < 16 ∧
      m.testBit (bitmap_ffz (bitmap_overlay 16 (uint32_bytes m))) = false := by
  have hne : bitmap_ffz (bitmap_overlay 16 (uint32_bytes m)) ≠ SIZE_MAX := by
    unfold SIZE_MAX
    omega
  obtain ⟨a, b⟩ := bitmap_ffz_clear _ hne
  rw [dir_entry_map_test] at a
  have hb : (bitmap_overlay 16 (uint32_bytes m)).byte_count = 2 := rfl
  rw [hb] at b
  exact ⟨by omega, a⟩

/-- The entry that `dentry_store` wrote in slot `i`. -/
theorem dentry_at_store_same (blk : block_t) (name : List Nat) (id i : Nat) :
    dentry_at (dentry_store blk i name id) i =
      { filename := strncpy name 32, inum := id % 256 % 256 } := by
  unfold dentry_at dentry_filename dentry_inum dentry_store
  simp only [directoryFile_t.mk.injEq]
  constructor
  · apply List.ext_getElem
    · simp [strncpy]
      omega
    · intro n h1 h2
      simp only [List.length_map, List.length_range] at h1
      simp only [List.getElem_map, List.getElem_range]
      rw [if_pos ⟨by omega, by omega⟩]
      have e : 33 * i + n - 33 * i = n := by omega
      rw [e]
      exact (List.getD_eq_getElem _ _ h2)
  · rw [if_neg (by omega), if_pos trivial]

/-- The entries that `dentry_store` left alone. -/
theorem dentry_at_store_other (blk : block_t) (idx : Nat) (name : List Nat) (id i : Nat)
    (h : i ≠ idx) : dentry_at (dentry_store blk idx name id) i = dentry_at blk i := by
  unfold dentry_at dentry_filename dentry_inum dentry_store
  simp only [directoryFile_t.mk.injEq]
  constructor
  · apply List.map_congr_left
    intro j hj
    have hj32 : j < 32 := List.mem_range.1 hj
    have hne : ¬ (33 * idx ≤ 33 * i + j ∧ 33 * i + j < 33 * idx + 32) := by omega
    have hne2 : ¬ (33 * i + j = 33 * idx + 32) := by omega
    rw [if_neg hne, if_neg hne2]
  · have hne : ¬ (33 * idx ≤ 33 * i + 32 ∧ 33 * i + 32 < 33 * idx + 32) := by omega
    have hne2 : ¬ (33 * i + 32 = 33 * idx + 32) := by omega
    rw [if_neg hne, if_neg hne2]

/-- Marking one more slot puts one more entry in the listing, in slot order. -/
theorem listing_insert {α : Type} (n idx : Nat) (hidx : idx < n) (p q : Nat → Bool)
    (f g : Nat → α) (e : α) (hp : p idx = false)
    (hq : ∀ i, i < n → q i = (p i || decide (i = idx)))
    (hg : ∀ i, i ≠ idx → g i = f i) (hge : g idx = e) :
    ∃ k, ((List.range n).filter q).map g =
      (((List.range n).filter p).map f).take k ++ e :: (((List.range n).filter p).map f).drop k := by
  have hsplit : List.range n =
      List.range' 0 idx ++ idx :: List.range' (idx + 1) (n - idx - 1) := by
    rw [List.range_eq_range']
    have e1 : n = idx + (n - idx) := by omega
    have e2 : List.range' 0 (idx + (n - idx)) =
        List.range' 0 idx ++ List.range' (0 + idx) (n - idx) := by
      rw [List.range'_append_1, Nat.add_comm]
    have e3 : n - idx = (n - idx - 1) + 1 := by omega
    rw [e1, e2, Nat.zero_add, e3, List.range'_succ]
    congr 3
    omega
  have hA : ∀ i ∈ List.range' 0 idx, q i = p i ∧ g i = f i := by
    intro i hi
    rw [List.mem_range'_1] at hi
    have hne : i ≠ idx := by omega
    refine ⟨?_, hg i hne⟩
    rw [hq i (by omega)]
    simp only [hne, decide_False, Bool.or_false]
  have hB : ∀ i ∈ List.range' (idx + 1) (n - idx - 1), q i = p i ∧ g i = f i := by
    intro i hi
    rw [List.mem_range'_1] at hi
    have hne : i ≠ idx := by omega
    refine ⟨?_, hg i hne⟩
    rw [hq i (by omega)]
    simp only [hne, decide_False, Bool.or_false]
  have hqi : q idx = true := by
    rw [hq idx hidx]
    simp only [decide_True, Bool.or_true]
  have fA : (List.range' 0 idx).filter q = (List.range' 0 idx).filter p :=
    List.filter_congr (fun i hi => (hA i hi).1)
  have fB : (List.range' (idx + 1) (n - idx - 1)).filter q =
      (List.range' (idx + 1) (n - idx - 1)).filter p :=
    List.filter_congr (fun i hi => (hB i hi).1)
  have mA : ((List.range' 0 idx).filter p).map g = ((List.range' 0 idx).filter p).map f :=
    List.map_congr_left (fun i hi => (hA i (List.mem_of_mem_filter hi)).2)
  have mB : ((List.range' (idx + 1) (n - idx - 1)).filter p).map g =
      ((List.range' (idx + 1) (n - idx - 1)).filter p).map f :=
    List.map_congr_left (fun i hi => (hB i (List.mem_of_mem_filter hi)).2)
  refine ⟨(((List.range' 0 idx).filter p).map f).length, ?_⟩
  rw [hsplit, List.filter_append, List.filter_append, List.filter_cons_of_pos hqi,
    List.filter_cons_of_neg (by rw [hp]; exact Bool.false_ne_true), fA, fB, List.map_append,
    List.map_append, List.map_cons, mA, mB, hge, List.take_left, List.drop_left]

/-! ## Directory listings -/

/-- The listing of a directory, read off its inode: the entries of the slots
marked in `dir_entry_map`, in slot order. -/
theorem dir_listing_of_inode (fs : FS_t) (inum : Nat) (P : inode_t)
    (h : _inode_read fs inum = some P) (ht : P.file_type = CHAR_d)
    (hd : P.data_direct 0 < 65536) :
    dir_listing fs inum =
      some (((List.range DIR_ENTRIES_PER_BLOCK).filter (fun i => P.dir_entry_map.testBit i)).map
        (dentry_at (fs.BlockStore_whole.blocks (P.data_direct 0)))) := by
  unfold dir_listing
  rw [h]
  dsimp only
  unfold _inode_dir_load block_store_read
  dsimp only
  rw [if_neg (by simpa using ht)]
  have hc : ¬ P.data_direct 0 ≥ BLOCK_STORE_NUM_BLOCKS := Nat.not_le.2 hd
  rw [if_neg hc]
  dsimp only
  have e : (fun i => bitmap_test (bitmap_overlay 16 (uint32_bytes P.dir_entry_map)) i)
      = (fun i => P.dir_entry_map.testBit i) := funext (fun i => dir_entry_map_test _ i)
  rw [e]
  rfl

theorem fs_get_dir_eq_listing (fs : FS_t) (path : List Nat) :
    fs_get_dir fs path =
      if ¬ PATH_OK path then none
      else if _get_inum fs path < 0 then none
      else dir_listing fs (_get_inum fs path).toNat := by
  unfold fs_get_dir dir_listing
  rfl

/-- The listing that `fs_get_dir` returns is that of the directory the path
resolves to. -/
theorem fs_get_dir_some_listing (fs : FS_t) (path : List Nat) (l : List directoryFile_t)
    (h : fs_get_dir fs path = some l) :
    ∃ P, path_resolves_to fs path P ∧ P.file_type = CHAR_d ∧
      l = ((List.range DIR_ENTRIES_PER_BLOCK).filter (fun i => P.dir_entry_map.testBit i)).map
        (dentry_at (fs.BlockStore_whole.blocks (P.data_direct 0))) := by
  obtain ⟨P, blk, map, hge, hread, hload, hl⟩ := fs_get_dir_some fs path l h
  obtain ⟨hty, hD0, _, _⟩ := _inode_dir_load_some fs P blk map hload
  refine ⟨P, ⟨by omega, hread⟩, hty, ?_⟩
  rw [fs_get_dir_eq_listing] at h
  split at h
  · exact Option.noConfusion h
  · rw [dir_listing_of_inode fs _ P hread hty hD0] at h
    exact (Option.some.inj h).symm

theorem create_state_inode_fbm (fs0 : FS_t) (F : bitmap_t) (tbl : Nat → inode_t) (D : Nat)
    (buf : block_t) (p : Nat) (P2 : inode_t) (hD : D ≠ 0) (hF1 : F.bit_count = 256)
    (hF2 : F.byte_count = 32) :
    (((fs0.set_BlockStore_inode { fbm := F, records := tbl }).set_block D buf).set_inode
      p P2).BlockStore_inode.fbm = F := by
  apply bitmap_t_ext
  · intro i
    show (if 0 = D then buf else (if 0 = 0 then F.data else fs0.BlockStore_whole.blocks 0)) i = _
    rw [if_neg (fun hc => hD hc.symm), if_pos rfl]
  · exact hF1.symm
  · exact hF2.symm

theorem create_state_block (fs0 : FS_t) (s : sub_store_t inode_t) (D : Nat)
    (buf : block_t) (p : Nat) (P2 : inode_t) :
    (((fs0.set_BlockStore_inode s).set_block D buf).set_inode p P2).BlockStore_whole.blocks D
      = buf := by
  show (if D = D then buf else _) = _
  rw [if_pos rfl]

theorem create_state_table (fs0 : FS_t) (s : sub_store_t inode_t) (D : Nat)
    (buf : block_t) (p : Nat) (P2 : inode_t) (i : Nat) :
    (((fs0.set_BlockStore_inode s).set_block D buf).set_inode p P2).inode_table i
      = if i = p then P2 else s.records i := rfl

/-- A successful `fs_create` adds one entry, the new name with the new inode
number, to the listing of the parent directory, and a directory it creates has
an empty listing. -/
theorem fs_create_listing (fs : FS_t) (path : List Nat) (type : Nat) (s : FS_t)
    (h0 : block_used fs.BlockStore_whole 0)
    (hdirs : ∀ i P, _inode_read fs i = some P → P.file_type = CHAR_d → P.file_size ≠ 0 →
      P.data_direct 0 ≠ 0)
    (h : fs_create fs path type = (0, s)) :
    ∃ dir name id l k, _dirname path = some dir ∧ _basename path = some name ∧
      0 ≤ _get_inum fs dir ∧ block_store_sub_test fs.BlockStore_inode id = false ∧
      dir_listing fs (_get_inum fs dir).toNat = some l ∧
      dir_listing s (_get_inum fs dir).toNat =
        some (l.take k ++ { filename := strncpy name 32, inum := id } :: l.drop k) ∧
      (type = FS_DIRECTORY → dir_listing s id = some []) := by
  obtain ⟨_, t, dir, name, P, D, bs1, id, ht, hdir, hname, hge, hread, hty, hD0, hcase, hDlt,
    hid, hidlt, hidfree, hidx, hs⟩ := fs_create_success fs path type 0 s h (by decide)
  obtain ⟨hplt, hptest, _⟩ := _inode_read_some fs _ P hread
  obtain ⟨hidx16, hidxclear⟩ := bitmap_ffz_overlay16_lt _ hidx
  have hDne : D ≠ 0 := by
    rcases hcase with ⟨_, hfree, _⟩ | ⟨hsz, hDeq, _⟩
    · intro hc
      rw [hc] at hfree
      unfold block_used at h0
      rw [h0] at hfree
      exact Bool.noConfusion hfree
    · rw [hDeq]
      exact hdirs _ P hread hty hsz
  have hpne : (_get_inum fs dir).toNat ≠ id := by
    intro hc
    rw [hc] at hptest
    have := (block_store_sub_test_true _ _ hptest).2
    rw [hidfree] at this
    exact Bool.noConfusion this
  have hcnt := bitmap_set_counts fs.BlockStore_inode.fbm id
  have hfbm := create_state_inode_fbm ({ fs with BlockStore_whole := bs1 } : FS_t)
    (bitmap_set fs.BlockStore_inode.fbm id).2
    (fun i => if i = id then
      { dir_entry_map := 0, file_type := t, inum := id, file_size := 0,
        link_count := 1, data_direct := fun _ => 0, data_indirect := 0,
        data_double_indirect := 0 }
      else fs.inode_table i) D
    (dentry_store (fs.BlockStore_whole.blocks (P.data_direct 0))
      (bitmap_ffz (bitmap_overlay 16 (uint32_bytes P.dir_entry_map))) name id)
    (_get_inum fs dir).toNat
    { P with
      data_direct := fun k => if k = 0 then D else P.data_direct k,
      dir_entry_map := uint32_of_bytes
        (bitmap_set (bitmap_overlay 16 (uint32_bytes P.dir_entry_map))
          (bitmap_ffz (bitmap_overlay 16 (uint32_bytes P.dir_entry_map)))).2.data,
      file_size := (P.file_size + 1) % 2 ^ 64 } hDne (by rw [hcnt.1]; rfl) (by rw [hcnt.2]; rfl)
  rw [← hs] at hfbm
  have htest : ∀ i, i < 256 → block_store_sub_test s.BlockStore_inode i =
      (bitmap_test fs.BlockStore_inode.fbm i || decide (i = id)) := by
    intro i hi
    unfold block_store_sub_test
    rw [hfbm, hcnt.1]
    have hc : ¬ i ≥ fs.BlockStore_inode.fbm.bit_count := Nat.not_le.2 hi
    rw [if_neg hc]
    exact bitmap_test_set _ _ _ (by show id < 256; exact hidlt)
  have hfree2 : block_store_sub_test fs.BlockStore_inode id = false := by
    unfold block_store_sub_test
    split
    · rfl
    · exact hidfree
  -- the parent after the call
  have hreadP : _inode_read s (_get_inum fs dir).toNat = some (s.inode_table (_get_inum fs dir).toNat) := by
    apply _inode_read_of_test s _ hplt
    rw [htest _ hplt, (block_store_sub_test_true _ _ hptest).2]
    rfl
  have htblP : s.inode_table (_get_inum fs dir).toNat =
      { P with
        data_direct := fun k => if k = 0 then D else P.data_direct k,
        dir_entry_map := uint32_of_bytes
          (bitmap_set (bitmap_overlay 16 (uint32_bytes P.dir_entry_map))
            (bitmap_ffz (bitmap_overlay 16 (uint32_bytes P.dir_entry_map)))).2.data,
        file_size := (P.file_size + 1) % 2 ^ 64 } := by
    rw [hs, create_state_table, if_pos rfl]
  have hblkD : s.BlockStore_whole.blocks D =
      dentry_store (fs.BlockStore_whole.blocks (P.data_direct 0))
        (bitmap_ffz (bitmap_overlay 16 (uint32_bytes P.dir_entry_map))) name id := by
    rw [hs, create_state_block]
  obtain ⟨P2, hP2⟩ : ∃ P2 : inode_t, P2 =
      { P with
        data_direct := fun k => if k = 0 then D else P.data_direct k,
        dir_entry_map := uint32_of_bytes
          (bitmap_set (bitmap_overlay 16 (uint32_bytes P.dir_entry_map))
            (bitmap_ffz (bitmap_overlay 16 (uint32_bytes P.dir_entry_map)))).2.data,
        file_size := (P.file_size + 1) % 2 ^ 64 } := ⟨_, rfl⟩
  rw [← hP2] at htblP
  rw [htblP] at hreadP
  have hP2ty : P2.file_type = CHAR_d := by rw [hP2]; exact hty
  have hP2D : P2.data_direct 0 = D := by
    rw [hP2]
    show (if (0 : Nat) = 0 then D else P.data_direct 0) = D
    rw [if_pos rfl]
  have hP2map : P2.dir_entry_map = uint32_of_bytes
      (bitmap_set (bitmap_overlay 16 (uint32_bytes P.dir_entry_map))
        (bitmap_ffz (bitmap_overlay 16 (uint32_bytes P.dir_entry_map)))).2.data := by rw [hP2]
  have hlist1 := dir_listing_of_inode fs _ P hread hty hD0
  have hlist2 := dir_listing_of_inode s _ P2 hreadP hP2ty (by rw [hP2D]; exact hDlt)
  rw [hP2D, hblkD, hP2map] at hlist2
  obtain ⟨k, hk⟩ := listing_insert DIR_ENTRIES_PER_BLOCK
    (bitmap_ffz (bitmap_overlay 16 (uint32_bytes P.dir_entry_map))) hidx
    (fun i => P.dir_entry_map.testBit i)
    (fun i => (uint32_of_bytes
          (bitmap_set (bitmap_overlay 16 (uint32_bytes P.dir_entry_map))
            (bitmap_ffz (bitmap_overlay 16 (uint32_bytes P.dir_entry_map)))).2.data).testBit i)
    (dentry_at (fs.BlockStore_whole.blocks (P.data_direct 0)))
    (dentry_at (dentry_store (fs.BlockStore_whole.blocks (P.data_direct 0))
        (bitmap_ffz (bitmap_overlay 16 (uint32_bytes P.dir_entry_map))) name id))
    { filename := strncpy name 32, inum := id }
    hidxclear
    (fun i hi => dir_entry_map_test_set _ _ i hidx16 (by show i < 32; have : i < 31 := hi; omega))
    (fun i hi => dentry_at_store_other _ _ _ _ i hi)
    (by rw [dentry_at_store_same, Nat.mod_mod, Nat.mod_eq_of_lt hidlt])
  rw [hk] at hlist2
  refine ⟨dir, name, id, _, k, hdir, hname, by omega, hfree2, hlist1, hlist2, ?_⟩
  intro hty2
  have htd : t = CHAR_d := by
    rcases ht with ⟨h1, _⟩ | ⟨_, h2⟩
    · rw [h1] at hty2
      exact absurd hty2 (by decide)
    · exact h2
  have hreadN : _inode_read s id = some (s.inode_table id) := by
    apply _inode_read_of_test s _ hidlt
    rw [htest _ hidlt]
    simp only [decide_True, Bool.or_true]
  obtain ⟨N, hN⟩ : ∃ N : inode_t, N =
      { dir_entry_map := 0, file_type := t, inum := id, file_size := 0,
        link_count := 1, data_direct := fun _ => 0, data_indirect := 0,
        data_double_indirect := 0 } := ⟨_, rfl⟩
  have htblN : s.inode_table id = N := by
    rw [hs, create_state_table, if_neg (fun hc => hpne hc.symm), hN]
    dsimp only
    rw [if_pos rfl]
  rw [htblN] at hreadN
  have hNty : N.file_type = CHAR_d := by rw [hN]; exact htd
  have hND : N.data_direct 0 = 0 := by rw [hN]
  have hNmap : N.dir_entry_map = 0 := by rw [hN]
  rw [dir_listing_of_inode s _ N hreadN hNty (by rw [hND]; decide), hNmap]
  have e : (fun i => Nat.testBit 0 i) = fun _ => false := funext (fun i => Nat.zero_testBit i)
  rw [e, List.filter_false, List.map_nil]

theorem fs_get_dir_of_resolved (fs : FS_t) (path : List Nat) (h : 0 ≤ _get_inum fs path) :
    fs_get_dir fs path = dir_listing fs (_get_inum fs path).toNat := by
  rw [fs_get_dir_eq_listing]
  have hok : PATH_OK path = true := by
    by_contra hc
    unfold _get_inum _split_path at h
    rw [if_pos hc] at h
    exact absurd h (show ¬ (0 : Int) ≤ -1 by decide)
  rw [if_neg (by simpa using hok), if_neg (by omega)]

/-- C13: when `fs_get_dir` succeeds the path resolves to a directory, and the
list is made of the entries whose slot is marked in the directory's
`dir_entry_map`, in increasing slot order.  A successful `fs_create` adds one
entry, for the new name and the new inode, to the listing of the parent, and a
directory it creates lists as empty; so does the root after `fs_format`. -/
theorem fs_get_dir_lists_marked_entries (fs : FS_t)
    (h0 : block_used fs.BlockStore_whole 0)
    (hdirs : ∀ i P, _inode_read fs i = some P → P.file_type = CHAR_d → P.file_size ≠ 0 →
      P.data_direct 0 ≠ 0) :
    (∀ path l, fs_get_dir fs path = some l →
      ∃ P, path_resolves_to fs path P ∧ P.file_type = CHAR_d ∧
        l = ((List.range DIR_ENTRIES_PER_BLOCK).filter (fun i => P.dir_entry_map.testBit i)).map
          (dentry_at (fs.BlockStore_whole.blocks (P.data_direct 0)))) ∧
    (∀ path, 0 ≤ _get_inum fs path →
      fs_get_dir fs path = dir_listing fs (_get_inum fs path).toNat) ∧
    (∀ path type s, fs_create fs path type = (0, s) →
      ∃ dir name id l k, _dirname path = some dir ∧ _basename path = some name ∧
        0 ≤ _get_inum fs dir ∧ block_store_sub_test fs.BlockStore_inode id = false ∧
        dir_listing fs (_get_inum fs dir).toNat = some l ∧
        dir_listing s (_get_inum fs dir).toNat =
          some (l.take k ++ { filename := strncpy name 32, inum := id } :: l.drop k) ∧
        (type = FS_DIRECTORY → dir_listing s id = some [])) ∧
    (∀ path s, fs_format path = some s → fs_get_dir s [SLASH] = some []) := by
  refine ⟨fs_get_dir_some_listing fs, fs_get_dir_of_resolved fs,
    fun path type s h => fs_create_listing fs path type s h0 hdirs h, ?_⟩
  intro path s h
  unfold fs_format at h
  split at h
  · rw [← Option.some.inj h]
    exact fs_format_state_get_dir
  · exact Option.noConfusion h

theorem fs_format_state_dirs_ok (i : Nat) (P : inode_t)
    (h : _inode_read fs_format_state i = some P) (_ht : P.file_type = CHAR_d)
    (hs : P.file_size ≠ 0) : P.data_direct 0 ≠ 0 := by
  exfalso
  obtain ⟨hi, htest, hP⟩ := _inode_read_some _ _ _ h
  rw [fs_format_state_inodes i hi] at htest
  have hi0 : i = 0 := by simpa using htest
  subst hi0
  have e : (fs_format_state.inode_table 0).file_size = 0 := by decide!
  rw [← hP] at e
  exact hs e

theorem fs_format_state_block_zero : block_used fs_format_state.BlockStore_whole 0 := by
  unfold block_used
  decide!

theorem fs_create_a_eq :
    fs_create fs_format_state (bytes "/a") FS_REGULAR = (0, fs_with_file_a) := by
  have hp : ∀ q : Int × FS_t, q.1 = 0 → q = (0, q.2) := by
    intro q hq
    cases q
    simp only at hq
    rw [hq]
  have e : fs_with_file_a = (fs_create fs_format_state (bytes "/a") FS_REGULAR).2 := by
    unfold fs_with_file_a
    rfl
  rw [e]
  exact hp _ (by decide!)

theorem fs_get_dir_lists_marked_entries_witness :
    block_used fs_format_state.BlockStore_whole 0 ∧
    ∃ dir name id l k, _dirname (bytes "/a") = some dir ∧ _basename (bytes "/a") = some name ∧
      0 ≤ _get_inum fs_format_state dir ∧
      block_store_sub_test fs_format_state.BlockStore_inode id = false ∧
      dir_listing fs_format_state (_get_inum fs_format_state dir).toNat = some l ∧
      dir_listing fs_with_file_a (_get_inum fs_format_state dir).toNat =
        some (l.take k ++ { filename := strncpy name 32, inum := id } :: l.drop k) ∧
      (FS_REGULAR = FS_DIRECTORY → dir_listing fs_with_file_a id = some []) :=
  ⟨fs_format_state_block_zero,
    (fs_get_dir_lists_marked_entries fs_format_state fs_format_state_block_zero
      fs_format_state_dirs_ok).2.2.1 (bytes "/a") FS_REGULAR fs_with_file_a fs_create_a_eq⟩

/-! ## The walker: from a cursor to the block that holds it -/

theorem ind_get_lt (b : block_t) (k : Nat) : ind_get b k < 65536 := by
  unfold ind_get
  have h0 := Nat.mod_lt (b (2 * k)) (show 256 > 0 by decide)
  have h1 := Nat.mod_lt (b (2 * k + 1)) (show 256 > 0 by decide)
  omega

theorem file_block_lt (bs : block_store_t) (inode : inode_t) (hp : inode_ptrs_ok inode)
    (k : Nat) : file_block bs inode k < 65536 := by
  unfold file_block
  split
  · rename_i h
    exact hp.1 k h
  · split
    · exact ind_get_lt _ _
    · exact ind_get_lt _ _

theorem block_store_read_of_lt (bs : block_store_t) (id : Nat) (h : id < 65536) :
    block_store_read bs id = some (bs.blocks id) := by
  unfold block_store_read
  have hc : ¬ id ≥ BLOCK_STORE_NUM_BLOCKS := Nat.not_le.2 h
  rw [if_neg hc]

/-- With the descriptor that `_fd_cursor_set` makes for an offset,
`_fd_data_block_read` loads block `off / 1024` of the file. -/
theorem _fd_data_block_read_at (fs : FS_t) (inode : inode_t) (fd fd1 : fileDescriptor_t)
    (off : Nat) (hp : inode_ptrs_ok inode) (h : _fd_cursor_set fd off = some fd1) :
    _fd_data_block_read fs inode fd1 =
      some (fs.BlockStore_whole.blocks (file_block fs.BlockStore_whole inode (off / 1024))) := by
  have hlt : off < 268965888 := by
    by_contra hc
    rw [_fd_cursor_set_none fd off (by omega)] at h
    exact Option.noConfusion h
  unfold _fd_data_block_read file_block
  by_cases h1 : off < 6144
  · rw [_fd_cursor_set_direct fd off h1] at h
    rw [← Option.some.inj h]
    dsimp only
    rw [if_pos rfl]
    have hk : off / 1024 < FD_DIRECT_MAX_PTRS := by show off / 1024 < 6; omega
    rw [if_pos hk]
    exact block_store_read_of_lt _ _ (hp.1 _ hk)
  · by_cases h2 : off < 530432
    · rw [_fd_cursor_set_indirect fd off (by omega) h2] at h
      rw [← Option.some.inj h]
      dsimp only
      rw [if_neg (by decide), if_pos rfl]
      have hk : ¬ off / 1024 < FD_DIRECT_MAX_PTRS := by show ¬ off / 1024 < 6; omega
      have hk2 : off / 1024 < FD_INDIRECT_MAX_PTRS := by show off / 1024 < 518; omega
      rw [if_neg hk, if_pos hk2, block_store_read_of_lt _ _ hp.2.1]
      dsimp only
      exact block_store_read_of_lt _ _ (ind_get_lt _ _)
    · rw [_fd_cursor_set_double fd off (by omega) hlt] at h
      rw [← Option.some.inj h]
      dsimp only
      rw [if_neg (by decide), if_neg (by decide), if_pos rfl]
      have hk : ¬ off / 1024 < FD_DIRECT_MAX_PTRS := by show ¬ off / 1024 < 6; omega
      have hk2 : ¬ off / 1024 < FD_INDIRECT_MAX_PTRS := by show ¬ off / 1024 < 518; omega
      rw [if_neg hk, if_neg hk2, block_store_read_of_lt _ _ hp.2.2]
      dsimp only
      rw [block_store_read_of_lt _ _ (ind_get_lt _ _)]
      dsimp only
      have e : (off / 1024 - 518) % BLOCK_PTRS_PER_BLOCK % 65536
          = (off / 1024 - FD_INDIRECT_MAX_PTRS) % BLOCK_PTRS_PER_BLOCK := by
        show (off / 1024 - 518) % 512 % 65536 = (off / 1024 - 518) % 512
        omega
      rw [e]
      exact block_store_read_of_lt _ _ (ind_get_lt _ _)

/-- With the descriptor that `_fd_cursor_set` makes for an offset,
`_fd_data_block_write` stores into block `off / 1024` of the file. -/
theorem _fd_data_block_write_at (fs : FS_t) (inode : inode_t) (fd fd1 : fileDescriptor_t)
    (off : Nat) (src : block_t) (hp : inode_ptrs_ok inode)
    (h : _fd_cursor_set fd off = some fd1) :
    _fd_data_block_write fs inode fd1 src =
      (true, fs.set_block (file_block fs.BlockStore_whole inode (off / 1024)) src) := by
  have hlt : off < 268965888 := by
    by_contra hc
    rw [_fd_cursor_set_none fd off (by omega)] at h
    exact Option.noConfusion h
  unfold _fd_data_block_write file_block
  by_cases h1 : off < 6144
  · rw [_fd_cursor_set_direct fd off h1] at h
    rw [← Option.some.inj h]
    dsimp only
    rw [if_pos rfl]
    have hk : off / 1024 < FD_DIRECT_MAX_PTRS := by show off / 1024 < 6; omega
    rw [if_pos hk, _BS_WRITE_of_lt _ _ _ (hp.1 _ hk)]
  · by_cases h2 : off < 530432
    · rw [_fd_cursor_set_indirect fd off (by omega) h2] at h
      rw [← Option.some.inj h]
      dsimp only
      rw [if_neg (by decide), if_pos rfl]
      have hk : ¬ off / 1024 < FD_DIRECT_MAX_PTRS := by show ¬ off / 1024 < 6; omega
      have hk2 : off / 1024 < FD_INDIRECT_MAX_PTRS := by show off / 1024 < 518; omega
      rw [if_neg hk, if_pos hk2, block_store_read_of_lt _ _ hp.2.1]
      dsimp only
      rw [_BS_WRITE_of_lt _ _ _ (ind_get_lt _ _)]
    · rw [_fd_cursor_set_double fd off (by omega) hlt] at h
      rw [← Option.some.inj h]
      dsimp only
      rw [if_neg (by decide), if_neg (by decide), if_pos rfl]
      have hk : ¬ off / 1024 < FD_DIRECT_MAX_PTRS := by show ¬ off / 1024 < 6; omega
      have hk2 : ¬ off / 1024 < FD_INDIRECT_MAX_PTRS := by show ¬ off / 1024 < 518; omega
      rw [if_neg hk, if_neg hk2, block_store_read_of_lt _ _ hp.2.2]
      dsimp only
      rw [block_store_read_of_lt _ _ (ind_get_lt _ _)]
      dsimp only
      have e : (off / 1024 - 518) % BLOCK_PTRS_PER_BLOCK % 65536
          = (off / 1024 - FD_INDIRECT_MAX_PTRS) % BLOCK_PTRS_PER_BLOCK := by
        show (off / 1024 - 518) % 512 % 65536 = (off / 1024 - 518) % 512
        omega
      rw [e, _BS_WRITE_of_lt _ _ _ (ind_get_lt _ _)]
      rfl

/-! ## `fs_read` -/

theorem _fd_cursor_set_congr (fd fd2 : fileDescriptor_t) (off : Nat) (h : fd.inum = fd2.inum) :
    _fd_cursor_set fd off = _fd_cursor_set fd2 off := by
  cases fd
  cases fd2
  simp only at h
  subst h
  rfl

theorem file_byte_in_block (bs : block_store_t) (inode : inode_t) (c d : Nat)
    (h : d < 1024 - c % 1024) :
    file_byte bs inode (c + d) = bs.blocks (file_block bs inode (c / 1024)) (c % 1024 + d) := by
  unfold file_byte
  have e1 : (c + d) / BLOCK_SIZE_BYTES = c / 1024 := by
    show (c + d) / 1024 = c / 1024
    omega
  have e2 : (c + d) % BLOCK_SIZE_BYTES = c % 1024 + d := by
    show (c + d) % 1024 = c % 1024 + d
    omega
  rw [e1, e2]

theorem read_chunk_dest (blk dest : block_t) (pos nr off j : Nat)
    (hfull : nr = 1024 → off = 0) :
    (if nr = BLOCK_SIZE_BYTES then
        fun j => if pos ≤ j ∧ j < pos + BLOCK_SIZE_BYTES then blk (j - pos) else dest j
      else fun j => if pos ≤ j ∧ j < pos + nr then blk (off + (j - pos)) else dest j) j
      = if pos ≤ j ∧ j < pos + nr then blk (off + (j - pos)) else dest j := by
  by_cases h : nr = BLOCK_SIZE_BYTES
  · rw [if_pos h]
    have h0 := hfull h
    subst h0
    rw [h]
    simp only [Nat.zero_add]
  · rw [if_neg h]

/-- The loop of `fs_read`, from a descriptor that is the decomposition of
`cursor`, with enough fuel: it ends, copies `rem` bytes of the file from
`cursor` on to `dest` from `pos` on, and leaves the descriptor at
`cursor + rem`. -/
theorem fs_read_loop_spec (fs : FS_t) (inode : inode_t) (hp : inode_ptrs_ok inode) :
    ∀ fuel fd cursor dest pos rem, rem ≤ fuel → _fd_cursor_set fd cursor = some fd →
      cursor + rem < 268965888 →
      ∃ fd1 out, fs_read_loop fs inode fuel fd cursor dest pos rem = some (some (fd1, out, 0)) ∧
        _fd_cursor_set fd (cursor + rem) = some fd1 ∧
        ∀ j, out j = if pos ≤ j ∧ j < pos + rem
          then file_byte fs.BlockStore_whole inode (cursor + (j - pos)) else dest j := by
  intro fuel
  induction fuel with
  | zero =>
    intro fd cursor dest pos rem hrem hcan _
    have h0 : rem = 0 := by omega
    subst h0
    refine ⟨fd, dest, ?_, hcan, ?_⟩
    · unfold fs_read_loop
      rw [if_neg (by decide)]
    · intro j
      rw [if_neg (by omega)]
  | succ fuel ih =>
    intro fd cursor dest pos rem hrem hcan hlt
    by_cases h0 : rem = 0
    · subst h0
      refine ⟨fd, dest, ?_, hcan, ?_⟩
      · unfold fs_read_loop
        rw [if_neg (by decide)]
      · intro j
        rw [if_neg (by omega)]
    · obtain ⟨fdc, hc1, _, _, hoff, _, _, _⟩ := _fd_cursor_set_spec fd cursor (by omega)
      rw [hcan] at hc1
      have efd : fd = fdc := Option.some.inj hc1
      subst efd
      have hnr : min rem ((BLOCK_SIZE_BYTES + 2 ^ 32 - fd.locate_offset) % 2 ^ 32)
          = min rem (1024 - cursor % 1024) := by
        rw [hoff]
        show min rem ((1024 + 4294967296 - cursor % 1024) % 4294967296) = _
        congr 1
        omega
      have hread := _fd_data_block_read_at fs inode fd fd cursor hp hcan
      obtain ⟨fd1, hs1, hin1, _, _, _, hcan1, _⟩ :=
        _fd_cursor_set_spec fd (cursor + min rem (1024 - cursor % 1024)) (by omega)
      unfold fs_read_loop
      rw [if_pos (by omega)]
      dsimp only
      rw [hread]
      dsimp only
      rw [hnr, hs1]
      dsimp only
      obtain ⟨fd2, out, hl, hs2, hout⟩ := ih fd1 (cursor + min rem (1024 - cursor % 1024))
        (if min rem (1024 - cursor % 1024) = BLOCK_SIZE_BYTES then
            fun j => if pos ≤ j ∧ j < pos + BLOCK_SIZE_BYTES then
              fs.BlockStore_whole.blocks (file_block fs.BlockStore_whole inode (cursor / 1024))
                (j - pos)
            else dest j
          else
            fun j => if pos ≤ j ∧ j < pos + min rem (1024 - cursor % 1024) then
              fs.BlockStore_whole.blocks (file_block fs.BlockStore_whole inode (cursor / 1024))
                (fd.locate_offset + (j - pos))
            else dest j)
        (pos + min rem (1024 - cursor % 1024)) (rem - min rem (1024 - cursor % 1024))
        (by omega) hcan1 (by omega)
      refine ⟨fd2, out, hl, ?_, ?_⟩
      · rw [_fd_cursor_set_congr fd fd1 _ hin1.symm]
        have e : cursor + rem = cursor + min rem (1024 - cursor % 1024)
            + (rem - min rem (1024 - cursor % 1024)) := by omega
        rw [e]
        exact hs2
      · intro j
        rw [hout j, read_chunk_dest _ _ _ _ _ _ (by rw [hoff]; omega)]
        by_cases hj1 : pos + min rem (1024 - cursor % 1024) ≤ j ∧
            j < pos + min rem (1024 - cursor % 1024) + (rem - min rem (1024 - cursor % 1024))
        · rw [if_pos hj1, if_pos ⟨by omega, by omega⟩]
          congr 1
          omega
        · rw [if_neg hj1]
          by_cases hj2 : pos ≤ j ∧ j < pos + min rem (1024 - cursor % 1024)
          · rw [if_pos hj2, if_pos ⟨hj2.1, by omega⟩,
              file_byte_in_block _ _ cursor (j - pos) (by omega), hoff]
          · rw [if_neg hj2, if_neg (by omega)]

/-- What `fs_read` does on an open descriptor that is the decomposition of its
cursor `c`, on a file of size `s` below the maximal size: it returns
`min n (s - c)`, copies that many bytes of the file from `c` on, and stores
the descriptor advanced by as much; blocks and inodes are untouched. -/
theorem fs_read_spec (fs : FS_t) (fdi : Int) (fd : fileDescriptor_t) (inode : inode_t)
    (dest : block_t) (n : Nat)
    (hfd : _fd_read fs fdi = some fd) (hino : _inode_read fs fd.inum = some inode)
    (hcan : _fd_cursor_set fd (_fd_cursor_get fd) = some fd)
    (hs : inode.file_size < 268965888) (hp : inode_ptrs_ok inode) :
    ∃ out fs1 fd1,
      fs_read fs fdi dest n =
        some (((min n (inode.file_size - _fd_cursor_get fd) : Nat) : Int), out, fs1) ∧
      _fd_read fs1 fdi = some fd1 ∧ fd1.inum = fd.inum ∧
      _fd_cursor_get fd1 = _fd_cursor_get fd + min n (inode.file_size - _fd_cursor_get fd) ∧
      _fd_cursor_set fd1 (_fd_cursor_get fd1) = some fd1 ∧
      fs1.BlockStore_whole = fs.BlockStore_whole ∧ fs1.inode_table = fs.inode_table ∧
      ∀ j, out j = if j < min n (inode.file_size - _fd_cursor_get fd)
        then file_byte fs.BlockStore_whole inode (_fd_cursor_get fd + j) else dest j := by
  obtain ⟨hr1, hr2, hr3, _⟩ := _fd_read_some fs fdi fd hfd
  obtain ⟨hclt, _, _, _⟩ := fd_canonical_spec fd hcan
  have hok : FD_OK fdi = true := by
    unfold FD_OK
    simp only [decide_eq_true_eq]
    exact ⟨hr1, hr2⟩
  unfold fs_read
  rw [if_neg (by simpa using hok), hfd]
  dsimp only
  rw [hino]
  dsimp only
  have hne : ¬ _fd_cursor_get fd = SIZE_MAX := by
    unfold SIZE_MAX
    omega
  rw [if_neg hne]
  by_cases hge : _fd_cursor_get fd ≥ inode.file_size
  · rw [if_pos hge]
    have hm : min n (inode.file_size - _fd_cursor_get fd) = 0 := by omega
    rw [hm]
    refine ⟨dest, fs, fd, rfl, hfd, rfl, rfl, hcan, rfl, rfl, ?_⟩
    intro j
    rw [if_neg (by omega)]
  · rw [if_neg hge]
    obtain ⟨fd1, out, hl, hs1, hout⟩ := fs_read_loop_spec fs inode hp
      (min n (inode.file_size - _fd_cursor_get fd)) fd (_fd_cursor_get fd) dest 0
      (min n (inode.file_size - _fd_cursor_get fd)) (Nat.le_refl _) hcan (by omega)
    obtain ⟨fd1b, hs1b, hin1, _, _, hget1, hcan1, _⟩ := _fd_cursor_set_spec fd
      (_fd_cursor_get fd + min n (inode.file_size - _fd_cursor_get fd)) (by omega)
    rw [hs1] at hs1b
    have e : fd1 = fd1b := Option.some.inj hs1b
    subst e
    rw [hl]
    dsimp only
    rw [_BS_FD_WRITE_of_test _ _ _ hr3]
    dsimp only
    refine ⟨out, fs.set_fd fdi.toNat fd1, fd1, ?_, _fd_read_set_fd fs fdi fd fd1 hfd, hin1,
      hget1, ?_, rfl, rfl, ?_⟩
    · rw [Nat.sub_zero]
      rfl
    · rw [hget1]
      exact hcan1
    · intro j
      rw [hout j]
      by_cases hj : j < min n (inode.file_size - _fd_cursor_get fd)
      · rw [if_pos ⟨Nat.zero_le _, by omega⟩, if_pos hj, Nat.sub_zero]
      · rw [if_neg (by omega), if_neg hj]

/-- C16: on an open descriptor with cursor `c` (the descriptor being the
decomposition of `c`) on a file of size `s`, `fs_read` of `n` bytes returns
`m = min n (s - c)`, which is 0 at or past the end of the file and never more
than `n`; `dst` receives the bytes `[c, c + m)` of the file in order and is
unchanged elsewhere; the stored descriptor has cursor `c + m`, not past the end
of the file; blocks and inodes are untouched. -/
theorem fs_read_returns_file_bytes (fs : FS_t) (fdi : Int) (fd : fileDescriptor_t)
    (inode : inode_t) (dest : block_t) (n : Nat)
    (hfd : _fd_read fs fdi = some fd) (hino : _inode_read fs fd.inum = some inode)
    (hcan : _fd_cursor_set fd (_fd_cursor_get fd) = some fd)
    (hs : inode.file_size < FD_DOUBLE_INDIRECT_MAX_OFF) (hp : inode_ptrs_ok inode) :
    ∃ out fs1 fd1,
      fs_read fs fdi dest n =
        some (((min n (inode.file_size - _fd_cursor_get fd) : Nat) : Int), out, fs1) ∧
      (∀ j, j < min n (inode.file_size - _fd_cursor_get fd) →
        out j = file_byte fs.BlockStore_whole inode (_fd_cursor_get fd + j)) ∧
      (∀ j, min n (inode.file_size - _fd_cursor_get fd) ≤ j → out j = dest j) ∧
      _fd_read fs1 fdi = some fd1 ∧
      _fd_cursor_get fd1 = _fd_cursor_get fd + min n (inode.file_size - _fd_cursor_get fd) ∧
      min n (inode.file_size - _fd_cursor_get fd) ≤ n ∧
      (inode.file_size ≤ _fd_cursor_get fd → min n (inode.file_size - _fd_cursor_get fd) = 0) ∧
      (_fd_cursor_get fd ≤ inode.file_size → _fd_cursor_get fd1 ≤ inode.file_size) ∧
      fs1.BlockStore_whole = fs.BlockStore_whole ∧ fs1.inode_table = fs.inode_table := by
  obtain ⟨out, fs1, fd1, h1, h2, _, h4, _, h6, h7, h8⟩ :=
    fs_read_spec fs fdi fd inode dest n hfd hino hcan hs hp
  refine ⟨out, fs1, fd1, h1, ?_, ?_, h2, h4, Nat.min_le_left _ _, ?_, ?_, h6, h7⟩
  · intro j hj
    rw [h8 j, if_pos hj]
  · intro j hj
    rw [h8 j, if_neg (by omega)]
  · intro h
    omega
  · intro h
    rw [h4]
    omega

theorem fs_hello_rewound_ptrs_ok : inode_ptrs_ok (fs_hello_rewound.inode_table 1) := by
  refine ⟨?_, by decide!, by decide!⟩
  have h : ∀ k, k < 6 → (fs_hello_rewound.inode_table 1).data_direct k < 65536 := by decide!
  exact h

theorem fs_hello_rewound_inode :
    _inode_read fs_hello_rewound (fs_hello_rewound.BlockStore_fd.records 0).inum =
      some (fs_hello_rewound.inode_table 1) := by
  have e : (fs_hello_rewound.BlockStore_fd.records 0).inum = 1 := by decide!
  rw [e]
  exact _inode_read_of_test fs_hello_rewound 1 (by decide) (by decide!)

theorem fs_read_returns_file_bytes_witness :
    ∃ out fs1 fd1,
      fs_read fs_hello_rewound 0 (fun _ => 0) 5 =
        some (((min 5 ((fs_hello_rewound.inode_table 1).file_size -
          _fd_cursor_get (fs_hello_rewound.BlockStore_fd.records 0)) : Nat) : Int), out, fs1) ∧
      (∀ j, j < min 5 ((fs_hello_rewound.inode_table 1).file_size -
          _fd_cursor_get (fs_hello_rewound.BlockStore_fd.records 0)) →
        out j = file_byte fs_hello_rewound.BlockStore_whole (fs_hello_rewound.inode_table 1)
          (_fd_cursor_get (fs_hello_rewound.BlockStore_fd.records 0) + j)) ∧
      (∀ j, min 5 ((fs_hello_rewound.inode_table 1).file_size -
          _fd_cursor_get (fs_hello_rewound.BlockStore_fd.records 0)) ≤ j →
        out j = (fun _ => 0) j) ∧
      _fd_read fs1 0 = some fd1 :=
  match fs_read_returns_file_bytes fs_hello_rewound 0 (fs_hello_rewound.BlockStore_fd.records 0)
      (fs_hello_rewound.inode_table 1) (fun _ => 0) 5 (by decide!) fs_hello_rewound_inode
      (by decide!) (by decide!) fs_hello_rewound_ptrs_ok with
  | ⟨out, fs1, fd1, a, b, c, d, _⟩ => ⟨out, fs1, fd1, a, b, c, d⟩

theorem fs_hello_rewound_facts :
    (fs_hello_rewound.inode_table 1).file_size = 5 ∧
    _fd_cursor_get (fs_hello_rewound.BlockStore_fd.records 0) = 0 ∧
    (List.range 5).map (file_byte fs_hello_rewound.BlockStore_whole
      (fs_hello_rewound.inode_table 1)) = bytes "hello" := by
  decide!

/-! ## The pointer tree: slots, and what keeps it sound -/

theorem ceil_blocks_eq (x : Nat) (h : x < 2 ^ 53) : ceil_blocks x = (x + 1023) / 1024 := by
  unfold ceil_blocks double_of_size_t
  rw [if_pos h]
  rfl

theorem ind_get_set_same (b : block_t) (k v : Nat) (hv : v < 65536) :
    ind_get (ind_set b k v) k = v := by
  unfold ind_get ind_set
  rw [if_pos rfl, if_neg (by omega), if_pos rfl]
  omega

theorem ind_get_set_other (b : block_t) (k v j : Nat) (h : j ≠ k) :
    ind_get (ind_set b k v) j = ind_get b j := by
  unfold ind_get ind_set
  rw [if_neg (by omega), if_neg (by omega), if_neg (by omega), if_neg (by omega)]

/-- The slots that come into use when a file grows from `nb` to `nb + 1`
blocks. -/
theorem new_slot_cases (nb : Nat) (s : tree_slot) (h1 : slot_live (nb + 1) s)
    (h0 : ¬ slot_live nb s) :
    s = tree_slot.data nb ∨ (s = tree_slot.ind ∧ nb = 6) ∨ (s = tree_slot.dbl ∧ nb = 518) ∨
      ∃ j, s = tree_slot.ind2 j ∧ nb = 518 + 512 * j := by
  cases s with
  | data k =>
    left
    unfold slot_live at h1 h0
    have : k = nb := by omega
    rw [this]
  | ind =>
    right; left
    unfold slot_live at h1 h0
    exact ⟨rfl, by omega⟩
  | dbl =>
    right; right; left
    unfold slot_live at h1 h0
    exact ⟨rfl, by omega⟩
  | ind2 j =>
    right; right; right
    unfold slot_live at h1 h0
    exact ⟨j, rfl, by omega⟩

theorem slot_live_mono (nb : Nat) (s : tree_slot) (h : slot_live nb s) : slot_live (nb + 1) s := by
  cases s <;> unfold slot_live at h ⊢ <;> omega

/-- The tree stays sound when the slots in use keep their blocks and no block
in use is released. -/
theorem tree_ok_same (bs bs1 : block_store_t) (inode inode1 : inode_t) (nb : Nat)
    (h : tree_ok bs inode nb)
    (hold : ∀ s, slot_live nb s → slot_block bs1 inode1 s = slot_block bs inode s)
    (hmono : ∀ b, b < 65536 → block_used bs b → block_used bs1 b) :
    tree_ok bs1 inode1 nb := by
  constructor
  · intro s hs
    rw [hold s hs]
    obtain ⟨a, b, c⟩ := h.range s hs
    exact ⟨a, b, hmono _ (by omega) c⟩
  · intro s s2 hs hs2 he
    rw [hold s hs, hold s2 hs2] at he
    exact h.inj s s2 hs hs2 he

/-- The tree of a file that grows by one block stays sound when the slots in
use keep their blocks, no block in use is released, and the slots that come
into use hold distinct blocks that were free. -/
theorem tree_ok_extend (bs bs1 : block_store_t) (inode inode1 : inode_t) (nb : Nat)
    (h : tree_ok bs inode nb)
    (hold : ∀ s, slot_live nb s → slot_block bs1 inode1 s = slot_block bs inode s)
    (hmono : ∀ b, b < 65536 → block_used bs b → block_used bs1 b)
    (hnew : ∀ s, slot_live (nb + 1) s → ¬ slot_live nb s →
      0 < slot_block bs1 inode1 s ∧ slot_block bs1 inode1 s < 65528 ∧
        block_used bs1 (slot_block bs1 inode1 s) ∧ ¬ block_used bs (slot_block bs1 inode1 s))
    (hdist : ∀ s s2, slot_live (nb + 1) s → ¬ slot_live nb s → slot_live (nb + 1) s2 →
      ¬ slot_live nb s2 → slot_block bs1 inode1 s = slot_block bs1 inode1 s2 → s = s2) :
    tree_ok bs1 inode1 (nb + 1) := by
  constructor
  · intro s hs
    by_cases h0 : slot_live nb s
    · rw [hold s h0]
      obtain ⟨a, b, c⟩ := h.range s h0
      exact ⟨a, b, hmono _ (by omega) c⟩
    · obtain ⟨a, b, c, _⟩ := hnew s hs h0
      exact ⟨a, b, c⟩
  · intro s s2 hs hs2 he
    by_cases h0 : slot_live nb s
    · by_cases h2 : slot_live nb s2
      · rw [hold s h0, hold s2 h2] at he
        exact h.inj s s2 h0 h2 he
      · exfalso
        rw [hold s h0] at he
        have := (hnew s2 hs2 h2).2.2.2
        rw [← he] at this
        exact this (h.range s h0).2.2
    · by_cases h2 : slot_live nb s2
      · exfalso
        rw [hold s2 h2] at he
        have := (hnew s hs h0).2.2.2
        rw [he] at this
        exact this (h.range s2 h2).2.2
      · exact hdist s s2 hs h0 hs2 h2 he

/-- A cell of a pointer block in use reads as before, when the only block in
use that changed is `W`, in its cell `cell`, and that cell is not the one
read. -/
theorem read_live_cell (bs bs1 : block_store_t) (inode : inode_t) (nb W cell v : Nat)
    (h : tree_ok bs inode nb)
    (hblocks : ∀ b, 0 < b → b < 65528 → block_used bs b →
      bs1.blocks b = if b = W then ind_set (bs.blocks W) cell v else bs.blocks b)
    (s : tree_slot) (hs : slot_live nb s) (c : Nat)
    (hc : slot_block bs inode s = W → c ≠ cell) :
    ind_get (bs1.blocks (slot_block bs inode s)) c = ind_get (bs.blocks (slot_block bs inode s)) c := by
  obtain ⟨a1, a2, a3⟩ := h.range s hs
  rw [hblocks _ a1 a2 a3]
  by_cases hw : slot_block bs inode s = W
  · rw [if_pos hw, ind_get_set_other _ _ _ _ (hc hw), hw]
  · rw [if_neg hw]

/-- The slots in use keep their blocks when the pointers of the inode that are
in use stay, and the only block in use that changes is a pointer block, in a
cell beyond the cells in use. -/
theorem hold_cell_write (bs bs1 : block_store_t) (inode inode1 : inode_t) (nb W cell v : Nat)
    (h : tree_ok bs inode nb)
    (hblocks : ∀ b, 0 < b → b < 65528 → block_used bs b →
      bs1.blocks b = if b = W then ind_set (bs.blocks W) cell v else bs.blocks b)
    (hdir : ∀ k, k < 6 → k < nb → inode1.data_direct k = inode.data_direct k)
    (hind : 6 < nb → inode1.data_indirect = inode.data_indirect)
    (hdbl : 518 < nb → inode1.data_double_indirect = inode.data_double_indirect)
    (hcell : ∀ sB, slot_live nb sB → slot_block bs inode sB = W →
      (sB = tree_slot.ind ∧ nb - 6 ≤ cell) ∨ (sB = tree_slot.dbl ∧ nb ≤ 518 + 512 * cell) ∨
        ∃ j1, sB = tree_slot.ind2 j1 ∧ nb ≤ 518 + 512 * j1 + cell) :
    ∀ s, slot_live nb s → slot_block bs1 inode1 s = slot_block bs inode s := by
  have hI : ∀ c, 6 < nb → c + 6 < nb →
      ind_get (bs1.blocks inode.data_indirect) c = ind_get (bs.blocks inode.data_indirect) c := by
    intro c h6 hc
    refine read_live_cell bs bs1 inode nb W cell v h hblocks tree_slot.ind h6 c ?_
    intro hw
    rcases hcell tree_slot.ind h6 hw with ⟨_, h1⟩ | ⟨h1, _⟩ | ⟨j1, h1, _⟩
    · omega
    · exact tree_slot.noConfusion h1
    · exact tree_slot.noConfusion h1
  have hDB : ∀ j, 518 + 512 * j < nb →
      ind_get (bs1.blocks inode.data_double_indirect) j =
        ind_get (bs.blocks inode.data_double_indirect) j := by
    intro j hj
    refine read_live_cell bs bs1 inode nb W cell v h hblocks tree_slot.dbl
      (by show 518 < nb; omega) j ?_
    intro hw
    rcases hcell tree_slot.dbl (by show 518 < nb; omega) hw with ⟨h1, _⟩ | ⟨_, h1⟩ | ⟨j1, h1, _⟩
    · exact tree_slot.noConfusion h1
    · omega
    · exact tree_slot.noConfusion h1
  have hB : ∀ j c, 518 + 512 * j + c < nb →
      ind_get (bs1.blocks (ind_get (bs.blocks inode.data_double_indirect) j)) c =
        ind_get (bs.blocks (ind_get (bs.blocks inode.data_double_indirect) j)) c := by
    intro j c hj
    refine read_live_cell bs bs1 inode nb W cell v h hblocks (tree_slot.ind2 j)
      (by show 518 + 512 * j < nb; omega) c ?_
    intro hw
    rcases hcell (tree_slot.ind2 j) (by show 518 + 512 * j < nb; omega) hw with
      ⟨h1, _⟩ | ⟨h1, _⟩ | ⟨j1, h1, h2⟩
    · exact tree_slot.noConfusion h1
    · exact tree_slot.noConfusion h1
    · have : j = j1 := tree_slot.ind2.inj h1
      omega
  intro s hs
  cases s with
  | data k =>
    have hk : k < nb := hs
    show file_block bs1 inode1 k = file_block bs inode k
    unfold file_block
    by_cases h1 : k < 6
    · have h1a : k < FD_DIRECT_MAX_PTRS := h1
      rw [if_pos h1a, if_pos h1a]
      exact hdir k h1 hk
    · have h1a : ¬ k < FD_DIRECT_MAX_PTRS := h1
      rw [if_neg h1a, if_neg h1a]
      by_cases h2 : k < 518
      · have h2a : k < FD_INDIRECT_MAX_PTRS := h2
        rw [if_pos h2a, if_pos h2a, hind (by omega)]
        exact hI _ (by omega) (by show k - 6 + 6 < nb; omega)
      · have h2a : ¬ k < FD_INDIRECT_MAX_PTRS := h2
        rw [if_neg h2a, if_neg h2a, hdbl (by omega)]
        have e1 : (k - FD_INDIRECT_MAX_PTRS) / BLOCK_PTRS_PER_BLOCK = (k - 518) / 512 := rfl
        have e2 : (k - FD_INDIRECT_MAX_PTRS) % BLOCK_PTRS_PER_BLOCK = (k - 518) % 512 := rfl
        rw [e1, e2, hDB _ (by omega)]
        exact hB _ _ (by omega)
  | ind =>
    exact hind hs
  | dbl =>
    exact hdbl hs
  | ind2 j =>
    have hj : 518 + 512 * j < nb := hs
    show ind_get (bs1.blocks inode1.data_double_indirect) j =
      ind_get (bs.blocks inode.data_double_indirect) j
    rw [hdbl (by omega)]
    exact hDB j hj

/-! ## Allocation, release and block writes, seen through `block_used` -/

theorem set_block_whole (fs : FS_t) (W : Nat) (c : block_t) :
    (fs.set_block W c).BlockStore_whole = fs.BlockStore_whole.put W c := rfl

theorem put_blocks (bs : block_store_t) (W : Nat) (c : block_t) (b : Nat) :
    (bs.put W c).blocks b = if b = W then c else bs.blocks b := rfl

theorem block_used_put (bs : block_store_t) (W : Nat) (c : block_t) (hW : W < 65528) (i : Nat) :
    block_used (bs.put W c) i ↔ block_used bs i := by
  unfold block_used
  rw [fbm_test_congr (bs.put W c) bs (fun k hk => by rw [put_blocks, if_neg (by omega)]) i]

/-- What a successful allocation does, in terms of the blocks in use. -/
theorem block_store_allocate_used (bs bs1 : block_store_t) (id : Nat)
    (h : block_store_allocate bs = (id, bs1)) (hid : id ≠ SIZE_MAX) :
    id < 65536 ∧ ¬ block_used bs id ∧
      (∀ i, i < 65536 → (block_used bs1 i ↔ block_used bs i ∨ i = id)) ∧
      (∀ b, b < 65528 → bs1.blocks b = bs.blocks b) := by
  obtain ⟨a, b, c, d⟩ := block_store_allocate_some bs bs1 id h hid
  refine ⟨a, ?_, ?_, ?_⟩
  · unfold block_used
    rw [b]
    exact Bool.false_ne_true
  · intro i hi
    unfold block_used
    rw [d i hi]
    simp only [Bool.or_eq_true, decide_eq_true_eq]
  · intro k hk
    rw [c]
    funext o
    rw [set_fbm_blocks, if_neg (by omega)]

/-- A block that `block_store_allocate` returns, in a store whose reserved
blocks are marked, is a data block. -/
theorem allocated_in_range (bs : block_store_t) (id : Nat) (hres : reserved_used bs)
    (hlt : id < 65536) (hfree : ¬ block_used bs id) : 0 < id ∧ id < 65528 := by
  constructor
  · by_contra hc
    have : id = 0 := by omega
    rw [this] at hfree
    exact hfree hres.1
  · by_contra hc
    have := hres.2 (id - 65528) (by omega)
    rw [show 65528 + (id - 65528) = id by omega] at this
    exact hfree this

/-- What `block_store_release` does, in terms of the blocks in use. -/
theorem block_store_release_used (bs : block_store_t) (id : Nat) (hid : id < 65536) :
    (∀ i, i < 65536 → (block_used (block_store_release bs id) i ↔ block_used bs i ∧ i ≠ id)) ∧
      (∀ b, b < 65528 → (block_store_release bs id).blocks b = bs.blocks b) := by
  unfold block_store_release
  have hc : ¬ id ≥ BLOCK_STORE_NUM_BLOCKS := Nat.not_le.2 hid
  rw [if_neg hc]
  constructor
  · intro i hi
    unfold block_used
    rw [fbm_test_after_reset bs id i hid hi]
    simp only [Bool.and_eq_true, Bool.not_eq_true', decide_eq_false_iff_not]
  · intro k hk
    funext o
    rw [set_fbm_blocks, if_neg (by omega)]

theorem reserved_used_mono (bs bs1 : block_store_t) (h : reserved_used bs)
    (hmono : ∀ b, b < 65536 → block_used bs b → block_used bs1 b) : reserved_used bs1 :=
  ⟨hmono 0 (by decide) h.1, fun k hk => hmono _ (by omega) (h.2 k hk)⟩

/-! ## `_inode_add_owned_block`, branch by branch -/

theorem append_frame_of (fs : FS_t) (inode : inode_t) (nb : Nat) (fs1 : FS_t) (inode1 : inode_t)
    (W cell v : Nat) (h : tree_ok fs.BlockStore_whole inode nb)
    (hblocks : ∀ b, 0 < b → b < 65528 → block_used fs.BlockStore_whole b →
      fs1.BlockStore_whole.blocks b =
        if b = W then ind_set (fs.BlockStore_whole.blocks W) cell v
        else fs.BlockStore_whole.blocks b)
    (hdir : ∀ k, k < 6 → k < nb → inode1.data_direct k = inode.data_direct k)
    (hind : 6 < nb → inode1.data_indirect = inode.data_indirect)
    (hdbl : 518 < nb → inode1.data_double_indirect = inode.data_double_indirect)
    (hcell : ∀ sB, slot_live nb sB → slot_block fs.BlockStore_whole inode sB = W →
      (sB = tree_slot.ind ∧ nb - 6 ≤ cell) ∨ (sB = tree_slot.dbl ∧ nb ≤ 518 + 512 * cell) ∨
        ∃ j1, sB = tree_slot.ind2 j1 ∧ nb ≤ 518 + 512 * j1 + cell)
    (size_eq : inode1.file_size = inode.file_size) (inum_eq : inode1.inum = inode.inum)
    (ptrs : inode_ptrs_ok inode1)
    (mono : ∀ b, b < 65536 → block_used fs.BlockStore_whole b →
      block_used fs1.BlockStore_whole b)
    (block0 : fs1.BlockStore_whole.blocks 0 = fs.BlockStore_whole.blocks 0)
    (fd_same : fs1.BlockStore_fd = fs.BlockStore_fd)
    (inodes_other : ∀ i, i ≠ inode.inum → fs1.inode_table i = fs.inode_table i)
    (hW : W = 0 ∨ ∃ s, slot_live nb s ∧ slot_block fs.BlockStore_whole inode s = W)
    (hmeta : inode1.file_type = inode.file_type ∧ inode1.dir_entry_map = inode.dir_entry_map ∧
      inode1.link_count = inode.link_count) :
    append_frame fs inode nb fs1 inode1 := by
  refine ⟨size_eq, inum_eq, ptrs, mono, block0, fd_same, inodes_other,
    hold_cell_write _ _ inode inode1 nb W cell v h hblocks hdir hind hdbl hcell, ?_, ?_, hmeta⟩
  swap
  · intro b hb0 hb hu hno
    rw [hblocks b hb0 hb hu, if_neg]
    intro hc
    rcases hW with h0 | ⟨s, hs, hw⟩
    · omega
    · exact hno s hs (by rw [hw, hc])
  intro k hk
  have hs : slot_live nb (tree_slot.data k) := hk
  obtain ⟨a1, a2, a3⟩ := h.range _ hs
  have hb := hblocks _ a1 a2 a3
  have e : slot_block fs.BlockStore_whole inode (tree_slot.data k)
      = file_block fs.BlockStore_whole inode k := rfl
  rw [e] at hb
  rw [hb, if_neg]
  intro hw
  rcases hcell _ hs hw with ⟨h1, _⟩ | ⟨h1, _⟩ | ⟨j1, h1, _⟩
  · exact tree_slot.noConfusion h1
  · exact tree_slot.noConfusion h1
  · exact tree_slot.noConfusion h1

theorem _inode_add_owned_block_ind_eq (fs : FS_t) (inode : inode_t) (index a b : Nat)
    (h : inode.data_indirect < 65536) :
    _inode_add_owned_block_ind fs inode index a b =
      ((b : Int), fs.set_block inode.data_indirect
        (ind_set (fs.BlockStore_whole.blocks inode.data_indirect) index b), inode) := by
  unfold _inode_add_owned_block_ind
  rw [block_store_read_of_lt _ _ h]
  dsimp only
  rw [_BS_WRITE_of_lt _ _ _ h]

theorem _inode_add_owned_block_dbl2_eq (fs : FS_t) (inode : inode_t) (blk : block_t)
    (i1 i2 a b c : Nat) :
    _inode_add_owned_block_dbl2 fs inode blk i1 i2 a b c =
      ((c : Int), fs.set_block (ind_get blk i1)
        (ind_set (fs.BlockStore_whole.blocks (ind_get blk i1)) i2 c), inode) := by
  unfold _inode_add_owned_block_dbl2
  rw [block_store_read_of_lt _ _ (ind_get_lt _ _)]
  dsimp only
  rw [_BS_WRITE_of_lt _ _ _ (ind_get_lt _ _)]

/-- The outcomes of the double-indirect branch, from the read of the
double-indirect block on. -/
theorem _inode_add_owned_block_dbl1_eq (fs : FS_t) (inode : inode_t) (index a c : Nat)
    (h : inode.data_double_indirect < 65536) :
    (index % 512 ≠ 0 ∧
      _inode_add_owned_block_dbl1 fs inode index a c =
        ((c : Int), fs.set_block
          (ind_get (fs.BlockStore_whole.blocks inode.data_double_indirect) (index / 512))
          (ind_set (fs.BlockStore_whole.blocks
            (ind_get (fs.BlockStore_whole.blocks inode.data_double_indirect) (index / 512)))
            (index % 512) c), inode)) ∨
    (index % 512 = 0 ∧ block_store_allocate fs.BlockStore_whole = (SIZE_MAX, fs.BlockStore_whole) ∧
      _inode_add_owned_block_dbl1 fs inode index a c =
        _inode_add_owned_block_err2 (-2) fs inode a SIZE_MAX c) ∨
    (index % 512 = 0 ∧ ∃ ni bs1, ni ≠ SIZE_MAX ∧
      block_store_allocate fs.BlockStore_whole = (ni, bs1) ∧
      _inode_add_owned_block_dbl1 fs inode index a c =
        ((c : Int),
          (({ fs with BlockStore_whole := bs1 } : FS_t).set_block inode.data_double_indirect
            (ind_set (fs.BlockStore_whole.blocks inode.data_double_indirect) (index / 512)
              ni)).set_block ni
            (ind_set ((bs1.put inode.data_double_indirect
                (ind_set (fs.BlockStore_whole.blocks inode.data_double_indirect) (index / 512)
                  ni)).blocks ni) 0 c),
          inode)) := by
  unfold _inode_add_owned_block_dbl1
  rw [block_store_read_of_lt _ _ h]
  dsimp only
  by_cases h0 : index % BLOCK_PTRS_PER_BLOCK = 0
  · right
    rw [if_pos h0]
    cases hal : block_store_allocate fs.BlockStore_whole with
    | mk ni bs1 =>
      dsimp only
      by_cases hni : ni = SIZE_MAX
      · left
        rw [if_pos hni]
        subst hni
        have e := block_store_allocate_none _ _ hal
        subst e
        exact ⟨h0, rfl, rfl⟩
      · right
        rw [if_neg hni]
        obtain ⟨hlt, _, _, _⟩ := block_store_allocate_used _ _ _ hal hni
        refine ⟨h0, ni, bs1, hni, rfl, ?_⟩
        rw [_BS_WRITE_of_lt _ _ _ h]
        dsimp only
        rw [_inode_add_owned_block_dbl2_eq, ind_get_set_same _ _ _ hlt, h0]
        rfl
  · left
    rw [if_neg h0]
    refine ⟨h0, ?_⟩
    rw [_inode_add_owned_block_dbl2_eq]

theorem slot_block_pos (bs : block_store_t) (inode : inode_t) (nb : Nat)
    (h : tree_ok bs inode nb) (s : tree_slot) (hs : slot_live nb s) :
    slot_block bs inode s ≠ 0 := by
  have := (h.range s hs).1
  omega

/-- The frame of an outcome that wrote no block in use: allocations,
releases and writes of blocks that were free. -/
theorem append_frame_fresh (fs : FS_t) (inode : inode_t) (nb : Nat) (fs1 : FS_t)
    (inode1 : inode_t) (h : tree_ok fs.BlockStore_whole inode nb)
    (hblocks : ∀ b, b < 65528 → block_used fs.BlockStore_whole b →
      fs1.BlockStore_whole.blocks b = fs.BlockStore_whole.blocks b)
    (hres : reserved_used fs.BlockStore_whole)
    (hdir : ∀ k, k < 6 → k < nb → inode1.data_direct k = inode.data_direct k)
    (hind : 6 < nb → inode1.data_indirect = inode.data_indirect)
    (hdbl : 518 < nb → inode1.data_double_indirect = inode.data_double_indirect)
    (size_eq : inode1.file_size = inode.file_size) (inum_eq : inode1.inum = inode.inum)
    (ptrs : inode_ptrs_ok inode1)
    (mono : ∀ b, b < 65536 → block_used fs.BlockStore_whole b →
      block_used fs1.BlockStore_whole b)
    (fd_same : fs1.BlockStore_fd = fs.BlockStore_fd)
    (inodes_other : ∀ i, i ≠ inode.inum → fs1.inode_table i = fs.inode_table i)
    (hmeta : inode1.file_type = inode.file_type ∧ inode1.dir_entry_map = inode.dir_entry_map ∧
      inode1.link_count = inode.link_count) :
    append_frame fs inode nb fs1 inode1 := by
  refine append_frame_of fs inode nb fs1 inode1 0 0 0 h ?_ hdir hind hdbl ?_ size_eq inum_eq ptrs
    mono (hblocks 0 (by decide) hres.1) fd_same inodes_other (Or.inl rfl) hmeta
  · intro b hb0 hb hu
    rw [if_neg (by omega)]
    exact hblocks b hb hu
  · intro sB hs hw
    exact absurd hw (slot_block_pos _ _ _ h sB hs)

/-- From the frame to the sound tree of the longer file: the slots that come
into use hold distinct blocks, free before and in use now. -/
theorem append_finish (fs : FS_t) (inode : inode_t) (nb : Nat) (fs1 : FS_t) (inode1 : inode_t)
    (h : tree_ok fs.BlockStore_whole inode nb) (hres : reserved_used fs.BlockStore_whole)
    (hf : append_frame fs inode nb fs1 inode1)
    (hnew : ∀ s, slot_live (nb + 1) s → ¬ slot_live nb s →
      slot_block fs1.BlockStore_whole inode1 s < 65536 ∧
        block_used fs1.BlockStore_whole (slot_block fs1.BlockStore_whole inode1 s) ∧
        ¬ block_used fs.BlockStore_whole (slot_block fs1.BlockStore_whole inode1 s))
    (hdist : ∀ s s2, slot_live (nb + 1) s → ¬ slot_live nb s → slot_live (nb + 1) s2 →
      ¬ slot_live nb s2 →
      slot_block fs1.BlockStore_whole inode1 s = slot_block fs1.BlockStore_whole inode1 s2 →
      s = s2)
    (hexact : ∀ b, b < 65536 → block_used fs1.BlockStore_whole b →
      block_used fs.BlockStore_whole b ∨
        ∃ s, slot_live (nb + 1) s ∧ ¬ slot_live nb s ∧
          slot_block fs1.BlockStore_whole inode1 s = b) :
    grown_ok fs.BlockStore_whole nb fs1.BlockStore_whole inode1 := by
  have hiff : ∀ b, b < 65536 → (block_used fs1.BlockStore_whole b ↔
      block_used fs.BlockStore_whole b ∨
        ∃ s, slot_live (nb + 1) s ∧ ¬ slot_live nb s ∧
          slot_block fs1.BlockStore_whole inode1 s = b) := by
    intro b hb
    refine ⟨hexact b hb, ?_⟩
    intro hc
    rcases hc with hu | ⟨s, hs, h0, he⟩
    · exact hf.mono b hb hu
    · rw [← he]
      exact (hnew s hs h0).2.1
  refine ⟨tree_ok_extend _ _ inode inode1 nb h hf.hold hf.mono ?_ hdist,
    fun s hs h0 => (hnew s hs h0).2.2, hiff⟩
  intro s hs h0
  obtain ⟨a, b, c⟩ := hnew s hs h0
  obtain ⟨r1, r2⟩ := allocated_in_range _ _ hres a c
  exact ⟨r1, r2, b, c⟩

/-- The direct branch of `_inode_add_owned_block`. -/
theorem append_direct (fs : FS_t) (inode : inode_t) (nb new : Nat) (bsa : block_store_t)
    (h : tree_ok fs.BlockStore_whole inode nb) (hp : inode_ptrs_ok inode)
    (hres : reserved_used fs.BlockStore_whole) (hnb : nb < 6)
    (hal : block_store_allocate fs.BlockStore_whole = (new, bsa)) (hne : new ≠ SIZE_MAX) :
    append_frame fs inode nb
      (({ fs with BlockStore_whole := bsa } : FS_t).set_inode inode.inum
        { inode with
          data_direct := fun k => if k = nb then new % 65536 else inode.data_direct k })
      { inode with data_direct := fun k => if k = nb then new % 65536 else inode.data_direct k } ∧
    grown_ok fs.BlockStore_whole nb bsa
      { inode with data_direct := fun k => if k = nb then new % 65536 else inode.data_direct k } ∧
    file_block bsa
      { inode with data_direct := fun k => if k = nb then new % 65536 else inode.data_direct k }
      nb = new := by
  obtain ⟨hlt, hfree, hused, hsame⟩ := block_store_allocate_used _ _ _ hal hne
  have hmod : new % 65536 = new := Nat.mod_eq_of_lt hlt
  rw [hmod]
  have hfb : file_block bsa
      { inode with data_direct := fun k => if k = nb then new else inode.data_direct k } nb
      = new := by
    unfold file_block
    have h6 : nb < FD_DIRECT_MAX_PTRS := hnb
    rw [if_pos h6]
    show (if nb = nb then new else _) = new
    rw [if_pos rfl]
  have hframe : append_frame fs inode nb
      (({ fs with BlockStore_whole := bsa } : FS_t).set_inode inode.inum
        { inode with data_direct := fun k => if k = nb then new else inode.data_direct k })
      { inode with data_direct := fun k => if k = nb then new else inode.data_direct k } := by
    apply append_frame_fresh fs inode nb _ _ h
    · intro b hb _
      exact hsame b hb
    · exact hres
    · intro k _ hk
      show (if k = nb then new else inode.data_direct k) = _
      rw [if_neg (by omega)]
    · intro _; rfl
    · intro _; rfl
    · rfl
    · rfl
    · refine ⟨?_, hp.2.1, hp.2.2⟩
      intro k hk
      show (if k = nb then new else inode.data_direct k) < 65536
      split
      · exact hlt
      · exact hp.1 k hk
    · intro b hb hu
      exact (hused b hb).2 (Or.inl hu)
    · rfl
    · intro i hi
      show (if i = inode.inum then _ else fs.inode_table i) = _
      rw [if_neg hi]
    · exact ⟨rfl, rfl, rfl⟩
  refine ⟨hframe, ?_, hfb⟩
  have hnewslot : ∀ s, slot_live (nb + 1) s → ¬ slot_live nb s → s = tree_slot.data nb := by
    intro s hs h0
    rcases new_slot_cases nb s hs h0 with h1 | ⟨_, h1⟩ | ⟨_, h1⟩ | ⟨j, _, h1⟩
    · exact h1
    · omega
    · omega
    · omega
  refine append_finish fs inode nb _ _ h hres hframe ?_ ?_ ?_
  · intro s hs h0
    rw [hnewslot s hs h0]
    show file_block bsa _ nb < 65536 ∧ block_used bsa (file_block bsa _ nb) ∧
      ¬ block_used fs.BlockStore_whole (file_block bsa _ nb)
    rw [hfb]
    exact ⟨hlt, (hused new hlt).2 (Or.inr rfl), hfree⟩
  · intro s s2 hs h0 hs2 h2 _
    rw [hnewslot s hs h0, hnewslot s2 hs2 h2]
  · intro b hb hu
    rcases (hused b hb).1 hu with h1 | h1
    · exact Or.inl h1
    · exact Or.inr ⟨tree_slot.data nb, Nat.lt_succ_self nb, Nat.lt_irrefl nb, by rw [h1]; exact hfb⟩

/-- Releasing a block that was free in `bs` keeps in use what was in use in
`bs`, and touches no data block. -/
theorem release_keeps (bs bsx : block_store_t) (id : Nat) (hid : id < 65536)
    (hfree : ¬ block_used bs id)
    (hmono : ∀ b, b < 65536 → block_used bs b → block_used bsx b)
    (hsame : ∀ b, b < 65528 → bsx.blocks b = bs.blocks b) :
    (∀ b, b < 65536 → block_used bs b → block_used (block_store_release bsx id) b) ∧
      (∀ b, b < 65528 → (block_store_release bsx id).blocks b = bs.blocks b) := by
  obtain ⟨h1, h2⟩ := block_store_release_used bsx id hid
  constructor
  · intro b hb hu
    rw [h1 b hb]
    refine ⟨hmono b hb hu, ?_⟩
    intro hc
    rw [hc] at hu
    exact hfree hu
  · intro b hb
    rw [h2 b hb, hsame b hb]

/-- The frame of an exit of `_inode_add_owned_block` that leaves the file as
it was: the inode in use is the old one up to pointers not in use. -/
theorem append_frame_exit (fs : FS_t) (inode : inode_t) (nb : Nat) (bsx : block_store_t)
    (tbl : Nat → inode_t) (inode1 : inode_t) (h : tree_ok fs.BlockStore_whole inode nb)
    (hres : reserved_used fs.BlockStore_whole)
    (hmono : ∀ b, b < 65536 → block_used fs.BlockStore_whole b → block_used bsx b)
    (hsame : ∀ b, b < 65528 → bsx.blocks b = fs.BlockStore_whole.blocks b)
    (hdir : ∀ k, k < 6 → k < nb → inode1.data_direct k = inode.data_direct k)
    (hind : 6 < nb → inode1.data_indirect = inode.data_indirect)
    (hdbl : 518 < nb → inode1.data_double_indirect = inode.data_double_indirect)
    (size_eq : inode1.file_size = inode.file_size) (inum_eq : inode1.inum = inode.inum)
    (ptrs : inode_ptrs_ok inode1)
    (inodes_other : ∀ i, i ≠ inode.inum → tbl i = fs.inode_table i)
    (hmeta : inode1.file_type = inode.file_type ∧ inode1.dir_entry_map = inode.dir_entry_map ∧
      inode1.link_count = inode.link_count) :
    append_frame fs inode nb
      { BlockStore_whole := bsx, inode_table := tbl, BlockStore_fd := fs.BlockStore_fd }
      inode1 :=
  append_frame_fresh fs inode nb _ inode1 h (fun b hb _ => hsame b hb) hres hdir hind hdbl
    size_eq inum_eq ptrs hmono rfl inodes_other hmeta

/-- The indirect branch of `_inode_add_owned_block`, past the first cell. -/
theorem append_indirect (fs : FS_t) (inode : inode_t) (nb new : Nat) (bsa : block_store_t)
    (h : tree_ok fs.BlockStore_whole inode nb) (hp : inode_ptrs_ok inode)
    (hres : reserved_used fs.BlockStore_whole) (hnb1 : 6 < nb) (hnb2 : nb < 518)
    (hal : block_store_allocate fs.BlockStore_whole = (new, bsa)) (hne : new ≠ SIZE_MAX) :
    append_frame fs inode nb
      (({ fs with BlockStore_whole := bsa } : FS_t).set_block inode.data_indirect
        (ind_set (bsa.blocks inode.data_indirect) (nb - 6) new)) inode ∧
    grown_ok fs.BlockStore_whole nb
      (bsa.put inode.data_indirect (ind_set (bsa.blocks inode.data_indirect) (nb - 6) new))
      inode ∧
    file_block (bsa.put inode.data_indirect
      (ind_set (bsa.blocks inode.data_indirect) (nb - 6) new)) inode nb = new := by
  obtain ⟨hlt, hfree, hused, hsame⟩ := block_store_allocate_used _ _ _ hal hne
  have hlive : slot_live nb tree_slot.ind := hnb1
  obtain ⟨hI0, hI1, hI2⟩ := h.range _ hlive
  have hI : slot_block fs.BlockStore_whole inode tree_slot.ind = inode.data_indirect := rfl
  rw [hI] at hI0 hI1 hI2
  have hfb : file_block (bsa.put inode.data_indirect
      (ind_set (bsa.blocks inode.data_indirect) (nb - 6) new)) inode nb = new := by
    unfold file_block
    have h6 : ¬ nb < FD_DIRECT_MAX_PTRS := by show ¬ nb < 6; omega
    have h7 : nb < FD_INDIRECT_MAX_PTRS := hnb2
    rw [if_neg h6, if_pos h7, put_blocks, if_pos rfl]
    exact ind_get_set_same _ _ _ hlt
  have hframe : append_frame fs inode nb
      (({ fs with BlockStore_whole := bsa } : FS_t).set_block inode.data_indirect
        (ind_set (bsa.blocks inode.data_indirect) (nb - 6) new)) inode := by
    apply append_frame_of fs inode nb _ _ inode.data_indirect (nb - 6) new h
    · intro b _ hb _
      show (bsa.put _ _).blocks b = _
      rw [put_blocks, hsame b hb, hsame _ hI1]
    · intro _ _ _; rfl
    · intro _; rfl
    · intro _; rfl
    · intro sB hs hw
      left
      exact ⟨h.inj sB tree_slot.ind hs hlive hw, Nat.le_refl _⟩
    · rfl
    · rfl
    · exact hp
    · intro b hb hu
      show block_used (bsa.put _ _) b
      rw [block_used_put _ _ _ hI1]
      exact (hused b hb).2 (Or.inl hu)
    · show (bsa.put _ _).blocks 0 = _
      rw [put_blocks, if_neg (by omega), hsame 0 (by decide)]
    · rfl
    · intro _ _; rfl
    · exact Or.inr ⟨tree_slot.ind, hlive, rfl⟩
    · exact ⟨rfl, rfl, rfl⟩
  refine ⟨hframe, ?_, hfb⟩
  have hnewslot : ∀ s, slot_live (nb + 1) s → ¬ slot_live nb s → s = tree_slot.data nb := by
    intro s hs h0
    rcases new_slot_cases nb s hs h0 with h1 | ⟨_, h1⟩ | ⟨_, h1⟩ | ⟨j, _, h1⟩
    · exact h1
    · omega
    · omega
    · omega
  refine append_finish fs inode nb _ _ h hres hframe ?_ ?_ ?_
  · intro s hs h0
    rw [hnewslot s hs h0]
    show file_block (bsa.put _ _) inode nb < 65536 ∧
      block_used (bsa.put _ _) (file_block (bsa.put _ _) inode nb) ∧
      ¬ block_used fs.BlockStore_whole (file_block (bsa.put _ _) inode nb)
    rw [hfb, block_used_put _ _ _ hI1]
    exact ⟨hlt, (hused new hlt).2 (Or.inr rfl), hfree⟩
  · intro s s2 hs h0 hs2 h2 _
    rw [hnewslot s hs h0, hnewslot s2 hs2 h2]
  · intro b hb hu
    have hu2 : block_used (bsa.put _ _) b := hu
    rw [block_used_put _ _ _ hI1] at hu2
    rcases (hused b hb).1 hu2 with h1 | h1
    · exact Or.inl h1
    · exact Or.inr ⟨tree_slot.data nb, Nat.lt_succ_self nb, Nat.lt_irrefl nb, by rw [h1]; exact hfb⟩

/-- Two allocations in a row: both blocks were free, they differ, and the
blocks in use afterwards are the old ones and these two. -/
theorem allocate_twice (bs bsa bsb : block_store_t) (x y : Nat)
    (hres : reserved_used bs)
    (h1 : block_store_allocate bs = (x, bsa)) (hx : x ≠ SIZE_MAX)
    (h2 : block_store_allocate bsa = (y, bsb)) (hy : y ≠ SIZE_MAX) :
    (0 < x ∧ x < 65528 ∧ ¬ block_used bs x) ∧ (0 < y ∧ y < 65528 ∧ ¬ block_used bs y) ∧
    x ≠ y ∧ ¬ block_used bsa y ∧ reserved_used bsa ∧
    (∀ i, i < 65536 → (block_used bsb i ↔ block_used bs i ∨ i = x ∨ i = y)) ∧
    (∀ b, b < 65528 → bsb.blocks b = bs.blocks b) ∧
    (∀ b, b < 65528 → bsa.blocks b = bs.blocks b) := by
  obtain ⟨xlt, xfree, xused, xsame⟩ := block_store_allocate_used _ _ _ h1 hx
  obtain ⟨ylt, yfree, yused, ysame⟩ := block_store_allocate_used _ _ _ h2 hy
  obtain ⟨x0, x1⟩ := allocated_in_range _ _ hres xlt xfree
  have hresa : reserved_used bsa :=
    reserved_used_mono bs bsa hres (fun b hb hu => (xused b hb).2 (Or.inl hu))
  obtain ⟨y0, y1⟩ := allocated_in_range _ _ hresa ylt yfree
  have yfree0 : ¬ block_used bs y := fun hc => yfree ((xused y ylt).2 (Or.inl hc))
  have hxy : x ≠ y := by
    intro hc
    rw [← hc] at yfree
    exact yfree ((xused x xlt).2 (Or.inr rfl))
  refine ⟨⟨x0, x1, xfree⟩, ⟨y0, y1, yfree0⟩, hxy, yfree, hresa, ?_, ?_, xsame⟩
  · intro i hi
    rw [yused i hi, xused i hi]
    exact or_assoc
  · intro b hb
    rw [ysame b hb, xsame b hb]

/-- The indirect branch of `_inode_add_owned_block` at the first cell: the
indirect block is allocated too. -/
theorem append_indirect_first (fs : FS_t) (inode : inode_t) (new ni : Nat)
    (bsa bsb : block_store_t)
    (h : tree_ok fs.BlockStore_whole inode 6) (hp : inode_ptrs_ok inode)
    (hres : reserved_used fs.BlockStore_whole)
    (hal1 : block_store_allocate fs.BlockStore_whole = (new, bsa)) (hne1 : new ≠ SIZE_MAX)
    (hal2 : block_store_allocate bsa = (ni, bsb)) (hne2 : ni ≠ SIZE_MAX) :
    append_frame fs inode 6
      ((({ fs with BlockStore_whole := bsb } : FS_t).set_inode inode.inum
          { inode with data_indirect := ni }).set_block ni (ind_set (bsb.blocks ni) 0 new))
      { inode with data_indirect := ni } ∧
    grown_ok fs.BlockStore_whole 6 (bsb.put ni (ind_set (bsb.blocks ni) 0 new))
      { inode with data_indirect := ni } ∧
    file_block (bsb.put ni (ind_set (bsb.blocks ni) 0 new)) { inode with data_indirect := ni } 6
      = new := by
  obtain ⟨⟨x0, x1, xfree⟩, ⟨y0, y1, yfree⟩, hxy, _, _, hused, hsame, _⟩ :=
    allocate_twice _ _ _ _ _ hres hal1 hne1 hal2 hne2
  have hfb : file_block (bsb.put ni (ind_set (bsb.blocks ni) 0 new))
      { inode with data_indirect := ni } 6 = new := by
    unfold file_block
    have h6 : ¬ 6 < FD_DIRECT_MAX_PTRS := by decide
    have h7 : 6 < FD_INDIRECT_MAX_PTRS := by decide
    rw [if_neg h6, if_pos h7]
    show ind_get ((bsb.put ni _).blocks ni) (6 - 6) = new
    rw [put_blocks, if_pos rfl]
    exact ind_get_set_same _ _ _ (by omega)
  have hframe : append_frame fs inode 6
      ((({ fs with BlockStore_whole := bsb } : FS_t).set_inode inode.inum
          { inode with data_indirect := ni }).set_block ni (ind_set (bsb.blocks ni) 0 new))
      { inode with data_indirect := ni } := by
    apply append_frame_fresh fs inode 6 _ _ h
    · intro b hb hu
      show (bsb.put _ _).blocks b = _
      have hbn : b ≠ ni := by
        intro hc
        rw [hc] at hu
        exact yfree hu
      rw [put_blocks, if_neg hbn, hsame b hb]
    · exact hres
    · intro _ _ _; rfl
    · intro hc; omega
    · intro hc; omega
    · rfl
    · rfl
    · exact ⟨hp.1, by show ni < 65536; omega, hp.2.2⟩
    · intro b hb hu
      show block_used (bsb.put _ _) b
      rw [block_used_put _ _ _ y1]
      exact (hused b hb).2 (Or.inl hu)
    · rfl
    · intro i hi
      show (if i = inode.inum then _ else fs.inode_table i) = _
      rw [if_neg hi]
    · exact ⟨rfl, rfl, rfl⟩
  refine ⟨hframe, ?_, hfb⟩
  have hnewslot : ∀ s, slot_live (6 + 1) s → ¬ slot_live 6 s →
      s = tree_slot.data 6 ∨ s = tree_slot.ind := by
    intro s hs h0
    rcases new_slot_cases 6 s hs h0 with h1 | ⟨h1, _⟩ | ⟨_, h1⟩ | ⟨j, _, h1⟩
    · exact Or.inl h1
    · exact Or.inr h1
    · omega
    · omega
  have vdata : slot_block (bsb.put ni (ind_set (bsb.blocks ni) 0 new))
      { inode with data_indirect := ni } (tree_slot.data 6) = new := hfb
  have vind : slot_block (bsb.put ni (ind_set (bsb.blocks ni) 0 new))
      { inode with data_indirect := ni } tree_slot.ind = ni := rfl
  refine append_finish fs inode 6 _ _ h hres hframe ?_ ?_ ?_
  · intro s hs h0
    show slot_block (bsb.put _ _) _ s < 65536 ∧
      block_used (bsb.put _ _) (slot_block (bsb.put _ _) _ s) ∧
      ¬ block_used fs.BlockStore_whole (slot_block (bsb.put _ _) _ s)
    rcases hnewslot s hs h0 with h1 | h1
    · rw [h1, vdata, block_used_put _ _ _ y1]
      exact ⟨by omega, (hused new (by omega)).2 (Or.inr (Or.inl rfl)), xfree⟩
    · rw [h1, vind, block_used_put _ _ _ y1]
      exact ⟨by omega, (hused ni (by omega)).2 (Or.inr (Or.inr rfl)), yfree⟩
  · intro s s2 hs h0 hs2 h2 he
    have he2 : slot_block (bsb.put ni (ind_set (bsb.blocks ni) 0 new))
      { inode with data_indirect := ni } s = slot_block (bsb.put ni (ind_set (bsb.blocks ni) 0 new))
      { inode with data_indirect := ni } s2 := he
    rcases hnewslot s hs h0 with h1 | h1 <;> rcases hnewslot s2 hs2 h2 with h3 | h3
    · rw [h1, h3]
    · rw [h1, h3, vdata, vind] at he2
      exact absurd he2 hxy
    · rw [h1, h3, vdata, vind] at he2
      exact absurd he2.symm hxy
    · rw [h1, h3]
  · intro b hb hu
    have hu2 : block_used (bsb.put _ _) b := hu
    rw [block_used_put _ _ _ y1] at hu2
    rcases (hused b hb).1 hu2 with h1 | h1 | h1
    · exact Or.inl h1
    · exact Or.inr ⟨tree_slot.data 6, Nat.lt_succ_self 6, Nat.lt_irrefl 6, by rw [h1]; exact vdata⟩
    · exact Or.inr ⟨tree_slot.ind, Nat.lt_succ_self 6, Nat.lt_irrefl 6, by rw [h1]; exact vind⟩

/-- The double-indirect branch of `_inode_add_owned_block` inside an indirect
block that exists. -/
theorem append_double_cell (fs : FS_t) (inode : inode_t) (nb new : Nat) (bsa : block_store_t)
    (h : tree_ok fs.BlockStore_whole inode nb) (hp : inode_ptrs_ok inode)
    (hres : reserved_used fs.BlockStore_whole) (hnb1 : 518 ≤ nb)
    (hc2 : (nb - 518) % 512 ≠ 0)
    (hal : block_store_allocate fs.BlockStore_whole = (new, bsa)) (hne : new ≠ SIZE_MAX) :
    append_frame fs inode nb
      (({ fs with BlockStore_whole := bsa } : FS_t).set_block
        (ind_get (bsa.blocks inode.data_double_indirect) ((nb - 518) / 512))
        (ind_set (bsa.blocks (ind_get (bsa.blocks inode.data_double_indirect) ((nb - 518) / 512)))
          ((nb - 518) % 512) new)) inode ∧
    grown_ok fs.BlockStore_whole nb
      (bsa.put (ind_get (bsa.blocks inode.data_double_indirect) ((nb - 518) / 512))
        (ind_set (bsa.blocks (ind_get (bsa.blocks inode.data_double_indirect) ((nb - 518) / 512)))
          ((nb - 518) % 512) new))
      inode ∧
    file_block (bsa.put (ind_get (bsa.blocks inode.data_double_indirect) ((nb - 518) / 512))
        (ind_set (bsa.blocks (ind_get (bsa.blocks inode.data_double_indirect) ((nb - 518) / 512)))
          ((nb - 518) % 512) new)) inode nb = new := by
  obtain ⟨hlt, hfree, hused, hsame⟩ := block_store_allocate_used _ _ _ hal hne
  have hlive : slot_live nb tree_slot.dbl := by show 518 < nb; omega
  have hlive2 : slot_live nb (tree_slot.ind2 ((nb - 518) / 512)) := by
    show 518 + 512 * ((nb - 518) / 512) < nb
    omega
  obtain ⟨_, hD1, _⟩ := h.range _ hlive
  have hD : slot_block fs.BlockStore_whole inode tree_slot.dbl = inode.data_double_indirect := rfl
  rw [hD] at hD1
  obtain ⟨hB0, hB1, _⟩ := h.range _ hlive2
  have hB : slot_block fs.BlockStore_whole inode (tree_slot.ind2 ((nb - 518) / 512)) =
      ind_get (fs.BlockStore_whole.blocks inode.data_double_indirect) ((nb - 518) / 512) := rfl
  rw [hB] at hB0 hB1
  have hDB : inode.data_double_indirect ≠
      ind_get (fs.BlockStore_whole.blocks inode.data_double_indirect) ((nb - 518) / 512) := by
    intro hc
    have := h.inj _ _ hlive hlive2 (by rw [hD, hB]; exact hc)
    exact tree_slot.noConfusion this
  rw [hsame _ hD1, hsame _ hB1]
  have hfb : file_block ((bsa.put
      (ind_get (fs.BlockStore_whole.blocks inode.data_double_indirect) ((nb - 518) / 512))
      (ind_set (fs.BlockStore_whole.blocks
        (ind_get (fs.BlockStore_whole.blocks inode.data_double_indirect) ((nb - 518) / 512)))
        ((nb - 518) % 512) new))) inode nb = new := by
    unfold file_block
    have h6 : ¬ nb < FD_DIRECT_MAX_PTRS := by show ¬ nb < 6; omega
    have h7 : ¬ nb < FD_INDIRECT_MAX_PTRS := by show ¬ nb < 518; omega
    rw [if_neg h6, if_neg h7]
    show ind_get ((bsa.put _ _).blocks (ind_get ((bsa.put _ _).blocks inode.data_double_indirect)
      ((nb - 518) / 512))) ((nb - 518) % 512) = new
    rw [put_blocks _ _ _ inode.data_double_indirect, if_neg hDB, hsame _ hD1, put_blocks,
      if_pos rfl]
    exact ind_get_set_same _ _ _ hlt
  have hframe : append_frame fs inode nb
      (({ fs with BlockStore_whole := bsa } : FS_t).set_block
        (ind_get (fs.BlockStore_whole.blocks inode.data_double_indirect) ((nb - 518) / 512))
        (ind_set (fs.BlockStore_whole.blocks
          (ind_get (fs.BlockStore_whole.blocks inode.data_double_indirect) ((nb - 518) / 512)))
          ((nb - 518) % 512) new)) inode := by
    apply append_frame_of fs inode nb _ _
      (ind_get (fs.BlockStore_whole.blocks inode.data_double_indirect) ((nb - 518) / 512))
      ((nb - 518) % 512) new h
    · intro b _ hb _
      show (bsa.put _ _).blocks b = _
      rw [put_blocks, hsame b hb]
    · intro _ _ _; rfl
    · intro _; rfl
    · intro _; rfl
    · intro sB hs hw
      right; right
      refine ⟨(nb - 518) / 512, h.inj sB _ hs hlive2 (by rw [hB]; exact hw), ?_⟩
      omega
    · rfl
    · rfl
    · exact hp
    · intro b hb hu
      show block_used (bsa.put _ _) b
      rw [block_used_put _ _ _ hB1]
      exact (hused b hb).2 (Or.inl hu)
    · show (bsa.put _ _).blocks 0 = _
      rw [put_blocks, if_neg (by omega), hsame 0 (by decide)]
    · rfl
    · intro _ _; rfl
    · exact Or.inr ⟨tree_slot.ind2 ((nb - 518) / 512), hlive2, rfl⟩
    · exact ⟨rfl, rfl, rfl⟩
  refine ⟨hframe, ?_, hfb⟩
  have hnewslot : ∀ s, slot_live (nb + 1) s → ¬ slot_live nb s → s = tree_slot.data nb := by
    intro s hs h0
    rcases new_slot_cases nb s hs h0 with h1 | ⟨_, h1⟩ | ⟨_, h1⟩ | ⟨j, _, h1⟩
    · exact h1
    · omega
    · omega
    · omega
  refine append_finish fs inode nb _ _ h hres hframe ?_ ?_ ?_
  · intro s hs h0
    rw [hnewslot s hs h0]
    show file_block (bsa.put _ _) inode nb < 65536 ∧
      block_used (bsa.put _ _) (file_block (bsa.put _ _) inode nb) ∧
      ¬ block_used fs.BlockStore_whole (file_block (bsa.put _ _) inode nb)
    rw [hfb, block_used_put _ _ _ hB1]
    exact ⟨hlt, (hused new hlt).2 (Or.inr rfl), hfree⟩
  · intro s s2 hs h0 hs2 h2 _
    rw [hnewslot s hs h0, hnewslot s2 hs2 h2]
  · intro b hb hu
    have hu2 : block_used (bsa.put _ _) b := hu
    rw [block_used_put _ _ _ hB1] at hu2
    rcases (hused b hb).1 hu2 with h1 | h1
    · exact Or.inl h1
    · exact Or.inr ⟨tree_slot.data nb, Nat.lt_succ_self nb, Nat.lt_irrefl nb, by rw [h1]; exact hfb⟩

/-- The double-indirect branch of `_inode_add_owned_block` at the start of a
new indirect block, the double-indirect block being there. -/
theorem append_double_block (fs : FS_t) (inode : inode_t) (nb new ni : Nat)
    (bsa bsb : block_store_t)
    (h : tree_ok fs.BlockStore_whole inode nb) (hp : inode_ptrs_ok inode)
    (hres : reserved_used fs.BlockStore_whole) (hnb1 : 518 < nb)
    (hc2 : (nb - 518) % 512 = 0)
    (hal1 : block_store_allocate fs.BlockStore_whole = (new, bsa)) (hne1 : new ≠ SIZE_MAX)
    (hal2 : block_store_allocate bsa = (ni, bsb)) (hne2 : ni ≠ SIZE_MAX) :
    append_frame fs inode nb
      ((({ fs with BlockStore_whole := bsb } : FS_t).set_block inode.data_double_indirect
          (ind_set (bsa.blocks inode.data_double_indirect) ((nb - 518) / 512) ni)).set_block ni
        (ind_set ((bsb.put inode.data_double_indirect
          (ind_set (bsa.blocks inode.data_double_indirect) ((nb - 518) / 512) ni)).blocks ni)
          0 new)) inode ∧
    grown_ok fs.BlockStore_whole nb ((bsb.put inode.data_double_indirect
          (ind_set (bsa.blocks inode.data_double_indirect) ((nb - 518) / 512) ni)).put ni
        (ind_set ((bsb.put inode.data_double_indirect
          (ind_set (bsa.blocks inode.data_double_indirect) ((nb - 518) / 512) ni)).blocks ni)
          0 new)) inode ∧
    file_block ((bsb.put inode.data_double_indirect
          (ind_set (bsa.blocks inode.data_double_indirect) ((nb - 518) / 512) ni)).put ni
        (ind_set ((bsb.put inode.data_double_indirect
          (ind_set (bsa.blocks inode.data_double_indirect) ((nb - 518) / 512) ni)).blocks ni)
          0 new)) inode nb = new := by
  obtain ⟨⟨x0, x1, xfree⟩, ⟨y0, y1, yfree⟩, hxy, _, _, hused, hsame, hsamea⟩ :=
    allocate_twice _ _ _ _ _ hres hal1 hne1 hal2 hne2
  have hlive : slot_live nb tree_slot.dbl := hnb1
  obtain ⟨hD0, hD1, hD2⟩ := h.range _ hlive
  have hD : slot_block fs.BlockStore_whole inode tree_slot.dbl = inode.data_double_indirect := rfl
  rw [hD] at hD0 hD1 hD2
  have hDni : inode.data_double_indirect ≠ ni := by
    intro hc
    rw [hc] at hD2
    exact yfree hD2
  rw [hsamea _ hD1]
  obtain ⟨Y, hY⟩ : ∃ Y : block_t, Y = ind_set ((bsb.put inode.data_double_indirect
      (ind_set (fs.BlockStore_whole.blocks inode.data_double_indirect) ((nb - 518) / 512)
        ni)).blocks ni) 0 new := ⟨_, rfl⟩
  rw [← hY]
  have hblkD : ((bsb.put inode.data_double_indirect
      (ind_set (fs.BlockStore_whole.blocks inode.data_double_indirect) ((nb - 518) / 512)
        ni)).put ni Y).blocks inode.data_double_indirect =
      ind_set (fs.BlockStore_whole.blocks inode.data_double_indirect) ((nb - 518) / 512) ni := by
    rw [put_blocks, if_neg hDni, put_blocks, if_pos rfl]
  have hblkN : ((bsb.put inode.data_double_indirect
      (ind_set (fs.BlockStore_whole.blocks inode.data_double_indirect) ((nb - 518) / 512)
        ni)).put ni Y).blocks ni = Y := by
    rw [put_blocks, if_pos rfl]
  have hfb : file_block ((bsb.put inode.data_double_indirect
      (ind_set (fs.BlockStore_whole.blocks inode.data_double_indirect) ((nb - 518) / 512)
        ni)).put ni Y) inode nb = new := by
    unfold file_block
    have h6 : ¬ nb < FD_DIRECT_MAX_PTRS := by show ¬ nb < 6; omega
    have h7 : ¬ nb < FD_INDIRECT_MAX_PTRS := by show ¬ nb < 518; omega
    rw [if_neg h6, if_neg h7]
    show ind_get (((bsb.put _ _).put ni Y).blocks
      (ind_get (((bsb.put _ _).put ni Y).blocks inode.data_double_indirect)
      ((nb - 518) / 512))) ((nb - 518) % 512) = new
    rw [hblkD, ind_get_set_same _ _ _ (by omega), hblkN, hc2, hY]
    exact ind_get_set_same _ _ _ (by omega)
  have husedf : ∀ i, block_used ((bsb.put inode.data_double_indirect
      (ind_set (fs.BlockStore_whole.blocks inode.data_double_indirect) ((nb - 518) / 512)
        ni)).put ni Y) i ↔ block_used bsb i := by
    intro i
    rw [block_used_put _ _ _ y1, block_used_put _ _ _ hD1]
  have hframe : append_frame fs inode nb
      ((({ fs with BlockStore_whole := bsb } : FS_t).set_block inode.data_double_indirect
          (ind_set (fs.BlockStore_whole.blocks inode.data_double_indirect) ((nb - 518) / 512)
            ni)).set_block ni Y) inode := by
    apply append_frame_of fs inode nb _ _ inode.data_double_indirect ((nb - 518) / 512) ni h
    · intro b _ hb hu
      have hbn : b ≠ ni := by
        intro hc
        rw [hc] at hu
        exact yfree hu
      show ((bsb.put _ _).put ni Y).blocks b = _
      rw [put_blocks, if_neg hbn, put_blocks, hsame b hb]
    · intro _ _ _; rfl
    · intro _; rfl
    · intro _; rfl
    · intro sB hs hw
      right; left
      refine ⟨h.inj sB _ hs hlive (by rw [hD]; exact hw), ?_⟩
      omega
    · rfl
    · rfl
    · exact hp
    · intro b hb hu
      show block_used ((bsb.put _ _).put ni Y) b
      rw [husedf]
      exact (hused b hb).2 (Or.inl hu)
    · show ((bsb.put _ _).put ni Y).blocks 0 = _
      rw [put_blocks, if_neg (by omega), put_blocks, if_neg (by omega), hsame 0 (by decide)]
    · rfl
    · intro _ _; rfl
    · exact Or.inr ⟨tree_slot.dbl, hlive, rfl⟩
    · exact ⟨rfl, rfl, rfl⟩
  refine ⟨hframe, ?_, hfb⟩
  have hnewslot : ∀ s, slot_live (nb + 1) s → ¬ slot_live nb s →
      s = tree_slot.data nb ∨ s = tree_slot.ind2 ((nb - 518) / 512) := by
    intro s hs h0
    rcases new_slot_cases nb s hs h0 with h1 | ⟨_, h1⟩ | ⟨_, h1⟩ | ⟨j, hj, h1⟩
    · exact Or.inl h1
    · omega
    · omega
    · right
      have hjj : j = (nb - 518) / 512 := by omega
      rw [← hjj]
      exact hj
  have vdata : slot_block ((bsb.put inode.data_double_indirect
      (ind_set (fs.BlockStore_whole.blocks inode.data_double_indirect) ((nb - 518) / 512)
        ni)).put ni Y) inode (tree_slot.data nb) = new := hfb
  have vind : slot_block ((bsb.put inode.data_double_indirect
      (ind_set (fs.BlockStore_whole.blocks inode.data_double_indirect) ((nb - 518) / 512)
        ni)).put ni Y) inode (tree_slot.ind2 ((nb - 518) / 512)) = ni := by
    show ind_get (((bsb.put _ _).put ni Y).blocks inode.data_double_indirect) _ = ni
    rw [hblkD]
    exact ind_get_set_same _ _ _ (by omega)
  refine append_finish fs inode nb _ _ h hres hframe ?_ ?_ ?_
  · intro s hs h0
    show slot_block ((bsb.put _ _).put ni Y) _ s < 65536 ∧
      block_used ((bsb.put _ _).put ni Y) (slot_block ((bsb.put _ _).put ni Y) _ s) ∧
      ¬ block_used fs.BlockStore_whole (slot_block ((bsb.put _ _).put ni Y) _ s)
    rcases hnewslot s hs h0 with h1 | h1
    · rw [h1, vdata, husedf]
      exact ⟨by omega, (hused new (by omega)).2 (Or.inr (Or.inl rfl)), xfree⟩
    · rw [h1, vind, husedf]
      exact ⟨by omega, (hused ni (by omega)).2 (Or.inr (Or.inr rfl)), yfree⟩
  · intro s s2 hs h0 hs2 h2 he
    have he2 : slot_block ((bsb.put inode.data_double_indirect
      (ind_set (fs.BlockStore_whole.blocks inode.data_double_indirect) ((nb - 518) / 512)
        ni)).put ni Y) inode s = slot_block ((bsb.put inode.data_double_indirect
      (ind_set (fs.BlockStore_whole.blocks inode.data_double_indirect) ((nb - 518) / 512)
        ni)).put ni Y) inode s2 := he
    rcases hnewslot s hs h0 with h1 | h1 <;> rcases hnewslot s2 hs2 h2 with h3 | h3
    · rw [h1, h3]
    · rw [h1, h3, vdata, vind] at he2
      exact absurd he2 hxy
    · rw [h1, h3, vdata, vind] at he2
      exact absurd he2.symm hxy
    · rw [h1, h3]
  · intro b hb hu
    have hu2 : block_used ((bsb.put _ _).put ni Y) b := hu
    rw [husedf] at hu2
    rcases (hused b hb).1 hu2 with h1 | h1 | h1
    · exact Or.inl h1
    · exact Or.inr ⟨tree_slot.data nb, Nat.lt_succ_self nb, Nat.lt_irrefl nb, by rw [h1]; exact vdata⟩
    · exact Or.inr ⟨tree_slot.ind2 ((nb - 518) / 512),
        by show 518 + 512 * ((nb - 518) / 512) < nb + 1; omega,
        by show ¬ 518 + 512 * ((nb - 518) / 512) < nb; omega, by rw [h1]; exact vind⟩

/-- Three allocations in a row. -/
theorem allocate_thrice (bs bsa bsb bsc : block_store_t) (x y z : Nat)
    (hres : reserved_used bs)
    (h1 : block_store_allocate bs = (x, bsa)) (hx : x ≠ SIZE_MAX)
    (h2 : block_store_allocate bsa = (y, bsb)) (hy : y ≠ SIZE_MAX)
    (h3 : block_store_allocate bsb = (z, bsc)) (hz : z ≠ SIZE_MAX) :
    (0 < x ∧ x < 65528 ∧ ¬ block_used bs x) ∧ (0 < y ∧ y < 65528 ∧ ¬ block_used bs y) ∧
    (0 < z ∧ z < 65528 ∧ ¬ block_used bs z) ∧ x ≠ y ∧ x ≠ z ∧ y ≠ z ∧
    (∀ i, i < 65536 → (block_used bsc i ↔ block_used bs i ∨ i = x ∨ i = y ∨ i = z)) ∧
    (∀ b, b < 65528 → bsc.blocks b = bs.blocks b) ∧
    (∀ b, b < 65528 → bsb.blocks b = bs.blocks b) := by
  obtain ⟨hxr, hyr, hxy, _, hresa, hused, hsame, hsamea⟩ :=
    allocate_twice _ _ _ _ _ hres h1 hx h2 hy
  obtain ⟨zlt, zfree, zused, zsame⟩ := block_store_allocate_used _ _ _ h3 hz
  have hresb : reserved_used bsb :=
    reserved_used_mono bs bsb hres (fun b hb hu => (hused b hb).2 (Or.inl hu))
  obtain ⟨z0, z1⟩ := allocated_in_range _ _ hresb zlt zfree
  have zfree0 : ¬ block_used bs z := fun hc => zfree ((hused z zlt).2 (Or.inl hc))
  have hxz : x ≠ z := by
    intro hc
    rw [← hc] at zfree
    exact zfree ((hused x (by omega)).2 (Or.inr (Or.inl rfl)))
  have hyz : y ≠ z := by
    intro hc
    rw [← hc] at zfree
    exact zfree ((hused y (by omega)).2 (Or.inr (Or.inr rfl)))
  refine ⟨hxr, hyr, ⟨z0, z1, zfree0⟩, hxy, hxz, hyz, ?_, ?_, hsame⟩
  · intro i hi
    rw [zused i hi, hused i hi]
    constructor
    · rintro ((h | h | h) | h)
      · exact Or.inl h
      · exact Or.inr (Or.inl h)
      · exact Or.inr (Or.inr (Or.inl h))
      · exact Or.inr (Or.inr (Or.inr h))
    · rintro (h | h | h | h)
      · exact Or.inl (Or.inl h)
      · exact Or.inl (Or.inr (Or.inl h))
      · exact Or.inl (Or.inr (Or.inr h))
      · exact Or.inr h
  · intro b hb
    rw [zsame b hb, hsame b hb]

/-- The double-indirect branch of `_inode_add_owned_block` at its first block:
the double-indirect block and the first indirect block are allocated too. -/
theorem append_double_first (fs : FS_t) (inode : inode_t) (new nd ni : Nat)
    (bsa bsb bsc : block_store_t)
    (h : tree_ok fs.BlockStore_whole inode 518) (hp : inode_ptrs_ok inode)
    (hres : reserved_used fs.BlockStore_whole)
    (hal1 : block_store_allocate fs.BlockStore_whole = (new, bsa)) (hne1 : new ≠ SIZE_MAX)
    (hal2 : block_store_allocate bsa = (nd, bsb)) (hne2 : nd ≠ SIZE_MAX)
    (hal3 : block_store_allocate bsb = (ni, bsc)) (hne3 : ni ≠ SIZE_MAX) :
    append_frame fs inode 518
      (((({ fs with BlockStore_whole := bsc } : FS_t).set_inode inode.inum
            { inode with data_double_indirect := nd }).set_block nd
          (ind_set (bsb.blocks nd) 0 ni)).set_block ni
        (ind_set ((bsc.put nd (ind_set (bsb.blocks nd) 0 ni)).blocks ni) 0 new))
      { inode with data_double_indirect := nd } ∧
    grown_ok fs.BlockStore_whole 518 ((bsc.put nd (ind_set (bsb.blocks nd) 0 ni)).put ni
        (ind_set ((bsc.put nd (ind_set (bsb.blocks nd) 0 ni)).blocks ni) 0 new))
      { inode with data_double_indirect := nd } ∧
    file_block ((bsc.put nd (ind_set (bsb.blocks nd) 0 ni)).put ni
        (ind_set ((bsc.put nd (ind_set (bsb.blocks nd) 0 ni)).blocks ni) 0 new))
      { inode with data_double_indirect := nd } 518 = new := by
  obtain ⟨⟨x0, x1, xfree⟩, ⟨y0, y1, yfree⟩, ⟨z0, z1, zfree⟩, hxy, hxz, hyz, hused, hsame, _⟩ :=
    allocate_thrice _ _ _ _ _ _ _ hres hal1 hne1 hal2 hne2 hal3 hne3
  obtain ⟨X, hX⟩ : ∃ X : block_t, X = ind_set (bsb.blocks nd) 0 ni := ⟨_, rfl⟩
  rw [← hX]
  obtain ⟨Y, hY⟩ : ∃ Y : block_t, Y = ind_set ((bsc.put nd X).blocks ni) 0 new := ⟨_, rfl⟩
  rw [← hY]
  have hblkD : ((bsc.put nd X).put ni Y).blocks nd = X := by
    rw [put_blocks, if_neg hyz, put_blocks, if_pos rfl]
  have hblkN : ((bsc.put nd X).put ni Y).blocks ni = Y := by
    rw [put_blocks, if_pos rfl]
  have hX0 : ind_get X 0 = ni := by
    rw [hX]
    exact ind_get_set_same _ _ _ (by omega)
  have hY0 : ind_get Y 0 = new := by
    rw [hY]
    exact ind_get_set_same _ _ _ (by omega)
  have vdbl : slot_block ((bsc.put nd X).put ni Y) { inode with data_double_indirect := nd }
      tree_slot.dbl = nd := rfl
  have vind : slot_block ((bsc.put nd X).put ni Y) { inode with data_double_indirect := nd }
      (tree_slot.ind2 0) = ni := by
    show ind_get (((bsc.put nd X).put ni Y).blocks nd) 0 = ni
    rw [hblkD]
    exact hX0
  have hfb : file_block ((bsc.put nd X).put ni Y) { inode with data_double_indirect := nd } 518
      = new := by
    unfold file_block
    have h6 : ¬ 518 < FD_DIRECT_MAX_PTRS := by decide
    have h7 : ¬ 518 < FD_INDIRECT_MAX_PTRS := by decide
    rw [if_neg h6, if_neg h7]
    show ind_get (((bsc.put nd X).put ni Y).blocks
      (ind_get (((bsc.put nd X).put ni Y).blocks nd) 0)) 0 = new
    rw [hblkD, hX0, hblkN]
    exact hY0
  have husedf : ∀ i, block_used ((bsc.put nd X).put ni Y) i ↔ block_used bsc i := by
    intro i
    rw [block_used_put _ _ _ z1, block_used_put _ _ _ y1]
  have hframe : append_frame fs inode 518
      (((({ fs with BlockStore_whole := bsc } : FS_t).set_inode inode.inum
            { inode with data_double_indirect := nd }).set_block nd X).set_block ni Y)
      { inode with data_double_indirect := nd } := by
    apply append_frame_fresh fs inode 518 _ _ h
    · intro b hb hu
      have hbn : b ≠ ni := by
        intro hc
        rw [hc] at hu
        exact zfree hu
      have hbd : b ≠ nd := by
        intro hc
        rw [hc] at hu
        exact yfree hu
      show ((bsc.put nd X).put ni Y).blocks b = _
      rw [put_blocks, if_neg hbn, put_blocks, if_neg hbd, hsame b hb]
    · exact hres
    · intro _ _ _; rfl
    · intro _; rfl
    · intro hc; omega
    · rfl
    · rfl
    · exact ⟨hp.1, hp.2.1, by show nd < 65536; omega⟩
    · intro b hb hu
      show block_used ((bsc.put nd X).put ni Y) b
      rw [husedf]
      exact (hused b hb).2 (Or.inl hu)
    · rfl
    · intro i hi
      show (if i = inode.inum then _ else fs.inode_table i) = _
      rw [if_neg hi]
    · exact ⟨rfl, rfl, rfl⟩
  refine ⟨hframe, ?_, hfb⟩
  have hnewslot : ∀ s, slot_live (518 + 1) s → ¬ slot_live 518 s →
      s = tree_slot.data 518 ∨ s = tree_slot.dbl ∨ s = tree_slot.ind2 0 := by
    intro s hs h0
    rcases new_slot_cases 518 s hs h0 with h1 | ⟨_, h1⟩ | ⟨h1, _⟩ | ⟨j, hj, h1⟩
    · exact Or.inl h1
    · omega
    · exact Or.inr (Or.inl h1)
    · right; right
      have hjj : j = 0 := by omega
      rw [← hjj]
      exact hj
  have vdata : slot_block ((bsc.put nd X).put ni Y) { inode with data_double_indirect := nd }
      (tree_slot.data 518) = new := hfb
  refine append_finish fs inode 518 _ _ h hres hframe ?_ ?_ ?_
  · intro s hs h0
    show slot_block ((bsc.put nd X).put ni Y) _ s < 65536 ∧
      block_used ((bsc.put nd X).put ni Y) (slot_block ((bsc.put nd X).put ni Y) _ s) ∧
      ¬ block_used fs.BlockStore_whole (slot_block ((bsc.put nd X).put ni Y) _ s)
    rcases hnewslot s hs h0 with h1 | h1 | h1
    · rw [h1, vdata, husedf]
      exact ⟨by omega, (hused new (by omega)).2 (Or.inr (Or.inl rfl)), xfree⟩
    · rw [h1, vdbl, husedf]
      exact ⟨by omega, (hused nd (by omega)).2 (Or.inr (Or.inr (Or.inl rfl))), yfree⟩
    · rw [h1, vind, husedf]
      exact ⟨by omega, (hused ni (by omega)).2 (Or.inr (Or.inr (Or.inr rfl))), zfree⟩
  · intro s s2 hs h0 hs2 h2 he
    have he2 : slot_block ((bsc.put nd X).put ni Y) { inode with data_double_indirect := nd } s
        = slot_block ((bsc.put nd X).put ni Y) { inode with data_double_indirect := nd } s2 := he
    rcases hnewslot s hs h0 with h1 | h1 | h1 <;>
      rcases hnewslot s2 hs2 h2 with h3 | h3 | h3
    · rw [h1, h3]
    · rw [h1, h3, vdata, vdbl] at he2
      exact absurd he2 hxy
    · rw [h1, h3, vdata, vind] at he2
      exact absurd he2 hxz
    · rw [h1, h3, vdata, vdbl] at he2
      exact absurd he2.symm hxy
    · rw [h1, h3]
    · rw [h1, h3, vdbl, vind] at he2
      exact absurd he2 hyz
    · rw [h1, h3, vdata, vind] at he2
      exact absurd he2.symm hxz
    · rw [h1, h3, vdbl, vind] at he2
      exact absurd he2.symm hyz
    · rw [h1, h3]
  · intro b hb hu
    have hu2 : block_used ((bsc.put nd X).put ni Y) b := hu
    rw [husedf] at hu2
    rcases (hused b hb).1 hu2 with h1 | h1 | h1 | h1
    · exact Or.inl h1
    · exact Or.inr ⟨tree_slot.data 518, Nat.lt_succ_self 518, Nat.lt_irrefl 518,
        by rw [h1]; exact vdata⟩
    · exact Or.inr ⟨tree_slot.dbl, Nat.lt_succ_self 518, Nat.lt_irrefl 518, by rw [h1]; exact vdbl⟩
    · exact Or.inr ⟨tree_slot.ind2 0, by show 518 + 512 * 0 < 518 + 1; decide,
        by show ¬ 518 + 512 * 0 < 518; decide, by rw [h1]; exact vind⟩

/-! ## The first clear bit of a bitmap -/

theorem _uint8_ffs_n_loop_least (lim : Nat) :
    ∀ fuel byte i, i + fuel ≤ 8 →
      (_uint8_ffs_n_loop lim fuel byte i = UINT8_MAX ∧
          ∀ j, j < fuel → i + j < lim → byte.testBit j = false) ∨
      (∃ j, j < fuel ∧ i + j < lim ∧ _uint8_ffs_n_loop lim fuel byte i = i + j ∧
          byte.testBit j = true ∧ ∀ j', j' < j → byte.testBit j' = false) := by
  intro fuel
  induction fuel with
  | zero =>
    intro byte i _
    left
    refine ⟨rfl, ?_⟩
    intro j hj
    exact absurd hj (Nat.not_lt_zero _)
  | succ fuel ih =>
    intro byte i hi
    unfold _uint8_ffs_n_loop
    by_cases h1 : i < lim
    · rw [if_pos h1]
      have hb0 : byte &&& 1 ≠ 0 ↔ byte.testBit 0 = true := and_shiftLeft_ne_zero_iff byte 0
      by_cases h2 : byte &&& 1 ≠ 0
      · rw [if_pos h2]
        right
        exact ⟨0, Nat.succ_pos _, h1, rfl, hb0.1 h2, fun j' hj' => absurd hj' (Nat.not_lt_zero _)⟩
      · rw [if_neg h2]
        have hz : byte.testBit 0 = false := by
          cases hc : byte.testBit 0 with
          | false => rfl
          | true => exact absurd (hb0.2 hc) h2
        have hsh : ∀ j, (byte >>> 1).testBit j = byte.testBit (j + 1) := by
          intro j
          rw [Nat.testBit_shiftRight, Nat.add_comm]
        rcases ih (byte >>> 1) (i + 1) (by omega) with ⟨e, hall⟩ | ⟨j, hj, hl, e, ht, hbefore⟩
        · left
          refine ⟨e, ?_⟩
          intro j hj hl
          cases j with
          | zero => exact hz
          | succ j =>
            rw [← hsh]
            exact hall j (by omega) (by omega)
        · right
          refine ⟨j + 1, by omega, by omega, by rw [e]; omega, by rw [← hsh]; exact ht, ?_⟩
          intro j' hj'
          cases j' with
          | zero => exact hz
          | succ j' =>
            rw [← hsh]
            exact hbefore j' (by omega)
    · rw [if_neg h1]
      left
      refine ⟨rfl, ?_⟩
      intro j _ hl
      omega

theorem inverted_byte_testBit (d j : Nat) (hj : j < 8) :
    (255 ^^^ (d % 256)).testBit j = !(d.testBit j) := by
  rw [Nat.testBit_xor, testBit_mod_256 d j hj]
  have h255 : Nat.testBit 255 j = true := by
    interval_cases j <;> decide
  rw [h255]
  cases d.testBit j <;> rfl

/-- The function `_uint8_ffs_n` on the complement of a byte finds the first
clear bit of the byte below the limit. -/
theorem _uint8_ffs_n_least (d lim : Nat) :
    (_uint8_ffs_n (255 ^^^ (d % 256)) lim = UINT8_MAX ∧
        ∀ j, j < 8 → j < lim → d.testBit j = true) ∨
    (∃ j, j < 8 ∧ j < lim ∧ _uint8_ffs_n (255 ^^^ (d % 256)) lim = j ∧
        d.testBit j = false ∧ ∀ j', j' < j → d.testBit j' = true) := by
  have hinv : ∀ j, j < 8 → ∀ b, (255 ^^^ (d % 256)).testBit j = b → d.testBit j = !b := by
    intro j hj b hb
    rw [inverted_byte_testBit d j hj] at hb
    rw [← hb]
    cases d.testBit j <;> rfl
  unfold _uint8_ffs_n
  rcases _uint8_ffs_n_loop_least lim 8 (255 ^^^ (d % 256)) 0 (by omega) with
    ⟨e, hall⟩ | ⟨j, hj, hl, e, ht, hbefore⟩
  · left
    refine ⟨e, ?_⟩
    intro j hj hl
    exact hinv j hj false (hall j hj (by omega))
  · right
    refine ⟨j, hj, by omega, by rw [e]; omega, hinv j hj true ht, ?_⟩
    intro j' hj'
    exact hinv j' (by omega) false (hbefore j' hj')

theorem bitmap_ffz_loop_least (m : bitmap_t) (lbc lbi : Nat) :
    ∀ fuel i,
      (bitmap_ffz_loop m lbc lbi fuel i = SIZE_MAX ∧
        ∀ i' j, i ≤ i' → i' < i + fuel → j < 8 → j < (if i' = lbi then lbc else 8) →
          (m.data i').testBit j = true) ∨
      (∃ i' j, i ≤ i' ∧ i' < i + fuel ∧ j < 8 ∧ j < (if i' = lbi then lbc else 8) ∧
        bitmap_ffz_loop m lbc lbi fuel i = i' * 8 + j ∧ (m.data i').testBit j = false ∧
        (∀ j', j' < j → (m.data i').testBit j' = true) ∧
        ∀ i2 j2, i ≤ i2 → i2 < i' → j2 < 8 → j2 < (if i2 = lbi then lbc else 8) →
          (m.data i2).testBit j2 = true) := by
  intro fuel
  induction fuel with
  | zero =>
    intro i
    left
    refine ⟨rfl, ?_⟩
    intro i' j h1 h2
    omega
  | succ fuel ih =>
    intro i
    unfold bitmap_ffz_loop
    dsimp only
    rcases _uint8_ffs_n_least (m.data i) (if i = lbi then lbc else 8) with
      ⟨e, hall⟩ | ⟨j, hj, hl, e, ht, hbefore⟩
    · rw [e, if_neg (fun hc => hc rfl)]
      rcases ih (i + 1) with ⟨e2, hall2⟩ | ⟨i', j, h1, h2, h3, h4, e2, h5, h6, h7⟩
      · left
        refine ⟨e2, ?_⟩
        intro i' j h1 h2 h3 h4
        by_cases hi : i' = i
        · rw [hi] at h4 ⊢
          exact hall j h3 h4
        · exact hall2 i' j (by omega) (by omega) h3 h4
      · right
        refine ⟨i', j, by omega, by omega, h3, h4, e2, h5, h6, ?_⟩
        intro i2 j2 g1 g2 g3 g4
        by_cases hi : i2 = i
        · rw [hi] at g4 ⊢
          exact hall j2 g3 g4
        · exact h7 i2 j2 (by omega) g2 g3 g4
    · have hne : j ≠ UINT8_MAX := by
        show j ≠ 255
        omega
      rw [e, if_pos hne]
      right
      refine ⟨i, j, Nat.le_refl _, by omega, hj, hl, rfl, ht, hbefore, ?_⟩
      intro i2 j2 g1 g2
      omega

/-- What `bitmap_ffz` returns on a bitmap of `n` bits (`1 ≤ n`) in
`⌈n / 8⌉` bytes: the least index below `n` whose bit is clear, or `SIZE_MAX`
when the `n` bits are all set, whatever the padding bits hold. -/
theorem bitmap_ffz_spec (m : bitmap_t) (hn : 1 ≤ m.bit_count) (hlt : m.bit_count < 2 ^ 64)
    (hb : m.byte_count = m.bit_count / 8 + (if m.bit_count % 8 = 0 then 0 else 1)) :
    (bitmap_ffz m = SIZE_MAX ∧ ∀ k, k < m.bit_count → bitmap_test m k = true) ∨
    (bitmap_ffz m < m.bit_count ∧ bitmap_test m (bitmap_ffz m) = false ∧
      ∀ k, k < bitmap_ffz m → bitmap_test m k = true) := by
  have h64 : (2 : Nat) ^ 64 = 18446744073709551616 := by norm_num
  rw [h64] at hlt
  have hB : 1 ≤ m.byte_count ∧ m.byte_count < 18446744073709551616 := by
    rw [hb]
    split <;> omega
  have hlbi : (m.byte_count + SIZE_MAX) % 2 ^ 64 = m.byte_count - 1 := by
    show (m.byte_count + (2 ^ 64 - 1)) % 2 ^ 64 = m.byte_count - 1
    rw [h64]
    omega
  have hlim : ∀ k, k < m.bit_count ↔ (k / 8 < m.byte_count ∧
      k % 8 < (if k / 8 = m.byte_count - 1 then
        (if m.bit_count % 8 = 0 then 8 else m.bit_count % 8) else 8)) := by
    intro k
    rw [hb]
    by_cases h8 : m.bit_count % 8 = 0
    · rw [if_pos h8, if_pos h8]
      split <;> omega
    · rw [if_neg h8, if_neg h8]
      split <;> omega
  unfold bitmap_ffz
  dsimp only
  rw [hlbi]
  rcases bitmap_ffz_loop_least m (if m.bit_count % 8 = 0 then 8 else m.bit_count % 8)
      (m.byte_count - 1) m.byte_count 0 with
    ⟨e, hall⟩ | ⟨i', j, h1, h2, h3, h4, e, h5, h6, h7⟩
  · left
    refine ⟨e, ?_⟩
    intro k hk
    rw [bitmap_test_eq_testBit]
    obtain ⟨a, b⟩ := (hlim k).1 hk
    exact hall (k / 8) (k % 8) (Nat.zero_le _) (by omega) (Nat.mod_lt _ (by decide)) b
  · right
    rw [e]
    have d1 : (i' * 8 + j) / 8 = i' := by omega
    have d2 : (i' * 8 + j) % 8 = j := by omega
    refine ⟨?_, ?_, ?_⟩
    · rw [hlim, d1, d2]
      exact ⟨by omega, h4⟩
    · rw [bitmap_test_eq_testBit, d1, d2]
      exact h5
    · intro k hk
      rw [bitmap_test_eq_testBit]
      by_cases hki : k / 8 = i'
      · rw [hki]
        exact h6 (k % 8) (by omega)
      · have hkb : k / 8 < i' := by omega
        have hkl : k < m.bit_count := by
          have : i' * 8 + j < m.bit_count := by
            rw [hlim, d1, d2]
            exact ⟨by omega, h4⟩
          omega
        exact h7 (k / 8) (k % 8) (Nat.zero_le _) hkb (Nat.mod_lt _ (by decide)) ((hlim k).1 hkl).2

/-! ## Allocation in the block store -/

/-- What `block_store_request` does: it marks block `id` when `id` is a block
of the store that is free, and else changes nothing. -/
theorem block_store_request_cases (bs : block_store_t) (id : Nat) :
    (id < 65536 ∧ ¬ block_used bs id ∧
        block_store_request bs id = (true, bs.set_fbm (bitmap_set bs.fbm id).2)) ∨
    (¬ (id < 65536 ∧ ¬ block_used bs id) ∧ block_store_request bs id = (false, bs)) := by
  unfold block_store_request block_used
  by_cases h1 : id ≥ BLOCK_STORE_NUM_BLOCKS
  · right
    rw [if_pos h1]
    have : ¬ id < 65536 := Nat.not_lt.2 h1
    exact ⟨fun hc => this hc.1, rfl⟩
  · rw [if_neg h1]
    have h2 : id < 65536 := Nat.lt_of_not_le h1
    by_cases h3 : bitmap_test bs.fbm id = true
    · right
      rw [if_pos h3]
      exact ⟨fun hc => hc.2 h3, rfl⟩
    · left
      rw [if_neg h3]
      exact ⟨h2, h3, rfl⟩

/-- The bits of the free-block map after block `id` is marked, and the blocks
that the map does not overlay. -/
theorem set_fbm_marks (bs : block_store_t) (id : Nat) (hid : id < 65536) :
    (∀ i, i < 65536 →
      (block_used (bs.set_fbm (bitmap_set bs.fbm id).2) i ↔ block_used bs i ∨ i = id)) ∧
    ∀ b, b < 65528 → (bs.set_fbm (bitmap_set bs.fbm id).2).blocks b = bs.blocks b := by
  constructor
  · intro i hi
    unfold block_used
    rw [fbm_test_after_set bs id i hid hi]
    by_cases h : i = id
    · simp only [h, decide_True, Bool.or_true, or_true]
    · simp only [h, decide_False, Bool.or_false, or_false]
  · intro b hb
    unfold block_store_t.set_fbm
    funext o
    show (if BITMAP_START_BLOCK ≤ b ∧ b < BITMAP_START_BLOCK + BITMAP_NUM_BLOCKS ∧
        o < BLOCK_SIZE_BYTES then _ else bs.blocks b o) = bs.blocks b o
    have : ¬ (BITMAP_START_BLOCK ≤ b ∧ b < BITMAP_START_BLOCK + BITMAP_NUM_BLOCKS ∧
        o < BLOCK_SIZE_BYTES) := by
      intro hc
      have : 65528 ≤ b := hc.1
      omega
    rw [if_neg this]

/-- What `block_store_allocate` does: when every block is in use it returns
`SIZE_MAX` and changes nothing; else it marks the free block of least number
and returns that number. -/
theorem block_store_allocate_spec (bs : block_store_t) :
    (block_store_allocate bs = (SIZE_MAX, bs) ∧ ∀ i, i < 65536 → block_used bs i) ∨
    (∃ id, id < 65536 ∧ ¬ block_used bs id ∧ (∀ k, k < id → block_used bs k) ∧
      block_store_allocate bs = (id, bs.set_fbm (bitmap_set bs.fbm id).2)) := by
  have hb1 : 1 ≤ bs.fbm.bit_count := by
    show 1 ≤ 65536
    decide
  have hb2 : bs.fbm.bit_count < 2 ^ 64 := by
    show 65536 < 2 ^ 64
    decide
  have hspec := bitmap_ffz_spec bs.fbm hb1 hb2 rfl
  unfold block_store_allocate
  dsimp only
  rcases hspec with ⟨e, hall⟩ | ⟨h1, h2, h3⟩
  · left
    have hall2 : ∀ i, i < 65536 → block_used bs i := fun i hi => hall i hi
    rcases block_store_request_cases bs (bitmap_ffz bs.fbm) with ⟨a, _, _⟩ | ⟨_, c⟩
    · rw [e] at a
      exact absurd a (by decide)
    · rw [c]
      exact ⟨rfl, hall2⟩
  · right
    have h1a : bitmap_ffz bs.fbm < 65536 := h1
    rcases block_store_request_cases bs (bitmap_ffz bs.fbm) with ⟨_, _, c⟩ | ⟨a, _⟩
    · rw [c]
      refine ⟨_, h1a, ?_, h3, rfl⟩
      unfold block_used
      rw [h2]
      exact Bool.false_ne_true
    · exfalso
      apply a
      refine ⟨h1a, ?_⟩
      unfold block_used
      rw [h2]
      exact Bool.false_ne_true

/-- An allocation fails only in a store whose blocks are all in use. -/
theorem block_store_allocate_full (bs bs1 : block_store_t)
    (h : block_store_allocate bs = (SIZE_MAX, bs1)) : ∀ i, i < 65536 → block_used bs i := by
  intro i hi
  rcases block_store_allocate_spec bs with ⟨_, hall⟩ | ⟨id, a, _, _, d⟩
  · exact hall i hi
  · rw [d] at h
    have e : id = SIZE_MAX := (Prod.mk.inj h).1
    rw [e] at a
    exact absurd a (by decide)

/-- The exit of `_inode_add_owned_block` through `err2` releases only blocks
that this call allocated: the file is as it was. -/
theorem err2_frame (fs : FS_t) (inode : inode_t) (nb : Nat) (fsx : FS_t) (inodex : inode_t)
    (a c : Nat) (r : Int) (h : tree_ok fs.BlockStore_whole inode nb)
    (hres : reserved_used fs.BlockStore_whole)
    (hfd : fsx.BlockStore_fd = fs.BlockStore_fd)
    (htbl : ∀ i, i ≠ inode.inum → fsx.inode_table i = fs.inode_table i)
    (hmono : ∀ b, b < 65536 → block_used fs.BlockStore_whole b →
      block_used fsx.BlockStore_whole b)
    (hsame : ∀ b, b < 65528 → fsx.BlockStore_whole.blocks b = fs.BlockStore_whole.blocks b)
    (ha : a = SIZE_MAX ∨ (a < 65536 ∧ ¬ block_used fs.BlockStore_whole a))
    (hc : c = SIZE_MAX ∨ (c < 65536 ∧ ¬ block_used fs.BlockStore_whole c))
    (hdir : ∀ k, k < 6 → k < nb → inodex.data_direct k = inode.data_direct k)
    (hind : 6 < nb → inodex.data_indirect = inode.data_indirect)
    (hdbl : 518 < nb → inodex.data_double_indirect = inode.data_double_indirect)
    (size_eq : inodex.file_size = inode.file_size) (inum_eq : inodex.inum = inode.inum)
    (ptrs : inode_ptrs_ok inodex)
    (hexact : ∀ b, b < 65536 → block_used fsx.BlockStore_whole b →
      block_used fs.BlockStore_whole b ∨ b = a ∨ b = c)
    (hmeta : inodex.file_type = inode.file_type ∧ inodex.dir_entry_map = inode.dir_entry_map ∧
      inodex.link_count = inode.link_count)
    (hfull : ∀ b, b < 65536 → block_used fsx.BlockStore_whole b) :
    ∃ fs1, _inode_add_owned_block_err2 r fsx inodex a SIZE_MAX c = (r, fs1, inodex) ∧
      append_frame fs inode nb fs1 inodex ∧
      (∀ b, b < 65536 →
        (block_used fs1.BlockStore_whole b ↔ block_used fs.BlockStore_whole b)) ∧
      few_free fs.BlockStore_whole := by
  unfold _inode_add_owned_block_err2
  dsimp only
  refine ⟨_, rfl, ?_⟩
  have hup : ∀ (bsx : block_store_t) (x : Nat) (S : Nat → Prop), (x = SIZE_MAX ∨ x < 65536) →
      (∀ b, b < 65536 → block_used bsx b → block_used fs.BlockStore_whole b ∨ b = x ∨ S b) →
      (∀ b, b < 65536 →
        block_used (if x ≠ SIZE_MAX then block_store_release bsx x else bsx) b →
        block_used fs.BlockStore_whole b ∨ S b) := by
    intro bsx x S hx hb b hlt hu
    by_cases hxm : x = SIZE_MAX
    · rw [if_neg (by simpa using hxm)] at hu
      rcases hb b hlt hu with h1 | h1 | h1
      · exact Or.inl h1
      · exfalso
        rw [h1, hxm] at hlt
        exact absurd hlt (by decide)
      · exact Or.inr h1
    · rw [if_pos hxm] at hu
      rcases hx with hx | hx
      · exact absurd hx hxm
      · rw [(block_store_release_used bsx x hx).1 b hlt] at hu
        rcases hb b hlt hu.1 with h1 | h1 | h1
        · exact Or.inl h1
        · exact absurd h1 hu.2
        · exact Or.inr h1
  have hax : a = SIZE_MAX ∨ a < 65536 := by
    rcases ha with h1 | h1
    · exact Or.inl h1
    · exact Or.inr h1.1
  have hcx : c = SIZE_MAX ∨ c < 65536 := by
    rcases hc with h1 | h1
    · exact Or.inl h1
    · exact Or.inr h1.1
  have u1 := hup fsx.BlockStore_whole a (fun b => b = c) hax hexact
  have u2 := hup _ SIZE_MAX (fun b => b = c) (Or.inl rfl)
    (fun b hb hu => (u1 b hb hu).elim Or.inl (fun h => Or.inr (Or.inr h)))
  have u3 := hup _ c (fun _ => False) hcx
    (fun b hb hu => (u2 b hb hu).elim Or.inl (fun h => Or.inr (Or.inl h)))
  have hstep : ∀ (bsx : block_store_t) (x : Nat),
      (x = SIZE_MAX ∨ (x < 65536 ∧ ¬ block_used fs.BlockStore_whole x)) →
      ((∀ b, b < 65536 → block_used fs.BlockStore_whole b → block_used bsx b) ∧
        (∀ b, b < 65528 → bsx.blocks b = fs.BlockStore_whole.blocks b)) →
      ((∀ b, b < 65536 → block_used fs.BlockStore_whole b →
          block_used (if x ≠ SIZE_MAX then block_store_release bsx x else bsx) b) ∧
        (∀ b, b < 65528 → (if x ≠ SIZE_MAX then block_store_release bsx x else bsx).blocks b
          = fs.BlockStore_whole.blocks b)) := by
    intro bsx x hx hb
    by_cases hxm : x = SIZE_MAX
    · rw [if_neg (by simpa using hxm)]
      exact hb
    · rw [if_pos hxm]
      rcases hx with hx | ⟨hx1, hx2⟩
      · exact absurd hx hxm
      · exact release_keeps _ _ _ hx1 hx2 hb.1 hb.2
  have h1 := hstep fsx.BlockStore_whole a ha ⟨hmono, hsame⟩
  have h2 := hstep _ SIZE_MAX (Or.inl rfl) h1
  have h3 := hstep _ c hc h2
  refine ⟨append_frame_fresh fs inode nb _ inodex h (fun b hb _ => h3.2 b hb) hres hdir hind hdbl
    size_eq inum_eq ptrs h3.1 hfd htbl hmeta, ?_,
    ⟨a, c, fun b hb => hexact b hb (hfull b hb)⟩⟩
  intro b hb
  exact ⟨fun hu => (u3 b hb hu).elim id False.elim, h3.1 b hb⟩

/-- The function `_inode_add_owned_block` on a sound file of `nb` blocks, below
the maximal number of blocks: either it returns -2 and the file is as it was,
or it returns the number of a block that was free, now block `nb` of the file,
whose tree is sound again; it never returns -1. -/
theorem _inode_add_owned_block_spec (fs : FS_t) (inode : inode_t) (nb : Nat) (r : Int)
    (fs1 : FS_t) (inode1 : inode_t)
    (hnb : ceil_blocks inode.file_size = nb) (htree : tree_ok fs.BlockStore_whole inode nb)
    (hp : inode_ptrs_ok inode) (hres : reserved_used fs.BlockStore_whole)
    (hinum : inode.inum < 256) (hlt : nb < 262662)
    (h : _inode_add_owned_block fs inode = (r, fs1, inode1)) :
    append_frame fs inode nb fs1 inode1 ∧
      ((r = -2 ∧ (∀ b, b < 65536 →
          (block_used fs1.BlockStore_whole b ↔ block_used fs.BlockStore_whole b)) ∧
          few_free fs.BlockStore_whole) ∨
        ∃ new : Nat, r = (new : Int) ∧
        grown_ok fs.BlockStore_whole nb fs1.BlockStore_whole inode1 ∧
        file_block fs1.BlockStore_whole inode1 nb = new) := by
  have fin : ∀ (new : Nat) (fsf : FS_t) (inodef : inode_t),
      append_frame fs inode nb fsf inodef ∧
        grown_ok fs.BlockStore_whole nb fsf.BlockStore_whole inodef ∧
        file_block fsf.BlockStore_whole inodef nb = new →
      ((new : Int), fsf, inodef) = (r, fs1, inode1) →
      append_frame fs inode nb fs1 inode1 ∧
      ((r = -2 ∧ (∀ b, b < 65536 →
          (block_used fs1.BlockStore_whole b ↔ block_used fs.BlockStore_whole b)) ∧
          few_free fs.BlockStore_whole) ∨
        ∃ new : Nat, r = (new : Int) ∧
        grown_ok fs.BlockStore_whole nb fs1.BlockStore_whole inode1 ∧
        file_block fs1.BlockStore_whole inode1 nb = new) := by
    intro new fsf inodef hres2 he
    simp only [Prod.mk.injEq] at he
    obtain ⟨e1, e2, e3⟩ := he
    subst e1 e2 e3
    exact ⟨hres2.1, Or.inr ⟨new, rfl, hres2.2.1, hres2.2.2⟩⟩
  have fail : ∀ (fsx : FS_t) (inodex : inode_t) (a c : Nat),
      _inode_add_owned_block_err2 (-2) fsx inodex a SIZE_MAX c = (r, fs1, inode1) →
      (∃ fsf, _inode_add_owned_block_err2 (-2) fsx inodex a SIZE_MAX c = (-2, fsf, inodex) ∧
        append_frame fs inode nb fsf inodex ∧ (∀ b, b < 65536 →
          (block_used fsf.BlockStore_whole b ↔ block_used fs.BlockStore_whole b)) ∧
          few_free fs.BlockStore_whole) →
      append_frame fs inode nb fs1 inode1 ∧
      ((r = -2 ∧ (∀ b, b < 65536 →
          (block_used fs1.BlockStore_whole b ↔ block_used fs.BlockStore_whole b)) ∧
          few_free fs.BlockStore_whole) ∨
        ∃ new : Nat, r = (new : Int) ∧
        grown_ok fs.BlockStore_whole nb fs1.BlockStore_whole inode1 ∧
        file_block fs1.BlockStore_whole inode1 nb = new) := by
    intro fsx inodex a c he hx
    obtain ⟨fsf, hf1, hf2⟩ := hx
    rw [hf1] at he
    simp only [Prod.mk.injEq] at he
    obtain ⟨e1, e2, e3⟩ := he
    subst e1 e2 e3
    exact ⟨hf2.1, Or.inl ⟨rfl, hf2.2⟩⟩
  unfold _inode_add_owned_block at h
  cases hal1 : block_store_allocate fs.BlockStore_whole with
  | mk new bsa =>
  rw [hal1] at h
  dsimp only at h
  by_cases hnew : new = SIZE_MAX
  · rw [if_pos hnew] at h
    subst hnew
    have hfull := block_store_allocate_full _ _ hal1
    have e := block_store_allocate_none _ _ hal1
    subst e
    exact fail _ _ _ _ h (err2_frame fs inode nb _ inode SIZE_MAX SIZE_MAX (-2) htree hres rfl
      (fun _ _ => rfl) (fun _ _ hu => hu) (fun _ _ => rfl) (Or.inl rfl) (Or.inl rfl)
      (fun _ _ _ => rfl) (fun _ => rfl) (fun _ => rfl) rfl rfl hp (fun _ _ hu => Or.inl hu) ⟨rfl, rfl, rfl⟩ hfull)
  rw [if_neg hnew, hnb] at h
  obtain ⟨hlt1, hfree1, hused1, hsame1⟩ := block_store_allocate_used _ _ _ hal1 hnew
  have hresa : reserved_used bsa :=
    reserved_used_mono _ bsa hres (fun b hb hu => (hused1 b hb).2 (Or.inl hu))
  by_cases h6 : nb < FD_DIRECT_MAX_PTRS
  · -- direct
    rw [if_pos h6, _BS_INODE_WRITE_of_lt _ _ _ hinum] at h
    exact fin new _ _ (append_direct fs inode nb new bsa htree hp hres h6 hal1 hnew) h
  rw [if_neg h6] at h
  have h6b : 6 ≤ nb := Nat.le_of_not_lt h6
  by_cases h518 : nb < FD_INDIRECT_MAX_PTRS
  · -- indirect
    rw [if_pos h518] at h
    have h518b : nb < 518 := h518
    by_cases hi0 : nb - FD_DIRECT_MAX_PTRS = 0
    · have hnb6 : nb = 6 := by
        have : nb - 6 = 0 := hi0
        omega
      subst hnb6
      rw [if_pos hi0] at h
      cases hal2 : block_store_allocate bsa with
      | mk ni bsb =>
      rw [hal2] at h
      dsimp only at h
      by_cases hni : ni = SIZE_MAX
      · rw [if_pos hni] at h
        subst hni
        have hfull := block_store_allocate_full _ _ hal2
        have e := block_store_allocate_none _ _ hal2
        subst e
        exact fail _ _ _ _ h (err2_frame fs inode 6 _ inode SIZE_MAX new (-2) htree hres rfl
          (fun _ _ => rfl) (fun b hb hu => (hused1 b hb).2 (Or.inl hu)) hsame1 (Or.inl rfl)
          (Or.inr ⟨hlt1, hfree1⟩) (fun _ _ _ => rfl) (fun _ => rfl) (fun _ => rfl) rfl rfl hp
          (fun b hb hu => ((hused1 b hb).1 hu).elim Or.inl (fun h => Or.inr (Or.inr h)))
          ⟨rfl, rfl, rfl⟩ hfull)
      · rw [if_neg hni] at h
        obtain ⟨hlt2, _, _, _⟩ := block_store_allocate_used _ _ _ hal2 hni
        rw [Nat.mod_eq_of_lt hlt2, _BS_INODE_WRITE_of_lt _ _ _ hinum] at h
        dsimp only at h
        rw [_inode_add_owned_block_ind_eq _ _ _ _ _ (by show ni < 65536; exact hlt2)] at h
        exact fin new _ _
          (append_indirect_first fs inode new ni bsa bsb htree hp hres hal1 hnew hal2 hni) h
    · rw [if_neg hi0] at h
      have hnb7 : 6 < nb := by
        have : nb - 6 ≠ 0 := hi0
        omega
      rw [_inode_add_owned_block_ind_eq _ _ _ _ _ hp.2.1] at h
      exact fin new _ _ (append_indirect fs inode nb new bsa htree hp hres hnb7 h518b hal1 hnew) h
  rw [if_neg h518] at h
  have h518b : 518 ≤ nb := Nat.le_of_not_lt h518
  have hmax : nb < FD_DOUBLE_INDIRECT_MAX_PTRS := hlt
  rw [if_pos hmax] at h
  by_cases hd0 : nb - FD_INDIRECT_MAX_PTRS = 0
  · -- the first block of the double-indirect range
    have hnb518 : nb = 518 := by
      have : nb - 518 = 0 := hd0
      omega
    subst hnb518
    rw [if_pos hd0] at h
    cases hal2 : block_store_allocate bsa with
    | mk nd bsb =>
    rw [hal2] at h
    dsimp only at h
    by_cases hnd : nd = SIZE_MAX
    · rw [if_pos hnd] at h
      subst hnd
      have hfull := block_store_allocate_full _ _ hal2
      have e := block_store_allocate_none _ _ hal2
      subst e
      exact fail _ _ _ _ h (err2_frame fs inode 518 _ inode SIZE_MAX new (-2) htree hres rfl
        (fun _ _ => rfl) (fun b hb hu => (hused1 b hb).2 (Or.inl hu)) hsame1 (Or.inl rfl)
        (Or.inr ⟨hlt1, hfree1⟩) (fun _ _ _ => rfl) (fun _ => rfl) (fun _ => rfl) rfl rfl hp
          (fun b hb hu => ((hused1 b hb).1 hu).elim Or.inl (fun h => Or.inr (Or.inr h)))
          ⟨rfl, rfl, rfl⟩ hfull)
    · rw [if_neg hnd] at h
      obtain ⟨⟨_, _, _⟩, ⟨y0, y1, yfree⟩, _, _, _, hused2, hsame2, _⟩ :=
        allocate_twice _ _ _ _ _ hres hal1 hnew hal2 hnd
      rw [Nat.mod_eq_of_lt (show nd < 65536 by omega), _BS_INODE_WRITE_of_lt _ _ _ hinum] at h
      dsimp only at h
      rcases _inode_add_owned_block_dbl1_eq
          (({ fs with BlockStore_whole := bsb } : FS_t).set_inode inode.inum
            { inode with data_double_indirect := nd })
          { inode with data_double_indirect := nd } (518 - FD_INDIRECT_MAX_PTRS) nd new
          (by show nd < 65536; omega) with ⟨hc, _⟩ | ⟨_, hal3, he⟩ | ⟨_, ni, bsc, hni, hal3, he⟩
      · exact absurd rfl hc
      · rw [he] at h
        exact fail _ _ _ _ h (err2_frame fs inode 518 _ { inode with data_double_indirect := nd }
          nd new (-2) htree hres rfl
          (fun i hi => by
            show (if i = inode.inum then _ else fs.inode_table i) = _
            rw [if_neg hi])
          (fun b hb hu => (hused2 b hb).2 (Or.inl hu)) hsame2
          (Or.inr ⟨by omega, yfree⟩) (Or.inr ⟨hlt1, hfree1⟩) (fun _ _ _ => rfl) (fun _ => rfl)
          (fun hc => by omega) rfl rfl ⟨hp.1, hp.2.1, by show nd < 65536; omega⟩
          (fun b hb hu => by
            rcases (hused2 b hb).1 hu with h | h | h
            · exact Or.inl h
            · exact Or.inr (Or.inr h)
            · exact Or.inr (Or.inl h))
          ⟨rfl, rfl, rfl⟩ (block_store_allocate_full _ _ hal3))
      · rw [he] at h
        exact fin new _ _
          (append_double_first fs inode new nd ni bsa bsb bsc htree hp hres hal1 hnew hal2 hnd
            hal3 hni) h
  · rw [if_neg hd0] at h
    have hnb519 : 518 < nb := by
      have : nb - 518 ≠ 0 := hd0
      omega
    rcases _inode_add_owned_block_dbl1_eq ({ fs with BlockStore_whole := bsa } : FS_t) inode
        (nb - FD_INDIRECT_MAX_PTRS) SIZE_MAX new hp.2.2 with
      ⟨hc, he⟩ | ⟨_, hal2, he⟩ | ⟨hc, ni, bsb, hni, hal2, he⟩
    · rw [he] at h
      exact fin new _ _ (append_double_cell fs inode nb new bsa htree hp hres h518b hc hal1 hnew) h
    · rw [he] at h
      exact fail _ _ _ _ h (err2_frame fs inode nb _ inode SIZE_MAX new (-2) htree hres rfl
        (fun _ _ => rfl) (fun b hb hu => (hused1 b hb).2 (Or.inl hu)) hsame1 (Or.inl rfl)
        (Or.inr ⟨hlt1, hfree1⟩) (fun _ _ _ => rfl) (fun _ => rfl) (fun _ => rfl) rfl rfl hp
          (fun b hb hu => ((hused1 b hb).1 hu).elim Or.inl (fun h => Or.inr (Or.inr h)))
          ⟨rfl, rfl, rfl⟩ (block_store_allocate_full _ _ hal2))
    · rw [he] at h
      exact fin new _ _
        (append_double_block fs inode nb new ni bsa bsb htree hp hres hnb519 hc hal1 hnew hal2
          hni) h

/-! ## The loop of `fs_write` -/

/-- A sound tree names each of its data blocks once, among the 65527 data
blocks of the store: the file has at most so many blocks. -/
theorem tree_ok_blocks_le (bs : block_store_t) (inode : inode_t) (nb : Nat)
    (h : tree_ok bs inode nb) : nb ≤ 65528 := by
  have hinj : Function.Injective (fun k : Fin nb =>
      (⟨slot_block bs inode (tree_slot.data k.1), (h.range (tree_slot.data k.1) k.2).2.1⟩ :
        Fin 65528)) := by
    intro a b hab
    have h1 : slot_block bs inode (tree_slot.data a.1) = slot_block bs inode (tree_slot.data b.1) :=
      Fin.mk.inj_iff.1 hab
    have h2 := h.inj (tree_slot.data a.1) (tree_slot.data b.1) a.2 b.2 h1
    exact Fin.ext (tree_slot.data.inj h2)
  have hc := Fintype.card_le_of_injective _ hinj
  rw [Fintype.card_fin, Fintype.card_fin] at hc
  exact hc

/-- A write to a data block of the file leaves every slot of the tree as it
was: no pointer is read from a data block. -/
theorem hold_data_write (bs bs1 : block_store_t) (inode inode1 : inode_t) (nb k0 : Nat)
    (h : tree_ok bs inode nb) (hk0 : k0 < nb)
    (hblocks : ∀ b, b ≠ file_block bs inode k0 → bs1.blocks b = bs.blocks b)
    (hdir : ∀ k, k < 6 → inode1.data_direct k = inode.data_direct k)
    (hind : inode1.data_indirect = inode.data_indirect)
    (hdbl : inode1.data_double_indirect = inode.data_double_indirect) :
    ∀ s, slot_live nb s → slot_block bs1 inode1 s = slot_block bs inode s := by
  have hne : ∀ s, slot_live nb s → s ≠ tree_slot.data k0 →
      slot_block bs inode s ≠ file_block bs inode k0 := by
    intro s hs hn hc
    exact hn (h.inj s (tree_slot.data k0) hs hk0 hc)
  intro s hs
  cases s with
  | data k =>
    have hk : k < nb := hs
    show file_block bs1 inode1 k = file_block bs inode k
    unfold file_block
    by_cases h1 : k < 6
    · have h1a : k < FD_DIRECT_MAX_PTRS := h1
      rw [if_pos h1a, if_pos h1a]
      exact hdir k h1
    · have h1a : ¬ k < FD_DIRECT_MAX_PTRS := h1
      rw [if_neg h1a, if_neg h1a]
      by_cases h2 : k < 518
      · have h2a : k < FD_INDIRECT_MAX_PTRS := h2
        rw [if_pos h2a, if_pos h2a, hind,
          hblocks inode.data_indirect
            (hne tree_slot.ind (by show 6 < nb; omega) (fun hc => tree_slot.noConfusion hc))]
      · have h2a : ¬ k < FD_INDIRECT_MAX_PTRS := h2
        rw [if_neg h2a, if_neg h2a, hdbl,
          hblocks inode.data_double_indirect
            (hne tree_slot.dbl (by show 518 < nb; omega) (fun hc => tree_slot.noConfusion hc))]
        have e1 : (k - FD_INDIRECT_MAX_PTRS) / BLOCK_PTRS_PER_BLOCK = (k - 518) / 512 := rfl
        rw [e1]
        have hl : slot_live nb (tree_slot.ind2 ((k - 518) / 512)) := by
          show 518 + 512 * ((k - 518) / 512) < nb
          omega
        rw [hblocks (ind_get (bs.blocks inode.data_double_indirect) ((k - 518) / 512))
          (hne (tree_slot.ind2 ((k - 518) / 512)) hl (fun hc => tree_slot.noConfusion hc))]
  | ind =>
    exact hind
  | dbl =>
    exact hdbl
  | ind2 j =>
    have hj : 518 + 512 * j < nb := hs
    show ind_get (bs1.blocks inode1.data_double_indirect) j =
      ind_get (bs.blocks inode.data_double_indirect) j
    rw [hdbl,
      hblocks inode.data_double_indirect
        (hne tree_slot.dbl (by show 518 < nb; omega) (fun hc => tree_slot.noConfusion hc))]

/-- The conversion to `double` of a size of `2 ^ 53` or more loses less than
`2 ^ 11`. -/
theorem double_of_size_t_large (x : Nat) (h : 2 ^ 53 ≤ x) : 2 ^ 52 ≤ double_of_size_t x := by
  unfold double_of_size_t
  rw [if_neg (Nat.not_lt.2 h)]
  dsimp only
  generalize he : ((List.range 12).find? (fun e => decide (x < 2 ^ (53 + e)))).getD 11 = e
  have hle : e ≤ 11 := by
    cases hf : (List.range 12).find? (fun e => decide (x < 2 ^ (53 + e))) with
    | none =>
      rw [hf] at he
      simp at he
      omega
    | some y =>
      rw [hf] at he
      simp at he
      have hm := List.mem_of_find?_eq_some hf
      simp at hm
      omega
  have h2 : 2 ^ e ≤ 2 ^ 11 := Nat.pow_le_pow_right (by decide) hle
  have hq : 2 ^ e * (x / 2 ^ e) + x % 2 ^ e = x := Nat.div_add_mod x (2 ^ e)
  have hr : x % 2 ^ e < 2 ^ e := Nat.mod_lt _ (Nat.pow_pos (by decide))
  have hm : x / 2 ^ e * 2 ^ e ≤
      (if x % 2 ^ e > 2 ^ (e - 1) ∨ x % 2 ^ e = 2 ^ (e - 1) ∧ x / 2 ^ e % 2 = 1
        then x / 2 ^ e + 1 else x / 2 ^ e) * 2 ^ e := by
    apply Nat.mul_le_mul_right
    split
    · exact Nat.le_succ _
    · exact Nat.le_refl _
  refine Nat.le_trans ?_ hm
  rw [Nat.mul_comm]
  generalize 2 ^ e * (x / 2 ^ e) = A at hq ⊢
  generalize x % 2 ^ e = B at hq hr
  generalize 2 ^ e = C at h2 hr
  have h11 : (2 : Nat) ^ 11 = 2048 := by decide
  have h53 : (2 : Nat) ^ 53 = 9007199254740992 := by norm_num
  have h52 : (2 : Nat) ^ 52 = 4503599627370496 := by norm_num
  rw [h11] at h2
  rw [h53] at h
  rw [h52]
  omega

/-- For a count of `2 ^ 53` bytes or more, `fs_write` has room for the
numbers of more new blocks than the store has blocks. -/
theorem ceil_blocks_large (x : Nat) (h : 2 ^ 53 ≤ x) : 65536 ≤ ceil_blocks x := by
  have h1 := double_of_size_t_large x h
  unfold ceil_blocks
  show 65536 ≤ (double_of_size_t x + (1024 - 1)) / 1024
  have h52 : (2 : Nat) ^ 52 = 4503599627370496 := by norm_num
  rw [h52] at h1
  omega

/-- C27: on a bitmap of `n ≥ 1` bits held in `⌈n / 8⌉` bytes, `bitmap_ffz`
returns `SIZE_MAX` exactly when the `n` bits are all set, and otherwise the
least index below `n` whose bit is clear: it never returns an index at or
above `n`, whatever the padding bits of the last byte hold. -/
theorem bitmap_ffz_returns_least_clear_bit (m : bitmap_t) (hn : 1 ≤ m.bit_count)
    (hlt : m.bit_count < 2 ^ 64)
    (hb : m.byte_count = m.bit_count / 8 + (if m.bit_count % 8 = 0 then 0 else 1)) :
    (bitmap_ffz m = SIZE_MAX ↔ ∀ k, k < m.bit_count → bitmap_test m k = true) ∧
    (bitmap_ffz m ≠ SIZE_MAX →
      bitmap_ffz m < m.bit_count ∧ bitmap_test m (bitmap_ffz m) = false ∧
      ∀ k, k < bitmap_ffz m → bitmap_test m k = true) := by
  have h64 : (2 : Nat) ^ 64 = 18446744073709551616 := by norm_num
  rcases bitmap_ffz_spec m hn hlt hb with ⟨e, hall⟩ | ⟨h1, h2, h3⟩
  · exact ⟨⟨fun _ => hall, fun _ => e⟩, fun hc => absurd e hc⟩
  · have hne : bitmap_ffz m ≠ SIZE_MAX := by
      show bitmap_ffz m ≠ 2 ^ 64 - 1
      rw [h64] at hlt ⊢
      omega
    refine ⟨⟨fun hc => absurd hc hne, ?_⟩, fun _ => ⟨h1, h2, h3⟩⟩
    intro hall
    have := hall _ h1
    rw [h2] at this
    exact Bool.noConfusion this

theorem bitmap_ffz_returns_least_clear_bit_witness :
    bitmap_ffz bitmap_ten_full = SIZE_MAX ∧
    bitmap_test bitmap_ten_full 10 = false ∧
    ((bitmap_ffz bitmap_ten_full = SIZE_MAX ↔
        ∀ k, k < bitmap_ten_full.bit_count → bitmap_test bitmap_ten_full k = true) ∧
      (bitmap_ffz bitmap_ten_full ≠ SIZE_MAX →
        bitmap_ffz bitmap_ten_full < bitmap_ten_full.bit_count ∧
        bitmap_test bitmap_ten_full (bitmap_ffz bitmap_ten_full) = false ∧
        ∀ k, k < bitmap_ffz bitmap_ten_full → bitmap_test bitmap_ten_full k = true)) :=
  ⟨by decide!, by decide!,
    bitmap_ffz_returns_least_clear_bit bitmap_ten_full (by decide!) (by decide!) (by decide!)⟩

/-- C28: for an index `i` below `bit_count`, bit `i` is bit `i % 8` of byte
`i / 8`; `bitmap_set` and `bitmap_reset` return true, change only that bit of
that byte (to 1 and to 0), so that `bitmap_test` of `i` is true after the one
and false after the other and `bitmap_test` of every other index is
unchanged; with an index at or above `bit_count` both return false and leave
the bitmap as it was. -/
theorem bitmap_set_reset_test (m : bitmap_t) (i : Nat) (hi : i < m.bit_count) :
    bitmap_test m i = (m.data (i / 8)).testBit (i % 8) ∧
    (bitmap_set m i).1 = true ∧ bitmap_test (bitmap_set m i).2 i = true ∧
    (bitmap_reset m i).1 = true ∧ bitmap_test (bitmap_reset m i).2 i = false ∧
    (∀ j, j ≠ i → bitmap_test (bitmap_set m i).2 j = bitmap_test m j ∧
      bitmap_test (bitmap_reset m i).2 j = bitmap_test m j) ∧
    (∀ b, b ≠ i / 8 → (bitmap_set m i).2.data b = m.data b ∧
      (bitmap_reset m i).2.data b = m.data b) ∧
    (bitmap_set m i).2.data (i / 8) = m.data (i / 8) ||| 1 <<< (i % 8) ∧
    (bitmap_reset m i).2.data (i / 8) = m.data (i / 8) &&& (255 ^^^ 1 <<< (i % 8)) ∧
    (∀ k, m.bit_count ≤ k → bitmap_set m k = (false, m) ∧ bitmap_reset m k = (false, m)) := by
  have hs : bitmap_set m i = (true, { m with
      data := fun b => if b = i / 8 then m.data b ||| 1 <<< (i % 8) else m.data b }) := by
    unfold bitmap_set
    rw [if_neg (Nat.not_le.2 hi)]
  have hr : bitmap_reset m i = (true, { m with
      data := fun b => if b = i / 8 then m.data b &&& (255 ^^^ 1 <<< (i % 8)) else m.data b }) := by
    unfold bitmap_reset
    rw [if_neg (Nat.not_le.2 hi)]
  refine ⟨bitmap_test_eq_testBit m i, ?_, ?_, ?_, ?_, ?_, ?_, ?_, ?_, ?_⟩
  · rw [hs]
  · rw [bitmap_test_set m i i hi]
    simp only [decide_True, Bool.or_true]
  · rw [hr]
  · rw [bitmap_test_reset m i i hi]
    simp only [decide_True, Bool.not_true, Bool.and_false]
  · intro j hj
    rw [bitmap_test_set m i j hi, bitmap_test_reset m i j hi]
    simp only [hj, decide_False, Bool.or_false, Bool.not_false, Bool.and_true, and_self]
  · intro b hb
    rw [hs, hr]
    exact ⟨if_neg hb, if_neg hb⟩
  · rw [hs]
    exact if_pos rfl
  · rw [hr]
    exact if_pos rfl
  · intro k hk
    unfold bitmap_set bitmap_reset
    rw [if_pos hk, if_pos hk]
    exact ⟨rfl, rfl⟩

theorem bitmap_set_reset_test_witness :
    (3 < bitmap_ten_full.bit_count) ∧ bitmap_test bitmap_ten_full 3 = true ∧
    bitmap_test (bitmap_reset bitmap_ten_full 3).2 3 = false :=
  ⟨by decide!, by decide!,
    (bitmap_set_reset_test bitmap_ten_full 3 (by decide!)).2.2.2.2.1⟩

/-! ## The cursor decomposition -/

theorem _fd_cursor_get_of_usage (fd : fileDescriptor_t)
    (h : fd.usage = 1 ∨ fd.usage = 2 ∨ fd.usage = 4) (h1 : fd.locate_order < 262144)
    (h2 : fd.locate_offset < 1024) :
    _fd_cursor_get fd = (tier_base fd.usage + fd.locate_order) * 1024 + fd.locate_offset := by
  unfold _fd_cursor_get _fd_cursor_get_block_index tier_base
  rcases h with h | h | h <;> rw [h] <;>
    simp [BLOCK_SIZE_BYTES, FD_DIRECT_N_PTRS, FD_INDIRECT_N_PTRS, BLOCK_PTRS_PER_BLOCK,
      FD_DIRECT, FD_INDIRECT, FD_DOUBLE_INDIRECT] <;> omega

/-- C26: `_fd_cursor_set` is a function of the offset alone: offsets below 6144
give `FD_DIRECT` and block order `off / 1024`, offsets in `[6144, 530432)` give
`FD_INDIRECT` and `off / 1024 - 6`, offsets in `[530432, 268965888)` give
`FD_DOUBLE_INDIRECT` and `off / 1024 - 518`, the byte offset is `off % 1024`
and the inode number is kept; from 268965888 on it returns false (`none`: the
descriptor is not touched).  Offset 6154 gives `(FD_INDIRECT, 0, 10)`. -/
theorem _fd_cursor_set_by_offset (fd : fileDescriptor_t) (off : Nat) :
    (off < 6144 → _fd_cursor_set fd off =
      some { inum := fd.inum, usage := FD_DIRECT, locate_order := off / 1024,
             locate_offset := off % 1024 }) ∧
    (6144 ≤ off → off < 530432 → _fd_cursor_set fd off =
      some { inum := fd.inum, usage := FD_INDIRECT, locate_order := off / 1024 - 6,
             locate_offset := off % 1024 }) ∧
    (530432 ≤ off → off < 268965888 → _fd_cursor_set fd off =
      some { inum := fd.inum, usage := FD_DOUBLE_INDIRECT, locate_order := off / 1024 - 518,
             locate_offset := off % 1024 }) ∧
    (268965888 ≤ off → _fd_cursor_set fd off = none) ∧
    FD_DOUBLE_INDIRECT_MAX_OFF = 268965888 ∧
    _fd_cursor_set fd 6154 =
      some { inum := fd.inum, usage := FD_INDIRECT, locate_order := 0, locate_offset := 10 } := by
  refine ⟨fun h => _fd_cursor_set_direct fd off h, fun h1 h2 => _fd_cursor_set_indirect fd off h1 h2,
    fun h1 h2 => _fd_cursor_set_double fd off h1 h2, fun h => _fd_cursor_set_none fd off h,
    by decide, ?_⟩
  rw [_fd_cursor_set_indirect fd 6154 (by decide) (by decide)]

/-- C25: the cursor decomposition is a bijection between the offsets below
`(6 + 512 + 512 * 512) * 1024` and the well-formed descriptors of an inode:
`_fd_cursor_set` makes a well-formed descriptor whose `_fd_cursor_get` is the
offset, the cursor of a well-formed descriptor is
`(tier_base + locate_order) * 1024 + locate_offset` and lies below the bound,
and `_fd_cursor_set` at that cursor gives the descriptor back. -/
theorem cursor_decomposition_bijection :
    (6 + 512 + 512 * 512) * 1024 = FD_DOUBLE_INDIRECT_MAX_OFF ∧
    (∀ (fd : fileDescriptor_t) (off : Nat), off < FD_DOUBLE_INDIRECT_MAX_OFF →
      ∃ fd1, _fd_cursor_set fd off = some fd1 ∧ fd_well_formed fd1 ∧ fd1.inum = fd.inum ∧
        _fd_cursor_get fd1 = off) ∧
    (∀ fd : fileDescriptor_t, fd_well_formed fd →
      _fd_cursor_get fd = (tier_base fd.usage + fd.locate_order) * 1024 + fd.locate_offset ∧
      _fd_cursor_get fd < FD_DOUBLE_INDIRECT_MAX_OFF ∧
      _fd_cursor_set fd (_fd_cursor_get fd) = some fd) := by
  refine ⟨by decide, ?_, ?_⟩
  · intro fd off h
    have h0 : off < 268965888 := h
    obtain ⟨fd1, h1, h2, _, h4, h5, _, _⟩ := _fd_cursor_set_spec fd off h0
    refine ⟨fd1, h1, ?_, h2, h5⟩
    unfold fd_well_formed
    by_cases c1 : off < 6144
    · rw [_fd_cursor_set_direct fd off c1] at h1
      rw [← Option.some.inj h1]
      exact ⟨Or.inl ⟨rfl, by show off / 1024 < 6; omega⟩, by show off % 1024 < 1024; omega⟩
    · by_cases c2 : off < 530432
      · rw [_fd_cursor_set_indirect fd off (by omega) c2] at h1
        rw [← Option.some.inj h1]
        exact ⟨Or.inr (Or.inl ⟨rfl, by show off / 1024 - 6 < 512; omega⟩),
          by show off % 1024 < 1024; omega⟩
      · rw [_fd_cursor_set_double fd off (by omega) h0] at h1
        rw [← Option.some.inj h1]
        exact ⟨Or.inr (Or.inr ⟨rfl, by show off / 1024 - 518 < 512 * 512; omega⟩),
          by show off % 1024 < 1024; omega⟩
  · intro fd hw
    obtain ⟨hu, ho⟩ := hw
    have hus : fd.usage = 1 ∨ fd.usage = 2 ∨ fd.usage = 4 := by
      rcases hu with ⟨a, _⟩ | ⟨a, _⟩ | ⟨a, _⟩
      · exact Or.inl a
      · exact Or.inr (Or.inl a)
      · exact Or.inr (Or.inr a)
    have hlo : fd.locate_order < 262144 := by
      rcases hu with ⟨_, b⟩ | ⟨_, b⟩ | ⟨_, b⟩ <;> omega
    have hget := _fd_cursor_get_of_usage fd hus hlo ho
    refine ⟨hget, ?_, ?_⟩
    · rw [hget]
      show _ < 268965888
      unfold tier_base
      rcases hu with ⟨a, b⟩ | ⟨a, b⟩ | ⟨a, b⟩ <;> rw [a] <;>
        simp [FD_DIRECT, FD_INDIRECT, FD_DOUBLE_INDIRECT] <;> omega
    · rw [hget]
      cases fd with
      | mk inum usage lo off =>
      simp only at hu ho hlo ⊢
      unfold tier_base
      rcases hu with ⟨a, b⟩ | ⟨a, b⟩ | ⟨a, b⟩
      · subst a
        rw [_fd_cursor_set_direct _ _ (by simp [FD_DIRECT, FD_INDIRECT, FD_DOUBLE_INDIRECT]; omega)]
        simp [FD_DIRECT, FD_INDIRECT, FD_DOUBLE_INDIRECT]
        omega
      · subst a
        rw [_fd_cursor_set_indirect _ _
          (by simp [FD_DIRECT, FD_INDIRECT, FD_DOUBLE_INDIRECT]; omega)
          (by simp [FD_DIRECT, FD_INDIRECT, FD_DOUBLE_INDIRECT]; omega)]
        simp [FD_DIRECT, FD_INDIRECT, FD_DOUBLE_INDIRECT]
        omega
      · subst a
        rw [_fd_cursor_set_double _ _
          (by simp [FD_DIRECT, FD_INDIRECT, FD_DOUBLE_INDIRECT]; omega)
          (by simp [FD_DIRECT, FD_INDIRECT, FD_DOUBLE_INDIRECT]; omega)]
        simp [FD_DIRECT, FD_INDIRECT, FD_DOUBLE_INDIRECT]
        omega

/-- After `k` allocations on a fresh store the blocks in use are the first `k`
and those of the free-block map, and the next allocation returns `k`. -/
theorem fs_format_blocks_seq (k : Nat) (hk : k ≤ 65528) :
    (∀ i, i < 65536 → (block_used (fs_format_blocks k) i ↔ i < k ∨ 65528 ≤ i)) ∧
    (k < 65528 → block_store_allocate (fs_format_blocks k) = (k, fs_format_blocks (k + 1))) := by
  have step : ∀ k, k < 65528 →
      (∀ i, i < 65536 → (block_used (fs_format_blocks k) i ↔ i < k ∨ 65528 ≤ i)) →
      block_store_allocate (fs_format_blocks k) = (k, fs_format_blocks (k + 1)) := by
    intro k hk hu
    have hsucc := fs_format_blocks_succ k
    rcases block_store_allocate_spec (fs_format_blocks k) with ⟨_, hall⟩ | ⟨id, h1, h2, h3, h4⟩
    · have := (hu k (by omega)).1 (hall k (by omega))
      omega
    · have hid : id = k := by
        have a1 : ¬ (id < k ∨ 65528 ≤ id) := fun hc => h2 ((hu id h1).2 hc)
        have a2 : ¬ k < id := by
          intro hc
          have := (hu k (by omega)).1 (h3 k hc)
          omega
        omega
      rw [h4] at hsucc
      rw [hsucc, h4, hid]
  have hall : ∀ k, k ≤ 65528 →
      ∀ i, i < 65536 → (block_used (fs_format_blocks k) i ↔ i < k ∨ 65528 ≤ i) := by
    intro k
    induction k with
    | zero =>
      intro _ i hi
      have e : fs_format_blocks 0 = block_store_create := by
        unfold fs_format_blocks
        rw [List.range_zero, List.foldl_nil]
      unfold block_used
      rw [e, block_store_create_used i hi]
      simp only [decide_eq_true_eq, Nat.not_lt_zero, false_or]
    | succ k ih =>
      intro hk i hi
      have hu := ih (by omega)
      have hal := step k (by omega) hu
      obtain ⟨_, _, hused, _⟩ := block_store_allocate_used _ _ _ hal (by
        show k ≠ 2 ^ 64 - 1
        have h64 : (2 : Nat) ^ 64 = 18446744073709551616 := by norm_num
        rw [h64]
        omega)
      rw [hused i hi, hu i hi]
      omega
  exact ⟨hall k hk, fun h => step k h (hall k hk)⟩

/-- C29: `block_store_allocate` returns the least block number whose bit of the
free-block map is clear and sets that bit and no other, the blocks that the
map does not overlay keeping their contents; when every bit is set it returns
`SIZE_MAX` and the store is as it was.  On a freshly created store (no
allocation made: `fs_format_blocks 0`) the successive allocations return
0, 1, 2, ... up to 65527, and the next one `SIZE_MAX`. -/
theorem block_store_allocate_first_free :
    (∀ bs : block_store_t, ∃ id bs1, block_store_allocate bs = (id, bs1) ∧
      ((id = SIZE_MAX ∧ bs1 = bs ∧ ∀ i, i < BLOCK_STORE_NUM_BLOCKS → block_used bs i) ∨
       (id < BLOCK_STORE_NUM_BLOCKS ∧ ¬ block_used bs id ∧ (∀ k, k < id → block_used bs k) ∧
        (∀ i, i < BLOCK_STORE_NUM_BLOCKS → (block_used bs1 i ↔ block_used bs i ∨ i = id)) ∧
        (∀ b, b < BITMAP_START_BLOCK → bs1.blocks b = bs.blocks b)))) ∧
    fs_format_blocks 0 = block_store_create ∧
    (∀ k, k < 65528 →
      block_store_allocate (fs_format_blocks k) = (k, fs_format_blocks (k + 1))) ∧
    block_store_allocate (fs_format_blocks 65528) = (SIZE_MAX, fs_format_blocks 65528) := by
  refine ⟨?_, ?_, ?_, ?_⟩
  · intro bs
    rcases block_store_allocate_spec bs with ⟨e, hall⟩ | ⟨id, h1, h2, h3, h4⟩
    · exact ⟨_, _, e, Or.inl ⟨rfl, rfl, hall⟩⟩
    · obtain ⟨a, b⟩ := set_fbm_marks bs id h1
      exact ⟨_, _, h4, Or.inr ⟨h1, h2, h3, a, b⟩⟩
  · unfold fs_format_blocks
    rw [List.range_zero, List.foldl_nil]
  · intro k hk
    exact (fs_format_blocks_seq k (by omega)).2 hk
  · have hu := (fs_format_blocks_seq 65528 (Nat.le_refl _)).1
    rcases block_store_allocate_spec (fs_format_blocks 65528) with ⟨e, _⟩ | ⟨id, h1, h2, _, _⟩
    · exact e
    · exfalso
      apply h2
      rw [hu id h1]
      omega

/-- C30: `block_store_request` returns true exactly when `id` is below 65536
and block `id` is free; it then sets the bit of `id` and no other and keeps
the blocks that the map does not overlay; when it returns false (the number
is out of range or the block is in use, as the blocks of the free-block map
are from `block_store_create` on) the store is as it was. -/
theorem block_store_request_marks_free_block (bs : block_store_t) (id : Nat) :
    ∃ r bs1, block_store_request bs id = (r, bs1) ∧
      (r = true ↔ id < BLOCK_STORE_NUM_BLOCKS ∧ ¬ block_used bs id) ∧
      (r = true →
        (∀ i, i < BLOCK_STORE_NUM_BLOCKS → (block_used bs1 i ↔ block_used bs i ∨ i = id)) ∧
        (∀ b, b < BITMAP_START_BLOCK → bs1.blocks b = bs.blocks b)) ∧
      (r = false → bs1 = bs) ∧
      ((∀ k, k < BITMAP_NUM_BLOCKS → block_used bs (BITMAP_START_BLOCK + k)) →
        BITMAP_START_BLOCK ≤ id → r = false) ∧
      (∀ k, k < BITMAP_NUM_BLOCKS → block_used block_store_create (BITMAP_START_BLOCK + k)) := by
  have hcreate : ∀ k, k < BITMAP_NUM_BLOCKS →
      block_used block_store_create (BITMAP_START_BLOCK + k) := by
    intro k hk
    have hk8 : k < 8 := hk
    unfold block_used
    rw [block_store_create_used _ (by show 65528 + k < 65536; omega)]
    exact decide_eq_true (by show 65528 ≤ 65528 + k; omega)
  rcases block_store_request_cases bs id with ⟨h1, h2, h3⟩ | ⟨h1, h2⟩
  · obtain ⟨a, b⟩ := set_fbm_marks bs id h1
    refine ⟨_, _, h3, ⟨fun _ => ⟨h1, h2⟩, fun _ => rfl⟩, fun _ => ⟨a, b⟩,
      fun hc => Bool.noConfusion hc, ?_, hcreate⟩
    intro hres hid
    exfalso
    have hid1 : 65528 ≤ id := hid
    have := hres (id - 65528) (by show id - 65528 < 8; omega)
    rw [show BITMAP_START_BLOCK + (id - 65528) = id from by show 65528 + (id - 65528) = id; omega]
      at this
    exact h2 this
  · exact ⟨_, _, h2, ⟨fun hc => Bool.noConfusion hc, fun hc => absurd hc h1⟩,
      fun hc => Bool.noConfusion hc, fun _ => rfl, fun _ _ => rfl, hcreate⟩

theorem slot_live_le (nb nb1 : Nat) (s : tree_slot) (hle : nb ≤ nb1) (h : slot_live nb s) :
    slot_live nb1 s := by
  cases s <;> unfold slot_live at h ⊢ <;> omega

theorem append_frame_file_byte (fs : FS_t) (inode : inode_t) (nb : Nat) (fs1 : FS_t)
    (inode1 : inode_t) (hf : append_frame fs inode nb fs1 inode1) (p : Nat)
    (hp : p / 1024 < nb) :
    file_byte fs1.BlockStore_whole inode1 p = file_byte fs.BlockStore_whole inode p := by
  unfold file_byte
  have h1 : file_block fs1.BlockStore_whole inode1 (p / BLOCK_SIZE_BYTES) =
      file_block fs.BlockStore_whole inode (p / BLOCK_SIZE_BYTES) :=
    hf.hold (tree_slot.data (p / 1024)) hp
  rw [h1, hf.data_same (p / BLOCK_SIZE_BYTES) hp]

/-- The invariant of the loop of `fs_write` after a call of
`_inode_add_owned_block`, whatever its outcome. -/
theorem write_inv_append (src : block_t) (fs0 : FS_t) (inode0 : inode_t) (c0 n0 : Nat)
    (st : fs_write_state) (NB NB1 : Nat) (fs1 : FS_t) (inode1 : inode_t) (np : List Nat)
    (hinv : write_inv src fs0 inode0 c0 n0 NB st)
    (hf : append_frame st.fs st.inode NB fs1 inode1)
    (htree : tree_ok fs1.BlockStore_whole inode1 NB1) (hle : NB ≤ NB1)
    (hcount : np.length + (inode0.file_size + 1023) / 1024 = NB1)
    (hfresh : ∀ s, slot_live NB1 s → ¬ slot_live NB s →
      ¬ block_used st.fs.BlockStore_whole (slot_block fs1.BlockStore_whole inode1 s))
    (hused : ∀ b, b < 65536 → (block_used fs1.BlockStore_whole b ↔
      block_used st.fs.BlockStore_whole b ∨
        ∃ s, slot_live NB1 s ∧ ¬ slot_live NB s ∧ slot_block fs1.BlockStore_whole inode1 s = b)) :
    write_inv src fs0 inode0 c0 n0 NB1 { st with fs := fs1, inode := inode1, new_ptrs := np } := by
  have hnb0 : (inode0.file_size + 1023) / 1024 ≤ NB := by
    have := hinv.count
    omega
  constructor
  · exact hinv.can
  · exact hf.inum_eq.trans hinv.inum
  · exact ⟨hf.meta.1.trans hinv.meta.1, hf.meta.2.1.trans hinv.meta.2.1,
      hf.meta.2.2.trans hinv.meta.2.2⟩
  · show inode1.file_size = _
    rw [hf.size_eq]
    exact hinv.size
  · exact hinv.pos
  · exact hinv.rem
  · exact hf.ptrs
  · exact reserved_used_mono _ _ hinv.res hf.mono
  · exact htree
  · show (inode1.file_size + 1023) / 1024 ≤ NB1
    rw [hf.size_eq]
    exact Nat.le_trans hinv.low hle
  · exact hcount
  · intro p hp
    have hp1 : p < st.inode.file_size := by
      rw [← hf.size_eq]
      exact hp
    show file_byte fs1.BlockStore_whole inode1 p = _
    rw [append_frame_file_byte _ _ _ _ _ hf p (by have := hinv.low; omega)]
    exact hinv.content p hp1
  · exact hf.block0.trans hinv.block0
  · exact hf.fd_same.trans hinv.fds
  · intro i hi
    show fs1.inode_table i = _
    rw [hf.inodes_other i (by rw [hinv.inum]; exact hi)]
    exact hinv.inodes i hi
  · intro s hs
    exact (hf.hold s (slot_live_le _ _ s hnb0 hs)).trans (hinv.hold0 s hs)
  · intro s hs h0
    show ¬ block_used fs0.BlockStore_whole (slot_block fs1.BlockStore_whole inode1 s)
    by_cases hl : slot_live NB s
    · rw [hf.hold s hl]
      exact hinv.fresh0 s hl h0
    · intro hc
      have hlt : slot_block fs1.BlockStore_whole inode1 s < 65536 := by
        have := (htree.range s hs).2.1
        omega
      exact hfresh s hs hl ((hinv.used _ hlt).2 (Or.inl hc))
  · intro b hb
    show block_used fs1.BlockStore_whole b ↔ _
    rw [hused b hb, hinv.used b hb]
    constructor
    · intro h
      rcases h with (h | ⟨s, hl, h0, he⟩) | ⟨s, hs, hnl, he⟩
      · exact Or.inl h
      · exact Or.inr ⟨s, slot_live_le _ _ s hle hl, h0, (hf.hold s hl).trans he⟩
      · exact Or.inr ⟨s, hs, fun h => hnl (slot_live_le _ _ s hnb0 h), he⟩
    · intro h
      rcases h with h | ⟨s, hs, h0, he⟩
      · exact Or.inl (Or.inl h)
      · by_cases hl : slot_live NB s
        · exact Or.inl (Or.inr ⟨s, hl, h0, (hf.hold s hl).symm.trans he⟩)
        · exact Or.inr ⟨s, hs, hl, he⟩
  · intro b hb0 hb hu hno
    show fs1.BlockStore_whole.blocks b = _
    rw [hf.others b hb0 hb ((hinv.used b (by omega)).2 (Or.inl hu)) ?_]
    · exact hinv.others b hb0 hb hu hno
    · intro s hs hc
      by_cases h0 : slot_live ((inode0.file_size + 1023) / 1024) s
      · exact hno s h0 ((hinv.hold0 s h0).symm.trans hc)
      · exact hinv.fresh0 s hs h0 (by rw [hc]; exact hu)
  · exact hinv.fdnum

/-- The bounds that the invariant gives at the head of the loop. -/
theorem write_inv_bounds (src : block_t) (fs0 : FS_t) (inode0 : inode_t) (c0 n0 NB : Nat)
    (st : fs_write_state) (hinv : write_inv src fs0 inode0 c0 n0 NB st) :
    NB ≤ 65528 ∧ st.cursor ≤ st.inode.file_size ∧ st.inode.file_size ≤ 1024 * NB ∧
      c0 ≤ st.cursor ∧ inode0.file_size ≤ st.inode.file_size ∧
      (inode0.file_size + 1023) / 1024 ≤ NB := by
  have h1 := tree_ok_blocks_le _ _ _ hinv.tree
  have h2 := hinv.size
  have h3 := hinv.low
  have h4 := hinv.pos
  have h5 := hinv.count
  refine ⟨h1, ?_, ?_, ?_, ?_, ?_⟩
  · rw [h2]
    exact Nat.le_max_right _ _
  · omega
  · omega
  · rw [h2]
    exact Nat.le_max_left _ _
  · omega

theorem triple_eta {α β γ : Type} (x : α × β × γ) : ∃ a b c, x = (a, b, c) :=
  ⟨x.1, x.2.1, x.2.2, rfl⟩

/-- The start of an iteration of the loop of `fs_write`, at the head of the
loop with bytes left to write: a block is appended when the cursor stands at
the end of the last block of the file; when there is no room for it the loop
is left normally. -/
theorem fs_write_append_step (src : block_t) (M : Nat) (fs0 : FS_t) (inode0 : inode_t)
    (c0 n0 : Nat) (st : fs_write_state) (hinum : inode0.inum < 256)
    (hM : ∀ k, (inode0.file_size + 1023) / 1024 ≤ k → k ≤ 65528 → k * 1024 < c0 + n0 →
      k - (inode0.file_size + 1023) / 1024 < M)
    (hinv : write_inv src fs0 inode0 c0 n0 ((st.inode.file_size + 1023) / 1024) st)
    (hn : 0 < st.nbyte) :
    (∃ st1, fs_write_append M st = some (Sum.inl (true, st1)) ∧
        write_inv src fs0 inode0 c0 n0 ((st1.inode.file_size + 1023) / 1024) st1 ∧
        st1.nbyte = st.nbyte ∧ few_free st1.fs.BlockStore_whole) ∨
    (∃ st1 NB, fs_write_append M st = some (Sum.inr st1) ∧
        write_inv src fs0 inode0 c0 n0 NB st1 ∧ st1.nbyte = st.nbyte ∧
        st1.cursor / 1024 < NB ∧
        (NB ≤ (st1.inode.file_size + 1023) / 1024 ∨ NB = st1.cursor / 1024 + 1)) := by
  obtain ⟨b1, b2, b3, b4, b5, b6⟩ := write_inv_bounds _ _ _ _ _ _ _ hinv
  have hcl : st.cursor < 268965888 := by omega
  obtain ⟨fdx, hx1, _, hx3, _, _, _, _⟩ := _fd_cursor_set_spec st.fd st.cursor hcl
  rw [hinv.can] at hx1
  have hfdx : fdx = st.fd := (Option.some.inj hx1).symm
  rw [hfdx] at hx3
  have hceil : ceil_blocks st.inode.file_size = (st.inode.file_size + 1023) / 1024 :=
    ceil_blocks_eq _ (by
      have h53 : (2 : Nat) ^ 53 = 9007199254740992 := by norm_num
      rw [h53]
      omega)
  unfold fs_write_append _cursor_in_owned_block
  rw [hx3, hceil]
  by_cases hown : st.cursor / 1024 < (st.inode.file_size + 1023) / 1024
  · right
    rw [if_neg (by simp [hown])]
    exact ⟨st, _, rfl, hinv, rfl, hown, Or.inl (Nat.le_refl _)⟩
  · rw [if_pos (by simp [hown])]
    have hcur : st.cursor = st.inode.file_size := by omega
    have hmul : (st.inode.file_size + 1023) / 1024 * 1024 = st.inode.file_size := by omega
    have hlen : ¬ st.new_ptrs.length ≥ M := by
      have hc := hinv.count
      have hr := hinv.rem
      have := hM ((st.inode.file_size + 1023) / 1024) b6 b1 (by omega)
      omega
    rw [if_neg hlen]
    obtain ⟨r, fs1, inode1, hr⟩ := triple_eta (_inode_add_owned_block st.fs st.inode)
    rw [hr]
    dsimp only
    have hspec := _inode_add_owned_block_spec st.fs st.inode _ r fs1 inode1 hceil hinv.tree
      hinv.ptrs hinv.res (by rw [hinv.inum]; exact hinum) (by omega) hr
    obtain ⟨hf, hcase⟩ := hspec
    rcases hcase with ⟨hr2, hiff, hfew⟩ | ⟨new, hrn, hg, hfb⟩
    · left
      rw [hr2, if_neg (by decide), if_pos rfl]
      refine ⟨_, rfl, ?_, rfl, ?_⟩
      · have hw := write_inv_append src fs0 inode0 c0 n0 st _ _ fs1 inode1 st.new_ptrs hinv hf
          (tree_ok_same _ _ _ _ _ hinv.tree hf.hold hf.mono) (Nat.le_refl _) hinv.count
          (fun s hs h0 => absurd hs h0)
          (fun b hb => by
            rw [hiff b hb]
            constructor
            · exact Or.inl
            · intro h
              rcases h with h | ⟨s, hs, h0, _⟩
              · exact h
              · exact absurd hs h0)
        have hsz : inode1.file_size = st.inode.file_size := hf.size_eq
        show write_inv src fs0 inode0 c0 n0 ((inode1.file_size + 1023) / 1024) _
        rw [hsz]
        exact hw
      · obtain ⟨a, c, hac⟩ := hfew
        refine ⟨a, c, ?_⟩
        intro b hb
        rcases hac b hb with h | h
        · exact Or.inl ((hiff b hb).2 h)
        · exact Or.inr h
    · right
      have hne1 : ¬ r = -1 := by
        rw [hrn]
        omega
      have hne2 : ¬ r = -2 := by
        rw [hrn]
        omega
      rw [if_neg hne1, if_neg hne2]
      refine ⟨_, (st.inode.file_size + 1023) / 1024 + 1, rfl, ?_, rfl, ?_, ?_⟩
      · exact write_inv_append src fs0 inode0 c0 n0 st _ _ fs1 inode1 _ hinv hf
          hg.1 (Nat.le_succ _) (by
            have hc := hinv.count
            rw [List.length_append, List.length_singleton]
            omega)
          hg.2.1 hg.2.2
      · show st.cursor / 1024 < _
        omega
      · right
        show _ = st.cursor / 1024 + 1
        omega

/-- The inode after a chunk is written: the size is moved up to the cursor, the
rest is kept. -/
theorem inode_grow_fields (inode : inode_t) (x : Nat) :
    ∃ i1 : inode_t, i1 = (if x > inode.file_size then { inode with file_size := x } else inode) ∧
      i1.file_size = max inode.file_size x ∧ i1.inum = inode.inum ∧
      i1.file_type = inode.file_type ∧ i1.dir_entry_map = inode.dir_entry_map ∧
      i1.link_count = inode.link_count ∧ i1.data_direct = inode.data_direct ∧
      i1.data_indirect = inode.data_indirect ∧
      i1.data_double_indirect = inode.data_double_indirect := by
  refine ⟨_, rfl, ?_⟩
  by_cases h : x > inode.file_size
  · rw [if_pos h]
    refine ⟨?_, rfl, rfl, rfl, rfl, rfl, rfl, rfl⟩
    show x = max inode.file_size x
    omega
  · rw [if_neg h]
    refine ⟨?_, rfl, rfl, rfl, rfl, rfl, rfl, rfl⟩
    omega

/-- The second half of an iteration of the loop of `fs_write`, in closed form,
when the block of the cursor can be read and written and the new cursor is
below the maximal file size. -/
theorem fs_write_chunk_eq (src : block_t) (st : fs_write_state) (blk chunk : block_t)
    (W nw loc : Nat) (fd1 : fileDescriptor_t) (i1 : inode_t)
    (hloc : st.fd.locate_offset = loc)
    (hnw : min st.nbyte ((BLOCK_SIZE_BYTES + 2 ^ 32 - st.fd.locate_offset) % 2 ^ 32) = nw)
    (hread : _fd_data_block_read st.fs st.inode st.fd = some blk)
    (hwrite : ∀ c, _fd_data_block_write st.fs st.inode st.fd c = (true, st.fs.set_block W c))
    (hset : _fd_cursor_set st.fd (st.cursor + nw) = some fd1)
    (hchunk : chunk = (if nw < 1024 then
        (fun o => if loc ≤ o ∧ o < loc + nw then src (st.src_pos + (o - loc)) else blk o)
      else (fun o => src (st.src_pos + o))))
    (hi1 : i1 = (if st.cursor + nw > st.inode.file_size
      then { st.inode with file_size := st.cursor + nw } else st.inode)) :
    fs_write_chunk src st = Sum.inr
      { fs := st.fs.set_block W chunk, inode := i1, fd := fd1, cursor := st.cursor + nw,
        src_pos := st.src_pos + nw, nbyte := st.nbyte - nw, new_ptrs := st.new_ptrs } := by
  subst hchunk hi1 hloc
  unfold fs_write_chunk
  dsimp only
  rw [hnw, hread, hset]
  by_cases h : nw < 1024
  · have h1 : nw < BLOCK_SIZE_BYTES := h
    rw [if_pos h1, if_pos h]
    dsimp only
    rw [hwrite]
    dsimp only
    rw [if_neg (by decide)]
  · have h1 : ¬ nw < BLOCK_SIZE_BYTES := h
    rw [if_neg h1, if_neg h]
    dsimp only
    rw [hwrite]
    dsimp only
    rw [if_neg (by decide)]

theorem chunk_blocks_arith (size cursor nw NB : Nat) (hlow : (size + 1023) / 1024 ≤ NB)
    (hidx : cursor / 1024 < NB)
    (hup : NB ≤ (size + 1023) / 1024 ∨ NB = cursor / 1024 + 1) (hnw1 : 0 < nw)
    (hnw3 : nw ≤ 1024 - cursor % 1024) (b2 : cursor ≤ size) :
    (max size (cursor + nw) + 1023) / 1024 = NB := by
  rcases hup with h | h <;> omega

/-- The bytes of the block that an iteration of `fs_write` stores: the chunk
of the source at the place of the cursor, the old bytes around it. -/
theorem fs_write_chunk_bytes (src blk chunk : block_t) (sp loc nw : Nat) (hloc : loc < 1024)
    (h1 : nw ≤ 1024 - loc)
    (hchunk : chunk = (if nw < 1024 then
        (fun o => if loc ≤ o ∧ o < loc + nw then src (sp + (o - loc)) else blk o)
      else (fun o => src (sp + o)))) (o : Nat) (ho : o < 1024) :
    chunk o = if loc ≤ o ∧ o < loc + nw then src (sp + (o - loc)) else blk o := by
  rw [hchunk]
  by_cases h : nw < 1024
  · rw [if_pos h]
  · rw [if_neg h]
    have h0 : loc = 0 := by omega
    have hc : loc ≤ o ∧ o < loc + nw := by omega
    rw [if_pos hc, h0]
    rfl

/-- The bytes of the file after a chunk is written into the block of the
cursor. -/
theorem fs_write_chunk_content (src : block_t) (fs0 : FS_t) (inode0 : inode_t) (c0 n0 NB : Nat)
    (st : fs_write_state) (W nw : Nat) (chunk : block_t) (i1 : inode_t)
    (hinv : write_inv src fs0 inode0 c0 n0 NB st)
    (hidx : st.cursor / 1024 < NB) (hnw3 : nw ≤ 1024 - st.cursor % 1024)
    (hW : W = file_block st.fs.BlockStore_whole st.inode (st.cursor / 1024))
    (hchunko : ∀ o, o < 1024 → chunk o =
      if st.cursor % 1024 ≤ o ∧ o < st.cursor % 1024 + nw
        then src (st.src_pos + (o - st.cursor % 1024)) else st.fs.BlockStore_whole.blocks W o)
    (hhold : ∀ s, slot_live NB s → slot_block (st.fs.BlockStore_whole.put W chunk) i1 s =
      slot_block st.fs.BlockStore_whole st.inode s)
    (p : Nat) (hpk : p / 1024 < NB)
    (hp1 : p < max st.inode.file_size (st.cursor + nw)) :
    file_byte (st.fs.BlockStore_whole.put W chunk) i1 p =
      if c0 ≤ p ∧ p < st.cursor + nw then src (p - c0)
      else file_byte fs0.BlockStore_whole inode0 p := by
  have b2 : st.cursor ≤ st.inode.file_size := by
    rw [hinv.size]
    exact Nat.le_max_right _ _
  have hL : file_byte (st.fs.BlockStore_whole.put W chunk) i1 p =
      (st.fs.BlockStore_whole.put W chunk).blocks
        (file_block st.fs.BlockStore_whole st.inode (p / 1024)) (p % 1024) := by
    have e : file_block (st.fs.BlockStore_whole.put W chunk) i1 (p / 1024) =
        file_block st.fs.BlockStore_whole st.inode (p / 1024) :=
      hhold (tree_slot.data (p / 1024)) hpk
    show (st.fs.BlockStore_whole.put W chunk).blocks
      (file_block (st.fs.BlockStore_whole.put W chunk) i1 (p / 1024)) (p % 1024) = _
    rw [e]
  have hold : file_byte st.fs.BlockStore_whole st.inode p =
      st.fs.BlockStore_whole.blocks (file_block st.fs.BlockStore_whole st.inode (p / 1024))
        (p % 1024) := rfl
  have hpos := hinv.pos
  have hcond : ¬ (st.cursor ≤ p ∧ p < st.cursor + nw) →
      (if c0 ≤ p ∧ p < st.cursor + nw then src (p - c0)
        else file_byte fs0.BlockStore_whole inode0 p) =
      file_byte st.fs.BlockStore_whole st.inode p := by
    intro hno
    have hps : p < st.inode.file_size := by omega
    rw [hinv.content p hps]
    by_cases hc : p < st.cursor
    · by_cases hc0 : c0 ≤ p
      · rw [if_pos ⟨hc0, by omega⟩, if_pos ⟨hc0, hc⟩]
      · rw [if_neg (fun h => hc0 h.1), if_neg (fun h => hc0 h.1)]
    · rw [if_neg (fun h => hno ⟨by omega, h.2⟩), if_neg (fun h => hc h.2)]
  rw [hL]
  by_cases hk : p / 1024 = st.cursor / 1024
  · rw [hk, ← hW, put_blocks, if_pos rfl, hchunko _ (Nat.mod_lt _ (by decide))]
    by_cases hin : st.cursor ≤ p ∧ p < st.cursor + nw
    · have e1 : st.cursor % 1024 ≤ p % 1024 ∧ p % 1024 < st.cursor % 1024 + nw := by omega
      have e2 : c0 ≤ p ∧ p < st.cursor + nw := by omega
      have e3 : st.src_pos + (p % 1024 - st.cursor % 1024) = p - c0 := by omega
      rw [if_pos e1, if_pos e2, e3]
    · have e1 : ¬ (st.cursor % 1024 ≤ p % 1024 ∧ p % 1024 < st.cursor % 1024 + nw) := by omega
      rw [if_neg e1, hcond hin, hold, hk, ← hW]
  · have hne : file_block st.fs.BlockStore_whole st.inode (p / 1024) ≠ W := by
      intro hc
      rw [hW] at hc
      have := hinv.tree.inj (tree_slot.data (p / 1024)) (tree_slot.data (st.cursor / 1024))
        hpk hidx hc
      exact hk (tree_slot.data.inj this)
    have hno : ¬ (st.cursor ≤ p ∧ p < st.cursor + nw) := by omega
    rw [put_blocks, if_neg hne, hcond hno, hold]

/-- The invariant of the loop of `fs_write` after a chunk is written into the
block of the cursor and the cursor is moved past it. -/
theorem write_inv_chunk (src : block_t) (fs0 : FS_t) (inode0 : inode_t) (c0 n0 NB : Nat)
    (st : fs_write_state) (W nw : Nat) (chunk : block_t) (i1 : inode_t) (fd1 : fileDescriptor_t)
    (hinv : write_inv src fs0 inode0 c0 n0 NB st)
    (hidx : st.cursor / 1024 < NB)
    (hup : NB ≤ (st.inode.file_size + 1023) / 1024 ∨ NB = st.cursor / 1024 + 1)
    (hnw1 : 0 < nw) (hnw2 : nw ≤ st.nbyte) (hnw3 : nw ≤ 1024 - st.cursor % 1024)
    (hW : W = file_block st.fs.BlockStore_whole st.inode (st.cursor / 1024))
    (hchunko : ∀ o, o < 1024 → chunk o =
      if st.cursor % 1024 ≤ o ∧ o < st.cursor % 1024 + nw
        then src (st.src_pos + (o - st.cursor % 1024)) else st.fs.BlockStore_whole.blocks W o)
    (hcan1 : _fd_cursor_set fd1 (st.cursor + nw) = some fd1) (hfdn : fd1.inum = st.fd.inum)
    (hsz : i1.file_size = max st.inode.file_size (st.cursor + nw))
    (hinum1 : i1.inum = st.inode.inum)
    (hmeta : i1.file_type = st.inode.file_type ∧ i1.dir_entry_map = st.inode.dir_entry_map ∧
      i1.link_count = st.inode.link_count)
    (hdd : i1.data_direct = st.inode.data_direct)
    (hdi : i1.data_indirect = st.inode.data_indirect)
    (hddi : i1.data_double_indirect = st.inode.data_double_indirect) :
    write_inv src fs0 inode0 c0 n0 NB
      { fs := st.fs.set_block W chunk, inode := i1, fd := fd1, cursor := st.cursor + nw,
        src_pos := st.src_pos + nw, nbyte := st.nbyte - nw, new_ptrs := st.new_ptrs } ∧
    (i1.file_size + 1023) / 1024 = NB := by
  obtain ⟨b1, b2, b3, b4, b5, b6⟩ := write_inv_bounds _ _ _ _ _ _ _ hinv
  have hlive : slot_live NB (tree_slot.data (st.cursor / 1024)) := hidx
  have hWr : 0 < W ∧ W < 65528 ∧ block_used st.fs.BlockStore_whole W := by
    rw [hW]
    exact hinv.tree.range _ hlive
  obtain ⟨hW0, hW1, hWu⟩ := hWr
  have hput : (st.fs.set_block W chunk).BlockStore_whole = st.fs.BlockStore_whole.put W chunk := rfl
  have hhold := hold_data_write st.fs.BlockStore_whole (st.fs.BlockStore_whole.put W chunk)
    st.inode i1 NB (st.cursor / 1024) hinv.tree hidx
    (by
      intro b hb
      rw [put_blocks, if_neg (by rw [hW]; exact hb)])
    (fun k _ => by rw [hdd]) hdi hddi
  have husedp : ∀ b, block_used (st.fs.BlockStore_whole.put W chunk) b ↔
      block_used st.fs.BlockStore_whole b := fun b => block_used_put _ _ _ hW1 b
  have hsz2 : (i1.file_size + 1023) / 1024 = NB := by
    rw [hsz]
    exact chunk_blocks_arith _ _ _ _ hinv.low hidx hup hnw1 hnw3 b2
  have hsz3 : i1.file_size ≤ 1024 * NB := by omega
  refine ⟨?_, hsz2⟩
  constructor
  · exact hcan1
  · exact hinum1.trans hinv.inum
  · exact ⟨hmeta.1.trans hinv.meta.1, hmeta.2.1.trans hinv.meta.2.1,
      hmeta.2.2.trans hinv.meta.2.2⟩
  · show i1.file_size = max inode0.file_size (st.cursor + nw)
    rw [hsz, hinv.size]
    omega
  · show st.src_pos + nw + c0 = st.cursor + nw
    have := hinv.pos
    omega
  · show st.cursor + nw + (st.nbyte - nw) = c0 + n0
    have := hinv.rem
    omega
  · refine ⟨?_, ?_, ?_⟩
    · intro k hk
      rw [hdd]
      exact hinv.ptrs.1 k hk
    · rw [hdi]
      exact hinv.ptrs.2.1
    · rw [hddi]
      exact hinv.ptrs.2.2
  · show reserved_used (st.fs.set_block W chunk).BlockStore_whole
    rw [hput]
    exact reserved_used_mono _ _ hinv.res (fun b _ hu => (husedp b).2 hu)
  · show tree_ok (st.fs.set_block W chunk).BlockStore_whole i1 NB
    rw [hput]
    exact tree_ok_same _ _ _ _ _ hinv.tree hhold (fun b _ hu => (husedp b).2 hu)
  · show (i1.file_size + 1023) / 1024 ≤ NB
    omega
  · exact hinv.count
  · intro p hp
    have hp1 : p < i1.file_size := hp
    show file_byte (st.fs.set_block W chunk).BlockStore_whole i1 p =
      if c0 ≤ p ∧ p < st.cursor + nw then src (p - c0) else file_byte fs0.BlockStore_whole inode0 p
    rw [hput]
    exact fs_write_chunk_content src fs0 inode0 c0 n0 NB st W nw chunk i1 hinv hidx hnw3 hW
      hchunko hhold p (by omega) (by rw [← hsz]; exact hp1)
  · show (st.fs.set_block W chunk).BlockStore_whole.blocks 0 = _
    rw [hput, put_blocks, if_neg (by omega)]
    exact hinv.block0
  · exact hinv.fds
  · exact hinv.inodes
  · intro s hs
    show slot_block (st.fs.set_block W chunk).BlockStore_whole i1 s = _
    rw [hput, hhold s (slot_live_le _ _ s b6 hs)]
    exact hinv.hold0 s hs
  · intro s hs h0
    show ¬ block_used fs0.BlockStore_whole
      (slot_block (st.fs.set_block W chunk).BlockStore_whole i1 s)
    rw [hput, hhold s hs]
    exact hinv.fresh0 s hs h0
  · intro b hb
    show block_used (st.fs.set_block W chunk).BlockStore_whole b ↔ _
    rw [hput, husedp, hinv.used b hb]
    constructor
    · intro h
      rcases h with h | ⟨s, hs, h0, he⟩
      · exact Or.inl h
      · exact Or.inr ⟨s, hs, h0, (hhold s hs).trans he⟩
    · intro h
      rcases h with h | ⟨s, hs, h0, he⟩
      · exact Or.inl h
      · exact Or.inr ⟨s, hs, h0, (hhold s hs).symm.trans he⟩
  · intro b hb0 hb hu hno
    show (st.fs.set_block W chunk).BlockStore_whole.blocks b = _
    have hbW : b ≠ W := by
      intro hc
      by_cases h0 : slot_live ((inode0.file_size + 1023) / 1024) (tree_slot.data (st.cursor / 1024))
      · exact hno _ h0 ((hinv.hold0 _ h0).symm.trans (hW.symm.trans hc.symm))
      · have := hinv.fresh0 _ hlive h0
        rw [show slot_block st.fs.BlockStore_whole st.inode (tree_slot.data (st.cursor / 1024))
          = W from hW.symm, ← hc] at this
        exact this hu
    rw [hput, put_blocks, if_neg hbW]
    exact hinv.others b hb0 hb hu hno
  · exact hfdn.trans hinv.fdnum

/-- The second half of an iteration of the loop of `fs_write`: the chunk goes
into the block of the cursor, the bytes of the file outside the chunk stay,
and the cursor moves to the end of the chunk, below the maximal file size. -/
theorem fs_write_chunk_step (src : block_t) (fs0 : FS_t) (inode0 : inode_t) (c0 n0 NB : Nat)
    (st : fs_write_state) (hinv : write_inv src fs0 inode0 c0 n0 NB st) (hn : 0 < st.nbyte)
    (hidx : st.cursor / 1024 < NB)
    (hup : NB ≤ (st.inode.file_size + 1023) / 1024 ∨ NB = st.cursor / 1024 + 1) :
    ∃ st2, fs_write_chunk src st = Sum.inr st2 ∧
      write_inv src fs0 inode0 c0 n0 ((st2.inode.file_size + 1023) / 1024) st2 ∧
      st2.nbyte < st.nbyte := by
  obtain ⟨b1, b2, b3, b4, b5, b6⟩ := write_inv_bounds _ _ _ _ _ _ _ hinv
  have hcl : st.cursor < 268965888 := by omega
  obtain ⟨fdx, hx1, _, _, hx4, _, _, _⟩ := _fd_cursor_set_spec st.fd st.cursor hcl
  rw [hinv.can] at hx1
  have hfdx : fdx = st.fd := (Option.some.inj hx1).symm
  rw [hfdx] at hx4
  obtain ⟨nw, hnwdef⟩ : ∃ nw, nw = min st.nbyte (1024 - st.cursor % 1024) := ⟨_, rfl⟩
  have hnw1 : 0 < nw := by omega
  have hnw2 : nw ≤ st.nbyte := by omega
  have hnw3 : nw ≤ 1024 - st.cursor % 1024 := by omega
  have hnw : min st.nbyte ((BLOCK_SIZE_BYTES + 2 ^ 32 - st.fd.locate_offset) % 2 ^ 32) = nw := by
    rw [hx4, hnwdef]
    show min st.nbyte ((1024 + 4294967296 - st.cursor % 1024) % 4294967296) = _
    omega
  have hc1 : st.cursor + nw < 268965888 := by omega
  clear hnwdef
  obtain ⟨W, hW⟩ : ∃ W, W = file_block st.fs.BlockStore_whole st.inode (st.cursor / 1024) :=
    ⟨_, rfl⟩
  have hread : _fd_data_block_read st.fs st.inode st.fd =
      some (st.fs.BlockStore_whole.blocks W) := by
    rw [hW]
    exact _fd_data_block_read_at st.fs st.inode st.fd st.fd st.cursor hinv.ptrs hinv.can
  have hwrite : ∀ c, _fd_data_block_write st.fs st.inode st.fd c =
      (true, st.fs.set_block W c) := by
    intro c
    rw [hW]
    exact _fd_data_block_write_at st.fs st.inode st.fd st.fd st.cursor c hinv.ptrs hinv.can
  obtain ⟨fd1, hset, hfdn, _, _, _, hcan1, _⟩ := _fd_cursor_set_spec st.fd (st.cursor + nw) hc1
  obtain ⟨chunk, hchunk⟩ : ∃ chunk : block_t, chunk =
      (if nw < 1024 then
        (fun o => if st.cursor % 1024 ≤ o ∧ o < st.cursor % 1024 + nw
          then src (st.src_pos + (o - st.cursor % 1024)) else st.fs.BlockStore_whole.blocks W o)
      else (fun o => src (st.src_pos + o))) := ⟨_, rfl⟩
  obtain ⟨i1, hi1, hsz, hinum1, hty, hmap, hlc, hdd, hdi, hddi⟩ :=
    inode_grow_fields st.inode (st.cursor + nw)
  have heq := fs_write_chunk_eq src st _ chunk W nw _ fd1 i1 hx4 hnw hread hwrite hset hchunk hi1
  have hw := write_inv_chunk src fs0 inode0 c0 n0 NB st W nw chunk i1 fd1 hinv hidx hup hnw1 hnw2
    hnw3 hW
    (fun o ho => fs_write_chunk_bytes src _ chunk st.src_pos (st.cursor % 1024) nw
      (Nat.mod_lt _ (by decide)) hnw3 hchunk o ho)
    hcan1 hfdn hsz hinum1 ⟨hty, hmap, hlc⟩ hdd hdi hddi
  refine ⟨_, heq, ?_, ?_⟩
  · show write_inv src fs0 inode0 c0 n0 ((i1.file_size + 1023) / 1024) _
    rw [hw.2]
    exact hw.1
  · show st.nbyte - nw < st.nbyte
    omega

/-- The loop of `fs_write`, started at its head with the invariant and with
fuel for the bytes left, ends normally: with nothing left to write, or short
of it in a store with at most two free blocks.  It never takes `goto err2`. -/
theorem fs_write_loop_spec (src : block_t) (M : Nat) (fs0 : FS_t) (inode0 : inode_t)
    (c0 n0 : Nat) (hinum : inode0.inum < 256)
    (hM : ∀ k, (inode0.file_size + 1023) / 1024 ≤ k → k ≤ 65528 → k * 1024 < c0 + n0 →
      k - (inode0.file_size + 1023) / 1024 < M) :
    ∀ fuel st, st.nbyte ≤ fuel →
      write_inv src fs0 inode0 c0 n0 ((st.inode.file_size + 1023) / 1024) st →
      ∃ st1, fs_write_loop src M fuel st = some (true, st1) ∧
        write_inv src fs0 inode0 c0 n0 ((st1.inode.file_size + 1023) / 1024) st1 ∧
        (st1.nbyte = 0 ∨ few_free st1.fs.BlockStore_whole) := by
  intro fuel
  induction fuel with
  | zero =>
    intro st hle hinv
    unfold fs_write_loop
    rw [if_neg (by omega)]
    exact ⟨st, rfl, hinv, Or.inl (by omega)⟩
  | succ fuel ih =>
    intro st hle hinv
    unfold fs_write_loop
    by_cases hn : st.nbyte > 0
    · rw [if_pos hn]
      rcases fs_write_append_step src M fs0 inode0 c0 n0 st hinum hM hinv hn with
        ⟨st1, e, hw, _, hfew⟩ | ⟨st1, NB, e, hw, hnb, hidx, hup⟩
      · rw [e]
        exact ⟨st1, rfl, hw, Or.inr hfew⟩
      · rw [e]
        dsimp only
        obtain ⟨st2, e2, hw2, hlt⟩ :=
          fs_write_chunk_step src fs0 inode0 c0 n0 NB st1 hw (by omega) hidx hup
        rw [e2]
        dsimp only
        exact ih st2 (by omega) hw2
    · rw [if_neg hn]
      exact ⟨st, rfl, hinv, Or.inl (by omega)⟩

/-- The room that `fs_write` makes for the numbers of new blocks suffices. -/
theorem max_new_ptrs_suffices (s0 c0 n0 : Nat) (hc : c0 ≤ s0) (k : Nat)
    (h1 : (s0 + 1023) / 1024 ≤ k) (h2 : k ≤ 65528) (h3 : k * 1024 < c0 + n0) :
    k - (s0 + 1023) / 1024 < ceil_blocks n0 := by
  by_cases hn : n0 < 2 ^ 53
  · rw [ceil_blocks_eq n0 hn]
    omega
  · have := ceil_blocks_large n0 (Nat.le_of_not_lt hn)
    omega

/-- The invariant of the loop of `fs_write` holds when the loop is entered. -/
theorem write_inv_start (src : block_t) (fs : FS_t) (fd : fileDescriptor_t) (inode : inode_t)
    (n : Nat) (hcan : _fd_cursor_set fd (_fd_cursor_get fd) = some fd)
    (hle : _fd_cursor_get fd ≤ inode.file_size) (hp : inode_ptrs_ok inode)
    (hnum : fd.inum = inode.inum) (hres : reserved_used fs.BlockStore_whole)
    (htree : tree_ok fs.BlockStore_whole inode ((inode.file_size + 1023) / 1024)) :
    write_inv src fs inode (_fd_cursor_get fd) n ((inode.file_size + 1023) / 1024)
      { fs := fs, inode := inode, fd := fd, cursor := _fd_cursor_get fd, src_pos := 0,
        nbyte := n, new_ptrs := [] } := by
  constructor
  · exact hcan
  · rfl
  · exact ⟨rfl, rfl, rfl⟩
  · show inode.file_size = max inode.file_size (_fd_cursor_get fd)
    omega
  · show 0 + _fd_cursor_get fd = _fd_cursor_get fd
    omega
  · rfl
  · exact hp
  · exact hres
  · exact htree
  · exact Nat.le_refl _
  · show 0 + (inode.file_size + 1023) / 1024 = _
    omega
  · intro p _
    show file_byte fs.BlockStore_whole inode p =
      if _fd_cursor_get fd ≤ p ∧ p < _fd_cursor_get fd then src (p - _fd_cursor_get fd)
      else file_byte fs.BlockStore_whole inode p
    rw [if_neg (by omega)]
  · rfl
  · rfl
  · intro _ _
    rfl
  · intro _ _
    rfl
  · intro s hs h0
    exact absurd hs h0
  · intro b _
    constructor
    · exact Or.inl
    · intro h
      rcases h with h | ⟨s, hs, h0, _⟩
      · exact h
      · exact absurd hs h0
  · intro _ _ _ _ _
    rfl
  · exact hnum

/-- What `fs_write` does on an open descriptor in a sound state: the loop ends
normally in a state `st` that satisfies the invariant, with nothing left to
write or in a store with at most two free blocks; the descriptor and the inode
of `st` are stored, and the call returns the number of bytes written.  It
never returns -1. -/
theorem fs_write_spec (fs : FS_t) (fdi : Int) (fd : fileDescriptor_t) (inode : inode_t)
    (src : block_t) (n : Nat)
    (hfd : _fd_read fs fdi = some fd) (hino : _inode_read fs fd.inum = some inode)
    (hready : write_ready fs fd inode) (hp : inode_ptrs_ok inode) :
    ∃ st : fs_write_state,
      fs_write fs fdi src n =
        some (((n - st.nbyte : Nat) : Int),
          (st.fs.set_fd fdi.toNat st.fd).set_inode inode.inum st.inode) ∧
      write_inv src fs inode (_fd_cursor_get fd) n ((st.inode.file_size + 1023) / 1024) st ∧
      (st.nbyte = 0 ∨ few_free st.fs.BlockStore_whole) := by
  obtain ⟨hr1, hr2, hr3, _⟩ := _fd_read_some fs fdi fd hfd
  obtain ⟨hi1, _, _⟩ := _inode_read_some fs fd.inum inode hino
  have hinum : inode.inum < 256 := by
    rw [hready.inum_eq]
    exact hi1
  have hslt : inode.file_size < 268965888 := hready.size_lt
  have hcle := hready.cursor_le
  have hok : FD_OK fdi = true := by
    unfold FD_OK
    simp only [decide_eq_true_eq]
    exact ⟨hr1, hr2⟩
  have hceil : ceil_blocks inode.file_size = (inode.file_size + 1023) / 1024 :=
    ceil_blocks_eq _ (by
      have h53 : (2 : Nat) ^ 53 = 9007199254740992 := by norm_num
      rw [h53]
      omega)
  have htree : tree_ok fs.BlockStore_whole inode ((inode.file_size + 1023) / 1024) := by
    rw [← hceil]
    exact hready.tree
  have hstart := write_inv_start src fs fd inode n hready.fd_canonical hcle hp hready.inum_eq.symm
    hready.reserved
    htree
  obtain ⟨st, hl, hw, hend⟩ := fs_write_loop_spec src (ceil_blocks n) fs inode
    (_fd_cursor_get fd) n hinum
    (fun k h1 h2 h3 => max_new_ptrs_suffices inode.file_size (_fd_cursor_get fd) n hcle k h1 h2 h3)
    n { fs := fs, inode := inode, fd := fd, cursor := _fd_cursor_get fd, src_pos := 0,
        nbyte := n, new_ptrs := [] } (Nat.le_refl _) hstart
  unfold fs_write
  rw [if_neg (by simpa using hok), hfd]
  dsimp only
  rw [hino]
  dsimp only
  have hne : ¬ _fd_cursor_get fd = SIZE_MAX := by
    unfold SIZE_MAX
    omega
  rw [if_neg hne, hl]
  dsimp only
  have htest : block_store_sub_test st.fs.BlockStore_fd fdi.toNat = true := by
    rw [hw.fds]
    exact hr3
  rw [_BS_FD_WRITE_of_test _ _ _ htest]
  dsimp only
  rw [_BS_INODE_WRITE_of_lt _ _ _ (by rw [hw.inum]; exact hinum), hw.inum]
  exact ⟨st, rfl, hw, hend⟩

theorem tree_ok_zero (bs : block_store_t) (inode : inode_t) : tree_ok bs inode 0 := by
  have hno : ∀ s, ¬ slot_live 0 s := by
    intro s hs
    cases s <;> unfold slot_live at hs <;> omega
  exact ⟨fun s hs => absurd hs (hno s), fun s _ hs => absurd hs (hno s)⟩

/-- The state that `fs_write` leaves on an open descriptor in a sound state.
With `c` the cursor and `s` the size of the file before the call: the call
returns a count `k ≤ n`, never -1, and `k < n` only in a store with at most two
free blocks; the stored descriptor has cursor `c + k`, the stored inode has
size `max s (c + k)`, the bytes `[c, c + k)` of the file are the first `k`
bytes of the source and the other bytes of the file are as before; no block
in use is released and the descriptor is ready for the next call. -/
theorem fs_write_outcome (fs : FS_t) (fdi : Int) (fd : fileDescriptor_t) (inode : inode_t)
    (src : block_t) (n : Nat)
    (hfd : _fd_read fs fdi = some fd) (hino : _inode_read fs fd.inum = some inode)
    (hready : write_ready fs fd inode) (hp : inode_ptrs_ok inode) :
    ∃ (k : Nat) (fs1 : FS_t) (fd1 : fileDescriptor_t) (inode1 : inode_t),
      fs_write fs fdi src n = some ((k : Int), fs1) ∧ k ≤ n ∧
      (k < n → few_free fs1.BlockStore_whole) ∧
      _fd_read fs1 fdi = some fd1 ∧ _inode_read fs1 fd1.inum = some inode1 ∧
      fd1.inum = fd.inum ∧
      _fd_cursor_get fd1 = _fd_cursor_get fd + k ∧
      inode1.file_size = max inode.file_size (_fd_cursor_get fd + k) ∧
      inode1.file_size ≤ 1024 * 65528 ∧
      (∀ p, p < inode1.file_size → file_byte fs1.BlockStore_whole inode1 p =
        if _fd_cursor_get fd ≤ p ∧ p < _fd_cursor_get fd + k then src (p - _fd_cursor_get fd)
        else file_byte fs.BlockStore_whole inode p) ∧
      (∀ b, b < 65536 → block_used fs.BlockStore_whole b → block_used fs1.BlockStore_whole b) ∧
      write_ready fs1 fd1 inode1 ∧ inode_ptrs_ok inode1 := by
  obtain ⟨st, hw, hinv, hend⟩ := fs_write_spec fs fdi fd inode src n hfd hino hready hp
  obtain ⟨b1, b2, b3, b4, b5, b6⟩ := write_inv_bounds _ _ _ _ _ _ _ hinv
  obtain ⟨hi1, hi2, _⟩ := _inode_read_some fs fd.inum inode hino
  have hrem := hinv.rem
  have hcl : st.cursor < 268965888 := by omega
  obtain ⟨fdx, hx1, _, _, _, hx5, _, _⟩ := _fd_cursor_set_spec st.fd st.cursor hcl
  rw [hinv.can] at hx1
  have hfdx : fdx = st.fd := (Option.some.inj hx1).symm
  rw [hfdx] at hx5
  have hk : st.cursor = _fd_cursor_get fd + (n - st.nbyte) := by omega
  have hfdn : st.fd.inum = fd.inum := hinv.fdnum.trans hready.inum_eq
  have hwhole : ((st.fs.set_fd fdi.toNat st.fd).set_inode inode.inum st.inode).BlockStore_whole
      = st.fs.BlockStore_whole := rfl
  have hread1 : _fd_read ((st.fs.set_fd fdi.toNat st.fd).set_inode inode.inum st.inode) fdi
      = some st.fd := by
    have hfd0 : _fd_read st.fs fdi = some fd := by
      unfold _fd_read at hfd ⊢
      rw [hinv.fds]
      exact hfd
    exact _fd_read_set_fd st.fs fdi fd st.fd hfd0
  have hino1 : _inode_read ((st.fs.set_fd fdi.toNat st.fd).set_inode inode.inum st.inode)
      st.fd.inum = some st.inode := by
    rw [hfdn]
    have htest : block_store_sub_test
        ((st.fs.set_fd fdi.toNat st.fd).set_inode inode.inum st.inode).BlockStore_inode fd.inum
        = true := by
      have e : ((st.fs.set_fd fdi.toNat st.fd).set_inode inode.inum st.inode).BlockStore_inode.fbm
          = fs.BlockStore_inode.fbm := by
        show bitmap_overlay NUM_INODES (st.fs.BlockStore_whole.blocks 0) =
          bitmap_overlay NUM_INODES (fs.BlockStore_whole.blocks 0)
        rw [hinv.block0]
      unfold block_store_sub_test at hi2 ⊢
      rw [e]
      exact hi2
    rw [_inode_read_of_test _ _ hi1 htest]
    show some (if fd.inum = inode.inum then st.inode else _) = _
    rw [if_pos hready.inum_eq.symm]
  have hs53 : st.inode.file_size < 2 ^ 53 := by
    have h53 : (2 : Nat) ^ 53 = 9007199254740992 := by norm_num
    rw [h53]
    omega
  refine ⟨n - st.nbyte, _, st.fd, st.inode, hw, Nat.sub_le _ _, ?_, hread1, hino1, hfdn, ?_, ?_,
    by omega, ?_, ?_, ?_, hinv.ptrs⟩
  · intro hlt
    rcases hend with h | h
    · omega
    · exact h
  · rw [hx5]
    exact hk
  · rw [hinv.size, hk]
  · intro p hp1
    rw [hwhole, hinv.content p hp1, hk]
  · intro b hb hu
    rw [hwhole]
    exact (hinv.used b hb).2 (Or.inl hu)
  · refine ⟨?_, ?_, ?_, ?_, ?_, ?_⟩
    · rw [hx5]
      exact hinv.can
    · exact hinv.inum.trans (hready.inum_eq.trans hfdn.symm)
    · rw [hx5]
      exact b2
    · show st.inode.file_size < 268965888
      omega
    · rw [hwhole]
      exact hinv.res
    · rw [hwhole, ceil_blocks_eq _ hs53]
      exact hinv.tree

/-! ## The claims on `fs_write` -/

/-- The state `fs_open_a` (the empty file `/a`, open on descriptor 0) is sound:
what the theorems on `fs_write` ask of a state. -/
theorem fs_open_a_ready :
    _fd_read fs_open_a 0 = some (fs_open_a.BlockStore_fd.records 0) ∧
    _inode_read fs_open_a (fs_open_a.BlockStore_fd.records 0).inum =
      some (fs_open_a.inode_table 1) ∧
    write_ready fs_open_a (fs_open_a.BlockStore_fd.records 0) (fs_open_a.inode_table 1) ∧
    inode_ptrs_ok (fs_open_a.inode_table 1) := by
  have e1 : (fs_open_a.BlockStore_fd.records 0).inum = 1 := by decide!
  have e2 : ceil_blocks (fs_open_a.inode_table 1).file_size = 0 := by decide!
  refine ⟨by decide!, ?_, ⟨by decide!, by decide!, by decide!, by decide!, ?_, ?_⟩, ?_⟩
  · rw [e1]
    exact _inode_read_of_test fs_open_a 1 (by decide) (by decide!)
  · unfold reserved_used block_used
    decide!
  · rw [e2]
    exact tree_ok_zero _ _
  · unfold inode_ptrs_ok
    decide!

/-- The state `fs_open_a_full` is sound as well. -/
theorem fs_open_a_full_ready :
    _fd_read fs_open_a_full 0 = some (fs_open_a_full.BlockStore_fd.records 0) ∧
    _inode_read fs_open_a_full (fs_open_a_full.BlockStore_fd.records 0).inum =
      some (fs_open_a_full.inode_table 1) ∧
    write_ready fs_open_a_full (fs_open_a_full.BlockStore_fd.records 0)
      (fs_open_a_full.inode_table 1) ∧
    inode_ptrs_ok (fs_open_a_full.inode_table 1) := by
  have e1 : (fs_open_a_full.BlockStore_fd.records 0).inum = 1 := by decide!
  have e2 : ceil_blocks (fs_open_a_full.inode_table 1).file_size = 0 := by decide!
  refine ⟨by decide!, ?_, ⟨by decide!, by decide!, by decide!, by decide!, ?_, ?_⟩, ?_⟩
  · rw [e1]
    exact _inode_read_of_test fs_open_a_full 1 (by decide) (by decide!)
  · unfold reserved_used block_used
    decide!
  · rw [e2]
    exact tree_ok_zero _ _
  · unfold inode_ptrs_ok
    decide!

/-- The call that makes `fs_hello` returns 5. -/
theorem fs_write_hello_eq :
    fs_write fs_open_a 0 (buffer_of "hello") 5 = some (((5 : Nat) : Int), fs_hello) := by
  have h : (fs_write fs_open_a 0 (buffer_of "hello") 5).map (fun r => r.1) = some 5 := by
    decide!
  unfold fs_hello
  generalize fs_write fs_open_a 0 (buffer_of "hello") 5 = x at h ⊢
  cases x with
  | none => exact Option.noConfusion h
  | some r =>
    cases r with
    | mk a b =>
    have ha : a = 5 := Option.some.inj h
    rw [ha]
    rfl

/-- C17: on an open descriptor in a sound state (cursor `c`, file size `s`), a
`fs_write` of `n` bytes that returns `n` leaves the stored cursor at `c + n`
and the stored size at `max s (c + n)`; the bytes `[c, c + n)` of the file are
the source and every byte of the file outside `[c, c + n)` is as it was, also
in a block that the write covers in part. -/
theorem fs_write_full_count_effect (fs : FS_t) (fdi : Int) (fd : fileDescriptor_t)
    (inode : inode_t) (src : block_t) (n : Nat) (fs1 : FS_t)
    (hfd : _fd_read fs fdi = some fd) (hino : _inode_read fs fd.inum = some inode)
    (hready : write_ready fs fd inode) (hp : inode_ptrs_ok inode)
    (hret : fs_write fs fdi src n = some ((n : Int), fs1)) :
    ∃ fd1 inode1, _fd_read fs1 fdi = some fd1 ∧ _inode_read fs1 fd1.inum = some inode1 ∧
      fd1.inum = fd.inum ∧
      _fd_cursor_get fd1 = _fd_cursor_get fd + n ∧
      inode1.file_size = max inode.file_size (_fd_cursor_get fd + n) ∧
      (∀ p, p < inode.file_size → ¬ (_fd_cursor_get fd ≤ p ∧ p < _fd_cursor_get fd + n) →
        file_byte fs1.BlockStore_whole inode1 p = file_byte fs.BlockStore_whole inode p) ∧
      (∀ j, j < n → file_byte fs1.BlockStore_whole inode1 (_fd_cursor_get fd + j) = src j) := by
  obtain ⟨k, fs2, fd1, inode1, hw, _, _, h1, h2, h3, h4, h5, _, h7, _, _, _⟩ :=
    fs_write_outcome fs fdi fd inode src n hfd hino hready hp
  rw [hw] at hret
  have hpair := Option.some.inj hret
  have hk : k = n := Int.ofNat.inj (Prod.mk.inj hpair).1
  have hfs : fs2 = fs1 := (Prod.mk.inj hpair).2
  subst hk hfs
  refine ⟨fd1, inode1, h1, h2, h3, h4, h5, ?_, ?_⟩
  · intro p hp1 hno
    rw [h7 p (by rw [h5]; omega), if_neg hno]
  · intro j hj
    rw [h7 _ (by rw [h5]; omega), if_pos (by omega)]
    congr 1
    omega

theorem fs_write_full_count_effect_witness :
    ∃ fd1 inode1, _fd_read fs_hello 0 = some fd1 ∧
      _inode_read fs_hello fd1.inum = some inode1 ∧
      fd1.inum = (fs_open_a.BlockStore_fd.records 0).inum ∧
      _fd_cursor_get fd1 = _fd_cursor_get (fs_open_a.BlockStore_fd.records 0) + 5 ∧
      inode1.file_size = max (fs_open_a.inode_table 1).file_size
        (_fd_cursor_get (fs_open_a.BlockStore_fd.records 0) + 5) ∧
      (∀ p, p < (fs_open_a.inode_table 1).file_size →
        ¬ (_fd_cursor_get (fs_open_a.BlockStore_fd.records 0) ≤ p ∧
          p < _fd_cursor_get (fs_open_a.BlockStore_fd.records 0) + 5) →
        file_byte fs_hello.BlockStore_whole inode1 p =
          file_byte fs_open_a.BlockStore_whole (fs_open_a.inode_table 1) p) ∧
      (∀ j, j < 5 → file_byte fs_hello.BlockStore_whole inode1
        (_fd_cursor_get (fs_open_a.BlockStore_fd.records 0) + j) = buffer_of "hello" j) :=
  fs_write_full_count_effect fs_open_a 0 (fs_open_a.BlockStore_fd.records 0)
    (fs_open_a.inode_table 1) (buffer_of "hello") 5 fs_hello fs_open_a_ready.1
    fs_open_a_ready.2.1 fs_open_a_ready.2.2.1 fs_open_a_ready.2.2.2 fs_write_hello_eq

/-- C18: on an open descriptor in a sound state (cursor `c`, file size `s`),
`fs_write` of `n` bytes never returns the error sentinel: it returns a count
`k ≤ n`, and `k < n` only when the store has run out of space (at most two
free blocks are left, fewer than the next block of the file needs).  The
stored cursor is `c + k`, the stored size `max s (c + k)`, the bytes
`[c, c + k)` of the file are the source, no block that was in use is
released, and every block of the file as it is now, those allocated by this
call included, is in use. -/
theorem fs_write_out_of_space_returns_count (fs : FS_t) (fdi : Int) (fd : fileDescriptor_t)
    (inode : inode_t) (src : block_t) (n : Nat)
    (hfd : _fd_read fs fdi = some fd) (hino : _inode_read fs fd.inum = some inode)
    (hready : write_ready fs fd inode) (hp : inode_ptrs_ok inode) :
    ∃ (k : Nat) (fs1 : FS_t) (fd1 : fileDescriptor_t) (inode1 : inode_t),
      fs_write fs fdi src n = some ((k : Int), fs1) ∧ k ≤ n ∧
      (k < n → few_free fs1.BlockStore_whole) ∧
      _fd_read fs1 fdi = some fd1 ∧ _inode_read fs1 fd1.inum = some inode1 ∧
      _fd_cursor_get fd1 = _fd_cursor_get fd + k ∧
      inode1.file_size = max inode.file_size (_fd_cursor_get fd + k) ∧
      (∀ j, j < k → file_byte fs1.BlockStore_whole inode1 (_fd_cursor_get fd + j) = src j) ∧
      (∀ b, b < BLOCK_STORE_NUM_BLOCKS → block_used fs.BlockStore_whole b →
        block_used fs1.BlockStore_whole b) ∧
      tree_ok fs1.BlockStore_whole inode1 (ceil_blocks inode1.file_size) := by
  obtain ⟨k, fs1, fd1, inode1, hw, h0, hfew, h1, h2, _, h4, h5, _, h7, h8, h9, _⟩ :=
    fs_write_outcome fs fdi fd inode src n hfd hino hready hp
  refine ⟨k, fs1, fd1, inode1, hw, h0, hfew, h1, h2, h4, h5, ?_, h8, h9.tree⟩
  intro j hj
  rw [h7 _ (by rw [h5]; omega), if_pos (by omega)]
  congr 1
  omega

set_option maxRecDepth 1000000 in
theorem fs_write_out_of_space_returns_count_witness :
    (fs_write fs_open_a_full 0 (buffer_of "hello") 5).map (fun r => r.1) = some 0 ∧
    ∃ (k : Nat) (fs1 : FS_t) (fd1 : fileDescriptor_t) (inode1 : inode_t),
      fs_write fs_open_a_full 0 (buffer_of "hello") 5 = some ((k : Int), fs1) ∧ k ≤ 5 ∧
      (k < 5 → few_free fs1.BlockStore_whole) ∧
      _fd_read fs1 0 = some fd1 ∧ _inode_read fs1 fd1.inum = some inode1 ∧
      _fd_cursor_get fd1 = _fd_cursor_get (fs_open_a_full.BlockStore_fd.records 0) + k ∧
      inode1.file_size = max (fs_open_a_full.inode_table 1).file_size
        (_fd_cursor_get (fs_open_a_full.BlockStore_fd.records 0) + k) ∧
      (∀ j, j < k → file_byte fs1.BlockStore_whole inode1
        (_fd_cursor_get (fs_open_a_full.BlockStore_fd.records 0) + j) = buffer_of "hello" j) ∧
      (∀ b, b < BLOCK_STORE_NUM_BLOCKS → block_used fs_open_a_full.BlockStore_whole b →
        block_used fs1.BlockStore_whole b) ∧
      tree_ok fs1.BlockStore_whole inode1 (ceil_blocks inode1.file_size) :=
  ⟨by decide!,
    fs_write_out_of_space_returns_count fs_open_a_full 0 (fs_open_a_full.BlockStore_fd.records 0)
      (fs_open_a_full.inode_table 1) (buffer_of "hello") 5 fs_open_a_full_ready.1
      fs_open_a_full_ready.2.1 fs_open_a_full_ready.2.2.1 fs_open_a_full_ready.2.2.2⟩

set_option maxRecDepth 1000000 in
/-- The branch of `fs_write` at the maximal file size, evaluated on a crafted
state.  The state `fs_near_limit` holds a file 10 bytes short of the maximal
size with the cursor at its end; no sequence of calls reaches it in a store
of 65536 blocks, where a file has at most `65528 * 1024` bytes.  In it a
write of 20 bytes returns -1, not 10; so does a write of the 10 bytes that
fit, while a write of 9 bytes returns 9: the guard of `_fd_cursor_set`
refuses the cursor `FD_DOUBLE_INDIRECT_MAX_OFF` and `fs_write` leaves through
`err2`.  In the state `fs_open_a` (an empty file in a store of 65536 blocks)
a write of `FD_DOUBLE_INDIRECT_MAX_OFF` bytes returns a count of at most
`65528 * 1024`: the store is full long before the limit. -/
theorem fs_write_at_maximum_returns_error :
    FD_DOUBLE_INDIRECT_MAX_OFF = 268965888 ∧
    (fs_near_limit.inode_table 1).file_size = 268965878 ∧
    _fd_cursor_get (fs_near_limit.BlockStore_fd.records 0) = 268965878 ∧
    (fs_write fs_near_limit 0 (buffer_of "0123456789abcdefghij") 20).map (fun r => r.1)
      = some (-1) ∧
    (fs_write fs_near_limit 0 (buffer_of "0123456789abcdefghij") 10).map (fun r => r.1)
      = some (-1) ∧
    (fs_write fs_near_limit 0 (buffer_of "0123456789abcdefghij") 9).map (fun r => r.1)
      = some 9 ∧
    ∀ src : block_t, ∃ (k : Nat) (fs1 : FS_t),
      fs_write fs_open_a 0 src 268965888 = some ((k : Int), fs1) ∧ k ≤ 67100672 := by
  refine ⟨by decide, by decide!, by decide!, by decide!, by decide!, by decide!, ?_⟩
  intro src
  obtain ⟨k, fs1, fd1, inode1, hw, _, _, _, _, _, _, h5, h6, _⟩ :=
    fs_write_outcome fs_open_a 0 (fs_open_a.BlockStore_fd.records 0)
      (fs_open_a.inode_table 1) src 268965888 fs_open_a_ready.1
      fs_open_a_ready.2.1 fs_open_a_ready.2.2.1 fs_open_a_ready.2.2.2
  refine ⟨k, fs1, hw, ?_⟩
  omega

/-- C1: on an open descriptor in a sound state with cursor `c`, when
`fs_write` of `n` bytes from `src` returns `n`, the call
`fs_seek(fd, c, FS_SEEK_SET)` returns `c`, and `fs_read` of `n` bytes then
returns `n` and delivers the bytes of `src`. -/
theorem fs_write_seek_read_roundtrip (fs : FS_t) (fdi : Int) (fd : fileDescriptor_t)
    (inode : inode_t) (src dest : block_t) (n : Nat) (fs1 : FS_t)
    (hfd : _fd_read fs fdi = some fd) (hino : _inode_read fs fd.inum = some inode)
    (hready : write_ready fs fd inode) (hp : inode_ptrs_ok inode)
    (hret : fs_write fs fdi src n = some ((n : Int), fs1)) :
    ∃ fs2 out fs3,
      fs_seek fs1 fdi (_fd_cursor_get fd : Int) FS_SEEK_SET = ((_fd_cursor_get fd : Int), fs2) ∧
      fs_read fs2 fdi dest n = some ((n : Int), out, fs3) ∧
      ∀ j, j < n → out j = src j := by
  obtain ⟨k, fs1b, fd1, inode1, hw, _, _, h1, h2, _, h4, h5, h6, h7, _, h9, hp1⟩ :=
    fs_write_outcome fs fdi fd inode src n hfd hino hready hp
  rw [hw] at hret
  have hpair := Option.some.inj hret
  have hk : n = k := (Int.ofNat.inj (Prod.mk.inj hpair).1).symm
  have hfs : fs1b = fs1 := (Prod.mk.inj hpair).2
  subst hk hfs
  have hs1 : inode1.file_size < 268965888 := by omega
  have hc63 : ((_fd_cursor_get fd : Nat) : Int) < 2 ^ 63 := by
    have : _fd_cursor_get fd < 268965888 := by omega
    have h63 : (2 : Int) ^ 63 = 9223372036854775808 := by norm_num
    rw [h63]
    omega
  have hsb : seek_base FS_SEEK_SET (_fd_cursor_get fd1) inode1.file_size = 0 := rfl
  obtain ⟨fd2, hset2, hseek⟩ := fs_seek_spec fs1b fdi fd1 inode1 (_fd_cursor_get fd : Int)
    FS_SEEK_SET h1 h2 (by decide) hs1
    (by rw [hsb]; decide)
    (by
      rw [hsb]
      have h63 : (2 : Int) ^ 63 = 9223372036854775808 := by norm_num
      rw [h63]
      omega)
    (by
      rw [hsb]
      simp only [Nat.cast_zero, zero_add]
      exact hc63)
  have hclamp : clamp_to_file 0 (_fd_cursor_get fd : Int) inode1.file_size
      = (_fd_cursor_get fd : Int) := by
    unfold clamp_to_file
    omega
  rw [hsb, hclamp] at hseek hset2
  rw [Int.toNat_ofNat] at hset2
  obtain ⟨fd2b, hs2b, hin2, _, _, hget2, hcan2, _⟩ :=
    _fd_cursor_set_spec fd1 (_fd_cursor_get fd) (by omega)
  rw [hset2] at hs2b
  have e2 : fd2 = fd2b := Option.some.inj hs2b
  subst e2
  have hcan2b : _fd_cursor_set fd2 (_fd_cursor_get fd2) = some fd2 := by
    rw [hget2]
    exact hcan2
  obtain ⟨out, fs3, _, hread, _, _, _, _, _, _, hout⟩ :=
    fs_read_spec (fs1b.set_fd fdi.toNat fd2) fdi fd2 inode1 dest n
      (_fd_read_set_fd fs1b fdi fd1 fd2 h1)
      (by rw [_inode_read_set_fd, hin2]; exact h2) hcan2b hs1 hp1
  have hmin : min n (inode1.file_size - _fd_cursor_get fd2) = n := by
    rw [hget2]
    omega
  rw [hmin] at hread hout
  refine ⟨_, out, fs3, hseek, hread, ?_⟩
  intro j hj
  rw [hout j, if_pos hj, hget2]
  show file_byte fs1b.BlockStore_whole inode1 (_fd_cursor_get fd + j) = src j
  rw [h7 _ (by omega), if_pos (by omega)]
  congr 1
  omega

theorem fs_write_seek_read_roundtrip_witness :
    ∃ fs2 out fs3,
      fs_seek fs_hello 0 (_fd_cursor_get (fs_open_a.BlockStore_fd.records 0) : Int) FS_SEEK_SET =
        ((_fd_cursor_get (fs_open_a.BlockStore_fd.records 0) : Int), fs2) ∧
      fs_read fs2 0 (fun _ => 0) 5 = some (((5 : Nat) : Int), out, fs3) ∧
      ∀ j, j < 5 → out j = buffer_of "hello" j :=
  fs_write_seek_read_roundtrip fs_open_a 0 (fs_open_a.BlockStore_fd.records 0)
    (fs_open_a.inode_table 1) (buffer_of "hello") (fun _ => 0) 5 fs_hello fs_open_a_ready.1
    fs_open_a_ready.2.1 fs_open_a_ready.2.2.1 fs_open_a_ready.2.2.2 fs_write_hello_eq

/-! ## Blocks hold bytes: `fs_write` -/

theorem ind_set_lt (b : block_t) (k v : Nat) (hb : ∀ o, b o < 256) (o : Nat) :
    ind_set b k v o < 256 := by
  unfold ind_set
  split_ifs
  · exact Nat.mod_lt _ (by decide)
  · exact Nat.mod_lt _ (by decide)
  · exact hb o

theorem block_store_read_lt (bs : block_store_t) (id : Nat) (blk : block_t) (h : bs.bytes_ok)
    (hr : block_store_read bs id = some blk) (o : Nat) : blk o < 256 := by
  unfold block_store_read at hr
  split_ifs at hr
  cases hr
  exact h id o

theorem bytes_ok_with_whole (fs : FS_t) (bs : block_store_t) (h : bs.bytes_ok) :
    ({ fs with BlockStore_whole := bs } : FS_t).bytes_ok := h

theorem bytes_ok_whole (fs : FS_t) (h : fs.bytes_ok) : fs.BlockStore_whole.bytes_ok := h

theorem bytes_ok_err2 (e : Int) (fs : FS_t) (inode : inode_t) (a b c : Nat) (h : fs.bytes_ok) :
    (_inode_add_owned_block_err2 e fs inode a b c).2.1.bytes_ok := by
  unfold _inode_add_owned_block_err2
  show block_store_t.bytes_ok _
  have h0 : fs.BlockStore_whole.bytes_ok := h
  have step : ∀ (bs : block_store_t) (x : Nat), bs.bytes_ok →
      (if x ≠ SIZE_MAX then block_store_release bs x else bs).bytes_ok := by
    intro bs x hbs
    split_ifs
    · exact bytes_ok_release bs x hbs
    · exact hbs
  exact step _ c (step _ b (step _ a h0))

theorem bytes_ok_add_ind (fs : FS_t) (inode : inode_t) (i a b : Nat) (h : fs.bytes_ok) :
    (_inode_add_owned_block_ind fs inode i a b).2.1.bytes_ok := by
  unfold _inode_add_owned_block_ind
  split
  · exact bytes_ok_err2 _ _ _ _ _ _ h
  · rename_i blk hr
    split
    · exact bytes_ok_err2 _ _ _ _ _ _ h
    · rename_i fs1 hw
      exact bytes_ok_BS_WRITE _ _ _ _ h
        (ind_set_lt _ _ _ (block_store_read_lt _ _ _ h hr)) hw

theorem bytes_ok_add_dbl2 (fs : FS_t) (inode : inode_t) (blk : block_t) (i j a b c : Nat)
    (h : fs.bytes_ok) :
    (_inode_add_owned_block_dbl2 fs inode blk i j a b c).2.1.bytes_ok := by
  unfold _inode_add_owned_block_dbl2
  split
  · exact bytes_ok_err2 _ _ _ _ _ _ h
  · rename_i blk2 hr
    split
    · exact bytes_ok_err2 _ _ _ _ _ _ h
    · rename_i fs1 hw
      exact bytes_ok_BS_WRITE _ _ _ _ h
        (ind_set_lt _ _ _ (block_store_read_lt _ _ _ h hr)) hw

theorem bytes_ok_add_dbl1 (fs : FS_t) (inode : inode_t) (i a c : Nat) (h : fs.bytes_ok) :
    (_inode_add_owned_block_dbl1 fs inode i a c).2.1.bytes_ok := by
  unfold _inode_add_owned_block_dbl1
  cases hr : block_store_read fs.BlockStore_whole inode.data_double_indirect with
  | none => exact bytes_ok_err2 _ _ _ _ _ _ h
  | some blk =>
    dsimp only
    have hblk := block_store_read_lt _ _ _ (bytes_ok_whole fs h) hr
    by_cases h0 : i % BLOCK_PTRS_PER_BLOCK = 0
    · rw [if_pos h0]
      cases hal : block_store_allocate fs.BlockStore_whole with
      | mk ni bsa =>
      dsimp only
      have ha : ({ fs with BlockStore_whole := bsa } : FS_t).bytes_ok := by
        have h1 := bytes_ok_allocate fs.BlockStore_whole (bytes_ok_whole fs h)
        rw [hal] at h1
        exact bytes_ok_with_whole fs bsa h1
      by_cases hni : ni = SIZE_MAX
      · rw [if_pos hni]
        exact bytes_ok_err2 _ _ _ _ _ _ ha
      · rw [if_neg hni]
        cases hw : _BS_WRITE ({ fs with BlockStore_whole := bsa } : FS_t)
            inode.data_double_indirect (ind_set blk (i / BLOCK_PTRS_PER_BLOCK) ni) with
        | none => exact bytes_ok_err2 _ _ _ _ _ _ ha
        | some fs2 =>
          exact bytes_ok_add_dbl2 _ _ _ _ _ _ _ _
            (bytes_ok_BS_WRITE _ _ _ _ ha (ind_set_lt _ _ _ hblk) hw)
    · rw [if_neg h0]
      exact bytes_ok_add_dbl2 _ _ _ _ _ _ _ _ h

theorem bytes_ok_of_eq (x : Int × FS_t × inode_t) (r : Int) (fs1 : FS_t) (inode1 : inode_t)
    (hx : x.2.1.bytes_ok) (he : x = (r, fs1, inode1)) : fs1.bytes_ok := by
  rw [he] at hx
  exact hx

/-- The blocks hold bytes after `_inode_add_owned_block`, whatever it returns. -/
theorem bytes_ok_add_owned_block (fs : FS_t) (inode : inode_t) (r : Int) (fs1 : FS_t)
    (inode1 : inode_t) (h : fs.bytes_ok)
    (he : _inode_add_owned_block fs inode = (r, fs1, inode1)) : fs1.bytes_ok := by
  unfold _inode_add_owned_block at he
  cases hal : block_store_allocate fs.BlockStore_whole with
  | mk new bsa =>
  rw [hal] at he
  dsimp only at he
  have ha : ({ fs with BlockStore_whole := bsa } : FS_t).bytes_ok := by
    have h1 := bytes_ok_allocate fs.BlockStore_whole (bytes_ok_whole fs h)
    rw [hal] at h1
    exact bytes_ok_with_whole fs bsa h1
  have hsecond : ∀ (nx : Nat) (bsb : block_store_t), block_store_allocate bsa = (nx, bsb) →
      ({ fs with BlockStore_whole := bsb } : FS_t).bytes_ok := by
    intro nx bsb hal2
    have h1 := bytes_ok_allocate bsa ha
    rw [hal2] at h1
    exact bytes_ok_with_whole fs bsb h1
  by_cases hnew : new = SIZE_MAX
  · rw [if_pos hnew] at he
    exact bytes_ok_of_eq _ _ _ _ (bytes_ok_err2 _ _ _ _ _ _ ha) he
  rw [if_neg hnew] at he
  by_cases h6 : ceil_blocks inode.file_size < FD_DIRECT_MAX_PTRS
  · rw [if_pos h6] at he
    split at he
    · exact bytes_ok_of_eq _ _ _ _ (bytes_ok_err2 _ _ _ _ _ _ ha) he
    · rename_i fs2 hw
      have h2 := bytes_ok_BS_INODE_WRITE _ _ _ _ ha hw
      simp only [Prod.mk.injEq] at he
      rw [← he.2.1]
      exact h2
  rw [if_neg h6] at he
  by_cases h518 : ceil_blocks inode.file_size < FD_INDIRECT_MAX_PTRS
  · rw [if_pos h518] at he
    by_cases hi0 : ceil_blocks inode.file_size - FD_DIRECT_MAX_PTRS = 0
    · rw [if_pos hi0] at he
      cases hal2 : block_store_allocate bsa with
      | mk ni bsb =>
      rw [hal2] at he
      dsimp only at he
      have hb := hsecond ni bsb hal2
      by_cases hni : ni = SIZE_MAX
      · rw [if_pos hni] at he
        exact bytes_ok_of_eq _ _ _ _ (bytes_ok_err2 _ _ _ _ _ _ hb) he
      · rw [if_neg hni] at he
        split at he
        · exact bytes_ok_of_eq _ _ _ _ (bytes_ok_err2 _ _ _ _ _ _ hb) he
        · rename_i fs2 hw
          exact bytes_ok_of_eq _ _ _ _
            (bytes_ok_add_ind _ _ _ _ _ (bytes_ok_BS_INODE_WRITE _ _ _ _ hb hw)) he
    · rw [if_neg hi0] at he
      exact bytes_ok_of_eq _ _ _ _ (bytes_ok_add_ind _ _ _ _ _ ha) he
  rw [if_neg h518] at he
  by_cases hmax : ceil_blocks inode.file_size < FD_DOUBLE_INDIRECT_MAX_PTRS
  · rw [if_pos hmax] at he
    by_cases hd0 : ceil_blocks inode.file_size - FD_INDIRECT_MAX_PTRS = 0
    · rw [if_pos hd0] at he
      cases hal2 : block_store_allocate bsa with
      | mk nd bsb =>
      rw [hal2] at he
      dsimp only at he
      have hb := hsecond nd bsb hal2
      by_cases hnd : nd = SIZE_MAX
      · rw [if_pos hnd] at he
        exact bytes_ok_of_eq _ _ _ _ (bytes_ok_err2 _ _ _ _ _ _ hb) he
      · rw [if_neg hnd] at he
        split at he
        · exact bytes_ok_of_eq _ _ _ _ (bytes_ok_err2 _ _ _ _ _ _ hb) he
        · rename_i fs2 hw
          exact bytes_ok_of_eq _ _ _ _
            (bytes_ok_add_dbl1 _ _ _ _ _ (bytes_ok_BS_INODE_WRITE _ _ _ _ hb hw)) he
    · rw [if_neg hd0] at he
      exact bytes_ok_of_eq _ _ _ _ (bytes_ok_add_dbl1 _ _ _ _ _ ha) he
  · rw [if_neg hmax] at he
    exact bytes_ok_of_eq _ _ _ _ (bytes_ok_err2 _ _ _ _ _ _ ha) he

theorem bytes_ok_data_block_write (fs : FS_t) (inode : inode_t) (fd : fileDescriptor_t)
    (buf : block_t) (h : fs.bytes_ok) (hbuf : ∀ o, buf o < 256) :
    (_fd_data_block_write fs inode fd buf).2.bytes_ok := by
  unfold _fd_data_block_write
  split_ifs
  · split
    · exact h
    · rename_i fs1 hw
      exact bytes_ok_BS_WRITE _ _ _ _ h hbuf hw
  · split
    · exact h
    · split
      · exact h
      · rename_i fs1 hw
        exact bytes_ok_BS_WRITE _ _ _ _ h hbuf hw
  · split
    · exact h
    · dsimp only
      split
      · exact h
      · split
        · exact h
        · rename_i fs1 hw
          exact bytes_ok_BS_WRITE _ _ _ _ h hbuf hw
  · exact h

theorem data_block_read_lt (fs : FS_t) (inode : inode_t) (fd : fileDescriptor_t)
    (blk : block_t) (h : fs.bytes_ok) (hr : _fd_data_block_read fs inode fd = some blk)
    (o : Nat) : blk o < 256 := by
  unfold _fd_data_block_read at hr
  split_ifs at hr
  · exact block_store_read_lt _ _ _ h hr o
  · split at hr
    · cases hr
    · exact block_store_read_lt _ _ _ h hr o
  · split at hr
    · cases hr
    · dsimp only at hr
      split at hr
      · cases hr
      · exact block_store_read_lt _ _ _ h hr o

theorem chunk_src_lt (src : block_t) (r : Option block_t) (sp loc nw : Nat) (chunk : block_t)
    (hsrc : ∀ j, src j < 256) (hr : ∀ blk, r = some blk → ∀ o, blk o < 256)
    (hc : (if nw < BLOCK_SIZE_BYTES then
        match r with
        | none => none
        | some data_block =>
          some (fun o => if loc ≤ o ∧ o < loc + nw then src (sp + (o - loc)) else data_block o)
      else some (fun o => src (sp + o))) = some chunk) (o : Nat) : chunk o < 256 := by
  by_cases hn : nw < BLOCK_SIZE_BYTES
  · rw [if_pos hn] at hc
    cases r with
    | none => cases hc
    | some blk =>
      dsimp only at hc
      have e := Option.some.inj hc
      rw [← e]
      dsimp only
      split_ifs
      · exact hsrc _
      · exact hr blk rfl o
  · rw [if_neg hn] at hc
    have e := Option.some.inj hc
    rw [← e]
    exact hsrc _

theorem bytes_ok_write_chunk (src : block_t) (st : fs_write_state)
    (hsrc : ∀ j, src j < 256) (h : st.fs.bytes_ok) :
    (∀ st1, fs_write_chunk src st = Sum.inl st1 → st1.fs.bytes_ok) ∧
    (∀ st1, fs_write_chunk src st = Sum.inr st1 → st1.fs.bytes_ok) := by
  have hw : ∀ buf : block_t, (∀ o, buf o < 256) →
      (_fd_data_block_write st.fs st.inode st.fd buf).2.bytes_ok :=
    fun buf hbuf => bytes_ok_data_block_write _ _ _ _ h hbuf
  have hrd : ∀ blk, _fd_data_block_read st.fs st.inode st.fd = some blk → ∀ o, blk o < 256 :=
    fun blk hr o => data_block_read_lt _ _ _ _ h hr o
  unfold fs_write_chunk
  dsimp only
  constructor
  · intro st1 he
    split at he
    · cases he
      exact h
    · rename_i chunk hchunk
      have hc := chunk_src_lt src _ _ _ _ chunk hsrc hrd hchunk
      by_cases hwf : (_fd_data_block_write st.fs st.inode st.fd chunk).1 = false
      · rw [if_pos hwf] at he
        cases he
        exact hw _ hc
      · rw [if_neg hwf] at he
        split at he
        · cases he
          exact hw _ hc
        · cases he
  · intro st1 he
    split at he
    · cases he
    · rename_i chunk hchunk
      have hc := chunk_src_lt src _ _ _ _ chunk hsrc hrd hchunk
      by_cases hwf : (_fd_data_block_write st.fs st.inode st.fd chunk).1 = false
      · rw [if_pos hwf] at he
        cases he
      · rw [if_neg hwf] at he
        split at he
        · cases he
        · cases he
          exact hw _ hc

theorem bytes_ok_write_append (M : Nat) (st : fs_write_state) (h : st.fs.bytes_ok) :
    (∀ b st1, fs_write_append M st = some (Sum.inl (b, st1)) → st1.fs.bytes_ok) ∧
    (∀ st1, fs_write_append M st = some (Sum.inr st1) → st1.fs.bytes_ok) := by
  obtain ⟨r, fsa, ia, hr⟩ := triple_eta (_inode_add_owned_block st.fs st.inode)
  have ha := bytes_ok_add_owned_block st.fs st.inode r fsa ia h hr
  unfold fs_write_append
  rw [hr]
  dsimp only
  constructor
  · intro b st1 he
    by_cases hc : _cursor_in_owned_block st.inode st.fd = false
    · rw [if_pos hc] at he
      by_cases hm : st.new_ptrs.length ≥ M
      · rw [if_pos hm] at he
        cases he
      · rw [if_neg hm] at he
        by_cases h1 : r = -1
        · rw [if_pos h1] at he
          cases he
          exact ha
        · rw [if_neg h1] at he
          by_cases h2 : r = -2
          · rw [if_pos h2] at he
            cases he
            exact ha
          · rw [if_neg h2] at he
            cases he
    · rw [if_neg hc] at he
      cases he
  · intro st1 he
    by_cases hc : _cursor_in_owned_block st.inode st.fd = false
    · rw [if_pos hc] at he
      by_cases hm : st.new_ptrs.length ≥ M
      · rw [if_pos hm] at he
        cases he
      · rw [if_neg hm] at he
        by_cases h1 : r = -1
        · rw [if_pos h1] at he
          cases he
        · rw [if_neg h1] at he
          by_cases h2 : r = -2
          · rw [if_pos h2] at he
            cases he
          · rw [if_neg h2] at he
            cases he
            exact ha
    · rw [if_neg hc] at he
      cases he
      exact h

theorem bytes_ok_write_loop (src : block_t) (M : Nat) (hsrc : ∀ j, src j < 256) :
    ∀ (fuel : Nat) (st : fs_write_state) (b : Bool) (st1 : fs_write_state),
      st.fs.bytes_ok → fs_write_loop src M fuel st = some (b, st1) → st1.fs.bytes_ok := by
  intro fuel
  induction fuel with
  | zero =>
    intro st b st1 h he
    unfold fs_write_loop at he
    split_ifs at he
    cases he
    exact h
  | succ fuel ih =>
    intro st b st1 h he
    unfold fs_write_loop at he
    split_ifs at he
    · split at he
      · cases he
      · rename_i r hr
        cases he
        exact (bytes_ok_write_append M st h).1 _ _ hr
      · rename_i st2 hr
        have h2 := (bytes_ok_write_append M st h).2 _ hr
        split at he
        · rename_i st3 hc
          cases he
          exact (bytes_ok_write_chunk src st2 hsrc h2).1 _ hc
        · rename_i st3 hc
          exact ih st3 b st1 ((bytes_ok_write_chunk src st2 hsrc h2).2 _ hc) he
    · cases he
      exact h

theorem bytes_ok_BS_FD_WRITE (fs fs1 : FS_t) (i : Nat) (fd : fileDescriptor_t) (h : fs.bytes_ok)
    (hw : _BS_FD_WRITE fs i fd = some fs1) : fs1.bytes_ok := by
  unfold _BS_FD_WRITE at hw
  cases hs : block_store_sub_write fs.BlockStore_fd i fd with
  | none => rw [hs] at hw; cases hw
  | some s =>
    rw [hs] at hw
    cases hw
    exact h

/-- The blocks hold bytes after `fs_write` of a buffer of bytes. -/
theorem bytes_ok_fs_write (fs : FS_t) (fdi : Int) (src : block_t) (n : Nat) (r : Int)
    (fs1 : FS_t) (h : fs.bytes_ok) (hsrc : ∀ j, src j < 256)
    (he : fs_write fs fdi src n = some (r, fs1)) : fs1.bytes_ok := by
  unfold fs_write at he
  by_cases hok : ¬ FD_OK fdi = true
  · rw [if_pos hok] at he
    cases he
    exact h
  rw [if_neg hok] at he
  cases hfd : _fd_read fs fdi with
  | none =>
    rw [hfd] at he
    cases he
    exact h
  | some fd =>
  rw [hfd] at he
  dsimp only at he
  cases hino : _inode_read fs fd.inum with
  | none =>
    rw [hino] at he
    cases he
    exact h
  | some inode =>
  rw [hino] at he
  dsimp only at he
  by_cases hc : _fd_cursor_get fd = SIZE_MAX
  · rw [if_pos hc] at he
    cases he
    exact h
  rw [if_neg hc] at he
  split at he
  · cases he
  · rename_i st hl
    cases he
    exact bytes_ok_foldl_release _ _ (bytes_ok_write_loop src _ hsrc _ _ _ _ h hl)
  · rename_i st hl
    have hst := bytes_ok_write_loop src _ hsrc _ _ _ _ h hl
    split at he
    · cases he
      exact bytes_ok_foldl_release _ _ hst
    · rename_i fs2 hw
      have h2 := bytes_ok_BS_FD_WRITE _ _ _ _ hst hw
      split at he
      · cases he
        exact bytes_ok_foldl_release _ _ h2
      · rename_i fs3 hw3
        cases he
        exact bytes_ok_BS_INODE_WRITE _ _ _ _ h2 hw3
/-! ## The block store: reserved bits, block copies, serialisation -/

theorem fbm_test_congr_bytes (a b : block_store_t)
    (h : ∀ k o, 65528 ≤ k → o < 1024 → a.blocks k o = b.blocks k o) (i : Nat) :
    bitmap_test a.fbm i = bitmap_test b.fbm i := by
  unfold bitmap_test block_store_t.fbm bitmap_overlay
  dsimp only
  rw [h _ _ (Nat.le_add_right 65528 _) (Nat.mod_lt _ (by decide))]

theorem allocate_keeps_used (bs : block_store_t) (i : Nat) (hlt : i < 65536)
    (hu : block_used bs i) : block_used (block_store_allocate bs).2 i := by
  rcases block_store_allocate_spec bs with ⟨e, _⟩ | ⟨id, hid, _, _, e⟩
  · rw [e]
    exact hu
  · rw [e]
    exact ((set_fbm_marks bs id hid).1 i hlt).2 (Or.inl hu)

theorem request_keeps_used (bs : block_store_t) (id i : Nat) (hlt : i < 65536)
    (hu : block_used bs i) : block_used (block_store_request bs id).2 i := by
  rcases block_store_request_cases bs id with ⟨hid, _, e⟩ | ⟨_, e⟩
  · rw [e]
    exact ((set_fbm_marks bs id hid).1 i hlt).2 (Or.inl hu)
  · rw [e]
    exact hu

theorem release_keeps_used (bs : block_store_t) (id i : Nat) (hlt : i < 65536) (hne : i ≠ id)
    (hu : block_used bs i) : block_used (block_store_release bs id) i := by
  by_cases hid : id < 65536
  · exact ((block_store_release_used bs id hid).1 i hlt).2 ⟨hu, hne⟩
  · unfold block_store_release
    rw [if_pos (Nat.le_of_not_lt hid)]
    exact hu

theorem write_keeps_used (bs bs1 : block_store_t) (id : Nat) (buf : block_t) (i : Nat)
    (hid : ¬ (65528 ≤ id ∧ id < 65536)) (hw : block_store_write bs id buf = some bs1)
    (hu : block_used bs i) : block_used bs1 i := by
  unfold block_store_write at hw
  by_cases hge : id ≥ BLOCK_STORE_NUM_BLOCKS
  · rw [if_pos hge] at hw
    cases hw
  · rw [if_neg hge] at hw
    have hid2 : id < 65528 := by
      have h1 : id < 65536 := Nat.lt_of_not_le hge
      omega
    have e := Option.some.inj hw
    rw [← e]
    exact (block_used_put bs id buf hid2 i).2 hu

theorem bs_reached_keeps (bs : block_store_t) (h : bs_reached bs) :
    ∀ k, k < 8 → block_used bs (65528 + k) := by
  induction h with
  | create =>
    intro k hk
    unfold block_used
    rw [block_store_create_used _ (by omega)]
    exact decide_eq_true (by omega)
  | allocate bs _ ih =>
    intro k hk
    exact allocate_keeps_used bs _ (by omega) (ih k hk)
  | request bs id _ ih =>
    intro k hk
    exact request_keeps_used bs id _ (by omega) (ih k hk)
  | release bs id hid _ ih =>
    intro k hk
    refine release_keeps_used bs id _ (by omega) ?_ (ih k hk)
    intro e
    apply hid
    rw [← e]
    constructor
    · show 65528 ≤ 65528 + k
      omega
    · show 65528 + k < 65536
      omega
  | write bs bs1 id buf hid _ hw ih =>
    intro k hk
    exact write_keeps_used bs bs1 id buf _ hid hw (ih k hk)

set_option maxRecDepth 1000000 in
theorem range_filter_create_count :
    ((List.range 65536).filter (fun i => decide (65528 ≤ i))).length = 8 := by
  decide!

theorem block_store_create_used_count : block_store_get_used_blocks block_store_create = 8 := by
  unfold block_store_get_used_blocks bitmap_total_set
  rw [fbm_bit_count]
  have e : (List.range 65536).filter (fun i => bitmap_test block_store_create.fbm i)
      = (List.range 65536).filter (fun i => decide (65528 ≤ i)) := by
    apply List.filter_congr
    intro x hx
    exact block_store_create_used x (List.mem_range.1 hx)
  rw [e]
  exact range_filter_create_count

set_option maxRecDepth 1000000 in
/-- C31, evaluated: the bits of the blocks of the free-block map do not stay
set under every call.  On a fresh store, `block_store_release` of block 65528
clears its bit, and so does `block_store_write` of a zero buffer to block
65535, the block of the map that holds the bits of the blocks 57344 to 65535:
neither function treats the blocks of the map specially. -/
theorem block_store_release_clears_map_bit :
    bitmap_test block_store_create.fbm 65528 = true ∧
    bitmap_test (block_store_release block_store_create 65528).fbm 65528 = false ∧
    (block_store_write block_store_create 65535 (fun _ => 0)).map
      (fun bs1 => bitmap_test bs1.fbm 65528) = some false := by
  refine ⟨?_, ?_, ?_⟩
  · decide!
  · decide!
  · decide!

theorem block_store_create_used_iff (i : Nat) (hi : i < 65536) :
    block_used block_store_create i ↔ 65528 ≤ i := by
  unfold block_used
  rw [block_store_create_used i hi]
  exact decide_eq_true_iff

theorem free_blocks_eq (bs : block_store_t) :
    block_store_get_free_blocks bs = 65536 - block_store_get_used_blocks bs := rfl

theorem block_store_create_free_count : block_store_get_free_blocks block_store_create = 65528 := by
  rw [free_blocks_eq, block_store_create_used_count]

/-- C31, amended: on a freshly created store the bits of the 8 blocks of the
free-block map are set and every other bit is clear (8 blocks used, 65528
free), and in every store that a sequence of `block_store_allocate`,
`block_store_request`, `block_store_release` and `block_store_write` calls
makes of it, with arbitrary arguments but for no release of a block of the
map and no write to one, the 8 bits are still set. -/
theorem block_store_map_bits_stay_set (bs : block_store_t) (h : bs_reached bs) :
    (∀ i, i < BLOCK_STORE_NUM_BLOCKS →
      (block_used block_store_create i ↔ BITMAP_START_BLOCK ≤ i)) ∧
    block_store_get_used_blocks block_store_create = 8 ∧
    block_store_get_free_blocks block_store_create = 65528 ∧
    ∀ k, k < BITMAP_NUM_BLOCKS → block_used bs (BITMAP_START_BLOCK + k) :=
  ⟨block_store_create_used_iff, block_store_create_used_count, block_store_create_free_count,
    bs_reached_keeps bs h⟩

theorem block_store_map_bits_stay_set_witness :
    (∀ i, i < BLOCK_STORE_NUM_BLOCKS →
      (block_used block_store_create i ↔ BITMAP_START_BLOCK ≤ i)) ∧
    block_store_get_used_blocks block_store_create = 8 ∧
    block_store_get_free_blocks block_store_create = 65528 ∧
    ∀ k, k < BITMAP_NUM_BLOCKS →
      block_used
        (block_store_release
          (block_store_request
            (block_store_release (block_store_allocate block_store_create).2 0) 65530).2 70000)
        (BITMAP_START_BLOCK + k) :=
  block_store_map_bits_stay_set _
    (bs_reached.release _ 70000 (by decide)
      (bs_reached.request _ 65530
        (bs_reached.release _ 0 (by decide)
          (bs_reached.allocate _ bs_reached.create))))

/-- C32: for every block id below 65536 `block_store_write` succeeds (`some`
stands for the return value 1024), `block_store_read` of the same id then
returns the buffer written, and every other block is as before; for every id
from 65536 on both calls fail (`none` stands for the return value 0, and
leaves the caller with the store as it was). -/
theorem block_store_write_then_read (bs : block_store_t) (id : Nat) (buf : block_t) :
    (id < BLOCK_STORE_NUM_BLOCKS →
      ∃ bs1, block_store_write bs id buf = some bs1 ∧ block_store_read bs1 id = some buf ∧
        ∀ b, b ≠ id → bs1.blocks b = bs.blocks b) ∧
    (BLOCK_STORE_NUM_BLOCKS ≤ id →
      block_store_write bs id buf = none ∧ block_store_read bs id = none) := by
  constructor
  · intro hid
    have hn : ¬ id ≥ BLOCK_STORE_NUM_BLOCKS := Nat.not_le_of_gt hid
    refine ⟨{ blocks := fun b => if b = id then buf else bs.blocks b }, ?_, ?_, ?_⟩
    · unfold block_store_write
      rw [if_neg hn]
    · unfold block_store_read
      rw [if_neg hn]
      show some (if id = id then buf else bs.blocks id) = some buf
      rw [if_pos rfl]
    · intro b hb
      show (if b = id then buf else bs.blocks b) = bs.blocks b
      rw [if_neg hb]
  · intro hid
    have hw : block_store_write bs id buf = none := by
      unfold block_store_write
      rw [if_pos hid]
    refine ⟨hw, ?_⟩
    unfold block_store_read
    rw [if_pos hid]

/-- The store that `block_store_deserialize` makes of a file of full length. -/
theorem block_store_deserialize_full (f : disk_file_t) (h : 67108864 ≤ f.length) :
    block_store_deserialize (some f) =
      some { blocks := fun b o =>
        if b < BLOCK_STORE_NUM_BLOCKS ∧ o < BLOCK_SIZE_BYTES
        then f.data (b * BLOCK_SIZE_BYTES + o) else block_store_create.blocks b o } := by
  unfold block_store_deserialize
  dsimp only
  have e : min (BLOCK_SIZE_BYTES * BLOCK_STORE_NUM_BLOCKS) f.length
      = BLOCK_SIZE_BYTES * BLOCK_STORE_NUM_BLOCKS := by
    show min (1024 * 65536) f.length = 1024 * 65536
    omega
  rw [if_neg (fun hc => hc e)]

theorem block_store_deserialize_short (f : disk_file_t) (h : f.length < 67108864) :
    block_store_deserialize (some f) = none := by
  unfold block_store_deserialize
  dsimp only
  have e : min (BLOCK_SIZE_BYTES * BLOCK_STORE_NUM_BLOCKS) f.length
      ≠ BLOCK_SIZE_BYTES * BLOCK_STORE_NUM_BLOCKS := by
    show min (1024 * 65536) f.length ≠ 1024 * 65536
    omega
  rw [if_pos e]

/-- What a successful `block_store_serialize` left on disk. -/
theorem block_store_serialize_some (bs : block_store_t) (open_ok : Bool) (bytes_written : Int)
    (file : Option disk_file_t)
    (h : block_store_serialize bs open_ok bytes_written = (67108864, file)) :
    file = some { length := 67108864,
                  data := fun j => bs.blocks (j / BLOCK_SIZE_BYTES) (j % BLOCK_SIZE_BYTES) } := by
  unfold block_store_serialize at h
  by_cases ho : ¬ open_ok = true
  · rw [if_pos ho] at h
    exact absurd (Prod.mk.inj h).1 (by decide)
  rw [if_neg ho] at h
  dsimp only at h
  by_cases hw : bytes_written ≠ ((BLOCK_SIZE_BYTES : Nat) : Int) * ((BLOCK_STORE_NUM_BLOCKS : Nat) : Int)
  · rw [if_pos hw] at h
    exact absurd (Prod.mk.inj h).1 (by decide)
  rw [if_neg hw] at h
  have hw2 : bytes_written.toNat = 67108864 := (Prod.mk.inj h).1
  rw [hw2] at h
  exact (Prod.mk.inj h).2.symm

theorem block_store_serialize_full (bs : block_store_t) :
    block_store_serialize bs true 67108864 =
      (67108864, some { length := 67108864,
                        data := fun j => bs.blocks (j / BLOCK_SIZE_BYTES) (j % BLOCK_SIZE_BYTES) }) := by
  unfold block_store_serialize
  rw [if_neg (by decide)]
  dsimp only
  rw [if_neg (by decide)]
  rfl

theorem used_count_congr (a b : block_store_t)
    (h : ∀ i, i < 65536 → bitmap_test a.fbm i = bitmap_test b.fbm i) :
    block_store_get_used_blocks a = block_store_get_used_blocks b ∧
      block_store_get_free_blocks a = block_store_get_free_blocks b := by
  have e : block_store_get_used_blocks a = block_store_get_used_blocks b := by
    unfold block_store_get_used_blocks bitmap_total_set
    rw [fbm_bit_count, fbm_bit_count]
    have e : (List.range 65536).filter (fun i => bitmap_test a.fbm i)
        = (List.range 65536).filter (fun i => bitmap_test b.fbm i) := by
      apply List.filter_congr
      intro x hx
      exact h x (List.mem_range.1 hx)
    rw [e]
  refine ⟨e, ?_⟩
  rw [free_blocks_eq, free_blocks_eq, e]

theorem roundtrip_props (bs bs2 : block_store_t)
    (hb : ∀ b o, b < 65536 → o < 1024 → bs2.blocks b o = bs.blocks b o) :
    (∀ id, id < BLOCK_STORE_NUM_BLOCKS →
      ∃ blk blk2, block_store_read bs id = some blk ∧ block_store_read bs2 id = some blk2 ∧
        ∀ o, o < BLOCK_SIZE_BYTES → blk2 o = blk o) ∧
    (∀ i, i < BLOCK_STORE_NUM_BLOCKS → bitmap_test bs2.fbm i = bitmap_test bs.fbm i) ∧
    block_store_get_used_blocks bs2 = block_store_get_used_blocks bs ∧
    block_store_get_free_blocks bs2 = block_store_get_free_blocks bs := by
  have htest : ∀ i, i < 65536 → bitmap_test bs2.fbm i = bitmap_test bs.fbm i := by
    intro i hi
    unfold bitmap_test block_store_t.fbm bitmap_overlay
    dsimp only
    have hk : BITMAP_START_BLOCK + i / 8 / BLOCK_SIZE_BYTES < 65536 := by
      show 65528 + i / 8 / 1024 < 65536
      omega
    rw [hb _ _ hk (Nat.mod_lt _ (by decide))]
  refine ⟨?_, htest, used_count_congr _ _ htest⟩
  intro id hid
  have hn : ¬ id ≥ BLOCK_STORE_NUM_BLOCKS := Nat.not_le_of_gt hid
  have r1 : block_store_read bs id = some (bs.blocks id) := by
    unfold block_store_read
    rw [if_neg hn]
  have r2 : block_store_read bs2 id = some (bs2.blocks id) := by
    unfold block_store_read
    rw [if_neg hn]
  exact ⟨bs.blocks id, bs2.blocks id, r1, r2, fun o ho => hb id o hid ho⟩

/-- C33: when `block_store_serialize` succeeds, returning `65536 * 1024`,
`block_store_deserialize` of the file it left succeeds, `block_store_read`
gives the same 1024 bytes from both stores for every block id, and the two
stores have the same free-block map: the same bit for every block id, the
same numbers of used and free blocks.  Deserialising a file shorter than
`65536 * 1024` bytes fails. -/
theorem block_store_serialize_roundtrip (bs : block_store_t) (open_ok : Bool)
    (bytes_written : Int) (file : Option disk_file_t)
    (h : block_store_serialize bs open_ok bytes_written = (67108864, file)) :
    (∃ bs2, block_store_deserialize file = some bs2 ∧
      (∀ id, id < BLOCK_STORE_NUM_BLOCKS →
        ∃ blk blk2, block_store_read bs id = some blk ∧ block_store_read bs2 id = some blk2 ∧
          ∀ o, o < BLOCK_SIZE_BYTES → blk2 o = blk o) ∧
      (∀ i, i < BLOCK_STORE_NUM_BLOCKS → bitmap_test bs2.fbm i = bitmap_test bs.fbm i) ∧
      block_store_get_used_blocks bs2 = block_store_get_used_blocks bs ∧
      block_store_get_free_blocks bs2 = block_store_get_free_blocks bs) ∧
    ∀ f : disk_file_t, f.length < BLOCK_STORE_NUM_BLOCKS * BLOCK_SIZE_BYTES →
      block_store_deserialize (some f) = none := by
  refine ⟨?_, fun f hf => block_store_deserialize_short f hf⟩
  rw [block_store_serialize_some bs open_ok bytes_written file h,
    block_store_deserialize_full _ (Nat.le_refl _)]
  refine ⟨_, rfl, roundtrip_props bs _ ?_⟩
  intro b o hb ho
  show (if b < BLOCK_STORE_NUM_BLOCKS ∧ o < BLOCK_SIZE_BYTES
    then bs.blocks ((b * BLOCK_SIZE_BYTES + o) / BLOCK_SIZE_BYTES)
      ((b * BLOCK_SIZE_BYTES + o) % BLOCK_SIZE_BYTES)
    else block_store_create.blocks b o) = bs.blocks b o
  rw [if_pos ⟨hb, ho⟩]
  have e1 : (b * BLOCK_SIZE_BYTES + o) / BLOCK_SIZE_BYTES = b := by
    show (b * 1024 + o) / 1024 = b
    omega
  have e2 : (b * BLOCK_SIZE_BYTES + o) % BLOCK_SIZE_BYTES = o := by
    show (b * 1024 + o) % 1024 = o
    omega
  rw [e1, e2]

theorem block_store_serialize_roundtrip_witness :
    (∃ bs2, block_store_deserialize
        (some { length := 67108864,
                data := fun j => block_store_create.blocks (j / BLOCK_SIZE_BYTES)
                  (j % BLOCK_SIZE_BYTES) }) = some bs2 ∧
      (∀ id, id < BLOCK_STORE_NUM_BLOCKS →
        ∃ blk blk2, block_store_read block_store_create id = some blk ∧
          block_store_read bs2 id = some blk2 ∧
          ∀ o, o < BLOCK_SIZE_BYTES → blk2 o = blk o) ∧
      (∀ i, i < BLOCK_STORE_NUM_BLOCKS →
        bitmap_test bs2.fbm i = bitmap_test block_store_create.fbm i) ∧
      block_store_get_used_blocks bs2 = block_store_get_used_blocks block_store_create ∧
      block_store_get_free_blocks bs2 = block_store_get_free_blocks block_store_create) ∧
    ∀ f : disk_file_t, f.length < BLOCK_STORE_NUM_BLOCKS * BLOCK_SIZE_BYTES →
      block_store_deserialize (some f) = none :=
  block_store_serialize_roundtrip block_store_create true 67108864 _
    (block_store_serialize_full block_store_create)

/-- C40, evaluated: with the queue of one process that arrives at time 1 with 5
units of burst left, `any_burst_remaining` is true and `find_shortest_burst`
at time 0 returns `NULL`: the process is skipped by `t < pcb->arrival` and
`shortest` is never assigned.  The first iteration of `shortest_job_first`
and of `shortest_remaining_time_first` then goes through the null pointer. -/
theorem find_shortest_burst_null_before_arrival :
    any_burst_remaining queue_late_arrival = true ∧
    find_shortest_burst queue_late_arrival 0 = none ∧
    shortest_job_first_iteration queue_late_arrival 0 = none ∧
    shortest_remaining_time_first_iteration queue_late_arrival 0 = none := by
  decide


/-! ## The invariant of the file system: frames -/

theorem inode_nb_dir (inode : inode_t) (h : inode.file_type = CHAR_d) :
    inode_nb inode = if inode.file_size = 0 then 0 else 1 := by
  unfold inode_nb
  rw [if_pos h]

theorem inode_nb_file (inode : inode_t) (h : inode.file_type ≠ CHAR_d)
    (hs : inode.file_size ≤ 67100672) : inode_nb inode = (inode.file_size + 1023) / 1024 := by
  unfold inode_nb
  rw [if_neg h]
  exact ceil_blocks_eq _ (Nat.lt_of_le_of_lt hs (by decide))

theorem inode_allocated_read (fs : FS_t) (i : Nat) (inode : inode_t) :
    _inode_read fs i = some inode ↔ inode_allocated fs i ∧ inode = fs.inode_table i := by
  constructor
  · intro h
    obtain ⟨h1, h2, h3⟩ := _inode_read_some fs i inode h
    exact ⟨⟨h1, h2⟩, h3⟩
  · intro h
    rw [h.2]
    exact _inode_read_of_test fs i h.1.1 h.1.2

theorem fd_allocated_read (fs : FS_t) (k : Int) (fd : fileDescriptor_t) :
    _fd_read fs k = some fd ↔
      0 ≤ k ∧ fd_allocated fs k.toNat ∧ fd = fs.BlockStore_fd.records k.toNat := by
  constructor
  · intro h
    obtain ⟨h1, h2, h3, h4⟩ := _fd_read_some fs k fd h
    refine ⟨h1, ⟨?_, h3⟩, h4⟩
    show k.toNat < 256
    omega
  · intro h
    obtain ⟨h1, ⟨h2, h3⟩, h4⟩ := h
    have hk : ((k.toNat : Nat) : Int) = k := Int.toNat_of_nonneg h1
    have := _fd_read_of_test fs k.toNat h2 h3
    rw [hk] at this
    rw [this, h4]

theorem inode_allocated_congr (fs fs1 : FS_t)
    (h : fs1.BlockStore_whole.blocks 0 = fs.BlockStore_whole.blocks 0) (i : Nat) :
    inode_allocated fs1 i ↔ inode_allocated fs i := by
  unfold inode_allocated FS_t.BlockStore_inode
  rw [h]
  unfold block_store_sub_test
  exact Iff.rfl

/-- The blocks that the places in use of a pointer tree hold are read from the
inode and from the container blocks: they are the same in a store that has
the same container blocks. -/
theorem slot_block_frame (bs bs1 : block_store_t) (inode : inode_t) (nb : Nat)
    (h : ∀ s, slot_live nb s → bs1.blocks (slot_block bs inode s) = bs.blocks (slot_block bs inode s))
    (s : tree_slot) (hs : slot_live nb s) : slot_block bs1 inode s = slot_block bs inode s := by
  have hind : 6 < nb → bs1.blocks inode.data_indirect = bs.blocks inode.data_indirect :=
    fun h6 => h tree_slot.ind h6
  have hdbl : 518 < nb →
      bs1.blocks inode.data_double_indirect = bs.blocks inode.data_double_indirect :=
    fun h6 => h tree_slot.dbl h6
  cases s with
  | ind => rfl
  | dbl => rfl
  | ind2 j =>
    have hl : 518 + 512 * j < nb := hs
    show ind_get (bs1.blocks inode.data_double_indirect) j
      = ind_get (bs.blocks inode.data_double_indirect) j
    rw [hdbl (by omega)]
  | data k =>
    have hl : k < nb := hs
    show file_block bs1 inode k = file_block bs inode k
    unfold file_block
    by_cases h6 : k < FD_DIRECT_MAX_PTRS
    · rw [if_pos h6, if_pos h6]
    · rw [if_neg h6, if_neg h6]
      have h6b : 6 ≤ k := Nat.le_of_not_lt h6
      by_cases h518 : k < FD_INDIRECT_MAX_PTRS
      · rw [if_pos h518, if_pos h518, hind (by omega)]
      · rw [if_neg h518, if_neg h518]
        have h518b : 518 ≤ k := Nat.le_of_not_lt h518
        rw [hdbl (by omega)]
        have hj : slot_live nb (tree_slot.ind2 ((k - FD_INDIRECT_MAX_PTRS) / BLOCK_PTRS_PER_BLOCK)) := by
          show 518 + 512 * ((k - 518) / 512) < nb
          omega
        have e := h _ hj
        have e2 : slot_block bs inode
            (tree_slot.ind2 ((k - FD_INDIRECT_MAX_PTRS) / BLOCK_PTRS_PER_BLOCK))
            = ind_get (bs.blocks inode.data_double_indirect)
              ((k - FD_INDIRECT_MAX_PTRS) / BLOCK_PTRS_PER_BLOCK) := rfl
        rw [e2] at e
        rw [e]

theorem mem_tree_slots (nb : Nat) (s : tree_slot) : s ∈ tree_slots nb ↔ slot_live nb s := by
  unfold tree_slots
  simp only [List.mem_append, List.mem_map, List.mem_range]
  cases s with
  | data k =>
    show _ ↔ k < nb
    constructor
    · rintro (((⟨a, ha, e⟩ | h) | h) | ⟨a, _, e⟩)
      · cases e
        exact ha
      · split_ifs at h <;> simp at h
      · split_ifs at h <;> simp at h
      · cases e
    · intro h
      exact Or.inl (Or.inl (Or.inl ⟨k, h, rfl⟩))
  | ind =>
    show _ ↔ 6 < nb
    constructor
    · rintro (((⟨a, _, e⟩ | h) | h) | ⟨a, _, e⟩)
      · cases e
      · by_contra hc
        rw [if_neg hc] at h
        simp at h
      · split_ifs at h <;> simp at h
      · cases e
    · intro h
      refine Or.inl (Or.inl (Or.inr ?_))
      rw [if_pos h]
      exact List.mem_singleton.2 rfl
  | dbl =>
    show _ ↔ 518 < nb
    constructor
    · rintro (((⟨a, _, e⟩ | h) | h) | ⟨a, _, e⟩)
      · cases e
      · split_ifs at h <;> simp at h
      · by_contra hc
        rw [if_neg hc] at h
        simp at h
      · cases e
    · intro h
      refine Or.inl (Or.inr ?_)
      rw [if_pos h]
      exact List.mem_singleton.2 rfl
  | ind2 j =>
    show _ ↔ 518 + 512 * j < nb
    constructor
    · rintro (((⟨a, _, e⟩ | h) | h) | ⟨a, ha, e⟩)
      · cases e
      · split_ifs at h <;> simp at h
      · split_ifs at h <;> simp at h
      · cases e
        omega
    · intro h
      exact Or.inr ⟨j, by omega, rfl⟩

theorem tree_slots_nodup (nb : Nat) : (tree_slots nb).Nodup := by
  unfold tree_slots
  have h1 : ((List.range nb).map tree_slot.data).Nodup :=
    (List.nodup_range nb).map (fun a b e => by cases e; rfl)
  have h4 : ((List.range ((nb - 518 + 511) / 512)).map tree_slot.ind2).Nodup :=
    (List.nodup_range _).map (fun a b e => by cases e; rfl)
  have h2 : (if 6 < nb then [tree_slot.ind] else []).Nodup := by
    split_ifs
    · exact List.nodup_singleton _
    · exact List.nodup_nil
  have h3 : (if 518 < nb then [tree_slot.dbl] else []).Nodup := by
    split_ifs
    · exact List.nodup_singleton _
    · exact List.nodup_nil
  refine List.Nodup.append (List.Nodup.append (List.Nodup.append h1 h2 ?_) h3 ?_) h4 ?_
  · intro s hs1 hs2
    obtain ⟨a, _, e⟩ := List.mem_map.1 hs1
    subst e
    split_ifs at hs2 <;> simp at hs2
  · intro s hs1 hs2
    have : s = tree_slot.dbl := by
      split_ifs at hs2 <;> simp at hs2
      exact hs2
    subst this
    rcases List.mem_append.1 hs1 with h | h
    · obtain ⟨a, _, e⟩ := List.mem_map.1 h
      cases e
    · split_ifs at h <;> simp at h
  · intro s hs1 hs2
    obtain ⟨a, _, e⟩ := List.mem_map.1 hs2
    subst e
    rcases List.mem_append.1 hs1 with h | h
    · rcases List.mem_append.1 h with h | h
      · obtain ⟨b, _, e⟩ := List.mem_map.1 h
        cases e
      · split_ifs at h <;> simp at h
    · split_ifs at h <;> simp at h

theorem mem_tree_blocks (bs : block_store_t) (inode : inode_t) (b : Nat) :
    b ∈ tree_blocks bs inode ↔ ∃ s, slot_live (inode_nb inode) s ∧ slot_block bs inode s = b := by
  unfold tree_blocks
  rw [List.mem_map]
  constructor
  · rintro ⟨s, hs, e⟩
    exact ⟨s, (mem_tree_slots _ s).1 hs, e⟩
  · rintro ⟨s, hs, e⟩
    exact ⟨s, (mem_tree_slots _ s).2 hs, e⟩

theorem tree_blocks_nodup (bs : block_store_t) (inode : inode_t)
    (h : tree_ok bs inode (inode_nb inode)) : (tree_blocks bs inode).Nodup := by
  unfold tree_blocks
  apply List.Nodup.map_on _ (tree_slots_nodup _)
  intro s hs s2 hs2 e
  exact h.inj s s2 ((mem_tree_slots _ s).1 hs) ((mem_tree_slots _ s2).1 hs2) e

theorem mem_allocated_inums (fs : FS_t) (i : Nat) :
    i ∈ allocated_inums fs ↔ inode_allocated fs i := by
  unfold allocated_inums inode_allocated
  rw [List.mem_filter, List.mem_range]

theorem slot_live_zero (s : tree_slot) : ¬ slot_live 0 s := by
  cases s with
  | data k => exact Nat.not_lt_zero k
  | ind => exact Nat.not_lt_zero 6
  | dbl => exact Nat.not_lt_zero 518
  | ind2 j => exact Nat.not_lt_zero _

/-- The tree of an allocated inode other than `p` reads the same after a call
that changed, among the blocks in use, only blocks of the tree of `p`. -/
theorem other_tree_frame (fs fs1 : FS_t) (p i : Nat) (hs : fs_sound fs)
    (hi : inode_allocated fs i) (hp : inode_allocated fs p) (hne : i ≠ p)
    (others : ∀ b, 0 < b → b < 65528 → block_used fs.BlockStore_whole b →
      (∀ s, slot_live (inode_nb (fs.inode_table p)) s →
        slot_block fs.BlockStore_whole (fs.inode_table p) s ≠ b) →
      fs1.BlockStore_whole.blocks b = fs.BlockStore_whole.blocks b)
    (s : tree_slot) (hl : slot_live (inode_nb (fs.inode_table i)) s) :
    slot_block fs1.BlockStore_whole (fs.inode_table i) s =
      slot_block fs.BlockStore_whole (fs.inode_table i) s := by
  apply slot_block_frame _ _ _ _ _ s hl
  intro c hc
  obtain ⟨r1, r2, r3⟩ := (hs.inodes i hi).tree.range c hc
  apply others _ r1 r2 r3
  intro t ht e
  exact hne (hs.disjoint p i t c hp hi ht hc e).symm

/-- The invariant after a call that let the tree of one inode `p` grow: the
blocks that came into use are the blocks of the new places of that tree, the
places that were in use hold the blocks they held, the other blocks in use
are unchanged, and an inode that the call allocated owns no block. -/
theorem fs_sound_grow (fs fs1 : FS_t) (p : Nat) (hs : fs_sound fs)
    (hp : inode_allocated fs p) (hbytes : fs1.bytes_ok)
    (hshape : fs1.BlockStore_fd.fbm.bit_count = NUM_FDS ∧ fs1.BlockStore_fd.fbm.byte_count = 32)
    (hkeep : ∀ i, inode_allocated fs i → inode_allocated fs1 i)
    (hnew : ∀ i, inode_allocated fs1 i → ¬ inode_allocated fs i →
      inode_nb (fs1.inode_table i) = 0 ∧ inode_good fs1.BlockStore_whole i (fs1.inode_table i))
    (htbl : ∀ i, inode_allocated fs i → i ≠ p → fs1.inode_table i = fs.inode_table i)
    (hle : inode_nb (fs.inode_table p) ≤ inode_nb (fs1.inode_table p))
    (inum_eq : (fs1.inode_table p).inum = p) (ptrs : inode_ptrs_ok (fs1.inode_table p))
    (size_le : (fs1.inode_table p).file_size ≤ 67100672)
    (tree : tree_ok fs1.BlockStore_whole (fs1.inode_table p) (inode_nb (fs1.inode_table p)))
    (dir : (fs1.inode_table p).file_type = CHAR_d →
      (fs1.inode_table p).dir_entry_map < 65536 ∧
        popcount32 (fs1.inode_table p).dir_entry_map = (fs1.inode_table p).file_size)
    (empty_dir : (fs1.inode_table p).file_type = CHAR_d → (fs1.inode_table p).file_size = 0 →
      (fs1.inode_table p).data_direct 0 = 0)
    (hold0 : ∀ s, slot_live (inode_nb (fs.inode_table p)) s →
      slot_block fs1.BlockStore_whole (fs1.inode_table p) s =
        slot_block fs.BlockStore_whole (fs.inode_table p) s)
    (fresh0 : ∀ s, slot_live (inode_nb (fs1.inode_table p)) s →
      ¬ slot_live (inode_nb (fs.inode_table p)) s →
      ¬ block_used fs.BlockStore_whole (slot_block fs1.BlockStore_whole (fs1.inode_table p) s))
    (used : ∀ b, b < 65536 → (block_used fs1.BlockStore_whole b ↔
      block_used fs.BlockStore_whole b ∨
        ∃ s, slot_live (inode_nb (fs1.inode_table p)) s ∧
          ¬ slot_live (inode_nb (fs.inode_table p)) s ∧
          slot_block fs1.BlockStore_whole (fs1.inode_table p) s = b))
    (others : ∀ b, 0 < b → b < 65528 → block_used fs.BlockStore_whole b →
      (∀ s, slot_live (inode_nb (fs.inode_table p)) s →
        slot_block fs.BlockStore_whole (fs.inode_table p) s ≠ b) →
      fs1.BlockStore_whole.blocks b = fs.BlockStore_whole.blocks b)
    (hfds : ∀ k, fd_allocated fs1 k → fd_good fs1 (fs1.BlockStore_fd.records k)) :
    fs_sound fs1 := by
  have mono : ∀ b, b < 65536 → block_used fs.BlockStore_whole b →
      block_used fs1.BlockStore_whole b := fun b hb hu => (used b hb).2 (Or.inl hu)
  have frameA : ∀ i, inode_allocated fs i → i ≠ p → ∀ s,
      slot_live (inode_nb (fs.inode_table i)) s →
      slot_block fs1.BlockStore_whole (fs.inode_table i) s =
        slot_block fs.BlockStore_whole (fs.inode_table i) s :=
    fun i hi hne s hl => other_tree_frame fs fs1 p i hs hi hp hne others s hl
  have highP : ∀ s, slot_live (inode_nb (fs1.inode_table p)) s →
      17 ≤ slot_block fs1.BlockStore_whole (fs1.inode_table p) s := by
    intro s hl
    by_cases h0 : slot_live (inode_nb (fs.inode_table p)) s
    · rw [hold0 s h0]
      exact (hs.inodes p hp).high s h0
    · have hf := fresh0 s hl h0
      by_contra hc
      have hlt : slot_block fs1.BlockStore_whole (fs1.inode_table p) s < 17 := Nat.lt_of_not_le hc
      exact hf (hs.reserved _ (by omega) (Or.inl hlt))
  have slotP : ∀ s, slot_live (inode_nb (fs1.inode_table p)) s →
      (slot_live (inode_nb (fs.inode_table p)) s ∧
        slot_block fs1.BlockStore_whole (fs1.inode_table p) s =
          slot_block fs.BlockStore_whole (fs.inode_table p) s) ∨
      ¬ block_used fs.BlockStore_whole
        (slot_block fs1.BlockStore_whole (fs1.inode_table p) s) := by
    intro s hl
    by_cases h0 : slot_live (inode_nb (fs.inode_table p)) s
    · exact Or.inl ⟨h0, hold0 s h0⟩
    · exact Or.inr (fresh0 s hl h0)
  have cross : ∀ j t s, inode_allocated fs j → j ≠ p →
      slot_live (inode_nb (fs.inode_table j)) t →
      slot_live (inode_nb (fs1.inode_table p)) s →
      slot_block fs1.BlockStore_whole (fs1.inode_table p) s =
        slot_block fs.BlockStore_whole (fs.inode_table j) t → False := by
    intro j t s hj hne ht hl e
    rcases slotP s hl with ⟨h0, e0⟩ | hf
    · rw [e0] at e
      exact hne (hs.disjoint p j s t hp hj h0 ht e).symm
    · rw [e] at hf
      exact hf ((hs.inodes j hj).tree.range t ht).2.2
  refine ⟨hbytes, hshape, ?_, ?_, ?_, ?_, hfds⟩
  · intro b hb hr
    exact mono b hb (hs.reserved b hb hr)
  · intro i hi1
    by_cases hi : inode_allocated fs i
    · by_cases hip : i = p
      · subst hip
        exact ⟨inum_eq, ptrs, size_le, tree, highP, dir, empty_dir⟩
      · rw [htbl i hi hip]
        have g := hs.inodes i hi
        refine ⟨g.inum_eq, g.ptrs, g.size_le, ?_, ?_, g.dir, g.empty_dir⟩
        · exact tree_ok_same _ _ _ _ _ g.tree (frameA i hi hip) mono
        · intro s hl
          rw [frameA i hi hip s hl]
          exact g.high s hl
    · exact (hnew i hi1 hi).2
  · intro i j s t hi1 hj1 hsl htl e
    by_cases hi : inode_allocated fs i
    swap
    · rw [(hnew i hi1 hi).1] at hsl
      exact absurd hsl (slot_live_zero s)
    by_cases hj : inode_allocated fs j
    swap
    · rw [(hnew j hj1 hj).1] at htl
      exact absurd htl (slot_live_zero t)
    by_cases hij : i = j
    · exact hij
    exfalso
    by_cases hip : i = p
    · subst hip
      have hjp : j ≠ i := fun h => hij h.symm
      rw [htbl j hj hjp] at htl e
      rw [frameA j hj hjp t htl] at e
      exact cross j t s hj hjp htl hsl e
    · rw [htbl i hi hip] at hsl e
      rw [frameA i hi hip s hsl] at e
      by_cases hjp : j = p
      · subst hjp
        exact cross i s t hi hip hsl htl e.symm
      · rw [htbl j hj hjp] at htl e
        rw [frameA j hj hjp t htl] at e
        exact hij (hs.disjoint i j s t hi hj hsl htl e)
  · intro b h17 hb hu
    rcases (used b (by omega)).1 hu with hu0 | ⟨s, hl, _, e⟩
    · obtain ⟨i, s, hi, hl, e⟩ := hs.exact b h17 hb hu0
      by_cases hip : i = p
      · subst hip
        refine ⟨i, s, hkeep i hi, slot_live_le _ _ s hle hl, ?_⟩
        rw [hold0 s hl]
        exact e
      · refine ⟨i, s, hkeep i hi, ?_, ?_⟩
        · rw [htbl i hi hip]
          exact hl
        · rw [htbl i hi hip, frameA i hi hip s hl]
          exact e
    · exact ⟨p, s, hkeep p hp, hl, e⟩

/-- The lemma `fs_sound_grow` with the new record of inode `p` and the new
store named. -/
theorem fs_sound_grow_at (fs fs1 : FS_t) (p : Nat) (P1 : inode_t) (bs1 : block_store_t)
    (hs : fs_sound fs) (hp : inode_allocated fs p)
    (hP1 : fs1.inode_table p = P1) (hbs1 : fs1.BlockStore_whole = bs1)
    (hbytes : fs1.bytes_ok)
    (hshape : fs1.BlockStore_fd.fbm.bit_count = NUM_FDS ∧ fs1.BlockStore_fd.fbm.byte_count = 32)
    (hkeep : ∀ i, inode_allocated fs i → inode_allocated fs1 i)
    (hnew : ∀ i, inode_allocated fs1 i → ¬ inode_allocated fs i →
      inode_nb (fs1.inode_table i) = 0 ∧ inode_good bs1 i (fs1.inode_table i))
    (htbl : ∀ i, inode_allocated fs i → i ≠ p → fs1.inode_table i = fs.inode_table i)
    (hle : inode_nb (fs.inode_table p) ≤ inode_nb P1)
    (inum_eq : P1.inum = p) (ptrs : inode_ptrs_ok P1)
    (size_le : P1.file_size ≤ 67100672)
    (tree : tree_ok bs1 P1 (inode_nb P1))
    (dir : P1.file_type = CHAR_d →
      P1.dir_entry_map < 65536 ∧ popcount32 P1.dir_entry_map = P1.file_size)
    (empty_dir : P1.file_type = CHAR_d → P1.file_size = 0 → P1.data_direct 0 = 0)
    (hold0 : ∀ s, slot_live (inode_nb (fs.inode_table p)) s →
      slot_block bs1 P1 s = slot_block fs.BlockStore_whole (fs.inode_table p) s)
    (fresh0 : ∀ s, slot_live (inode_nb P1) s →
      ¬ slot_live (inode_nb (fs.inode_table p)) s →
      ¬ block_used fs.BlockStore_whole (slot_block bs1 P1 s))
    (used : ∀ b, b < 65536 → (block_used bs1 b ↔
      block_used fs.BlockStore_whole b ∨
        ∃ s, slot_live (inode_nb P1) s ∧
          ¬ slot_live (inode_nb (fs.inode_table p)) s ∧ slot_block bs1 P1 s = b))
    (others : ∀ b, 0 < b → b < 65528 → block_used fs.BlockStore_whole b →
      (∀ s, slot_live (inode_nb (fs.inode_table p)) s →
        slot_block fs.BlockStore_whole (fs.inode_table p) s ≠ b) →
      bs1.blocks b = fs.BlockStore_whole.blocks b)
    (hfds : ∀ k, fd_allocated fs1 k → fd_good fs1 (fs1.BlockStore_fd.records k)) :
    fs_sound fs1 := by
  subst hP1 hbs1
  exact fs_sound_grow fs fs1 p hs hp hbytes hshape hkeep hnew htbl hle inum_eq ptrs size_le tree
    dir empty_dir hold0 fresh0 used others hfds

/-- The invariant after a call that changed only the descriptor table (and
records of inodes that are not allocated). -/
theorem fs_sound_fds (fs fs1 : FS_t) (hs : fs_sound fs)
    (hw : fs1.BlockStore_whole = fs.BlockStore_whole)
    (ht : ∀ i, inode_allocated fs i → fs1.inode_table i = fs.inode_table i)
    (hshape : fs1.BlockStore_fd.fbm.bit_count = NUM_FDS ∧ fs1.BlockStore_fd.fbm.byte_count = 32)
    (hfds : ∀ k, fd_allocated fs1 k → fd_good fs1 (fs1.BlockStore_fd.records k)) :
    fs_sound fs1 := by
  have ha : ∀ i, inode_allocated fs1 i ↔ inode_allocated fs i :=
    fun i => inode_allocated_congr fs fs1 (by rw [hw]) i
  refine ⟨?_, hshape, ?_, ?_, ?_, ?_, hfds⟩
  · intro b o
    rw [hw]
    exact hs.bytes b o
  · intro b hb hr
    rw [hw]
    exact hs.reserved b hb hr
  · intro i hi
    rw [hw, ht i ((ha i).1 hi)]
    exact hs.inodes i ((ha i).1 hi)
  · intro i j s t hi hj
    rw [hw, ht i ((ha i).1 hi), ht j ((ha j).1 hj)]
    exact hs.disjoint i j s t ((ha i).1 hi) ((ha j).1 hj)
  · intro b h17 hb hu
    rw [hw] at hu
    obtain ⟨i, s, hi, hl, e⟩ := hs.exact b h17 hb hu
    refine ⟨i, s, (ha i).2 hi, ?_, ?_⟩
    · rw [ht i hi]
      exact hl
    · rw [hw, ht i hi]
      exact e

theorem fd_good_congr (fs fs1 : FS_t) (fd : fileDescriptor_t) (h : fd_good fs fd)
    (hw : fs1.BlockStore_whole = fs.BlockStore_whole)
    (ht : ∀ i, inode_allocated fs i → fs1.inode_table i = fs.inode_table i) :
    fd_good fs1 fd := by
  refine ⟨h.canonical, (inode_allocated_congr fs fs1 (by rw [hw]) _).2 h.inode, ?_, ?_⟩
  · rw [ht _ h.inode]
    exact h.regular
  · rw [ht _ h.inode]
    exact h.cursor_le

/-! ## The invariant holds after `fs_format` and is kept by the facade -/

set_option maxRecDepth 1000000 in
theorem fs_format_state_fd_shape :
    fs_format_state.BlockStore_fd.fbm.bit_count = NUM_FDS ∧
      fs_format_state.BlockStore_fd.fbm.byte_count = 32 := by
  decide!

set_option maxRecDepth 1000000 in
theorem fs_format_state_root_record :
    (fs_format_state.inode_table 0).file_type = CHAR_d ∧
    (fs_format_state.inode_table 0).file_size = 0 ∧
    (fs_format_state.inode_table 0).dir_entry_map = 0 ∧
    (fs_format_state.inode_table 0).inum = 0 ∧
    (fs_format_state.inode_table 0).data_indirect = 0 ∧
    (fs_format_state.inode_table 0).data_double_indirect = 0 ∧
    ∀ k, k < 6 → (fs_format_state.inode_table 0).data_direct k = 0 := by
  decide!

theorem fs_format_state_allocated (i : Nat) (h : inode_allocated fs_format_state i) : i = 0 := by
  have e := fs_format_state_inodes i h.1
  rw [h.2] at e
  exact of_decide_eq_true e.symm

theorem popcount32_zero : popcount32 0 = 0 := by
  decide

theorem fs_sound_format : fs_sound fs_format_state := by
  obtain ⟨r1, r2, r3, r4, r5, r6, r7⟩ := fs_format_state_root_record
  have hnb : inode_nb (fs_format_state.inode_table 0) = 0 := by
    rw [inode_nb_dir _ r1, if_pos r2]
  refine ⟨bytes_ok_fs_format_state, fs_format_state_fd_shape, ?_, ?_, ?_, ?_, ?_⟩
  · intro b hb hr
    unfold block_used
    rw [fs_format_state_used b hb]
    exact decide_eq_true hr
  · intro i hi
    have e := fs_format_state_allocated i hi
    subst e
    refine ⟨r4, ⟨fun k hk => by rw [r7 k hk]; decide, ?_, ?_⟩, ?_, ?_, ?_, ?_,
      fun _ _ => r7 0 (by decide)⟩
    · rw [r5]
      decide
    · rw [r6]
      decide
    · rw [r2]
      decide
    · rw [hnb]
      exact tree_ok_zero _ _
    · intro s hl
      rw [hnb] at hl
      exact absurd hl (slot_live_zero s)
    · intro _
      rw [r3, r2]
      exact ⟨by decide, popcount32_zero⟩
  · intro i j s t hi _ hl
    have e := fs_format_state_allocated i hi
    subst e
    rw [hnb] at hl
    exact absurd hl (slot_live_zero s)
  · intro b h17 hb hu
    unfold block_used at hu
    rw [fs_format_state_used b (by omega)] at hu
    have := of_decide_eq_true hu
    omega
  · intro k hk
    have := fs_format_state_fds k
    rw [hk.2] at this
    cases this

theorem fs_format_some (path : List Nat) (fs : FS_t) (h : fs_format path = some fs) :
    fs = fs_format_state := by
  unfold fs_format at h
  split_ifs at h
  exact (Option.some.inj h).symm

theorem fd_allocated_lt (fs : FS_t) (k : Nat) (h : fd_allocated fs k) : k < 256 := h.1

/-- The descriptors in use after the record of slot `idx` is replaced. -/
theorem fd_allocated_set_fd (fs : FS_t) (idx : Nat) (fd : fileDescriptor_t) (k : Nat) :
    fd_allocated (fs.set_fd idx fd) k ↔ fd_allocated fs k := by
  unfold fd_allocated FS_t.set_fd block_store_sub_test
  exact Iff.rfl

theorem fs_sound_set_fd (fs : FS_t) (idx : Nat) (fd : fileDescriptor_t) (hs : fs_sound fs)
    (hgood : fd_good fs fd) : fs_sound (fs.set_fd idx fd) := by
  refine fs_sound_fds fs (fs.set_fd idx fd) hs rfl (fun _ _ => rfl) hs.fd_shape ?_
  intro k hk
  have hk0 := (fd_allocated_set_fd fs idx fd k).1 hk
  show fd_good (fs.set_fd idx fd) (if k = idx then fd else fs.BlockStore_fd.records k)
  by_cases e : k = idx
  · rw [if_pos e]
    exact fd_good_congr fs _ fd hgood rfl (fun _ _ => rfl)
  · rw [if_neg e]
    exact fd_good_congr fs _ _ (hs.fds k hk0) rfl (fun _ _ => rfl)

theorem fd_good_of_read (fs : FS_t) (hs : fs_sound fs) (fdi : Int) (fd : fileDescriptor_t)
    (h : _fd_read fs fdi = some fd) : fd_good fs fd := by
  obtain ⟨_, h2, h3⟩ := (fd_allocated_read fs fdi fd).1 h
  rw [h3]
  exact hs.fds _ h2

theorem fs_sound_open (fs : FS_t) (path : List Nat) (r : Int) (fs1 : FS_t) (hs : fs_sound fs)
    (h : fs_open fs path = (r, fs1)) : fs_sound fs1 := by
  by_cases h1 : _get_inum fs path < 0
  · rw [fs_open_unresolved fs path (Or.inl h1)] at h
    rw [← (Prod.mk.inj h).2]
    exact hs
  cases h2 : _inode_read fs (_get_inum fs path).toNat with
  | none =>
    rw [fs_open_unresolved fs path (Or.inr (Or.inl h2))] at h
    rw [← (Prod.mk.inj h).2]
    exact hs
  | some inode =>
  by_cases h3 : inode.file_type = CHAR_d
  · rw [fs_open_unresolved fs path (Or.inr (Or.inr ⟨inode, h2, h3⟩))] at h
    rw [← (Prod.mk.inj h).2]
    exact hs
  rcases fs_open_resolved fs path inode hs.fd_shape h1 h2 h3 with ⟨_, e⟩ | ⟨idx, _, hidx, hfree, e⟩
  · rw [e] at h
    rw [← (Prod.mk.inj h).2]
    exact hs
  rw [e] at h
  rw [← (Prod.mk.inj h).2]
  obtain ⟨ha, ht⟩ := (inode_allocated_read fs _ inode).1 h2
  have hlt : (_get_inum fs path).toNat < 256 := ha.1
  have hmod : (_get_inum fs path).toNat % 256 = (_get_inum fs path).toNat := Nat.mod_eq_of_lt hlt
  have hbit : idx < fs.BlockStore_fd.fbm.bit_count := by
    rw [hs.fd_shape.1]
    exact hidx
  refine fs_sound_fds fs _ hs rfl (fun _ _ => rfl) ?_ ?_
  · constructor
    · show (bitmap_set fs.BlockStore_fd.fbm idx).2.bit_count = NUM_FDS
      unfold bitmap_set
      rw [if_neg (Nat.not_le_of_gt hbit)]
      exact hs.fd_shape.1
    · show (bitmap_set fs.BlockStore_fd.fbm idx).2.byte_count = 32
      unfold bitmap_set
      rw [if_neg (Nat.not_le_of_gt hbit)]
      exact hs.fd_shape.2
  · intro k hk
    show fd_good _ (if k = idx then _ else fs.BlockStore_fd.records k)
    by_cases e : k = idx
    · rw [if_pos e, hmod]
      refine ⟨?_, ?_, ?_, ?_⟩
      · rw [_fd_cursor_get_start]
        rfl
      · exact ha
      · show (fs.inode_table (_get_inum fs path).toNat).file_type ≠ CHAR_d
        rw [← ht]
        exact h3
      · rw [_fd_cursor_get_start]
        exact Nat.zero_le _
    · rw [if_neg e]
      have hk0 : fd_allocated fs k := by
        refine ⟨hk.1, ?_⟩
        have ht2 := hk.2
        have := block_store_sub_test_set fs.BlockStore_fd idx k
          (fun i => if i = idx then
            ({ inum := (_get_inum fs path).toNat % 256, usage := FD_DIRECT,
               locate_order := 0, locate_offset := 0 } : fileDescriptor_t)
            else fs.BlockStore_fd.records i) hbit
        rw [this] at ht2
        simpa [e] using ht2
      exact fd_good_congr fs _ _ (hs.fds k hk0) rfl (fun _ _ => rfl)

theorem fs_sound_close (fs : FS_t) (fd : Int) (r : Int) (fs1 : FS_t) (hs : fs_sound fs)
    (h : fs_close fs fd = (r, fs1)) : fs_sound fs1 := by
  rcases fs_close_cases fs fd with ⟨_, e⟩ | ⟨⟨h0, h255, ht⟩, e⟩
  · rw [e] at h
    rw [← (Prod.mk.inj h).2]
    exact hs
  rw [e] at h
  rw [← (Prod.mk.inj h).2]
  have hbit : fd.toNat < fs.BlockStore_fd.fbm.bit_count := (block_store_sub_test_true _ _ ht).1
  refine fs_sound_fds fs _ hs rfl (fun _ _ => rfl) ?_ ?_
  · constructor
    · show (bitmap_reset fs.BlockStore_fd.fbm fd.toNat).2.bit_count = NUM_FDS
      unfold bitmap_reset
      rw [if_neg (Nat.not_le_of_gt hbit)]
      exact hs.fd_shape.1
    · show (bitmap_reset fs.BlockStore_fd.fbm fd.toNat).2.byte_count = 32
      unfold bitmap_reset
      rw [if_neg (Nat.not_le_of_gt hbit)]
      exact hs.fd_shape.2
  · intro k hk
    have hk0 : fd_allocated fs k := by
      refine ⟨hk.1, ?_⟩
      have ht2 := hk.2
      have := block_store_sub_test_release fs.BlockStore_fd fd.toNat k hbit
      show block_store_sub_test fs.BlockStore_fd k = true
      have ht3 : block_store_sub_test (block_store_sub_release fs.BlockStore_fd fd.toNat) k
          = true := ht2
      rw [this] at ht3
      simp only [Bool.and_eq_true] at ht3
      exact ht3.1
    exact fd_good_congr fs _ _ (hs.fds k hk0) rfl (fun _ _ => rfl)

theorem _clamped_add_range (a b lo hi : Int) (h : lo ≤ hi) :
    lo ≤ _clamped_add a b lo hi ∧ _clamped_add a b lo hi ≤ hi := by
  unfold _clamped_add
  dsimp only
  split_ifs <;> omega

theorem _BS_FD_WRITE_some (fs fs1 : FS_t) (idx : Nat) (fd : fileDescriptor_t)
    (h : _BS_FD_WRITE fs idx fd = some fs1) : fs1 = fs.set_fd idx fd := by
  unfold _BS_FD_WRITE block_store_sub_write at h
  by_cases hge : idx ≥ fs.BlockStore_fd.fbm.bit_count
  · rw [if_pos hge] at h
    cases h
  · rw [if_neg hge] at h
    exact (Option.some.inj h).symm

theorem fs_sound_seek (fs : FS_t) (fdi : Int) (offset : Int) (whence : Nat) (r : Int)
    (fs1 : FS_t) (hs : fs_sound fs) (h : fs_seek fs fdi offset whence = (r, fs1)) :
    fs_sound fs1 := by
  unfold fs_seek at h
  by_cases hbad : ¬ FD_OK fdi = true ∨ ¬ WHENCE_OK whence = true
  · rw [if_pos hbad] at h
    rw [← (Prod.mk.inj h).2]
    exact hs
  rw [if_neg hbad] at h
  cases hfd : _fd_read fs fdi with
  | none =>
    rw [hfd] at h
    rw [← (Prod.mk.inj h).2]
    exact hs
  | some fd =>
  rw [hfd] at h
  dsimp only at h
  have hg := fd_good_of_read fs hs fdi fd hfd
  have hino : _inode_read fs fd.inum = some (fs.inode_table fd.inum) :=
    (inode_allocated_read fs _ _).2 ⟨hg.inode, rfl⟩
  rw [hino] at h
  dsimp only at h
  have hsz := (hs.inodes _ hg.inode).size_le
  have hto : to_ssize_t (fs.inode_table fd.inum).file_size
      = ((fs.inode_table fd.inum).file_size : Int) := by
    unfold to_ssize_t
    rw [if_pos (Nat.lt_of_le_of_lt hsz (by decide))]
  rw [hto] at h
  generalize hbase : to_ssize_t (if whence = FS_SEEK_CUR then _fd_cursor_get fd
    else if whence = FS_SEEK_END then (fs.inode_table fd.inum).file_size else 0) = base at h
  obtain ⟨c1, c2⟩ := _clamped_add_range base offset 0
    ((fs.inode_table fd.inum).file_size : Int) (Int.ofNat_nonneg _)
  generalize hc : _clamped_add base offset 0 ((fs.inode_table fd.inum).file_size : Int) = c at h c1 c2
  have hnew : (c % 2 ^ 64).toNat ≤ (fs.inode_table fd.inum).file_size := by
    have h64 : (2 : Int) ^ 64 = 18446744073709551616 := by norm_num
    rw [h64]
    omega
  generalize hn : (c % 2 ^ 64).toNat = nc at h hnew
  obtain ⟨fd1, hset, hin, _, _, hget, hcan, _⟩ := _fd_cursor_set_spec fd nc (by omega)
  rw [hset] at h
  dsimp only at h
  cases hw : _BS_FD_WRITE fs fdi.toNat fd1 with
  | none =>
    rw [hw] at h
    rw [← (Prod.mk.inj h).2]
    exact hs
  | some fs2 =>
    rw [hw] at h
    rw [← (Prod.mk.inj h).2, _BS_FD_WRITE_some fs fs2 _ _ hw]
    refine fs_sound_set_fd fs _ _ hs ?_
    refine ⟨?_, ?_, ?_, ?_⟩
    · rw [hget]
      exact hcan
    · rw [hin]
      exact hg.inode
    · rw [hin]
      exact hg.regular
    · rw [hget, hin]
      exact hnew

theorem fs_read_state (fs : FS_t) (fdi : Int) (dest : block_t) (n : Nat) (r : Int)
    (out : block_t) (fs1 : FS_t) (h : fs_read fs fdi dest n = some (r, out, fs1)) :
    fs1 = fs ∨ ∃ fd1, fs1 = fs.set_fd fdi.toNat fd1 := by
  unfold fs_read at h
  by_cases hok : ¬ FD_OK fdi = true
  · rw [if_pos hok] at h
    exact Or.inl (Prod.mk.inj (Prod.mk.inj (Option.some.inj h)).2).2.symm
  rw [if_neg hok] at h
  cases hfd : _fd_read fs fdi with
  | none =>
    rw [hfd] at h
    exact Or.inl (Prod.mk.inj (Prod.mk.inj (Option.some.inj h)).2).2.symm
  | some fd =>
  rw [hfd] at h
  dsimp only at h
  cases hino : _inode_read fs fd.inum with
  | none =>
    rw [hino] at h
    exact Or.inl (Prod.mk.inj (Prod.mk.inj (Option.some.inj h)).2).2.symm
  | some inode =>
  rw [hino] at h
  dsimp only at h
  by_cases hc : _fd_cursor_get fd = SIZE_MAX
  · rw [if_pos hc] at h
    exact Or.inl (Prod.mk.inj (Prod.mk.inj (Option.some.inj h)).2).2.symm
  rw [if_neg hc] at h
  by_cases hge : _fd_cursor_get fd ≥ inode.file_size
  · rw [if_pos hge] at h
    exact Or.inl (Prod.mk.inj (Prod.mk.inj (Option.some.inj h)).2).2.symm
  rw [if_neg hge] at h
  split at h
  · cases h
  · exact Or.inl (Prod.mk.inj (Prod.mk.inj (Option.some.inj h)).2).2.symm
  · rename_i fd1 dest1 rem hl
    cases hw : _BS_FD_WRITE fs fdi.toNat fd1 with
    | none =>
      rw [hw] at h
      exact Or.inl (Prod.mk.inj (Prod.mk.inj (Option.some.inj h)).2).2.symm
    | some fs2 =>
      rw [hw] at h
      refine Or.inr ⟨fd1, ?_⟩
      rw [← (Prod.mk.inj (Prod.mk.inj (Option.some.inj h)).2).2]
      exact _BS_FD_WRITE_some fs fs2 _ _ hw

theorem fs_sound_read (fs : FS_t) (fdi : Int) (dest : block_t) (n : Nat) (r : Int)
    (out : block_t) (fs1 : FS_t) (hs : fs_sound fs)
    (h : fs_read fs fdi dest n = some (r, out, fs1)) : fs_sound fs1 := by
  rcases fs_read_state fs fdi dest n r out fs1 h with e | ⟨fdx, e⟩
  · rw [e]
    exact hs
  cases hfd : _fd_read fs fdi with
  | none =>
    rw [fs_read_of_fd_read_none fs fdi dest n hfd] at h
    rw [← (Prod.mk.inj (Prod.mk.inj (Option.some.inj h)).2).2]
    exact hs
  | some fd =>
  have hg := fd_good_of_read fs hs fdi fd hfd
  have hino : _inode_read fs fd.inum = some (fs.inode_table fd.inum) :=
    (inode_allocated_read fs _ _).2 ⟨hg.inode, rfl⟩
  have hgi := hs.inodes _ hg.inode
  obtain ⟨out2, fs2, fd1, hrd, hfd1, hin, hget, hcan, _, _, _⟩ :=
    fs_read_spec fs fdi fd (fs.inode_table fd.inum) dest n hfd hino hg.canonical
      (Nat.lt_of_le_of_lt hgi.size_le (by decide)) hgi.ptrs
  rw [hrd] at h
  have e2 : fs2 = fs1 := (Prod.mk.inj (Prod.mk.inj (Option.some.inj h)).2).2
  subst e2
  rw [e] at hfd1
  have e3 : fdx = fd1 := by
    have := _fd_read_set_fd fs fdi fd fdx hfd
    rw [this] at hfd1
    exact Option.some.inj hfd1
  subst e3
  rw [e]
  refine fs_sound_set_fd fs _ _ hs ?_
  refine ⟨hcan, ?_, ?_, ?_⟩
  · rw [hin]
    exact hg.inode
  · rw [hin]
    exact hg.regular
  · rw [hget, hin]
    have := hg.cursor_le
    omega

theorem fd_canonical_of_set (fd : fileDescriptor_t) (c : Nat)
    (h : _fd_cursor_set fd c = some fd) : _fd_cursor_get fd = c ∧ c < 268965888 := by
  by_cases hc : c < 268965888
  · obtain ⟨fd1, h1, _, _, _, h5, _⟩ := _fd_cursor_set_spec fd c hc
    rw [h] at h1
    rw [Option.some.inj h1]
    exact ⟨h5, hc⟩
  · rw [_fd_cursor_set_none fd c (Nat.le_of_not_lt hc)] at h
    cases h

/-- The invariant after the stores that end a successful `fs_write`: the loop
state is written back. -/
theorem fs_sound_write_back (fs : FS_t) (fdi : Int) (fd : fileDescriptor_t) (src : block_t)
    (n : Nat) (st : fs_write_state) (hs : fs_sound fs) (hfd : _fd_read fs fdi = some fd)
    (hbytes : st.fs.bytes_ok)
    (hinv : write_inv src fs (fs.inode_table fd.inum) (_fd_cursor_get fd) n
      ((st.inode.file_size + 1023) / 1024) st) :
    fs_sound ((st.fs.set_fd fdi.toNat st.fd).set_inode fd.inum st.inode) := by
  have hg := fd_good_of_read fs hs fdi fd hfd
  have hgi := hs.inodes _ hg.inode
  have hnum : (fs.inode_table fd.inum).inum = fd.inum := hgi.inum_eq
  have hnb0 : inode_nb (fs.inode_table fd.inum)
      = ((fs.inode_table fd.inum).file_size + 1023) / 1024 :=
    inode_nb_file _ hg.regular hgi.size_le
  obtain ⟨b1, b2, b3, _, b5, b6⟩ := write_inv_bounds _ _ _ _ _ _ _ hinv
  have hsz : st.inode.file_size ≤ 67100672 := by omega
  have htype : st.inode.file_type ≠ CHAR_d := by
    rw [hinv.meta.1]
    exact hg.regular
  have hnb1 : inode_nb st.inode = (st.inode.file_size + 1023) / 1024 :=
    inode_nb_file _ htype hsz
  have hblock0 : ((st.fs.set_fd fdi.toNat st.fd).set_inode fd.inum st.inode).BlockStore_whole.blocks 0
      = fs.BlockStore_whole.blocks 0 := hinv.block0
  have halloc := inode_allocated_congr fs
    ((st.fs.set_fd fdi.toNat st.fd).set_inode fd.inum st.inode) hblock0
  have htab : ∀ i, i ≠ fd.inum →
      ((st.fs.set_fd fdi.toNat st.fd).set_inode fd.inum st.inode).inode_table i
        = fs.inode_table i := by
    intro i hi
    show (if i = fd.inum then st.inode else st.fs.inode_table i) = fs.inode_table i
    rw [if_neg hi]
    exact hinv.inodes i (by rw [hnum]; exact hi)
  have htabp : ((st.fs.set_fd fdi.toNat st.fd).set_inode fd.inum st.inode).inode_table fd.inum
      = st.inode := by
    show (if fd.inum = fd.inum then st.inode else st.fs.inode_table fd.inum) = st.inode
    rw [if_pos rfl]
  have hcan := fd_canonical_of_set st.fd st.cursor hinv.can
  refine fs_sound_grow_at fs _ fd.inum st.inode st.fs.BlockStore_whole hs hg.inode htabp rfl
    hbytes ?_ (fun i hi => (halloc i).2 hi) (fun i hi hn => absurd ((halloc i).1 hi) hn)
    (fun i _ hi => htab i hi) ?_ ?_ hinv.ptrs hsz ?_ (fun h => absurd h htype)
    (fun h => absurd h htype) ?_ ?_ ?_ ?_ ?_
  · show st.fs.BlockStore_fd.fbm.bit_count = NUM_FDS ∧ st.fs.BlockStore_fd.fbm.byte_count = 32
    rw [hinv.fds]
    exact hs.fd_shape
  · rw [hnb0, hnb1]
    exact b6
  · rw [hinv.inum]
    exact hnum
  · rw [hnb1]
    exact hinv.tree
  · rw [hnb0]
    exact hinv.hold0
  · rw [hnb0, hnb1]
    exact hinv.fresh0
  · rw [hnb0, hnb1]
    exact hinv.used
  · rw [hnb0]
    exact hinv.others
  · intro k hk
    have hk0 : fd_allocated fs k := by
      have e : ((st.fs.set_fd fdi.toNat st.fd).set_inode fd.inum st.inode).BlockStore_fd.fbm
          = fs.BlockStore_fd.fbm := by
        show st.fs.BlockStore_fd.fbm = fs.BlockStore_fd.fbm
        rw [hinv.fds]
      unfold fd_allocated block_store_sub_test at hk ⊢
      rw [e] at hk
      exact hk
    have good_of : ∀ fdk : fileDescriptor_t, fd_good fs fdk →
        fd_good ((st.fs.set_fd fdi.toNat st.fd).set_inode fd.inum st.inode) fdk := by
      intro fdk hgk
      refine ⟨hgk.canonical, (halloc _).2 hgk.inode, ?_, ?_⟩
      · by_cases e : fdk.inum = fd.inum
        · rw [e, htabp]
          exact htype
        · rw [htab _ e]
          exact hgk.regular
      · by_cases e : fdk.inum = fd.inum
        · rw [e, htabp]
          have := hgk.cursor_le
          rw [e] at this
          omega
        · rw [htab _ e]
          exact hgk.cursor_le
    show fd_good _ (if k = fdi.toNat then st.fd else st.fs.BlockStore_fd.records k)
    by_cases e : k = fdi.toNat
    · rw [if_pos e]
      refine ⟨?_, ?_, ?_, ?_⟩
      · rw [hcan.1]
        exact hinv.can
      · rw [hinv.fdnum, hnum]
        exact (halloc _).2 hg.inode
      · rw [hinv.fdnum, hnum, htabp]
        exact htype
      · rw [hinv.fdnum, hnum, htabp, hcan.1]
        exact b2
    · rw [if_neg e, hinv.fds]
      exact good_of _ (hs.fds k hk0)

theorem write_ready_of_sound (fs : FS_t) (hs : fs_sound fs) (fdi : Int) (fd : fileDescriptor_t)
    (hfd : _fd_read fs fdi = some fd) :
    _inode_read fs fd.inum = some (fs.inode_table fd.inum) ∧
      write_ready fs fd (fs.inode_table fd.inum) ∧ inode_ptrs_ok (fs.inode_table fd.inum) := by
  have hg := fd_good_of_read fs hs fdi fd hfd
  have hgi := hs.inodes _ hg.inode
  refine ⟨(inode_allocated_read fs _ _).2 ⟨hg.inode, rfl⟩, ⟨hg.canonical, hgi.inum_eq,
    hg.cursor_le, Nat.lt_of_le_of_lt hgi.size_le (by decide), ?_, ?_⟩, hgi.ptrs⟩
  · exact ⟨hs.reserved 0 (by decide) (Or.inl (by decide)),
      fun k hk => hs.reserved _ (by omega) (Or.inr (by omega))⟩
  · have := hgi.tree
    unfold inode_nb at this
    rw [if_neg hg.regular] at this
    exact this

theorem fs_sound_write (fs : FS_t) (fdi : Int) (src : block_t) (n : Nat) (r : Int)
    (fs1 : FS_t) (hs : fs_sound fs) (hsrc : ∀ j, src j < 256)
    (h : fs_write fs fdi src n = some (r, fs1)) : fs_sound fs1 := by
  cases hfd : _fd_read fs fdi with
  | none =>
    rw [fs_write_of_fd_read_none fs fdi src n hfd] at h
    rw [← (Prod.mk.inj (Option.some.inj h)).2]
    exact hs
  | some fd =>
  obtain ⟨hino, hready, hp⟩ := write_ready_of_sound fs hs fdi fd hfd
  have hb := bytes_ok_fs_write fs fdi src n r fs1 hs.bytes hsrc h
  obtain ⟨st, hw, hinv, _⟩ := fs_write_spec fs fdi fd _ src n hfd hino hready hp
  rw [hw] at h
  have e := (Prod.mk.inj (Option.some.inj h)).2
  rw [hready.inum_eq] at e
  rw [← e] at hb ⊢
  exact fs_sound_write_back fs fdi fd src n st hs hfd hb hinv

theorem slot_live_one (s : tree_slot) (h : slot_live 1 s) : s = tree_slot.data 0 := by
  cases s with
  | data k =>
    have h1 : k < 1 := h
    have h2 : k = 0 := by omega
    rw [h2]
  | ind =>
    have h1 : 6 < 1 := h
    omega
  | dbl =>
    have h1 : 518 < 1 := h
    omega
  | ind2 j =>
    have h1 : 518 + 512 * j < 1 := h
    omega

theorem slot_block_data_zero (bs : block_store_t) (inode : inode_t) :
    slot_block bs inode (tree_slot.data 0) = inode.data_direct 0 := by
  show file_block bs inode 0 = inode.data_direct 0
  unfold file_block
  rw [if_pos (by decide)]

theorem uint32_of_bytes_lt (d : Nat → Nat) : uint32_of_bytes d < 2 ^ 32 := by
  unfold uint32_of_bytes
  have h : (2 : Nat) ^ 32 = 4294967296 := by norm_num
  rw [h]
  omega

theorem popcount32_set (m m2 idx : Nat) (hidx : idx < 32) (hclear : m.testBit idx = false)
    (h : ∀ i, i < 32 → m2.testBit i = (m.testBit i || decide (i = idx))) :
    popcount32 m2 = popcount32 m + 1 := by
  obtain ⟨k, hk⟩ := listing_insert 32 idx hidx (fun i => m.testBit i) (fun i => m2.testBit i)
    (fun i : Nat => i) (fun i : Nat => i) idx hclear h (fun _ _ => rfl) rfl
  unfold popcount32
  have e := congrArg List.length hk
  rw [List.length_map, List.length_append, List.length_cons] at e
  have e2 := congrArg List.length
    (List.take_append_drop k (((List.range 32).filter (fun i => m.testBit i)).map (fun i : Nat => i)))
  rw [List.length_append, List.length_map] at e2
  omega

theorem popcount32_le (m : Nat) : popcount32 m ≤ 32 := by
  unfold popcount32
  have := List.length_filter_le (fun i => m.testBit i) (List.range 32)
  rw [List.length_range] at this
  exact this

theorem map_lt_of_bits (m2 : Nat) (h32 : m2 < 2 ^ 32)
    (h : ∀ i, 16 ≤ i → i < 32 → m2.testBit i = false) : m2 < 65536 := by
  have := Nat.lt_pow_two_of_testBit (n := 16) m2 (by
    intro i hi
    by_cases h2 : i < 32
    · exact h i hi h2
    · apply Nat.testBit_lt_two_pow
      exact Nat.lt_of_lt_of_le h32 (Nat.pow_le_pow_right (Nat.succ_pos 1) (Nat.le_of_not_lt h2)))
  exact this

/-- The fields of the state that a successful `fs_create` leaves. -/
theorem create_state_fields (fs0 : FS_t) (F : bitmap_t) (tbl : Nat → inode_t) (D : Nat)
    (buf : block_t) (p : Nat) (P2 : inode_t) :
    (((fs0.set_BlockStore_inode { fbm := F, records := tbl }).set_block D buf).set_inode
        p P2).BlockStore_fd = fs0.BlockStore_fd ∧
    ∀ b, b ≠ D → b ≠ 0 →
      (((fs0.set_BlockStore_inode { fbm := F, records := tbl }).set_block D buf).set_inode
        p P2).BlockStore_whole.blocks b = fs0.BlockStore_whole.blocks b := by
  refine ⟨rfl, ?_⟩
  intro b h1 h2
  show (if b = D then buf else if b = 0 then F.data else fs0.BlockStore_whole.blocks b)
    = fs0.BlockStore_whole.blocks b
  rw [if_neg h1, if_neg h2]

theorem inode_nb_zero_size (inode : inode_t) (h : inode.file_size = 0) : inode_nb inode = 0 := by
  unfold inode_nb
  rw [h]
  by_cases hd : inode.file_type = CHAR_d
  · rw [if_pos hd, if_pos rfl]
  · rw [if_neg hd]
    exact (ceil_blocks_eq 0 (by decide)).trans (by decide)

/-- The invariant after `fs_create`. -/
theorem fs_sound_create (fs : FS_t) (path : List Nat) (type : Nat) (r : Int) (s : FS_t)
    (hs0 : fs_sound fs) (hpath : ∀ c, c ∈ path → c < 256)
    (h : fs_create fs path type = (r, s)) : fs_sound s := by
  have hbytes := bytes_ok_fs_create fs path type r s hs0.bytes hpath h
  by_cases hr : r = 0
  swap
  · obtain ⟨tbl, hag, e⟩ := fs_create_fail fs path type r s hs0.bytes h hr
    rw [e]
    refine fs_sound_fds fs _ hs0 rfl (fun i hi => hag i hi.2) hs0.fd_shape ?_
    intro k hk
    exact fd_good_congr fs _ _ (hs0.fds k hk) rfl (fun i hi => hag i hi.2)
  subst hr
  obtain ⟨_, t, dir, name, P, D, bs1, id, ht, hdir, hname, hge, hread, hty, hD0, hcase, hDlt,
    hid, hidlt, hidfree, hidx, hs⟩ := fs_create_success fs path type 0 s h (by decide)
  generalize hpdef : (_get_inum fs dir).toNat = p at hread hs
  obtain ⟨hpa, hPeq⟩ := (inode_allocated_read fs p P).1 hread
  have hgP := hs0.inodes p hpa
  rw [← hPeq] at hgP
  obtain ⟨hmap16, hpop⟩ := hgP.dir hty
  obtain ⟨hidx16, hidxclear⟩ := bitmap_ffz_overlay16_lt _ hidx
  have hnotid : ¬ inode_allocated fs id := by
    intro hc
    have := (block_store_sub_test_true _ _ hc.2).2
    rw [hidfree] at this
    exact Bool.noConfusion this
  have hpne : p ≠ id := fun hc => hnotid (hc ▸ hpa)
  -- the entry block
  have hDrange : 17 ≤ D ∧ D < 65528 := by
    rcases hcase with ⟨_, hfree, _⟩ | ⟨hsz, hDeq, _⟩
    · have hnu : ¬ block_used fs.BlockStore_whole D := by
        unfold block_used
        rw [hfree]
        exact Bool.noConfusion
      constructor
      · by_contra hc
        exact hnu (hs0.reserved D hDlt (Or.inl (Nat.lt_of_not_le hc)))
      · by_contra hc
        exact hnu (hs0.reserved D hDlt (Or.inr (Nat.le_of_not_lt hc)))
    · have hnb : inode_nb P = 1 := by
        rw [inode_nb_dir P hty, if_neg hsz]
      have hl : slot_live (inode_nb P) (tree_slot.data 0) := by
        rw [hnb]
        exact Nat.zero_lt_one
      have h1 := hgP.high _ hl
      have h2 := (hgP.tree.range _ hl).2.1
      rw [slot_block_data_zero] at h1 h2
      rw [hDeq]
      exact ⟨h1, h2⟩
  have hDne : D ≠ 0 := by omega
  -- the records
  obtain ⟨P2, hP2⟩ : ∃ P2 : inode_t, P2 =
      { P with
        data_direct := fun k => if k = 0 then D else P.data_direct k,
        dir_entry_map := uint32_of_bytes
          (bitmap_set (bitmap_overlay 16 (uint32_bytes P.dir_entry_map))
            (bitmap_ffz (bitmap_overlay 16 (uint32_bytes P.dir_entry_map)))).2.data,
        file_size := (P.file_size + 1) % 2 ^ 64 } := ⟨_, rfl⟩
  obtain ⟨N, hN⟩ : ∃ N : inode_t, N =
      { dir_entry_map := 0, file_type := t, inum := id, file_size := 0,
        link_count := 1, data_direct := fun _ => 0, data_indirect := 0,
        data_double_indirect := 0 } := ⟨_, rfl⟩
  obtain ⟨buf, hbuf⟩ : ∃ buf : block_t, buf =
      dentry_store (fs.BlockStore_whole.blocks (P.data_direct 0))
        (bitmap_ffz (bitmap_overlay 16 (uint32_bytes P.dir_entry_map))) name id := ⟨_, rfl⟩
  rw [← hP2, ← hN, ← hbuf] at hs
  have hcnt := bitmap_set_counts fs.BlockStore_inode.fbm id
  have hfbm := create_state_inode_fbm ({ fs with BlockStore_whole := bs1 } : FS_t)
    (bitmap_set fs.BlockStore_inode.fbm id).2
    (fun i => if i = id then N else fs.inode_table i) D buf p P2 hDne
    (by rw [hcnt.1]; rfl) (by rw [hcnt.2]; rfl)
  obtain ⟨hfdsame, hblocks⟩ := create_state_fields ({ fs with BlockStore_whole := bs1 } : FS_t)
    (bitmap_set fs.BlockStore_inode.fbm id).2
    (fun i => if i = id then N else fs.inode_table i) D buf p P2
  have htable : ∀ i, s.inode_table i = if i = p then P2 else if i = id then N
      else fs.inode_table i := by
    intro i
    rw [hs, create_state_table]
  rw [← hs] at hfbm hfdsame hblocks
  have htest : ∀ i, i < 256 → block_store_sub_test s.BlockStore_inode i =
      (bitmap_test fs.BlockStore_inode.fbm i || decide (i = id)) := by
    intro i hi
    unfold block_store_sub_test
    rw [hfbm, hcnt.1]
    have hc : ¬ i ≥ fs.BlockStore_inode.fbm.bit_count := Nat.not_le.2 hi
    rw [if_neg hc]
    exact bitmap_test_set _ _ _ (by show id < 256; exact hidlt)
  have halloc : ∀ i, inode_allocated s i ↔ inode_allocated fs i ∨ i = id := by
    intro i
    constructor
    · intro hi
      have := hi.2
      rw [htest i hi.1] at this
      rcases Bool.or_eq_true _ _ ▸ this with h1 | h1
      · left
        refine ⟨hi.1, ?_⟩
        have hc : ¬ i ≥ fs.BlockStore_inode.fbm.bit_count := Nat.not_le.2 hi.1
        unfold block_store_sub_test
        rw [if_neg hc]
        exact h1
      · right
        exact of_decide_eq_true h1
    · rintro (hi | hi)
      · refine ⟨hi.1, ?_⟩
        rw [htest i hi.1, (block_store_sub_test_true _ _ hi.2).2]
        rfl
      · subst hi
        refine ⟨hidlt, ?_⟩
        rw [htest i hidlt]
        simp only [decide_True, Bool.or_true]
  -- the free-block map
  have hused_s : ∀ b, block_used s.BlockStore_whole b ↔ block_used bs1 b := by
    intro b
    unfold block_used
    rw [fbm_test_congr s.BlockStore_whole bs1
      (fun k hk => hblocks k (by omega) (by omega)) b]
  have hbs1 : (∀ b, b < 65536 → (block_used bs1 b ↔ block_used fs.BlockStore_whole b ∨
        (P.file_size = 0 ∧ b = D))) ∧
      ∀ b, b < 65528 → bs1.blocks b = fs.BlockStore_whole.blocks b := by
    rcases hcase with ⟨hsz, _, e⟩ | ⟨hsz, _, e⟩
    · rw [e]
      obtain ⟨m1, m2⟩ := set_fbm_marks fs.BlockStore_whole D hDlt
      refine ⟨fun b hb => ?_, m2⟩
      rw [m1 b hb]
      constructor
      · rintro (h1 | h1)
        · exact Or.inl h1
        · exact Or.inr ⟨hsz, h1⟩
      · rintro (h1 | ⟨_, h1⟩)
        · exact Or.inl h1
        · exact Or.inr h1
    · rw [e]
      refine ⟨fun b _ => ?_, fun _ _ => rfl⟩
      constructor
      · exact Or.inl
      · rintro (h1 | ⟨h1, _⟩)
        · exact h1
        · exact absurd h1 hsz
  have hDused : block_used s.BlockStore_whole D := by
    rw [hused_s, hbs1.1 D hDlt]
    rcases hcase with ⟨hsz, _, _⟩ | ⟨hsz, hDeq, _⟩
    · exact Or.inr ⟨hsz, rfl⟩
    · left
      have hnb : inode_nb P = 1 := by
        rw [inode_nb_dir P hty, if_neg hsz]
      have hl : slot_live (inode_nb P) (tree_slot.data 0) := by
        rw [hnb]
        exact Nat.zero_lt_one
      have h2 := (hgP.tree.range _ hl).2.2
      rw [slot_block_data_zero, ← hDeq] at h2
      exact h2
  -- the fields of the new records
  have hP2ty : P2.file_type = CHAR_d := by rw [hP2]; exact hty
  have hP2D : P2.data_direct 0 = D := by
    rw [hP2]
    show (if (0 : Nat) = 0 then D else P.data_direct 0) = D
    rw [if_pos rfl]
  have hP2size : P2.file_size = P.file_size + 1 := by
    rw [hP2]
    show (P.file_size + 1) % 2 ^ 64 = P.file_size + 1
    have := hgP.size_le
    have h64 : (2 : Nat) ^ 64 = 18446744073709551616 := by norm_num
    rw [h64]
    omega
  have hP2map : P2.dir_entry_map = uint32_of_bytes
      (bitmap_set (bitmap_overlay 16 (uint32_bytes P.dir_entry_map))
        (bitmap_ffz (bitmap_overlay 16 (uint32_bytes P.dir_entry_map)))).2.data := by rw [hP2]
  have hbits : ∀ i, i < 32 → P2.dir_entry_map.testBit i =
      (P.dir_entry_map.testBit i ||
        decide (i = bitmap_ffz (bitmap_overlay 16 (uint32_bytes P.dir_entry_map)))) := by
    intro i hi
    rw [hP2map]
    exact dir_entry_map_test_set _ _ i hidx16 hi
  have hP2pop : popcount32 P2.dir_entry_map = P2.file_size := by
    rw [popcount32_set P.dir_entry_map P2.dir_entry_map _ (by omega) hidxclear hbits, hpop,
      hP2size]
  have hP2lt : P2.dir_entry_map < 65536 := by
    apply map_lt_of_bits
    · rw [hP2map]
      exact uint32_of_bytes_lt _
    · intro i h16 h32
      rw [hbits i h32, Nat.testBit_lt_two_pow
        (Nat.lt_of_lt_of_le hmap16 (Nat.pow_le_pow_right (Nat.succ_pos 1) h16) :
          P.dir_entry_map < 2 ^ i)]
      simp only [Bool.false_or, decide_eq_false_iff_not]
      omega
  have hP2nb : inode_nb P2 = 1 := by
    rw [inode_nb_dir P2 hP2ty, if_neg (by rw [hP2size]; omega)]
  have hP2slot : slot_block s.BlockStore_whole P2 (tree_slot.data 0) = D := by
    rw [slot_block_data_zero, hP2D]
  have hP2tree : tree_ok s.BlockStore_whole P2 1 := by
    constructor
    · intro sl hl
      rw [slot_live_one sl hl, hP2slot]
      exact ⟨by omega, hDrange.2, hDused⟩
    · intro s1 s2 h1 h2 _
      rw [slot_live_one s1 h1, slot_live_one s2 h2]
  have hP2ptrs : inode_ptrs_ok P2 := by
    obtain ⟨q1, q2, q3⟩ := hgP.ptrs
    refine ⟨?_, ?_, ?_⟩
    · intro k hk
      rw [hP2]
      show (if k = 0 then D else P.data_direct k) < 65536
      split_ifs
      · exact hDlt
      · exact q1 k hk
    · rw [hP2]
      exact q2
    · rw [hP2]
      exact q3
  have hNnb : inode_nb N = 0 := inode_nb_zero_size N (by rw [hN])
  have hNgood : inode_good s.BlockStore_whole id N := by
    refine ⟨by rw [hN], ⟨fun k _ => ?_, ?_, ?_⟩, ?_, ?_, ?_, ?_, fun _ _ => by rw [hN]⟩
    · rw [hN]
      exact Nat.zero_lt_succ _
    · rw [hN]
      exact Nat.zero_lt_succ _
    · rw [hN]
      exact Nat.zero_lt_succ _
    · rw [hN]
      exact Nat.zero_le _
    · rw [hNnb]
      exact tree_ok_zero _ _
    · intro sl hl
      rw [hNnb] at hl
      exact absurd hl (slot_live_zero sl)
    · intro _
      rw [hN]
      exact ⟨Nat.zero_lt_succ _, popcount32_zero⟩
  have hPnb : inode_nb (fs.inode_table p) = if P.file_size = 0 then 0 else 1 := by
    rw [← hPeq]
    exact inode_nb_dir P hty
  -- the descriptors
  have hfds : ∀ k, fd_allocated s k → fd_good s (s.BlockStore_fd.records k) := by
    intro k hk
    have hfd2 : s.BlockStore_fd = fs.BlockStore_fd := hfdsame
    have hk0 : fd_allocated fs k := by
      unfold fd_allocated at hk ⊢
      rw [hfd2] at hk
      exact hk
    rw [hfd2]
    have g := hs0.fds k hk0
    have hne1 : (fs.BlockStore_fd.records k).inum ≠ p := by
      intro hc
      have := g.regular
      rw [hc, ← hPeq] at this
      exact this hty
    have hne2 : (fs.BlockStore_fd.records k).inum ≠ id := fun hc => hnotid (hc ▸ g.inode)
    refine ⟨g.canonical, (halloc _).2 (Or.inl g.inode), ?_, ?_⟩
    · rw [htable, if_neg hne1, if_neg hne2]
      exact g.regular
    · rw [htable, if_neg hne1, if_neg hne2]
      exact g.cursor_le
  refine fs_sound_grow_at fs s p P2 s.BlockStore_whole hs0 hpa
    (by rw [htable, if_pos rfl]) rfl hbytes
    (by
      have hfd2 : s.BlockStore_fd = fs.BlockStore_fd := hfdsame
      rw [hfd2]
      exact hs0.fd_shape)
    (fun i hi => (halloc i).2 (Or.inl hi)) ?_ ?_ ?_
    (by rw [hP2]; exact hgP.inum_eq) hP2ptrs
    (by
      rw [hP2size, ← hpop]
      have := popcount32_le P.dir_entry_map
      omega)
    (by rw [hP2nb]; exact hP2tree) (fun _ => ⟨hP2lt, hP2pop⟩)
    (fun _ h0 => absurd h0 (by rw [hP2size]; omega)) ?_ ?_ ?_ ?_ hfds
  · intro i hi hni
    have e : i = id := ((halloc i).1 hi).resolve_left hni
    subst e
    rw [htable, if_neg (fun hc => hpne hc.symm), if_pos rfl]
    exact ⟨hNnb, hNgood⟩
  · intro i hi hip
    have hiid : i ≠ id := fun hc => hnotid (hc ▸ hi)
    rw [htable, if_neg hip, if_neg hiid]
  · rw [hPnb, hP2nb]
    split_ifs <;> omega
  · intro sl hl
    rw [hPnb] at hl
    by_cases hsz : P.file_size = 0
    · rw [if_pos hsz] at hl
      exact absurd hl (slot_live_zero sl)
    · rw [if_neg hsz] at hl
      rw [slot_live_one sl hl, hP2slot, slot_block_data_zero, ← hPeq]
      rcases hcase with ⟨h1, _, _⟩ | ⟨_, hDeq, _⟩
      · exact absurd h1 hsz
      · exact hDeq
  · intro sl hl hnl
    rw [hP2nb] at hl
    rw [hPnb] at hnl
    rw [slot_live_one sl hl, hP2slot]
    rcases hcase with ⟨_, hfree, _⟩ | ⟨hsz, _, _⟩
    · unfold block_used
      rw [hfree]
      exact Bool.noConfusion
    · rw [if_neg hsz] at hnl
      exact absurd hl hnl
  · intro b hb
    rw [hused_s, hbs1.1 b hb, hPnb, hP2nb]
    constructor
    · rintro (h1 | ⟨h1, h2⟩)
      · exact Or.inl h1
      · right
        refine ⟨tree_slot.data 0, Nat.zero_lt_one, ?_, by rw [hP2slot, h2]⟩
        rw [if_pos h1]
        exact slot_live_zero _
    · rintro (h1 | ⟨sl, hl, hnl, e⟩)
      · exact Or.inl h1
      · right
        rw [slot_live_one sl hl, hP2slot] at e
        refine ⟨?_, e.symm⟩
        by_contra hsz
        rw [if_neg hsz] at hnl
        exact hnl hl
  · intro b hb0 hb hu hnot
    have hbD : b ≠ D := by
      intro hc
      rcases hcase with ⟨_, hfree, _⟩ | ⟨hsz, hDeq, _⟩
      · unfold block_used at hu
        rw [hc, hfree] at hu
        exact Bool.noConfusion hu
      · apply hnot (tree_slot.data 0)
        · rw [hPnb, if_neg hsz]
          exact Nat.zero_lt_one
        · rw [slot_block_data_zero, ← hPeq, ← hDeq, hc]
    rw [hblocks b hbD (by omega)]
    exact hbs1.2 b hb

/-- The invariant holds in every state the facade reaches. -/
theorem fs_reachable_sound (fs : FS_t) (h : fs_reachable fs) : fs_sound fs := by
  induction h with
  | format path fs hf =>
    rw [fs_format_some path fs hf]
    exact fs_sound_format
  | create fs path type r fs1 hp _ hc ih => exact fs_sound_create fs path type r fs1 ih hp hc
  | open_file fs path r fs1 _ hc ih => exact fs_sound_open fs path r fs1 ih hc
  | close fs fd r fs1 _ hc ih => exact fs_sound_close fs fd r fs1 ih hc
  | seek fs fd offset whence r fs1 _ hc ih => exact fs_sound_seek fs fd offset whence r fs1 ih hc
  | read fs fd dest n r out fs1 _ hc ih => exact fs_sound_read fs fd dest n r out fs1 ih hc
  | write fs fd src n r fs1 hsrc _ hc ih => exact fs_sound_write fs fd src n r fs1 ih hsrc hc

theorem fs_format_slash : fs_format (bytes "/") = some fs_format_state := by
  unfold fs_format
  rw [if_pos (by decide)]

set_option maxRecDepth 1000000 in
theorem fs_open_a_eq : fs_open fs_with_file_a (bytes "/a") = (0, fs_open_a) := by
  have h1 : (fs_open fs_with_file_a (bytes "/a")).1 = 0 := by decide!
  exact Prod.ext h1 rfl

theorem buffer_of_lt (s : String) (h : ∀ c ∈ bytes s, c < 256) (j : Nat) : buffer_of s j < 256 :=
  getD_lt_of_all_lt (bytes s) h j

theorem fs_reachable_format : fs_reachable fs_format_state :=
  fs_reachable.format (bytes "/") fs_format_state fs_format_slash

theorem fs_reachable_file_a : fs_reachable fs_with_file_a :=
  fs_reachable.create fs_format_state (bytes "/a") FS_REGULAR 0 fs_with_file_a (by decide)
    fs_reachable_format fs_create_a_eq

theorem fs_reachable_open_a : fs_reachable fs_open_a :=
  fs_reachable.open_file fs_with_file_a (bytes "/a") 0 fs_open_a fs_reachable_file_a fs_open_a_eq

theorem fs_reachable_hello : fs_reachable fs_hello :=
  fs_reachable.write fs_open_a 0 (buffer_of "hello") 5 ((5 : Nat) : Int) fs_hello
    (buffer_of_lt "hello" (by decide)) fs_reachable_open_a fs_write_hello_eq

/-! ## What holds in every reachable state -/

/-- A descriptor that `_fd_cursor_set` made is well formed. -/
theorem fd_well_formed_of_set (fd fd1 : fileDescriptor_t) (off : Nat)
    (h : _fd_cursor_set fd off = some fd1) : fd_well_formed fd1 := by
  unfold fd_well_formed
  by_cases c0 : off < 268965888
  · by_cases c1 : off < 6144
    · rw [_fd_cursor_set_direct fd off c1] at h
      rw [← Option.some.inj h]
      exact ⟨Or.inl ⟨rfl, by show off / 1024 < 6; omega⟩, by show off % 1024 < 1024; omega⟩
    · by_cases c2 : off < 530432
      · rw [_fd_cursor_set_indirect fd off (by omega) c2] at h
        rw [← Option.some.inj h]
        exact ⟨Or.inr (Or.inl ⟨rfl, by show off / 1024 - 6 < 512; omega⟩),
          by show off % 1024 < 1024; omega⟩
      · rw [_fd_cursor_set_double fd off (by omega) c0] at h
        rw [← Option.some.inj h]
        exact ⟨Or.inr (Or.inr ⟨rfl, by show off / 1024 - 518 < 512 * 512; omega⟩),
          by show off % 1024 < 1024; omega⟩
  · rw [_fd_cursor_set_none fd off (by omega)] at h
    exact Option.noConfusion h

/-- The entries of a directory block that `fs_get_dir` visits are as many as
the set bits of the entry map, when the map has its bits among the low 16. -/
theorem listing_length_popcount (m : Nat) (hm : m < 65536) :
    ((List.range DIR_ENTRIES_PER_BLOCK).filter (fun i => m.testBit i)).length = popcount32 m := by
  unfold popcount32
  have e : List.range 32 = List.range DIR_ENTRIES_PER_BLOCK ++ [31] := List.range_succ 31
  have h31 : m.testBit 31 = false :=
    Nat.testBit_lt_two_pow (Nat.lt_of_lt_of_le hm (by decide))
  rw [e, List.filter_append, List.length_append]
  have e2 : List.filter (fun i => m.testBit i) [31] = [] := by
    rw [List.filter_cons, h31]
    rfl
  rw [e2]
  rfl

/-- Claim C21: in every state reachable from `fs_format` by `fs_create`,
`fs_open`, `fs_close`, `fs_seek`, `fs_read` and `fs_write`, every block number
reachable from the pointer tree of an allocated inode (the data blocks, the
indirect and double-indirect container blocks, the indirect blocks that the
double-indirect block lists, the entry block of a non-empty directory) is a
block of the store beyond the inode table and has its bit set in the
free-block map. -/
theorem reachable_tree_blocks_marked (fs : FS_t) (h : fs_reachable fs) (i : Nat)
    (inode : inode_t) (hi : _inode_read fs i = some inode) (b : Nat)
    (hb : b ∈ tree_blocks fs.BlockStore_whole inode) :
    block_used fs.BlockStore_whole b ∧ 17 ≤ b ∧ b < 65528 := by
  obtain ⟨ha, e⟩ := (inode_allocated_read fs i inode).1 hi
  subst e
  obtain ⟨s, hs, e⟩ := (mem_tree_blocks _ _ _).1 hb
  subst e
  have hg := (fs_reachable_sound fs h).inodes i ha
  exact ⟨(hg.tree.range s hs).2.2, hg.high s hs, (hg.tree.range s hs).2.1⟩

set_option maxRecDepth 1000000 in
theorem reachable_tree_blocks_marked_witness :
    fs_reachable fs_hello ∧ _inode_read fs_hello 1 = some (fs_hello.inode_table 1) ∧
      tree_blocks fs_hello.BlockStore_whole (fs_hello.inode_table 1) = [18] ∧
      (block_used fs_hello.BlockStore_whole 18 ∧ 17 ≤ 18 ∧ 18 < 65528) :=
  have hr : _inode_read fs_hello 1 = some (fs_hello.inode_table 1) :=
    _inode_read_of_test fs_hello 1 (by decide) (by decide!)
  have ht : tree_blocks fs_hello.BlockStore_whole (fs_hello.inode_table 1) = [18] := by decide!
  ⟨fs_reachable_hello, hr, ht,
    reachable_tree_blocks_marked fs_hello fs_reachable_hello 1 (fs_hello.inode_table 1) hr 18
      (by rw [ht]; exact List.mem_singleton.2 rfl)⟩

/-- Claim C24: in every reachable state every open descriptor is well formed
(its usage is one of the three tiers, its block order lies in the range of the
tier, its byte offset is below 1024), it refers to an allocated inode, and its
cursor is at most the size of that file. -/
theorem reachable_descriptors_well_formed (fs : FS_t) (h : fs_reachable fs) (k : Int)
    (fd : fileDescriptor_t) (hk : _fd_read fs k = some fd) :
    fd_well_formed fd ∧
      ∃ inode, _inode_read fs fd.inum = some inode ∧ _fd_cursor_get fd ≤ inode.file_size := by
  obtain ⟨_, ha, e⟩ := (fd_allocated_read fs k fd).1 hk
  subst e
  have hg := (fs_reachable_sound fs h).fds k.toNat ha
  exact ⟨fd_well_formed_of_set _ _ _ hg.canonical, _,
    (inode_allocated_read fs _ _).2 ⟨hg.inode, rfl⟩, hg.cursor_le⟩

set_option maxRecDepth 1000000 in
theorem reachable_descriptors_well_formed_witness :
    fs_reachable fs_hello ∧
      _fd_read fs_hello 0 = some { inum := 1, usage := 1, locate_order := 0, locate_offset := 5 } ∧
      (fd_well_formed { inum := 1, usage := 1, locate_order := 0, locate_offset := 5 } ∧
        ∃ inode, _inode_read fs_hello
            (fileDescriptor_t.inum { inum := 1, usage := 1, locate_order := 0, locate_offset := 5 })
              = some inode ∧
          _fd_cursor_get { inum := 1, usage := 1, locate_order := 0, locate_offset := 5 } ≤
            inode.file_size) :=
  have hr : _fd_read fs_hello 0 =
      some { inum := 1, usage := 1, locate_order := 0, locate_offset := 5 } := by decide!
  ⟨fs_reachable_hello, hr, reachable_descriptors_well_formed fs_hello fs_reachable_hello 0 _ hr⟩

/-- Claim C23: in every reachable state every directory inode has as many bits
set in `dir_entry_map` as its `file_size` says, and that number is the number
of entries in the listing of the directory, which is what `fs_get_dir` returns
for a path that resolves to it. -/
theorem reachable_directory_counts (fs : FS_t) (h : fs_reachable fs) :
    (∀ i inode, _inode_read fs i = some inode → inode.file_type = CHAR_d →
      popcount32 inode.dir_entry_map = inode.file_size ∧
        ∃ l, dir_listing fs i = some l ∧ l.length = inode.file_size) ∧
    (∀ path l, fs_get_dir fs path = some l →
      ∃ inode, path_resolves_to fs path inode ∧ inode.file_type = CHAR_d ∧
        popcount32 inode.dir_entry_map = inode.file_size ∧ l.length = inode.file_size) := by
  have hs := fs_reachable_sound fs h
  constructor
  · intro i inode hi ht
    obtain ⟨ha, e⟩ := (inode_allocated_read fs i inode).1 hi
    have hg := hs.inodes i ha
    rw [← e] at hg
    obtain ⟨hlt, hpop⟩ := hg.dir ht
    refine ⟨hpop, _, dir_listing_of_inode fs i inode hi ht (hg.ptrs.1 0 (by decide)), ?_⟩
    rw [List.length_map, listing_length_popcount _ hlt, hpop]
  · intro path l hl
    obtain ⟨P, hP, ht, e⟩ := fs_get_dir_some_listing fs path l hl
    obtain ⟨ha, e2⟩ := (inode_allocated_read fs _ P).1 hP.2
    have hg := hs.inodes _ ha
    rw [← e2] at hg
    obtain ⟨hlt, hpop⟩ := hg.dir ht
    refine ⟨P, hP, ht, hpop, ?_⟩
    rw [e, List.length_map, listing_length_popcount _ hlt, hpop]

set_option maxRecDepth 1000000 in
theorem reachable_directory_counts_witness :
    fs_reachable fs_hello ∧ (fs_get_dir fs_hello (bytes "/")).map List.length = some 1 ∧
    ((∀ i inode, _inode_read fs_hello i = some inode → inode.file_type = CHAR_d →
      popcount32 inode.dir_entry_map = inode.file_size ∧
        ∃ l, dir_listing fs_hello i = some l ∧ l.length = inode.file_size) ∧
    (∀ path l, fs_get_dir fs_hello path = some l →
      ∃ inode, path_resolves_to fs_hello path inode ∧ inode.file_type = CHAR_d ∧
        popcount32 inode.dir_entry_map = inode.file_size ∧ l.length = inode.file_size)) :=
  ⟨fs_reachable_hello, by decide!, reachable_directory_counts fs_hello fs_reachable_hello⟩

/-- The blocks in use in a reachable state, counted: the 17 blocks of the
inode table, the 8 blocks of the free-block map, and the blocks of the pointer
trees of the allocated inodes, each once. -/
theorem used_blocks_count (fs : FS_t) (hs : fs_sound fs) :
    block_store_get_used_blocks fs.BlockStore_whole =
      8 + 17 + ((allocated_inums fs).map
        (fun i => (tree_blocks fs.BlockStore_whole (fs.inode_table i)).length)).sum := by
  unfold block_store_get_used_blocks bitmap_total_set
  rw [fbm_bit_count]
  have hR : (List.range 17 ++ (List.range 8).map (fun k => 65528 + k)).Nodup := by decide
  have hRmem : ∀ b, b ∈ List.range 17 ++ (List.range 8).map (fun k => 65528 + k) ↔
      b < 17 ∨ (65528 ≤ b ∧ b < 65536) := by
    intro b
    rw [List.mem_append, List.mem_range, List.mem_map]
    constructor
    · rintro (h | ⟨k, hk, e⟩)
      · exact Or.inl h
      · have := List.mem_range.1 hk
        exact Or.inr (by omega)
    · rintro (h | h)
      · exact Or.inl h
      · exact Or.inr ⟨b - 65528, List.mem_range.2 (by omega), by omega⟩
  have hTmem : ∀ b, b ∈ ((allocated_inums fs).map
      (fun i => tree_blocks fs.BlockStore_whole (fs.inode_table i))).flatten ↔
      ∃ i s, inode_allocated fs i ∧ slot_live (inode_nb (fs.inode_table i)) s ∧
        slot_block fs.BlockStore_whole (fs.inode_table i) s = b := by
    intro b
    rw [List.mem_flatten]
    constructor
    · rintro ⟨l, hl, hb⟩
      obtain ⟨i, hi, e⟩ := List.mem_map.1 hl
      subst e
      obtain ⟨s, h1, h2⟩ := (mem_tree_blocks _ _ _).1 hb
      exact ⟨i, s, (mem_allocated_inums fs i).1 hi, h1, h2⟩
    · rintro ⟨i, s, hi, h1, h2⟩
      exact ⟨_, List.mem_map.2 ⟨i, (mem_allocated_inums fs i).2 hi, rfl⟩,
        (mem_tree_blocks _ _ _).2 ⟨s, h1, h2⟩⟩
  have hT : (((allocated_inums fs).map
      (fun i => tree_blocks fs.BlockStore_whole (fs.inode_table i))).flatten).Nodup := by
    rw [List.nodup_flatten]
    constructor
    · intro l hl
      obtain ⟨i, hi, e⟩ := List.mem_map.1 hl
      subst e
      exact tree_blocks_nodup _ _ (hs.inodes i ((mem_allocated_inums fs i).1 hi)).tree
    · rw [List.pairwise_map]
      have hnd : (allocated_inums fs).Nodup := (List.nodup_range _).filter _
      apply hnd.pairwise_of_forall_ne
      intro i hi j hj hne b hb1 hb2
      obtain ⟨s, h1, h2⟩ := (mem_tree_blocks _ _ _).1 hb1
      obtain ⟨t, h3, h4⟩ := (mem_tree_blocks _ _ _).1 hb2
      exact hne (hs.disjoint i j s t ((mem_allocated_inums fs i).1 hi)
        ((mem_allocated_inums fs j).1 hj) h1 h3 (h2.trans h4.symm))
  have hall : ((List.range 17 ++ (List.range 8).map (fun k => 65528 + k)) ++
      ((allocated_inums fs).map
        (fun i => tree_blocks fs.BlockStore_whole (fs.inode_table i))).flatten).Nodup := by
    rw [List.nodup_append]
    refine ⟨hR, hT, ?_⟩
    intro b hb1 hb2
    obtain ⟨i, s, hi, h1, h2⟩ := (hTmem b).1 hb2
    have hg := hs.inodes i hi
    have ha := hg.high s h1
    have hb := (hg.tree.range s h1).2.1
    rw [h2] at ha hb
    rcases (hRmem b).1 hb1 with h | h <;> omega
  have hperm : ((List.range 65536).filter
      (fun i => bitmap_test fs.BlockStore_whole.fbm i)).Perm
      ((List.range 17 ++ (List.range 8).map (fun k => 65528 + k)) ++
      ((allocated_inums fs).map
        (fun i => tree_blocks fs.BlockStore_whole (fs.inode_table i))).flatten) := by
    rw [List.perm_ext_iff_of_nodup ((List.nodup_range _).filter _) hall]
    intro b
    rw [List.mem_filter, List.mem_range, List.mem_append, hRmem, hTmem]
    constructor
    · rintro ⟨hlt, hu⟩
      by_cases c : b < 17 ∨ 65528 ≤ b
      · rcases c with c | c
        · exact Or.inl (Or.inl c)
        · exact Or.inl (Or.inr ⟨c, hlt⟩)
      · exact Or.inr (hs.exact b (by omega) (by omega) hu)
    · rintro (h | ⟨i, s, hi, h1, h2⟩)
      · have hlt : b < 65536 := by rcases h with h | h <;> omega
        refine ⟨hlt, hs.reserved b hlt ?_⟩
        rcases h with h | h
        · exact Or.inl h
        · exact Or.inr h.1
      · have hr := (hs.inodes i hi).tree.range s h1
        rw [h2] at hr
        exact ⟨by omega, hr.2.2⟩
  rw [hperm.length_eq, List.length_append, List.length_flatten, List.map_map]
  have e25 : (List.range 17 ++ (List.range 8).map (fun k => 65528 + k)).length = 8 + 17 := by
    decide
  rw [e25]
  rfl

/-- Claim C22, as the code has it: in every reachable state the number of set
bits of the free-block map is the 8 blocks of the map itself, plus the 17
blocks of the inode table that `fs_format` requests, plus the sum over the
allocated inodes of the number of blocks reachable from the pointer tree of
the inode. -/
theorem reachable_used_blocks_count (fs : FS_t) (h : fs_reachable fs) :
    block_store_get_used_blocks fs.BlockStore_whole =
      8 + 17 + ((allocated_inums fs).map
        (fun i => (tree_blocks fs.BlockStore_whole (fs.inode_table i)).length)).sum :=
  used_blocks_count fs (fs_reachable_sound fs h)

set_option maxRecDepth 1000000 in
theorem reachable_used_blocks_count_witness :
    fs_reachable fs_hello ∧
      ((allocated_inums fs_hello).map
        (fun i => (tree_blocks fs_hello.BlockStore_whole (fs_hello.inode_table i)).length)) =
          [1, 1] ∧
      block_store_get_used_blocks fs_hello.BlockStore_whole =
      8 + 17 + ((allocated_inums fs_hello).map
        (fun i => (tree_blocks fs_hello.BlockStore_whole (fs_hello.inode_table i)).length)).sum :=
  ⟨fs_reachable_hello, by decide!, reachable_used_blocks_count fs_hello fs_reachable_hello⟩

set_option maxRecDepth 1000000 in
/-- C22, evaluated: the freshly formatted file system is reachable and has 25
bits set in its free-block map, while the 8 blocks of the map plus the blocks
of the pointer trees (the root directory is empty and owns none) make 8. -/
theorem format_used_blocks_exceed_trees :
    fs_reachable fs_format_state ∧
      block_store_get_used_blocks fs_format_state.BlockStore_whole = 25 ∧
      8 + ((allocated_inums fs_format_state).map
        (fun i => (tree_blocks fs_format_state.BlockStore_whole
          (fs_format_state.inode_table i)).length)).sum = 8 ∧
      block_store_get_used_blocks fs_format_state.BlockStore_whole ≠
        8 + ((allocated_inums fs_format_state).map
          (fun i => (tree_blocks fs_format_state.BlockStore_whole
            (fs_format_state.inode_table i)).length)).sum := by
  have h1 := fs_format_state_used_count
  have h2 : 8 + ((allocated_inums fs_format_state).map
        (fun i => (tree_blocks fs_format_state.BlockStore_whole
          (fs_format_state.inode_table i)).length)).sum = 8 := by decide!
  refine ⟨fs_reachable_format, h1, h2, ?_⟩
  rw [h1, h2]
  decide

/-! ## A write to one file and the other files -/

/-- What `fs_write` through a descriptor of the file `fd.inum` leaves as it
was, in a sound state: block 0, the records of the other inodes, the type of
the file, the bitmap of the descriptor table and the other descriptors, and
every block in use that the file does not own. -/
theorem fs_write_frame (fs : FS_t) (hs : fs_sound fs) (fdi : Int) (fd : fileDescriptor_t)
    (src : block_t) (n : Nat) (r : Int) (fs1 : FS_t)
    (hfd : _fd_read fs fdi = some fd) (hw : fs_write fs fdi src n = some (r, fs1)) :
    fs1.BlockStore_whole.blocks 0 = fs.BlockStore_whole.blocks 0 ∧
    (∀ i, i ≠ fd.inum → fs1.inode_table i = fs.inode_table i) ∧
    (fs1.inode_table fd.inum).file_type = (fs.inode_table fd.inum).file_type ∧
    fs1.BlockStore_fd.fbm = fs.BlockStore_fd.fbm ∧
    (∀ k, k ≠ fdi.toNat → fs1.BlockStore_fd.records k = fs.BlockStore_fd.records k) ∧
    (∀ b, 0 < b → b < 65528 → block_used fs.BlockStore_whole b →
      (∀ s, slot_live (inode_nb (fs.inode_table fd.inum)) s →
        slot_block fs.BlockStore_whole (fs.inode_table fd.inum) s ≠ b) →
      fs1.BlockStore_whole.blocks b = fs.BlockStore_whole.blocks b) := by
  obtain ⟨hino, hready, hp⟩ := write_ready_of_sound fs hs fdi fd hfd
  have hg := fd_good_of_read fs hs fdi fd hfd
  have hgi := hs.inodes _ hg.inode
  have hnb0 : inode_nb (fs.inode_table fd.inum)
      = ((fs.inode_table fd.inum).file_size + 1023) / 1024 :=
    inode_nb_file _ hg.regular hgi.size_le
  obtain ⟨st, hw1, hinv, _⟩ := fs_write_spec fs fdi fd _ src n hfd hino hready hp
  rw [hw1] at hw
  have e := (Prod.mk.inj (Option.some.inj hw)).2
  rw [hready.inum_eq] at e
  rw [← e]
  have hnum : (fs.inode_table fd.inum).inum = fd.inum := hgi.inum_eq
  refine ⟨hinv.block0, ?_, ?_, ?_, ?_, ?_⟩
  · intro i hi
    show (if i = fd.inum then st.inode else st.fs.inode_table i) = fs.inode_table i
    rw [if_neg hi]
    exact hinv.inodes i (by rw [hnum]; exact hi)
  · show (if fd.inum = fd.inum then st.inode else st.fs.inode_table fd.inum).file_type = _
    rw [if_pos rfl]
    exact hinv.meta.1
  · show st.fs.BlockStore_fd.fbm = _
    rw [hinv.fds]
  · intro k hk
    show (if k = fdi.toNat then st.fd else st.fs.BlockStore_fd.records k) = _
    rw [if_neg hk, hinv.fds]
  · intro b h0 h1 hu hne
    rw [hnb0] at hne
    exact hinv.others b h0 h1 hu hne

theorem _inum_find_child_same (fs fs1 : FS_t) (h : ∀ i, dir_load fs1 i = dir_load fs i)
    (p : Nat) (child : List Nat) :
    _inum_find_child fs1 p child = _inum_find_child fs p child := by
  have e : ∀ s : FS_t, _inum_find_child s p child =
      if ¬ INUM_OK p then -1
      else match dir_load s p with
        | none => -1
        | some (block, map) => _inode_find_child block map child := by
    intro s
    unfold _inum_find_child dir_load
    by_cases c : ¬ INUM_OK p = true
    · rw [if_pos c, if_pos c]
    · rw [if_neg c, if_neg c]
      cases _inode_read s p with
      | none => rfl
      | some q => rfl
  rw [e fs1, e fs, h p]

theorem _get_inum_loop_same (fs fs1 : FS_t) (h : ∀ i, dir_load fs1 i = dir_load fs i)
    (comps : List (List Nat)) :
    ∀ i, _get_inum_loop fs1 i comps = _get_inum_loop fs i comps := by
  induction comps with
  | nil => intro i; rfl
  | cons c rest ih =>
    intro i
    simp only [_get_inum_loop]
    rw [_inum_find_child_same fs fs1 h, ih]

theorem _get_inum_same (fs fs1 : FS_t) (h : ∀ i, dir_load fs1 i = dir_load fs i)
    (path : List Nat) : _get_inum fs1 path = _get_inum fs path := by
  unfold _get_inum
  split
  · rfl
  · exact _get_inum_loop_same fs fs1 h _ _

theorem fs_get_dir_same (fs fs1 : FS_t) (h : ∀ i, dir_load fs1 i = dir_load fs i)
    (path : List Nat) : fs_get_dir fs1 path = fs_get_dir fs path := by
  have e : ∀ s : FS_t, fs_get_dir s path =
      if ¬ PATH_OK path then none
      else if _get_inum s path < 0 then none
      else match dir_load s (_get_inum s path).toNat with
        | none => none
        | some (block, map) =>
          some (((List.range DIR_ENTRIES_PER_BLOCK).filter (fun i => bitmap_test map i)).map
            (fun i => { filename := dentry_filename block i, inum := dentry_inum block i })) := by
    intro s
    unfold fs_get_dir dir_load
    by_cases c : ¬ PATH_OK path = true
    · rw [if_pos c, if_pos c]
    · rw [if_neg c, if_neg c]
      dsimp only
      by_cases c2 : _get_inum s path < 0
      · rw [if_pos c2, if_pos c2]
      · rw [if_neg c2, if_neg c2]
        cases _inode_read s (_get_inum s path).toNat with
        | none => rfl
        | some q => rfl
  rw [e fs1, e fs, _get_inum_same fs fs1 h path, h]

/-- After `fs_write` through a descriptor of the file `fd.inum`, every
directory loads the entry block and the entry map that it loaded before. -/
theorem dir_load_write (fs : FS_t) (hs : fs_sound fs) (fdi : Int) (fd : fileDescriptor_t)
    (src : block_t) (n : Nat) (r : Int) (fs1 : FS_t)
    (hfd : _fd_read fs fdi = some fd) (hw : fs_write fs fdi src n = some (r, fs1)) (i : Nat) :
    dir_load fs1 i = dir_load fs i := by
  obtain ⟨f0, f1, f2, _, _, f5⟩ := fs_write_frame fs hs fdi fd src n r fs1 hfd hw
  have hg := fd_good_of_read fs hs fdi fd hfd
  have halloc := inode_allocated_congr fs fs1 f0
  unfold dir_load
  by_cases ha : inode_allocated fs i
  · rw [(inode_allocated_read fs i _).2 ⟨ha, rfl⟩,
      (inode_allocated_read fs1 i _).2 ⟨(halloc i).2 ha, rfl⟩]
    dsimp only
    by_cases hi : i = fd.inum
    · rw [hi]
      unfold _inode_dir_load
      dsimp only
      rw [if_pos (by rw [f2]; exact hg.regular), if_pos hg.regular]
    · rw [f1 i hi]
      unfold _inode_dir_load
      dsimp only
      by_cases ht : (fs.inode_table i).file_type ≠ CHAR_d
      · rw [if_pos ht, if_pos ht]
      · rw [if_neg ht, if_neg ht]
        have ht1 : (fs.inode_table i).file_type = CHAR_d := not_not.1 ht
        have hgi := hs.inodes i ha
        have hblk : fs1.BlockStore_whole.blocks ((fs.inode_table i).data_direct 0) =
            fs.BlockStore_whole.blocks ((fs.inode_table i).data_direct 0) := by
          by_cases hz : (fs.inode_table i).file_size = 0
          · rw [hgi.empty_dir ht1 hz]
            exact f0
          · have hnb : inode_nb (fs.inode_table i) = 1 := by
              rw [inode_nb_dir _ ht1, if_neg hz]
            have hl : slot_live (inode_nb (fs.inode_table i)) (tree_slot.data 0) := by
              rw [hnb]
              exact Nat.zero_lt_one
            obtain ⟨r1, r2, r3⟩ := hgi.tree.range _ hl
            apply f5 _ r1 r2 r3
            intro t htl e
            exact hi (hs.disjoint fd.inum i t _ hg.inode ha htl hl e).symm
        unfold block_store_read
        by_cases hc : (fs.inode_table i).data_direct 0 ≥ BLOCK_STORE_NUM_BLOCKS
        · rw [if_pos hc, if_pos hc]
        · rw [if_neg hc, if_neg hc]
          dsimp only
          rw [hblk]
  · have h1 : _inode_read fs i = none := by
      cases hr : _inode_read fs i with
      | none => rfl
      | some q => exact absurd ((inode_allocated_read fs i q).1 hr).1 ha
    have h2 : _inode_read fs1 i = none := by
      cases hr : _inode_read fs1 i with
      | none => rfl
      | some q => exact absurd ((halloc i).1 ((inode_allocated_read fs1 i q).1 hr).1) ha
    rw [h1, h2]

/-- After `fs_write` through a descriptor of the file `fd.inum`, the bytes of
every other regular file are the bytes they were. -/
theorem file_byte_write_other (fs : FS_t) (hs : fs_sound fs) (fdi : Int) (fd : fileDescriptor_t)
    (src : block_t) (n : Nat) (r : Int) (fs1 : FS_t)
    (hfd : _fd_read fs fdi = some fd) (hw : fs_write fs fdi src n = some (r, fs1)) (i : Nat)
    (ha : inode_allocated fs i) (hi : i ≠ fd.inum) (ht : (fs.inode_table i).file_type ≠ CHAR_d)
    (p : Nat) (hp : p < (fs.inode_table i).file_size) :
    file_byte fs1.BlockStore_whole (fs.inode_table i) p =
      file_byte fs.BlockStore_whole (fs.inode_table i) p := by
  obtain ⟨f0, f1, f2, _, _, f5⟩ := fs_write_frame fs hs fdi fd src n r fs1 hfd hw
  have hg := fd_good_of_read fs hs fdi fd hfd
  have hgi := hs.inodes i ha
  have hl : slot_live (inode_nb (fs.inode_table i)) (tree_slot.data (p / BLOCK_SIZE_BYTES)) := by
    rw [inode_nb_file _ ht hgi.size_le]
    show p / 1024 < _
    omega
  have hsb := other_tree_frame fs fs1 fd.inum i hs ha hg.inode hi f5 _ hl
  have hsb2 : file_block fs1.BlockStore_whole (fs.inode_table i) (p / BLOCK_SIZE_BYTES) =
      file_block fs.BlockStore_whole (fs.inode_table i) (p / BLOCK_SIZE_BYTES) := hsb
  unfold file_byte
  rw [hsb2]
  obtain ⟨r1, r2, r3⟩ := hgi.tree.range _ hl
  have hb := f5 _ r1 r2 r3 (fun t htl e => hi (hs.disjoint fd.inum i t _ hg.inode ha htl hl e).symm)
  have hb2 : fs1.BlockStore_whole.blocks
      (file_block fs.BlockStore_whole (fs.inode_table i) (p / BLOCK_SIZE_BYTES)) =
      fs.BlockStore_whole.blocks
        (file_block fs.BlockStore_whole (fs.inode_table i) (p / BLOCK_SIZE_BYTES)) := hb
  rw [hb2]

/-- Claim C39: files are isolated from one another.  In every reachable state
no block is named by two places of the pointer trees of the allocated inodes;
and a `fs_write` through a descriptor of a file leaves as they were the inode
bitmap, what `_inode_read` gives for every other inode, the listing that
`fs_get_dir` returns for every path, and the count and the bytes that
`fs_read` returns through every descriptor of another file. -/
theorem fs_write_isolates_files (fs : FS_t) (h : fs_reachable fs) (fdi : Int)
    (fd : fileDescriptor_t) (src : block_t) (n : Nat) (r : Int) (fs1 : FS_t)
    (hfd : _fd_read fs fdi = some fd) (hw : fs_write fs fdi src n = some (r, fs1)) :
    (∀ i j s t, inode_allocated fs i → inode_allocated fs j →
      slot_live (inode_nb (fs.inode_table i)) s → slot_live (inode_nb (fs.inode_table j)) t →
      slot_block fs.BlockStore_whole (fs.inode_table i) s =
        slot_block fs.BlockStore_whole (fs.inode_table j) t → i = j ∧ s = t) ∧
    (∀ i, block_store_sub_test fs1.BlockStore_inode i =
      block_store_sub_test fs.BlockStore_inode i) ∧
    (∀ i, i ≠ fd.inum → _inode_read fs1 i = _inode_read fs i) ∧
    (∀ path, fs_get_dir fs1 path = fs_get_dir fs path) ∧
    (∀ k fd2 dest m, _fd_read fs k = some fd2 → fd2.inum ≠ fd.inum →
      ∃ c out fs2 fs3, fs_read fs k dest m = some (c, out, fs2) ∧
        fs_read fs1 k dest m = some (c, out, fs3)) := by
  have hs := fs_reachable_sound fs h
  obtain ⟨f0, f1, f2, f3, f4, f5⟩ := fs_write_frame fs hs fdi fd src n r fs1 hfd hw
  have halloc := inode_allocated_congr fs fs1 f0
  have hread : ∀ i, i ≠ fd.inum → _inode_read fs1 i = _inode_read fs i := by
    intro i hi
    by_cases ha : inode_allocated fs i
    · rw [(inode_allocated_read fs i _).2 ⟨ha, rfl⟩,
        (inode_allocated_read fs1 i _).2 ⟨(halloc i).2 ha, rfl⟩, f1 i hi]
    · have h1 : _inode_read fs i = none := by
        cases hr : _inode_read fs i with
        | none => rfl
        | some q => exact absurd ((inode_allocated_read fs i q).1 hr).1 ha
      have h2 : _inode_read fs1 i = none := by
        cases hr : _inode_read fs1 i with
        | none => rfl
        | some q => exact absurd ((halloc i).1 ((inode_allocated_read fs1 i q).1 hr).1) ha
      rw [h1, h2]
  refine ⟨?_, ?_, hread, ?_, ?_⟩
  · intro i j s t hi hj hl1 hl2 e
    have hij := hs.disjoint i j s t hi hj hl1 hl2 e
    subst hij
    exact ⟨rfl, (hs.inodes i hi).tree.inj s t hl1 hl2 e⟩
  · intro i
    unfold FS_t.BlockStore_inode
    rw [f0]
    rfl
  · exact fs_get_dir_same fs fs1 (dir_load_write fs hs fdi fd src n r fs1 hfd hw)
  · intro k fd2 dest m hk hne
    obtain ⟨k0, ka, ke⟩ := (fd_allocated_read fs k fd2).1 hk
    obtain ⟨d0, _, de⟩ := (fd_allocated_read fs fdi fd).1 hfd
    have hkne : k.toNat ≠ fdi.toNat := by
      intro e
      apply hne
      rw [ke, de, e]
    have hk1 : _fd_read fs1 k = some fd2 := by
      rw [fd_allocated_read]
      refine ⟨k0, ⟨ka.1, ?_⟩, ?_⟩
      · have := ka.2
        unfold block_store_sub_test at this ⊢
        rw [f3]
        exact this
      · rw [f4 _ hkne]
        exact ke
    have hg2 := fd_good_of_read fs hs k fd2 hk
    have hgi := hs.inodes _ hg2.inode
    have hino : _inode_read fs fd2.inum = some (fs.inode_table fd2.inum) :=
      (inode_allocated_read fs _ _).2 ⟨hg2.inode, rfl⟩
    have hino1 : _inode_read fs1 fd2.inum = some (fs.inode_table fd2.inum) := by
      rw [hread _ hne]
      exact hino
    have hsz : (fs.inode_table fd2.inum).file_size < 268965888 :=
      Nat.lt_of_le_of_lt hgi.size_le (by decide)
    obtain ⟨out, s2, _, a1, _, _, _, _, _, _, a8⟩ :=
      fs_read_spec fs k fd2 _ dest m hk hino hg2.canonical hsz hgi.ptrs
    obtain ⟨out1, s3, _, b1, _, _, _, _, _, _, b8⟩ :=
      fs_read_spec fs1 k fd2 _ dest m hk1 hino1 hg2.canonical hsz hgi.ptrs
    have eo : out1 = out := by
      funext j
      rw [a8 j, b8 j]
      by_cases c : j < min m ((fs.inode_table fd2.inum).file_size - _fd_cursor_get fd2)
      · rw [if_pos c, if_pos c]
        exact file_byte_write_other fs hs fdi fd src n r fs1 hfd hw fd2.inum hg2.inode hne
          hg2.regular _ (by omega)
      · rw [if_neg c, if_neg c]
    rw [eo] at b1
    exact ⟨_, out, s2, s3, a1, b1⟩

set_option maxRecDepth 1000000 in
theorem fs_write_isolates_files_witness :
    fs_reachable fs_open_a ∧
    _fd_read fs_open_a 0 = some (fs_open_a.BlockStore_fd.records 0) ∧
    fs_write fs_open_a 0 (buffer_of "hello") 5 = some (((5 : Nat) : Int), fs_hello) ∧
    ((∀ i j s t, inode_allocated fs_open_a i → inode_allocated fs_open_a j →
      slot_live (inode_nb (fs_open_a.inode_table i)) s →
      slot_live (inode_nb (fs_open_a.inode_table j)) t →
      slot_block fs_open_a.BlockStore_whole (fs_open_a.inode_table i) s =
        slot_block fs_open_a.BlockStore_whole (fs_open_a.inode_table j) t → i = j ∧ s = t) ∧
    (∀ i, block_store_sub_test fs_hello.BlockStore_inode i =
      block_store_sub_test fs_open_a.BlockStore_inode i) ∧
    (∀ i, i ≠ (fs_open_a.BlockStore_fd.records 0).inum →
      _inode_read fs_hello i = _inode_read fs_open_a i) ∧
    (∀ path, fs_get_dir fs_hello path = fs_get_dir fs_open_a path) ∧
    (∀ k fd2 dest m, _fd_read fs_open_a k = some fd2 →
      fd2.inum ≠ (fs_open_a.BlockStore_fd.records 0).inum →
      ∃ c out fs2 fs3, fs_read fs_open_a k dest m = some (c, out, fs2) ∧
        fs_read fs_hello k dest m = some (c, out, fs3))) :=
  have hfd : _fd_read fs_open_a 0 = some (fs_open_a.BlockStore_fd.records 0) := by decide!
  ⟨fs_reachable_open_a, hfd, fs_write_hello_eq,
    fs_write_isolates_files fs_open_a fs_reachable_open_a 0 _ (buffer_of "hello") 5 _ fs_hello
      hfd fs_write_hello_eq⟩

/-! ## `_inode_add_owned_block` and the free-block map -/

theorem release_test (bs : block_store_t) (x j : Nat) (hj : j < 65536) :
    bitmap_test (if x ≠ SIZE_MAX then block_store_release bs x else bs).fbm j =
      (bitmap_test bs.fbm j && !decide (j = x)) := by
  by_cases hx : x < 65536
  · have hne : x ≠ SIZE_MAX := by
      unfold SIZE_MAX
      omega
    rw [if_pos hne]
    unfold block_store_release
    rw [if_neg (Nat.not_le.2 hx)]
    exact fbm_test_after_reset bs x j hx hj
  · have hjx : ¬ j = x := by omega
    have e : (if x ≠ SIZE_MAX then block_store_release bs x else bs) = bs := by
      by_cases hm : x ≠ SIZE_MAX
      · rw [if_pos hm]
        unfold block_store_release
        rw [if_pos (Nat.le_of_not_lt hx)]
      · rw [if_neg hm]
    rw [e]
    simp [hjx]

/-- The exit of `_inode_add_owned_block` through `err2` returns the error code
and clears, in the free-block map, the bits of the three blocks it is given. -/
theorem err2_fbm (r : Int) (fsx : FS_t) (inodex : inode_t) (d i p : Nat) :
    ∃ fs1, _inode_add_owned_block_err2 r fsx inodex d i p = (r, fs1, inodex) ∧
      ∀ j, j < 65536 → bitmap_test fs1.BlockStore_whole.fbm j =
        (((bitmap_test fsx.BlockStore_whole.fbm j && !decide (j = d)) && !decide (j = i)) &&
          !decide (j = p)) := by
  unfold _inode_add_owned_block_err2
  dsimp only
  refine ⟨_, rfl, ?_⟩
  intro j hj
  show bitmap_test (if p ≠ SIZE_MAX then block_store_release _ p else _).fbm j = _
  rw [release_test _ p j hj, release_test _ i j hj, release_test _ d j hj]

theorem restore_one (t : Bool) (j x : Nat) (hx : j = x → t = false) :
    ((t || decide (j = x)) && !decide (j = x)) = t := by
  by_cases c : j = x
  · rw [hx c]
    simp [c]
  · simp [c]

theorem append_outcome_new (fs : FS_t) (nb new : Nat) (fs1 : FS_t)
    (hf : ¬ append_allocation_fails fs.BlockStore_whole nb)
    (hnb : nb < FD_DOUBLE_INDIRECT_MAX_PTRS) (hlt : new < 65536)
    (hfree : ¬ block_used fs.BlockStore_whole new) :
    append_outcome fs nb (new : Int) fs1 := by
  have h0 : (0 : Int) ≤ (new : Int) := Int.ofNat_nonneg _
  refine ⟨⟨fun e => ?_, fun e => absurd e hf⟩, ⟨fun e => ?_, fun e => ?_⟩, fun e => ?_,
    fun _ => ⟨new, rfl, hlt, hfree⟩⟩
  · omega
  · omega
  · exact absurd hnb (Nat.not_lt.2 e.2)
  · omega

theorem append_outcome_no_space (fs : FS_t) (nb : Nat) (fs1 : FS_t)
    (hf : append_allocation_fails fs.BlockStore_whole nb)
    (hsame : ∀ i, i < 65536 →
      bitmap_test fs1.BlockStore_whole.fbm i = bitmap_test fs.BlockStore_whole.fbm i) :
    append_outcome fs nb (-2) fs1 := by
  refine ⟨⟨fun _ => hf, fun _ => rfl⟩, ⟨fun e => ?_, fun e => absurd hf e.1⟩, fun _ => hsame,
    fun e => ?_⟩
  · omega
  · omega

theorem append_outcome_full (fs : FS_t) (nb : Nat) (fs1 : FS_t)
    (hf : ¬ append_allocation_fails fs.BlockStore_whole nb)
    (hnb : FD_DOUBLE_INDIRECT_MAX_PTRS ≤ nb)
    (hsame : ∀ i, i < 65536 →
      bitmap_test fs1.BlockStore_whole.fbm i = bitmap_test fs.BlockStore_whole.fbm i) :
    append_outcome fs nb (-1) fs1 := by
  refine ⟨⟨fun e => ?_, fun e => absurd e hf⟩, ⟨fun _ => ⟨hf, hnb⟩, fun _ => rfl⟩,
    fun _ => hsame, fun e => ?_⟩
  · omega
  · omega

/-- The outcomes of `_inode_add_owned_block`, for an inode whose number and
block pointers fit their fields (the inode and block reads and writes then
succeed). -/
theorem _inode_add_owned_block_outcome (fs : FS_t) (inode : inode_t) (nb : Nat) (r : Int)
    (fs1 : FS_t) (inode1 : inode_t) (hnb : ceil_blocks inode.file_size = nb)
    (hinum : inode.inum < 256) (hp : inode_ptrs_ok inode)
    (h : _inode_add_owned_block fs inode = (r, fs1, inode1)) :
    append_outcome fs nb r fs1 := by
  have fin_err : ∀ (c : Int) (fsx : FS_t) (inodex : inode_t) (d i p : Nat),
      _inode_add_owned_block_err2 c fsx inodex d i p = (r, fs1, inode1) →
      (∀ j, j < 65536 →
        (((bitmap_test fsx.BlockStore_whole.fbm j && !decide (j = d)) && !decide (j = i)) &&
          !decide (j = p)) = bitmap_test fs.BlockStore_whole.fbm j) →
      r = c ∧ ∀ j, j < 65536 →
        bitmap_test fs1.BlockStore_whole.fbm j = bitmap_test fs.BlockStore_whole.fbm j := by
    intro c fsx inodex d i p he hb
    obtain ⟨fsf, hf1, hf2⟩ := err2_fbm c fsx inodex d i p
    rw [hf1] at he
    simp only [Prod.mk.injEq] at he
    obtain ⟨e1, e2, _⟩ := he
    subst e1 e2
    exact ⟨rfl, fun j hj => (hf2 j hj).trans (hb j hj)⟩
  have fin_new : ∀ (new : Nat) (fsf : FS_t) (inodef : inode_t),
      ((new : Int), fsf, inodef) = (r, fs1, inode1) → r = (new : Int) := by
    intro new fsf inodef he
    simp only [Prod.mk.injEq] at he
    exact he.1.symm
  have hsm : ∀ j, j < 65536 → ¬ j = SIZE_MAX := by
    intro j hj
    unfold SIZE_MAX
    omega
  unfold _inode_add_owned_block at h
  cases hal1 : block_store_allocate fs.BlockStore_whole with
  | mk new bsa =>
  have hf_iff : append_allocation_fails fs.BlockStore_whole nb ↔
      (new = SIZE_MAX ∨
      ((nb = 6 ∨ (518 ≤ nb ∧ nb < FD_DOUBLE_INDIRECT_MAX_PTRS ∧ (nb - 518) % 512 = 0)) ∧
        (block_store_allocate bsa).1 = SIZE_MAX) ∨
      (nb = 518 ∧ (block_store_allocate (block_store_allocate bsa).2).1 = SIZE_MAX)) := by
    unfold append_allocation_fails
    rw [hal1]
  rw [hal1] at h
  dsimp only at h
  by_cases hnew : new = SIZE_MAX
  · rw [if_pos hnew] at h
    have e := block_store_allocate_none _ _ (hnew ▸ hal1)
    subst e
    obtain ⟨hr, hT⟩ := fin_err _ _ _ _ _ _ h (fun j hj => by
      show (((bitmap_test fs.BlockStore_whole.fbm j && _) && _) && _) = _
      have := hsm j hj
      rw [hnew]
      simp [this])
    rw [hr]
    exact append_outcome_no_space fs nb fs1 (hf_iff.2 (Or.inl hnew)) hT
  rw [if_neg hnew, hnb] at h
  obtain ⟨hlt1, hfree1, _, hT1⟩ := block_store_allocate_some _ _ _ hal1 hnew
  have hfree1u : ¬ block_used fs.BlockStore_whole new := by
    unfold block_used
    rw [hfree1]
    exact Bool.false_ne_true
  have hone : ∀ j, j < 65536 →
      (((bitmap_test bsa.fbm j && !decide (j = SIZE_MAX)) && !decide (j = SIZE_MAX)) &&
        !decide (j = new)) = bitmap_test fs.BlockStore_whole.fbm j := by
    intro j hj
    have := hsm j hj
    rw [hT1 j hj]
    simp only [this, decide_False, Bool.not_false, Bool.and_true]
    exact restore_one _ j new (fun e => e ▸ hfree1)
  by_cases h6 : nb < FD_DIRECT_MAX_PTRS
  · -- direct
    rw [if_pos h6, _BS_INODE_WRITE_of_lt _ _ _ hinum] at h
    have h6a : nb < 6 := h6
    rw [fin_new _ _ _ h]
    refine append_outcome_new fs nb new fs1 ?_ (by show nb < 262662; omega) hlt1 hfree1u
    rw [hf_iff]
    rintro (hc | ⟨hc | hc, _⟩ | ⟨hc, _⟩)
    · exact hnew hc
    · omega
    · omega
    · omega
  rw [if_neg h6] at h
  have h6b : 6 ≤ nb := Nat.le_of_not_lt h6
  by_cases h518 : nb < FD_INDIRECT_MAX_PTRS
  · -- indirect
    rw [if_pos h518] at h
    have h518b : nb < 518 := h518
    by_cases hi0 : nb - FD_DIRECT_MAX_PTRS = 0
    · have hnb6 : nb = 6 := by
        have : nb - 6 = 0 := hi0
        omega
      rw [if_pos hi0] at h
      cases hal2 : block_store_allocate bsa with
      | mk ni bsb =>
      rw [hal2] at h hf_iff
      dsimp only at h
      by_cases hni : ni = SIZE_MAX
      · rw [if_pos hni] at h
        have e := block_store_allocate_none _ _ (hni ▸ hal2)
        subst e
        obtain ⟨hr, hT⟩ := fin_err _ _ _ _ _ _ h hone
        rw [hr]
        exact append_outcome_no_space fs nb fs1 (hf_iff.2 (Or.inr (Or.inl ⟨Or.inl hnb6, hni⟩))) hT
      · rw [if_neg hni] at h
        obtain ⟨hlt2, _, _, _⟩ := block_store_allocate_some _ _ _ hal2 hni
        rw [Nat.mod_eq_of_lt hlt2, _BS_INODE_WRITE_of_lt _ _ _ hinum] at h
        dsimp only at h
        rw [_inode_add_owned_block_ind_eq _ _ _ _ _ (by show ni < 65536; exact hlt2)] at h
        rw [fin_new _ _ _ h]
        refine append_outcome_new fs nb new fs1 ?_ (by show nb < 262662; omega) hlt1 hfree1u
        rw [hf_iff]
        rintro (hc | ⟨_, hc⟩ | ⟨hc, _⟩)
        · exact hnew hc
        · exact hni hc
        · omega
    · rw [if_neg hi0] at h
      have hnb7 : 6 < nb := by
        have : nb - 6 ≠ 0 := hi0
        omega
      rw [_inode_add_owned_block_ind_eq _ _ _ _ _ hp.2.1] at h
      rw [fin_new _ _ _ h]
      refine append_outcome_new fs nb new fs1 ?_ (by show nb < 262662; omega) hlt1 hfree1u
      rw [hf_iff]
      rintro (hc | ⟨hc | hc, _⟩ | ⟨hc, _⟩)
      · exact hnew hc
      · omega
      · omega
      · omega
  rw [if_neg h518] at h
  have h518b : 518 ≤ nb := Nat.le_of_not_lt h518
  by_cases hmax : nb < FD_DOUBLE_INDIRECT_MAX_PTRS
  swap
  · rw [if_neg hmax] at h
    obtain ⟨hr, hT⟩ := fin_err _ _ _ _ _ _ h hone
    rw [hr]
    have hmax2 : 262662 ≤ nb := Nat.le_of_not_lt hmax
    refine append_outcome_full fs nb fs1 ?_ (Nat.le_of_not_lt hmax) hT
    rw [hf_iff]
    rintro (hc | ⟨hc | hc, _⟩ | ⟨hc, _⟩)
    · exact hnew hc
    · omega
    · exact hmax hc.2.1
    · omega
  rw [if_pos hmax] at h
  have hmax2 : nb < 262662 := hmax
  by_cases hd0 : nb - FD_INDIRECT_MAX_PTRS = 0
  · -- the first block of the double-indirect range
    have hnb518 : nb = 518 := by
      have : nb - 518 = 0 := hd0
      omega
    rw [if_pos hd0] at h
    cases hal2 : block_store_allocate bsa with
    | mk nd bsb =>
    rw [hal2] at h hf_iff
    dsimp only at h hf_iff
    by_cases hnd : nd = SIZE_MAX
    · rw [if_pos hnd] at h
      have e := block_store_allocate_none _ _ (hnd ▸ hal2)
      subst e
      obtain ⟨hr, hT⟩ := fin_err _ _ _ _ _ _ h hone
      rw [hr]
      exact append_outcome_no_space fs nb fs1
        (hf_iff.2 (Or.inr (Or.inl ⟨Or.inr ⟨h518b, hmax, by omega⟩, hnd⟩))) hT
    · rw [if_neg hnd] at h
      obtain ⟨hlt2, hfree2, _, hT2⟩ := block_store_allocate_some _ _ _ hal2 hnd
      rw [Nat.mod_eq_of_lt hlt2, _BS_INODE_WRITE_of_lt _ _ _ hinum] at h
      dsimp only at h
      rcases _inode_add_owned_block_dbl1_eq
          (({ fs with BlockStore_whole := bsb } : FS_t).set_inode inode.inum
            { inode with data_double_indirect := nd })
          { inode with data_double_indirect := nd } (nb - FD_INDIRECT_MAX_PTRS) nd new
          (by show nd < 65536; exact hlt2) with ⟨hc, _⟩ | ⟨_, hal3, he⟩ | ⟨_, ni, bsc, hni, hal3, he⟩
      · rw [hnb518] at hc
        exact absurd rfl hc
      · rw [he] at h
        have hal3b : block_store_allocate bsb = (SIZE_MAX, bsb) := hal3
        obtain ⟨hr, hT⟩ := fin_err _ _ _ _ _ _ h (fun j hj => by
          show (((bitmap_test bsb.fbm j && _) && _) && _) = _
          have := hsm j hj
          rw [hT2 j hj, hT1 j hj]
          simp only [this, decide_False, Bool.not_false, Bool.and_true]
          have hnd0 : bitmap_test fs.BlockStore_whole.fbm nd = false := by
            have := hfree2
            rw [hT1 nd hlt2] at this
            simp only [Bool.or_eq_false_iff] at this
            exact this.1
          by_cases c1 : j = new
          · rw [c1, hfree1]
            simp
          · by_cases c2 : j = nd
            · rw [c2, hnd0]
              simp
            · simp [c1, c2])
        rw [hr]
        refine append_outcome_no_space fs nb fs1 (hf_iff.2 (Or.inr (Or.inr ⟨hnb518, ?_⟩))) hT
        rw [hal3b]
      · rw [he] at h
        have hal3b : block_store_allocate bsb = (ni, bsc) := hal3
        rw [fin_new _ _ _ h]
        refine append_outcome_new fs nb new fs1 ?_ hmax hlt1 hfree1u
        rw [hf_iff]
        rintro (hc | ⟨_, hc⟩ | ⟨_, hc⟩)
        · exact hnew hc
        · exact hnd hc
        · rw [hal3b] at hc
          exact hni hc
  · rw [if_neg hd0] at h
    have hnb519 : 518 < nb := by
      have : nb - 518 ≠ 0 := hd0
      omega
    rcases _inode_add_owned_block_dbl1_eq ({ fs with BlockStore_whole := bsa } : FS_t) inode
        (nb - FD_INDIRECT_MAX_PTRS) SIZE_MAX new hp.2.2 with
      ⟨hc, he⟩ | ⟨hc, hal2, he⟩ | ⟨hc, ni, bsb, hni, hal2, he⟩
    · rw [he] at h
      rw [fin_new _ _ _ h]
      refine append_outcome_new fs nb new fs1 ?_ hmax hlt1 hfree1u
      rw [hf_iff]
      have hc2 : (nb - 518) % 512 ≠ 0 := hc
      rintro (hx | ⟨hx | hx, _⟩ | ⟨hx, _⟩)
      · exact hnew hx
      · omega
      · exact hc2 hx.2.2
      · omega
    · rw [he] at h
      have hal2b : block_store_allocate bsa = (SIZE_MAX, bsa) := hal2
      obtain ⟨hr, hT⟩ := fin_err _ _ _ _ _ _ h hone
      rw [hr]
      refine append_outcome_no_space fs nb fs1
        (hf_iff.2 (Or.inr (Or.inl ⟨Or.inr ⟨h518b, hmax, hc⟩, ?_⟩))) hT
      rw [hal2b]
    · rw [he] at h
      have hal2b : block_store_allocate bsa = (ni, bsb) := hal2
      rw [fin_new _ _ _ h]
      refine append_outcome_new fs nb new fs1 ?_ hmax hlt1 hfree1u
      rw [hf_iff]
      rintro (hx | ⟨_, hx⟩ | ⟨hx, _⟩)
      · exact hnew hx
      · rw [hal2b] at hx
        exact hni hx
      · omega

/-- Claim C34: `_inode_add_owned_block` is transactional on the free-block
map.  For an inode whose number and block pointers fit their fields: the call
returns -2 exactly when one of its allocations found no free block; it returns
-1 exactly when no allocation failed and the file already has
`6 + 512 + 512 * 512` blocks; whenever it returns an error every bit of the
free-block map is as before the call; and otherwise it returns the number of a
block that was free before the call. -/
theorem _inode_add_owned_block_transactional (fs : FS_t) (inode : inode_t) (r : Int)
    (fs1 : FS_t) (inode1 : inode_t) (hinum : inode.inum < 256) (hp : inode_ptrs_ok inode)
    (h : _inode_add_owned_block fs inode = (r, fs1, inode1)) :
    (r = -2 ↔ append_allocation_fails fs.BlockStore_whole (ceil_blocks inode.file_size)) ∧
    (r = -1 ↔ ¬ append_allocation_fails fs.BlockStore_whole (ceil_blocks inode.file_size) ∧
      FD_DOUBLE_INDIRECT_MAX_PTRS ≤ ceil_blocks inode.file_size) ∧
    (r < 0 → ∀ i, i < 65536 →
      bitmap_test fs1.BlockStore_whole.fbm i = bitmap_test fs.BlockStore_whole.fbm i) ∧
    (0 ≤ r →
      ∃ new : Nat, r = (new : Int) ∧ new < 65536 ∧ ¬ block_used fs.BlockStore_whole new) :=
  _inode_add_owned_block_outcome fs inode _ r fs1 inode1 rfl hinum hp h

set_option maxRecDepth 1000000 in
theorem _inode_add_owned_block_transactional_witness :
    (fs_open_a.inode_table 1).inum < 256 ∧ inode_ptrs_ok (fs_open_a.inode_table 1) ∧
    (_inode_add_owned_block fs_open_a (fs_open_a.inode_table 1)).1 = 18 ∧
    (_inode_add_owned_block fs_open_a_full (fs_open_a_full.inode_table 1)).1 = -2 ∧
    (_inode_add_owned_block fs_near_limit (fs_near_limit.inode_table 1)).1 = -1 ∧
    ∃ r fs1 inode1,
      _inode_add_owned_block fs_open_a (fs_open_a.inode_table 1) = (r, fs1, inode1) ∧
      (r = -2 ↔ append_allocation_fails fs_open_a.BlockStore_whole
        (ceil_blocks (fs_open_a.inode_table 1).file_size)) ∧
      (r = -1 ↔ ¬ append_allocation_fails fs_open_a.BlockStore_whole
          (ceil_blocks (fs_open_a.inode_table 1).file_size) ∧
        FD_DOUBLE_INDIRECT_MAX_PTRS ≤ ceil_blocks (fs_open_a.inode_table 1).file_size) ∧
      (r < 0 → ∀ i, i < 65536 →
        bitmap_test fs1.BlockStore_whole.fbm i = bitmap_test fs_open_a.BlockStore_whole.fbm i) ∧
      (0 ≤ r →
        ∃ new : Nat, r = (new : Int) ∧ new < 65536 ∧
          ¬ block_used fs_open_a.BlockStore_whole new) :=
  have hinum : (fs_open_a.inode_table 1).inum < 256 := by decide!
  have hp : inode_ptrs_ok (fs_open_a.inode_table 1) := by
    unfold inode_ptrs_ok
    have h : ∀ k, k < 6 → (fs_open_a.inode_table 1).data_direct k < 65536 := by decide!
    exact ⟨h, by decide!, by decide!⟩
  match triple_eta (_inode_add_owned_block fs_open_a (fs_open_a.inode_table 1)) with
  | ⟨r, fs1, inode1, he⟩ =>
    ⟨hinum, hp, by decide!, by decide!, by decide!, r, fs1, inode1, he,
      _inode_add_owned_block_transactional fs_open_a (fs_open_a.inode_table 1) r fs1 inode1
        hinum hp he⟩

/-! ## The room for the numbers of the new blocks -/

/-- Every state at the head of the loop of `fs_write` has the invariant of the
loop. -/
theorem fs_write_reaches_inv (src : block_t) (M : Nat) (fs0 : FS_t) (inode0 : inode_t)
    (c0 n0 : Nat) (hinum : inode0.inum < 256)
    (hM : ∀ k, (inode0.file_size + 1023) / 1024 ≤ k → k ≤ 65528 → k * 1024 < c0 + n0 →
      k - (inode0.file_size + 1023) / 1024 < M)
    (st0 st : fs_write_state)
    (h0 : write_inv src fs0 inode0 c0 n0 ((st0.inode.file_size + 1023) / 1024) st0)
    (h : fs_write_reaches src M st0 st) :
    write_inv src fs0 inode0 c0 n0 ((st.inode.file_size + 1023) / 1024) st := by
  induction h with
  | start => exact h0
  | step sa sb sc _ hn ha hc ih =>
    rcases fs_write_append_step src M fs0 inode0 c0 n0 sa hinum hM ih hn with
      ⟨st1, e, _, _, _⟩ | ⟨st1, NB, e, hw, hnb, hidx, hup⟩
    · rw [e] at ha
      exact absurd (Option.some.inj ha) (by simp)
    · rw [e] at ha
      have e1 : st1 = sb := Sum.inr.inj (Option.some.inj ha)
      subst e1
      obtain ⟨st2, e2, hw2, _⟩ :=
        fs_write_chunk_step src fs0 inode0 c0 n0 NB st1 hw (by omega) hidx hup
      rw [e2] at hc
      have e3 : st2 = sc := Sum.inr.inj hc
      subst e3
      exact hw2

/-- What the invariant of the loop of `fs_write` gives for the array of the
numbers of new blocks: it holds no more than its room; and when a block is to
be appended, the cursor is at the end of the file, in the block after the last
one, and there is room for the number of the new block. -/
theorem write_inv_new_ptrs (src : block_t) (M : Nat) (fs0 : FS_t) (inode0 : inode_t)
    (c0 n0 : Nat)
    (hM : ∀ k, (inode0.file_size + 1023) / 1024 ≤ k → k ≤ 65528 → k * 1024 < c0 + n0 →
      k - (inode0.file_size + 1023) / 1024 < M)
    (st : fs_write_state)
    (hinv : write_inv src fs0 inode0 c0 n0 ((st.inode.file_size + 1023) / 1024) st) :
    st.new_ptrs.length ≤ M ∧
    (st.nbyte > 0 → _cursor_in_owned_block st.inode st.fd = false →
      ceil_blocks st.inode.file_size = _fd_cursor_get_block_index st.fd ∧
        st.cursor = st.inode.file_size ∧ st.new_ptrs.length < M) := by
  obtain ⟨b1, b2, b3, b4, b5, b6⟩ := write_inv_bounds _ _ _ _ _ _ _ hinv
  have hcl : st.cursor < 268965888 := by omega
  obtain ⟨fdx, hx1, _, hx3, _, _, _, _⟩ := _fd_cursor_set_spec st.fd st.cursor hcl
  rw [hinv.can] at hx1
  have hfdx : fdx = st.fd := (Option.some.inj hx1).symm
  rw [hfdx] at hx3
  have hceil : ceil_blocks st.inode.file_size = (st.inode.file_size + 1023) / 1024 :=
    ceil_blocks_eq _ (by
      have h53 : (2 : Nat) ^ 53 = 9007199254740992 := by norm_num
      rw [h53]
      omega)
  have hc := hinv.count
  have hr := hinv.rem
  have hsz := hinv.size
  constructor
  · by_cases hz : st.new_ptrs.length = 0
    · omega
    · have hk := hM ((st.inode.file_size + 1023) / 1024 - 1) (by omega) (by omega) (by omega)
      omega
  · intro hn hown
    unfold _cursor_in_owned_block at hown
    rw [hx3, hceil] at hown
    have hown2 : ¬ st.cursor / 1024 < (st.inode.file_size + 1023) / 1024 := by
      simpa using hown
    have hcur : st.cursor = st.inode.file_size := by omega
    refine ⟨?_, hcur, ?_⟩
    · rw [hx3, hceil]
      omega
    · have := hM ((st.inode.file_size + 1023) / 1024) b6 b1 (by omega)
      omega

/-- Claim C38: in every reachable state and for every `fs_write` of `n` bytes
through an open descriptor, the call returns (the loop ends and stores no
block number past the end of `new_ptrs`); every state at the head of the loop
holds at most `ceil(n / 1024)` numbers of new blocks; and whenever the loop is
to append a block, the index `ceil(file_size / 1024)` of the new block is the
block index of the cursor, the cursor is at the end of the file, and
`new_ptrs` has room for the number. -/
theorem fs_write_new_ptrs_in_bounds (fs : FS_t) (h : fs_reachable fs) (fdi : Int)
    (fd : fileDescriptor_t) (src : block_t) (n : Nat) (hfd : _fd_read fs fdi = some fd) :
    (∃ r fs1, fs_write fs fdi src n = some (r, fs1)) ∧
    ∀ st, fs_write_reaches src (ceil_blocks n)
        { fs := fs, inode := fs.inode_table fd.inum, fd := fd, cursor := _fd_cursor_get fd,
          src_pos := 0, nbyte := n, new_ptrs := [] } st →
      st.new_ptrs.length ≤ ceil_blocks n ∧
      (st.nbyte > 0 → _cursor_in_owned_block st.inode st.fd = false →
        ceil_blocks st.inode.file_size = _fd_cursor_get_block_index st.fd ∧
          st.cursor = st.inode.file_size ∧ st.new_ptrs.length < ceil_blocks n) := by
  have hs := fs_reachable_sound fs h
  obtain ⟨hino, hready, hp⟩ := write_ready_of_sound fs hs fdi fd hfd
  obtain ⟨hi1, _, _⟩ := _inode_read_some fs fd.inum _ hino
  have hinum : (fs.inode_table fd.inum).inum < 256 := by
    rw [hready.inum_eq]
    exact hi1
  have hslt : (fs.inode_table fd.inum).file_size < 268965888 := hready.size_lt
  have hceil : ceil_blocks (fs.inode_table fd.inum).file_size =
      ((fs.inode_table fd.inum).file_size + 1023) / 1024 :=
    ceil_blocks_eq _ (by
      have h53 : (2 : Nat) ^ 53 = 9007199254740992 := by norm_num
      rw [h53]
      omega)
  have htree : tree_ok fs.BlockStore_whole (fs.inode_table fd.inum)
      (((fs.inode_table fd.inum).file_size + 1023) / 1024) := by
    rw [← hceil]
    exact hready.tree
  have hstart := write_inv_start src fs fd (fs.inode_table fd.inum) n hready.fd_canonical
    hready.cursor_le hp hready.inum_eq.symm hready.reserved htree
  have hM := fun k h1 h2 h3 =>
    max_new_ptrs_suffices (fs.inode_table fd.inum).file_size (_fd_cursor_get fd) n
      hready.cursor_le k h1 h2 h3
  constructor
  · obtain ⟨st, hw, _, _⟩ := fs_write_spec fs fdi fd _ src n hfd hino hready hp
    exact ⟨_, _, hw⟩
  · intro st hst
    exact write_inv_new_ptrs src (ceil_blocks n) fs (fs.inode_table fd.inum) (_fd_cursor_get fd) n
      hM st (fs_write_reaches_inv src (ceil_blocks n) fs (fs.inode_table fd.inum)
        (_fd_cursor_get fd) n hinum hM _ st hstart hst)

set_option maxRecDepth 1000000 in
theorem fs_write_new_ptrs_in_bounds_witness :
    fs_reachable fs_open_a ∧
    _fd_read fs_open_a 0 = some (fs_open_a.BlockStore_fd.records 0) ∧
    ceil_blocks 5 = 1 ∧
    _cursor_in_owned_block (fs_open_a.inode_table 1) (fs_open_a.BlockStore_fd.records 0) = false ∧
    ((∃ r fs1, fs_write fs_open_a 0 (buffer_of "hello") 5 = some (r, fs1)) ∧
    ∀ st, fs_write_reaches (buffer_of "hello") (ceil_blocks 5)
        { fs := fs_open_a,
          inode := fs_open_a.inode_table (fs_open_a.BlockStore_fd.records 0).inum,
          fd := fs_open_a.BlockStore_fd.records 0,
          cursor := _fd_cursor_get (fs_open_a.BlockStore_fd.records 0),
          src_pos := 0, nbyte := 5, new_ptrs := [] } st →
      st.new_ptrs.length ≤ ceil_blocks 5 ∧
      (st.nbyte > 0 → _cursor_in_owned_block st.inode st.fd = false →
        ceil_blocks st.inode.file_size = _fd_cursor_get_block_index st.fd ∧
          st.cursor = st.inode.file_size ∧ st.new_ptrs.length < ceil_blocks 5)) :=
  have hfd : _fd_read fs_open_a 0 = some (fs_open_a.BlockStore_fd.records 0) := by decide!
  ⟨fs_reachable_open_a, hfd, by decide!, by decide!,
    fs_write_new_ptrs_in_bounds fs_open_a fs_reachable_open_a 0 _ (buffer_of "hello") 5 hfd⟩

/-! ## What `fs_write` records for its rollback -/

set_option maxRecDepth 1000000 in
/-- C36, evaluated: `fs_write` of 7168 bytes through descriptor 0 of the empty
file `/a` (a reachable state).  The loop ends normally with the seven data
blocks 18..24 in `new_ptrs`, while the call has newly marked the eight blocks
18..25 in the free-block map: block 25, the indirect block that
`_inode_add_owned_block` allocated for the seventh data block, is not
recorded, and releasing the recorded blocks leaves it marked. -/
theorem fs_write_new_ptrs_miss_indirect_block :
    fs_reachable fs_open_a ∧
    _fd_read fs_open_a 0 = some (fs_open_a.BlockStore_fd.records 0) ∧
    _inode_read fs_open_a (fs_open_a.BlockStore_fd.records 0).inum =
      some (fs_open_a.inode_table 1) ∧
    _fd_cursor_get (fs_open_a.BlockStore_fd.records 0) = 0 ∧
    (fs_write fs_open_a 0 (fun _ => 0) 7168).map (fun r => r.1) = some 7168 ∧
    (fs_write_loop (fun _ => 0) (ceil_blocks 7168) 7168
      { fs := fs_open_a, inode := fs_open_a.inode_table 1,
        fd := fs_open_a.BlockStore_fd.records 0, cursor := 0, src_pos := 0, nbyte := 7168,
        new_ptrs := [] }).map
      (fun r => (r.1, r.2.nbyte, r.2.new_ptrs, r.2.inode.data_indirect,
        (List.range 40).filter (fun b => bitmap_test r.2.fs.BlockStore_whole.fbm b &&
          !bitmap_test fs_open_a.BlockStore_whole.fbm b),
        (List.range 40).filter (fun b =>
          bitmap_test (r.2.new_ptrs.foldl block_store_release r.2.fs.BlockStore_whole).fbm b &&
          !bitmap_test fs_open_a.BlockStore_whole.fbm b))) =
      some (true, 0, [18, 19, 20, 21, 22, 23, 24], 25, [18, 19, 20, 21, 22, 23, 24, 25], [25]) :=
  ⟨fs_reachable_open_a, by decide!,
    (by
      have e : (fs_open_a.BlockStore_fd.records 0).inum = 1 := by decide!
      rw [e]
      exact _inode_read_of_test fs_open_a 1 (by decide) (by decide!)),
    by decide!, by decide!, by decide!⟩

/-! ## The appender and the walker -/

theorem slot_block_file_size (bs : block_store_t) (inode : inode_t) (size : Nat)
    (s : tree_slot) :
    slot_block bs { inode with file_size := size } s = slot_block bs inode s := by
  cases s <;> rfl

/-- What holds of a file grown by appends: its block count, the soundness of
its pointer tree, and the walk to block `k` ends at the block the append at
index `k` returned. -/
theorem grown_by_appends_inv (fs : FS_t) (inode : inode_t) (ids : List Nat)
    (h : grown_by_appends fs inode ids) :
    ceil_blocks inode.file_size = ids.length ∧ inode.file_size ≤ 1024 * ids.length ∧
    inode.inum < 256 ∧ inode_ptrs_ok inode ∧ reserved_used fs.BlockStore_whole ∧
    tree_ok fs.BlockStore_whole inode ids.length ∧
    ∀ k, k < ids.length → ids[k]? = some (file_block fs.BlockStore_whole inode k) := by
  induction h with
  | empty fs inode hsz hinum hp hres =>
    refine ⟨?_, ?_, hinum, hp, hres, tree_ok_zero _ _, ?_⟩
    · rw [hsz]
      decide
    · rw [hsz]
      exact Nat.le_refl _
    · intro k hk
      exact absurd hk (Nat.not_lt_zero _)
  | append fs inode ids new fs1 inode1 size _ happ hlo hhi ih =>
    obtain ⟨hnb, hle, hinum, hp, hres, htree, hwalk⟩ := ih
    have hlen := tree_ok_blocks_le _ _ _ htree
    obtain ⟨hf, hcase⟩ := _inode_add_owned_block_spec fs inode ids.length (new : Int) fs1 inode1
      hnb htree hp hres hinum (by omega) happ
    rcases hcase with ⟨hr2, _⟩ | ⟨new2, hrn, hg, hfb⟩
    · omega
    · have hnew : new2 = new := by omega
      subst hnew
      have hceil : ceil_blocks size = ids.length + 1 := by
        rw [ceil_blocks_eq size (by
          have h53 : (2 : Nat) ^ 53 = 9007199254740992 := by norm_num
          rw [h53]
          omega)]
        omega
      have hlen2 : (ids ++ [new2]).length = ids.length + 1 := by
        rw [List.length_append, List.length_singleton]
      rw [hlen2]
      refine ⟨hceil, hhi, ?_, hf.ptrs, ?_, ?_, ?_⟩
      · show inode1.inum < 256
        rw [hf.inum_eq]
        exact hinum
      · exact reserved_used_mono _ _ hres hf.mono
      · exact tree_ok_same _ _ _ _ _ hg.1 (fun s _ => slot_block_file_size _ _ _ s)
          (fun _ _ hu => hu)
      · intro k hk
        show _ = some (file_block fs1.BlockStore_whole inode1 k)
        by_cases hk2 : k < ids.length
        · rw [List.getElem?_append_left hk2, hwalk k hk2]
          have := hf.hold (tree_slot.data k) hk2
          exact congrArg some this.symm
        · have hk3 : k = ids.length := by omega
          rw [hk3, List.getElem?_append_right (Nat.le_refl _), Nat.sub_self, hfb]
          rfl
  | write fs inode ids k b buf _ hb ih =>
    obtain ⟨hnb, hle, hinum, hp, hres, htree, hwalk⟩ := ih
    have hk : k < ids.length := by
      by_contra hc
      rw [List.getElem?_eq_none (Nat.le_of_not_lt hc)] at hb
      exact Option.noConfusion hb
    have hbk : b = file_block fs.BlockStore_whole inode k := by
      have := hwalk k hk
      rw [hb] at this
      exact Option.some.inj this
    have hrange := htree.range (tree_slot.data k) hk
    have hb1 : b < 65528 := by
      rw [hbk]
      exact hrange.2.1
    have hold := hold_data_write fs.BlockStore_whole (fs.set_block b buf).BlockStore_whole inode
      inode ids.length k htree hk
      (fun x hx => by
        show (if x = b then buf else fs.BlockStore_whole.blocks x) = _
        rw [if_neg (by rw [hbk]; exact hx)])
      (fun _ _ => rfl) rfl rfl
    have hmono : ∀ x, x < 65536 → block_used fs.BlockStore_whole x →
        block_used (fs.set_block b buf).BlockStore_whole x := by
      intro x _ hu
      rw [set_block_whole]
      exact (block_used_put _ _ _ hb1 x).2 hu
    refine ⟨hnb, hle, hinum, hp, reserved_used_mono _ _ hres hmono,
      tree_ok_same _ _ _ _ _ htree hold hmono, ?_⟩
    intro j hj
    rw [hwalk j hj]
    exact congrArg some (hold (tree_slot.data j) hj).symm

/-- Claim C35: the appender and the walker agree on the pointer tree.  For a
file grown by successive calls of `_inode_add_owned_block`, the file has as
many blocks as calls returned a block; and for every logical block index `k`
below that count and every descriptor whose cursor `_fd_cursor_set` put in
block `k`, `_fd_data_block_read` and `_fd_data_block_write` both access the
block whose number the append at index `k` returned, found at `data_direct[k]`
for `k < 6`, at entry `k - 6` of the indirect block for `6 ≤ k < 518`, and else
at entry `(k - 518) % 512` of the indirect block listed at entry
`(k - 518) / 512` of the double-indirect block. -/
theorem appender_walker_agree (fs : FS_t) (inode : inode_t) (ids : List Nat)
    (h : grown_by_appends fs inode ids) (k : Nat) (hk : k < ids.length)
    (fd0 fd : fileDescriptor_t) (off : Nat) (hfd : _fd_cursor_set fd0 off = some fd)
    (hoff : off / 1024 = k) (buf : block_t) :
    ceil_blocks inode.file_size = ids.length ∧
    ∃ b, ids[k]? = some b ∧
      _fd_data_block_read fs inode fd = some (fs.BlockStore_whole.blocks b) ∧
      _fd_data_block_write fs inode fd buf = (true, fs.set_block b buf) ∧
      b = (if k < 6 then inode.data_direct k
        else if k < 518 then ind_get (fs.BlockStore_whole.blocks inode.data_indirect) (k - 6)
        else ind_get (fs.BlockStore_whole.blocks
            (ind_get (fs.BlockStore_whole.blocks inode.data_double_indirect) ((k - 518) / 512)))
          ((k - 518) % 512)) := by
  obtain ⟨hnb, _, _, hp, _, _, hwalk⟩ := grown_by_appends_inv fs inode ids h
  refine ⟨hnb, file_block fs.BlockStore_whole inode k, hwalk k hk, ?_, ?_, rfl⟩
  · rw [← hoff]
    exact _fd_data_block_read_at fs inode fd0 fd off hp hfd
  · rw [← hoff]
    exact _fd_data_block_write_at fs inode fd0 fd off buf hp hfd

set_option maxRecDepth 1000000 in
theorem appender_walker_agree_witness :
    ∃ fs1 inode1,
      _inode_add_owned_block fs_open_a (fs_open_a.inode_table 1) = (((18 : Nat) : Int), fs1, inode1) ∧
      grown_by_appends fs1 { inode1 with file_size := 5 } [18] ∧
      _fd_cursor_set (fs_open_a.BlockStore_fd.records 0) 3 =
        some { inum := 1, usage := 1, locate_order := 0, locate_offset := 3 } ∧
      (ceil_blocks (inode_t.file_size { inode1 with file_size := 5 }) = [18].length ∧
      ∃ b, [18][0]? = some b ∧
        _fd_data_block_read fs1 { inode1 with file_size := 5 }
            { inum := 1, usage := 1, locate_order := 0, locate_offset := 3 } =
          some (fs1.BlockStore_whole.blocks b) ∧
        _fd_data_block_write fs1 { inode1 with file_size := 5 }
            { inum := 1, usage := 1, locate_order := 0, locate_offset := 3 } (fun _ => 7) =
          (true, fs1.set_block b (fun _ => 7)) ∧
        b = (if 0 < 6 then (inode_t.data_direct { inode1 with file_size := 5 }) 0
          else if 0 < 518 then
            ind_get (fs1.BlockStore_whole.blocks
              (inode_t.data_indirect { inode1 with file_size := 5 })) (0 - 6)
          else ind_get (fs1.BlockStore_whole.blocks
              (ind_get (fs1.BlockStore_whole.blocks
                (inode_t.data_double_indirect { inode1 with file_size := 5 }))
                ((0 - 518) / 512)))
            ((0 - 518) % 512))) :=
  have h0 : grown_by_appends fs_open_a (fs_open_a.inode_table 1) [] :=
    grown_by_appends.empty _ _ (by decide!) (by decide!) fs_open_a_ready.2.2.2
      fs_open_a_ready.2.2.1.reserved
  have h18 : (_inode_add_owned_block fs_open_a (fs_open_a.inode_table 1)).1 = ((18 : Nat) : Int) := by
    decide!
  have hset : _fd_cursor_set (fs_open_a.BlockStore_fd.records 0) 3 =
      some { inum := 1, usage := 1, locate_order := 0, locate_offset := 3 } := by decide!
  match triple_eta (_inode_add_owned_block fs_open_a (fs_open_a.inode_table 1)) with
  | ⟨r, fs1, inode1, he⟩ =>
    have hr : r = ((18 : Nat) : Int) := by
      rw [he] at h18
      exact h18
    have he2 : _inode_add_owned_block fs_open_a (fs_open_a.inode_table 1) =
        (((18 : Nat) : Int), fs1, inode1) := by
      rw [he, hr]
    have hg : grown_by_appends fs1 { inode1 with file_size := 5 } [18] :=
      grown_by_appends.append fs_open_a (fs_open_a.inode_table 1) [] 18 fs1 inode1 5 h0 he2
        (by decide) (by decide)
    ⟨fs1, inode1, he2, hg, hset,
      appender_walker_agree fs1 { inode1 with file_size := 5 } [18] hg 0 (by decide)
        (fs_open_a.BlockStore_fd.records 0) _ 3 hset (by decide) (fun _ => 7)⟩

/-! ## Creating under a parent that does not exist; writing past the maximal size -/

set_option maxRecDepth 1000000 in
/-- C9, evaluated: on a freshly formatted file system the root directory lists
no entry and inode 0, the root, is the only allocated inode, so the path
`/\x01/a` has no parent directory `/\x01`; `fs_create` on it nevertheless
returns 0, allocates inode 1 and enters the new file in the root, where it
resolves as `/a`.  The parent path `/\x01` resolves to the root because the
lookup scans block 0, the inode bitmap, as the entry block of the empty
root.  The call `fs_create("/missing/x")` on the same state returns -1. -/
theorem fs_create_succeeds_without_parent :
    fs_get_dir fs_format_state [SLASH] = some [] ∧
    (List.range 256).filter (fun i => (_inode_read fs_format_state i).isSome) = [0] ∧
    (fs_create fs_format_state [SLASH, 1, SLASH, 97] FS_REGULAR).1 = 0 ∧
    (List.range 256).filter (fun i =>
      (_inode_read (fs_create fs_format_state [SLASH, 1, SLASH, 97] FS_REGULAR).2 i).isSome)
      = [0, 1] ∧
    _get_inum (fs_create fs_format_state [SLASH, 1, SLASH, 97] FS_REGULAR).2 [SLASH, 97] = 1 ∧
    (fs_create fs_format_state (bytes "/missing/x") FS_REGULAR).1 = -1 := by
  decide!

/-- C19: in every state reachable from `fs_format`, on every open descriptor
(cursor `c`, file size `s`), a `fs_write` of `n` bytes that would extend the
file to or beyond the maximal size `FD_DOUBLE_INDIRECT_MAX_OFF`
(`(6 + 512 + 512 * 512) * 1024` bytes) returns, and what it returns is the
number `k` of bytes it has written, not the error sentinel: `k < n`, the
written bytes end below the limit (`c + k ≤ 65528 * 1024`, the store has at
most two free blocks left), the stored cursor is `c + k`, the stored size is
`max s (c + k)`, the bytes `[c, c + k)` of the file are the first `k` bytes
of the source and the other bytes of the file are as before. -/
theorem fs_write_past_maximum_returns_count (fs : FS_t) (h : fs_reachable fs) (fdi : Int)
    (fd : fileDescriptor_t) (src : block_t) (n : Nat)
    (hfd : _fd_read fs fdi = some fd)
    (hbig : FD_DOUBLE_INDIRECT_MAX_OFF ≤ _fd_cursor_get fd + n) :
    ∃ (k : Nat) (fs1 : FS_t) (fd1 : fileDescriptor_t) (inode1 : inode_t),
      fs_write fs fdi src n = some ((k : Int), fs1) ∧ k < n ∧
      _fd_cursor_get fd + k ≤ 65528 * 1024 ∧
      _fd_cursor_get fd + k < FD_DOUBLE_INDIRECT_MAX_OFF ∧
      few_free fs1.BlockStore_whole ∧
      _fd_read fs1 fdi = some fd1 ∧ fd1.inum = fd.inum ∧
      _inode_read fs1 fd.inum = some inode1 ∧
      _fd_cursor_get fd1 = _fd_cursor_get fd + k ∧
      inode1.file_size = max (fs.inode_table fd.inum).file_size (_fd_cursor_get fd + k) ∧
      (∀ p, p < inode1.file_size → file_byte fs1.BlockStore_whole inode1 p =
        if _fd_cursor_get fd ≤ p ∧ p < _fd_cursor_get fd + k then src (p - _fd_cursor_get fd)
        else file_byte fs.BlockStore_whole (fs.inode_table fd.inum) p) := by
  have hs := fs_reachable_sound fs h
  obtain ⟨hino, hready, hp⟩ := write_ready_of_sound fs hs fdi fd hfd
  obtain ⟨k, fs1, fd1, inode1, hw, h0, hfew, h1, h2, h3, h4, h5, h6, h7, _, _, _⟩ :=
    fs_write_outcome fs fdi fd _ src n hfd hino hready hp
  have hbig1 : 268965888 ≤ _fd_cursor_get fd + n := hbig
  have hkn : k < n := by omega
  have hlim : _fd_cursor_get fd + k < FD_DOUBLE_INDIRECT_MAX_OFF := by
    show _fd_cursor_get fd + k < 268965888
    omega
  rw [h3] at h2
  exact ⟨k, fs1, fd1, inode1, hw, hkn, by omega, hlim, hfew hkn, h1, h3, h2, h4, h5, h7⟩

set_option maxRecDepth 1000000 in
theorem fs_write_past_maximum_returns_count_witness :
    fs_reachable fs_open_a ∧
    _fd_read fs_open_a 0 = some (fs_open_a.BlockStore_fd.records 0) ∧
    _fd_cursor_get (fs_open_a.BlockStore_fd.records 0) = 0 ∧
    FD_DOUBLE_INDIRECT_MAX_OFF < 268965889 ∧
    ∃ (k : Nat) (fs1 : FS_t) (fd1 : fileDescriptor_t) (inode1 : inode_t),
      fs_write fs_open_a 0 (buffer_of "hello") 268965889 = some ((k : Int), fs1) ∧
      k < 268965889 ∧
      _fd_cursor_get (fs_open_a.BlockStore_fd.records 0) + k ≤ 65528 * 1024 ∧
      _fd_cursor_get (fs_open_a.BlockStore_fd.records 0) + k < FD_DOUBLE_INDIRECT_MAX_OFF ∧
      few_free fs1.BlockStore_whole ∧
      _fd_read fs1 0 = some fd1 ∧ fd1.inum = (fs_open_a.BlockStore_fd.records 0).inum ∧
      _inode_read fs1 (fs_open_a.BlockStore_fd.records 0).inum = some inode1 ∧
      _fd_cursor_get fd1 = _fd_cursor_get (fs_open_a.BlockStore_fd.records 0) + k ∧
      inode1.file_size = max
        (fs_open_a.inode_table (fs_open_a.BlockStore_fd.records 0).inum).file_size
        (_fd_cursor_get (fs_open_a.BlockStore_fd.records 0) + k) ∧
      (∀ p, p < inode1.file_size → file_byte fs1.BlockStore_whole inode1 p =
        if _fd_cursor_get (fs_open_a.BlockStore_fd.records 0) ≤ p ∧
            p < _fd_cursor_get (fs_open_a.BlockStore_fd.records 0) + k
          then buffer_of "hello" (p - _fd_cursor_get (fs_open_a.BlockStore_fd.records 0))
        else file_byte fs_open_a.BlockStore_whole
          (fs_open_a.inode_table (fs_open_a.BlockStore_fd.records 0).inum) p) :=
  have hfd : _fd_read fs_open_a 0 = some (fs_open_a.BlockStore_fd.records 0) := by decide!
  ⟨fs_reachable_open_a, hfd, by decide!, by decide,
    fs_write_past_maximum_returns_count fs_open_a fs_reachable_open_a 0 _ (buffer_of "hello")
      268965889 hfd (by decide!)⟩

/-! ## Two runs on stores that differ in their free blocks -/

theorem same_skeleton_refl (fs : FS_t) : same_skeleton fs fs :=
  ⟨rfl, rfl, rfl, fun _ _ => rfl⟩

theorem fbm_eq_of_blocks (bs bs1 : block_store_t)
    (h : ∀ b, 65528 ≤ b → bs1.blocks b = bs.blocks b) : bs1.fbm = bs.fbm := by
  apply bitmap_t_ext
  · intro j
    rw [fbm_data, fbm_data, h _ (by omega)]
  · rfl
  · rfl

theorem set_fbm_same (bs bs1 : block_store_t) (m : bitmap_t)
    (h0 : bs1.blocks 0 = bs.blocks 0)
    (h : ∀ b, 65528 ≤ b → bs1.blocks b = bs.blocks b) :
    (bs1.set_fbm m).blocks 0 = (bs.set_fbm m).blocks 0 ∧
      ∀ b, 65528 ≤ b → (bs1.set_fbm m).blocks b = (bs.set_fbm m).blocks b := by
  constructor
  · rw [set_fbm_block_zero, set_fbm_block_zero, h0]
  · intro b hb
    funext o
    rw [set_fbm_blocks, set_fbm_blocks, h b hb]

/-- The allocator takes the same block in two stores with the same free-block
map, and leaves them with the same map. -/
theorem block_store_allocate_same (bs bs1 : block_store_t) (id : Nat) (bsa : block_store_t)
    (h0 : bs1.blocks 0 = bs.blocks 0)
    (h : ∀ b, 65528 ≤ b → bs1.blocks b = bs.blocks b)
    (ha : block_store_allocate bs = (id, bsa)) :
    ∃ bsa1, block_store_allocate bs1 = (id, bsa1) ∧ bsa1.blocks 0 = bsa.blocks 0 ∧
      (∀ b, 65528 ≤ b → bsa1.blocks b = bsa.blocks b) ∧
      (∀ b, b < 65528 → bsa1.blocks b = bs1.blocks b) := by
  have hf := fbm_eq_of_blocks bs bs1 h
  rcases block_store_allocate_cases bs with e | ⟨x, hx, hfree, hffz, e⟩
  · rw [e] at ha
    have e1 : id = SIZE_MAX := (Prod.mk.inj ha).1.symm
    have e2 : bsa = bs := (Prod.mk.inj ha).2.symm
    subst e1 e2
    rcases block_store_allocate_cases bs1 with e3 | ⟨y, hy, hfree1, hffz1, e3⟩
    · exact ⟨bs1, e3, h0, h, fun _ _ => rfl⟩
    · exfalso
      rw [hf] at hffz1 hfree1
      have hall := block_store_allocate_full _ _ e y hy
      unfold block_used at hall
      rw [hfree1] at hall
      exact Bool.noConfusion hall
  · rw [e] at ha
    have e1 : id = x := (Prod.mk.inj ha).1.symm
    have e2 : bsa = bs.set_fbm (bitmap_set bs.fbm x).2 := (Prod.mk.inj ha).2.symm
    subst e1 e2
    rcases block_store_allocate_cases bs1 with e3 | ⟨y, hy, hfree1, hffz1, e3⟩
    · exfalso
      have hall := block_store_allocate_full bs1 bs1 e3 id hx
      unfold block_used at hall
      rw [hf, hfree] at hall
      exact Bool.noConfusion hall
    · rw [hf] at hffz1 e3
      have hyx : y = id := hffz1.trans hffz.symm
      subst hyx
      obtain ⟨s0, s1⟩ := set_fbm_same bs bs1 (bitmap_set bs.fbm y).2 h0 h
      refine ⟨_, e3, s0, s1, ?_⟩
      intro b hb
      funext o
      rw [set_fbm_blocks, if_neg (by omega)]

theorem block_store_release_same (bs bs1 : block_store_t) (id : Nat)
    (h0 : bs1.blocks 0 = bs.blocks 0)
    (h : ∀ b, 65528 ≤ b → bs1.blocks b = bs.blocks b) :
    (block_store_release bs1 id).blocks 0 = (block_store_release bs id).blocks 0 ∧
      ∀ b, 65528 ≤ b → (block_store_release bs1 id).blocks b = (block_store_release bs id).blocks b := by
  unfold block_store_release
  by_cases hc : id ≥ BLOCK_STORE_NUM_BLOCKS
  · rw [if_pos hc, if_pos hc]
    exact ⟨h0, h⟩
  · rw [if_neg hc, if_neg hc, fbm_eq_of_blocks bs bs1 h]
    exact set_fbm_same bs bs1 _ h0 h

theorem BlockStore_inode_same (fs fs1 : FS_t) (h : same_skeleton fs fs1) :
    fs1.BlockStore_inode = fs.BlockStore_inode := by
  unfold FS_t.BlockStore_inode
  rw [h.block0, h.table]

theorem _inode_read_same (fs fs1 : FS_t) (h : same_skeleton fs fs1) (i : Nat) :
    _inode_read fs1 i = _inode_read fs i := by
  unfold _inode_read
  rw [BlockStore_inode_same fs fs1 h]

theorem _fd_read_same (fs fs1 : FS_t) (h : same_skeleton fs fs1) (k : Int) :
    _fd_read fs1 k = _fd_read fs k := by
  unfold _fd_read
  rw [h.fds]

theorem inode_allocated_same (fs fs1 : FS_t) (h : same_skeleton fs fs1) (i : Nat) :
    inode_allocated fs1 i ↔ inode_allocated fs i :=
  inode_allocated_congr fs fs1 h.block0 i

theorem _BS_FD_WRITE_same (fs fs1 : FS_t) (hfd : fs1.BlockStore_fd = fs.BlockStore_fd)
    (idx : Nat) (fd : fileDescriptor_t) :
    (_BS_FD_WRITE fs idx fd = none ∧ _BS_FD_WRITE fs1 idx fd = none) ∨
    (_BS_FD_WRITE fs idx fd = some (fs.set_fd idx fd) ∧
      _BS_FD_WRITE fs1 idx fd = some (fs1.set_fd idx fd)) := by
  unfold _BS_FD_WRITE block_store_sub_write
  rw [hfd]
  by_cases hge : idx ≥ fs.BlockStore_fd.fbm.bit_count
  · left
    rw [if_pos hge]
    exact ⟨rfl, rfl⟩
  · right
    rw [if_neg hge]
    refine ⟨rfl, ?_⟩
    show some _ = some _
    congr 1
    apply FS_t_ext
    · rfl
    · rfl
    · show _ = ({ fs1.BlockStore_fd with
        records := fun i => if i = idx then fd else fs1.BlockStore_fd.records i } :
          sub_store_t fileDescriptor_t)
      rw [hfd]

theorem same_skeleton_set_fd (fs fs1 : FS_t) (h : same_skeleton fs fs1) (idx : Nat)
    (fd : fileDescriptor_t) : same_skeleton (fs.set_fd idx fd) (fs1.set_fd idx fd) := by
  refine ⟨h.table, ?_, h.block0, h.fbm⟩
  show ({ fs1.BlockStore_fd with
      records := fun i => if i = idx then fd else fs1.BlockStore_fd.records i } :
        sub_store_t fileDescriptor_t) = _
  rw [h.fds]
  rfl

/-- The function `fs_seek` in two states with the same skeleton: the same return value,
and states with the same skeleton, blocks and inode tables as before. -/
theorem fs_seek_same (fs fs1 : FS_t) (hsk : same_skeleton fs fs1) (fdi : Int) (offset : Int)
    (whence : Nat) (r : Int) (s : FS_t) (h : fs_seek fs fdi offset whence = (r, s)) :
    ∃ s1, fs_seek fs1 fdi offset whence = (r, s1) ∧ same_skeleton s s1 ∧
      keeps_files fs s ∧ keeps_files fs1 s1 := by
  have triv : ∀ q : Int × FS_t, q = (r, s) → q = (-1, fs) →
      r = -1 ∧ same_skeleton s fs1 ∧ keeps_files fs s := by
    intro q h1 h2
    rw [h2] at h1
    obtain ⟨e1, e2⟩ := Prod.mk.inj h1
    subst e1 e2
    exact ⟨rfl, hsk, rfl, rfl⟩
  unfold fs_seek at h ⊢
  rw [_fd_read_same fs fs1 hsk]
  by_cases hbad : ¬ FD_OK fdi = true ∨ ¬ WHENCE_OK whence = true
  · rw [if_pos hbad] at h ⊢
    obtain ⟨e, a, b⟩ := triv _ h rfl
    rw [e]
    exact ⟨fs1, rfl, a, b, rfl, rfl⟩
  rw [if_neg hbad] at h ⊢
  cases hfd : _fd_read fs fdi with
  | none =>
    rw [hfd] at h
    obtain ⟨e, a, b⟩ := triv _ h rfl
    rw [e]
    exact ⟨fs1, rfl, a, b, rfl, rfl⟩
  | some fd =>
  rw [hfd] at h
  dsimp only at h ⊢
  rw [_inode_read_same fs fs1 hsk]
  cases hino : _inode_read fs fd.inum with
  | none =>
    rw [hino] at h
    obtain ⟨e, a, b⟩ := triv _ h rfl
    rw [e]
    exact ⟨fs1, rfl, a, b, rfl, rfl⟩
  | some inode =>
  rw [hino] at h
  dsimp only at h ⊢
  generalize hnc : (_clamped_add (to_ssize_t (if whence = FS_SEEK_CUR then _fd_cursor_get fd
      else if whence = FS_SEEK_END then inode.file_size else 0)) offset 0
      (to_ssize_t inode.file_size) % 2 ^ 64).toNat = nc at h ⊢
  cases hset : _fd_cursor_set fd nc with
  | none =>
    rw [hset] at h
    obtain ⟨e, a, b⟩ := triv _ h rfl
    rw [e]
    exact ⟨fs1, rfl, a, b, rfl, rfl⟩
  | some fd1 =>
  rw [hset] at h
  dsimp only at h ⊢
  rcases _BS_FD_WRITE_same fs fs1 hsk.fds fdi.toNat fd1 with ⟨w, w1⟩ | ⟨w, w1⟩
  · rw [w] at h
    rw [w1]
    obtain ⟨e, a, b⟩ := triv _ h rfl
    rw [e]
    exact ⟨fs1, rfl, a, b, rfl, rfl⟩
  · rw [w] at h
    rw [w1]
    obtain ⟨e1, e2⟩ := Prod.mk.inj h
    subst e1 e2
    exact ⟨_, rfl, same_skeleton_set_fd fs fs1 hsk _ _, ⟨rfl, rfl⟩, rfl, rfl⟩

theorem same_skeleton_with_fd (fs fs1 : FS_t) (h : same_skeleton fs fs1)
    (X : sub_store_t fileDescriptor_t) :
    same_skeleton { fs with BlockStore_fd := X } { fs1 with BlockStore_fd := X } :=
  ⟨h.table, rfl, h.block0, h.fbm⟩

/-- The function `fs_open` in two states with the same skeleton in which the path resolves
to the same inode: the same return value, and states with the same skeleton,
blocks and inode tables as before. -/
theorem fs_open_same (fs fs1 : FS_t) (hsk : same_skeleton fs fs1) (path : List Nat)
    (hget : _get_inum fs1 path = _get_inum fs path) (r : Int) (s : FS_t)
    (h : fs_open fs path = (r, s)) :
    ∃ s1, fs_open fs1 path = (r, s1) ∧ same_skeleton s s1 ∧
      keeps_files fs s ∧ keeps_files fs1 s1 := by
  have triv : ∀ q : Int × FS_t, q = (r, s) → q = (-1, fs) →
      r = -1 ∧ same_skeleton s fs1 ∧ keeps_files fs s := by
    intro q h1 h2
    rw [h2] at h1
    obtain ⟨e1, e2⟩ := Prod.mk.inj h1
    subst e1 e2
    exact ⟨rfl, hsk, rfl, rfl⟩
  unfold fs_open at h ⊢
  dsimp only at h ⊢
  rw [hget]
  by_cases hneg : _get_inum fs path < 0
  · rw [if_pos hneg] at h ⊢
    obtain ⟨e, a, b⟩ := triv _ h rfl
    rw [e]
    exact ⟨fs1, rfl, a, b, rfl, rfl⟩
  rw [if_neg hneg] at h ⊢
  rw [_inode_read_same fs fs1 hsk]
  cases hino : _inode_read fs (_get_inum fs path).toNat with
  | none =>
    rw [hino] at h
    obtain ⟨e, a, b⟩ := triv _ h rfl
    rw [e]
    exact ⟨fs1, rfl, a, b, rfl, rfl⟩
  | some inode =>
  rw [hino] at h
  dsimp only at h ⊢
  by_cases hd : inode.file_type = CHAR_d
  · rw [if_pos hd] at h ⊢
    obtain ⟨e, a, b⟩ := triv _ h rfl
    rw [e]
    exact ⟨fs1, rfl, a, b, rfl, rfl⟩
  rw [if_neg hd] at h ⊢
  rw [hsk.fds]
  cases hal : block_store_sub_allocate fs.BlockStore_fd with
  | mk idx X =>
  rw [hal] at h
  dsimp only at h ⊢
  by_cases hm : idx = SIZE_MAX
  · rw [if_pos hm] at h ⊢
    obtain ⟨e1, e2⟩ := Prod.mk.inj h
    subst e1 e2
    exact ⟨_, rfl, same_skeleton_with_fd fs fs1 hsk X, ⟨rfl, rfl⟩, rfl, rfl⟩
  rw [if_neg hm] at h ⊢
  rcases _BS_FD_WRITE_same { fs with BlockStore_fd := X } { fs1 with BlockStore_fd := X } rfl idx
      { inum := (_get_inum fs path).toNat % 256, usage := FD_DIRECT, locate_order := 0,
        locate_offset := 0 } with ⟨w, w1⟩ | ⟨w, w1⟩
  · rw [w] at h
    rw [w1]
    obtain ⟨e1, e2⟩ := Prod.mk.inj h
    subst e1 e2
    exact ⟨_, rfl, same_skeleton_with_fd fs fs1 hsk _, ⟨rfl, rfl⟩, rfl, rfl⟩
  · rw [w] at h
    rw [w1]
    obtain ⟨e1, e2⟩ := Prod.mk.inj h
    subst e1 e2
    exact ⟨_, rfl, same_skeleton_set_fd _ _ (same_skeleton_with_fd fs fs1 hsk X) _ _,
      ⟨rfl, rfl⟩, rfl, rfl⟩

theorem set_fd_self (fs : FS_t) (idx : Nat) :
    fs.set_fd idx (fs.BlockStore_fd.records idx) = fs := by
  apply FS_t_ext
  · rfl
  · rfl
  · show ({ fs.BlockStore_fd with
      records := fun i => if i = idx then fs.BlockStore_fd.records idx
        else fs.BlockStore_fd.records i } : sub_store_t fileDescriptor_t) = fs.BlockStore_fd
    have e : (fun i => if i = idx then fs.BlockStore_fd.records idx
        else fs.BlockStore_fd.records i) = fs.BlockStore_fd.records := by
      funext i
      by_cases c : i = idx
      · rw [if_pos c, c]
      · rw [if_neg c]
    rw [e]

/-- A descriptor that is the decomposition of its cursor is determined by its
inode number and its cursor. -/
theorem fd_canonical_unique (fd fd1 : fileDescriptor_t) (c : Nat)
    (h : _fd_cursor_set fd c = some fd) (h1 : _fd_cursor_set fd1 c = some fd1)
    (hi : fd1.inum = fd.inum) : fd1 = fd := by
  have key : ∀ (a : fileDescriptor_t) (u o l : Nat),
      some ({ a with usage := u, locate_order := o, locate_offset := l } : fileDescriptor_t)
        = some a → a = { inum := a.inum, usage := u, locate_order := o, locate_offset := l } := by
    intro a u o l e
    exact (Option.some.inj e).symm
  by_cases c0 : c < 268965888
  · by_cases c1 : c < 6144
    · rw [_fd_cursor_set_direct fd c c1] at h
      rw [_fd_cursor_set_direct fd1 c c1] at h1
      rw [key _ _ _ _ h, key _ _ _ _ h1, hi]
    · by_cases c2 : c < 530432
      · rw [_fd_cursor_set_indirect fd c (by omega) c2] at h
        rw [_fd_cursor_set_indirect fd1 c (by omega) c2] at h1
        rw [key _ _ _ _ h, key _ _ _ _ h1, hi]
      · rw [_fd_cursor_set_double fd c (by omega) c0] at h
        rw [_fd_cursor_set_double fd1 c (by omega) c0] at h1
        rw [key _ _ _ _ h, key _ _ _ _ h1, hi]
  · rw [_fd_cursor_set_none fd c (by omega)] at h
    exact Option.noConfusion h

/-- The function `fs_read` in two sound states that show the same files: the same count
and the same bytes, and states with the same skeleton, blocks and inode tables
as before. -/
theorem fs_read_same (fs fs1 : FS_t) (hs : fs_sound fs)
    (hf : same_files fs fs1) (fdi : Int) (dest : block_t) (n : Nat) (r : Int) (out : block_t)
    (s : FS_t) (h : fs_read fs fdi dest n = some (r, out, s)) :
    ∃ s1, fs_read fs1 fdi dest n = some (r, out, s1) ∧ same_skeleton s s1 ∧
      keeps_files fs s ∧ keeps_files fs1 s1 := by
  have hsk := hf.skeleton
  cases hfd : _fd_read fs fdi with
  | none =>
    rw [fs_read_of_fd_read_none fs fdi dest n hfd] at h
    obtain ⟨e1, e23⟩ := Prod.mk.inj (Option.some.inj h)
    obtain ⟨e2, e3⟩ := Prod.mk.inj e23
    subst e1 e2 e3
    refine ⟨fs1, ?_, hsk, ⟨rfl, rfl⟩, rfl, rfl⟩
    exact fs_read_of_fd_read_none fs1 fdi dest n (by rw [_fd_read_same fs fs1 hsk]; exact hfd)
  | some fd =>
  have hfd1 : _fd_read fs1 fdi = some fd := by
    rw [_fd_read_same fs fs1 hsk]
    exact hfd
  have hg := fd_good_of_read fs hs fdi fd hfd
  have hgi := hs.inodes _ hg.inode
  have hino : _inode_read fs fd.inum = some (fs.inode_table fd.inum) :=
    (inode_allocated_read fs _ _).2 ⟨hg.inode, rfl⟩
  have hino1 : _inode_read fs1 fd.inum = some (fs.inode_table fd.inum) := by
    rw [_inode_read_same fs fs1 hsk]
    exact hino
  have hsz : (fs.inode_table fd.inum).file_size < 268965888 :=
    Nat.lt_of_le_of_lt hgi.size_le (by decide)
  obtain ⟨o0, t0, g0, a1, a2, a3, a4, a5, a6, a7, a8⟩ :=
    fs_read_spec fs fdi fd _ dest n hfd hino hg.canonical hsz hgi.ptrs
  obtain ⟨o1, t1, g1, b1, b2, b3, b4, b5, b6, b7, b8⟩ :=
    fs_read_spec fs1 fdi fd _ dest n hfd1 hino1 hg.canonical hsz hgi.ptrs
  rw [a1] at h
  obtain ⟨e1, e23⟩ := Prod.mk.inj (Option.some.inj h)
  obtain ⟨e2, e3⟩ := Prod.mk.inj e23
  subst e1 e2 e3
  have eo : o1 = o0 := by
    funext j
    rw [a8 j, b8 j]
    by_cases c : j < min n ((fs.inode_table fd.inum).file_size - _fd_cursor_get fd)
    · rw [if_pos c, if_pos c]
      exact hf.bytes fd.inum hg.inode hg.regular _ (by omega)
    · rw [if_neg c, if_neg c]
  have eg : g1 = g0 := by
    apply fd_canonical_unique g0 g1 (_fd_cursor_get g0) a5
    · have : _fd_cursor_get g1 = _fd_cursor_get g0 := by rw [a4, b4]
      rw [← this]
      exact b5
    · rw [a3, b3]
  obtain ⟨_, _, _, r0⟩ := _fd_read_some t0 fdi g0 a2
  obtain ⟨_, _, _, r1⟩ := _fd_read_some t1 fdi g1 b2
  have st0 : t0 = fs.set_fd fdi.toNat g0 := by
    rcases fs_read_state fs fdi dest n _ _ _ a1 with e | ⟨fdx, e⟩
    · have : g0 = fs.BlockStore_fd.records fdi.toNat := by rw [r0, e]
      rw [this, set_fd_self]
      exact e
    · have : g0 = fdx := by
        rw [r0, e]
        show (if fdi.toNat = fdi.toNat then fdx else _) = fdx
        rw [if_pos rfl]
      rw [this]
      exact e
  have st1 : t1 = fs1.set_fd fdi.toNat g1 := by
    rcases fs_read_state fs1 fdi dest n _ _ _ b1 with e | ⟨fdx, e⟩
    · have : g1 = fs1.BlockStore_fd.records fdi.toNat := by rw [r1, e]
      rw [this, set_fd_self]
      exact e
    · have : g1 = fdx := by
        rw [r1, e]
        show (if fdi.toNat = fdi.toNat then fdx else _) = fdx
        rw [if_pos rfl]
      rw [this]
      exact e
  refine ⟨t1, ?_, ?_, ⟨a6, a7⟩, b6, b7⟩
  · rw [b1, eo]
  · rw [st0, st1, eg]
    exact same_skeleton_set_fd fs fs1 hsk _ _

/-! ## `_inode_add_owned_block` in two states with the same skeleton -/

theorem same_skeleton_with_whole (fs fs1 : FS_t) (h : same_skeleton fs fs1)
    (bs bs1 : block_store_t) (h0 : bs1.blocks 0 = bs.blocks 0)
    (hK : ∀ b, 65528 ≤ b → bs1.blocks b = bs.blocks b) :
    same_skeleton { fs with BlockStore_whole := bs } { fs1 with BlockStore_whole := bs1 } :=
  ⟨h.table, h.fds, h0, hK⟩

theorem same_skeleton_set_inode (fs fs1 : FS_t) (h : same_skeleton fs fs1) (i : Nat)
    (ino : inode_t) : same_skeleton (fs.set_inode i ino) (fs1.set_inode i ino) := by
  refine ⟨?_, h.fds, h.block0, h.fbm⟩
  show (fun k => if k = i then ino else fs1.inode_table k) = _
  rw [h.table]
  rfl

theorem same_skeleton_set_block (fs fs1 : FS_t) (h : same_skeleton fs fs1) (W W1 : Nat)
    (c c1 : block_t) (hW : 0 < W ∧ W < 65528) (hW1 : 0 < W1 ∧ W1 < 65528) :
    same_skeleton (fs.set_block W c) (fs1.set_block W1 c1) := by
  refine ⟨h.table, h.fds, ?_, ?_⟩
  · show (if 0 = W1 then c1 else fs1.BlockStore_whole.blocks 0) =
      (if 0 = W then c else fs.BlockStore_whole.blocks 0)
    rw [if_neg (by omega), if_neg (by omega)]
    exact h.block0
  · intro b hb
    show (if b = W1 then c1 else fs1.BlockStore_whole.blocks b) =
      (if b = W then c else fs.BlockStore_whole.blocks b)
    rw [if_neg (by omega), if_neg (by omega)]
    exact h.fbm b hb

theorem release_if_same (bs bs1 : block_store_t) (x : Nat)
    (h0 : bs1.blocks 0 = bs.blocks 0)
    (h : ∀ b, 65528 ≤ b → bs1.blocks b = bs.blocks b) :
    (if x ≠ SIZE_MAX then block_store_release bs1 x else bs1).blocks 0 =
      (if x ≠ SIZE_MAX then block_store_release bs x else bs).blocks 0 ∧
    ∀ b, 65528 ≤ b → (if x ≠ SIZE_MAX then block_store_release bs1 x else bs1).blocks b =
      (if x ≠ SIZE_MAX then block_store_release bs x else bs).blocks b := by
  by_cases c : x ≠ SIZE_MAX
  · rw [if_pos c, if_pos c]
    exact block_store_release_same bs bs1 x h0 h
  · rw [if_neg c, if_neg c]
    exact ⟨h0, h⟩

/-- The exit of `_inode_add_owned_block` through `err2` in two states with the
same skeleton. -/
theorem err2_same (c : Int) (fsx fsy : FS_t) (inodex : inode_t) (d i p : Nat)
    (h : same_skeleton fsx fsy) :
    ∃ s t, _inode_add_owned_block_err2 c fsx inodex d i p = (c, s, inodex) ∧
      _inode_add_owned_block_err2 c fsy inodex d i p = (c, t, inodex) ∧ same_skeleton s t := by
  unfold _inode_add_owned_block_err2
  dsimp only
  refine ⟨_, _, rfl, rfl, h.table, h.fds, ?_, ?_⟩
  · obtain ⟨a0, aK⟩ := release_if_same _ _ d h.block0 h.fbm
    obtain ⟨b0, bK⟩ := release_if_same _ _ i a0 aK
    exact (release_if_same _ _ p b0 bK).1
  · obtain ⟨a0, aK⟩ := release_if_same _ _ d h.block0 h.fbm
    obtain ⟨b0, bK⟩ := release_if_same _ _ i a0 aK
    exact (release_if_same _ _ p b0 bK).2

/-- The double-indirect branch of `_inode_add_owned_block`, from the read of
the double-indirect block on, in two states with the same skeleton: both runs
store the pointer, or both leave through `err2`. -/
theorem dbl1_same (fsx fsz : FS_t) (hsk : same_skeleton fsx fsz) (inode : inode_t)
    (index a c : Nat) (hd : inode.data_double_indirect < 65536)
    (hcell : index % 512 ≠ 0 →
      (0 < ind_get (fsx.BlockStore_whole.blocks inode.data_double_indirect) (index / 512) ∧
        ind_get (fsx.BlockStore_whole.blocks inode.data_double_indirect) (index / 512) < 65528) ∧
      (0 < ind_get (fsz.BlockStore_whole.blocks inode.data_double_indirect) (index / 512) ∧
        ind_get (fsz.BlockStore_whole.blocks inode.data_double_indirect) (index / 512) < 65528))
    (hdbl : index % 512 = 0 →
      0 < inode.data_double_indirect ∧ inode.data_double_indirect < 65528)
    (hresx : reserved_used fsx.BlockStore_whole) :
    (∃ s t, _inode_add_owned_block_dbl1 fsx inode index a c = ((c : Int), s, inode) ∧
      _inode_add_owned_block_dbl1 fsz inode index a c = ((c : Int), t, inode) ∧
      same_skeleton s t) ∨
    (_inode_add_owned_block_dbl1 fsx inode index a c =
        _inode_add_owned_block_err2 (-2) fsx inode a SIZE_MAX c ∧
      _inode_add_owned_block_dbl1 fsz inode index a c =
        _inode_add_owned_block_err2 (-2) fsz inode a SIZE_MAX c) := by
  rcases _inode_add_owned_block_dbl1_eq fsx inode index a c hd with
    ⟨hc, he⟩ | ⟨hc, hal, he⟩ | ⟨hc, ni, bs1, hni, hal, he⟩
  · rcases _inode_add_owned_block_dbl1_eq fsz inode index a c hd with
      ⟨_, hez⟩ | ⟨hcz, _, _⟩ | ⟨hcz, _⟩
    · left
      obtain ⟨r1, r2⟩ := hcell hc
      exact ⟨_, _, he, hez, same_skeleton_set_block fsx fsz hsk _ _ _ _ r1 r2⟩
    · exact absurd hcz hc
    · exact absurd hcz hc
  · obtain ⟨bz, halz, _, _, _⟩ := block_store_allocate_same fsx.BlockStore_whole
      fsz.BlockStore_whole _ _ hsk.block0 hsk.fbm hal
    rcases _inode_add_owned_block_dbl1_eq fsz inode index a c hd with
      ⟨hcz, _⟩ | ⟨_, _, hez⟩ | ⟨_, ni, bs1, hni, hal2, _⟩
    · exact absurd hc hcz
    · right
      exact ⟨he, hez⟩
    · rw [halz] at hal2
      exact absurd (Prod.mk.inj hal2).1.symm hni
  · obtain ⟨bz, halz, c0, cK, _⟩ := block_store_allocate_same fsx.BlockStore_whole
      fsz.BlockStore_whole _ _ hsk.block0 hsk.fbm hal
    rcases _inode_add_owned_block_dbl1_eq fsz inode index a c hd with
      ⟨hcz, _⟩ | ⟨_, hal2, _⟩ | ⟨_, ni2, bs2, hni2, hal2, hez⟩
    · exact absurd hc hcz
    · rw [halz] at hal2
      exact absurd (Prod.mk.inj hal2).1 hni
    · rw [halz] at hal2
      obtain ⟨e1, e2⟩ := Prod.mk.inj hal2
      subst e1 e2
      left
      obtain ⟨hlt, hfree, _, _⟩ := block_store_allocate_used _ _ _ hal hni
      have rni := allocated_in_range _ _ hresx hlt hfree
      refine ⟨_, _, he, hez, ?_⟩
      exact same_skeleton_set_block _ _
        (same_skeleton_set_block _ _ (same_skeleton_with_whole fsx fsz hsk bs1 bz c0 cK)
          _ _ _ _ (hdbl hc) (hdbl hc)) _ _ _ _ rni rni

/-- The function `_inode_add_owned_block` in two states with the same
skeleton in which the pointer tree of the file is sound: the same return
value, the same inode, and states with the same skeleton. -/
theorem _inode_add_owned_block_same (fs fsy : FS_t) (inode : inode_t) (nb : Nat)
    (r : Int) (fs1 : FS_t) (inode1 : inode_t) (ry : Int) (fsy1 : FS_t) (inodey1 : inode_t)
    (hsk : same_skeleton fs fsy)
    (hnb : ceil_blocks inode.file_size = nb) (hinum : inode.inum < 256)
    (hp : inode_ptrs_ok inode)
    (htree : tree_ok fs.BlockStore_whole inode nb)
    (htreey : tree_ok fsy.BlockStore_whole inode nb)
    (hres : reserved_used fs.BlockStore_whole) (hresy : reserved_used fsy.BlockStore_whole)
    (h : _inode_add_owned_block fs inode = (r, fs1, inode1))
    (hy : _inode_add_owned_block fsy inode = (ry, fsy1, inodey1)) :
    ry = r ∧ inodey1 = inode1 ∧ same_skeleton fs1 fsy1 := by
  have fin_err : ∀ (c : Int) (fsx fsz : FS_t) (inodex : inode_t) (d i p : Nat),
      same_skeleton fsx fsz →
      _inode_add_owned_block_err2 c fsx inodex d i p = (r, fs1, inode1) →
      _inode_add_owned_block_err2 c fsz inodex d i p = (ry, fsy1, inodey1) →
      ry = r ∧ inodey1 = inode1 ∧ same_skeleton fs1 fsy1 := by
    intro c fsx fsz inodex d i p hs e1 e2
    obtain ⟨s, t, f1, f2, hst⟩ := err2_same c fsx fsz inodex d i p hs
    rw [f1] at e1
    rw [f2] at e2
    simp only [Prod.mk.injEq] at e1 e2
    obtain ⟨a1, a2, a3⟩ := e1
    obtain ⟨b1, b2, b3⟩ := e2
    subst a1 a2 a3 b1 b2 b3
    exact ⟨rfl, rfl, hst⟩
  have fin_new : ∀ (new : Nat) (S T : FS_t) (I : inode_t), same_skeleton S T →
      ((new : Int), S, I) = (r, fs1, inode1) → ((new : Int), T, I) = (ry, fsy1, inodey1) →
      ry = r ∧ inodey1 = inode1 ∧ same_skeleton fs1 fsy1 := by
    intro new S T I hs e1 e2
    simp only [Prod.mk.injEq] at e1 e2
    obtain ⟨a1, a2, a3⟩ := e1
    obtain ⟨b1, b2, b3⟩ := e2
    subst a1 a2 a3 b2 b3
    exact ⟨b1.symm, rfl, hs⟩
  unfold _inode_add_owned_block at h hy
  cases hal1 : block_store_allocate fs.BlockStore_whole with
  | mk new bsa =>
  obtain ⟨bsay, hal1y, a0, aK, _⟩ := block_store_allocate_same fs.BlockStore_whole
    fsy.BlockStore_whole new bsa hsk.block0 hsk.fbm hal1
  rw [hal1] at h
  rw [hal1y] at hy
  dsimp only at h hy
  have ska := same_skeleton_with_whole fs fsy hsk bsa bsay a0 aK
  by_cases hnew : new = SIZE_MAX
  · rw [if_pos hnew] at h hy
    exact fin_err _ _ _ _ _ _ _ ska h hy
  rw [if_neg hnew, hnb] at h hy
  obtain ⟨hlt1, hfree1, hused1, hsame1⟩ := block_store_allocate_used _ _ _ hal1 hnew
  obtain ⟨_, _, hused1y, hsame1y⟩ := block_store_allocate_used _ _ _ hal1y hnew
  have hresa : reserved_used bsa :=
    reserved_used_mono _ bsa hres (fun b hb hu => (hused1 b hb).2 (Or.inl hu))
  have hresay : reserved_used bsay :=
    reserved_used_mono _ bsay hresy (fun b hb hu => (hused1y b hb).2 (Or.inl hu))
  by_cases h6 : nb < FD_DIRECT_MAX_PTRS
  · rw [if_pos h6, _BS_INODE_WRITE_of_lt _ _ _ hinum] at h hy
    exact fin_new new _ _ _ (same_skeleton_set_inode _ _ ska _ _) h hy
  rw [if_neg h6] at h hy
  have h6b : 6 ≤ nb := Nat.le_of_not_lt h6
  by_cases h518 : nb < FD_INDIRECT_MAX_PTRS
  · rw [if_pos h518] at h hy
    have h518b : nb < 518 := h518
    by_cases hi0 : nb - FD_DIRECT_MAX_PTRS = 0
    · rw [if_pos hi0] at h hy
      cases hal2 : block_store_allocate bsa with
      | mk ni bsb =>
      obtain ⟨bsby, hal2y, b0, bK, _⟩ := block_store_allocate_same bsa bsay ni bsb a0 aK hal2
      rw [hal2] at h
      rw [hal2y] at hy
      dsimp only at h hy
      have skb := same_skeleton_with_whole fs fsy hsk bsb bsby b0 bK
      by_cases hni : ni = SIZE_MAX
      · rw [if_pos hni] at h hy
        exact fin_err _ _ _ _ _ _ _ skb h hy
      · rw [if_neg hni] at h hy
        obtain ⟨hlt2, hfree2, _, _⟩ := block_store_allocate_used _ _ _ hal2 hni
        have rni := allocated_in_range _ _ hresa hlt2 hfree2
        rw [Nat.mod_eq_of_lt hlt2, _BS_INODE_WRITE_of_lt _ _ _ hinum] at h hy
        dsimp only at h hy
        rw [_inode_add_owned_block_ind_eq _ _ _ _ _ (by show ni < 65536; exact hlt2)] at h hy
        exact fin_new new _ _ _
          (same_skeleton_set_block _ _ (same_skeleton_set_inode _ _ skb _ _) _ _ _ _ rni rni)
          h hy
    · rw [if_neg hi0] at h hy
      have hnb7 : 6 < nb := by
        have : nb - 6 ≠ 0 := hi0
        omega
      rw [_inode_add_owned_block_ind_eq _ _ _ _ _ hp.2.1] at h hy
      have rW := htree.range tree_slot.ind hnb7
      exact fin_new new _ _ _
        (same_skeleton_set_block _ _ ska _ _ _ _ ⟨rW.1, rW.2.1⟩ ⟨rW.1, rW.2.1⟩) h hy
  rw [if_neg h518] at h hy
  have h518b : 518 ≤ nb := Nat.le_of_not_lt h518
  by_cases hmax : nb < FD_DOUBLE_INDIRECT_MAX_PTRS
  swap
  · rw [if_neg hmax] at h hy
    exact fin_err _ _ _ _ _ _ _ ska h hy
  rw [if_pos hmax] at h hy
  by_cases hd0 : nb - FD_INDIRECT_MAX_PTRS = 0
  · have hnb518 : nb = 518 := by
      have : nb - 518 = 0 := hd0
      omega
    rw [if_pos hd0] at h hy
    cases hal2 : block_store_allocate bsa with
    | mk nd bsb =>
    obtain ⟨bsby, hal2y, b0, bK, _⟩ := block_store_allocate_same bsa bsay nd bsb a0 aK hal2
    rw [hal2] at h
    rw [hal2y] at hy
    dsimp only at h hy
    have skb := same_skeleton_with_whole fs fsy hsk bsb bsby b0 bK
    by_cases hnd : nd = SIZE_MAX
    · rw [if_pos hnd] at h hy
      exact fin_err _ _ _ _ _ _ _ skb h hy
    · rw [if_neg hnd] at h hy
      obtain ⟨hlt2, hfree2, hused2, _⟩ := block_store_allocate_used _ _ _ hal2 hnd
      have rnd := allocated_in_range _ _ hresa hlt2 hfree2
      have hresb : reserved_used bsb :=
        reserved_used_mono _ bsb hresa (fun b hb hu => (hused2 b hb).2 (Or.inl hu))
      rw [Nat.mod_eq_of_lt hlt2, _BS_INODE_WRITE_of_lt _ _ _ hinum] at h hy
      dsimp only at h hy
      rcases dbl1_same
          (({ fs with BlockStore_whole := bsb } : FS_t).set_inode inode.inum
            { inode with data_double_indirect := nd })
          (({ fsy with BlockStore_whole := bsby } : FS_t).set_inode inode.inum
            { inode with data_double_indirect := nd })
          (same_skeleton_set_inode _ _ skb _ _)
          { inode with data_double_indirect := nd } (nb - FD_INDIRECT_MAX_PTRS) nd new
          (by show nd < 65536; exact hlt2)
          (fun hc => by rw [hd0] at hc; exact absurd rfl hc)
          (fun _ => rnd) hresb with ⟨s, t, e1, e2, hst⟩ | ⟨e1, e2⟩
      · rw [e1] at h
        rw [e2] at hy
        exact fin_new new _ _ _ hst h hy
      · rw [e1] at h
        rw [e2] at hy
        exact fin_err _ _ _ _ _ _ _ (same_skeleton_set_inode _ _ skb _ _) h hy
  · rw [if_neg hd0] at h hy
    have hnb519 : 518 < nb := by
      have : nb - 518 ≠ 0 := hd0
      omega
    have rD := htree.range tree_slot.dbl hnb519
    have hdlt : inode.data_double_indirect < 65528 := rD.2.1
    rcases dbl1_same ({ fs with BlockStore_whole := bsa } : FS_t)
        ({ fsy with BlockStore_whole := bsay } : FS_t) ska inode (nb - FD_INDIRECT_MAX_PTRS)
        SIZE_MAX new hp.2.2
        (fun hc => by
          have hl : slot_live nb (tree_slot.ind2 ((nb - 518) / 512)) := by
            show 518 + 512 * ((nb - 518) / 512) < nb
            have hc2 : (nb - 518) % 512 ≠ 0 := hc
            omega
          have r1 := htree.range _ hl
          have r2 := htreey.range _ hl
          have e1 : bsa.blocks inode.data_double_indirect =
              fs.BlockStore_whole.blocks inode.data_double_indirect := hsame1 _ hdlt
          have e2 : bsay.blocks inode.data_double_indirect =
              fsy.BlockStore_whole.blocks inode.data_double_indirect := hsame1y _ hdlt
          show (0 < ind_get (bsa.blocks inode.data_double_indirect) ((nb - 518) / 512) ∧
            ind_get (bsa.blocks inode.data_double_indirect) ((nb - 518) / 512) < 65528) ∧
            (0 < ind_get (bsay.blocks inode.data_double_indirect) ((nb - 518) / 512) ∧
            ind_get (bsay.blocks inode.data_double_indirect) ((nb - 518) / 512) < 65528)
          rw [e1, e2]
          exact ⟨⟨r1.1, r1.2.1⟩, r2.1, r2.2.1⟩)
        (fun _ => ⟨rD.1, rD.2.1⟩) hresa with ⟨s, t, e1, e2, hst⟩ | ⟨e1, e2⟩
    · rw [e1] at h
      rw [e2] at hy
      exact fin_new new _ _ _ hst h hy
    · rw [e1] at h
      rw [e2] at hy
      exact fin_err _ _ _ _ _ _ _ ska h hy

/-! ## The loop of `fs_write` in two states with the same skeleton -/

/-- The function `fs_write_append` in closed form, given the result of
`_inode_add_owned_block`. -/
theorem fs_write_append_eq (M : Nat) (st : fs_write_state) (r : Int) (fs1 : FS_t)
    (inode1 : inode_t) (hr : _inode_add_owned_block st.fs st.inode = (r, fs1, inode1)) :
    fs_write_append M st =
      if _cursor_in_owned_block st.inode st.fd = false then
        if st.new_ptrs.length ≥ M then none
        else if r = -1 then some (Sum.inl (false, { st with fs := fs1, inode := inode1 }))
        else if r = -2 then some (Sum.inl (true, { st with fs := fs1, inode := inode1 }))
        else some (Sum.inr { st with fs := fs1, inode := inode1,
                                     new_ptrs := st.new_ptrs ++ [r.toNat] })
      else some (Sum.inr st) := by
  unfold fs_write_append
  rw [hr]

/-- The function `fs_write_append` in two loop states that differ only beyond
the skeleton and in which the pointer tree of the file is sound. -/
theorem fs_write_append_same (M : Nat) (st sty : fs_write_state) (nb : Nat)
    (hrel : same_write_state st sty)
    (hnb : ceil_blocks st.inode.file_size = nb) (hinum : st.inode.inum < 256)
    (hp : inode_ptrs_ok st.inode)
    (htree : tree_ok st.fs.BlockStore_whole st.inode nb)
    (htreey : tree_ok sty.fs.BlockStore_whole sty.inode nb)
    (hres : reserved_used st.fs.BlockStore_whole)
    (hresy : reserved_used sty.fs.BlockStore_whole) :
    append_rel (fs_write_append M st) (fs_write_append M sty) := by
  obtain ⟨hsk, e1, e2, e3, e4, e5, e6⟩ := hrel
  obtain ⟨r, fs1, inode1, hr⟩ := triple_eta (_inode_add_owned_block st.fs st.inode)
  obtain ⟨ry, fsy1, inodey1, hry⟩ := triple_eta (_inode_add_owned_block sty.fs sty.inode)
  rw [fs_write_append_eq M st r fs1 inode1 hr, fs_write_append_eq M sty ry fsy1 inodey1 hry]
  rw [e1] at hry htreey
  obtain ⟨a1, a2, a3⟩ := _inode_add_owned_block_same st.fs sty.fs st.inode nb r fs1 inode1 ry fsy1
    inodey1 hsk hnb hinum hp htree htreey hres hresy hr hry
  rw [e1, e2, e6, a1, a2]
  by_cases hown : _cursor_in_owned_block st.inode st.fd = false
  · rw [if_pos hown, if_pos hown]
    by_cases hlen : st.new_ptrs.length ≥ M
    · rw [if_pos hlen, if_pos hlen]
      trivial
    · rw [if_neg hlen, if_neg hlen]
      by_cases h1 : r = -1
      · rw [if_pos h1, if_pos h1]
        exact ⟨rfl, a3, rfl, rfl, e3, e4, e5, rfl⟩
      · rw [if_neg h1, if_neg h1]
        by_cases h2 : r = -2
        · rw [if_pos h2, if_pos h2]
          exact ⟨rfl, a3, rfl, rfl, e3, e4, e5, rfl⟩
        · rw [if_neg h2, if_neg h2]
          exact ⟨a3, rfl, rfl, e3, e4, e5, rfl⟩
  · rw [if_neg hown, if_neg hown]
    exact ⟨hsk, e1, e2, e3, e4, e5, e6⟩

/-- The second half of an iteration of the loop of `fs_write` at the head of
the loop, in closed form: the chunk goes to a data block `W` of the file, the
cursor moves on by the length `nw` of the chunk, and the invariant holds
again. -/
theorem fs_write_chunk_form (src : block_t) (fs0 : FS_t) (inode0 : inode_t) (c0 n0 NB : Nat)
    (st : fs_write_state) (hinv : write_inv src fs0 inode0 c0 n0 NB st) (hn : 0 < st.nbyte)
    (hidx : st.cursor / 1024 < NB)
    (hup : NB ≤ (st.inode.file_size + 1023) / 1024 ∨ NB = st.cursor / 1024 + 1) :
    ∃ (W : Nat) (chunk : block_t) (nw : Nat) (fd1 : fileDescriptor_t) (i1 : inode_t),
      0 < W ∧ W < 65528 ∧ nw = min st.nbyte (1024 - st.cursor % 1024) ∧
      _fd_cursor_set st.fd (st.cursor + nw) = some fd1 ∧
      i1 = (if st.cursor + nw > st.inode.file_size
        then { st.inode with file_size := st.cursor + nw } else st.inode) ∧
      fs_write_chunk src st = Sum.inr
        { fs := st.fs.set_block W chunk, inode := i1, fd := fd1, cursor := st.cursor + nw,
          src_pos := st.src_pos + nw, nbyte := st.nbyte - nw, new_ptrs := st.new_ptrs } ∧
      write_inv src fs0 inode0 c0 n0 ((i1.file_size + 1023) / 1024)
        { fs := st.fs.set_block W chunk, inode := i1, fd := fd1, cursor := st.cursor + nw,
          src_pos := st.src_pos + nw, nbyte := st.nbyte - nw, new_ptrs := st.new_ptrs } ∧
      st.nbyte - nw < st.nbyte := by
  obtain ⟨b1, b2, b3, b4, b5, b6⟩ := write_inv_bounds _ _ _ _ _ _ _ hinv
  have hcl : st.cursor < 268965888 := by omega
  obtain ⟨fdx, hx1, _, _, hx4, _, _, _⟩ := _fd_cursor_set_spec st.fd st.cursor hcl
  rw [hinv.can] at hx1
  have hfdx : fdx = st.fd := (Option.some.inj hx1).symm
  rw [hfdx] at hx4
  obtain ⟨nw, hnwdef⟩ : ∃ nw, nw = min st.nbyte (1024 - st.cursor % 1024) := ⟨_, rfl⟩
  have hnw1 : 0 < nw := by omega
  have hnw2 : nw ≤ st.nbyte := by omega
  have hnw3 : nw ≤ 1024 - st.cursor % 1024 := by omega
  have hnw : min st.nbyte ((BLOCK_SIZE_BYTES + 2 ^ 32 - st.fd.locate_offset) % 2 ^ 32) = nw := by
    rw [hx4, hnwdef]
    show min st.nbyte ((1024 + 4294967296 - st.cursor % 1024) % 4294967296) = _
    omega
  have hc1 : st.cursor + nw < 268965888 := by omega
  obtain ⟨W, hW⟩ : ∃ W, W = file_block st.fs.BlockStore_whole st.inode (st.cursor / 1024) :=
    ⟨_, rfl⟩
  have hWr := hinv.tree.range (tree_slot.data (st.cursor / 1024)) hidx
  have hWr1 : 0 < W ∧ W < 65528 := by
    rw [hW]
    exact ⟨hWr.1, hWr.2.1⟩
  have hread : _fd_data_block_read st.fs st.inode st.fd =
      some (st.fs.BlockStore_whole.blocks W) := by
    rw [hW]
    exact _fd_data_block_read_at st.fs st.inode st.fd st.fd st.cursor hinv.ptrs hinv.can
  have hwrite : ∀ c, _fd_data_block_write st.fs st.inode st.fd c =
      (true, st.fs.set_block W c) := by
    intro c
    rw [hW]
    exact _fd_data_block_write_at st.fs st.inode st.fd st.fd st.cursor c hinv.ptrs hinv.can
  obtain ⟨fd1, hset, hfdn, _, _, _, hcan1, _⟩ := _fd_cursor_set_spec st.fd (st.cursor + nw) hc1
  obtain ⟨chunk, hchunk⟩ : ∃ chunk : block_t, chunk =
      (if nw < 1024 then
        (fun o => if st.cursor % 1024 ≤ o ∧ o < st.cursor % 1024 + nw
          then src (st.src_pos + (o - st.cursor % 1024)) else st.fs.BlockStore_whole.blocks W o)
      else (fun o => src (st.src_pos + o))) := ⟨_, rfl⟩
  obtain ⟨i1, hi1, hsz, hinum1, hty, hmap, hlc, hdd, hdi, hddi⟩ :=
    inode_grow_fields st.inode (st.cursor + nw)
  have heq := fs_write_chunk_eq src st _ chunk W nw _ fd1 i1 hx4 hnw hread hwrite hset hchunk hi1
  have hw := write_inv_chunk src fs0 inode0 c0 n0 NB st W nw chunk i1 fd1 hinv hidx hup hnw1 hnw2
    hnw3 hW
    (fun o ho => fs_write_chunk_bytes src _ chunk st.src_pos (st.cursor % 1024) nw
      (Nat.mod_lt _ (by decide)) hnw3 hchunk o ho)
    hcan1 hfdn hsz hinum1 ⟨hty, hmap, hlc⟩ hdd hdi hddi
  refine ⟨W, chunk, nw, fd1, i1, hWr1.1, hWr1.2, hnwdef, hset, hi1, heq, ?_, ?_⟩
  · rw [hw.2]
    exact hw.1
  · omega

/-- The second half of an iteration of the loop of `fs_write` in two loop
states that differ only beyond the skeleton: both go on to the next
iteration, in states that differ only beyond the skeleton. -/
theorem fs_write_chunk_same (src : block_t) (fs0 fsy0 : FS_t) (inode0 : inode_t)
    (c0 n0 NB NBy : Nat) (st sty : fs_write_state) (hrel : same_write_state st sty)
    (hinv : write_inv src fs0 inode0 c0 n0 NB st)
    (hinvy : write_inv src fsy0 inode0 c0 n0 NBy sty) (hn : 0 < st.nbyte)
    (hidx : st.cursor / 1024 < NB)
    (hup : NB ≤ (st.inode.file_size + 1023) / 1024 ∨ NB = st.cursor / 1024 + 1)
    (hidxy : sty.cursor / 1024 < NBy)
    (hupy : NBy ≤ (sty.inode.file_size + 1023) / 1024 ∨ NBy = sty.cursor / 1024 + 1) :
    ∃ st2 sty2, fs_write_chunk src st = Sum.inr st2 ∧ fs_write_chunk src sty = Sum.inr sty2 ∧
      same_write_state st2 sty2 ∧
      write_inv src fs0 inode0 c0 n0 ((st2.inode.file_size + 1023) / 1024) st2 ∧
      write_inv src fsy0 inode0 c0 n0 ((sty2.inode.file_size + 1023) / 1024) sty2 ∧
      st2.nbyte < st.nbyte := by
  obtain ⟨hsk, e1, e2, e3, e4, e5, e6⟩ := hrel
  obtain ⟨W, chunk, nw, fd1, i1, hW0, hW1, hnw, hset, hi1, heq, hw, hlt⟩ :=
    fs_write_chunk_form src fs0 inode0 c0 n0 NB st hinv hn hidx hup
  obtain ⟨Wy, chunky, nwy, fdy1, iy1, hWy0, hWy1, hnwy, hsety, hiy1, heqy, hwy, _⟩ :=
    fs_write_chunk_form src fsy0 inode0 c0 n0 NBy sty hinvy (by rw [e5]; exact hn) hidxy hupy
  rw [e3, e5] at hnwy
  have en : nwy = nw := hnwy.trans hnw.symm
  rw [en] at hsety hiy1 heqy hwy
  rw [e2, e3, hset] at hsety
  have ef : fdy1 = fd1 := (Option.some.inj hsety).symm
  rw [e1, e3] at hiy1
  have ei : iy1 = i1 := hiy1.trans hi1.symm
  rw [ef, ei] at heqy hwy
  refine ⟨_, _, heq, heqy, ⟨same_skeleton_set_block _ _ hsk W Wy chunk chunky ⟨hW0, hW1⟩
    ⟨hWy0, hWy1⟩, rfl, rfl, ?_, ?_, ?_, e6⟩, hw, hwy, hlt⟩
  · show sty.cursor + nw = st.cursor + nw
    rw [e3]
  · show sty.src_pos + nw = st.src_pos + nw
    rw [e4]
  · show sty.nbyte - nw = st.nbyte - nw
    rw [e5]

/-- The loop of `fs_write` in two loop states that differ only beyond the
skeleton, both at the head of the loop with the invariant: both loops end
normally, in states that differ only beyond the skeleton. -/
theorem fs_write_loop_same (src : block_t) (M : Nat) (fs0 fsy0 : FS_t) (inode0 : inode_t)
    (c0 n0 : Nat) (hinum : inode0.inum < 256)
    (hM : ∀ k, (inode0.file_size + 1023) / 1024 ≤ k → k ≤ 65528 → k * 1024 < c0 + n0 →
      k - (inode0.file_size + 1023) / 1024 < M) :
    ∀ fuel st sty, st.nbyte ≤ fuel → same_write_state st sty →
      write_inv src fs0 inode0 c0 n0 ((st.inode.file_size + 1023) / 1024) st →
      write_inv src fsy0 inode0 c0 n0 ((sty.inode.file_size + 1023) / 1024) sty →
      ∃ st1 sty1, fs_write_loop src M fuel st = some (true, st1) ∧
        fs_write_loop src M fuel sty = some (true, sty1) ∧ same_write_state st1 sty1 ∧
        write_inv src fs0 inode0 c0 n0 ((st1.inode.file_size + 1023) / 1024) st1 ∧
        write_inv src fsy0 inode0 c0 n0 ((sty1.inode.file_size + 1023) / 1024) sty1 := by
  intro fuel
  induction fuel with
  | zero =>
    intro st sty hle hrel hinv hinvy
    unfold fs_write_loop
    rw [if_neg (by omega), if_neg (by rw [hrel.nbyte]; omega)]
    exact ⟨st, sty, rfl, rfl, hrel, hinv, hinvy⟩
  | succ fuel ih =>
    intro st sty hle hrel hinv hinvy
    unfold fs_write_loop
    by_cases hn : st.nbyte > 0
    · have hny : sty.nbyte > 0 := by rw [hrel.nbyte]; exact hn
      rw [if_pos hn, if_pos hny]
      obtain ⟨b1, b2, b3, b4, b5, b6⟩ := write_inv_bounds _ _ _ _ _ _ _ hinv
      have hceil : ceil_blocks st.inode.file_size = (st.inode.file_size + 1023) / 1024 :=
        ceil_blocks_eq _ (by
          have h53 : (2 : Nat) ^ 53 = 9007199254740992 := by norm_num
          rw [h53]
          omega)
      have hrelA := fs_write_append_same M st sty _ hrel hceil
        (by rw [hinv.inum]; exact hinum) hinv.ptrs hinv.tree
        (by
          have := hinvy.tree
          rw [hrel.inode] at this ⊢
          exact this) hinv.res hinvy.res
      rcases fs_write_append_step src M fs0 inode0 c0 n0 st hinum hM hinv hn with
        ⟨st1, e, hw, _, _⟩ | ⟨st1, NB, e, hw, hnb, hidx, hup⟩
      · rcases fs_write_append_step src M fsy0 inode0 c0 n0 sty hinum hM hinvy hny with
          ⟨sty1, ey, hwy, _, _⟩ | ⟨sty1, NBy, ey, hwy, hnby, hidxy, hupy⟩
        · rw [e, ey] at hrelA ⊢
          exact ⟨st1, sty1, rfl, rfl, hrelA.2, hw, hwy⟩
        · rw [e, ey] at hrelA
          exact absurd hrelA (fun h => h)
      · rcases fs_write_append_step src M fsy0 inode0 c0 n0 sty hinum hM hinvy hny with
          ⟨sty1, ey, hwy, _, _⟩ | ⟨sty1, NBy, ey, hwy, hnby, hidxy, hupy⟩
        · rw [e, ey] at hrelA
          exact absurd hrelA (fun h => h)
        · rw [e, ey] at hrelA ⊢
          dsimp only
          have hrel1 : same_write_state st1 sty1 := hrelA
          obtain ⟨st2, sty2, e2, ey2, hrel2, hw2, hwy2, hlt⟩ :=
            fs_write_chunk_same src fs0 fsy0 inode0 c0 n0 NB NBy st1 sty1 hrel1 hw hwy
              (by omega) hidx hup hidxy hupy
          rw [e2, ey2]
          dsimp only
          exact ih st2 sty2 (by omega) hrel2 hw2 hwy2
    · have hny : ¬ sty.nbyte > 0 := by rw [hrel.nbyte]; exact hn
      rw [if_neg hn, if_neg hny]
      exact ⟨st, sty, rfl, rfl, hrel, hinv, hinvy⟩

/-- The value and the state that `fs_write` gives on an open descriptor when
its loop ends normally in a state with the invariant. -/
theorem fs_write_of_loop (fs : FS_t) (fdi : Int) (fd : fileDescriptor_t) (inode : inode_t)
    (src : block_t) (n NB : Nat) (st : fs_write_state)
    (hfd : _fd_read fs fdi = some fd) (hino : _inode_read fs fd.inum = some inode)
    (hready : write_ready fs fd inode)
    (hl : fs_write_loop src (ceil_blocks n) n
      { fs := fs, inode := inode, fd := fd, cursor := _fd_cursor_get fd, src_pos := 0,
        nbyte := n, new_ptrs := [] } = some (true, st))
    (hw : write_inv src fs inode (_fd_cursor_get fd) n NB st) :
    fs_write fs fdi src n =
      some (((n - st.nbyte : Nat) : Int),
        (st.fs.set_fd fdi.toNat st.fd).set_inode inode.inum st.inode) := by
  obtain ⟨hr1, hr2, hr3, _⟩ := _fd_read_some fs fdi fd hfd
  obtain ⟨hi1, _, _⟩ := _inode_read_some fs fd.inum inode hino
  have hinum : inode.inum < 256 := by
    rw [hready.inum_eq]
    exact hi1
  have hslt : inode.file_size < 268965888 := hready.size_lt
  have hcle := hready.cursor_le
  have hok : FD_OK fdi = true := by
    unfold FD_OK
    simp only [decide_eq_true_eq]
    exact ⟨hr1, hr2⟩
  unfold fs_write
  rw [if_neg (by simpa using hok), hfd]
  dsimp only
  rw [hino]
  dsimp only
  have hne : ¬ _fd_cursor_get fd = SIZE_MAX := by
    unfold SIZE_MAX
    omega
  rw [if_neg hne, hl]
  dsimp only
  have htest : block_store_sub_test st.fs.BlockStore_fd fdi.toNat = true := by
    rw [hw.fds]
    exact hr3
  rw [_BS_FD_WRITE_of_test _ _ _ htest]
  dsimp only
  rw [_BS_INODE_WRITE_of_lt _ _ _ (by rw [hw.inum]; exact hinum), hw.inum]
  rfl

/-- The call `fs_write` in two sound states with the same skeleton: the same
return value, and states with the same skeleton.  The loops of the two calls
end in states `st` and `sty` that hold the invariant of the loop each for its
own call. -/
theorem fs_write_same (fs fsy : FS_t) (hs : fs_sound fs) (hsy : fs_sound fsy)
    (hsk : same_skeleton fs fsy) (fdi : Int) (fd : fileDescriptor_t) (src : block_t) (n : Nat)
    (hfd : _fd_read fs fdi = some fd) :
    ∃ st sty : fs_write_state,
      fs_write fs fdi src n =
        some (((n - st.nbyte : Nat) : Int),
          (st.fs.set_fd fdi.toNat st.fd).set_inode fd.inum st.inode) ∧
      fs_write fsy fdi src n =
        some (((n - st.nbyte : Nat) : Int),
          (sty.fs.set_fd fdi.toNat st.fd).set_inode fd.inum st.inode) ∧
      same_write_state st sty ∧
      write_inv src fs (fs.inode_table fd.inum) (_fd_cursor_get fd) n
        ((st.inode.file_size + 1023) / 1024) st ∧
      write_inv src fsy (fs.inode_table fd.inum) (_fd_cursor_get fd) n
        ((sty.inode.file_size + 1023) / 1024) sty := by
  have hfdy : _fd_read fsy fdi = some fd := by
    rw [_fd_read_same fs fsy hsk]
    exact hfd
  obtain ⟨hino, hready, hp⟩ := write_ready_of_sound fs hs fdi fd hfd
  obtain ⟨hinoy, hreadyy, hpy⟩ := write_ready_of_sound fsy hsy fdi fd hfdy
  rw [hsk.table] at hinoy hreadyy hpy
  obtain ⟨hi1, _, _⟩ := _inode_read_some fs fd.inum _ hino
  have hinum : (fs.inode_table fd.inum).inum < 256 := by
    rw [hready.inum_eq]
    exact hi1
  have hslt : (fs.inode_table fd.inum).file_size < 268965888 := hready.size_lt
  have hceil : ceil_blocks (fs.inode_table fd.inum).file_size =
      ((fs.inode_table fd.inum).file_size + 1023) / 1024 :=
    ceil_blocks_eq _ (by
      have h53 : (2 : Nat) ^ 53 = 9007199254740992 := by norm_num
      rw [h53]
      omega)
  have hstart := write_inv_start src fs fd (fs.inode_table fd.inum) n hready.fd_canonical
    hready.cursor_le hp hready.inum_eq.symm hready.reserved (by
      rw [← hceil]
      exact hready.tree)
  have hstarty := write_inv_start src fsy fd (fs.inode_table fd.inum) n hready.fd_canonical
    hready.cursor_le hp hready.inum_eq.symm hreadyy.reserved (by
      rw [← hceil]
      exact hreadyy.tree)
  obtain ⟨st, sty, hl, hly, hrel, hw, hwy⟩ := fs_write_loop_same src (ceil_blocks n) fs fsy
    (fs.inode_table fd.inum) (_fd_cursor_get fd) n hinum
    (fun k h1 h2 h3 => max_new_ptrs_suffices (fs.inode_table fd.inum).file_size
      (_fd_cursor_get fd) n hready.cursor_le k h1 h2 h3)
    n { fs := fs, inode := fs.inode_table fd.inum, fd := fd, cursor := _fd_cursor_get fd,
        src_pos := 0, nbyte := n, new_ptrs := [] }
    { fs := fsy, inode := fs.inode_table fd.inum, fd := fd, cursor := _fd_cursor_get fd,
        src_pos := 0, nbyte := n, new_ptrs := [] } (Nat.le_refl _)
    ⟨hsk, rfl, rfl, rfl, rfl, rfl, rfl⟩ hstart hstarty
  have e := fs_write_of_loop fs fdi fd _ src n _ st hfd hino hready hl hw
  have ey := fs_write_of_loop fsy fdi fd _ src n _ sty hfdy hinoy hreadyy hly hwy
  rw [hready.inum_eq] at e ey
  rw [hrel.nbyte, hrel.fd, hrel.inode] at ey
  exact ⟨st, sty, e, ey, hrel, hw, hwy⟩

/-! ## The calls of the facade in two states that show the same files -/

/-- The call `fs_write` in two sound states that show the same files: the same
return value, and states that show the same files. -/
theorem same_files_write (fs fsy : FS_t) (hs : fs_sound fs) (hsy : fs_sound fsy)
    (hf : same_files fs fsy) (fdi : Int) (src : block_t) (n : Nat) (r : Int) (fs1 : FS_t)
    (h : fs_write fs fdi src n = some (r, fs1)) :
    ∃ fsy1, fs_write fsy fdi src n = some (r, fsy1) ∧ same_files fs1 fsy1 := by
  have hsk := hf.skeleton
  cases hfd : _fd_read fs fdi with
  | none =>
    have hfdy : _fd_read fsy fdi = none := by
      rw [_fd_read_same fs fsy hsk]
      exact hfd
    rw [fs_write_of_fd_read_none fs fdi src n hfd] at h
    obtain ⟨e1, e2⟩ := Prod.mk.inj (Option.some.inj h)
    rw [← e1, ← e2]
    exact ⟨fsy, fs_write_of_fd_read_none fsy fdi src n hfdy, hf⟩
  | some fd =>
    have hfdy : _fd_read fsy fdi = some fd := by
      rw [_fd_read_same fs fsy hsk]
      exact hfd
    obtain ⟨st, sty, e, ey, hrel, hw, hwy⟩ := fs_write_same fs fsy hs hsy hsk fdi fd src n hfd
    have hg := fd_good_of_read fs hs fdi fd hfd
    have hgy := fd_good_of_read fsy hsy fdi fd hfdy
    obtain ⟨f0, f1, _, _, _, _⟩ := fs_write_frame fs hs fdi fd src n _ _ hfd e
    have hd := dir_load_write fs hs fdi fd src n _ _ hfd e
    have hdy := dir_load_write fsy hsy fdi fd src n _ _ hfdy ey
    have ho := file_byte_write_other fs hs fdi fd src n _ _ hfd e
    have hoy := file_byte_write_other fsy hsy fdi fd src n _ _ hfdy ey
    rw [e] at h
    obtain ⟨e1, e2⟩ := Prod.mk.inj (Option.some.inj h)
    rw [← e1, ← e2]
    refine ⟨_, ey, ⟨?_, ?_, ?_⟩⟩
    · exact same_skeleton_set_inode _ _ (same_skeleton_set_fd _ _ hrel.fs _ _) _ _
    · intro i
      rw [hdy i, hf.dirs i, hd i]
    · intro i ha ht p hp
      have ha0 : inode_allocated fs i := (inode_allocated_congr fs _ f0 i).1 ha
      by_cases hi : i = fd.inum
      · have htab : ((st.fs.set_fd fdi.toNat st.fd).set_inode fd.inum st.inode).inode_table i
            = st.inode := by
          show (if i = fd.inum then st.inode else _) = _
          rw [if_pos hi]
        rw [htab] at hp ⊢
        have hc := hw.content p hp
        have hcy := hwy.content p (by rw [hrel.inode]; exact hp)
        rw [hrel.inode, hrel.cursor] at hcy
        have hc1 : file_byte ((st.fs.set_fd fdi.toNat st.fd).set_inode fd.inum
            st.inode).BlockStore_whole st.inode p = _ := hc
        have hcy1 : file_byte ((sty.fs.set_fd fdi.toNat st.fd).set_inode fd.inum
            st.inode).BlockStore_whole st.inode p = _ := hcy
        rw [hc1, hcy1]
        by_cases hin : _fd_cursor_get fd ≤ p ∧ p < st.cursor
        · rw [if_pos hin, if_pos hin]
        · rw [if_neg hin, if_neg hin]
          have hsz := hw.size
          have hcl := hg.cursor_le
          exact hf.bytes fd.inum hg.inode hg.regular p (by omega)
      · have htab : ((st.fs.set_fd fdi.toNat st.fd).set_inode fd.inum st.inode).inode_table i
            = fs.inode_table i := f1 i hi
        rw [htab] at hp ht ⊢
        have hay : inode_allocated fsy i := (inode_allocated_same fs fsy hsk i).2 ha0
        have h1 := ho i ha0 hi ht p hp
        have h2 := hoy i hay hi (by rw [hsk.table]; exact ht) p (by rw [hsk.table]; exact hp)
        rw [hsk.table] at h2
        rw [h1, h2]
        exact hf.bytes i ha0 ht p hp

/-- A state with the blocks and the inode table of another state loads the same
directories. -/
theorem dir_load_keeps (fs s : FS_t) (h : keeps_files fs s) (i : Nat) :
    dir_load s i = dir_load fs i := by
  obtain ⟨w, t, f⟩ := fs
  obtain ⟨w1, t1, f1⟩ := s
  obtain ⟨h1, h2⟩ := h
  have e1 : w1 = w := h1
  have e2 : t1 = t := h2
  subst e1 e2
  rfl

theorem inode_allocated_keeps (fs s : FS_t) (h : keeps_files fs s) (i : Nat) :
    inode_allocated s i ↔ inode_allocated fs i :=
  inode_allocated_congr fs s (by rw [h.1]) i

/-- Calls that keep the blocks and the inode tables keep two states showing the
same files. -/
theorem same_files_keeps (fs fsy s sy : FS_t) (hf : same_files fs fsy)
    (hsk : same_skeleton s sy) (hk : keeps_files fs s) (hky : keeps_files fsy sy) :
    same_files s sy := by
  refine ⟨hsk, ?_, ?_⟩
  · intro i
    rw [dir_load_keeps fsy sy hky, dir_load_keeps fs s hk]
    exact hf.dirs i
  · intro i ha ht p hp
    rw [hk.2] at ht hp ⊢
    rw [hk.1, hky.1]
    exact hf.bytes i ((inode_allocated_keeps fs s hk i).1 ha) ht p hp

theorem same_files_seek (fs fsy : FS_t) (hf : same_files fs fsy) (fdi : Int) (offset : Int)
    (whence : Nat) (r : Int) (fs1 : FS_t) (h : fs_seek fs fdi offset whence = (r, fs1)) :
    ∃ fsy1, fs_seek fsy fdi offset whence = (r, fsy1) ∧ same_files fs1 fsy1 := by
  obtain ⟨s1, e, hsk, hk, hky⟩ := fs_seek_same fs fsy hf.skeleton fdi offset whence r fs1 h
  exact ⟨s1, e, same_files_keeps fs fsy fs1 s1 hf hsk hk hky⟩

theorem same_files_open (fs fsy : FS_t) (hf : same_files fs fsy) (path : List Nat)
    (r : Int) (fs1 : FS_t) (h : fs_open fs path = (r, fs1)) :
    ∃ fsy1, fs_open fsy path = (r, fsy1) ∧ same_files fs1 fsy1 := by
  obtain ⟨s1, e, hsk, hk, hky⟩ := fs_open_same fs fsy hf.skeleton path
    (_get_inum_same fs fsy hf.dirs path) r fs1 h
  exact ⟨s1, e, same_files_keeps fs fsy fs1 s1 hf hsk hk hky⟩

theorem same_files_read (fs fsy : FS_t) (hs : fs_sound fs) (hf : same_files fs fsy)
    (fdi : Int) (dest : block_t) (n : Nat) (r : Int) (out : block_t) (fs1 : FS_t)
    (h : fs_read fs fdi dest n = some (r, out, fs1)) :
    ∃ fsy1, fs_read fsy fdi dest n = some (r, out, fsy1) ∧ same_files fs1 fsy1 := by
  obtain ⟨s1, e, hsk, hk, hky⟩ := fs_read_same fs fsy hs hf fdi dest n r out fs1 h
  exact ⟨s1, e, same_files_keeps fs fsy fs1 s1 hf hsk hk hky⟩

/-! ## `fs_create` in two states with the same skeleton -/

theorem same_skeleton_set_BlockStore_inode (fs fsy : FS_t) (h : same_skeleton fs fsy)
    (X : sub_store_t inode_t) :
    same_skeleton (fs.set_BlockStore_inode X) (fsy.set_BlockStore_inode X) := by
  refine ⟨rfl, h.fds, rfl, ?_⟩
  intro b hb
  show (if b = 0 then X.fbm.data else fsy.BlockStore_whole.blocks b) =
    (if b = 0 then X.fbm.data else fs.BlockStore_whole.blocks b)
  rw [if_neg (by omega), if_neg (by omega)]
  exact h.fbm b hb

theorem same_skeleton_set_block_eq (fs fsy : FS_t) (h : same_skeleton fs fsy) (W : Nat)
    (c : block_t) : same_skeleton (fs.set_block W c) (fsy.set_block W c) := by
  refine ⟨h.table, h.fds, ?_, ?_⟩
  · show (if 0 = W then c else fsy.BlockStore_whole.blocks 0) =
      (if 0 = W then c else fs.BlockStore_whole.blocks 0)
    by_cases e : 0 = W
    · rw [if_pos e, if_pos e]
    · rw [if_neg e, if_neg e]
      exact h.block0
  · intro b hb
    show (if b = W then c else fsy.BlockStore_whole.blocks b) =
      (if b = W then c else fs.BlockStore_whole.blocks b)
    by_cases e : b = W
    · rw [if_pos e, if_pos e]
    · rw [if_neg e, if_neg e]
      exact h.fbm b hb

/-- Two calls that give results of the same value in states with the same
skeleton. -/
theorem pair_same (X Y : Int × FS_t) (r ry : Int) (s sy : FS_t) (hx : X = (r, s))
    (hy : Y = (ry, sy))
    (h : ∃ c a b, X = (c, a) ∧ Y = (c, b) ∧ same_skeleton a b) :
    ry = r ∧ same_skeleton s sy := by
  obtain ⟨c, a, b, e1, e2, hab⟩ := h
  rw [e1] at hx
  rw [e2] at hy
  obtain ⟨x1, x2⟩ := Prod.mk.inj hx
  obtain ⟨y1, y2⟩ := Prod.mk.inj hy
  rw [← x1, ← y1, ← x2, ← y2]
  exact ⟨rfl, hab⟩

theorem fs_create_err3_same (fs fsy : FS_t) (h : same_skeleton fs fsy) (b : Bool) (n : Nat) :
    ∃ c s t, fs_create_err3 fs b n = (c, s) ∧ fs_create_err3 fsy b n = (c, t) ∧
      same_skeleton s t := by
  unfold fs_create_err3
  refine ⟨_, _, _, rfl, rfl, ?_⟩
  cases b with
  | true =>
    rw [if_pos rfl, if_pos rfl]
    obtain ⟨a0, aK⟩ := block_store_release_same _ _ n h.block0 h.fbm
    exact same_skeleton_with_whole fs fsy h _ _ a0 aK
  | false =>
    rw [if_neg (by decide), if_neg (by decide)]
    exact h

theorem fs_create_err5_same (fs fsy : FS_t) (h : same_skeleton fs fsy) (i : Nat) (b : Bool)
    (n : Nat) :
    ∃ c s t, fs_create_err5 fs i b n = (c, s) ∧ fs_create_err5 fsy i b n = (c, t) ∧
      same_skeleton s t := by
  unfold fs_create_err5
  rw [BlockStore_inode_same fs fsy h]
  exact fs_create_err3_same _ _ (same_skeleton_set_BlockStore_inode fs fsy h _) b n

theorem _BS_INODE_WRITE_of_ge (fs : FS_t) (inum : Nat) (src : inode_t) (h : 256 ≤ inum) :
    _BS_INODE_WRITE fs inum src = none := by
  cases _BS_INODE_WRITE_cases fs inum src with
  | inl h1 => exact h1.2
  | inr h1 =>
    have := h1.1
    unfold NUM_INODES at this
    omega

theorem _BS_WRITE_of_ge (fs : FS_t) (id : Nat) (buf : block_t) (h : 65536 ≤ id) :
    _BS_WRITE fs id buf = none := by
  unfold _BS_WRITE block_store_write
  have hc : id ≥ BLOCK_STORE_NUM_BLOCKS := h
  rw [if_pos hc]
  rfl

/-- The last part of `fs_create` in two states with the same skeleton. -/
theorem fs_create_commit_same (fs fsy : FS_t) (h : same_skeleton fs fsy) (t p : Nat)
    (P : inode_t) (blk : block_t) (map : bitmap_t) (b : Bool) (name : List Nat)
    (r ry : Int) (s sy : FS_t)
    (hc : fs_create_commit fs t p P blk map b name = (r, s))
    (hcy : fs_create_commit fsy t p P blk map b name = (ry, sy)) :
    ry = r ∧ same_skeleton s sy := by
  unfold fs_create_commit at hc hcy
  rw [BlockStore_inode_same fs fsy h] at hcy
  rcases block_store_sub_allocate_cases fs.BlockStore_inode with ha | ⟨id, hid, _, ha⟩
  · rw [ha] at hc hcy
    dsimp only at hc hcy
    rw [if_pos rfl] at hc hcy
    exact pair_same _ _ _ _ _ _ hc hcy
      (fs_create_err3_same _ _ (same_skeleton_set_BlockStore_inode fs fsy h _) _ _)
  · rw [ha] at hc hcy
    dsimp only at hc hcy
    rw [if_neg hid] at hc hcy
    have h2 := same_skeleton_set_BlockStore_inode fs fsy h
      { fs.BlockStore_inode with fbm := (bitmap_set fs.BlockStore_inode.fbm id).2 }
    by_cases hlt : id < 256
    · rw [_BS_INODE_WRITE_of_lt _ _ _ hlt] at hc hcy
      dsimp only at hc hcy
      have h3 := same_skeleton_set_inode _ _ h2 id
        { dir_entry_map := 0, file_type := t, inum := id, file_size := 0,
          link_count := 1, data_direct := fun _ => 0, data_indirect := 0,
          data_double_indirect := 0 }
      by_cases hidx : bitmap_ffz map = SIZE_MAX ∨ bitmap_ffz map ≥ DIR_ENTRIES_PER_BLOCK
      · rw [if_pos hidx] at hc hcy
        exact pair_same _ _ _ _ _ _ hc hcy (fs_create_err5_same _ _ h3 _ _ _)
      · rw [if_neg hidx] at hc hcy
        by_cases hD : P.data_direct 0 < 65536
        · rw [_BS_WRITE_of_lt _ _ _ hD] at hc hcy
          dsimp only at hc hcy
          have h4 := same_skeleton_set_block_eq _ _ h3 (P.data_direct 0)
            (dentry_store blk (bitmap_ffz map) name id)
          by_cases hp : p < 256
          · rw [_BS_INODE_WRITE_of_lt _ _ _ hp] at hc hcy
            dsimp only at hc hcy
            exact pair_same _ _ _ _ _ _ hc hcy
              ⟨_, _, _, rfl, rfl, same_skeleton_set_inode _ _ h4 _ _⟩
          · rw [_BS_INODE_WRITE_of_ge _ _ _ (Nat.le_of_not_lt hp)] at hc hcy
            dsimp only at hc hcy
            exact pair_same _ _ _ _ _ _ hc hcy (fs_create_err5_same _ _ h4 _ _ _)
        · rw [_BS_WRITE_of_ge _ _ _ (Nat.le_of_not_lt hD)] at hc hcy
          dsimp only at hc hcy
          exact pair_same _ _ _ _ _ _ hc hcy (fs_create_err5_same _ _ h3 _ _ _)
    · rw [_BS_INODE_WRITE_of_ge _ _ _ (Nat.le_of_not_lt hlt)] at hc hcy
      dsimp only at hc hcy
      exact pair_same _ _ _ _ _ _ hc hcy (fs_create_err5_same _ _ h2 _ _ _)

/-- The middle part of `fs_create` in two states with the same skeleton. -/
theorem fs_create_verify_same (fs fsy : FS_t) (h : same_skeleton fs fsy) (path : List Nat)
    (t p : Nat) (P : inode_t) (blk : block_t) (map : bitmap_t) (b : Bool)
    (r ry : Int) (s sy : FS_t)
    (hc : fs_create_verify fs path t p P blk map b = (r, s))
    (hcy : fs_create_verify fsy path t p P blk map b = (ry, sy)) :
    ry = r ∧ same_skeleton s sy := by
  unfold fs_create_verify at hc hcy
  dsimp only at hc hcy
  by_cases h1 : bitmap_total_set map ≥ DIR_ENTRIES_PER_BLOCK
  · rw [if_pos h1] at hc hcy
    exact pair_same _ _ _ _ _ _ hc hcy (fs_create_err3_same _ _ h _ _)
  · rw [if_neg h1] at hc hcy
    cases hb : _basename path with
    | none =>
      rw [hb] at hc hcy
      dsimp only at hc hcy
      exact pair_same _ _ _ _ _ _ hc hcy (fs_create_err3_same _ _ h _ _)
    | some name =>
      rw [hb] at hc hcy
      dsimp only at hc hcy
      by_cases h2 : strnlen path FS_FNAME_MAX = FS_FNAME_MAX
      · rw [if_pos h2] at hc hcy
        exact pair_same _ _ _ _ _ _ hc hcy (fs_create_err3_same _ _ h _ _)
      · rw [if_neg h2] at hc hcy
        by_cases h3 : _inode_find_child blk map name ≥ 0
        · rw [if_pos h3] at hc hcy
          exact pair_same _ _ _ _ _ _ hc hcy (fs_create_err3_same _ _ h _ _)
        · rw [if_neg h3] at hc hcy
          exact fs_create_commit_same fs fsy h t p P blk map b name r ry s sy hc hcy

/-- The part of `fs_create` that takes the entry block of the parent, in two
states with the same skeleton. -/
theorem fs_create_dentry_block_same (fs fsy : FS_t) (h : same_skeleton fs fsy)
    (path : List Nat) (t p : Nat) (P : inode_t) (blk : block_t) (map : bitmap_t)
    (r ry : Int) (s sy : FS_t)
    (hc : fs_create_dentry_block fs path t p P blk map = (r, s))
    (hcy : fs_create_dentry_block fsy path t p P blk map = (ry, sy)) :
    ry = r ∧ same_skeleton s sy := by
  unfold fs_create_dentry_block at hc hcy
  by_cases h0 : P.file_size = 0
  · rw [if_pos h0] at hc hcy
    cases ha : block_store_allocate fs.BlockStore_whole with
    | mk id bsa =>
    obtain ⟨bsa1, hay, a0, aK, _⟩ := block_store_allocate_same fs.BlockStore_whole
      fsy.BlockStore_whole id bsa h.block0 h.fbm ha
    rw [ha] at hc
    rw [hay] at hcy
    dsimp only at hc hcy
    have h1 : same_skeleton { fs with BlockStore_whole := bsa }
        { fsy with BlockStore_whole := bsa1 } := same_skeleton_with_whole fs fsy h _ _ a0 aK
    by_cases hid : id = SIZE_MAX
    · rw [if_pos hid] at hc hcy
      exact pair_same _ _ _ _ _ _ hc hcy ⟨_, _, _, rfl, rfl, h1⟩
    · rw [if_neg hid] at hc hcy
      exact fs_create_verify_same _ _ h1 path t p _ blk map true r ry s sy hc hcy
  · rw [if_neg h0] at hc hcy
    exact fs_create_verify_same fs fsy h path t p P blk map false r ry s sy hc hcy

theorem dir_load_of_read (fs : FS_t) (i : Nat) (P : inode_t) (h : _inode_read fs i = some P) :
    dir_load fs i = _inode_dir_load fs P := by
  unfold dir_load
  rw [h]

/-- The call `fs_create` in two states with the same skeleton that load the
same directories: the same return value, and states with the same skeleton. -/
theorem fs_create_same (fs fsy : FS_t) (h : same_skeleton fs fsy)
    (hd : ∀ i, dir_load fsy i = dir_load fs i) (path : List Nat) (type : Nat)
    (r ry : Int) (s sy : FS_t)
    (hc : fs_create fs path type = (r, s)) (hcy : fs_create fsy path type = (ry, sy)) :
    ry = r ∧ same_skeleton s sy := by
  have triv : ∀ X Y : Int × FS_t, X = (r, s) → Y = (ry, sy) → X = (-1, fs) → Y = (-1, fsy) →
      ry = r ∧ same_skeleton s sy := by
    intro X Y hx hy e1 e2
    exact pair_same X Y r ry s sy hx hy ⟨_, _, _, e1, e2, h⟩
  unfold fs_create at hc hcy
  by_cases h1 : ¬ PATH_OK path = true
  · rw [if_pos h1] at hc hcy
    exact triv _ _ hc hcy rfl rfl
  rw [if_neg h1] at hc hcy
  by_cases h2 : path.getLast? = some SLASH
  · rw [if_pos h2] at hc hcy
    exact triv _ _ hc hcy rfl rfl
  rw [if_neg h2] at hc hcy
  cases ht : (if type = FS_REGULAR then some CHAR_r
         else if type = FS_DIRECTORY then some CHAR_d else none) with
  | none =>
    rw [ht] at hc hcy
    exact triv _ _ hc hcy rfl rfl
  | some t =>
  rw [ht] at hc hcy
  dsimp only at hc hcy
  cases hdir : _dirname path with
  | none =>
    rw [hdir] at hc hcy
    exact triv _ _ hc hcy rfl rfl
  | some dir =>
  rw [hdir] at hc hcy
  dsimp only at hc hcy
  rw [_get_inum_same fs fsy hd dir] at hcy
  by_cases h3 : _get_inum fs dir < 0
  · rw [if_pos h3] at hc hcy
    exact triv _ _ hc hcy rfl rfl
  rw [if_neg h3] at hc hcy
  rw [_inode_read_same fs fsy h] at hcy
  cases hread : _inode_read fs (_get_inum fs dir).toNat with
  | none =>
    rw [hread] at hc hcy
    exact triv _ _ hc hcy rfl rfl
  | some P =>
  rw [hread] at hc hcy
  dsimp only at hc hcy
  have hready : _inode_read fsy (_get_inum fs dir).toNat = some P := by
    rw [_inode_read_same fs fsy h]
    exact hread
  have hl : _inode_dir_load fsy P = _inode_dir_load fs P := by
    rw [← dir_load_of_read fs _ P hread, ← dir_load_of_read fsy _ P hready]
    exact hd _
  rw [hl] at hcy
  cases hload : _inode_dir_load fs P with
  | none =>
    rw [hload] at hc hcy
    exact triv _ _ hc hcy rfl rfl
  | some bm =>
  obtain ⟨blk, map⟩ := bm
  rw [hload] at hc hcy
  dsimp only at hc hcy
  exact fs_create_dentry_block_same fs fsy h path t _ P blk map r ry s sy hc hcy

/-- What a successful `fs_create` in a sound state changed: the record of the
parent `p` (now `P2`, with the entry block `D`), the record of the new inode
`id` (now `N`, an empty file), the bit of `id` in the inode bitmap, and the
block `D`, which holds the entry block of the parent with the new entry; `D`
is a data block that was free or was the entry block of the parent. -/
theorem fs_create_frame (fs : FS_t) (path : List Nat) (type : Nat) (s : FS_t)
    (hs0 : fs_sound fs) (h : fs_create fs path type = (0, s)) :
    ∃ (dir name : List Nat) (id D : Nat) (P2 N : inode_t),
      _dirname path = some dir ∧ _basename path = some name ∧ 0 ≤ _get_inum fs dir ∧
      inode_allocated fs (_get_inum fs dir).toNat ∧ ¬ inode_allocated fs id ∧
      (fs.inode_table (_get_inum fs dir).toNat).file_type = CHAR_d ∧
      (fs.inode_table (_get_inum fs dir).toNat).data_direct 0 < 65536 ∧
      id = bitmap_ffz fs.BlockStore_inode.fbm ∧
      17 ≤ D ∧ D < 65528 ∧
      (∀ i, s.inode_table i = if i = (_get_inum fs dir).toNat then P2 else if i = id then N
        else fs.inode_table i) ∧
      (∀ i, inode_allocated s i ↔ inode_allocated fs i ∨ i = id) ∧
      P2.file_type = CHAR_d ∧ P2.data_direct 0 = D ∧
      N.file_size = 0 ∧ N.data_direct 0 = 0 ∧
      s.BlockStore_whole.blocks D =
        dentry_store (fs.BlockStore_whole.blocks
            ((fs.inode_table (_get_inum fs dir).toNat).data_direct 0))
          (bitmap_ffz (bitmap_overlay 16
            (uint32_bytes (fs.inode_table (_get_inum fs dir).toNat).dir_entry_map))) name id ∧
      (∀ b, b ≠ D → 0 < b → b < 65528 →
        s.BlockStore_whole.blocks b = fs.BlockStore_whole.blocks b) ∧
      (∀ b, 0 < b → b < 65528 → block_used fs.BlockStore_whole b →
        (∀ sl, slot_live (inode_nb (fs.inode_table (_get_inum fs dir).toNat)) sl →
          slot_block fs.BlockStore_whole (fs.inode_table (_get_inum fs dir).toNat) sl ≠ b) →
        b ≠ D) := by
  obtain ⟨_, t, dir, name, P, D, bs1, id, ht, hdir, hname, hge, hread, hty, hD0, hcase, hDlt,
    hid, hidlt, hidfree, hidx, hs⟩ := fs_create_success fs path type 0 s h (by decide)
  generalize hpdef : (_get_inum fs dir).toNat = p at hread hs
  obtain ⟨hpa, hPeq⟩ := (inode_allocated_read fs p P).1 hread
  have hgP := hs0.inodes p hpa
  rw [← hPeq] at hgP
  have hnotid : ¬ inode_allocated fs id := by
    intro hc
    have := (block_store_sub_test_true _ _ hc.2).2
    rw [hidfree] at this
    exact Bool.noConfusion this
  have hpne : p ≠ id := fun hc => hnotid (hc ▸ hpa)
  have hDrange : 17 ≤ D ∧ D < 65528 := by
    rcases hcase with ⟨_, hfree, _⟩ | ⟨hsz, hDeq, _⟩
    · have hnu : ¬ block_used fs.BlockStore_whole D := by
        unfold block_used
        rw [hfree]
        exact Bool.noConfusion
      constructor
      · by_contra hc
        exact hnu (hs0.reserved D hDlt (Or.inl (Nat.lt_of_not_le hc)))
      · by_contra hc
        exact hnu (hs0.reserved D hDlt (Or.inr (Nat.le_of_not_lt hc)))
    · have hnb : inode_nb P = 1 := by
        rw [inode_nb_dir P hty, if_neg hsz]
      have hl : slot_live (inode_nb P) (tree_slot.data 0) := by
        rw [hnb]
        exact Nat.zero_lt_one
      have h1 := hgP.high _ hl
      have h2 := (hgP.tree.range _ hl).2.1
      rw [slot_block_data_zero] at h1 h2
      rw [hDeq]
      exact ⟨h1, h2⟩
  have hDne : D ≠ 0 := by omega
  obtain ⟨P2, hP2⟩ : ∃ P2 : inode_t, P2 =
      { P with
        data_direct := fun k => if k = 0 then D else P.data_direct k,
        dir_entry_map := uint32_of_bytes
          (bitmap_set (bitmap_overlay 16 (uint32_bytes P.dir_entry_map))
            (bitmap_ffz (bitmap_overlay 16 (uint32_bytes P.dir_entry_map)))).2.data,
        file_size := (P.file_size + 1) % 2 ^ 64 } := ⟨_, rfl⟩
  obtain ⟨N, hN⟩ : ∃ N : inode_t, N =
      { dir_entry_map := 0, file_type := t, inum := id, file_size := 0,
        link_count := 1, data_direct := fun _ => 0, data_indirect := 0,
        data_double_indirect := 0 } := ⟨_, rfl⟩
  obtain ⟨buf, hbuf⟩ : ∃ buf : block_t, buf =
      dentry_store (fs.BlockStore_whole.blocks (P.data_direct 0))
        (bitmap_ffz (bitmap_overlay 16 (uint32_bytes P.dir_entry_map))) name id := ⟨_, rfl⟩
  rw [← hP2, ← hN, ← hbuf] at hs
  have hcnt := bitmap_set_counts fs.BlockStore_inode.fbm id
  have hfbm := create_state_inode_fbm ({ fs with BlockStore_whole := bs1 } : FS_t)
    (bitmap_set fs.BlockStore_inode.fbm id).2
    (fun i => if i = id then N else fs.inode_table i) D buf p P2 hDne
    (by rw [hcnt.1]; rfl) (by rw [hcnt.2]; rfl)
  obtain ⟨hfdsame, hblocks⟩ := create_state_fields ({ fs with BlockStore_whole := bs1 } : FS_t)
    (bitmap_set fs.BlockStore_inode.fbm id).2
    (fun i => if i = id then N else fs.inode_table i) D buf p P2
  have hblockD := create_state_block ({ fs with BlockStore_whole := bs1 } : FS_t)
    { fbm := (bitmap_set fs.BlockStore_inode.fbm id).2,
      records := fun i => if i = id then N else fs.inode_table i } D buf p P2
  have htable : ∀ i, s.inode_table i = if i = p then P2 else if i = id then N
      else fs.inode_table i := by
    intro i
    rw [hs, create_state_table]
  rw [← hs] at hfbm hfdsame hblocks hblockD
  have htest : ∀ i, i < 256 → block_store_sub_test s.BlockStore_inode i =
      (bitmap_test fs.BlockStore_inode.fbm i || decide (i = id)) := by
    intro i hi
    unfold block_store_sub_test
    rw [hfbm, hcnt.1]
    have hc : ¬ i ≥ fs.BlockStore_inode.fbm.bit_count := Nat.not_le.2 hi
    rw [if_neg hc]
    exact bitmap_test_set _ _ _ (by show id < 256; exact hidlt)
  have halloc : ∀ i, inode_allocated s i ↔ inode_allocated fs i ∨ i = id := by
    intro i
    constructor
    · intro hi
      have := hi.2
      rw [htest i hi.1] at this
      rcases Bool.or_eq_true _ _ ▸ this with h1 | h1
      · left
        refine ⟨hi.1, ?_⟩
        have hc : ¬ i ≥ fs.BlockStore_inode.fbm.bit_count := Nat.not_le.2 hi.1
        unfold block_store_sub_test
        rw [if_neg hc]
        exact h1
      · right
        exact of_decide_eq_true h1
    · rintro (hi | hi)
      · refine ⟨hi.1, ?_⟩
        rw [htest i hi.1, (block_store_sub_test_true _ _ hi.2).2]
        rfl
      · subst hi
        refine ⟨hidlt, ?_⟩
        rw [htest i hidlt]
        simp only [decide_True, Bool.or_true]
  have hbs1 : ∀ b, b < 65528 → bs1.blocks b = fs.BlockStore_whole.blocks b := by
    rcases hcase with ⟨hsz, _, e⟩ | ⟨hsz, _, e⟩
    · rw [e]
      exact (set_fbm_marks fs.BlockStore_whole D hDlt).2
    · rw [e]
      exact fun _ _ => rfl
  have hPnb : inode_nb (fs.inode_table p) = if P.file_size = 0 then 0 else 1 := by
    rw [← hPeq]
    exact inode_nb_dir P hty
  have hge0 : 0 ≤ _get_inum fs dir := Int.not_lt.1 hge
  refine ⟨dir, name, id, D, P2, N, hdir, hname, hge0, ?_, hnotid, ?_, ?_, hid, hDrange.1,
    hDrange.2, ?_, halloc, ?_, ?_, ?_, ?_, ?_, ?_, ?_⟩
  · rw [hpdef]
    exact hpa
  · rw [hpdef, ← hPeq]
    exact hty
  · rw [hpdef, ← hPeq]
    exact hD0
  · rw [hpdef]
    exact htable
  · rw [hP2]
    exact hty
  · rw [hP2]
    show (if (0 : Nat) = 0 then D else P.data_direct 0) = D
    rw [if_pos rfl]
  · rw [hN]
  · rw [hN]
  · rw [hpdef, ← hPeq, hblockD, hbuf]
  · intro b hbD hb0 hb
    rw [hblocks b hbD (by omega)]
    exact hbs1 b hb
  · intro b hb0 hb hu hnot
    rw [hpdef] at hnot
    intro hc
    rcases hcase with ⟨_, hfree, _⟩ | ⟨hsz, hDeq, _⟩
    · unfold block_used at hu
      rw [hc, hfree] at hu
      exact Bool.noConfusion hu
    · apply hnot (tree_slot.data 0)
      · rw [hPnb, if_neg hsz]
        exact Nat.zero_lt_one
      · rw [slot_block_data_zero, ← hPeq, ← hDeq, hc]

theorem _inode_dir_load_of (fs : FS_t) (Q : inode_t) (ht : Q.file_type = CHAR_d)
    (hlt : Q.data_direct 0 < 65536) :
    _inode_dir_load fs Q = some (fs.BlockStore_whole.blocks (Q.data_direct 0),
      bitmap_overlay 16 (uint32_bytes Q.dir_entry_map)) := by
  unfold _inode_dir_load
  dsimp only
  rw [if_neg (by simpa using ht), block_store_read_of_lt _ _ hlt]

theorem _inode_dir_load_none (fs : FS_t) (Q : inode_t)
    (h : Q.file_type ≠ CHAR_d ∨ 65536 ≤ Q.data_direct 0) : _inode_dir_load fs Q = none := by
  unfold _inode_dir_load
  dsimp only
  by_cases ht : Q.file_type ≠ CHAR_d
  · rw [if_pos ht]
  · rw [if_neg ht]
    have hge : 65536 ≤ Q.data_direct 0 := h.resolve_left ht
    unfold block_store_read
    have hc : Q.data_direct 0 ≥ BLOCK_STORE_NUM_BLOCKS := hge
    rw [if_pos hc]

/-- Two states with the same skeleton load the same directory `i` when the
entry block of `i` is the same in both. -/
theorem dir_load_same_of_blocks (s sy : FS_t) (hsk : same_skeleton s sy) (i : Nat)
    (hb : inode_allocated s i → (s.inode_table i).file_type = CHAR_d →
      (s.inode_table i).data_direct 0 < 65536 →
      sy.BlockStore_whole.blocks ((s.inode_table i).data_direct 0) =
        s.BlockStore_whole.blocks ((s.inode_table i).data_direct 0)) :
    dir_load sy i = dir_load s i := by
  unfold dir_load
  rw [_inode_read_same s sy hsk]
  cases hr : _inode_read s i with
  | none => rfl
  | some Q =>
    dsimp only
    obtain ⟨ha, hQ⟩ := (inode_allocated_read s i Q).1 hr
    by_cases hc : Q.file_type = CHAR_d ∧ Q.data_direct 0 < 65536
    · rw [_inode_dir_load_of s Q hc.1 hc.2, _inode_dir_load_of sy Q hc.1 hc.2]
      rw [hQ] at hc ⊢
      rw [hb ha hc.1 hc.2]
    · have hn : Q.file_type ≠ CHAR_d ∨ 65536 ≤ Q.data_direct 0 := by
        by_cases ht : Q.file_type = CHAR_d
        · right
          exact Nat.le_of_not_lt (fun hlt => hc ⟨ht, hlt⟩)
        · left
          exact ht
      rw [_inode_dir_load_none s Q hn, _inode_dir_load_none sy Q hn]

/-- Two states that load the same directory `i` hold the same entry block of
`i`. -/
theorem blocks_of_dir_load (s sy : FS_t) (i : Nat)
    (hd : dir_load sy i = dir_load s i) (ha : inode_allocated s i)
    (hay : inode_allocated sy i) (htab : sy.inode_table i = s.inode_table i)
    (ht : (s.inode_table i).file_type = CHAR_d)
    (hlt : (s.inode_table i).data_direct 0 < 65536) :
    sy.BlockStore_whole.blocks ((s.inode_table i).data_direct 0) =
      s.BlockStore_whole.blocks ((s.inode_table i).data_direct 0) := by
  rw [dir_load_of_read s i _ ((inode_allocated_read s i _).2 ⟨ha, rfl⟩),
    dir_load_of_read sy i _ ((inode_allocated_read sy i _).2 ⟨hay, rfl⟩), htab,
    _inode_dir_load_of s _ ht hlt, _inode_dir_load_of sy _ ht hlt] at hd
  exact (Prod.mk.inj (Option.some.inj hd)).1

/-- A call that keeps every block in use outside the tree of the inode `p`
keeps the bytes of every other regular file. -/
theorem file_byte_other_frame (fs fs1 : FS_t) (p i : Nat) (hs : fs_sound fs)
    (hi : inode_allocated fs i) (hp : inode_allocated fs p) (hne : i ≠ p)
    (ht : (fs.inode_table i).file_type ≠ CHAR_d)
    (others : ∀ b, 0 < b → b < 65528 → block_used fs.BlockStore_whole b →
      (∀ s, slot_live (inode_nb (fs.inode_table p)) s →
        slot_block fs.BlockStore_whole (fs.inode_table p) s ≠ b) →
      fs1.BlockStore_whole.blocks b = fs.BlockStore_whole.blocks b)
    (q : Nat) (hq : q < (fs.inode_table i).file_size) :
    file_byte fs1.BlockStore_whole (fs.inode_table i) q =
      file_byte fs.BlockStore_whole (fs.inode_table i) q := by
  have hgi := hs.inodes i hi
  have hl : slot_live (inode_nb (fs.inode_table i)) (tree_slot.data (q / BLOCK_SIZE_BYTES)) := by
    rw [inode_nb_file _ ht hgi.size_le]
    show q / 1024 < _
    omega
  have hsb := other_tree_frame fs fs1 p i hs hi hp hne others _ hl
  have hsb2 : file_block fs1.BlockStore_whole (fs.inode_table i) (q / BLOCK_SIZE_BYTES) =
      file_block fs.BlockStore_whole (fs.inode_table i) (q / BLOCK_SIZE_BYTES) := hsb
  unfold file_byte
  rw [hsb2]
  obtain ⟨r1, r2, r3⟩ := hgi.tree.range _ hl
  have hb := others _ r1 r2 r3 (fun t htl e => hne (hs.disjoint p i t _ hp hi htl hl e).symm)
  have hb2 : fs1.BlockStore_whole.blocks
      (file_block fs.BlockStore_whole (fs.inode_table i) (q / BLOCK_SIZE_BYTES)) =
      fs.BlockStore_whole.blocks
        (file_block fs.BlockStore_whole (fs.inode_table i) (q / BLOCK_SIZE_BYTES)) := hb
  rw [hb2]

theorem dir_load_congr (fs : FS_t) (tbl : Nat → inode_t) (hagree : inode_tables_agree fs tbl)
    (i : Nat) : dir_load { fs with inode_table := tbl } i = dir_load fs i := by
  unfold dir_load
  rw [_inode_read_congr fs tbl hagree]
  cases _inode_read fs i with
  | none => rfl
  | some Q => rfl

/-- A failed `fs_create` in two sound states that show the same files leaves
states that show the same files. -/
theorem same_files_create_fail (fs fsy : FS_t) (hs : fs_sound fs) (hsy : fs_sound fsy)
    (hf : same_files fs fsy) (path : List Nat) (type : Nat) (r : Int) (s sy : FS_t)
    (hr : r ≠ 0) (hsk : same_skeleton s sy)
    (h : fs_create fs path type = (r, s)) (hy : fs_create fsy path type = (r, sy)) :
    same_files s sy := by
  obtain ⟨tbl, hag, e⟩ := fs_create_fail fs path type r s hs.bytes h hr
  obtain ⟨tbly, hagy, ey⟩ := fs_create_fail fsy path type r sy hsy.bytes hy hr
  refine ⟨hsk, ?_, ?_⟩
  · intro i
    rw [e, ey, dir_load_congr fs tbl hag, dir_load_congr fsy tbly hagy]
    exact hf.dirs i
  · intro i ha ht q hq
    have ha0 : inode_allocated fs i := by
      rw [e] at ha
      exact (inode_allocated_congr fs _ rfl i).1 ha
    have et : s.inode_table i = fs.inode_table i := by
      rw [e]
      exact hag i ha0.2
    rw [et] at ht hq ⊢
    have ew : s.BlockStore_whole = fs.BlockStore_whole := by rw [e]
    have ewy : sy.BlockStore_whole = fsy.BlockStore_whole := by rw [ey]
    rw [ew, ewy]
    exact hf.bytes i ha0 ht q hq

/-- A successful `fs_create` in two sound states that show the same files
leaves states that show the same files. -/
theorem same_files_create_success (fs fsy : FS_t) (hs : fs_sound fs) (hsy : fs_sound fsy)
    (hf : same_files fs fsy) (path : List Nat) (type : Nat) (s sy : FS_t)
    (hsk : same_skeleton s sy)
    (h : fs_create fs path type = (0, s)) (hy : fs_create fsy path type = (0, sy)) :
    same_files s sy := by
  obtain ⟨dir, name, id, D, P2, N, hdir, hname, hge, hpa, hnotid, hPty, hPD, hid, hD1, hD2,
    htable, halloc, hP2ty, hP2D, hNsz, hND, hblkD, hblocks, hnotD⟩ :=
    fs_create_frame fs path type s hs h
  obtain ⟨diry, namey, idy, Dy, P2y, Ny, hdiry, hnamey, _, hpay, _, _, _, hidy, _, _,
    htabley, _, _, hP2Dy, _, _, hblkDy, hblocksy, hnotDy⟩ :=
    fs_create_frame fsy path type sy hsy hy
  have hskf := hf.skeleton
  have e1 : diry = dir := by
    rw [hdir] at hdiry
    exact (Option.some.inj hdiry).symm
  have e2 : namey = name := by
    rw [hname] at hnamey
    exact (Option.some.inj hnamey).symm
  subst e1 e2
  rw [_get_inum_same fs fsy hf.dirs diry] at hpay htabley hblkDy hnotDy
  rw [BlockStore_inode_same fs fsy hskf] at hidy
  have e3 : idy = id := hidy.trans hid.symm
  subst e3
  generalize hpdef : (_get_inum fs diry).toNat = p at *
  rw [hskf.table] at htabley hblkDy hnotDy
  have hpne : p ≠ idy := fun hc => hnotid (hc ▸ hpa)
  have eP : P2y = P2 := by
    have a := htable p
    have b := htabley p
    rw [if_pos rfl] at a b
    rw [← a, ← b]
    exact congrFun hsk.table p
  have eD : Dy = D := by
    rw [← hP2D, ← hP2Dy, eP]
  rw [eD] at hblkDy hblocksy hnotDy
  -- the entry block of the parent is the same in both states
  have hPblk : fsy.BlockStore_whole.blocks ((fs.inode_table p).data_direct 0) =
      fs.BlockStore_whole.blocks ((fs.inode_table p).data_direct 0) :=
    blocks_of_dir_load fs fsy p (hf.dirs p) hpa hpay (congrFun hskf.table p) hPty hPD
  have hDsame : sy.BlockStore_whole.blocks D = s.BlockStore_whole.blocks D := by
    rw [hblkD, hblkDy, hPblk]
  refine ⟨hsk, ?_, ?_⟩
  · intro i
    apply dir_load_same_of_blocks s sy hsk i
    intro ha ht hlt
    by_cases hq0 : (s.inode_table i).data_direct 0 = 0
    · rw [hq0]
      exact hsk.block0
    by_cases hqD : (s.inode_table i).data_direct 0 = D
    · rw [hqD]
      exact hDsame
    by_cases hqK : 65528 ≤ (s.inode_table i).data_direct 0
    · exact hsk.fbm _ hqK
    have hip : i ≠ p := by
      intro hc
      apply hqD
      rw [htable, if_pos hc]
      exact hP2D
    have hiid : i ≠ idy := by
      intro hc
      apply hq0
      rw [htable, if_neg hip, if_pos hc]
      exact hND
    have hti : s.inode_table i = fs.inode_table i := by
      rw [htable, if_neg hip, if_neg hiid]
    have ha0 : inode_allocated fs i := ((halloc i).1 ha).resolve_right hiid
    rw [hti] at ht hlt hq0 hqD hqK ⊢
    rw [hblocks _ hqD (by omega) (by omega), hblocksy _ hqD (by omega) (by omega)]
    exact blocks_of_dir_load fs fsy i (hf.dirs i) ha0
      ((inode_allocated_same fs fsy hskf i).2 ha0) (congrFun hskf.table i) ht hlt
  · intro i ha ht q hq
    have hip : i ≠ p := by
      intro hc
      apply ht
      rw [htable, if_pos hc]
      exact hP2ty
    have hiid : i ≠ idy := by
      intro hc
      rw [htable, if_neg hip, if_pos hc, hNsz] at hq
      exact Nat.not_lt_zero _ hq
    have hti : s.inode_table i = fs.inode_table i := by
      rw [htable, if_neg hip, if_neg hiid]
    have ha0 : inode_allocated fs i := ((halloc i).1 ha).resolve_right hiid
    have hay0 : inode_allocated fsy i := (inode_allocated_same fs fsy hskf i).2 ha0
    rw [hti] at ht hq ⊢
    have h1 := file_byte_other_frame fs s p i hs ha0 hpa hip ht
      (fun b hb0 hb hu hnot => hblocks b (hnotD b hb0 hb hu hnot) hb0 hb) q hq
    have h2 := file_byte_other_frame fsy sy p i hsy hay0 hpay hip
      (by rw [hskf.table]; exact ht)
      (fun b hb0 hb hu hnot => hblocksy b (hnotDy b hb0 hb hu
        (by rw [hskf.table] at hnot; exact hnot)) hb0 hb) q
      (by rw [hskf.table]; exact hq)
    rw [hskf.table] at h2
    rw [h1, h2]
    exact hf.bytes i ha0 ht q hq

/-! ## Two states that differ only in their free blocks -/

theorem differs_block_used (fs fsy : FS_t) (hd : differs_in_free_blocks fs fsy) (b : Nat) :
    block_used fsy.BlockStore_whole b ↔ block_used fs.BlockStore_whole b := by
  unfold block_used
  rw [fbm_eq_of_blocks fs.BlockStore_whole fsy.BlockStore_whole hd.map]

theorem differs_skeleton (fs fsy : FS_t) (hs : fs_sound fs)
    (hd : differs_in_free_blocks fs fsy) : same_skeleton fs fsy :=
  ⟨hd.table, hd.fds, hd.used 0 (by decide) (hs.reserved 0 (by decide) (Or.inl (by decide))),
    hd.map⟩

/-- The places in use of the pointer tree of an allocated inode hold the same
blocks in a state that differs only in its free blocks. -/
theorem differs_slot_block (fs fsy : FS_t) (hs : fs_sound fs)
    (hd : differs_in_free_blocks fs fsy) (i : Nat) (hi : inode_allocated fs i)
    (s : tree_slot) (hl : slot_live (inode_nb (fs.inode_table i)) s) :
    slot_block fsy.BlockStore_whole (fs.inode_table i) s =
      slot_block fs.BlockStore_whole (fs.inode_table i) s := by
  apply slot_block_frame _ _ _ _ _ s hl
  intro c hc
  obtain ⟨_, r2, r3⟩ := (hs.inodes i hi).tree.range c hc
  exact hd.used _ r2 r3

/-- A state that differs from a sound state only in its free blocks is sound. -/
theorem differs_sound (fs fsy : FS_t) (hs : fs_sound fs)
    (hd : differs_in_free_blocks fs fsy) : fs_sound fsy := by
  have hsk := differs_skeleton fs fsy hs hd
  have hu := differs_block_used fs fsy hd
  have ha := inode_allocated_same fs fsy hsk
  have hsb := differs_slot_block fs fsy hs hd
  refine ⟨hd.bytes, ?_, ?_, ?_, ?_, ?_, ?_⟩
  · rw [hd.fds]
    exact hs.fd_shape
  · intro b hb hr
    exact (hu b).2 (hs.reserved b hb hr)
  · intro i hi
    have hi0 := (ha i).1 hi
    have g := hs.inodes i hi0
    rw [hd.table]
    refine ⟨g.inum_eq, g.ptrs, g.size_le, ?_, ?_, g.dir, g.empty_dir⟩
    · exact tree_ok_same _ _ _ _ _ g.tree (fun s hl => hsb i hi0 s hl)
        (fun b _ h => (hu b).2 h)
    · intro s hl
      rw [hsb i hi0 s hl]
      exact g.high s hl
  · intro i j s t hi hj hl ht e
    have hi0 := (ha i).1 hi
    have hj0 := (ha j).1 hj
    rw [hd.table] at hl ht e
    rw [hsb i hi0 s hl, hsb j hj0 t ht] at e
    exact hs.disjoint i j s t hi0 hj0 hl ht e
  · intro b h1 h2 hb
    obtain ⟨i, s, hi, hl, e⟩ := hs.exact b h1 h2 ((hu b).1 hb)
    refine ⟨i, s, (ha i).2 hi, ?_, ?_⟩
    · rw [hd.table]
      exact hl
    · rw [hd.table, hsb i hi s hl]
      exact e
  · intro k hk
    have hk0 : fd_allocated fs k := by
      unfold fd_allocated at hk ⊢
      rw [hd.fds] at hk
      exact hk
    have g := hs.fds k hk0
    rw [hd.fds]
    refine ⟨g.canonical, (ha _).2 g.inode, ?_, ?_⟩
    · rw [hd.table]
      exact g.regular
    · rw [hd.table]
      exact g.cursor_le

/-- A sound state and a state that differs from it only in its free blocks
show the same files. -/
theorem differs_same_files (fs fsy : FS_t) (hs : fs_sound fs)
    (hd : differs_in_free_blocks fs fsy) : same_files fs fsy := by
  have hsk := differs_skeleton fs fsy hs hd
  refine ⟨hsk, ?_, ?_⟩
  · intro i
    apply dir_load_same_of_blocks fs fsy hsk i
    intro hi ht hlt
    have g := hs.inodes i hi
    by_cases h0 : (fs.inode_table i).file_size = 0
    · rw [g.empty_dir ht h0]
      exact hsk.block0
    · have hnb : inode_nb (fs.inode_table i) = 1 := by
        rw [inode_nb_dir _ ht, if_neg h0]
      have hl : slot_live (inode_nb (fs.inode_table i)) (tree_slot.data 0) := by
        rw [hnb]
        exact Nat.zero_lt_one
      obtain ⟨_, r2, r3⟩ := g.tree.range _ hl
      rw [slot_block_data_zero] at r2 r3
      exact hd.used _ r2 r3
  · intro i hi ht q hq
    have g := hs.inodes i hi
    have hl : slot_live (inode_nb (fs.inode_table i)) (tree_slot.data (q / BLOCK_SIZE_BYTES)) := by
      rw [inode_nb_file _ ht g.size_le]
      show q / 1024 < _
      omega
    have hsb : file_block fsy.BlockStore_whole (fs.inode_table i) (q / BLOCK_SIZE_BYTES) =
        file_block fs.BlockStore_whole (fs.inode_table i) (q / BLOCK_SIZE_BYTES) :=
      differs_slot_block fs fsy hs hd i hi _ hl
    unfold file_byte
    rw [hsb]
    obtain ⟨_, r2, r3⟩ := g.tree.range _ hl
    have hb : fsy.BlockStore_whole.blocks
        (file_block fs.BlockStore_whole (fs.inode_table i) (q / BLOCK_SIZE_BYTES)) =
        fs.BlockStore_whole.blocks
          (file_block fs.BlockStore_whole (fs.inode_table i) (q / BLOCK_SIZE_BYTES)) :=
      hd.used _ r2 r3
    rw [hb]

/-! ## A sequence of calls in two states that differ only in their free blocks -/

theorem fs_write_returns (fs : FS_t) (hs : fs_sound fs) (fdi : Int) (src : block_t) (n : Nat) :
    ∃ r fs1, fs_write fs fdi src n = some (r, fs1) := by
  cases hfd : _fd_read fs fdi with
  | none => exact ⟨_, _, fs_write_of_fd_read_none fs fdi src n hfd⟩
  | some fd =>
    obtain ⟨hino, hready, hp⟩ := write_ready_of_sound fs hs fdi fd hfd
    obtain ⟨st, hw, _, _⟩ := fs_write_spec fs fdi fd _ src n hfd hino hready hp
    exact ⟨_, _, hw⟩

theorem fs_read_returns (fs : FS_t) (hs : fs_sound fs) (fdi : Int) (dest : block_t) (n : Nat) :
    ∃ r out fs1, fs_read fs fdi dest n = some (r, out, fs1) := by
  cases hfd : _fd_read fs fdi with
  | none => exact ⟨_, _, _, fs_read_of_fd_read_none fs fdi dest n hfd⟩
  | some fd =>
    obtain ⟨hino, hready, hp⟩ := write_ready_of_sound fs hs fdi fd hfd
    obtain ⟨out, fs1, _, hr, _⟩ := fs_read_spec fs fdi fd _ dest n hfd hino
      hready.fd_canonical hready.size_lt hp
    exact ⟨_, _, _, hr⟩

/-- One call of the facade in two sound states that show the same files: both
calls return, they give back the same, and they leave sound states that show
the same files. -/
theorem fs_call_run_same (fs fsy : FS_t) (hs : fs_sound fs) (hsy : fs_sound fsy)
    (hf : same_files fs fsy) (c : fs_call) (hok : fs_call_ok c) :
    ∃ a fs1 fsy1, fs_call_run fs c = some (a, fs1) ∧ fs_call_run fsy c = some (a, fsy1) ∧
      fs_sound fs1 ∧ fs_sound fsy1 ∧ same_files fs1 fsy1 := by
  cases c with
  | create path type =>
    have hpath : ∀ c, c ∈ path → c < 256 := hok
    cases h : fs_create fs path type with
    | mk r s =>
    cases hy : fs_create fsy path type with
    | mk ry sy =>
    obtain ⟨e, hsk⟩ := fs_create_same fs fsy hf.skeleton hf.dirs path type r ry s sy h hy
    subst e
    refine ⟨fs_answer.value ry, s, sy, ?_, ?_, fs_sound_create fs path type ry s hs hpath h,
      fs_sound_create fsy path type ry sy hsy hpath hy, ?_⟩
    · simp only [fs_call_run]
      rw [h]
    · simp only [fs_call_run]
      rw [hy]
    · by_cases hr : ry = 0
      · subst hr
        exact same_files_create_success fs fsy hs hsy hf path type s sy hsk h hy
      · exact same_files_create_fail fs fsy hs hsy hf path type ry s sy hr hsk h hy
  | open_file path =>
    cases h : fs_open fs path with
    | mk r s =>
    obtain ⟨sy, hy, hf1⟩ := same_files_open fs fsy hf path r s h
    refine ⟨fs_answer.value r, s, sy, ?_, ?_, fs_sound_open fs path r s hs h,
      fs_sound_open fsy path r sy hsy hy, hf1⟩
    · simp only [fs_call_run]
      rw [h]
    · simp only [fs_call_run]
      rw [hy]
  | seek fd offset whence =>
    cases h : fs_seek fs fd offset whence with
    | mk r s =>
    obtain ⟨sy, hy, hf1⟩ := same_files_seek fs fsy hf fd offset whence r s h
    refine ⟨fs_answer.value r, s, sy, ?_, ?_, fs_sound_seek fs fd offset whence r s hs h,
      fs_sound_seek fsy fd offset whence r sy hsy hy, hf1⟩
    · simp only [fs_call_run]
      rw [h]
    · simp only [fs_call_run]
      rw [hy]
  | write fd src nbyte =>
    have hsrc : ∀ j, src j < 256 := hok
    obtain ⟨r, s, h⟩ := fs_write_returns fs hs fd src nbyte
    obtain ⟨sy, hy, hf1⟩ := same_files_write fs fsy hs hsy hf fd src nbyte r s h
    refine ⟨fs_answer.value r, s, sy, ?_, ?_, fs_sound_write fs fd src nbyte r s hs hsrc h,
      fs_sound_write fsy fd src nbyte r sy hsy hsrc hy, hf1⟩
    · simp only [fs_call_run]
      rw [h]
    · simp only [fs_call_run]
      rw [hy]
  | read fd dest nbyte =>
    obtain ⟨r, out, s, h⟩ := fs_read_returns fs hs fd dest nbyte
    obtain ⟨sy, hy, hf1⟩ := same_files_read fs fsy hs hf fd dest nbyte r out s h
    refine ⟨fs_answer.bytes r out, s, sy, ?_, ?_, fs_sound_read fs fd dest nbyte r out s hs h,
      fs_sound_read fsy fd dest nbyte r out sy hsy hy, hf1⟩
    · simp only [fs_call_run]
      rw [h]
    · simp only [fs_call_run]
      rw [hy]
  | get_dir path =>
    refine ⟨fs_answer.listing (fs_get_dir fs path), fs, fsy, rfl, ?_, hs, hsy, hf⟩
    simp only [fs_call_run]
    rw [fs_get_dir_same fs fsy hf.dirs path]

/-- A sequence of calls of the facade in two sound states that show the same
files: both sequences return and give back the same. -/
theorem fs_run_same (cs : List fs_call) :
    ∀ fs fsy, fs_sound fs → fs_sound fsy → same_files fs fsy →
      (∀ c, c ∈ cs → fs_call_ok c) →
      ∃ as fs1 fsy1, fs_run fs cs = some (as, fs1) ∧ fs_run fsy cs = some (as, fsy1) ∧
        fs_sound fs1 ∧ fs_sound fsy1 ∧ same_files fs1 fsy1 := by
  induction cs with
  | nil =>
    intro fs fsy hs hsy hf _
    exact ⟨[], fs, fsy, rfl, rfl, hs, hsy, hf⟩
  | cons c cs ih =>
    intro fs fsy hs hsy hf hok
    obtain ⟨a, fs1, fsy1, e, ey, hs1, hsy1, hf1⟩ :=
      fs_call_run_same fs fsy hs hsy hf c (hok c (List.mem_cons_self c cs))
    obtain ⟨as, fs2, fsy2, e2, ey2, hs2, hsy2, hf2⟩ := ih fs1 fsy1 hs1 hsy1 hf1
      (fun d hd => hok d (List.mem_cons_of_mem c hd))
    refine ⟨a :: as, fs2, fsy2, ?_, ?_, hs2, hsy2, hf2⟩
    · simp only [fs_run]
      rw [e]
      dsimp only
      rw [e2]
    · simp only [fs_run]
      rw [ey]
      dsimp only
      rw [ey2]

/-- A sound state with a free block overwritten differs from the state only in
its free blocks. -/
theorem differs_set_block (fs : FS_t) (hs : fs_sound fs) (W : Nat) (buf : block_t)
    (hW : W < 65528) (hfree : ¬ block_used fs.BlockStore_whole W) (hbuf : ∀ o, buf o < 256) :
    differs_in_free_blocks fs (fs.set_block W buf) := by
  refine ⟨rfl, rfl, ?_, ?_, ?_⟩
  · intro b hb
    show (if b = W then buf else fs.BlockStore_whole.blocks b) = _
    rw [if_neg (by omega)]
  · intro b _ hu
    show (if b = W then buf else fs.BlockStore_whole.blocks b) = _
    have hne : ¬ b = W := by
      intro hc
      rw [hc] at hu
      exact hfree hu
    rw [if_neg hne]
  · intro b o
    show (if b = W then buf else fs.BlockStore_whole.blocks b) o < 256
    by_cases hc : b = W
    · rw [if_pos hc]
      exact hbuf o
    · rw [if_neg hc]
      exact hs.bytes b o

/-- Claim C37: no result depends on the contents of free blocks.  Let `fs` be
a state that the facade reaches and `fsy` a state that differs from it only
in the contents of free blocks (the same inode table, descriptor table and
free-block map, the same contents of every block in use).  Then every
sequence of calls of `fs_create`, `fs_open`, `fs_seek`, `fs_write`, `fs_read`
and `fs_get_dir` (paths and source buffers hold bytes) returns from both
states, and gives back the same from both: the same return values, the same
buffers from `fs_read` and the same listings from `fs_get_dir`; and the
states after the sequence again show the same directories and the same bytes
of every file below its size. -/
theorem free_block_contents_never_show (fs fsy : FS_t) (h : fs_reachable fs)
    (hd : differs_in_free_blocks fs fsy) (cs : List fs_call)
    (hok : ∀ c, c ∈ cs → fs_call_ok c) :
    ∃ as fs1 fsy1, fs_run fs cs = some (as, fs1) ∧ fs_run fsy cs = some (as, fsy1) ∧
      same_files fs1 fsy1 := by
  have hs := fs_reachable_sound fs h
  obtain ⟨as, fs1, fsy1, e, ey, _, _, hf⟩ := fs_run_same cs fs fsy hs
    (differs_sound fs fsy hs hd) (differs_same_files fs fsy hs hd) hok
  exact ⟨as, fs1, fsy1, e, ey, hf⟩

set_option maxRecDepth 1000000 in
theorem free_block_contents_never_show_witness :
    fs_reachable fs_hello ∧
    differs_in_free_blocks fs_hello (fs_hello.set_block 30 (buffer_of "junk")) ∧
    (fs_hello.set_block 30 (buffer_of "junk")).BlockStore_whole.blocks 30 0 ≠
      fs_hello.BlockStore_whole.blocks 30 0 ∧
    (∀ c, c ∈ fs_calls_sample → fs_call_ok c) ∧
    ∃ as fs1 fsy1, fs_run fs_hello fs_calls_sample = some (as, fs1) ∧
      fs_run (fs_hello.set_block 30 (buffer_of "junk")) fs_calls_sample = some (as, fsy1) ∧
      same_files fs1 fsy1 :=
  have hd : differs_in_free_blocks fs_hello (fs_hello.set_block 30 (buffer_of "junk")) :=
    differs_set_block fs_hello (fs_reachable_sound fs_hello fs_reachable_hello) 30 _
      (by decide) (by unfold block_used; decide!) (buffer_of_lt "junk" (by decide))
  have hok : ∀ c, c ∈ fs_calls_sample → fs_call_ok c := by
    intro c hc
    unfold fs_calls_sample at hc
    simp only [List.mem_cons, List.mem_singleton, List.not_mem_nil, or_false] at hc
    rcases hc with e | e | e | e | e | e
    · rw [e]
      show ∀ c, c ∈ bytes "/b" → c < 256
      decide
    · rw [e]
      trivial
    · rw [e]
      exact buffer_of_lt "some bytes" (by decide)
    · rw [e]
      trivial
    · rw [e]
      trivial
    · rw [e]
      trivial
  ⟨fs_reachable_hello, hd, by decide!, hok,
    free_block_contents_never_show fs_hello _ fs_reachable_hello hd fs_calls_sample hok⟩
